import Mathlib

/-!
# Chunk hasher and incremental file backup of the backup server: a shallow embedding

Embedding of `urbackupcommon/chunk_hasher.cpp` (namespace `ChunkHasher`) and of the
loops of `urbackupserver/IncrFileBackup.cpp` over the file listing (namespace
`IncrFileBackup`).  Files are in-memory byte sequences with a cursor; a file
additionally carries the behaviour of its `Write` calls, so that short and zero
writes can be expressed.  The digest primitives (adler-32, MD5, SHA) live outside
the translated files and are taken as parameters, and so are the file system, the
database and the other threads that the tree walk talks to.
-/
namespace ChunkHasher

/-- A byte of a file or buffer (a `char` of the source). -/
abbrev Byte := Nat

/-! ## Constants -/

/-- Modelled from the spec: `c_checkpoint_dist` of `fileservplugin/chunk_settings.h`,
the size `S_BIG` of a big chunk (512 KiB). -/
def c_checkpoint_dist : Nat := 524288

/-- Modelled from the spec: `c_small_hash_dist` of `fileservplugin/chunk_settings.h`,
the size `S_SMALL` of a small chunk (512 bytes). -/
def c_small_hash_dist : Nat := 512

/-- Modelled from the spec: `big_hash_size` of `fileservplugin/chunk_settings.h`,
the 16 bytes of an MD5 digest. -/
def big_hash_size : Nat := 16

/-- Modelled from the spec: `small_hash_size` of `fileservplugin/chunk_settings.h`,
the 4 bytes of an adler-32 value. -/
def small_hash_size : Nat := 4

/-- Modelled from the spec: `chunkhash_single_size` of `fileservplugin/chunk_settings.h`,
the size `H = 16 + 4·N` of one hashfile record. -/
def chunkhash_single_size : Nat :=
  big_hash_size + small_hash_size * (c_checkpoint_dist / c_small_hash_dist)

/-- Size of the window buffer `sha_buf` (`sha_buf.resize(32768)`). -/
def sha_buf_size : Nat := 32768

/-! ## Integers in memory -/

/-- The `w` low bytes of `n`, least significant first: the memory image of
`little_endian(n)` for an unsigned integer of `w` bytes. -/
def le_bytes : Nat → Nat → List Byte
  | 0, _ => []
  | w + 1, n => (n % 256) :: le_bytes w (n / 256)

/-- Value of a little-endian byte sequence. -/
def read_le : List Byte → Nat
  | [] => 0
  | b :: bs => b + 256 * read_le bs

/-- Memory image of a signed 64-bit integer (two's complement, little endian). -/
def i64_bytes (x : Int) : List Byte :=
  le_bytes 8 (x % (2 ^ 64 : Int)).toNat

/-- Signed value of a 64-bit pattern. -/
def i64_of_nat (n : Nat) : Int :=
  if n % 2 ^ 64 < 2 ^ 63 then ((n % 2 ^ 64 : Nat) : Int) else ((n % 2 ^ 64 : Nat) : Int) - 2 ^ 64

/-! ## Digest primitives -/

/-- The digest primitives used by the chunk hasher.  `adler32 buf` stands for
`urb_adler32(urb_adler32(0, NULL, 0), buf, len)`, `md5 d` for the raw digest of an
`MD5` object that was updated with the pieces of `d` in order and finalized, and
`sha d` for `sha_def_final` of a context that was updated with the pieces of `d`;
`sha_digest_size` is `SHA_DEF_DIGEST_SIZE`. -/
structure HashFns where
  adler32 : List Byte → Nat
  md5 : List Byte → List Byte
  md5_size : ∀ d, (md5 d).length = big_hash_size
  sha : List Byte → List Byte
  sha_digest_size : Nat
  sha_digest_size_pos : 0 < sha_digest_size
  sha_size : ∀ d, (sha d).length = sha_digest_size

/-! ## Files -/

/-- An `IFile` / `IFsFile`: content, file cursor, and the behaviour of the sink.
`accept k n` is the number of bytes the `k`-th call of `Write` takes when it is
asked for `n` bytes (never more than `n`); `nwrites` counts the calls so far.
`punch_ok` says whether `PunchHole` is supported. -/
structure IFile where
  data : List Byte
  cursor : Nat
  accept : Nat → Nat → Nat
  nwrites : Nat
  punch_ok : Bool

/-- Content of a file after `b` was stored at offset `off` (a gap behind the old
end of file reads as zero). -/
def write_at (d : List Byte) (off : Nat) (b : List Byte) : List Byte :=
  d.take off ++ List.replicate (off - d.length) 0 ++ b ++ d.drop (off + b.length)

/-- The call `f->Write(buf, |buf|)`: returns the number of bytes written. -/
def IFile.Write (f : IFile) (buf : List Byte) : Nat × IFile :=
  let rc := min (f.accept f.nwrites buf.length) buf.length
  (rc, { f with
          data := if rc = 0 then f.data else write_at f.data f.cursor (buf.take rc),
          cursor := f.cursor + rc,
          nwrites := f.nwrites + 1 })

/-- The call `f->Read(buf, n)`: the bytes read (their number is the return value). -/
def IFile.Read (f : IFile) (n : Nat) : List Byte × IFile :=
  let b := (f.data.drop f.cursor).take n
  (b, { f with cursor := f.cursor + b.length })

/-- The call `f->Seek(p)`; seeking in an in-memory file succeeds. -/
def IFile.Seek (f : IFile) (p : Nat) : Bool × IFile :=
  (true, { f with cursor := p })

/-- The call `f->Size()`. -/
def IFile.Size (f : IFile) : Nat := f.data.length

/-- Zeroes the bytes of `d` at offsets in `[off, off+size)`, keeping the length. -/
def zero_range (d : List Byte) (off size : Nat) : List Byte :=
  d.take off ++ List.replicate (min size (d.length - off)) 0 ++ d.drop (off + size)

/-- Modelled from the spec: `IFsFile::PunchHole(offset, size)` of the file interface.
When the file system supports it the range reads as zero afterwards and the
file size is unchanged (the size is restored later from the sparse watermark). -/
def IFile.PunchHole (f : IFile) (offset size : Int) : Bool × IFile :=
  if f.punch_ok then
    (true, { f with data := zero_range f.data offset.toNat size.toNat })
  else
    (false, f)

/-- Modelled from the spec: `IFsFile::Resize(n)` of the file interface: truncates, or
extends with zero bytes. -/
def IFile.Resize (f : IFile) (n : Int) : Bool × IFile :=
  (true, { f with data := f.data.take n.toNat ++ List.replicate (n.toNat - f.data.length) 0 })

/-- The `INotEnoughSpaceCallback`: `answer k` is what the `k`-th call of
`handle_not_enough_space` returns; `calls` counts the calls so far. -/
structure INotEnoughSpaceCallback where
  answer : Nat → Bool
  calls : Nat

/-- The call `cb->handle_not_enough_space(path)`. -/
def INotEnoughSpaceCallback.handle_not_enough_space (cb : INotEnoughSpaceCallback) :
    Bool × INotEnoughSpaceCallback :=
  (cb.answer cb.calls, { cb with calls := cb.calls + 1 })

/-! ## The resilient writer -/

/-- The `do … while` loop of `writeFileRepeatTries`; `fuel` bounds the number of
iterations, `none` means the bound was hit.  Returns the last `rc`. -/
def writeFileRepeatTries_loop (buf : List Byte) :
    Nat → IFile → Nat → Int → Option (Nat × IFile)
  | 0, _, _, _ => none
  | fuel + 1, f, written, tries =>
    let (rc, f) := f.Write (buf.drop written)
    let written := written + rc
    let tries := if rc = 0 then tries - 1 else tries
    if written < buf.length ∧ (rc > 0 ∨ tries > 0) then
      writeFileRepeatTries_loop buf fuel f written tries
    else
      some (rc, f)

/-- The function `writeFileRepeatTries(f, buf, bsize)`.  Every iteration either
writes a byte or uses up one of the 50 tries, which bounds the loop. -/
def writeFileRepeatTries (f : IFile) (buf : List Byte) : Option (Bool × IFile) :=
  match writeFileRepeatTries_loop buf (buf.length + 51) f 0 50 with
  | none => none
  | some (rc, f) => if rc = 0 then some (false, f) else some (true, f)

/-- The value of an `int` that is assigned the `_u32` value `w`, as in
`int rc=f->Write(…)`: values from `2^31` on come out negative. -/
def int_of_u32 (w : Nat) : Int :=
  if w % 2 ^ 32 < 2 ^ 31 then ((w % 2 ^ 32 : Nat) : Int)
  else ((w % 2 ^ 32 : Nat) : Int) - 2 ^ 32

/-- The `do … while` loop of `writeRepeatFreeSpace`: `written` is a `_u32` and `rc` an
`int`, so that `written+=rc` is taken modulo `2^32` and `rc>0` is a test of a signed
value.  The call `f->Write(buf+written, (_u32)bsize-written)` asks for the rest of the
buffer (the cast is the identity for a buffer of fewer than `2^32` bytes).  Returns the
last `rc`. -/
def writeRepeatFreeSpace_loop (buf : List Byte) :
    Nat → IFile → Nat → Option (Int × IFile)
  | 0, _, _ => none
  | fuel + 1, f, written =>
    let (w, f) := f.Write (buf.drop written)
    let rc := int_of_u32 w
    let written := (written + w) % 2 ^ 32
    if written < buf.length ∧ rc > 0 then
      writeRepeatFreeSpace_loop buf fuel f written
    else
      some (rc, f)

/-- The function `writeRepeatFreeSpace(f, buf, bsize, cb)`.  The result holds the
returned flag, the sink and the callback object after the call.  With a callback the
first call `f->Write(buf, (_u32)bsize)` asks for the whole buffer (the cast is the
identity for a buffer of fewer than `2^32` bytes); the value that `Write` returns is
kept in `int rc`; in `rc!=bsize` it is converted to `size_t` (modulo `2^64`), and
`_u32 written=rc` takes it modulo `2^32`. -/
def writeRepeatFreeSpace (f : IFile) (buf : List Byte) (cb : Option INotEnoughSpaceCallback) :
    Option (Bool × IFile × Option INotEnoughSpaceCallback) :=
  match cb with
  | none =>
    match writeFileRepeatTries f buf with
    | none => none
    | some (ok, f) => some (ok, f, none)
  | some cb =>
    let (w, f) := f.Write buf
    let rc := int_of_u32 w
    if rc % 2 ^ 64 ≠ (buf.length : Int) then
      let (again, cb) := cb.handle_not_enough_space
      if again then
        match writeRepeatFreeSpace_loop buf (buf.length + 1) f (w % 2 ^ 32) with
        | none => none
        | some (rc, f) => if rc = 0 then some (false, f, some cb) else some (true, f, some cb)
      else
        some (false, f, some cb)
    else
      some (true, f, some cb)

/-! ## The sparse-extent template -/

/-- The `MD5` object of `build_sparse_extent_content` after the loop that updates
it once per small chunk with the zero buffer. -/
def sparse_md5_input : Nat → List Byte
  | 0 => []
  | k + 1 => sparse_md5_input k ++ List.replicate c_small_hash_dist 0

/-- The loop of `build_sparse_extent_content` that stores `small_hash` once per
small chunk: the state is `ret` and the offset of `ptr` in it. -/
def store_small_hashes (small_hash : List Byte) : Nat → List Byte × Nat → List Byte × Nat
  | 0, s => s
  | k + 1, (ret, ptr) => store_small_hashes small_hash k (write_at ret ptr small_hash, ptr + 4)

/-- The function `build_sparse_extent_content()`.  Both loops run
`c_checkpoint_dist / c_small_hash_dist` times. -/
def build_sparse_extent_content (H : HashFns) : List Byte :=
  let buf := List.replicate c_small_hash_dist 0
  let small_hash := le_bytes 4 (H.adler32 buf)
  let n := c_checkpoint_dist / c_small_hash_dist
  let big_hash := H.md5 (sparse_md5_input n)
  let ret := List.replicate chunkhash_single_size 0
  let ret := write_at ret 0 (big_hash.take big_hash_size)
  (store_small_hashes small_hash n (ret, big_hash_size)).1

/-- The global `sparse_extent_content` of the translation unit. -/
structure Globals where
  sparse_extent_content : List Byte

/-- The function `init_chunk_hasher()`. -/
def init_chunk_hasher (H : HashFns) (_g : Globals) : Globals :=
  { sparse_extent_content := build_sparse_extent_content H }

/-- The function `get_sparse_extent_content()` (the `assert` is not compiled into
release builds and has no effect on the state). -/
def get_sparse_extent_content (g : Globals) : List Byte :=
  g.sparse_extent_content

/-! ## The chunk hasher -/

/-- Modelled from the spec: `IFsFile::SSparseExtent` of the file interface, a
known-sparse region `(offset, size)`; offset `-1` means that there is none. -/
structure SSparseExtent where
  offset : Int
  size : Int
deriving DecidableEq

/-- The default-constructed extent. -/
def SSparseExtent.unset : SSparseExtent := { offset := -1, size := -1 }

/-- Modelled from the spec: `IExtentIterator::nextExtent()`, the ordered stream of
known-sparse regions; an exhausted iterator returns the unset extent. -/
def nextExtent : List SSparseExtent → SSparseExtent × List SSparseExtent
  | [] => (SSparseExtent.unset, [])
  | e :: es => (e, es)

/-- The function `buf_is_zero(buf, bsize)`. -/
def buf_is_zero : List Byte → Bool
  | [] => true
  | b :: bs => if b ≠ 0 then false else buf_is_zero bs

/-- The function `add_extent(ctx, ext_start, ext_size)`: a SHA context is the
sequence of bytes it was updated with. -/
def add_extent (ctx : List Byte) (ext_start ext_size : Int) : List Byte :=
  ctx ++ i64_bytes ext_start ++ i64_bytes ext_size

/-- The call `memcpy(dst + off, src, |src|)`. -/
def memcpy_at (dst : List Byte) (off : Nat) (src : List Byte) : List Byte :=
  dst.take off ++ src ++ dst.drop (off + src.length)

/-- The arguments of `build_chunk_hashs` (`show_pc` only logs and is left out).
`uninit` is the content of the freshly allocated `SChunkHashes` object. -/
structure Args where
  f : IFile
  hashoutput : IFile
  cb : Option INotEnoughSpaceCallback
  ret_sha2 : Bool
  copy : Option IFile
  modify_inplace : Bool
  inplace_written : Option Int
  hashinput : Option IFile
  extent_iterator : Option (List SSparseExtent)
  uninit : List Byte

/-- The arguments and local variables of `build_chunk_hashs`.  An MD5 or SHA
context is the sequence of bytes it was updated with. -/
structure State where
  f : IFile
  hashoutput : IFile
  cb : Option INotEnoughSpaceCallback
  ret_sha2 : Bool
  copy : Option IFile
  modify_inplace : Bool
  inplace_written : Option Int
  hashinput : Option IFile
  extent_iterator : Option (List SSparseExtent)
  fsize : Nat
  input_size : Int
  ctx : List Byte
  extent_ctx : List Byte
  sha_buf : List Byte
  copy_write_pos : Nat
  copy_read_eof : Bool
  hashoutputpos : Nat
  chunk_hashes : Option (List Byte)
  curr_extent : SSparseExtent
  sparse_extent_start : Int
  copy_sparse_extent_start : Int
  copy_max_sparse : Int
  has_sparse_extent : Bool
  pos : Nat
  big_hash : List Byte
  big_hash_copy_control : List Byte
  hashoutputpos_start : Nat
  chunkidx : Nat
  copy_write_pos_start : Nat

/-- Result of a piece of the function body: control goes on with the next
statement, or the function returns `ret`. -/
inductive Step where
  | next (st : State)
  | exit (ret : List Byte) (st : State)

/-- The call `writeRepeatFreeSpace(hashoutput, buf, |buf|, cb)`. -/
def write_hashoutput (st : State) (buf : List Byte) : Option (Bool × State) :=
  match writeRepeatFreeSpace st.hashoutput buf st.cb with
  | none => none
  | some (ok, ho, cb) => some (ok, { st with hashoutput := ho, cb := cb })

/-- The call `writeRepeatFreeSpace(copy, buf, |buf|, cb)` for the replica `c`. -/
def write_copy (st : State) (c : IFile) (buf : List Byte) : Option (Bool × State) :=
  match writeRepeatFreeSpace c buf st.cb with
  | none => none
  | some (ok, c, cb) => some (ok, { st with copy := some c, cb := cb })

/-- The statement `*inplace_written += r` under `if(inplace_written!=NULL)`. -/
def add_inplace_written (st : State) (r : Nat) : State :=
  match st.inplace_written with
  | none => st
  | some w => { st with inplace_written := some (w + r) }

/-- The block at the top of the main loop that fetches the record of the previous
hashfile for the current big chunk (`if(chunk_hashes.get()) …`). -/
def load_chunk_hashes (st : State) : State :=
  match st.chunk_hashes, st.hashinput with
  | some ch, some hi =>
    if (st.pos : Int) < st.input_size then
      let (_, hi) := hi.Seek st.hashoutputpos
      let (rd, hi) := hi.Read chunkhash_single_size
      if rd.length = 0 then
        { st with hashinput := some hi, chunk_hashes := none }
      else
        { st with hashinput := some hi, chunk_hashes := some (memcpy_at ch 0 rd) }
    else
      { st with chunk_hashes := none }
  | some _, none => { st with chunk_hashes := none }
  | none, _ => st

/-- The loop `while (curr_extent.offset != -1 && curr_extent.offset +
curr_extent.size < pos) curr_extent = extent_iterator->nextExtent();`, by
recursion on the extents that are left in the iterator. -/
def skip_extents (pos : Nat) : SSparseExtent → List SSparseExtent → SSparseExtent × List SSparseExtent
  | cur, [] =>
    if cur.offset ≠ -1 ∧ cur.offset + cur.size < pos then (SSparseExtent.unset, []) else (cur, [])
  | cur, e :: es =>
    if cur.offset ≠ -1 ∧ cur.offset + cur.size < pos then skip_extents pos e es else (cur, e :: es)

/-- The extent loop on the state (without an iterator `curr_extent` is unset and
the loop does nothing). -/
def advance_extent (st : State) : State :=
  match st.extent_iterator with
  | none => st
  | some it =>
    let (cur, it) := skip_extents st.pos st.curr_extent it
    { st with curr_extent := cur, extent_iterator := some it }

/-- The zero-fill loop `for (int64 written = 0; written < curr_extent.size;)` of the
known-sparse path, for the replica `c`; the flag of the result is `false` when a
write failed (the function then returns `""`).  The body of the loop does not
change `written`. -/
def zero_fill_loop (size : Int) :
    Nat → IFile → Option INotEnoughSpaceCallback → Int →
      Option (Bool × IFile × Option INotEnoughSpaceCallback)
  | 0, _, _, _ => none
  | fuel + 1, c, cb, written =>
    if written < size then
      let towrite := (min (size - written) (sha_buf_size : Int)).toNat % 2 ^ 32
      match writeRepeatFreeSpace c (List.replicate towrite 0) cb with
      | none => none
      | some (false, c, cb) => some (false, c, cb)
      | some (true, c, cb) => zero_fill_loop size fuel c cb written
    else
      some (true, c, cb)

/-- The statement `if (ret_sha2 && sparse_extent_start == -1) sparse_extent_start = pos;`
of the known-sparse path. -/
def open_known_sparse_run (st : State) : State :=
  if st.ret_sha2 ∧ st.sparse_extent_start = -1 then
    { st with sparse_extent_start := st.pos }
  else st

/-- The block `if (copy_sparse_extent_start == -1)` of the known-sparse path: the
hole is punched into the replica, or the range is filled with zero bytes. -/
def punch_copy (fuel : Nat) (st : State) : Option Step :=
  if st.copy_sparse_extent_start = -1 then
    match st.copy with
    | none =>
      some (Step.next { st with copy_sparse_extent_start := st.pos,
                                copy_max_sparse := st.curr_extent.offset + st.curr_extent.size })
    | some c =>
      let (punched, c) := c.PunchHole st.curr_extent.offset st.curr_extent.size
      if ¬ punched then
        let (sought, c) := c.Seek st.curr_extent.offset.toNat
        if sought then
          match zero_fill_loop st.curr_extent.size fuel c st.cb 0 with
          | none => none
          | some (false, c, cb) =>
            some (Step.exit [] { st with copy_sparse_extent_start := st.pos, copy := some c, cb := cb })
          | some (true, c, cb) =>
            some (Step.next { st with copy_sparse_extent_start := st.pos, copy := some c, cb := cb })
        else
          some (Step.exit [] { st with copy_sparse_extent_start := st.pos, copy := some c })
      else
        some (Step.next { st with copy_sparse_extent_start := st.pos, copy := some c,
                                  copy_max_sparse := st.curr_extent.offset + st.curr_extent.size })
  else
    some (Step.next st)

/-- The known-sparse fast path: the body of the `if` at the top of the main loop,
up to its `continue`. -/
def sparse_chunk (g : Globals) (fuel : Nat) (st : State) (epos : Nat) : Option Step :=
  let c := get_sparse_extent_content g
  match write_hashoutput st c with
  | none => none
  | some (false, st) => some (Step.exit [] st)
  | some (true, st) =>
    let st := open_known_sparse_run { st with hashoutputpos := st.hashoutputpos + c.length }
    match punch_copy fuel st with
    | none => none
    | some (Step.exit ret st) => some (Step.exit ret st)
    | some (Step.next st) =>
      let (sought, f) := st.f.Seek epos
      let st := { st with copy_write_pos := st.copy_write_pos + c_checkpoint_dist,
                          pos := epos, f := f }
      if ¬ sought then some (Step.exit [] st) else some (Step.next st)

/-- The statements that close an open sparse run (`if (sparse_extent_start != -1)`
inside the small-chunk loop). -/
def close_sparse_run (st : State) : State :=
  if st.sparse_extent_start ≠ -1 then
    let end_pos : Int := ((st.pos / st.sha_buf.length) * st.sha_buf.length : Nat)
    { st with has_sparse_extent := true,
              extent_ctx := add_extent st.extent_ctx st.sparse_extent_start (end_pos - st.sparse_extent_start),
              sparse_extent_start := -1 }
  else st

/-- The statement `if (sparse_extent_start == -1) sparse_extent_start =
(pos / sha_buf.size())*sha_buf.size();` for a window that is all zero. -/
def open_sparse_run (st : State) : State :=
  if st.sparse_extent_start = -1 then
    { st with sparse_extent_start := ((st.pos / st.sha_buf.length) * st.sha_buf.length : Nat) }
  else st

/-- The call `sha_def_update(&ctx, sha_buf.data(), n)`. -/
def feed_window (st : State) (n : Nat) : State :=
  { st with ctx := st.ctx ++ st.sha_buf.take n }

/-- The block `if(ret_sha2)` of the small-chunk loop for the bytes `buf` just read. -/
def sha_window (st : State) (buf : List Byte) : State :=
  if st.ret_sha2 then
    let r := buf.length
    let size := st.sha_buf.length
    let buf_offset := st.pos % size
    let st := { st with sha_buf := memcpy_at st.sha_buf buf_offset buf }
    if (st.pos + r) % size = 0 then
      if buf_is_zero st.sha_buf then open_sparse_run st
      else feed_window (close_sparse_run st) size
    else if r < c_small_hash_dist ∨ st.pos + r = st.fsize then
      feed_window (close_sparse_run st) (buf_offset + r)
    else st
  else st

/-- The statement `if(copy_r < c_small_hash_dist) copy_read_eof=true;`. -/
def mark_copy_read_eof (st : State) (copy_r : Nat) : State :=
  if copy_r < c_small_hash_dist then { st with copy_read_eof := true } else st

/-- The statements `copy->Seek(copy_write_pos); if (!writeRepeatFreeSpace(copy, buf, r, cb))
return ""; if(inplace_written!=NULL) *inplace_written+=r;` for the replica `c`. -/
def rewrite_copy (st : State) (c : IFile) (buf : List Byte) : Option Step :=
  let (_, c) := c.Seek st.copy_write_pos
  match write_copy st c buf with
  | none => none
  | some (false, st) => some (Step.exit [] st)
  | some (true, st) => some (Step.next (add_inplace_written st buf.length))

/-- The statement `copy_write_pos+=r` behind a piece that may have returned. -/
def bump_copy_write_pos (s : Option Step) (r : Nat) : Option Step :=
  match s with
  | some (Step.next st) => some (Step.next { st with copy_write_pos := st.copy_write_pos + r })
  | other => other

/-- Replica reconciliation in `modify_inplace` mode while the record `ch` of the
previous hashfile is available (`if(chunk_hashes.get())`). -/
def reconcile_hashed (st : State) (c : IFile) (ch buf small_hash : List Byte) : Option Step :=
  let r := buf.length
  if small_hash = (ch.drop (big_hash_size + st.chunkidx * small_hash_size)).take 4 then
    some (Step.next { st with big_hash_copy_control := st.big_hash_copy_control ++ buf,
                              copy_write_pos := st.copy_write_pos + r })
  else
    let (_, c) := c.Seek st.copy_write_pos
    let (copy_buf, c) := c.Read c_small_hash_dist
    let st := mark_copy_read_eof st copy_buf.length
    let st := { st with big_hash_copy_control := st.big_hash_copy_control ++ copy_buf }
    bump_copy_write_pos (rewrite_copy st c buf) r

/-- Replica reconciliation in `modify_inplace` mode without a record of the previous
hashfile: the bytes of the replica are read and compared. -/
def reconcile_compare (st : State) (c : IFile) (buf : List Byte) : Option Step :=
  let r := buf.length
  if st.copy_read_eof then
    bump_copy_write_pos (rewrite_copy st c buf) r
  else
    let (_, c) := c.Seek st.copy_write_pos
    let (copy_buf, c) := c.Read c_small_hash_dist
    let st := mark_copy_read_eof { st with copy := some c } copy_buf.length
    if st.copy_read_eof ∨ copy_buf.length ≠ r ∨ copy_buf ≠ buf then
      bump_copy_write_pos (rewrite_copy st c buf) r
    else
      some (Step.next { st with copy_write_pos := st.copy_write_pos + r })

/-- The block `if(copy!=NULL)` of the small-chunk loop for the bytes `buf` just read
and their small hash. -/
def reconcile_copy (st : State) (buf small_hash : List Byte) : Option Step :=
  match st.copy with
  | none => some (Step.next st)
  | some c =>
    if st.modify_inplace then
      match st.chunk_hashes with
      | some ch => reconcile_hashed st c ch buf small_hash
      | none => reconcile_compare st c buf
    else
      match write_copy st c buf with
      | none => none
      | some (false, st) => some (Step.exit [] st)
      | some (true, st) => some (Step.next st)

/-- The body of the small-chunk loop (without the increments of the `for`). -/
def small_chunk_body (H : HashFns) (st : State) : Option Step :=
  let (buf, f) := st.f.Read c_small_hash_dist
  let small_hash := le_bytes 4 (H.adler32 buf)
  match write_hashoutput { st with f := f, big_hash := st.big_hash ++ buf } small_hash with
  | none => none
  | some (false, st) => some (Step.exit [] st)
  | some (true, st) =>
    let st := sha_window { st with hashoutputpos := st.hashoutputpos + small_hash_size } buf
    reconcile_copy st buf small_hash

/-- The small-chunk loop `for(;pos<epos && pos<fsize;pos+=c_small_hash_dist,++chunkidx)`. -/
def small_chunk_loop (H : HashFns) (epos : Nat) : Nat → State → Option Step
  | 0, _ => none
  | fuel + 1, st =>
    if st.pos < epos ∧ st.pos < st.fsize then
      match small_chunk_body H st with
      | none => none
      | some (Step.exit ret st) => some (Step.exit ret st)
      | some (Step.next st) =>
        small_chunk_loop H epos fuel
          { st with pos := st.pos + c_small_hash_dist, chunkidx := st.chunkidx + 1 }
    else
      some (Step.next st)

/-- The body of the re-copy loop of the collision recovery for the replica `c`. -/
def recopy_body (st : State) (c : IFile) : Option Step :=
  let (buf, f) := st.f.Read c_small_hash_dist
  bump_copy_write_pos (rewrite_copy { st with f := f } c buf) buf.length

/-- The re-copy loop of the collision recovery
`for(;pos<epos && pos<fsize;pos+=c_small_hash_dist)`; `copy` is not `NULL` where the
loop is entered. -/
def recopy_loop (epos : Nat) : Nat → State → Option Step
  | 0, _ => none
  | fuel + 1, st =>
    if st.pos < epos ∧ st.pos < st.fsize then
      match st.copy with
      | none => none
      | some c =>
        match recopy_body st c with
        | none => none
        | some (Step.exit ret st) => some (Step.exit ret st)
        | some (Step.next st) =>
          recopy_loop epos fuel { st with pos := st.pos + c_small_hash_dist }
    else
      some (Step.next st)

/-- The small-hash collision recovery behind the small-chunk loop
(`if(copy!=NULL && chunk_hashes.get() && modify_inplace)`). -/
def collision_recovery (H : HashFns) (fuel : Nat) (st : State) (epos : Nat) : Option Step :=
  match st.copy, st.chunk_hashes with
  | some _, some ch =>
    if st.modify_inplace then
      if H.md5 st.big_hash_copy_control ≠ ch.take big_hash_size then
        let (_, f) := st.f.Seek (epos - c_checkpoint_dist)
        recopy_loop epos fuel
          { st with copy_write_pos := st.copy_write_pos_start,
                    pos := epos - c_checkpoint_dist, f := f }
      else some (Step.next st)
    else some (Step.next st)
  | _, _ => some (Step.next st)

/-- The normal big-chunk path: the rest of the body of the main loop.  The result
of the write of the 16 zero bytes that reserve the MD5 slot is not looked at. -/
def normal_chunk (H : HashFns) (fuel : Nat) (st : State) (epos : Nat) : Option Step :=
  let st := { st with copy_sparse_extent_start := -1, big_hash := [],
                      big_hash_copy_control := [], hashoutputpos_start := st.hashoutputpos }
  match write_hashoutput st (List.replicate big_hash_size 0) with
  | none => none
  | some (_, st) =>
    let st := { st with hashoutputpos := st.hashoutputpos + big_hash_size,
                        chunkidx := 0,
                        copy_write_pos_start := st.copy_write_pos }
    match small_chunk_loop H epos fuel st with
    | none => none
    | some (Step.exit ret st) => some (Step.exit ret st)
    | some (Step.next st) =>
      let (_, ho) := st.hashoutput.Seek st.hashoutputpos_start
      match write_hashoutput { st with hashoutput := ho } ((H.md5 st.big_hash).take big_hash_size) with
      | none => none
      | some (false, st) => some (Step.exit [] st)
      | some (true, st) =>
        match collision_recovery H fuel st epos with
        | none => none
        | some (Step.exit ret st) => some (Step.exit ret st)
        | some (Step.next st) =>
          let (_, ho) := st.hashoutput.Seek st.hashoutputpos
          some (Step.next { st with hashoutput := ho })

/-- The normal big-chunk path up to the collision recovery: the placeholder, the
small-chunk loop and the write of the finalized MD5 (the statements of `normal_chunk`
in front of `if(copy!=NULL && chunk_hashes.get() && modify_inplace)`). -/
def hash_big_chunk (H : HashFns) (fuel : Nat) (st : State) (epos : Nat) : Option Step :=
  let st := { st with copy_sparse_extent_start := -1, big_hash := [],
                      big_hash_copy_control := [], hashoutputpos_start := st.hashoutputpos }
  match write_hashoutput st (List.replicate big_hash_size 0) with
  | none => none
  | some (_, st) =>
    let st := { st with hashoutputpos := st.hashoutputpos + big_hash_size,
                        chunkidx := 0,
                        copy_write_pos_start := st.copy_write_pos }
    match small_chunk_loop H epos fuel st with
    | none => none
    | some (Step.exit ret st) => some (Step.exit ret st)
    | some (Step.next st) =>
      let (_, ho) := st.hashoutput.Seek st.hashoutputpos_start
      match write_hashoutput { st with hashoutput := ho } ((H.md5 st.big_hash).take big_hash_size) with
      | none => none
      | some (false, st) => some (Step.exit [] st)
      | some (true, st) => some (Step.next st)

/-- The condition under which `collision_recovery` re-copies the big chunk:
`copy!=NULL && chunk_hashes.get() && modify_inplace` and the control MD5 differs from
the recorded big hash. -/
def recovery_fires (H : HashFns) (st : State) : Bool :=
  match st.copy, st.chunk_hashes with
  | some _, some ch =>
    st.modify_inplace && decide (H.md5 st.big_hash_copy_control ≠ ch.take big_hash_size)
  | _, _ => false

/-- The condition of the known-sparse fast path at the top of the main loop. -/
def known_sparse (st : State) (epos : Nat) : Bool :=
  decide (st.curr_extent.offset ≠ -1
    ∧ st.curr_extent.offset ≤ st.pos
    ∧ st.curr_extent.offset + st.curr_extent.size ≥ epos
    ∧ epos ≤ st.fsize)

/-- The main loop `for(_i64 pos=0;pos<fsize;)`. -/
def main_loop (H : HashFns) (g : Globals) : Nat → State → Option Step
  | 0, _ => none
  | fuel + 1, st =>
    if st.pos < st.fsize then
      let st := load_chunk_hashes st
      let st := advance_extent st
      let epos := st.pos + c_checkpoint_dist
      if known_sparse st epos then
        match sparse_chunk g fuel st epos with
        | none => none
        | some (Step.exit ret st) => some (Step.exit ret st)
        | some (Step.next st) => main_loop H g fuel st
      else
        match normal_chunk H fuel st epos with
        | none => none
        | some (Step.exit ret st) => some (Step.exit ret st)
        | some (Step.next st) => main_loop H g fuel st
    else
      some (Step.next st)

/-- The iterations of the main loop: for each iteration that runs the body, the fuel
left for the body and the state at the top of the loop. -/
def main_loop_heads (H : HashFns) (g : Globals) : Nat → State → List (Nat × State)
  | 0, _ => []
  | fuel + 1, st =>
    if st.pos < st.fsize then
      let st1 := advance_extent (load_chunk_hashes st)
      let epos := st1.pos + c_checkpoint_dist
      (fuel, st) ::
        (if known_sparse st1 epos then
          match sparse_chunk g fuel st1 epos with
          | some (Step.next st2) => main_loop_heads H g fuel st2
          | _ => []
        else
          match normal_chunk H fuel st1 epos with
          | some (Step.next st2) => main_loop_heads H g fuel st2
          | _ => [])
    else
      []

/-- The state at the entry of `build_chunk_hashs`, behind `f->Seek(0)`,
`hashoutput->Seek(0)` and `fsize=f->Size()`; the other local variables have the
values of their declarations. -/
def entry_state (a : Args) : State :=
  let (_, f) := a.f.Seek 0
  let (_, ho) := a.hashoutput.Seek 0
  { f := f, hashoutput := ho, cb := a.cb, ret_sha2 := a.ret_sha2, copy := a.copy,
    modify_inplace := a.modify_inplace, inplace_written := a.inplace_written,
    hashinput := a.hashinput, extent_iterator := a.extent_iterator,
    fsize := f.Size, input_size := 0, ctx := [], extent_ctx := [], sha_buf := [],
    copy_write_pos := 0, copy_read_eof := false, hashoutputpos := 8,
    chunk_hashes := none, curr_extent := SSparseExtent.unset,
    sparse_extent_start := -1, copy_sparse_extent_start := -1, copy_max_sparse := -1,
    has_sparse_extent := false, pos := 0, big_hash := [], big_hash_copy_control := [],
    hashoutputpos_start := 0, chunkidx := 0, copy_write_pos_start := 0 }

/-- The block `if(hashinput!=NULL)` that reads the size field of the previous
hashfile. -/
def read_input_size (st : State) : Step :=
  match st.hashinput with
  | none => Step.next st
  | some hi =>
    let (_, hi) := hi.Seek 0
    let (rd, hi) := hi.Read 8
    if rd.length ≠ 8 then Step.exit [] { st with hashinput := some hi }
    else Step.next { st with hashinput := some hi, input_size := i64_of_nat (read_le rd) }

/-- The remaining initialisations in front of the main loop: the SHA contexts and
the window buffer, the `SChunkHashes` object, the first extent. -/
def init_locals (a : Args) (st : State) : State :=
  { st with
      sha_buf := if st.ret_sha2 then List.replicate sha_buf_size 0 else st.sha_buf,
      chunk_hashes :=
        match st.hashinput with
        | none => st.chunk_hashes
        | some _ => some a.uninit,
      curr_extent :=
        match st.extent_iterator with
        | none => st.curr_extent
        | some it => (nextExtent it).1,
      extent_iterator :=
        match st.extent_iterator with
        | none => none
        | some it => some (nextExtent it).2 }

/-- The statements of `build_chunk_hashs` in front of the main loop. -/
def prologue (a : Args) : Option Step :=
  let st := entry_state a
  match write_hashoutput st (i64_bytes st.fsize) with
  | none => none
  | some (false, st) => some (Step.exit [] st)
  | some (true, st) =>
    match read_input_size st with
    | Step.exit ret st => some (Step.exit ret st)
    | Step.next st => some (Step.next (init_locals a st))

/-- The block behind the main loop that closes a sparse run which reaches the end
of the file.  The `assert` has no effect on the state. -/
def close_last_run (st : State) : State :=
  if st.sparse_extent_start ≠ -1 then
    { st with has_sparse_extent := true,
              extent_ctx := add_extent st.extent_ctx st.sparse_extent_start
                              ((st.fsize : Int) - st.sparse_extent_start),
              sparse_extent_start := -1 }
  else st

/-- The block behind the main loop that restores the size of the replica from the
sparse watermark. -/
def restore_copy_size (st : State) : Step :=
  match st.copy with
  | none => Step.next st
  | some c =>
    if st.copy_max_sparse ≠ -1 ∧ st.copy_max_sparse > (c.Size : Int) then
      let (ok, c) := c.Resize st.copy_max_sparse
      if ¬ ok then Step.exit [] { st with copy := some c }
      else Step.next { st with copy := some c }
    else Step.next st

/-- The final block `if(ret_sha2) … else return "k";`. -/
def final_digest (H : HashFns) (st : State) : List Byte × State :=
  if st.ret_sha2 then
    if st.has_sparse_extent then
      (H.sha (st.ctx ++ H.sha st.extent_ctx), { st with ctx := st.ctx ++ H.sha st.extent_ctx })
    else
      (H.sha st.ctx, st)
  else
    ([107], st)

/-- The statements of `build_chunk_hashs` behind the main loop. -/
def epilogue (H : HashFns) (st : State) : List Byte × State :=
  match restore_copy_size (close_last_run st) with
  | Step.exit ret st => (ret, st)
  | Step.next st => final_digest H st

/-- The function `build_chunk_hashs`: the returned string and the state of the
files at the return.  `fuel` bounds the number of iterations of each loop;
`none` means that a loop did not finish within the bound. -/
def build_chunk_hashs (H : HashFns) (g : Globals) (fuel : Nat) (a : Args) :
    Option (List Byte × State) :=
  match prologue a with
  | none => none
  | some (Step.exit ret st) => some (ret, st)
  | some (Step.next st) =>
    match main_loop H g fuel st with
    | none => none
    | some (Step.exit ret st) => some (ret, st)
    | some (Step.next st) => some (epilogue H st)

/-! ## Notions used in the statements -/

/-- A sink without faults: every `Write` takes all the bytes it is given. -/
def IFile.ideal (f : IFile) : Prop := ∀ k n, f.accept k n = n

/-- The file after a complete write of `buf` at the cursor. -/
def IFile.put (f : IFile) (buf : List Byte) : IFile :=
  { f with data := write_at f.data f.cursor buf,
           cursor := f.cursor + buf.length,
           nwrites := f.nwrites + 1 }

/-- The slice `d[off .. off+len)` of a byte sequence (shorter at the end of `d`). -/
def slice (d : List Byte) (off len : Nat) : List Byte := (d.drop off).take len

/-- The byte sequence `b`, `k` times in a row. -/
def repeat_bytes (k : Nat) (b : List Byte) : List Byte := (List.replicate k b).flatten

/-- A buffer of `n` zero bytes. -/
def zeros (n : Nat) : List Byte := List.replicate n 0

/-- The number `N` of small chunks in a big chunk. -/
def n_chunks : Nat := c_checkpoint_dist / c_small_hash_dist

/-- The record of the hashfile for an all-zero big chunk as the specification
describes it: the MD5 of `S_BIG` zero bytes, then `N` times the little-endian
adler-32 of `S_SMALL` zero bytes. -/
def sparse_template_spec (H : HashFns) : List Byte :=
  H.md5 (zeros c_checkpoint_dist) ++ repeat_bytes n_chunks (le_bytes 4 (H.adler32 (zeros c_small_hash_dist)))

/-! ### The hashfile -/

/-- The fields of the state that the hashfile depends on. -/
structure HView where
  f : IFile
  hashoutput : IFile
  fsize : Nat
  pos : Nat
  hashoutputpos : Nat
  hashoutputpos_start : Nat
  chunkidx : Nat
  big_hash : List Byte
  curr_extent : SSparseExtent
  extent_iterator : Option (List SSparseExtent)

/-- The part of the state that the hashfile depends on. -/
def State.hview (st : State) : HView :=
  { f := st.f, hashoutput := st.hashoutput, fsize := st.fsize, pos := st.pos,
    hashoutputpos := st.hashoutputpos, hashoutputpos_start := st.hashoutputpos_start,
    chunkidx := st.chunkidx, big_hash := st.big_hash, curr_extent := st.curr_extent,
    extent_iterator := st.extent_iterator }

/-- The small hashes of the first `k` small chunks of `F` from offset `p0` on:
four little-endian bytes of the adler-32 of each. -/
def small_hashes (H : HashFns) (F : List Byte) (p0 : Nat) : Nat → List Byte
  | 0 => []
  | i + 1 => small_hashes H F p0 i
      ++ le_bytes 4 (H.adler32 (slice F (p0 + i * c_small_hash_dist) c_small_hash_dist))

/-- Number of small chunks of big chunk `j` in a file of `n` bytes. -/
def n_small (n j : Nat) : Nat :=
  (min c_checkpoint_dist (n - j * c_checkpoint_dist) + (c_small_hash_dist - 1)) / c_small_hash_dist

/-- The record of big chunk `j` of `F`: the MD5 of the bytes of the big chunk, then
the small hashes of its small chunks. -/
def normal_record (H : HashFns) (F : List Byte) (j : Nat) : List Byte :=
  H.md5 (slice F (j * c_checkpoint_dist) c_checkpoint_dist)
    ++ small_hashes H F (j * c_checkpoint_dist) (n_small F.length j)

/-- Big chunk `j` lies inside the file of `n` bytes and inside one of the extents. -/
def covered (exts : List SSparseExtent) (n j : Nat) : Prop :=
  ∃ e ∈ exts, e.offset ≤ ((j * c_checkpoint_dist : Nat) : Int)
    ∧ (((j + 1) * c_checkpoint_dist : Nat) : Int) ≤ e.offset + e.size
    ∧ (j + 1) * c_checkpoint_dist ≤ n

/-- The records that a run can have written for the first `j` big chunks: for each
big chunk its record, or the template `T` when an extent covers the big chunk. -/
inductive Recs (H : HashFns) (T : List Byte) (exts : List SSparseExtent) (F : List Byte) :
    Nat → List Byte → Prop where
  | zero : Recs H T exts F 0 []
  | normal (j : Nat) (E : List Byte) : Recs H T exts F j E →
      Recs H T exts F (j + 1) (E ++ normal_record H F j)
  | sparse (j : Nat) (E : List Byte) : Recs H T exts F j E → covered exts F.length j →
      Recs H T exts F (j + 1) (E ++ T)

/-- Number of big chunks of a file of `n` bytes. -/
def n_big (n : Nat) : Nat := (n + (c_checkpoint_dist - 1)) / c_checkpoint_dist

/-- Invariant of the main loop for the hashfile.  `init` is the content of the
hashfile before the run, `exts` the extents the iterator was created with. -/
structure HInv (H : HashFns) (T : List Byte) (exts : List SSparseExtent) (F init : List Byte)
    (v : HView) : Prop where
  f_data : v.f.data = F
  fsize : v.fsize = F.length
  f_cursor : v.f.cursor = min v.pos F.length
  ho_ideal : v.hashoutput.ideal
  ho_cursor : v.hashoutput.cursor = v.hashoutputpos
  ho_rest : v.hashoutput.data.drop v.hashoutputpos = init.drop v.hashoutputpos
  cur_mem : v.curr_extent.offset ≠ -1 → v.curr_extent ∈ exts
  it_mem : ∀ it, v.extent_iterator = some it → ∀ e ∈ it, e ∈ exts
  recs : ∃ E j, Recs H T exts F j E
    ∧ v.hashoutput.data.take v.hashoutputpos = i64_bytes F.length ++ E
    ∧ v.hashoutputpos = 8 + E.length
    ∧ (v.pos < F.length → v.pos = j * c_checkpoint_dist)
    ∧ (F.length ≤ v.pos → j = n_big F.length)

/-- Invariant of the small-chunk loop for the hashfile: `P` is the content of the
hashfile in front of the record of the big chunk that starts at `p0`. -/
structure SInv (H : HashFns) (F init P : List Byte) (p0 : Nat) (ce : SSparseExtent)
    (it : Option (List SSparseExtent)) (v : HView) : Prop where
  f_data : v.f.data = F
  fsize : v.fsize = F.length
  f_cursor : v.f.cursor = min v.pos F.length
  ho_ideal : v.hashoutput.ideal
  ho_cursor : v.hashoutput.cursor = v.hashoutputpos
  ho_rest : v.hashoutput.data.drop v.hashoutputpos = init.drop v.hashoutputpos
  cur_eq : v.curr_extent = ce
  it_eq : v.extent_iterator = it
  pos_eq : v.pos = p0 + v.chunkidx * c_small_hash_dist
  idx_bound : c_small_hash_dist * v.chunkidx
    < min c_checkpoint_dist (F.length - p0) + c_small_hash_dist
  big_hash : v.big_hash = slice F p0 (v.chunkidx * c_small_hash_dist)
  content : v.hashoutput.data.take v.hashoutputpos
    = P ++ zeros big_hash_size ++ small_hashes H F p0 v.chunkidx
  hop : v.hashoutputpos = P.length + big_hash_size + small_hash_size * v.chunkidx
  hop_start : v.hashoutputpos_start = P.length

/-- Effect of one run of the body of the small-chunk loop on the fields the hashfile
depends on: a small chunk is read, its small hash is appended to the hashfile. -/
def HView.read_small (H : HashFns) (v : HView) : HView :=
  { v with
    f := (v.f.Read c_small_hash_dist).2,
    big_hash := v.big_hash ++ (v.f.Read c_small_hash_dist).1,
    hashoutput := v.hashoutput.put (le_bytes 4 (H.adler32 (v.f.Read c_small_hash_dist).1)),
    hashoutputpos := v.hashoutputpos + small_hash_size }

/-- The view with the position `pos` and the cursor of the source at `pos` (at the
end of the file at most). -/
def HView.move (v : HView) (pos : Nat) : HView :=
  { v with pos := pos, f := { v.f with cursor := min pos v.f.data.length } }

/-- The increments `pos+=c_small_hash_dist,++chunkidx` of the small-chunk loop. -/
def HView.incr (v : HView) : HView :=
  { v with pos := v.pos + c_small_hash_dist, chunkidx := v.chunkidx + 1 }

/-- Effect of one run of the body of the re-copy loop on the fields the hashfile
depends on: a small chunk is read. -/
def HView.reread (v : HView) : HView :=
  { v with f := (v.f.Read c_small_hash_dist).2 }

/-- Effect of the known-sparse path on the fields the hashfile depends on: the
template `T` is appended to the hashfile and the big chunk is skipped. -/
def HView.sparse_step (T : List Byte) (v : HView) (epos : Nat) : HView :=
  { v with hashoutput := v.hashoutput.put T,
           hashoutputpos := v.hashoutputpos + T.length,
           pos := epos,
           f := (v.f.Seek epos).2 }

/-- Effect of the start of the normal path on the fields the hashfile depends on:
the MD5 slot of the record is reserved with zero bytes. -/
def HView.begin_record (v : HView) : HView :=
  { v with hashoutput := v.hashoutput.put (List.replicate big_hash_size 0),
           hashoutputpos := v.hashoutputpos + big_hash_size,
           hashoutputpos_start := v.hashoutputpos,
           chunkidx := 0,
           big_hash := [] }

/-- Effect of the end of the normal path on the fields the hashfile depends on: the
MD5 slot is overwritten with the digest and the cursor returns to the end of the
record. -/
def HView.end_record (H : HashFns) (v : HView) : HView :=
  { v with hashoutput :=
      (((v.hashoutput.Seek v.hashoutputpos_start).2.put
          ((H.md5 v.big_hash).take big_hash_size)).Seek v.hashoutputpos).2 }

/-- Total size of the records of the first `j` big chunks of a file of `n` bytes. -/
def recs_size (n : Nat) : Nat → Nat
  | 0 => 0
  | j + 1 => recs_size n j + (big_hash_size + small_hash_size * n_small n j)

/-- The records of the first `j` big chunks of `F`, one after the other. -/
def all_records (H : HashFns) (F : List Byte) : Nat → List Byte
  | 0 => []
  | j + 1 => all_records H F j ++ normal_record H F j

/-- The extents only report ranges of `F` that are all zero. -/
def truthful (exts : List SSparseExtent) (F : List Byte) : Prop :=
  ∀ e ∈ exts, ∀ k : Nat, e.offset ≤ (k : Int) → (k : Int) < e.offset + e.size →
    k < F.length → F.getD k 0 = 0

/-- The content and the cursor of the hashfile after a run that returned a non-empty
string (a run without I/O error); `none` when the run did not return or returned
`""`. -/
def hashfile_after (H : HashFns) (g : Globals) (fuel : Nat) (a : Args) :
    Option (List Byte × Nat) :=
  match build_chunk_hashs H g fuel a with
  | some (ret, st) => if ret = [] then none else some (st.hashoutput.data, st.hashoutput.cursor)
  | none => none

/-! ### Concrete inputs -/

/-- The Adler-32 checksum of a byte sequence. -/
def adler32_sum (b : List Byte) : Nat :=
  let s := b.foldl (fun (s : Nat × Nat) x => ((s.1 + x) % 65521, (s.2 + (s.1 + x) % 65521) % 65521)) (1, 0)
  s.2 * 65536 + s.1

/-- Digest primitives for concrete runs: Adler-32, and for MD5 and SHA a digest that
only depends on the length and the sum of the bytes. -/
def demo_digests : HashFns :=
  { adler32 := adler32_sum,
    md5 := fun d => le_bytes 16 (d.length * 256 + d.sum),
    md5_size := fun d => by simp [le_bytes, big_hash_size]
    sha := fun d => le_bytes 32 (d.length * 256 + d.sum),
    sha_digest_size := 32,
    sha_digest_size_pos := by decide,
    sha_size := fun d => by simp [le_bytes] }

/-- The hashfile of the one-byte file `A` under `demo_digests`: the size field, the
digest of the big chunk, the adler-32 of the small chunk. -/
def one_byte_hashfile : List Byte :=
  [1, 0, 0, 0, 0, 0, 0, 0, 65, 1, 0, 0, 0, 0, 0, 0, 0, 0, 0, 0, 0, 0, 0, 0, 66, 0, 66, 0]

/-- An in-memory file with content `d`, cursor at the start, without faults. -/
def mem_file (d : List Byte) : IFile :=
  { data := d, cursor := 0, accept := fun _ n => n, nwrites := 0, punch_ok := true }

/-- Arguments of a run that only builds the hashfile of the file with content `d`. -/
def plain_args (d : List Byte) (ret_sha2 : Bool) : Args :=
  { f := mem_file d, hashoutput := mem_file [], cb := none, ret_sha2 := ret_sha2,
    copy := none, modify_inplace := false, inplace_written := none, hashinput := none,
    extent_iterator := none, uninit := [] }

/-! ### Runs without faults -/

/-- The replica, when there is one, is a sink without faults on a file system that
supports hole punching. -/
def CopyOK (st : State) : Prop :=
  ∀ c, st.copy = some c → c.ideal ∧ c.punch_ok = true

/-- The arguments of a run without I/O error: the hashfile and the replica take every
write, the replica supports hole punching, and a previous hashfile has its size
field. -/
structure Args.fault_free (a : Args) : Prop where
  ho_ideal : a.hashoutput.ideal
  copy_ok : ∀ c, a.copy = some c → c.ideal ∧ c.punch_ok = true
  hashinput_ok : ∀ hi, a.hashinput = some hi → 8 ≤ hi.data.length

/-! ### The whole-file digest -/

/-- The fields of the state that the whole-file digest depends on. -/
structure SView where
  ret_sha2 : Bool
  ctx : List Byte
  extent_ctx : List Byte
  sha_buf : List Byte
  sparse_extent_start : Int
  has_sparse_extent : Bool

/-- The part of the state that the whole-file digest depends on. -/
def State.sview (st : State) : SView :=
  { ret_sha2 := st.ret_sha2, ctx := st.ctx, extent_ctx := st.extent_ctx, sha_buf := st.sha_buf,
    sparse_extent_start := st.sparse_extent_start, has_sparse_extent := st.has_sparse_extent }

/-- Effect of `close_sparse_run` at position `pos` on the digest fields. -/
def SView.close_run (v : SView) (pos : Nat) : SView :=
  if v.sparse_extent_start ≠ -1 then
    { v with has_sparse_extent := true,
             extent_ctx := add_extent v.extent_ctx v.sparse_extent_start
               ((((pos / v.sha_buf.length) * v.sha_buf.length : Nat) : Int) - v.sparse_extent_start),
             sparse_extent_start := -1 }
  else v

/-- Effect of `open_sparse_run` at position `pos` on the digest fields. -/
def SView.open_run (v : SView) (pos : Nat) : SView :=
  if v.sparse_extent_start = -1 then
    { v with sparse_extent_start := ((pos / v.sha_buf.length) * v.sha_buf.length : Nat) }
  else v

/-- Effect of `feed_window` on the digest fields. -/
def SView.feed (v : SView) (n : Nat) : SView :=
  { v with ctx := v.ctx ++ v.sha_buf.take n }

/-- Effect of `sha_window` (the block `if(ret_sha2)` of the small-chunk loop) on the
digest fields, for the bytes `buf` read at position `pos` of a file of `fsize` bytes. -/
def SView.window (v : SView) (pos fsize : Nat) (buf : List Byte) : SView :=
  if v.ret_sha2 then
    if (pos + buf.length) % v.sha_buf.length = 0 then
      if buf_is_zero (memcpy_at v.sha_buf (pos % v.sha_buf.length) buf) then
        SView.open_run { v with sha_buf := memcpy_at v.sha_buf (pos % v.sha_buf.length) buf } pos
      else
        SView.feed
          (SView.close_run { v with sha_buf := memcpy_at v.sha_buf (pos % v.sha_buf.length) buf } pos)
          v.sha_buf.length
    else if buf.length < c_small_hash_dist ∨ pos + buf.length = fsize then
      SView.feed
        (SView.close_run { v with sha_buf := memcpy_at v.sha_buf (pos % v.sha_buf.length) buf } pos)
        (pos % v.sha_buf.length + buf.length)
    else { v with sha_buf := memcpy_at v.sha_buf (pos % v.sha_buf.length) buf }
  else v

/-- Effect of the known-sparse fast path at position `pos` on the digest fields. -/
def SView.known_sparse (v : SView) (pos : Nat) : SView :=
  if v.ret_sha2 ∧ v.sparse_extent_start = -1 then { v with sparse_extent_start := pos } else v

/-- Effect of `close_last_run` on the digest fields. -/
def SView.close_last (v : SView) (fsize : Nat) : SView :=
  if v.sparse_extent_start ≠ -1 then
    { v with has_sparse_extent := true,
             extent_ctx := add_extent v.extent_ctx v.sparse_extent_start
                             ((fsize : Int) - v.sparse_extent_start),
             sparse_extent_start := -1 }
  else v

/-- The string that `final_digest` returns for the digest fields `v`. -/
def SView.digest (H : HashFns) (v : SView) : List Byte :=
  if v.ret_sha2 then
    if v.has_sparse_extent then H.sha (v.ctx ++ H.sha v.extent_ctx) else H.sha v.ctx
  else [107]

/-- The digest fields in front of the main loop. -/
def SView.start (ret_sha2 : Bool) : SView :=
  { ret_sha2 := ret_sha2, ctx := [], extent_ctx := [],
    sha_buf := if ret_sha2 then List.replicate sha_buf_size 0 else [],
    sparse_extent_start := -1, has_sparse_extent := false }

/-- The digest fields at the return of `final_digest`: the digest of the extents is
fed to `ctx` when a sparse run was recorded. -/
def SView.finish (H : HashFns) (v : SView) : SView :=
  if v.ret_sha2 then
    if v.has_sparse_extent then { v with ctx := v.ctx ++ H.sha v.extent_ctx } else v
  else v

/-- Invariant of the digest fields at position `p` of a file of zero bytes: nothing
was fed to the contexts, the window buffer is zero, and a sparse run is open from
offset 0 once the first window is complete. -/
def ZeroInv (v : SView) (p : Nat) : Prop :=
  v.ret_sha2 = true ∧ v.ctx = [] ∧ v.extent_ctx = [] ∧ v.has_sparse_extent = false
    ∧ v.sha_buf = List.replicate sha_buf_size 0
    ∧ v.sparse_extent_start = (if p < sha_buf_size then -1 else 0)

/-- Invariant of the digest fields at position `p` of a file `F` without an all-zero
window: no sparse run was opened, `ctx` holds the complete windows in front of `p`,
the window buffer the bytes of the current window in front of `p`. -/
def FedInv (F : List Byte) (v : SView) (p : Nat) : Prop :=
  v.ret_sha2 = true ∧ v.extent_ctx = [] ∧ v.has_sparse_extent = false
    ∧ v.sparse_extent_start = -1
    ∧ v.sha_buf.length = sha_buf_size
    ∧ (p < F.length →
        v.ctx = F.take (p / sha_buf_size * sha_buf_size)
          ∧ v.sha_buf.take (p % sha_buf_size)
              = slice F (p / sha_buf_size * sha_buf_size) (p % sha_buf_size))
    ∧ (F.length ≤ p → v.ctx = F)

/-- Invariant of the digest fields of every run: the extent context is empty as
long as no sparse run was recorded. -/
def RunInv (v : SView) (_p : Nat) : Prop :=
  v.has_sparse_extent = false → v.extent_ctx = []

/-! ### The replica -/

/-- The replica `c` with the sparse watermark `wm` holds the byte of `F` at offset
`o`: the replica has the byte, or the replica ends in front of `o`, the byte of `F`
is zero and the watermark lies behind `o` (the replica is extended with zero bytes up
to the watermark at the end of the run). -/
def Agree (F : List Byte) (c : IFile) (wm : Int) (o : Nat) : Prop :=
  (o < c.data.length ∧ c.data.getD o 0 = F.getD o 0)
    ∨ (c.data.length ≤ o ∧ (o : Int) < wm ∧ F.getD o 0 = 0)

/-- Every byte of `F` that the replica `c` holds, the replica `c2` holds as well. -/
def Ext (F : List Byte) (c : IFile) (wm : Int) (c2 : IFile) (wm2 : Int) : Prop :=
  ∀ o, Agree F c wm o → Agree F c2 wm2 o

/-- The previous hashfile `Hp` holds a small hash for small chunk `i`, and it differs
from the small hash of the bytes of `F`. -/
def Differs (H : HashFns) (F Hp : List Byte) (i : Nat) : Prop :=
  8 + (i / n_chunks) * chunkhash_single_size + big_hash_size
      + (i % n_chunks + 1) * small_hash_size ≤ Hp.length
    ∧ slice Hp (8 + (i / n_chunks) * chunkhash_single_size + big_hash_size
          + (i % n_chunks) * small_hash_size) small_hash_size
        ≠ le_bytes 4 (H.adler32 (slice F (i * c_small_hash_dist) c_small_hash_dist))

/-- The fields of the state that steer the reconciliation of the replica and that the
body of the small-chunk loop leaves alone. -/
structure RStat where
  modify_inplace : Bool
  chunk_hashes : Option (List Byte)
  hashinput : Option IFile
  copy_max_sparse : Int
  copy_sparse_extent_start : Int
  copy_write_pos_start : Nat

/-- The part of the state that steers the reconciliation of the replica. -/
def State.rstat (st : State) : RStat :=
  { modify_inplace := st.modify_inplace, chunk_hashes := st.chunk_hashes,
    hashinput := st.hashinput, copy_max_sparse := st.copy_max_sparse,
    copy_sparse_extent_start := st.copy_sparse_extent_start,
    copy_write_pos_start := st.copy_write_pos_start }

/-- The record of the previous hashfile `Hp` at offset `rec` is in the buffer `ch`,
as far as `Hp` holds it. -/
def BufRel (Hp : List Byte) (rec : Nat) (ch : Option (List Byte)) : Prop :=
  ∀ b, ch = some b → ∀ k, k < n_chunks →
    rec + big_hash_size + (k + 1) * small_hash_size ≤ Hp.length →
    (b.drop (big_hash_size + k * small_hash_size)).take 4
      = slice Hp (rec + big_hash_size + k * small_hash_size) small_hash_size

/-- Invariant of the main loop for the replica in `modify_inplace` mode.  `Hp` is the
content of the previous hashfile; `c0`, `wm0` are a replica and a watermark that the
run has passed through. -/
structure RInv (H : HashFns) (F Hp : List Byte) (c0 : IFile) (wm0 : Int) (st : State) : Prop where
  inplace : st.modify_inplace = true
  has_copy : ∃ c, st.copy = some c
  cwp : st.pos < st.fsize → st.copy_write_pos = st.pos
  hin : ∀ hi, st.hashinput = some hi → hi.data = Hp
  hin_none : st.hashinput = none → st.chunk_hashes = none
  wm_inv : st.copy_max_sparse = -1 ∨ st.copy_max_sparse ≤ (st.pos : Int)
    ∨ (st.curr_extent.offset ≠ -1
        ∧ st.copy_max_sparse = st.curr_extent.offset + st.curr_extent.size)
  run_inv : st.copy_sparse_extent_start ≠ -1 →
    st.curr_extent.offset ≠ -1
      ∧ (st.pos : Int) ≤ st.curr_extent.offset + st.curr_extent.size
      ∧ st.copy_max_sparse = st.curr_extent.offset + st.curr_extent.size
      ∧ ∀ c, st.copy = some c → ∀ o : Nat, st.curr_extent.offset ≤ (o : Int) →
          (o : Int) < st.curr_extent.offset + st.curr_extent.size →
          Agree F c st.copy_max_sparse o
  ext : ∀ c, st.copy = some c → Ext F c0 wm0 c st.copy_max_sparse
  cov : ∀ c, st.copy = some c → ∀ o, o < st.pos → o < F.length →
    Differs H F Hp (o / c_small_hash_dist) → Agree F c st.copy_max_sparse o

/-- The fields of the state that the content of the replica depends on. -/
structure RView where
  stat : RStat
  copy : Option IFile
  copy_write_pos : Nat

/-- The part of the state that the content of the replica depends on. -/
def State.rview (st : State) : RView :=
  { stat := st.rstat, copy := st.copy, copy_write_pos := st.copy_write_pos }

/-- The content of the previous hashfile of a run (empty without one). -/
def prev_hashfile (a : Args) : List Byte :=
  match a.hashinput with
  | none => []
  | some hi => hi.data

/-- The hashfile of the one-byte file `B` under `demo_digests`. -/
def one_byte_prev : List Byte :=
  [1, 0, 0, 0, 0, 0, 0, 0, 66, 1, 0, 0, 0, 0, 0, 0, 0, 0, 0, 0, 0, 0, 0, 0, 67, 0, 67, 0]

/-- Arguments of a run in `modify_inplace` mode: the source is the one-byte file `A`,
the replica the one-byte file `B`, the previous hashfile the hashfile of `B`. -/
def inplace_args : Args :=
  { f := mem_file [65], hashoutput := mem_file [], cb := none, ret_sha2 := false,
    copy := some (mem_file [66]), modify_inplace := true, inplace_written := none,
    hashinput := some (mem_file one_byte_prev), extent_iterator := none,
    uninit := List.replicate chunkhash_single_size 0 }

/-- A previous hashfile whose adler-32 is that of the one-byte file `A` and whose
big-chunk digest is not. -/
def one_byte_collision : List Byte :=
  [1, 0, 0, 0, 0, 0, 0, 0, 0, 0, 0, 0, 0, 0, 0, 0, 0, 0, 0, 0, 0, 0, 0, 0, 66, 0, 66, 0]

/-- Arguments of a run in `modify_inplace` mode in which the adler-32 comparison skips
the only small chunk and the big-chunk digest then disagrees. -/
def collision_args : Args :=
  { f := mem_file [65], hashoutput := mem_file [], cb := none, ret_sha2 := false,
    copy := some (mem_file [66]), modify_inplace := true, inplace_written := none,
    hashinput := some (mem_file one_byte_collision), extent_iterator := none,
    uninit := List.replicate chunkhash_single_size 0 }

/-- The state of the `collision_args` run at the top of the main loop. -/
def collision_head : State :=
  match prologue collision_args with
  | some (Step.next s) => s
  | _ => entry_state collision_args

/-- The state of the `collision_args` run after the big chunk is hashed, before
collision recovery. -/
def collision_hashed : State :=
  match hash_big_chunk demo_digests 1099 (advance_extent (load_chunk_hashes collision_head))
      ((advance_extent (load_chunk_hashes collision_head)).pos + c_checkpoint_dist) with
  | some (Step.next s) => s
  | _ => collision_head

/-! ## The calls of `Write` made by the resilient writer -/

/-- The values returned by the calls of `Write` in the loop of `writeFileRepeatTries`,
in the order of the calls. -/
def writeFileRepeatTries_rcs (buf : List Byte) : Nat → IFile → Nat → Int → List Nat
  | 0, _, _, _ => []
  | fuel + 1, f, written, tries =>
    let (rc, f) := f.Write (buf.drop written)
    let written := written + rc
    let tries := if rc = 0 then tries - 1 else tries
    if written < buf.length ∧ (rc > 0 ∨ tries > 0) then
      rc :: writeFileRepeatTries_rcs buf fuel f written tries
    else
      [rc]

/-- The values returned by the calls of `Write` in the loop of `writeRepeatFreeSpace`,
in the order of the calls. -/
def writeRepeatFreeSpace_loop_rcs (buf : List Byte) : Nat → IFile → Nat → List Nat
  | 0, _, _ => []
  | fuel + 1, f, written =>
    let (w, f) := f.Write (buf.drop written)
    let rc := int_of_u32 w
    let written := (written + w) % 2 ^ 32
    if written < buf.length ∧ rc > 0 then
      w :: writeRepeatFreeSpace_loop_rcs buf fuel f written
    else
      [w]

/-- The values returned by all calls of `Write` that `writeRepeatFreeSpace(f, buf, bsize, cb)`
makes, in the order of the calls. -/
def writeRepeatFreeSpace_rcs (f : IFile) (buf : List Byte)
    (cb : Option INotEnoughSpaceCallback) : List Nat :=
  match cb with
  | none => writeFileRepeatTries_rcs buf (buf.length + 51) f 0 50
  | some cb =>
    let (w, f) := f.Write buf
    if int_of_u32 w % 2 ^ 64 ≠ (buf.length : Int) then
      let (again, _) := cb.handle_not_enough_space
      if again then w :: writeRepeatFreeSpace_loop_rcs buf (buf.length + 1) f (w % 2 ^ 32)
      else [w]
    else [w]

/-- A sink that takes nothing with its first call of `Write` and everything later. -/
def stall_sink : IFile :=
  { data := [], cursor := 0, accept := fun k n => if k = 0 then 0 else n, nwrites := 0,
    punch_ok := true }

/-- A sink that never takes a byte. -/
def full_sink : IFile :=
  { data := [], cursor := 0, accept := fun _ _ => 0, nwrites := 0, punch_ok := true }

/-- A callback that never answers "retry". -/
def refuse_cb : INotEnoughSpaceCallback := { answer := fun _ => false, calls := 0 }

/-- A hashfile sink whose second call of `Write` (the one for the 16 bytes that reserve
the MD5 slot of the first record) takes nothing. -/
def placeholder_fault_sink : IFile :=
  { data := [], cursor := 0, accept := fun k n => if k = 1 then 0 else n, nwrites := 0,
    punch_ok := true }

/-- A run on the one-byte file `A` whose hashfile sink fails once, with a callback
that does not answer "retry". -/
def placeholder_fault_args : Args :=
  { f := mem_file [65], hashoutput := placeholder_fault_sink, cb := some refuse_cb,
    ret_sha2 := false, copy := none, modify_inplace := false, inplace_written := none,
    hashinput := none, extent_iterator := none, uninit := [] }

/-- The state of the `placeholder_fault_args` run at the top of the main loop. -/
def placeholder_fault_head : State :=
  match prologue placeholder_fault_args with
  | some (Step.next s) => s
  | _ => entry_state placeholder_fault_args

end ChunkHasher

namespace IncrFileBackup
/-! ## Data of the incremental file backup (`urbackupserver/IncrFileBackup.cpp`) -/

/-- A tree listing entry (`SFile`); an entry with `isdir` and the name `".."` is a
directory-up entry. -/
structure SFile where
  name : String
  size : Int
  last_modified : Int
  isdir : Bool
deriving DecidableEq

/-- The extra parameters of a listing entry (`std::map<std::string, std::string>`). -/
abbrev ExtraParams := List (String × String)

/-- The call `extra_params.find(key)`. -/
def ExtraParams.find (m : ExtraParams) (key : String) : Option String :=
  match m with
  | [] => none
  | (k, v) :: rest => if k = key then some v else ExtraParams.find rest key

/-- Modelled from the spec: `FileBackup::hasChange(line, diffs)`, the test whether a
line index is in a diff set ("Diff sets are line-index sets"). -/
def hasChange (line : Nat) (diffs : List Nat) : Bool := decide (line ∈ diffs)

/-- The value of an integer expression converted to `int` (32 bits, two's complement). -/
def to_int32 (n : Int) : Int := (n + 2 ^ 31) % 2 ^ 32 - 2 ^ 31

/-- The value of an integer expression converted to `int64`. -/
def to_int64 (n : Int) : Int := (n + 2 ^ 63) % 2 ^ 64 - 2 ^ 63

/-- The operator `%` of the source on `int`: the remainder of the division that
truncates towards zero; undefined (`none`) for the divisor zero and for
`INT_MIN % -1`. -/
def c_rem (a b : Int) : Option Int :=
  if b = 0 ∨ (a = -(2 ^ 31) ∧ b = -1) then none else some (Int.tmod a b)

/-- The constant `c_readd_size_limit` (`100*1024`). -/
def c_readd_size_limit : Int := 100 * 1024

/-! ## The sparse re-adder -/

/-- A row of the file entry table (`ServerBackupDao::SFileEntry`). -/
structure SFileEntry where
  fullpath : String
  hashpath : String
  shahash : String
  filesize : Int
  rsize : Int
deriving DecidableEq

/-- An item of the queue of the hash-existing worker: `queueFile(fullpath, hashpath)`
or `queueStop(immediate)`. -/
inductive HashQueueItem where
  | file (fullpath hashpath : String)
  | stop (immediate : Bool)
deriving DecidableEq

/-- The bookkeeping that re-registration works on: the counter
`num_readded_entries`, the calls of `addFileEntrySQLWithExisting` so far (row and
`incremental`), the member `hash_existing`, and the queue of the hash-existing worker. -/
structure ReaddState where
  num_readded_entries : Nat
  sql_calls : List (SFileEntry × Int)
  hash_existing : List SFileEntry
  hash_queue : List HashQueueItem
deriving DecidableEq

/-- The function `addExistingHashesToDb(incremental)`: every row of `hash_existing`
is handed to `addFileEntrySQLWithExisting`, then the list is cleared. -/
def addExistingHashesToDb (st : ReaddState) (incremental : Int) : ReaddState :=
  { st with sql_calls := st.sql_calls ++ st.hash_existing.map (fun e => (e, incremental)),
            hash_existing := [] }

/-- What `addSparseFileEntry` reads from its object and its surroundings: the members
`backuppath` and `backuppath_hashes`, and `urb_adler32 s` for
`urb_adler32(0, s.c_str(), s.size())` (declared in `common/adler32.h`). -/
structure ReaddEnv where
  backuppath : String
  backuppath_hashes : String
  urb_adler32 : String → Nat

/-- The function `IncrFileBackup::addSparseFileEntry`; `server_hash_existing` says
whether the pointer of that name is set.  `none` where the `%` is undefined. -/
def addSparseFileEntry (E : ReaddEnv) (curr_path : String) (cf : SFile)
    (copy_file_entries_sparse_modulo incremental_num : Int) (trust_client_hashes : Bool)
    (curr_sha2 local_curr_os_path : String) (curr_has_hash server_hash_existing : Bool)
    (st : ReaddState) : Option ReaddState :=
  if cf.size < c_readd_size_limit then some st
  else
    let curr_file_path := curr_path ++ "/" ++ cf.name
    let crc32 := to_int32 (E.urb_adler32 curr_file_path)
    match c_rem crc32 copy_file_entries_sparse_modulo with
    | none => none
    | some r =>
      if r = incremental_num then
        let hashpath := if curr_has_hash then E.backuppath_hashes ++ local_curr_os_path else ""
        if trust_client_hashes ∧ curr_sha2 ≠ "" then
          some { st with
            sql_calls := st.sql_calls ++
              [({ fullpath := E.backuppath ++ local_curr_os_path, hashpath := hashpath,
                  shahash := curr_sha2, filesize := cf.size, rsize := -1 }, incremental_num)],
            num_readded_entries := (st.num_readded_entries + 1) % 2 ^ 64 }
        else if server_hash_existing then
          let st := addExistingHashesToDb st incremental_num
          some { st with
            hash_queue := st.hash_queue ++
              [HashQueueItem.file (E.backuppath ++ local_curr_os_path) hashpath],
            num_readded_entries := (st.num_readded_entries + 1) % 2 ^ 64 }
        else some st
      else some st

/-- The condition `crc32 % copy_file_entries_sparse_modulo == incremental_num` of
`addSparseFileEntry` for the path `curr_file_path`. -/
def readd_due (E : ReaddEnv) (curr_file_path : String)
    (copy_file_entries_sparse_modulo incremental_num : Int) : Option Bool :=
  match c_rem (to_int32 (E.urb_adler32 curr_file_path)) copy_file_entries_sparse_modulo with
  | none => none
  | some r => some (decide (r = incremental_num))

/-- The Adler-32 checksum of zlib, continued from the value `adler` over the bytes
`buf`. -/
def adler32_from (adler : Nat) (buf : List Nat) : Nat :=
  let s := buf.foldl
    (fun (s : Nat × Nat) x => ((s.1 + x) % 65521, (s.2 + (s.1 + x) % 65521) % 65521))
    (adler % 65536, adler / 65536 % 65536)
  s.2 * 65536 + s.1

/-- An environment for concrete calls: the Adler-32 of the characters of the path,
started from 0 as in the source. -/
def demo_readd_env : ReaddEnv :=
  { backuppath := "/b", backuppath_hashes := "/b/.hashes",
    urb_adler32 := fun s => adler32_from 0 (s.data.map Char.toNat) }

/-- Bookkeeping without entries. -/
def ReaddState.empty : ReaddState :=
  { num_readded_entries := 0, sql_calls := [], hash_existing := [], hash_queue := [] }

/-! ## Writing the new client list -/

/-- What the loop that writes the new client list reads from its surroundings:
`r_offline`, `metadata_ok`, the diff set `dir_diffs`, the answers of the download
thread (`isDownloadOk`, `isDownloadPartial`), the ids in `download_nok_ids`, and
`getRandomNumber k`, the value that the `k`-th call of `Server->getRandomNumber()`
returns (an `unsigned int`). -/
structure RewriteEnv where
  r_offline : Bool
  metadata_ok : Bool
  dir_diffs : List Nat
  isDownloadOk : Nat → Bool
  isDownloadPartial : Nat → Bool
  download_nok_ids : List Nat
  getRandomNumber : Nat → Nat

/-- The variables of the loop: `line`, the number of calls of `getRandomNumber` so
far, and the entries written with `writeFileItem`, in order. -/
structure RewriteState where
  line : Nat
  rand_calls : Nat
  written : List SFile
deriving DecidableEq

/-- The statement `cf.last_modified *= Server->getRandomNumber()` for the `k`-th call
of the random-number source. -/
def randomize (E : RewriteEnv) (k : Nat) (cf : SFile) : SFile :=
  { cf with last_modified := to_int64 (cf.last_modified * ((E.getRandomNumber k % 2 ^ 32 : Nat) : Int)) }

/-- The body of the loop for one entry of the listing (`if(b) { … ++line; }`). -/
def rewrite_entry (E : RewriteEnv) (st : RewriteState) (cf : SFile) : RewriteState :=
  if cf.isdir then
    if (E.r_offline || !E.metadata_ok) && hasChange st.line E.dir_diffs then
      { line := st.line + 1, rand_calls := st.rand_calls + 1,
        written := st.written ++ [randomize E st.rand_calls cf] }
    else
      { st with line := st.line + 1, written := st.written ++ [cf] }
  else if E.isDownloadOk st.line && !decide (st.line ∈ E.download_nok_ids) then
    if E.isDownloadPartial st.line then
      { line := st.line + 1, rand_calls := st.rand_calls + 1,
        written := st.written ++ [randomize E st.rand_calls cf] }
    else
      { st with line := st.line + 1, written := st.written ++ [cf] }
  else
    { st with line := st.line + 1 }

/-- The loop that writes the new client list, over the entries of the listing in the
order in which the parser delivers them. -/
def rewrite_clientlist (E : RewriteEnv) : List SFile → RewriteState → RewriteState
  | [], st => st
  | cf :: rest, st => rewrite_clientlist E rest (rewrite_entry E st cf)

/-- The variables in front of the loop (`line = 0`). -/
def RewriteState.start : RewriteState := { line := 0, rand_calls := 0, written := [] }

/-- A run that ended offline with one partially downloaded file, and a
random-number source that returns 0. -/
def partial_env : RewriteEnv :=
  { r_offline := true, metadata_ok := true, dir_diffs := [], isDownloadOk := fun _ => true,
    isDownloadPartial := fun _ => true, download_nok_ids := [], getRandomNumber := fun _ => 0 }

/-- The same run with a random-number source that returns 3. -/
def partial_env3 : RewriteEnv :=
  { r_offline := true, metadata_ok := true, dir_diffs := [], isDownloadOk := fun _ => true,
    isDownloadPartial := fun _ => true, download_nok_ids := [], getRandomNumber := fun _ => 3 }

/-! ## The tree walk of `doFileBackup` -/

/-- The fields of `FileMetadata` that the walk reads or writes. -/
structure FileMetadata where
  exist : Bool
  has_orig_path : Bool
  orig_path : String
deriving DecidableEq

/-- An item of the queue of the download thread: the calls `addToQueueFull`,
`addToQueueChunked`, `addToQueueStartShadowcopy`, `addToQueueStopShadowcopy` and
`queueSkip` with their arguments. -/
inductive QueueItem where
  | full (id : Nat) (fn short_fn curr_path os_path : String) (predicted_filesize : Int)
      (metadata : FileMetadata) (is_script metadata_only : Bool) (folder_items : Nat)
  | chunked (id : Nat) (fn short_fn curr_path os_path : String) (predicted_filesize : Int)
      (metadata : FileMetadata) (is_script : Bool)
  | start_shadowcopy (fn : String)
  | stop_shadowcopy (fn : String)
  | skip
deriving DecidableEq

/-- The arguments of a call of `copyFile`, which writes them to the hash pipe. -/
structure CopyItem where
  source : String
  dest : String
  hash_src : String
  hash_dest : String
  metadata : FileMetadata
deriving DecidableEq

/-- What the walk reads from its surroundings.  First the values that are fixed in
front of the loop: the diff sets of `TreeDiff::diffTrees`, the settings, the paths.
Then the helpers on strings and names, which live in other files.  Last the answers
of the file system, the database and the other threads; their first argument is the
number of listing entries that the walk has seen so far, so that an answer may change
from entry to entry.  `touch_file` says whether `Server->openFile(path, MODE_WRITE)`
returns a file, `getFileEntryFromTemporaryTable` returns the row when it `exists`. -/
structure WalkEnv where
  diffs : List Nat
  dir_diffs : List Nat
  large_unchanged_subtrees : List Nat
  modified_inplace_ids : List Nat
  use_directory_links : Bool
  use_snapshots : Bool
  copy_last_file_entries : Bool
  readd_file_entries_sparse : Bool
  trust_client_hashes : Bool
  intra_file_diffs : Bool
  queue_downloads : Bool
  with_hashes : Bool
  has_local_hash : Bool
  file_meta : Int
  incremental_num : Int
  copy_file_entries_sparse_modulo : Int
  backuppath : String
  backuppath_hashes : String
  last_backuppath : String
  last_backuppath_hashes : String
  metadata_dir_fn : String
  sha_def_identifier : String
  os_file_sep : String
  urb_adler32 : String → Nat
  ExtractFilePath : String → String → String
  ExtractFileName : String → String → String
  convertToOSPathFromFileClient : String → String
  os_file_prefix : String → String
  base64_decode_dash : String → String
  escape_glob_sql : String → String
  escape_metadata_fn : String → String
  fixFilenameForOS : String → List String → String → String × List String
  read_metadata : ExtraParams → FileMetadata
  status_due : Nat → Bool
  stop_requested : Nat → Bool
  isOffline : Nat → Bool
  link_directory_pool : Nat → String → String → Bool
  getFileEntriesFromTemporaryTableGlob : Nat → String → List SFileEntry
  getFileEntryFromTemporaryTable : Nat → String → Option SFileEntry
  os_remove_symlink_dir : Nat → String → Bool
  createSymlink : Nat → String → Int → String → String → Bool
  os_create_dir : Nat → String → Bool
  os_directory_exists : Nat → String → Bool
  deleteFile : Nat → String → Bool
  write_file_metadata : Nat → String → FileMetadata → Bool
  touch_file : Nat → String → Bool
  link_file : Nat → String → String → String → String → String → Int → Bool → FileMetadata → Bool
  os_create_hardlink : Nat → String → String → Bool × Bool

/-- The members that `addSparseFileEntry` reads. -/
def WalkEnv.readd_env (E : WalkEnv) : ReaddEnv :=
  { backuppath := E.backuppath, backuppath_hashes := E.backuppath_hashes,
    urb_adler32 := E.urb_adler32 }

/-- Whether `server_hash_existing` is set
(`if(readd_file_entries_sparse && !trust_client_hashes)` in front of the loop). -/
def WalkEnv.server_hash_existing (E : WalkEnv) : Bool :=
  E.readd_file_entries_sparse && !E.trust_client_hashes

/-- The local variables of the walk that survive an entry, the queues it fills, and
`entries_seen`, the number of listing entries handled so far.  The stacks
`folder_files` and `dir_diff_stack` have their top in front, the vector
`folder_items` has its back at the end; reading the top of an empty stack yields the
empty set, `false` and 0.  Progress, ETA and log output are left out. -/
structure WalkState where
  curr_path : String
  curr_os_path : String
  curr_orig_path : String
  orig_sep : String
  depth : Int
  line : Nat
  indirchange : Bool
  changelevel : Int
  r_offline : Bool
  indir_currdepth : Int
  download_nok_ids : List Nat
  c_has_error : Bool
  backup_stopped : Bool
  skip_dir_completely : Nat
  skip_dir_copy_sparse : Bool
  script_dir : Bool
  folder_files : List (List String)
  folder_items : List Nat
  dir_diff_stack : List Bool
  queue : List QueueItem
  hashpipe : List CopyItem
  readd : ReaddState
  num_copied_file_entries : Nat
  entries_seen : Nat
deriving DecidableEq

/-- The variables in front of the loop. -/
def WalkState.start : WalkState :=
  { curr_path := "", curr_os_path := "", curr_orig_path := "", orig_sep := "", depth := 0,
    line := 0, indirchange := false, changelevel := 0, r_offline := false, indir_currdepth := 0,
    download_nok_ids := [], c_has_error := false, backup_stopped := false,
    skip_dir_completely := 0, skip_dir_copy_sparse := false, script_dir := false,
    folder_files := [[]], folder_items := [0], dir_diff_stack := [], queue := [],
    hashpipe := [], readd := ReaddState.empty, num_copied_file_entries := 0, entries_seen := 0 }

/-- The loop `for(size_t j=0;j<folder_items.size();++j) ++folder_items[j];`. -/
def bump_folder_items (st : WalkState) : WalkState :=
  { st with folder_items := st.folder_items.map (· + 1) }

/-- The client hash of an entry: `base64_decode_dash` of the extra parameter `key`
when there is a local hash object and the parameter is present, else empty. -/
def client_sha (E : WalkEnv) (extra : ExtraParams) (key : String) : String :=
  match (if E.has_local_hash then extra.find key else none) with
  | some v => E.base64_decode_dash v
  | none => ""

/-- The block `if(skip_dir_completely>0)` in front of its inner
`if(skip_dir_completely>0) { ++line; continue; }`. -/
def skip_block (E : WalkEnv) (st : WalkState) (cf : SFile) (extra : ExtraParams)
    (osspecific_name : String) : Option WalkState :=
  if cf.isdir then
    if cf.name = ".." then
      let st := { st with skip_dir_completely := st.skip_dir_completely - 1 }
      if st.skip_dir_completely > 0 then
        some { st with curr_os_path := E.ExtractFilePath st.curr_os_path "/",
                       curr_path := E.ExtractFilePath st.curr_path "/",
                       folder_files := st.folder_files.tail }
      else some st
    else
      some { st with curr_os_path := st.curr_os_path ++ "/" ++ osspecific_name,
                     curr_path := st.curr_path ++ "/" ++ cf.name,
                     skip_dir_completely := st.skip_dir_completely + 1,
                     folder_files := [] :: st.folder_files }
  else if st.skip_dir_copy_sparse then
    let curr_sha2 := client_sha E extra "sha512"
    let local_curr_os_path :=
      E.convertToOSPathFromFileClient (st.curr_os_path ++ "/" ++ osspecific_name)
    match addSparseFileEntry E.readd_env st.curr_path cf E.copy_file_entries_sparse_modulo
        E.incremental_num E.trust_client_hashes curr_sha2 local_curr_os_path E.with_hashes
        E.server_hash_existing st.readd with
    | none => none
    | some rd => some { st with readd := rd }
  else some st

/-- The statements between the skip block and `if(cf.isdir)`: the metadata of the
entry, the original path, the stop request of the admin, the offline test. -/
def entry_preamble (E : WalkEnv) (st : WalkState) (extra : ExtraParams) :
    WalkState × FileMetadata :=
  let metadata := E.read_metadata extra
  let st :=
    if metadata.has_orig_path then
      let s := E.base64_decode_dash ((extra.find "orig_sep").getD "")
      { st with curr_orig_path := metadata.orig_path, orig_sep := if s = "" then "\\" else s }
    else st
  let st :=
    if E.status_due st.entries_seen ∧ ¬ st.backup_stopped ∧ E.stop_requested st.entries_seen then
      { st with r_offline := true, backup_stopped := true, queue := st.queue ++ [QueueItem.skip],
                readd := if E.server_hash_existing then
                    { st.readd with hash_queue := st.readd.hash_queue ++ [HashQueueItem.stop true] }
                  else st.readd }
    else st
  let st := if E.isOffline st.entries_seen ∧ ¬ st.r_offline then { st with r_offline := true } else st
  (st, metadata)

/-- The block at the top of `if(cf.isdir)` that keeps `indirchange`, `changelevel`
and `indir_currdepth`. -/
def update_indirchange (E : WalkEnv) (st : WalkState) (cf : SFile) : WalkState :=
  if ¬ st.indirchange ∧ hasChange st.line E.diffs then
    if cf.name ≠ ".." then
      { st with indirchange := true, changelevel := st.depth, indir_currdepth := 1 }
    else
      { st with indirchange := true, changelevel := st.depth - 1, indir_currdepth := 0 }
  else if st.indirchange then
    if cf.name ≠ ".." then { st with indir_currdepth := st.indir_currdepth + 1 }
    else { st with indir_currdepth := st.indir_currdepth - 1 }
  else st

/-- The loop over the rows of the linked directory
(`for(size_t i=0;i<file_entries.size();++i)`). -/
def copy_dir_entries (E : WalkEnv) (local_curr_os_path srcpath src_hashpath : String)
    (curr_has_hashes : Bool) : List SFileEntry → WalkState → WalkState
  | [], st => st
  | fe :: rest, st =>
    if fe.fullpath.length > srcpath.length then
      let entry_hashpath :=
        if curr_has_hashes && src_hashpath.isPrefixOf fe.hashpath then
          E.backuppath_hashes ++ local_curr_os_path ++ fe.hashpath.drop src_hashpath.length
        else ""
      copy_dir_entries E local_curr_os_path srcpath src_hashpath curr_has_hashes rest
        { st with
            readd := { st.readd with
              sql_calls := st.readd.sql_calls ++
                [({ fullpath := E.backuppath ++ local_curr_os_path
                      ++ fe.fullpath.drop srcpath.length,
                    hashpath := entry_hashpath, shahash := fe.shahash, filesize := fe.filesize,
                    rsize := 0 }, E.incremental_num)] },
            num_copied_file_entries := st.num_copied_file_entries + 1 }
    else
      copy_dir_entries E local_curr_os_path srcpath src_hashpath curr_has_hashes rest st

/-- The block `if(use_directory_links && hasChange(line, large_unchanged_subtrees))`;
the flag of the result is `dir_linked`. -/
def link_large_subtree (E : WalkEnv) (st : WalkState) (local_curr_os_path : String) :
    WalkState × Bool :=
  if E.use_directory_links && hasChange st.line E.large_unchanged_subtrees then
    let srcpath := E.last_backuppath ++ local_curr_os_path
    if E.link_directory_pool st.entries_seen (E.backuppath ++ local_curr_os_path) srcpath then
      let src_hashpath := E.last_backuppath_hashes ++ local_curr_os_path
      let curr_has_hashes := E.link_directory_pool st.entries_seen
        (E.backuppath_hashes ++ local_curr_os_path) src_hashpath
      let st := { st with skip_dir_completely := 1 }
      if E.copy_last_file_entries then
        let file_entries := E.getFileEntriesFromTemporaryTableGlob st.entries_seen
          (E.escape_glob_sql srcpath ++ E.os_file_sep ++ "*")
        let st := copy_dir_entries E local_curr_os_path srcpath src_hashpath curr_has_hashes
          file_entries st
        ({ st with skip_dir_copy_sparse := false }, true)
      else
        ({ st with skip_dir_copy_sparse := E.readd_file_entries_sparse }, true)
    else (st, false)
  else (st, false)

/-- The body of `if(!dir_linked && (!use_snapshots || indirchange || dir_diff))`: the
directory, or the symbolic link, and its metadata are created.  `false` where the
source sets `c_has_error` and leaves the loop. -/
def dir_materialize (E : WalkEnv) (st : WalkState) (cf : SFile) (extra : ExtraParams)
    (metadata : FileMetadata) (dir_diff : Bool) (local_curr_os_path orig_curr_os_path : String) :
    Bool :=
  let n := st.entries_seen
  let target_path := E.backuppath ++ local_curr_os_path
  let made : Option (String × Bool) :=
    match extra.find "sym_target" with
    | some sym_target =>
      if dir_diff && E.use_snapshots && !E.os_remove_symlink_dir n target_path then none
      else if !E.createSymlink n target_path st.depth sym_target st.orig_sep then none
      else
        some (E.backuppath_hashes ++ E.convertToOSPathFromFileClient
                (orig_curr_os_path ++ "/" ++ E.escape_metadata_fn cf.name), false)
    | none =>
      if ((dir_diff && E.use_snapshots) || !E.os_create_dir n (E.os_file_prefix target_path))
          && !E.os_directory_exists n (E.os_file_prefix target_path) then none
      else
        some (E.backuppath_hashes ++ local_curr_os_path ++ E.os_file_sep ++ E.metadata_dir_fn,
              !(dir_diff && E.use_snapshots))
  match made with
  | none => false
  | some (metadata_fn, create_hash_dir) =>
    if create_hash_dir
        && !E.os_create_dir n (E.os_file_prefix (E.backuppath_hashes ++ local_curr_os_path))
        && !E.os_directory_exists n (E.os_file_prefix (E.backuppath_hashes ++ local_curr_os_path))
    then false
    else if dir_diff && E.use_snapshots && !E.deleteFile n metadata_fn then false
    else if !st.indirchange && !dir_diff && st.curr_path ≠ "/urbackup_backup_scripts" then true
    else E.write_file_metadata n metadata_fn metadata

/-- The flag `dir_diff` of a directory entry. -/
def dir_diff_of (E : WalkEnv) (st : WalkState) : Bool :=
  if ¬ st.indirchange then hasChange st.line E.dir_diffs else false

/-- The first statements of the branch `if(cf.name!="..")` of a directory entry: the
flag `dir_diff` is pushed, the item counts are incremented for a changed directory,
the paths are extended by the name of the directory. -/
def dir_enter_begin (E : WalkEnv) (st : WalkState) (cf : SFile) (osspecific_name : String)
    (has_orig_path : Bool) : WalkState :=
  let dir_diff := dir_diff_of E st
  let st := { st with dir_diff_stack := dir_diff :: st.dir_diff_stack }
  let st := if st.indirchange || dir_diff then bump_folder_items st else st
  let st := { st with curr_path := st.curr_path ++ "/" ++ cf.name,
                      curr_os_path := st.curr_os_path ++ "/" ++ osspecific_name }
  if ¬ has_orig_path then
    { st with curr_orig_path := st.curr_orig_path ++ st.orig_sep ++ cf.name }
  else st

/-- The last statements of the branch `if(cf.name!="..")` of a directory entry: the
stacks are pushed, `depth` is incremented, a directory of depth 1 starts its shadow
copy; then `++line`. -/
def dir_enter_finish (st : WalkState) : WalkState :=
  let st := { st with folder_files := [] :: st.folder_files,
                      folder_items := st.folder_items ++ [0],
                      depth := st.depth + 1 }
  let st :=
    if st.depth = (1 : Int) then
      if st.curr_path.drop 1 = "urbackup_backup_scripts" then { st with script_dir := true }
      else { st with queue := st.queue ++ [QueueItem.start_shadowcopy (st.curr_path.drop 1)] }
    else st
  { st with line := st.line + 1 }

/-- The branch `if(cf.name!="..")` of a directory entry. -/
def dir_enter (E : WalkEnv) (st : WalkState) (cf : SFile) (extra : ExtraParams)
    (osspecific_name : String) (metadata : FileMetadata) : WalkState :=
  let dir_diff := dir_diff_of E st
  let orig_curr_os_path := st.curr_os_path
  let st := dir_enter_begin E st cf osspecific_name metadata.has_orig_path
  let local_curr_os_path := E.convertToOSPathFromFileClient st.curr_os_path
  let metadata :=
    if ¬ metadata.has_orig_path then
      { metadata with orig_path := st.curr_orig_path, exist := true, has_orig_path := true }
    else metadata
  let linked := link_large_subtree E st local_curr_os_path
  if !linked.2 && (!E.use_snapshots || linked.1.indirchange || dir_diff)
      && !dir_materialize E linked.1 cf extra metadata dir_diff local_curr_os_path
            orig_curr_os_path then
    { linked.1 with c_has_error := true }
  else
    dir_enter_finish linked.1

/-- The first statement of the branch `else //cf.name==".."` of a directory entry: the
directory-metadata record of the directory that is left is put on the queue
(`addToQueueFull(line, …, metadata, false, true, folder_items.back())`). -/
def dir_up_record (E : WalkEnv) (st : WalkState) (metadata : FileMetadata) : WalkState :=
  if (st.indirchange || st.dir_diff_stack.headD false) && decide (E.file_meta > 0) then
    { st with queue := st.queue ++
        [QueueItem.full st.line (E.ExtractFileName st.curr_path "/")
          (E.ExtractFileName st.curr_os_path "/") (E.ExtractFilePath st.curr_path "/")
          (E.ExtractFilePath st.curr_os_path "/") (if E.queue_downloads then 0 else -1)
          metadata false true (st.folder_items.getLastD 0)] }
  else st

/-- The statements `folder_files.pop(); folder_items.pop_back(); dir_diff_stack.pop();
--depth; if(indirchange==true && depth==changelevel) indirchange=false;`. -/
def dir_up_pop (st : WalkState) : WalkState :=
  let st := { st with folder_files := st.folder_files.tail,
                      folder_items := st.folder_items.dropLast,
                      dir_diff_stack := st.dir_diff_stack.tail,
                      depth := st.depth - 1 }
  if st.indirchange ∧ st.depth = st.changelevel then { st with indirchange := false } else st

/-- The block `if(depth==0)` of a directory-up entry: a directory of depth 1 that is
left stops its shadow copy. -/
def dir_up_shadowcopy (st : WalkState) : WalkState :=
  if st.depth = (0 : Int) then
    if st.curr_path.drop 1 = "urbackup_backup_scripts" then { st with script_dir := false }
    else { st with queue := st.queue ++ [QueueItem.stop_shadowcopy (st.curr_path.drop 1)] }
  else st

/-- The last statements of a directory-up entry: the paths lose their last component;
then `++line`.  `has_orig_path` is the flag of the metadata as read from the entry. -/
def dir_up_paths (E : WalkEnv) (st : WalkState) (has_orig_path : Bool) : WalkState :=
  let st := { st with curr_path := E.ExtractFilePath st.curr_path "/",
                      curr_os_path := E.ExtractFilePath st.curr_os_path "/" }
  let st :=
    if ¬ has_orig_path then
      { st with curr_orig_path := E.ExtractFilePath st.curr_orig_path st.orig_sep }
    else st
  { st with line := st.line + 1 }

/-- The branch `else //cf.name==".."` of a directory entry. -/
def dir_up (E : WalkEnv) (st : WalkState) (metadata : FileMetadata) : WalkState :=
  dir_up_paths E (dir_up_shadowcopy (dir_up_pop (dir_up_record E st metadata)))
    metadata.has_orig_path

/-- The statements that put a file on the queue of the download thread
(`addToQueueChunked` or `addToQueueFull` behind the loop over `folder_items`). -/
def enqueue_download (E : WalkEnv) (st : WalkState) (cf : SFile) (osspecific_name : String)
    (metadata : FileMetadata) : WalkState :=
  let st := bump_folder_items st
  let predicted : Int := if E.queue_downloads then cf.size else -1
  { st with queue := st.queue ++
      [if E.intra_file_diffs then
         QueueItem.chunked st.line cf.name osspecific_name st.curr_path st.curr_os_path predicted
           metadata st.script_dir
       else
         QueueItem.full st.line cf.name osspecific_name st.curr_path st.curr_os_path predicted
           metadata st.script_dir false 0] }

/-- The classification of a file entry (the chain `if(sym_target…) … else //use_snapshot`).
`none` where the source sets `c_has_error` and leaves the loop; else the state and the
flags `copy_curr_file_entry`, `curr_has_hash`, `readd_curr_file_entry_sparse`,
`download_metadata`. -/
def classify_file (E : WalkEnv) (st : WalkState) (cf : SFile) (extra : ExtraParams)
    (osspecific_name local_curr_os_path srcpath curr_sha2 : String) (metadata : FileMetadata) :
    Option (WalkState × Bool × Bool × Bool × Bool) :=
  let n := st.entries_seen
  match extra.find "sym_target" with
  | some sym_target =>
    if !E.createSymlink n (E.backuppath ++ local_curr_os_path) st.depth sym_target st.orig_sep then
      none
    else some (st, false, true, false, true)
  | none =>
    if (extra.find "special").isSome then
      if !E.touch_file n (E.os_file_prefix (E.backuppath ++ local_curr_os_path)) then none
      else some (st, false, true, false, true)
    else if st.indirchange || hasChange st.line E.diffs then
      if curr_sha2 ≠ "" && E.link_file n cf.name osspecific_name st.curr_path st.curr_os_path
          curr_sha2 cf.size true metadata then
        some (st, false, true, false, true)
      else if !st.r_offline || hasChange st.line E.modified_inplace_ids then
        some (enqueue_download E st cf osspecific_name metadata, false, true, false, false)
      else
        some ({ st with download_nok_ids := st.download_nok_ids ++ [st.line] },
              false, true, false, false)
    else if !E.use_snapshots then
      let linked := E.os_create_hardlink n (E.os_file_prefix (E.backuppath ++ local_curr_os_path))
        (E.os_file_prefix srcpath)
      if linked.1 then
        some (st, E.copy_last_file_entries,
              (E.os_create_hardlink n
                (E.os_file_prefix (E.backuppath_hashes ++ local_curr_os_path))
                (E.os_file_prefix (E.last_backuppath_hashes ++ local_curr_os_path))).1,
              E.readd_file_entries_sparse, false)
      else if linked.2 then
        some ({ st with hashpipe := st.hashpipe ++
                  [{ source := srcpath, dest := E.backuppath ++ local_curr_os_path,
                     hash_src := E.last_backuppath_hashes ++ local_curr_os_path,
                     hash_dest := E.backuppath_hashes ++ local_curr_os_path,
                     metadata := metadata }] },
              E.copy_last_file_entries, true, E.readd_file_entries_sparse, false)
      else if curr_sha2 ≠ "" && E.link_file n cf.name osspecific_name st.curr_path st.curr_os_path
          curr_sha2 cf.size false metadata then
        some (st, E.copy_last_file_entries, true, E.readd_file_entries_sparse, true)
      else
        some (enqueue_download E st cf osspecific_name metadata, false, true, false, false)
    else
      some (st, E.copy_last_file_entries, true, E.readd_file_entries_sparse, false)

/-- The branch `else //is file` of an entry.  `none` where the `%` of
`addSparseFileEntry` is undefined. -/
def walk_file (E : WalkEnv) (st : WalkState) (cf : SFile) (extra : ExtraParams)
    (osspecific_name : String) (metadata : FileMetadata) : Option WalkState :=
  let local_curr_os_path :=
    E.convertToOSPathFromFileClient (st.curr_os_path ++ "/" ++ osspecific_name)
  let srcpath := E.last_backuppath ++ local_curr_os_path
  let metadata :=
    if ¬ metadata.has_orig_path then
      { metadata with orig_path := st.curr_orig_path ++ st.orig_sep ++ cf.name }
    else metadata
  let curr_sha2 := client_sha E extra E.sha_def_identifier
  match classify_file E st cf extra osspecific_name local_curr_os_path srcpath curr_sha2 metadata with
  | none => some { st with c_has_error := true }
  | some (st, copy_curr_file_entry, curr_has_hash, readd_curr_file_entry_sparse,
      download_metadata) =>
    let hashpath := if curr_has_hash then E.backuppath_hashes ++ local_curr_os_path else ""
    let copied : WalkState × Bool :=
      if copy_curr_file_entry then
        match E.getFileEntryFromTemporaryTable st.entries_seen srcpath with
        | some fe =>
          ({ st with
              readd := { st.readd with
                sql_calls := st.readd.sql_calls ++
                  [({ fullpath := E.backuppath ++ local_curr_os_path, hashpath := hashpath,
                      shahash := fe.shahash, filesize := fe.filesize, rsize := fe.rsize },
                    E.incremental_num)] },
              num_copied_file_entries := st.num_copied_file_entries + 1 }, false)
        | none => (st, readd_curr_file_entry_sparse)
      else (st, readd_curr_file_entry_sparse)
    let st := copied.1
    match (if copied.2 then
        addSparseFileEntry E.readd_env st.curr_path cf E.copy_file_entries_sparse_modulo
          E.incremental_num E.trust_client_hashes curr_sha2 local_curr_os_path curr_has_hash
          E.server_hash_existing st.readd
      else some st.readd) with
    | none => none
    | some rd =>
      let st := { st with readd := rd }
      let st :=
        if download_metadata && decide (E.file_meta > 0) then
          let st := bump_folder_items st
          { st with queue := st.queue ++
              [QueueItem.full st.line cf.name osspecific_name st.curr_path st.curr_os_path
                (if E.queue_downloads then 0 else -1) metadata st.script_dir true 0] }
        else st
      some { st with line := st.line + 1 }

/-- The statement `if(!cf.isdir || cf.name!="..") osspecific_name =
fixFilenameForOS(cf.name, folder_files.top(), curr_path);`: the name and the state with
the set on top of `folder_files` as the call leaves it. -/
def fix_name (E : WalkEnv) (st : WalkState) (cf : SFile) : String × WalkState :=
  if !cf.isdir || cf.name ≠ ".." then
    let r := E.fixFilenameForOS cf.name (st.folder_files.headD []) st.curr_path
    (r.1, { st with folder_files := r.2 :: st.folder_files.tail })
  else ("", st)

/-- The statements of the loop body behind the skip block. -/
def entry_body (E : WalkEnv) (st : WalkState) (cf : SFile) (extra : ExtraParams)
    (osspecific_name : String) : Option WalkState :=
  let pre := entry_preamble E st extra
  if cf.isdir then
    let st2 := update_indirchange E pre.1 cf
    if cf.name ≠ ".." then some (dir_enter E st2 cf extra osspecific_name pre.2)
    else some (dir_up E st2 pre.2)
  else walk_file E pre.1 cf extra osspecific_name pre.2

/-- The body of the loop for one entry that the parser has delivered (`if(b) { … }`).
A result with `c_has_error` stands for the `break`. -/
def doFileBackup_entry (E : WalkEnv) (st : WalkState) (cf : SFile) (extra : ExtraParams) :
    Option WalkState :=
  let fixed := fix_name E st cf
  if fixed.2.skip_dir_completely > 0 then
    match skip_block E fixed.2 cf extra fixed.1 with
    | none => none
    | some st1 =>
      if st1.skip_dir_completely > 0 then some { st1 with line := st1.line + 1 }
      else entry_body E st1 cf extra fixed.1
  else entry_body E fixed.2 cf extra fixed.1

/-- The loop over the listing, for the entries in the order in which the parser
delivers them; it ends at the first entry that sets `c_has_error`. -/
def doFileBackup_walk (E : WalkEnv) : List (SFile × ExtraParams) → WalkState → Option WalkState
  | [], st => some st
  | (cf, extra) :: rest, st =>
    match doFileBackup_entry E st cf extra with
    | none => none
    | some st =>
      if st.c_has_error then some { st with entries_seen := st.entries_seen + 1 }
      else doFileBackup_walk E rest { st with entries_seen := st.entries_seen + 1 }

/-! ## The loop of `deleteFilesInSnapshot` -/

/-- What the loop of `deleteFilesInSnapshot` reads from its surroundings: the
arguments `deleted_ids` and `no_error`, the helpers on names, and the answers of the
file system at the `n`-th entry of the listing. -/
structure DeleteEnv where
  deleted_ids : List Nat
  no_error : Bool
  os_file_sep : String
  ExtractFilePath : String → String → String
  convertToOSPathFromFileClient : String → String
  os_file_prefix : String → String
  fixFilenameForOS : String → List String → String → String × List String
  os_directory_exists : Nat → String → Bool
  os_remove_nonempty_dir : Nat → String → Bool
  deleteFile : Nat → String → Bool

/-- The local variables of the loop of `deleteFilesInSnapshot`. -/
structure DeleteState where
  line : Nat
  curr_path : String
  curr_os_path : String
  curr_dir_exists : Bool
  folder_files : List (List String)
deriving DecidableEq

/-- The variables in front of the loop, for the argument `snapshot_path`. -/
def DeleteState.start (snapshot_path : String) : DeleteState :=
  { line := 0, curr_path := snapshot_path, curr_os_path := snapshot_path,
    curr_dir_exists := true, folder_files := [[]] }

/-- The body of the loop for one entry that the parser has delivered; `none` where
the function returns `false`. -/
def deleteFilesInSnapshot_entry (E : DeleteEnv) (st : DeleteState) (curr_file : SFile) :
    Option DeleteState :=
  let n := st.line
  let st :=
    if curr_file.isdir ∧ curr_file.name = ".." then
      let st := { st with folder_files := st.folder_files.tail,
                          curr_path := E.ExtractFilePath st.curr_path "/",
                          curr_os_path := E.ExtractFilePath st.curr_os_path "/" }
      if ¬ st.curr_dir_exists then
        { st with curr_dir_exists := E.os_directory_exists n st.curr_path }
      else st
    else st
  let fixed : String × DeleteState :=
    if !curr_file.isdir || curr_file.name ≠ ".." then
      let r := E.fixFilenameForOS curr_file.name (st.folder_files.headD []) st.curr_path
      (r.1, { st with folder_files := r.2 :: st.folder_files.tail })
    else ("", st)
  let osspecific_name := fixed.1
  let st := fixed.2
  if hasChange st.line E.deleted_ids then
    let curr_fn := E.convertToOSPathFromFileClient (st.curr_os_path ++ E.os_file_sep ++ osspecific_name)
    if curr_file.isdir then
      if st.curr_dir_exists && !E.os_remove_nonempty_dir n (E.os_file_prefix curr_fn)
          && !E.no_error then none
      else
        some { st with curr_path := st.curr_path ++ E.os_file_sep ++ curr_file.name,
                       curr_os_path := st.curr_os_path ++ E.os_file_sep ++ osspecific_name,
                       curr_dir_exists := false,
                       folder_files := [] :: st.folder_files,
                       line := st.line + 1 }
    else
      if st.curr_dir_exists && !E.deleteFile n (E.os_file_prefix curr_fn) && !E.no_error then none
      else some { st with line := st.line + 1 }
  else if curr_file.isdir ∧ curr_file.name ≠ ".." then
    some { st with curr_path := st.curr_path ++ E.os_file_sep ++ curr_file.name,
                   curr_os_path := st.curr_os_path ++ E.os_file_sep ++ osspecific_name,
                   folder_files := [] :: st.folder_files,
                   line := st.line + 1 }
  else some { st with line := st.line + 1 }

/-- The loop of `deleteFilesInSnapshot` over the entries of the client list; `none`
where the function returns `false`. -/
def deleteFilesInSnapshot_loop (E : DeleteEnv) : List SFile → DeleteState → Option DeleteState
  | [], st => some st
  | cf :: rest, st =>
    match deleteFilesInSnapshot_entry E st cf with
    | none => none
    | some st => deleteFilesInSnapshot_loop E rest st

/-! ## A concrete run of the walk -/

/-- The path in front of the last `/` of `s`. -/
def demo_extract_path (s _sep : String) : String :=
  String.mk ((s.data.reverse.dropWhile (fun c => c ≠ '/')).drop 1).reverse

/-- The name behind the last `/` of `s`. -/
def demo_extract_name (s _sep : String) : String :=
  String.mk (s.data.reverse.takeWhile (fun c => c ≠ '/')).reverse

/-- Surroundings for concrete walks with the diff sets `diffs` and `dir_diffs`: no
snapshots, no directory links, a client with file metadata, a file system on which
every call succeeds, and a hash index without entries. -/
def demo_walk_env (diffs dir_diffs : List Nat) : WalkEnv :=
  { diffs := diffs, dir_diffs := dir_diffs, large_unchanged_subtrees := [],
    modified_inplace_ids := [], use_directory_links := false, use_snapshots := false,
    copy_last_file_entries := false, readd_file_entries_sparse := false,
    trust_client_hashes := false, intra_file_diffs := false, queue_downloads := true,
    with_hashes := true, has_local_hash := false, file_meta := 1, incremental_num := 1,
    copy_file_entries_sparse_modulo := 2, backuppath := "/b", backuppath_hashes := "/b/.hashes",
    last_backuppath := "/l", last_backuppath_hashes := "/l/.hashes",
    metadata_dir_fn := ".dir_metadata", sha_def_identifier := "sha512", os_file_sep := "/",
    urb_adler32 := demo_readd_env.urb_adler32,
    ExtractFilePath := demo_extract_path, ExtractFileName := demo_extract_name,
    convertToOSPathFromFileClient := fun s => s, os_file_prefix := fun s => s,
    base64_decode_dash := fun s => s, escape_glob_sql := fun s => s,
    escape_metadata_fn := fun s => s,
    fixFilenameForOS := fun fn samedir _ => (fn, fn :: samedir),
    read_metadata := fun _ => { exist := false, has_orig_path := false, orig_path := "" },
    status_due := fun _ => false, stop_requested := fun _ => false, isOffline := fun _ => false,
    link_directory_pool := fun _ _ _ => true,
    getFileEntriesFromTemporaryTableGlob := fun _ _ => [],
    getFileEntryFromTemporaryTable := fun _ _ => none,
    os_remove_symlink_dir := fun _ _ => true, createSymlink := fun _ _ _ _ _ => true,
    os_create_dir := fun _ _ => true, os_directory_exists := fun _ _ => true,
    deleteFile := fun _ _ => true, write_file_metadata := fun _ _ _ => true,
    touch_file := fun _ _ => true, link_file := fun _ _ _ _ _ _ _ _ _ => false,
    os_create_hardlink := fun _ _ _ => (true, false) }

/-- A directory entry of a listing. -/
def dir_entry (name : String) : SFile × ExtraParams :=
  ({ name := name, size := 0, last_modified := 0, isdir := true }, [])

/-- A file entry of a listing. -/
def file_entry (name : String) : SFile × ExtraParams :=
  ({ name := name, size := 10, last_modified := 0, isdir := false }, [])

/-- The directory-up entry. -/
def up_entry : SFile × ExtraParams := dir_entry ".."

/-- The listing `[Dir A, File a, Dir B, File b, .., File c, ..]`. -/
def scenario_listing : List (SFile × ExtraParams) :=
  [dir_entry "A", file_entry "a", dir_entry "B", file_entry "b", up_entry, file_entry "c",
    up_entry]

/-- Surroundings for a concrete run of the loop of `deleteFilesInSnapshot`: nothing
is deleted. -/
def demo_delete_env : DeleteEnv :=
  { deleted_ids := [], no_error := false, os_file_sep := "/",
    ExtractFilePath := demo_extract_path, convertToOSPathFromFileClient := fun s => s,
    os_file_prefix := fun s => s, fixFilenameForOS := fun fn samedir _ => (fn, fn :: samedir),
    os_directory_exists := fun _ _ => true, os_remove_nonempty_dir := fun _ _ => true,
    deleteFile := fun _ _ => true }

/-! ## Notions used in the statements on the walk -/

/-- The variables of the walk that decide whether a directory is treated as changed. -/
structure WalkCtl where
  depth : Int
  dir_diff_stack : List Bool
  indirchange : Bool
  changelevel : Int
  skip_dir_completely : Nat
  line : Nat
deriving DecidableEq

/-- The part of the state that decides whether a directory is treated as changed. -/
def WalkState.ctl (st : WalkState) : WalkCtl :=
  { depth := st.depth, dir_diff_stack := st.dir_diff_stack, indirchange := st.indirchange,
    changelevel := st.changelevel, skip_dir_completely := st.skip_dir_completely,
    line := st.line }

/-- What an entry that does not end the loop does to `WalkCtl` outside of a linked
directory, as a function of the entry and the diff sets. -/
def ctl_step (E : WalkEnv) (c : WalkCtl) (cf : SFile) : WalkCtl :=
  if cf.isdir then
    let changed := c.indirchange || hasChange c.line E.diffs
    if cf.name ≠ ".." then
      { c with depth := c.depth + 1,
               dir_diff_stack := (!changed && hasChange c.line E.dir_diffs) :: c.dir_diff_stack,
               indirchange := changed,
               changelevel := if c.indirchange then c.changelevel
                 else if hasChange c.line E.diffs then c.depth else c.changelevel,
               line := c.line + 1 }
    else
      let level := if c.indirchange then c.changelevel
        else if hasChange c.line E.diffs then c.depth - 1 else c.changelevel
      { c with depth := c.depth - 1,
               dir_diff_stack := c.dir_diff_stack.tail,
               indirchange := changed && !decide (c.depth - 1 = level),
               changelevel := level,
               line := c.line + 1 }
  else { c with line := c.line + 1 }

/-- The entries `es` close `open_dirs` directories that are open in front of them and
every directory that they open themselves: no directory-up entry comes without an open
directory, and behind the last entry nothing is open. -/
def closes_dirs : List (SFile × ExtraParams) → Nat → Bool
  | [], open_dirs => decide (open_dirs = 0)
  | e :: rest, open_dirs =>
    if e.1.isdir then
      if e.1.name ≠ ".." then closes_dirs rest (open_dirs + 1)
      else decide (0 < open_dirs) && closes_dirs rest (open_dirs - 1)
    else closes_dirs rest open_dirs

/-- A well-nested listing: every directory-up entry closes a directory of the
listing, and every directory of the listing is closed. -/
def well_nested (es : List (SFile × ExtraParams)) : Bool := closes_dirs es 0

/-- The control variables behind the entries `es`, by `ctl_step`. -/
def ctl_run (E : WalkEnv) : List (SFile × ExtraParams) → WalkCtl → WalkCtl
  | [], c => c
  | e :: rest, c => ctl_run E rest (ctl_step E c e.1)

end IncrFileBackup

namespace ChunkHasher
/-! ### Small-hash collisions -/

/-- The fields of the state that the comparison with the recorded big hash depends
on: the size field of the previous hashfile and the input of the control MD5. -/
structure KView where
  input_size : Int
  big_hash_copy_control : List Byte

/-- The part of the state that the comparison with the recorded big hash depends
on. -/
def State.kview (st : State) : KView :=
  { input_size := st.input_size, big_hash_copy_control := st.big_hash_copy_control }

/-- The hashfile of a file with content `R`: the size field, then the record of
every big chunk. -/
def hashfile_of (H : HashFns) (R : List Byte) : List Byte :=
  i64_bytes R.length ++ all_records H R (n_big R.length)

/-- A small-hash collision at small chunk `i`: the previous hashfile `Hp` holds a
small hash for small chunk `i`, it is the small hash of the bytes of `F`, and the
bytes of `F` are not the bytes of `R`. -/
def Collides (H : HashFns) (F R Hp : List Byte) (i : Nat) : Prop :=
  8 + (i / n_chunks) * chunkhash_single_size + big_hash_size
      + (i % n_chunks + 1) * small_hash_size ≤ Hp.length
    ∧ slice Hp (8 + (i / n_chunks) * chunkhash_single_size + big_hash_size
          + (i % n_chunks) * small_hash_size) small_hash_size
        = le_bytes 4 (H.adler32 (slice F (i * c_small_hash_dist) c_small_hash_dist))
    ∧ slice F (i * c_small_hash_dist) c_small_hash_dist
        ≠ slice R (i * c_small_hash_dist) c_small_hash_dist

/-- Invariant of the main loop for a run in `modify_inplace` mode whose previous
hashfile is the hashfile of `R`, the content of the replica at the start of the run:
the size field that was read is the length of `R`, the record buffer is there as long
as the loop is inside `R`, the replica has not become shorter than `R`, and the
replica holds every byte of the source in front of `pos`. -/
structure KInv (H : HashFns) (F R : List Byte) (st : State) : Prop where
  isz : st.input_size = (R.length : Int)
  hin : ∃ hi, st.hashinput = some hi ∧ hi.data = hashfile_of H R
  buf : st.chunk_hashes = none → R.length ≤ st.pos
  len : ∀ c, st.copy = some c → R.length ≤ c.data.length
  full : ∀ c, st.copy = some c → ∀ o, o < st.pos → o < F.length →
    Agree F c st.copy_max_sparse o

/-! ### A concrete run with a small-hash collision -/

/-- Digest primitives for a concrete run with a small-hash collision: Adler-32, and
for MD5 a digest that tells the byte sequence `[0, 2, 0]` from every other. -/
def split_digests : HashFns :=
  { adler32 := adler32_sum,
    md5 := fun d => if d = [0, 2, 0] then List.replicate 16 0 else List.replicate 16 1,
    md5_size := fun d => by by_cases h : d = [0, 2, 0] <;> simp [h, big_hash_size]
    sha := fun d => le_bytes 32 (d.length * 256 + d.sum),
    sha_digest_size := 32,
    sha_digest_size_pos := by decide,
    sha_size := fun d => by simp [le_bytes] }

/-- Arguments of a run in `modify_inplace` mode with a small-hash collision: the source
`[1, 0, 1]` and the replica `[0, 2, 0]` have the same Adler-32, the previous hashfile is
the hashfile of the replica. -/
def adler_collision_args : Args :=
  { f := mem_file [1, 0, 1], hashoutput := mem_file [], cb := none, ret_sha2 := false,
    copy := some (mem_file [0, 2, 0]), modify_inplace := true, inplace_written := none,
    hashinput := some (mem_file (hashfile_of split_digests [0, 2, 0])),
    extent_iterator := none, uninit := List.replicate chunkhash_single_size 0 }

/-- The state of the `adler_collision_args` run at the top of the main loop. -/
def adler_collision_head : State :=
  match prologue adler_collision_args with
  | some (Step.next s) => s
  | _ => entry_state adler_collision_args

/-- The state of the `adler_collision_args` run after the big chunk is hashed, before
collision recovery. -/
def adler_collision_hashed : State :=
  match hash_big_chunk split_digests 1099
      (advance_extent (load_chunk_hashes adler_collision_head))
      ((advance_extent (load_chunk_hashes adler_collision_head)).pos + c_checkpoint_dist) with
  | some (Step.next s) => s
  | _ => adler_collision_head

/-! ### A concrete run in which the control MD5 misses a collision -/

/-- The first small chunk of the source of `mixed_collision_args`: 512 bytes that start
with `[1, 0, 1]`. -/
def mixed_chunk_f : List Byte := [1, 0, 1] ++ List.replicate 509 0

/-- The first small chunk of the replica of `mixed_collision_args`: 512 bytes that start
with `[0, 2, 0]`; it has the Adler-32 of `mixed_chunk_f`. -/
def mixed_chunk_r : List Byte := [0, 2, 0] ++ List.replicate 509 0

/-- Digest primitives for a run in which the control MD5 misses a small-hash
collision: Adler-32, and for MD5 a digest that only depends on the bytes behind the
first small chunk. -/
def tail_digests : HashFns :=
  { adler32 := adler32_sum,
    md5 := fun d => le_bytes 16 (d.drop c_small_hash_dist).sum,
    md5_size := fun d => by simp [le_bytes, big_hash_size]
    sha := fun d => le_bytes 32 (d.length * 256 + d.sum),
    sha_digest_size := 32,
    sha_digest_size_pos := by decide,
    sha_size := fun d => by simp [le_bytes] }

/-- Arguments of a run in `modify_inplace` mode on a source of two small chunks: the
first small chunk has the Adler-32 of the first small chunk of the replica and other
bytes, the second small chunk differs from the one of the replica in its Adler-32. The
previous hashfile is the hashfile of the replica. -/
def mixed_collision_args : Args :=
  { f := mem_file (mixed_chunk_f ++ [5]), hashoutput := mem_file [], cb := none,
    ret_sha2 := false, copy := some (mem_file (mixed_chunk_r ++ [6])), modify_inplace := true,
    inplace_written := none,
    hashinput := some (mem_file (hashfile_of tail_digests (mixed_chunk_r ++ [6]))),
    extent_iterator := none, uninit := List.replicate chunkhash_single_size 0 }

/-- The state of the `mixed_collision_args` run at the top of the main loop. -/
def mixed_collision_head : State :=
  match prologue mixed_collision_args with
  | some (Step.next s) => s
  | _ => entry_state mixed_collision_args

/-- The state of the `mixed_collision_args` run after the big chunk is hashed, before
collision recovery. -/
def mixed_collision_hashed : State :=
  match hash_big_chunk tail_digests 1099
      (advance_extent (load_chunk_hashes mixed_collision_head))
      ((advance_extent (load_chunk_hashes mixed_collision_head)).pos + c_checkpoint_dist) with
  | some (Step.next s) => s
  | _ => mixed_collision_head

end ChunkHasher

namespace IncrFileBackup
/-! ## The new client list against the listing -/

/-- The surroundings of `demo_walk_env` with line 1 in `diffs`, on a file system on
which `Server->openFile(path, MODE_WRITE)` returns no file. -/
def touch_fail_env : WalkEnv :=
  { demo_walk_env [1] [] with touch_file := fun _ _ => false }

/-- A file entry of a listing with the extra parameter `special`. -/
def special_entry (name : String) : SFile × ExtraParams :=
  ({ name := name, size := 10, last_modified := 0, isdir := false }, [("special", "1")])

/-- The surroundings of `demo_walk_env` with line 0 in `dir_diffs`, on a file system
on which the metadata of a directory cannot be written. -/
def metadata_fail_env : WalkEnv :=
  { demo_walk_env [] [0] with write_file_metadata := fun _ _ _ => false }

/-! ## The block that creates the directory of a directory entry -/

/-- The state in which a directory entry `cf` (not `..`) that the walk meets in the
state `s` reaches the test `if(!dir_linked && (!use_snapshots || indirchange ||
dir_diff))`, with the flag `dir_linked`. -/
def dir_entry_linked (E : WalkEnv) (s : WalkState) (cf : SFile) (extra : ExtraParams) :
    WalkState × Bool :=
  let fixed := fix_name E s cf
  let pre := entry_preamble E fixed.2 extra
  let st := dir_enter_begin E (update_indirchange E pre.1 cf) cf fixed.1 pre.2.has_orig_path
  link_large_subtree E st (E.convertToOSPathFromFileClient st.curr_os_path)

/-- The flag `dir_diff` of that directory entry. -/
def dir_entry_diff (E : WalkEnv) (s : WalkState) (cf : SFile) (extra : ExtraParams) : Bool :=
  dir_diff_of E (update_indirchange E (entry_preamble E (fix_name E s cf).2 extra).1 cf)

/-- The value of the test `!dir_linked && (!use_snapshots || indirchange || dir_diff)`
for that directory entry: the directory, or the symbolic link, and its metadata are
created exactly when it holds. -/
def dir_block_entered (E : WalkEnv) (s : WalkState) (cf : SFile) (extra : ExtraParams) : Bool :=
  !(dir_entry_linked E s cf extra).2
    && (!E.use_snapshots || (dir_entry_linked E s cf extra).1.indirchange
          || dir_entry_diff E s cf extra)

/-! ## Open directories of a listing -/

/-- The lines of the directories that are open behind one entry at line `line`, from
the lines `stack` of the directories that are open in front of it (innermost first):
a directory entry opens its line, a directory-up entry closes the innermost open
directory; `none` for a directory-up entry without an open directory. -/
def open_dirs_step (cf : SFile) (line : Nat) (stack : List Nat) : Option (List Nat) :=
  if cf.isdir then
    if cf.name ≠ ".." then some (line :: stack)
    else
      match stack with
      | [] => none
      | _ :: below => some below
  else some stack

/-- The lines of the directories that are open behind the entries `es`, the first of
which is at line `line`; `none` when the entries are not the beginning of a
well-nested listing. -/
def open_dirs_of : List (SFile × ExtraParams) → Nat → List Nat → Option (List Nat)
  | [], _, stack => some stack
  | e :: rest, line, stack =>
    match open_dirs_step e.1 line stack with
    | none => none
    | some stack1 => open_dirs_of rest (line + 1) stack1

/-- The state `s` of the walk fits the lines `stack` of the open directories.  The
innermost `skip_dir_completely - 1` of them are directories below a linked directory
and have no share in the variables of the walk; `depth`, `folder_items` and
`dir_diff_stack` count the others, `folder_files` counts all of them, and the change
mark is set exactly when one of the others is in `diffs`, `changelevel` being the
number of open directories around the outermost such directory. -/
def NestInv (E : WalkEnv) (stack : List Nat) (s : WalkState) : Prop :=
  ∃ skipped own : List Nat, stack = skipped ++ own
    ∧ skipped.length = s.skip_dir_completely - 1
    ∧ (0 < s.skip_dir_completely → own ≠ [])
    ∧ s.depth = (own.length : Int)
    ∧ s.folder_items.length = own.length + 1
    ∧ s.dir_diff_stack.length = own.length
    ∧ s.folder_files.length = stack.length + 1
    ∧ (s.indirchange = true → ∃ above l below, own = above ++ l :: below
        ∧ s.changelevel = (below.length : Int) ∧ hasChange l E.diffs = true
        ∧ ∀ x ∈ below, hasChange x E.diffs = false)
    ∧ (s.indirchange = false → ∀ l ∈ own, hasChange l E.diffs = false)

/-- Surroundings for concrete walks with directory links: the directory at line 0 is
in `large_unchanged_subtrees`, the backup is a resumed one (`copy_last_file_entries`)
and the sparse re-registration is switched on, with a hash-existing worker; every
path qualifies for it (`copy_file_entries_sparse_modulo = 1`, `incremental_num = 0`). -/
def link_walk_env : WalkEnv :=
  { demo_walk_env [] [] with
    large_unchanged_subtrees := [0], use_directory_links := true,
    copy_last_file_entries := true, readd_file_entries_sparse := true,
    trust_client_hashes := false, incremental_num := 0, copy_file_entries_sparse_modulo := 1 }

/-- A file entry of 200000 bytes. -/
def big_file_entry (name : String) : SFile × ExtraParams :=
  ({ name := name, size := 200000, last_modified := 0, isdir := false }, [])

end IncrFileBackup

namespace ChunkHasher
/-! ## Runs with a known-sparse big chunk -/

/-- An in-memory file with content `d` on a file system without hole punching. -/
def no_punch_file (d : List Byte) : IFile :=
  { mem_file d with punch_ok := false }

/-- The extent that covers the first big chunk. -/
def first_chunk_extent : SSparseExtent := { offset := 0, size := 524288 }

/-- Arguments of a run on a file of one big chunk of zero bytes, which the extent
iterator reports as sparse, with an empty replica on a file system without hole
punching. -/
def zero_fill_args : Args :=
  { f := mem_file (List.replicate c_checkpoint_dist 0), hashoutput := mem_file [], cb := none,
    ret_sha2 := false, copy := some (no_punch_file []), modify_inplace := false,
    inplace_written := none, hashinput := none,
    extent_iterator := some [first_chunk_extent], uninit := [] }

/-- Arguments of a run in non-inplace mode on a file of one big chunk of zero bytes,
which the extent iterator reports as sparse, followed by the byte `A`; the replica
is a new, empty file on a file system with hole punching. -/
def sparse_then_data_args : Args :=
  { f := mem_file (List.replicate c_checkpoint_dist 0 ++ [65]), hashoutput := mem_file [],
    cb := none, ret_sha2 := false, copy := some (mem_file []), modify_inplace := false,
    inplace_written := none, hashinput := none,
    extent_iterator := some [first_chunk_extent], uninit := [] }

/-! ## The writes to the replica -/

/-- The fields of the state that the writes to the replica depend on. -/
structure WView where
  copy : Option IFile
  modify_inplace : Bool
  chunk_hashes : Option (List Byte)
  copy_write_pos : Nat
  copy_read_eof : Bool
  inplace_written : Option Int
  copy_sparse_extent_start : Int
  copy_max_sparse : Int

/-- The part of the state that the writes to the replica depend on. -/
def State.wview (st : State) : WView :=
  { copy := st.copy, modify_inplace := st.modify_inplace, chunk_hashes := st.chunk_hashes,
    copy_write_pos := st.copy_write_pos, copy_read_eof := st.copy_read_eof,
    inplace_written := st.inplace_written,
    copy_sparse_extent_start := st.copy_sparse_extent_start,
    copy_max_sparse := st.copy_max_sparse }

/-- Effect of `rewrite_copy` and `copy_write_pos+=r` on a replica `c` without faults:
`buf` is written at `copy_write_pos` and counted in `inplace_written`. -/
def WView.rewrite (v : WView) (c : IFile) (buf : List Byte) : WView :=
  { v with copy := some (({ c with cursor := v.copy_write_pos } : IFile).put buf),
           inplace_written :=
             match v.inplace_written with
             | none => none
             | some w => some (w + buf.length),
           copy_write_pos := v.copy_write_pos + buf.length }

/-- Effect of `reconcile_copy` for the bytes `buf`, on a replica without faults and
without a record of the previous hashfile. -/
def WView.reconcile (v : WView) (buf : List Byte) : WView :=
  match v.copy with
  | none => v
  | some c =>
    if v.modify_inplace then
      if v.copy_read_eof then v.rewrite c buf
      else
        let copy_buf := (c.data.drop v.copy_write_pos).take c_small_hash_dist
        let c1 : IFile := { c with cursor := v.copy_write_pos + copy_buf.length }
        let eof : Bool := decide (copy_buf.length < c_small_hash_dist)
        if eof = true ∨ copy_buf.length ≠ buf.length ∨ copy_buf ≠ buf then
          WView.rewrite { v with copy := some c1, copy_read_eof := eof } c1 buf
        else
          { v with copy := some c1, copy_write_pos := v.copy_write_pos + buf.length }
    else { v with copy := some (c.put buf) }

/-- Effect of the known-sparse fast path, for the extent `e` at the position `pos`,
on a replica that supports hole punching. -/
def WView.punch (v : WView) (e : SSparseExtent) (pos : Nat) : WView :=
  if v.copy_sparse_extent_start = -1 then
    { v with
      copy := match v.copy with
        | none => none
        | some c => some { c with data := zero_range c.data e.offset.toNat e.size.toNat },
      copy_sparse_extent_start := pos,
      copy_max_sparse := e.offset + e.size,
      copy_write_pos := v.copy_write_pos + c_checkpoint_dist }
  else { v with copy_write_pos := v.copy_write_pos + c_checkpoint_dist }

/-- Arguments of a run in `modify_inplace` mode without a previous hashfile: the
source is the one-byte file `A`, the replica holds the same byte, and the counter
`inplace_written` starts at 0. -/
def same_replica_args : Args :=
  { f := mem_file [65], hashoutput := mem_file [], cb := none, ret_sha2 := false,
    copy := some (mem_file [65]), modify_inplace := true, inplace_written := some 0,
    hashinput := none, extent_iterator := none, uninit := [] }

/-- Invariant of the writes in `modify_inplace` mode without a previous hashfile,
for a replica that holds the bytes `F` of the source, at the position `p`: the
replica still holds `F`; in front of the end of the file no write has happened
(`n0` calls of `Write`, `inplace_written` at `w0`), behind it the last small chunk
was written again when it is shorter than `c_small_hash_dist`. -/
def SameInv (F : List Byte) (n0 : Nat) (w0 : Int) (v : WView) (p : Nat) : Prop :=
  v.modify_inplace = true ∧ v.chunk_hashes = none ∧ c_small_hash_dist ∣ p
    ∧ v.copy_max_sparse = -1
    ∧ ∃ c, v.copy = some c ∧ c.ideal ∧ c.data = F
      ∧ (p < F.length →
          v.copy_write_pos = p ∧ v.copy_read_eof = false ∧ c.nwrites = n0
            ∧ v.inplace_written = some w0)
      ∧ (F.length ≤ p →
          c.nwrites = n0 + (if F.length % c_small_hash_dist = 0 then 0 else 1)
            ∧ v.inplace_written = some (w0 + ((F.length % c_small_hash_dist : Nat) : Int)))

/-! ## The replica behind a known-sparse first big chunk -/

/-- Invariant of the writes in non-inplace mode behind a known-sparse first big
chunk, at the position `p` of the source `F`: the replica holds the bytes of the
source from `c_checkpoint_dist` to `p`, at offset 0, its cursor is at its end, and
the sparse watermark is `c_checkpoint_dist`. -/
def TailInv (F : List Byte) (v : WView) (p : Nat) : Prop :=
  v.modify_inplace = false ∧ v.chunk_hashes = none
    ∧ v.copy_max_sparse = (c_checkpoint_dist : Int) ∧ c_checkpoint_dist ≤ p
    ∧ ∃ c, v.copy = some c ∧ c.ideal ∧ c.punch_ok = true ∧ c.cursor = c.data.length
      ∧ c.data = slice F c_checkpoint_dist (p - c_checkpoint_dist)

/-! ## The alignment of the sparse runs -/

/-- The extent context after the sparse runs `rs` (offset and length) were added to
it with `add_extent`, the first run first. -/
def extents_ctx (rs : List (Int × Int)) : List Byte :=
  rs.foldl (fun c r => add_extent c r.1 r.2) []

/-- Invariant of the digest fields at position `p` of the file `F`, for the alignment
of the sparse runs: with `ret_sha2` the window buffer has `sha_buf_size` bytes; an
open sparse run starts at a multiple of `sha_buf_size`, is only open with
`ret_sha2`, and behind the end of the file only when the length of the file is a
multiple of `sha_buf_size`; the runs recorded in the extent context have offsets and
lengths that are multiples of `sha_buf_size`. -/
def AlignInv (F : List Byte) (v : SView) (p : Nat) : Prop :=
  (v.ret_sha2 = true → v.sha_buf.length = sha_buf_size)
    ∧ (v.sparse_extent_start ≠ -1 →
        v.ret_sha2 = true
          ∧ (∃ k : Nat, v.sparse_extent_start = ((k * sha_buf_size : Nat) : Int))
          ∧ (F.length ≤ p → sha_buf_size ∣ F.length))
    ∧ ∃ rs : List (Int × Int), v.extent_ctx = extents_ctx rs
        ∧ ∀ r ∈ rs, ((sha_buf_size : Nat) : Int) ∣ r.1 ∧ ((sha_buf_size : Nat) : Int) ∣ r.2

/-! ## The digest fields of a scan without the known-sparse fast path -/

/-- The digest fields after the first `i` small chunks of `F` went through the block
`if(ret_sha2)` of the small-chunk loop, one after the other: the scan of `F` on the
normal path. -/
def scan (F : List Byte) (r : Bool) : Nat → SView
  | 0 => SView.start r
  | i + 1 =>
    (scan F r i).window (i * c_small_hash_dist) F.length
      (slice F (i * c_small_hash_dist) c_small_hash_dist)

/-- The digest fields `v` and `w` agree, but for the content of the window buffer. -/
def SameFields (v w : SView) : Prop :=
  v.ret_sha2 = w.ret_sha2 ∧ v.ctx = w.ctx ∧ v.extent_ctx = w.extent_ctx
    ∧ v.sparse_extent_start = w.sparse_extent_start
    ∧ v.has_sparse_extent = w.has_sparse_extent
    ∧ v.sha_buf.length = w.sha_buf.length

/-- Invariant of the digest fields `v` of a run at position `p` of the file `F`:
they agree with the digest fields of the scan of `F` on the normal path, and so
does the part of the window buffer that holds the bytes of the current window. -/
def ScanInv (F : List Byte) (r : Bool) (v : SView) (p : Nat) : Prop :=
  ∃ i, p = i * c_small_hash_dist ∧ p < F.length + c_small_hash_dist
    ∧ SameFields v (scan F r i)
    ∧ (v.ret_sha2 = true → v.sha_buf.length = sha_buf_size)
    ∧ (v.ret_sha2 = true → p < F.length →
        v.sha_buf.take (p % sha_buf_size) = (scan F r i).sha_buf.take (p % sha_buf_size))

/-- The digest fields `u` after `k` small chunks of zero bytes, scanned on the normal
path from the digest fields `w0` at the start `p` of a big chunk: nothing was fed to
the contexts, and a sparse run is open from `p` once the first window is complete,
unless one was open before. -/
def ZeroRun (w0 : SView) (p : Nat) (u : SView) (k : Nat) : Prop :=
  u.ret_sha2 = w0.ret_sha2 ∧ u.ctx = w0.ctx ∧ u.extent_ctx = w0.extent_ctx
    ∧ u.has_sparse_extent = w0.has_sparse_extent
    ∧ u.sha_buf.length = w0.sha_buf.length
    ∧ u.sparse_extent_start
        = (if w0.ret_sha2 = true ∧ w0.sparse_extent_start = -1
              ∧ sha_buf_size ≤ k * c_small_hash_dist then (p : Int)
           else w0.sparse_extent_start)
    ∧ (u.ret_sha2 = true →
        u.sha_buf.take ((k * c_small_hash_dist) % sha_buf_size)
          = List.replicate ((k * c_small_hash_dist) % sha_buf_size) 0)

/-- Arguments of a run with `ret_sha2` on a file of one big chunk of zero bytes,
which the extent iterator reports as sparse, followed by the byte `A`. -/
def sparse_digest_args : Args :=
  { f := mem_file (List.replicate c_checkpoint_dist 0 ++ [65]), hashoutput := mem_file [],
    cb := none, ret_sha2 := true, copy := none, modify_inplace := false,
    inplace_written := none, hashinput := none,
    extent_iterator := some [first_chunk_extent], uninit := [] }

/-! ## The layout of a file: non-sparse content and sparse runs -/

/-- Window `j` of the file `F`: its bytes at the offsets from `j * sha_buf_size` up to
`(j + 1) * sha_buf_size`, fewer at the end of the file. -/
def file_window (F : List Byte) (j : Nat) : List Byte :=
  slice F (j * sha_buf_size) sha_buf_size

/-- Window `j` of `F` is sparse: it is complete and all its bytes are zero. -/
def sparse_window (F : List Byte) (j : Nat) : Bool :=
  decide ((j + 1) * sha_buf_size ≤ F.length) && buf_is_zero (file_window F j)

/-- The number of windows of `F`, the last one may be incomplete. -/
def n_windows (F : List Byte) : Nat := (F.length + sha_buf_size - 1) / sha_buf_size

/-- The non-sparse content of the first `k` windows of `F`: the windows that are not
sparse, one after the other. -/
def dense_upto (F : List Byte) : Nat → List Byte
  | 0 => []
  | k + 1 => dense_upto F k ++ (if sparse_window F k then [] else file_window F k)

/-- The non-sparse content of `F`. -/
def dense_content (F : List Byte) : List Byte := dense_upto F (n_windows F)

/-- The list of sparse runs `rs` (offset and length) after the open run, if there is
one, is closed at the offset `e`; an open run is given by its first window. -/
def close_runs (rs : List (Int × Int)) (o : Option Nat) (e : Int) : List (Int × Int) :=
  match o with
  | none => rs
  | some s => rs ++ [(((s * sha_buf_size : Nat) : Int), e - ((s * sha_buf_size : Nat) : Int))]

/-- The sparse runs among the first `k` windows of `F`: the runs that have ended, and
the first window of the run that window `k - 1` belongs to, if it is sparse. -/
def runs_upto (F : List Byte) : Nat → List (Int × Int) × Option Nat
  | 0 => ([], none)
  | k + 1 =>
    if sparse_window F k then ((runs_upto F k).1, some ((runs_upto F k).2.getD k))
    else (close_runs (runs_upto F k).1 (runs_upto F k).2 ((k * sha_buf_size : Nat) : Int), none)

/-- The sparse runs of `F`: the maximal runs of sparse windows, with offset and length
in bytes, in the order of their offsets. -/
def sparse_runs (F : List Byte) : List (Int × Int) :=
  close_runs (runs_upto F (n_windows F)).1 (runs_upto F (n_windows F)).2 (F.length : Int)

/-- The byte sequence whose digest is the whole-file digest of `F`: the non-sparse
content, followed by the digest of the sparse runs when there is one. -/
def digest_input (H : HashFns) (F : List Byte) : List Byte :=
  dense_content F
    ++ (if (sparse_runs F).isEmpty then [] else H.sha (extents_ctx (sparse_runs F)))

/-- The value of `sparse_extent_start` for an open run that starts with window `s`. -/
def open_start : Option Nat → Int
  | none => -1
  | some s => ((s * sha_buf_size : Nat) : Int)

/-- The number of windows that the digest has dealt with when the run is at position
`p` of `F`. -/
def windows_done (F : List Byte) (p : Nat) : Nat :=
  if F.length ≤ p then n_windows F else p / sha_buf_size

/-- Invariant of the digest fields at position `p` of the file `F` on the normal path:
`ctx` holds the non-sparse content of the windows in front of `p`, the extent context
the sparse runs among them that have ended, `sparse_extent_start` the start of the run
that is open, and the window buffer the bytes of the current window in front of `p`. -/
def LayoutInv (F : List Byte) (v : SView) (p : Nat) : Prop :=
  v.ret_sha2 = true ∧ v.sha_buf.length = sha_buf_size
    ∧ v.ctx = dense_upto F (windows_done F p)
    ∧ v.extent_ctx = extents_ctx (runs_upto F (windows_done F p)).1
    ∧ v.sparse_extent_start = open_start (runs_upto F (windows_done F p)).2
    ∧ v.has_sparse_extent = !(runs_upto F (windows_done F p)).1.isEmpty
    ∧ (p < F.length →
        v.sha_buf.take (p % sha_buf_size)
          = slice F (p / sha_buf_size * sha_buf_size) (p % sha_buf_size))

/-- The file of `k` windows of zero bytes followed by the byte `A`. -/
def layout_file (k : Nat) : List Byte := List.replicate (k * sha_buf_size) 0 ++ [65]

/-! ## Writing to a sink without faults -/

theorem write_at_length (d : List Byte) (off : Nat) (b : List Byte) :
    (write_at d off b).length = max d.length (off + b.length) := by
  simp only [write_at, List.length_append, List.length_take, List.length_replicate,
    List.length_drop]
  omega

theorem write_at_end (d b : List Byte) : write_at d d.length b = d ++ b := by
  simp [write_at]

theorem IFile.Write_ideal (f : IFile) (buf : List Byte) (hf : f.ideal) (hb : buf ≠ []) :
    f.Write buf = (buf.length, f.put buf) := by
  have hl : buf.length ≠ 0 := by
    intro h; exact hb (List.length_eq_zero.mp h)
  simp [IFile.Write, IFile.put, hf f.nwrites buf.length, hl]

theorem IFile.put_ideal (f : IFile) (buf : List Byte) (hf : f.ideal) : (f.put buf).ideal := by
  intro k n; exact hf k n

theorem writeFileRepeatTries_ideal (f : IFile) (buf : List Byte) (hf : f.ideal) (hb : buf ≠ []) :
    writeFileRepeatTries f buf = some (true, f.put buf) := by
  have hl : buf.length ≠ 0 := by
    intro h; exact hb (List.length_eq_zero.mp h)
  simp [writeFileRepeatTries, writeFileRepeatTries_loop, IFile.Write_ideal f buf hf hb, hl]

theorem int_of_u32_small (w : Nat) (h : w < 2 ^ 31) : int_of_u32 w = (w : Int) := by
  unfold int_of_u32
  have e : w % 2 ^ 32 = w := Nat.mod_eq_of_lt (by omega)
  rw [e, if_pos h]

theorem int_of_u32_aligned (w : Nat) (h : w % 2 ^ 32 = 0) : int_of_u32 w = 0 := by
  unfold int_of_u32
  rw [h, if_pos (by decide)]
  rfl

theorem IFile.Write_count (f : IFile) (buf : List Byte) (hf : f.ideal) :
    (f.Write buf).1 = buf.length := by
  simp [IFile.Write, hf f.nwrites buf.length]

/-- On a sink without faults the call with a callback succeeds without a call of the
callback, for a buffer of fewer than `2^31` bytes. -/
theorem writeRepeatFreeSpace_ideal (f : IFile) (buf : List Byte)
    (cb : Option INotEnoughSpaceCallback) (hf : f.ideal) (hb : buf ≠ [])
    (hl : buf.length < 2 ^ 31) :
    writeRepeatFreeSpace f buf cb = some (true, f.put buf, cb) := by
  cases cb with
  | none => simp [writeRepeatFreeSpace, writeFileRepeatTries_ideal f buf hf hb]
  | some c =>
    have e : int_of_u32 buf.length % 2 ^ 64 = (buf.length : Int) := by
      rw [int_of_u32_small _ hl]
      omega
    rw [writeRepeatFreeSpace]
    simp only [IFile.Write_ideal f buf hf hb]
    rw [if_neg (not_not.mpr e)]

/-- On a sink without faults the retry loop of `writeRepeatFreeSpace` that starts
behind a complete first write ends with `rc == 0`. -/
theorem writeRepeatFreeSpace_loop_ideal (buf : List Byte) (fuel : Nat) (f : IFile)
    (hf : f.ideal) :
    ∃ f', writeRepeatFreeSpace_loop buf (fuel + 1) f (buf.length % 2 ^ 32) = some (0, f') := by
  have hw : (f.Write (buf.drop (buf.length % 2 ^ 32))).1 = buf.length - buf.length % 2 ^ 32 := by
    rw [IFile.Write_count _ _ hf, List.length_drop]
  have hz : int_of_u32 (buf.length - buf.length % 2 ^ 32) = 0 :=
    int_of_u32_aligned _ (by omega)
  rw [writeRepeatFreeSpace_loop]
  simp only [hw, hz, gt_iff_lt, lt_self_iff_false, and_false, if_false]
  exact ⟨_, rfl⟩

/-- On a sink without faults a call that reports success has stored the buffer and
has not called the callback, whatever the size of the buffer. -/
theorem writeRepeatFreeSpace_ideal_ok (f : IFile) (buf : List Byte)
    (cb : Option INotEnoughSpaceCallback) (hf : f.ideal) (hb : buf ≠ [])
    (f' : IFile) (cb' : Option INotEnoughSpaceCallback)
    (h : writeRepeatFreeSpace f buf cb = some (true, f', cb')) :
    f' = f.put buf ∧ cb' = cb := by
  cases cb with
  | none =>
    simp [writeRepeatFreeSpace, writeFileRepeatTries_ideal f buf hf hb] at h
    exact ⟨h.1.symm, h.2.symm⟩
  | some c =>
    rw [writeRepeatFreeSpace] at h
    simp only [IFile.Write_ideal f buf hf hb] at h
    by_cases hc : int_of_u32 buf.length % 2 ^ 64 ≠ (buf.length : Int)
    · rw [if_pos hc] at h
      simp only [INotEnoughSpaceCallback.handle_not_enough_space] at h
      by_cases ha : c.answer c.calls = true
      · rw [if_pos ha] at h
        obtain ⟨f2, h2⟩ := writeRepeatFreeSpace_loop_ideal buf buf.length (f.put buf)
          (IFile.put_ideal f buf hf)
        rw [h2] at h
        simp at h
      · rw [if_neg ha] at h
        simp at h
    · rw [if_neg hc] at h
      simp only [Option.some.injEq, Prod.mk.injEq, true_and] at h
      exact ⟨h.1.symm, h.2.symm⟩

/-! ## The sparse-extent template -/

theorem c_checkpoint_dist_eq : c_checkpoint_dist = 524288 := rfl

theorem c_small_hash_dist_eq : c_small_hash_dist = 512 := rfl

theorem big_hash_size_eq : big_hash_size = 16 := rfl

theorem small_hash_size_eq : small_hash_size = 4 := rfl

theorem chunkhash_single_size_eq : chunkhash_single_size = 4112 := by decide

theorem n_chunks_eq : n_chunks = 1024 := by decide

theorem sha_buf_size_eq : sha_buf_size = 32768 := rfl

theorem le_bytes_length (w n : Nat) : (le_bytes w n).length = w := by
  induction w generalizing n with
  | zero => rfl
  | succ w ih => simp [le_bytes, ih]

theorem repeat_bytes_succ (k : Nat) (b : List Byte) :
    repeat_bytes (k + 1) b = b ++ repeat_bytes k b := by
  simp [repeat_bytes, List.replicate_succ]

theorem repeat_bytes_length (k : Nat) (b : List Byte) :
    (repeat_bytes k b).length = k * b.length := by
  induction k with
  | zero => simp [repeat_bytes]
  | succ k ih => rw [repeat_bytes_succ, List.length_append, ih]; ring

theorem sparse_md5_input_eq (k : Nat) : sparse_md5_input k = zeros (k * c_small_hash_dist) := by
  induction k with
  | zero => simp [sparse_md5_input, zeros]
  | succ k ih =>
    have e : (k + 1) * c_small_hash_dist = k * c_small_hash_dist + c_small_hash_dist := by ring
    rw [sparse_md5_input, ih, e]
    unfold zeros
    rw [List.replicate_add]

theorem store_small_hashes_eq (sh : List Byte) (hsh : sh.length = 4) (k : Nat) :
    ∀ (ret : List Byte) (ptr : Nat), ptr + 4 * k ≤ ret.length →
      (store_small_hashes sh k (ret, ptr)).1
        = ret.take ptr ++ repeat_bytes k sh ++ ret.drop (ptr + 4 * k) := by
  induction k with
  | zero => intro ret ptr _; simp [store_small_hashes, repeat_bytes]
  | succ k ih =>
    intro ret ptr h
    have hlen : (write_at ret ptr sh).length = ret.length := by
      rw [write_at_length]; omega
    have hw : write_at ret ptr sh = ret.take ptr ++ sh ++ ret.drop (ptr + 4) := by
      have h0 : ptr - ret.length = 0 := by omega
      simp [write_at, h0, hsh]
    have htl : (ret.take ptr).length = ptr := by
      rw [List.length_take]; omega
    rw [store_small_hashes, ih _ _ (by rw [hlen]; omega), repeat_bytes_succ, hw]
    have e1 : List.take (ptr + 4) (ret.take ptr ++ sh ++ ret.drop (ptr + 4)) = ret.take ptr ++ sh := by
      apply List.take_left'
      rw [List.length_append, htl, hsh]
    have e2 : List.drop (ptr + 4 + 4 * k) (ret.take ptr ++ sh ++ ret.drop (ptr + 4))
        = ret.drop (ptr + 4 * (k + 1)) := by
      have hl2 : (ret.take ptr ++ sh).length = ptr + 4 := by
        rw [List.length_append, htl, hsh]
      rw [List.drop_append_eq_append_drop, List.drop_eq_nil_of_le (by rw [hl2]; omega), hl2,
        List.drop_drop, List.nil_append]
      congr 1; omega
    rw [e1, e2]
    simp [List.append_assoc]

theorem build_sparse_extent_content_eq (H : HashFns) :
    build_sparse_extent_content H = sparse_template_spec H := by
  have hmd : (H.md5 (sparse_md5_input (c_checkpoint_dist / c_small_hash_dist))).length = 16 :=
    H.md5_size _
  have hin : sparse_md5_input (c_checkpoint_dist / c_small_hash_dist) = zeros c_checkpoint_dist := by
    rw [sparse_md5_input_eq]; rfl
  have hsplit : List.replicate chunkhash_single_size (0 : Byte)
      = List.replicate 16 0 ++ List.replicate (chunkhash_single_size - 16) 0 := by
    rw [← List.replicate_add]; rfl
  have h1 : write_at (List.replicate chunkhash_single_size 0)
      0 ((H.md5 (sparse_md5_input (c_checkpoint_dist / c_small_hash_dist))).take big_hash_size)
      = H.md5 (zeros c_checkpoint_dist) ++ List.replicate (chunkhash_single_size - 16) 0 := by
    rw [List.take_of_length_le (by rw [hmd]; exact Nat.le_refl _)]
    simp only [write_at, List.take_zero, Nat.zero_sub, List.replicate_zero, List.nil_append,
      Nat.zero_add, hmd]
    rw [hsplit, List.drop_left' (by simp), hin]
  simp only [build_sparse_extent_content]
  rw [h1, store_small_hashes_eq _ (le_bytes_length 4 _)]
  · have hm : (H.md5 (zeros c_checkpoint_dist)).length = 16 := H.md5_size _
    rw [List.take_left' (by rw [hm]; rfl)]
    rw [List.drop_eq_nil_of_le]
    · simp [sparse_template_spec, n_chunks, zeros]
    · rw [List.length_append, hm, List.length_replicate]
      exact Nat.le_of_eq (by decide)
  · rw [List.length_append, H.md5_size, List.length_replicate]
    exact Nat.le_of_eq (by decide)

theorem sparse_template_spec_length (H : HashFns) :
    (sparse_template_spec H).length = chunkhash_single_size := by
  rw [sparse_template_spec, List.length_append, H.md5_size, repeat_bytes_length, le_bytes_length]
  decide

/-! ## Loop rules -/

/-- Invariant rule for the small-chunk loop (partial correctness). -/
theorem small_chunk_loop_partial (H : HashFns) (epos : Nat) (I : State → Prop)
    (hstep : ∀ st st', I st → st.pos < epos → st.pos < st.fsize →
      small_chunk_body H st = some (Step.next st') →
      I { st' with pos := st'.pos + c_small_hash_dist, chunkidx := st'.chunkidx + 1 }) :
    ∀ (fuel : Nat) (st st' : State), I st →
      small_chunk_loop H epos fuel st = some (Step.next st') →
      I st' ∧ ¬ (st'.pos < epos ∧ st'.pos < st'.fsize) := by
  intro fuel
  induction fuel with
  | zero => intro st st' _ h; simp [small_chunk_loop] at h
  | succ fuel ih =>
    intro st st' hI h
    rw [small_chunk_loop] at h
    by_cases hc : st.pos < epos ∧ st.pos < st.fsize
    · rw [if_pos hc] at h
      cases hb : small_chunk_body H st with
      | none => rw [hb] at h; simp at h
      | some r =>
        cases r with
        | exit ret s => rw [hb] at h; simp at h
        | next s =>
          rw [hb] at h
          exact ih _ _ (hstep st s hI hc.1 hc.2 hb) h
    · rw [if_neg hc] at h
      simp only [Option.some.injEq, Step.next.injEq] at h
      subst h
      exact ⟨hI, hc⟩

/-- Invariant rule for the main loop (partial correctness). -/
theorem main_loop_partial (H : HashFns) (g : Globals) (I : State → Prop)
    (hsparse : ∀ fuel st st', I st → st.pos < st.fsize →
      known_sparse (advance_extent (load_chunk_hashes st))
        ((advance_extent (load_chunk_hashes st)).pos + c_checkpoint_dist) = true →
      sparse_chunk g fuel (advance_extent (load_chunk_hashes st))
        ((advance_extent (load_chunk_hashes st)).pos + c_checkpoint_dist) = some (Step.next st') →
      I st')
    (hnormal : ∀ fuel st st', I st → st.pos < st.fsize →
      known_sparse (advance_extent (load_chunk_hashes st))
        ((advance_extent (load_chunk_hashes st)).pos + c_checkpoint_dist) = false →
      normal_chunk H fuel (advance_extent (load_chunk_hashes st))
        ((advance_extent (load_chunk_hashes st)).pos + c_checkpoint_dist) = some (Step.next st') →
      I st') :
    ∀ (fuel : Nat) (st st' : State), I st →
      main_loop H g fuel st = some (Step.next st') →
      I st' ∧ ¬ (st'.pos < st'.fsize) := by
  intro fuel
  induction fuel with
  | zero => intro st st' _ h; simp [main_loop] at h
  | succ fuel ih =>
    intro st st' hI h
    rw [main_loop] at h
    by_cases hc : st.pos < st.fsize
    · rw [if_pos hc] at h
      simp only at h
      cases hk : known_sparse (advance_extent (load_chunk_hashes st))
          ((advance_extent (load_chunk_hashes st)).pos + c_checkpoint_dist) with
      | true =>
        rw [hk] at h
        simp only [if_true] at h
        cases hb : sparse_chunk g fuel (advance_extent (load_chunk_hashes st))
            ((advance_extent (load_chunk_hashes st)).pos + c_checkpoint_dist) with
        | none => rw [hb] at h; simp at h
        | some r =>
          cases r with
          | exit ret s => rw [hb] at h; simp at h
          | next s =>
            rw [hb] at h
            exact ih _ _ (hsparse fuel st s hI hc hk hb) h
      | false =>
        rw [hk] at h
        simp only [Bool.false_eq_true, if_false] at h
        cases hb : normal_chunk H fuel (advance_extent (load_chunk_hashes st))
            ((advance_extent (load_chunk_hashes st)).pos + c_checkpoint_dist) with
        | none => rw [hb] at h; simp at h
        | some r =>
          cases r with
          | exit ret s => rw [hb] at h; simp at h
          | next s =>
            rw [hb] at h
            exact ih _ _ (hnormal fuel st s hI hc hk hb) h
    · rw [if_neg hc] at h
      simp only [Option.some.injEq, Step.next.injEq] at h
      subst h
      exact ⟨hI, hc⟩

/-! ## Early returns

Every early return of `build_chunk_hashs` returns the empty string. -/

theorem rewrite_copy_exit (st s : State) (c : IFile) (buf ret : List Byte)
    (h : rewrite_copy st c buf = some (Step.exit ret s)) : ret = [] := by
  unfold rewrite_copy at h
  simp only [IFile.Seek] at h
  split at h
  · simp at h
  · simp only [Option.some.injEq, Step.exit.injEq] at h
    exact h.1.symm
  · simp at h

theorem bump_copy_write_pos_exit (x : Option Step) (r : Nat) (s : State) (ret : List Byte)
    (h : bump_copy_write_pos x r = some (Step.exit ret s)) : x = some (Step.exit ret s) := by
  unfold bump_copy_write_pos at h
  split at h
  · simp at h
  · exact h

theorem reconcile_copy_exit (st s : State) (buf sh ret : List Byte)
    (h : reconcile_copy st buf sh = some (Step.exit ret s)) : ret = [] := by
  unfold reconcile_copy at h
  split at h
  · simp at h
  · split at h
    · split at h
      · unfold reconcile_hashed at h
        simp only [IFile.Seek, IFile.Read] at h
        split at h
        · simp at h
        · exact rewrite_copy_exit _ _ _ _ _ (bump_copy_write_pos_exit _ _ _ _ h)
      · unfold reconcile_compare at h
        simp only [IFile.Seek, IFile.Read] at h
        split at h
        · exact rewrite_copy_exit _ _ _ _ _ (bump_copy_write_pos_exit _ _ _ _ h)
        · split at h
          · exact rewrite_copy_exit _ _ _ _ _ (bump_copy_write_pos_exit _ _ _ _ h)
          · simp at h
    · split at h
      · simp at h
      · simp only [Option.some.injEq, Step.exit.injEq] at h
        exact h.1.symm
      · simp at h

theorem small_chunk_body_exit (H : HashFns) (st s : State) (ret : List Byte)
    (h : small_chunk_body H st = some (Step.exit ret s)) : ret = [] := by
  unfold small_chunk_body at h
  simp only at h
  split at h
  · simp at h
  · simp only [Option.some.injEq, Step.exit.injEq] at h
    exact h.1.symm
  · exact reconcile_copy_exit _ _ _ _ _ h

theorem small_chunk_loop_exit (H : HashFns) (epos : Nat) :
    ∀ (fuel : Nat) (st s : State) (ret : List Byte),
      small_chunk_loop H epos fuel st = some (Step.exit ret s) → ret = [] := by
  intro fuel
  induction fuel with
  | zero => intro st s ret h; simp [small_chunk_loop] at h
  | succ fuel ih =>
    intro st s ret h
    rw [small_chunk_loop] at h
    split at h
    · split at h
      · simp at h
      · rename_i hb
        simp only [Option.some.injEq, Step.exit.injEq] at h
        rw [← h.1]
        exact small_chunk_body_exit H _ _ _ hb
      · exact ih _ _ _ h
    · simp at h

theorem recopy_loop_exit (epos : Nat) :
    ∀ (fuel : Nat) (st s : State) (ret : List Byte),
      recopy_loop epos fuel st = some (Step.exit ret s) → ret = [] := by
  intro fuel
  induction fuel with
  | zero => intro st s ret h; simp [recopy_loop] at h
  | succ fuel ih =>
    intro st s ret h
    rw [recopy_loop] at h
    split at h
    · split at h
      · simp at h
      · split at h
        · simp at h
        · rename_i hb
          simp only [Option.some.injEq, Step.exit.injEq] at h
          rw [← h.1]
          unfold recopy_body at hb
          simp only at hb
          exact rewrite_copy_exit _ _ _ _ _ (bump_copy_write_pos_exit _ _ _ _ hb)
        · exact ih _ _ _ h
    · simp at h

theorem collision_recovery_exit (H : HashFns) (fuel : Nat) (st s : State) (epos : Nat)
    (ret : List Byte) (h : collision_recovery H fuel st epos = some (Step.exit ret s)) :
    ret = [] := by
  unfold collision_recovery at h
  split at h
  · split at h
    · split at h
      · simp only at h
        exact recopy_loop_exit _ _ _ _ _ h
      · simp at h
    · simp at h
  · simp at h

theorem normal_chunk_exit (H : HashFns) (fuel : Nat) (st s : State) (epos : Nat)
    (ret : List Byte) (h : normal_chunk H fuel st epos = some (Step.exit ret s)) :
    ret = [] := by
  unfold normal_chunk at h
  simp only at h
  split at h
  · simp at h
  · split at h
    · simp at h
    · rename_i hb
      simp only [Option.some.injEq, Step.exit.injEq] at h
      rw [← h.1]
      exact small_chunk_loop_exit H _ _ _ _ _ hb
    · split at h
      · simp at h
      · simp only [Option.some.injEq, Step.exit.injEq] at h
        exact h.1.symm
      · split at h
        · simp at h
        · rename_i hb
          simp only [Option.some.injEq, Step.exit.injEq] at h
          rw [← h.1]
          exact collision_recovery_exit H _ _ _ _ _ hb
        · simp at h

theorem punch_copy_exit (fuel : Nat) (st s : State) (ret : List Byte)
    (h : punch_copy fuel st = some (Step.exit ret s)) : ret = [] := by
  unfold punch_copy at h
  split at h
  · split at h
    · simp at h
    · simp only [IFile.Seek] at h
      split at h
      · simp only [if_true] at h
        split at h
        · simp at h
        · simp only [Option.some.injEq, Step.exit.injEq] at h
          exact h.1.symm
        · simp at h
      · simp at h
  · simp at h

theorem sparse_chunk_exit (g : Globals) (fuel : Nat) (st s : State) (epos : Nat)
    (ret : List Byte) (h : sparse_chunk g fuel st epos = some (Step.exit ret s)) :
    ret = [] := by
  unfold sparse_chunk at h
  simp only at h
  split at h
  · simp at h
  · simp only [Option.some.injEq, Step.exit.injEq] at h
    exact h.1.symm
  · split at h
    · simp at h
    · rename_i hb
      simp only [Option.some.injEq, Step.exit.injEq] at h
      rw [← h.1]
      exact punch_copy_exit _ _ _ _ hb
    · simp [IFile.Seek] at h

theorem main_loop_exit (H : HashFns) (g : Globals) :
    ∀ (fuel : Nat) (st s : State) (ret : List Byte),
      main_loop H g fuel st = some (Step.exit ret s) → ret = [] := by
  intro fuel
  induction fuel with
  | zero => intro st s ret h; simp [main_loop] at h
  | succ fuel ih =>
    intro st s ret h
    rw [main_loop] at h
    split at h
    · simp only at h
      split at h
      · split at h
        · simp at h
        · rename_i hb
          simp only [Option.some.injEq, Step.exit.injEq] at h
          rw [← h.1]
          exact sparse_chunk_exit _ _ _ _ _ _ hb
        · exact ih _ _ _ h
      · split at h
        · simp at h
        · rename_i hb
          simp only [Option.some.injEq, Step.exit.injEq] at h
          rw [← h.1]
          exact normal_chunk_exit _ _ _ _ _ _ hb
        · exact ih _ _ _ h
    · simp at h

theorem read_input_size_exit (st s : State) (ret : List Byte)
    (h : read_input_size st = Step.exit ret s) : ret = [] := by
  unfold read_input_size at h
  split at h
  · simp at h
  · simp only [IFile.Seek, IFile.Read] at h
    split at h
    · simp only [Step.exit.injEq] at h
      exact h.1.symm
    · simp at h

theorem prologue_exit (a : Args) (s : State) (ret : List Byte)
    (h : prologue a = some (Step.exit ret s)) : ret = [] := by
  unfold prologue at h
  simp only at h
  split at h
  · simp at h
  · simp only [Option.some.injEq, Step.exit.injEq] at h
    exact h.1.symm
  · split at h
    · rename_i hb
      simp only [Option.some.injEq, Step.exit.injEq] at h
      rw [← h.1]
      exact read_input_size_exit _ _ _ hb
    · simp at h

theorem restore_copy_size_exit (st s : State) (ret : List Byte)
    (h : restore_copy_size st = Step.exit ret s) : ret = [] := by
  unfold restore_copy_size at h
  split at h
  · simp at h
  · simp only [IFile.Resize] at h
    split at h
    · simp at h
    · simp at h

/-! ## Byte sequences -/

theorem slice_append (F : List Byte) (a m k : Nat) :
    slice F a m ++ slice F (a + m) k = slice F a (m + k) := by
  simp only [slice]
  rw [List.take_add, List.drop_drop]

theorem slice_length (F : List Byte) (a m : Nat) :
    (slice F a m).length = min m (F.length - a) := by
  simp [slice]

theorem slice_eq_of_le (F : List Byte) (a m k : Nat) (hm : F.length - a ≤ m)
    (hk : F.length - a ≤ k) : slice F a m = slice F a k := by
  simp only [slice]
  rw [List.take_of_length_le (by rw [List.length_drop]; exact hm),
    List.take_of_length_le (by rw [List.length_drop]; exact hk)]

theorem write_at_take (d : List Byte) (off : Nat) (b : List Byte) (h : off ≤ d.length) :
    (write_at d off b).take (off + b.length) = d.take off ++ b := by
  have h0 : off - d.length = 0 := by omega
  simp only [write_at, h0, List.replicate_zero, List.append_nil]
  rw [List.take_left']
  rw [List.length_append, List.length_take]; omega

theorem write_at_drop (d : List Byte) (off : Nat) (b : List Byte) (h : off ≤ d.length) :
    (write_at d off b).drop (off + b.length) = d.drop (off + b.length) := by
  have h0 : off - d.length = 0 := by omega
  simp only [write_at, h0, List.replicate_zero, List.append_nil]
  rw [List.drop_left']
  rw [List.length_append, List.length_take]; omega

theorem write_at_over (P X R b : List Byte) (h : X.length = b.length) :
    write_at (P ++ X ++ R) P.length b = P ++ b ++ R := by
  have e1 : List.take P.length (P ++ X ++ R) = P := by
    rw [List.append_assoc]; exact List.take_left' rfl
  have e2 : List.drop (P.length + b.length) (P ++ X ++ R) = R := by
    apply List.drop_left'
    rw [List.length_append, h]
  have e3 : P.length - (P ++ X ++ R).length = 0 := by
    simp only [List.length_append]; omega
  simp only [write_at, e1, e2, e3, List.replicate_zero, List.append_nil]

theorem le_bytes_ne_nil (w n : Nat) (hw : 0 < w) : le_bytes w n ≠ [] := by
  intro h
  have := le_bytes_length w n
  rw [h] at this
  simp at this
  omega

theorem i64_bytes_length (x : Int) : (i64_bytes x).length = 8 := le_bytes_length 8 _

/-! ## Writes of the chunk hasher to a hashfile without faults -/

theorem write_hashoutput_ideal (st : State) (buf : List Byte) (hf : st.hashoutput.ideal)
    (hb : buf ≠ []) (hl : buf.length < 2 ^ 31) :
    write_hashoutput st buf = some (true, { st with hashoutput := st.hashoutput.put buf }) := by
  simp [write_hashoutput, writeRepeatFreeSpace_ideal _ _ _ hf hb hl]

/-! ## Frame of the pieces of the loop body for the hashfile -/

theorem load_chunk_hashes_hview (st : State) : (load_chunk_hashes st).hview = st.hview := by
  unfold load_chunk_hashes
  split
  · simp only [IFile.Seek, IFile.Read]
    split
    · split <;> rfl
    · rfl
  · rfl
  · rfl

theorem close_sparse_run_hview (st : State) : (close_sparse_run st).hview = st.hview := by
  unfold close_sparse_run
  split <;> rfl

theorem open_sparse_run_hview (st : State) : (open_sparse_run st).hview = st.hview := by
  unfold open_sparse_run
  split <;> rfl

theorem feed_window_hview (st : State) (n : Nat) : (feed_window st n).hview = st.hview := rfl

theorem sha_window_hview (st : State) (buf : List Byte) :
    (sha_window st buf).hview = st.hview := by
  unfold sha_window
  simp only
  split
  · split
    · split
      · rw [open_sparse_run_hview]; rfl
      · rw [feed_window_hview, close_sparse_run_hview]; rfl
    · split
      · rw [feed_window_hview, close_sparse_run_hview]; rfl
      · rfl
  · rfl

theorem add_inplace_written_hview (st : State) (r : Nat) :
    (add_inplace_written st r).hview = st.hview := by
  unfold add_inplace_written
  split <;> rfl

theorem write_copy_hview (st st' : State) (c : IFile) (buf : List Byte) (ok : Bool)
    (h : write_copy st c buf = some (ok, st')) : st'.hview = st.hview := by
  unfold write_copy at h
  split at h
  · simp at h
  · simp only [Option.some.injEq, Prod.mk.injEq] at h
    rw [← h.2]
    rfl

theorem mark_copy_read_eof_hview (st : State) (r : Nat) :
    (mark_copy_read_eof st r).hview = st.hview := by
  unfold mark_copy_read_eof
  split <;> rfl

theorem rewrite_copy_hview (st st' : State) (c : IFile) (buf : List Byte)
    (h : rewrite_copy st c buf = some (Step.next st')) : st'.hview = st.hview := by
  unfold rewrite_copy at h
  simp only [IFile.Seek] at h
  split at h
  · simp at h
  · simp at h
  · rename_i s heq
    simp only [Option.some.injEq, Step.next.injEq] at h
    rw [← h, add_inplace_written_hview]
    exact write_copy_hview _ _ _ _ _ heq

theorem bump_copy_write_pos_next (s : Option Step) (r : Nat) (st' : State)
    (h : bump_copy_write_pos s r = some (Step.next st')) :
    ∃ st1, s = some (Step.next st1)
      ∧ st' = { st1 with copy_write_pos := st1.copy_write_pos + r } := by
  unfold bump_copy_write_pos at h
  split at h
  · rename_i st1
    simp only [Option.some.injEq, Step.next.injEq] at h
    exact ⟨st1, rfl, h.symm⟩
  · rename_i hne
    exact absurd h (hne st')

theorem reconcile_hashed_hview (st st' : State) (c : IFile) (ch buf sh : List Byte)
    (h : reconcile_hashed st c ch buf sh = some (Step.next st')) : st'.hview = st.hview := by
  unfold reconcile_hashed at h
  simp only [IFile.Seek, IFile.Read] at h
  split at h
  · simp only [Option.some.injEq, Step.next.injEq] at h
    rw [← h]; rfl
  · obtain ⟨st1, h1, rfl⟩ := bump_copy_write_pos_next _ _ _ h
    have := rewrite_copy_hview _ _ _ _ h1
    show st1.hview = st.hview
    rw [this]
    show (mark_copy_read_eof st _).hview = st.hview
    exact mark_copy_read_eof_hview _ _

theorem reconcile_compare_hview (st st' : State) (c : IFile) (buf : List Byte)
    (h : reconcile_compare st c buf = some (Step.next st')) : st'.hview = st.hview := by
  unfold reconcile_compare at h
  simp only [IFile.Seek, IFile.Read] at h
  split at h
  · obtain ⟨st1, h1, rfl⟩ := bump_copy_write_pos_next _ _ _ h
    exact rewrite_copy_hview _ st1 _ _ h1
  · split at h
    · obtain ⟨st1, h1, rfl⟩ := bump_copy_write_pos_next _ _ _ h
      have := rewrite_copy_hview _ _ _ _ h1
      show st1.hview = st.hview
      rw [this, mark_copy_read_eof_hview]; rfl
    · simp only [Option.some.injEq, Step.next.injEq] at h
      rw [← h]
      show (mark_copy_read_eof _ _).hview = st.hview
      rw [mark_copy_read_eof_hview]; rfl

theorem reconcile_copy_hview (st st' : State) (buf sh : List Byte)
    (h : reconcile_copy st buf sh = some (Step.next st')) : st'.hview = st.hview := by
  unfold reconcile_copy at h
  split at h
  · simp only [Option.some.injEq, Step.next.injEq] at h
    rw [h]
  · split at h
    · split at h
      · exact reconcile_hashed_hview _ _ _ _ _ _ h
      · exact reconcile_compare_hview _ _ _ _ h
    · split at h
      · simp at h
      · simp at h
      · rename_i s heq
        simp only [Option.some.injEq, Step.next.injEq] at h
        rw [← h]
        exact write_copy_hview _ _ _ _ _ heq

/-! ## Effect of the pieces of the loop body on the hashfile -/

theorem small_chunk_body_hview (H : HashFns) (st st' : State) (hid : st.hashoutput.ideal)
    (h : small_chunk_body H st = some (Step.next st')) :
    st'.hview = st.hview.read_small H := by
  unfold small_chunk_body at h
  simp only at h
  have hw := write_hashoutput_ideal
    { st with f := (st.f.Read c_small_hash_dist).2,
              big_hash := st.big_hash ++ (st.f.Read c_small_hash_dist).1 }
    (le_bytes 4 (H.adler32 (st.f.Read c_small_hash_dist).1)) hid
    (le_bytes_ne_nil 4 _ (by decide)) (by rw [le_bytes_length]; decide)
  rw [hw] at h
  simp only at h
  rw [reconcile_copy_hview _ _ _ _ h, sha_window_hview]
  rfl

theorem recopy_body_hview (st st' : State) (c : IFile)
    (h : recopy_body st c = some (Step.next st')) :
    st'.hview = st.hview.reread := by
  unfold recopy_body at h
  simp only at h
  obtain ⟨st1, h1, rfl⟩ := bump_copy_write_pos_next _ _ _ h
  have := rewrite_copy_hview _ st1 _ _ h1
  show st1.hview = _
  rw [this]
  rfl

theorem read_cursor (f : IFile) (p n : Nat) (hcur : f.cursor = min p f.data.length)
    (hp : p < f.data.length) :
    (f.Read n).2.cursor = min (p + n) f.data.length := by
  have : (f.Read n).2.cursor = f.cursor + ((f.data.drop f.cursor).take n).length := rfl
  rw [this, List.length_take, List.length_drop, hcur]
  omega

theorem read_bytes (f : IFile) (p n : Nat) (hcur : f.cursor = min p f.data.length)
    (hp : p < f.data.length) :
    (f.Read n).1 = slice f.data p n := by
  have : (f.Read n).1 = (f.data.drop f.cursor).take n := rfl
  rw [this, hcur, slice]
  congr 2
  omega

/-- Positions of the re-copy loop: the loop leaves every field the hashfile depends
on alone, except for `pos` and the cursor of the source. -/
theorem recopy_loop_hview (epos : Nat) :
    ∀ (fuel : Nat) (st st' : State),
      recopy_loop epos fuel st = some (Step.next st') →
      st.f.cursor = min st.pos st.f.data.length →
      st.fsize = st.f.data.length →
      st'.hview = st.hview.move st'.pos
        ∧ ¬ (st'.pos < epos ∧ st'.pos < st.fsize)
        ∧ ∃ k, st'.pos = st.pos + c_small_hash_dist * k
            ∧ (k = 0 ∨ st.pos + c_small_hash_dist * (k - 1) < min epos st.fsize) := by
  intro fuel
  induction fuel with
  | zero => intro st st' h; simp [recopy_loop] at h
  | succ fuel ih =>
    intro st st' h hcur hsz
    rw [recopy_loop] at h
    by_cases hc : st.pos < epos ∧ st.pos < st.fsize
    · rw [if_pos hc] at h
      cases hcp : st.copy with
      | none => rw [hcp] at h; simp at h
      | some c =>
        rw [hcp] at h
        simp only at h
        cases hb : recopy_body st c with
        | none => rw [hb] at h; simp at h
        | some r =>
          cases r with
          | exit ret s => rw [hb] at h; simp at h
          | next s =>
            rw [hb] at h
            simp only at h
            have hv := recopy_body_hview _ _ _ hb
            have hsf : s.f = (st.f.Read c_small_hash_dist).2 := congrArg HView.f hv
            have hsp : s.pos = st.pos := congrArg HView.pos hv
            have hss : s.fsize = st.fsize := congrArg HView.fsize hv
            have hcur' := read_cursor st.f st.pos c_small_hash_dist hcur (by omega)
            have hdat : (st.f.Read c_small_hash_dist).2.data = st.f.data := rfl
            obtain ⟨e1, e2, k, e3, e4⟩ := ih _ st' h
              (by show s.f.cursor = min (s.pos + c_small_hash_dist) s.f.data.length
                  rw [hsf, hsp, hdat]; exact hcur')
              (by show s.fsize = s.f.data.length
                  rw [hss, hsf, hdat]; exact hsz)
            have e3' : st'.pos = st.pos + c_small_hash_dist + c_small_hash_dist * k := by
              rw [e3]; show s.pos + c_small_hash_dist + c_small_hash_dist * k = _
              rw [hsp]
            refine ⟨?_, ?_, k + 1, ?_, ?_⟩
            · have e0 : ({ s with pos := s.pos + c_small_hash_dist } : State).hview.move st'.pos
                  = s.hview.move st'.pos := rfl
              rw [e1, e0, hv]
              rfl
            · intro hh
              apply e2
              show st'.pos < epos ∧ st'.pos < s.fsize
              rw [hss]; exact hh
            · rw [e3']; ring
            · right
              rcases e4 with e4 | e4
              · subst e4
                simpa using hc
              · have e5 : s.pos + c_small_hash_dist + c_small_hash_dist * (k - 1)
                    < min epos s.fsize := e4
                rw [hsp, hss] at e5
                have hk : 0 < k := by
                  by_contra hk
                  have : k = 0 := by omega
                  subst this
                  simp at e5
                  omega
                have : c_small_hash_dist * (k + 1 - 1)
                    = c_small_hash_dist + c_small_hash_dist * (k - 1) := by
                  have : k + 1 - 1 = (k - 1) + 1 := by omega
                  rw [this]; ring
                rw [this]
                omega
    · rw [if_neg hc] at h
      simp only [Option.some.injEq, Step.next.injEq] at h
      subst h
      refine ⟨?_, hc, 0, by simp, Or.inl rfl⟩
      have e0 : st.hview.move st.pos
          = { st.hview with f := { st.f with cursor := min st.pos st.f.data.length } } := rfl
      rw [e0, ← hcur]
      rfl

theorem open_known_sparse_run_hview (st : State) :
    (open_known_sparse_run st).hview = st.hview := by
  unfold open_known_sparse_run
  split <;> rfl

theorem punch_copy_hview (fuel : Nat) (st st' : State)
    (h : punch_copy fuel st = some (Step.next st')) : st'.hview = st.hview := by
  unfold punch_copy at h
  split at h
  · split at h
    · simp only [Option.some.injEq, Step.next.injEq] at h
      rw [← h]; rfl
    · simp only [IFile.Seek] at h
      split at h
      · simp only [if_true] at h
        split at h
        · simp at h
        · simp at h
        · simp only [Option.some.injEq, Step.next.injEq] at h
          rw [← h]; rfl
      · simp only [Option.some.injEq, Step.next.injEq] at h
        rw [← h]; rfl
  · simp only [Option.some.injEq, Step.next.injEq] at h
    rw [← h]

theorem sparse_chunk_hview (g : Globals) (fuel : Nat) (st st' : State) (epos : Nat)
    (hid : st.hashoutput.ideal) (hT : get_sparse_extent_content g ≠ [] ∧ (get_sparse_extent_content g).length < 2 ^ 31)
    (h : sparse_chunk g fuel st epos = some (Step.next st')) :
    st'.hview = st.hview.sparse_step (get_sparse_extent_content g) epos := by
  unfold sparse_chunk at h
  simp only at h
  rw [write_hashoutput_ideal st _ hid hT.1 hT.2] at h
  simp only at h
  split at h
  · simp at h
  · simp at h
  · rename_i s1 hp
    simp only [IFile.Seek, Bool.not_true, if_false] at h
    simp only [Bool.false_eq_true, not_false_eq_true, not_true_eq_false, if_false,
      Option.some.injEq, Step.next.injEq] at h
    have hv := punch_copy_hview _ _ _ hp
    rw [open_known_sparse_run_hview] at hv
    rw [← h]
    show ({ s1.hview with pos := epos, f := { s1.hview.f with cursor := epos } } : HView) = _
    rw [hv]
    rfl

/-- The re-copy loop, started at the beginning `q` of the big chunk, ends at the
position where the small-chunk loop ended. -/
theorem recopy_from_start_hview (fuel : Nat) (st st' : State) (epos q k : Nat)
    (h : recopy_loop epos fuel
          { st with copy_write_pos := st.copy_write_pos_start,
                    pos := q,
                    f := { st.f with cursor := q } } = some (Step.next st'))
    (hep : epos = q + c_checkpoint_dist)
    (hcur : st.f.cursor = min st.pos st.f.data.length)
    (hsz : st.fsize = st.f.data.length)
    (hp0 : q < st.fsize)
    (hpos : st.pos = q + c_small_hash_dist * k)
    (hlo : min c_checkpoint_dist (st.fsize - q) ≤ c_small_hash_dist * k)
    (hhi : c_small_hash_dist * k < min c_checkpoint_dist (st.fsize - q) + c_small_hash_dist) :
    st'.hview = st.hview := by
  have hx : q = min q st.f.data.length := by rw [← hsz]; omega
  obtain ⟨e1, e2, k', e3, e4⟩ := recopy_loop_hview epos fuel _ st' h hx hsz
  have e3' : st'.pos = q + c_small_hash_dist * k' := e3
  have e2' : ¬ (st'.pos < epos ∧ st'.pos < st.fsize) := e2
  have e4' : k' = 0 ∨ q + c_small_hash_dist * (k' - 1) < min epos st.fsize := e4
  have hkk : c_small_hash_dist * k' = c_small_hash_dist * k := by
    have hB := c_checkpoint_dist_eq
    have hS := c_small_hash_dist_eq
    rw [hS] at e3' e4' hpos hlo hhi ⊢
    rcases e4' with e4' | e4'
    · subst e4'
      omega
    · have : k' - 1 + 1 = k' := by
        by_contra hne
        have : k' = 0 := by omega
        subst this
        omega
      omega
  have hpp : st'.pos = st.pos := by rw [e3', hpos, hkk]
  rw [e1, hpp]
  have e0 : ({ st with copy_write_pos := st.copy_write_pos_start,
                       pos := q,
                       f := { st.f with cursor := q } } : State).hview.move st.pos
      = { st.hview with f := { st.f with cursor := min st.pos st.f.data.length } } := rfl
  rw [e0, ← hcur]
  rfl

theorem collision_recovery_hview (H : HashFns) (fuel : Nat) (st st' : State) (epos p0 k : Nat)
    (h : collision_recovery H fuel st epos = some (Step.next st'))
    (hep : epos = p0 + c_checkpoint_dist)
    (hcur : st.f.cursor = min st.pos st.f.data.length)
    (hsz : st.fsize = st.f.data.length)
    (hp0 : p0 < st.fsize)
    (hpos : st.pos = p0 + c_small_hash_dist * k)
    (hlo : min c_checkpoint_dist (st.fsize - p0) ≤ c_small_hash_dist * k)
    (hhi : c_small_hash_dist * k < min c_checkpoint_dist (st.fsize - p0) + c_small_hash_dist) :
    st'.hview = st.hview := by
  have hq0 : epos - c_checkpoint_dist = p0 := by rw [hep]; omega
  unfold collision_recovery at h
  split at h
  · split at h
    · split at h
      · simp only [IFile.Seek] at h
        rw [hq0] at h
        exact recopy_from_start_hview fuel st st' epos p0 k h hep hcur hsz hp0 hpos hlo hhi
      · simp only [Option.some.injEq, Step.next.injEq] at h
        rw [h]
    · simp only [Option.some.injEq, Step.next.injEq] at h
      rw [h]
  · simp only [Option.some.injEq, Step.next.injEq] at h
    rw [h]

/-! ## The invariant of the small-chunk loop for the hashfile -/

theorem small_hashes_length (H : HashFns) (F : List Byte) (p0 k : Nat) :
    (small_hashes H F p0 k).length = 4 * k := by
  induction k with
  | zero => rfl
  | succ k ih => rw [small_hashes, List.length_append, ih, le_bytes_length]; ring

theorem SInv_hop_le {H : HashFns} {F init P : List Byte} {p0 : Nat} {ce : SSparseExtent}
    {it : Option (List SSparseExtent)} {v : HView} (h : SInv H F init P p0 ce it v) :
    v.hashoutputpos ≤ v.hashoutput.data.length := by
  have h1 := congrArg List.length h.content
  rw [List.length_take, List.length_append, List.length_append, small_hashes_length] at h1
  have h2 := h.hop
  have h3 : (zeros big_hash_size).length = 16 := by simp [zeros, big_hash_size]
  rw [h3] at h1
  rw [big_hash_size_eq, small_hash_size_eq] at h2
  omega

theorem SInv_step (H : HashFns) (F init P : List Byte) (p0 : Nat) (ce : SSparseExtent)
    (it : Option (List SSparseExtent)) (v : HView) (h : SInv H F init P p0 ce it v)
    (h1 : v.pos < p0 + c_checkpoint_dist) (h2 : v.pos < v.fsize) :
    SInv H F init P p0 ce it (v.read_small H).incr := by
  have hle := SInv_hop_le h
  have hpos : v.pos < v.f.data.length := by rw [h.f_data, ← h.fsize]; exact h2
  have hbuf : (v.f.Read c_small_hash_dist).1 = slice F v.pos c_small_hash_dist := by
    rw [read_bytes v.f v.pos _ (by rw [h.f_data]; exact h.f_cursor) hpos, h.f_data]
  have hcur : v.hashoutput.cursor ≤ v.hashoutput.data.length := by rw [h.ho_cursor]; exact hle
  have hfs := h.fsize
  have hpe := h.pos_eq
  have hib := h.idx_bound
  constructor
  · exact h.f_data
  · exact h.fsize
  · show (v.f.Read c_small_hash_dist).2.cursor = min (v.pos + c_small_hash_dist) F.length
    rw [read_cursor v.f v.pos _ (by rw [h.f_data]; exact h.f_cursor) hpos, h.f_data]
  · exact IFile.put_ideal _ _ h.ho_ideal
  · show v.hashoutput.cursor + (le_bytes 4 _).length = v.hashoutputpos + small_hash_size
    rw [le_bytes_length, h.ho_cursor]; rfl
  · show List.drop (v.hashoutputpos + small_hash_size)
        (write_at v.hashoutput.data v.hashoutput.cursor (le_bytes 4 _)) = _
    have e : v.hashoutputpos + small_hash_size
        = v.hashoutput.cursor + (le_bytes 4 (H.adler32 (v.f.Read c_small_hash_dist).1)).length := by
      rw [le_bytes_length, h.ho_cursor]; rfl
    rw [e, write_at_drop _ _ _ hcur, ← e, ← List.drop_drop, h.ho_rest, List.drop_drop]
    rfl
  · exact h.cur_eq
  · exact h.it_eq
  · show v.pos + c_small_hash_dist = p0 + (v.chunkidx + 1) * c_small_hash_dist
    rw [hpe]; ring
  · show c_small_hash_dist * (v.chunkidx + 1) < _
    rw [c_small_hash_dist_eq] at hpe hib ⊢
    omega
  · show v.big_hash ++ (v.f.Read c_small_hash_dist).1 = slice F p0 ((v.chunkidx + 1) * c_small_hash_dist)
    have e : v.chunkidx * c_small_hash_dist + c_small_hash_dist
        = (v.chunkidx + 1) * c_small_hash_dist := by ring
    rw [h.big_hash, hbuf, hpe, slice_append, e]
  · show List.take (v.hashoutputpos + small_hash_size)
        (write_at v.hashoutput.data v.hashoutput.cursor (le_bytes 4 _)) = _
    have e : v.hashoutputpos + small_hash_size
        = v.hashoutput.cursor + (le_bytes 4 (H.adler32 (v.f.Read c_small_hash_dist).1)).length := by
      rw [le_bytes_length, h.ho_cursor]; rfl
    rw [e, write_at_take _ _ _ hcur, h.ho_cursor, h.content, hbuf, hpe]
    show _ = P ++ zeros big_hash_size ++ small_hashes H F p0 (v.chunkidx + 1)
    rw [small_hashes]
    simp only [List.append_assoc]
  · show v.hashoutputpos + small_hash_size = P.length + big_hash_size + small_hash_size * (v.chunkidx + 1)
    rw [h.hop]; ring
  · exact h.hop_start

theorem HInv_hop_le {H : HashFns} {T : List Byte} {exts : List SSparseExtent} {F init : List Byte}
    {v : HView} (h : HInv H T exts F init v) :
    v.hashoutputpos ≤ v.hashoutput.data.length := by
  obtain ⟨E, j, _, hc, hh, _, _⟩ := h.recs
  have h1 := congrArg List.length hc
  rw [List.length_take, List.length_append, i64_bytes_length] at h1
  omega

theorem HInv_begin_record (H : HashFns) (T : List Byte) (exts : List SSparseExtent)
    (F init : List Byte) (v : HView) (h : HInv H T exts F init v) (E : List Byte) (j : Nat)
    (hc : v.hashoutput.data.take v.hashoutputpos = i64_bytes F.length ++ E)
    (hh : v.hashoutputpos = 8 + E.length)
    (hp : v.pos = j * c_checkpoint_dist) :
    SInv H F init (i64_bytes F.length ++ E) (j * c_checkpoint_dist)
      v.curr_extent v.extent_iterator v.begin_record := by
  have hle := HInv_hop_le h
  have hcur : v.hashoutput.cursor ≤ v.hashoutput.data.length := by rw [h.ho_cursor]; exact hle
  have hz : (List.replicate big_hash_size (0 : Byte)).length = big_hash_size :=
    List.length_replicate _ _
  have hPl : (i64_bytes F.length ++ E).length = v.hashoutputpos := by
    rw [List.length_append, i64_bytes_length, hh]
  constructor
  · exact h.f_data
  · exact h.fsize
  · exact h.f_cursor
  · exact IFile.put_ideal _ _ h.ho_ideal
  · show v.hashoutput.cursor + (List.replicate big_hash_size (0 : Byte)).length
        = v.hashoutputpos + big_hash_size
    rw [hz, h.ho_cursor]
  · show List.drop (v.hashoutputpos + big_hash_size)
        (write_at v.hashoutput.data v.hashoutput.cursor (List.replicate big_hash_size 0)) = _
    have e : v.hashoutputpos + big_hash_size
        = v.hashoutput.cursor + (List.replicate big_hash_size (0 : Byte)).length := by
      rw [hz, h.ho_cursor]
    rw [e, write_at_drop _ _ _ hcur, ← e, ← List.drop_drop, h.ho_rest, List.drop_drop]
    rfl
  · rfl
  · rfl
  · show v.pos = j * c_checkpoint_dist + 0 * c_small_hash_dist
    rw [hp]; ring
  · show c_small_hash_dist * 0 < _
    rw [c_small_hash_dist_eq]; omega
  · show ([] : List Byte) = slice F (j * c_checkpoint_dist) (0 * c_small_hash_dist)
    simp [slice]
  · show List.take (v.hashoutputpos + big_hash_size)
        (write_at v.hashoutput.data v.hashoutput.cursor (List.replicate big_hash_size 0)) = _
    have e : v.hashoutputpos + big_hash_size
        = v.hashoutput.cursor + (List.replicate big_hash_size (0 : Byte)).length := by
      rw [hz, h.ho_cursor]
    rw [e, write_at_take _ _ _ hcur, h.ho_cursor, hc]
    show _ = i64_bytes F.length ++ E ++ zeros big_hash_size ++ small_hashes H F _ 0
    rw [small_hashes, List.append_nil]
    rfl
  · show v.hashoutputpos + big_hash_size = _ + big_hash_size + small_hash_size * 0
    rw [hPl]; ring
  · show v.hashoutputpos = _
    rw [hPl]

theorem n_small_eq (n j k : Nat)
    (hlo : min c_checkpoint_dist (n - j * c_checkpoint_dist) ≤ c_small_hash_dist * k)
    (hhi : c_small_hash_dist * k
      < min c_checkpoint_dist (n - j * c_checkpoint_dist) + c_small_hash_dist) :
    k = n_small n j := by
  unfold n_small
  rw [c_small_hash_dist_eq] at hlo hhi ⊢
  omega

theorem SInv_final (H : HashFns) (T : List Byte) (exts : List SSparseExtent)
    (F init E : List Byte) (j : Nat) (ce : SSparseExtent) (it : Option (List SSparseExtent))
    (v : HView)
    (h : SInv H F init (i64_bytes F.length ++ E) (j * c_checkpoint_dist) ce it v)
    (hx : ¬ (v.pos < j * c_checkpoint_dist + c_checkpoint_dist ∧ v.pos < v.fsize))
    (hj : j * c_checkpoint_dist < F.length)
    (hR : Recs H T exts F j E)
    (hce : ce.offset ≠ -1 → ce ∈ exts)
    (hit : ∀ l, it = some l → ∀ e ∈ l, e ∈ exts) :
    HInv H T exts F init (v.end_record H) := by
  have hB := c_checkpoint_dist_eq
  have hS := c_small_hash_dist_eq
  have hle := SInv_hop_le h
  have hpe := h.pos_eq
  have hib := h.idx_bound
  have hfs := h.fsize
  have hlo : min c_checkpoint_dist (F.length - j * c_checkpoint_dist)
      ≤ c_small_hash_dist * v.chunkidx := by
    rw [hfs, hpe] at hx
    rw [hS] at hx ⊢
    omega
  have hk := n_small_eq F.length j v.chunkidx hlo hib
  have hpe2 : v.pos = j * 524288 + 512 * v.chunkidx := by
    rw [hpe, hB, hS]; ring
  have hib2 : 512 * v.chunkidx < min 524288 (F.length - j * 524288) + 512 := by
    rw [hB, hS] at hib; exact hib
  have hlo2 : min 524288 (F.length - j * 524288) ≤ 512 * v.chunkidx := by
    rw [hB, hS] at hlo; exact hlo
  have hj2 : j * 524288 < F.length := by
    rw [hB] at hj; exact hj
  have hbig : v.big_hash = slice F (j * c_checkpoint_dist) c_checkpoint_dist := by
    rw [h.big_hash]
    by_cases hc : c_checkpoint_dist ≤ F.length - j * c_checkpoint_dist
    · have : v.chunkidx * c_small_hash_dist = c_checkpoint_dist := by
        rw [hS] at hlo hib ⊢; omega
      rw [this]
    · apply slice_eq_of_le
      · rw [hS] at hlo ⊢; omega
      · omega
  have hmd : ((H.md5 v.big_hash).take big_hash_size).length = big_hash_size := by
    rw [List.length_take, H.md5_size]; simp
  have hmd' : (H.md5 v.big_hash).take big_hash_size = H.md5 v.big_hash := by
    apply List.take_of_length_le; rw [H.md5_size]
  -- the content of the hashfile in front of the MD5 write
  have hD : v.hashoutput.data
      = (i64_bytes F.length ++ E) ++ zeros big_hash_size
        ++ (small_hashes H F (j * c_checkpoint_dist) v.chunkidx
            ++ v.hashoutput.data.drop v.hashoutputpos) := by
    conv_lhs => rw [← List.take_append_drop v.hashoutputpos v.hashoutput.data, h.content]
    simp only [List.append_assoc]
  have hzl : (zeros big_hash_size).length = ((H.md5 v.big_hash).take big_hash_size).length := by
    rw [hmd]; simp [zeros]
  have hnew : write_at v.hashoutput.data v.hashoutputpos_start
        ((H.md5 v.big_hash).take big_hash_size)
      = (i64_bytes F.length ++ E) ++ H.md5 v.big_hash
        ++ (small_hashes H F (j * c_checkpoint_dist) v.chunkidx
            ++ v.hashoutput.data.drop v.hashoutputpos) := by
    rw [h.hop_start]
    conv_lhs => rw [hD]
    rw [write_at_over _ _ _ _ hzl, hmd']
  have hlen1 : ((i64_bytes F.length ++ E) ++ H.md5 v.big_hash
      ++ small_hashes H F (j * c_checkpoint_dist) v.chunkidx).length = v.hashoutputpos := by
    rw [List.length_append, List.length_append, H.md5_size, small_hashes_length, h.hop]
    rw [small_hash_size_eq]
  have hdata : (v.end_record H).hashoutput.data
      = (i64_bytes F.length ++ E) ++ H.md5 v.big_hash
        ++ small_hashes H F (j * c_checkpoint_dist) v.chunkidx
        ++ v.hashoutput.data.drop v.hashoutputpos := by
    show write_at v.hashoutput.data v.hashoutputpos_start
        ((H.md5 v.big_hash).take big_hash_size) = _
    rw [hnew]
    simp only [List.append_assoc]
  constructor
  · exact h.f_data
  · exact h.fsize
  · exact h.f_cursor
  · intro a b; exact h.ho_ideal a b
  · rfl
  · show List.drop v.hashoutputpos (v.end_record H).hashoutput.data = _
    rw [hdata, List.drop_left' hlen1]
    exact h.ho_rest
  · rw [show (v.end_record H).curr_extent = v.curr_extent from rfl, h.cur_eq]; exact hce
  · rw [show (v.end_record H).extent_iterator = v.extent_iterator from rfl, h.it_eq]; exact hit
  · refine ⟨E ++ normal_record H F j, j + 1, Recs.normal j E hR, ?_, ?_, ?_, ?_⟩
    · show List.take v.hashoutputpos (v.end_record H).hashoutput.data = _
      rw [hdata, List.take_left' hlen1, normal_record, ← hk, hbig]
      simp only [List.append_assoc]
    · show v.hashoutputpos = _
      rw [← hlen1, normal_record, ← hk, hbig]
      simp only [List.length_append, i64_bytes_length]
      omega
    · intro hlt
      have hlt' : v.pos < F.length := hlt
      show v.pos = (j + 1) * c_checkpoint_dist
      rw [hB]
      omega
    · intro hge
      have hge' : F.length ≤ v.pos := hge
      unfold n_big
      rw [hB]
      omega

/-! ## The invariant of the main loop for the hashfile -/

theorem skip_extents_mem (pos : Nat) (it : List SSparseExtent) :
    ∀ (cur : SSparseExtent),
      ((skip_extents pos cur it).1.offset ≠ -1 →
        (skip_extents pos cur it).1 = cur ∨ (skip_extents pos cur it).1 ∈ it)
      ∧ ∀ e ∈ (skip_extents pos cur it).2, e ∈ it := by
  induction it with
  | nil =>
    intro cur
    unfold skip_extents
    split
    · exact ⟨fun h => absurd rfl h, fun e he => he⟩
    · exact ⟨fun _ => Or.inl rfl, fun e he => he⟩
  | cons x xs ih =>
    intro cur
    unfold skip_extents
    split
    · obtain ⟨h1, h2⟩ := ih x
      constructor
      · intro h
        rcases h1 h with h3 | h3
        · right; rw [h3]; exact List.mem_cons_self _ _
        · right; exact List.mem_cons_of_mem _ h3
      · intro e he
        exact List.mem_cons_of_mem _ (h2 e he)
    · exact ⟨fun _ => Or.inl rfl, fun e he => he⟩

theorem advance_extent_HInv (H : HashFns) (T : List Byte) (exts : List SSparseExtent)
    (F init : List Byte) (st : State) (h : HInv H T exts F init st.hview) :
    HInv H T exts F init (advance_extent st).hview := by
  unfold advance_extent
  split
  · exact h
  · rename_i it hit
    have hm := skip_extents_mem st.pos it st.curr_extent
    have hitm := h.it_mem it hit
    constructor
    · exact h.f_data
    · exact h.fsize
    · exact h.f_cursor
    · exact h.ho_ideal
    · exact h.ho_cursor
    · exact h.ho_rest
    · intro hne
      rcases hm.1 hne with h1 | h1
      · have h2 : (skip_extents st.pos st.curr_extent it).1.offset ≠ -1 := hne
        rw [h1] at h2
        show (skip_extents st.pos st.curr_extent it).1 ∈ exts
        rw [h1]
        exact h.cur_mem h2
      · exact hitm _ h1
    · intro l hl e he
      have hl' : some (skip_extents st.pos st.curr_extent it).2 = some l := hl
      simp only [Option.some.injEq] at hl'
      subst hl'
      exact hitm _ (hm.2 e he)
    · exact h.recs

theorem advance_extent_pos (st : State) :
    (advance_extent st).pos = st.pos ∧ (advance_extent st).fsize = st.fsize
      ∧ (advance_extent st).hashoutput = st.hashoutput := by
  unfold advance_extent
  split
  · exact ⟨rfl, rfl, rfl⟩
  · exact ⟨rfl, rfl, rfl⟩

theorem HInv_sparse_step (H : HashFns) (T : List Byte) (exts : List SSparseExtent)
    (F init : List Byte) (v : HView) (h : HInv H T exts F init v)
    (hlt : v.pos < v.fsize)
    (h1 : v.curr_extent.offset ≠ -1)
    (h2 : v.curr_extent.offset ≤ (v.pos : Int))
    (h3 : v.curr_extent.offset + v.curr_extent.size ≥ ((v.pos + c_checkpoint_dist : Nat) : Int))
    (h4 : v.pos + c_checkpoint_dist ≤ v.fsize) :
    HInv H T exts F init (v.sparse_step T (v.pos + c_checkpoint_dist)) := by
  have hB := c_checkpoint_dist_eq
  have hle := HInv_hop_le h
  have hcur : v.hashoutput.cursor ≤ v.hashoutput.data.length := by rw [h.ho_cursor]; exact hle
  have hfs := h.fsize
  obtain ⟨E, j, hR, hc, hh, hp1, hp2⟩ := h.recs
  have hpj : v.pos = j * c_checkpoint_dist := hp1 (by rw [← hfs]; exact hlt)
  constructor
  · exact h.f_data
  · exact h.fsize
  · show v.pos + c_checkpoint_dist = min (v.pos + c_checkpoint_dist) F.length
    rw [← hfs]; omega
  · exact IFile.put_ideal _ _ h.ho_ideal
  · show v.hashoutput.cursor + T.length = v.hashoutputpos + T.length
    rw [h.ho_cursor]
  · show List.drop (v.hashoutputpos + T.length)
        (write_at v.hashoutput.data v.hashoutput.cursor T) = _
    rw [← h.ho_cursor, write_at_drop _ _ _ hcur, h.ho_cursor, ← List.drop_drop, h.ho_rest,
      List.drop_drop]
    rfl
  · exact h.cur_mem
  · exact h.it_mem
  · refine ⟨E ++ T, j + 1, Recs.sparse j E hR ?_, ?_, ?_, ?_, ?_⟩
    · refine ⟨v.curr_extent, h.cur_mem h1, ?_, ?_, ?_⟩
      · rw [← hpj]; exact h2
      · have : (j + 1) * c_checkpoint_dist = v.pos + c_checkpoint_dist := by rw [hpj]; ring
        rw [this]; exact h3
      · have : (j + 1) * c_checkpoint_dist = v.pos + c_checkpoint_dist := by rw [hpj]; ring
        rw [this, ← hfs]; exact h4
    · show List.take (v.hashoutputpos + T.length)
          (write_at v.hashoutput.data v.hashoutput.cursor T) = _
      rw [← h.ho_cursor, write_at_take _ _ _ hcur, h.ho_cursor, hc, List.append_assoc]
    · show v.hashoutputpos + T.length = 8 + (E ++ T).length
      rw [hh, List.length_append]; ring
    · intro _
      show v.pos + c_checkpoint_dist = (j + 1) * c_checkpoint_dist
      rw [hpj]; ring
    · intro hge
      have hge' : F.length ≤ v.pos + c_checkpoint_dist := hge
      unfold n_big
      rw [← hfs] at hge' ⊢
      rw [hpj] at h4 hge'
      rw [hB] at h4 hge' ⊢
      omega

theorem sparse_chunk_HInv (H : HashFns) (g : Globals) (exts : List SSparseExtent)
    (F init : List Byte) (fuel : Nat) (st st' : State)
    (hT : get_sparse_extent_content g ≠ [] ∧ (get_sparse_extent_content g).length < 2 ^ 31)
    (h : HInv H (get_sparse_extent_content g) exts F init st.hview)
    (hlt : st.pos < st.fsize)
    (hk : known_sparse st (st.pos + c_checkpoint_dist) = true)
    (hs : sparse_chunk g fuel st (st.pos + c_checkpoint_dist) = some (Step.next st')) :
    HInv H (get_sparse_extent_content g) exts F init st'.hview := by
  rw [sparse_chunk_hview g fuel st st' _ h.ho_ideal hT hs]
  unfold known_sparse at hk
  simp only [decide_eq_true_eq] at hk
  exact HInv_sparse_step H _ exts F init st.hview h hlt hk.1 hk.2.1 hk.2.2.1 hk.2.2.2

theorem normal_chunk_HInv (H : HashFns) (T : List Byte) (exts : List SSparseExtent)
    (F init : List Byte) (fuel : Nat) (st st' : State)
    (h : HInv H T exts F init st.hview)
    (hlt : st.pos < st.fsize)
    (hs : normal_chunk H fuel st (st.pos + c_checkpoint_dist) = some (Step.next st')) :
    HInv H T exts F init st'.hview ∧ st.pos < st'.pos := by
  have hB := c_checkpoint_dist_eq
  have hS := c_small_hash_dist_eq
  have hfs : st.fsize = F.length := h.fsize
  obtain ⟨E, j, hR, hc, hh, hp1, hp2⟩ := h.recs
  have hpj : st.pos = j * c_checkpoint_dist := hp1 (by rw [← hfs]; exact hlt)
  have hj : j * c_checkpoint_dist < F.length := by rw [← hpj, ← hfs]; exact hlt
  have hS0 := HInv_begin_record H T exts F init st.hview h E j hc hh hpj
  unfold normal_chunk at hs
  simp only at hs
  have hw := write_hashoutput_ideal
    { st with copy_sparse_extent_start := -1, big_hash := [],
              big_hash_copy_control := [], hashoutputpos_start := st.hashoutputpos }
    (List.replicate big_hash_size 0) h.ho_ideal (by simp [big_hash_size])
    (by simp [big_hash_size])
  rw [hw] at hs
  simp only at hs
  split at hs
  · simp at hs
  · simp at hs
  · rename_i s2 hloop
    -- the small-chunk loop
    have hI : SInv H F init (i64_bytes F.length ++ E) (j * c_checkpoint_dist)
          st.curr_extent st.extent_iterator s2.hview
        ∧ ¬ (s2.pos < st.pos + c_checkpoint_dist ∧ s2.pos < s2.fsize) := by
      refine small_chunk_loop_partial H (st.pos + c_checkpoint_dist)
        (fun s => SInv H F init (i64_bytes F.length ++ E) (j * c_checkpoint_dist)
          st.curr_extent st.extent_iterator s.hview)
        ?_ fuel _ s2 ?_ hloop
      · intro s s' hs1 hs2 hs3 hbody
        have hv := small_chunk_body_hview H s s' hs1.ho_ideal hbody
        show SInv H F init _ _ _ _ (s'.hview.incr)
        rw [hv]
        exact SInv_step H F init _ _ _ _ s.hview hs1 (by rw [← hpj]; exact hs2) hs3
      · exact hS0
    obtain ⟨hS2, hx⟩ := hI
    simp only [IFile.Seek] at hs
    have hw2 := write_hashoutput_ideal
      { s2 with hashoutput := { s2.hashoutput with cursor := s2.hashoutputpos_start } }
      ((H.md5 s2.big_hash).take big_hash_size) hS2.ho_ideal
      (by
        intro he
        have := congrArg List.length he
        rw [List.length_take, H.md5_size] at this
        simp [big_hash_size] at this)
      (by rw [List.length_take, H.md5_size]; simp [big_hash_size])
    rw [hw2] at hs
    simp only at hs
    split at hs
    · simp at hs
    · simp at hs
    · rename_i s4 hrec
      simp only [Option.some.injEq, Step.next.injEq] at hs
      have hx' : ¬ (s2.pos < j * c_checkpoint_dist + c_checkpoint_dist ∧ s2.pos < s2.fsize) := by
        rw [← hpj]; exact hx
      have hpe := hS2.pos_eq
      have hib := hS2.idx_bound
      have hfs2 : s2.fsize = F.length := hS2.fsize
      have hlo : min c_checkpoint_dist (F.length - j * c_checkpoint_dist)
          ≤ c_small_hash_dist * s2.chunkidx := by
        have hpe' : s2.pos = j * c_checkpoint_dist + s2.chunkidx * c_small_hash_dist := hpe
        rw [hfs2, hpe'] at hx'
        rw [hS] at hx' ⊢
        omega
      have hv4 := collision_recovery_hview H fuel _ s4 (st.pos + c_checkpoint_dist)
        (j * c_checkpoint_dist) s2.chunkidx hrec (by rw [hpj])
        (by show s2.f.cursor = min s2.pos s2.f.data.length
            rw [show s2.f.data = F from hS2.f_data]; exact hS2.f_cursor)
        (by show s2.fsize = s2.f.data.length
            rw [show s2.f.data = F from hS2.f_data]; exact hfs2)
        (by show j * c_checkpoint_dist < s2.fsize
            rw [hfs2]; exact hj)
        (by show s2.pos = _
            rw [show s2.pos = j * c_checkpoint_dist + s2.chunkidx * c_small_hash_dist from hpe]
            ring)
        (by show min c_checkpoint_dist (s2.fsize - j * c_checkpoint_dist) ≤ _
            rw [hfs2]; exact hlo)
        (by show _ < min c_checkpoint_dist (s2.fsize - j * c_checkpoint_dist) + _
            rw [hfs2]; exact hib)
      have hfin := SInv_final H T exts F init E j st.curr_extent st.extent_iterator s2.hview
        hS2 hx' hj hR h.cur_mem h.it_mem
      rw [← hs]
      have e : ({ s4 with hashoutput := { s4.hashoutput with cursor := s4.hashoutputpos } } : State).hview
          = { s4.hview with hashoutput := { s4.hview.hashoutput with cursor := s4.hview.hashoutputpos } } := rfl
      rw [e, hv4]
      refine ⟨hfin, ?_⟩
      show st.pos < s4.pos
      have e4 : s4.pos = s2.pos := congrArg HView.pos hv4
      have hpe' : s2.pos = j * c_checkpoint_dist + s2.chunkidx * c_small_hash_dist := hpe
      rw [e4, hpe', hpj]
      rw [hS, hB] at hlo
      rw [hB] at hj
      rw [hS, hB]
      omega

theorem main_loop_HInv (H : HashFns) (g : Globals) (exts : List SSparseExtent)
    (F init : List Byte) (hT : get_sparse_extent_content g ≠ [] ∧ (get_sparse_extent_content g).length < 2 ^ 31) :
    ∀ (fuel : Nat) (st st' : State),
      HInv H (get_sparse_extent_content g) exts F init st.hview →
      main_loop H g fuel st = some (Step.next st') →
      HInv H (get_sparse_extent_content g) exts F init st'.hview ∧ ¬ (st'.pos < st'.fsize) := by
  apply main_loop_partial H g
    (fun s => HInv H (get_sparse_extent_content g) exts F init s.hview)
  · intro fuel st st' hI hlt hk hs
    have h1 : HInv H (get_sparse_extent_content g) exts F init (load_chunk_hashes st).hview := by
      rw [load_chunk_hashes_hview]; exact hI
    have h2 := advance_extent_HInv H _ exts F init _ h1
    have hp := advance_extent_pos (load_chunk_hashes st)
    have hlt' : (advance_extent (load_chunk_hashes st)).pos
        < (advance_extent (load_chunk_hashes st)).fsize := by
      rw [hp.1, hp.2.1]
      have e1 : (load_chunk_hashes st).pos = st.pos :=
        congrArg HView.pos (load_chunk_hashes_hview st)
      have e2 : (load_chunk_hashes st).fsize = st.fsize :=
        congrArg HView.fsize (load_chunk_hashes_hview st)
      rw [e1, e2]; exact hlt
    exact sparse_chunk_HInv H g exts F init fuel _ st' hT h2 hlt' hk hs
  · intro fuel st st' hI hlt _ hs
    have h1 : HInv H (get_sparse_extent_content g) exts F init (load_chunk_hashes st).hview := by
      rw [load_chunk_hashes_hview]; exact hI
    have h2 := advance_extent_HInv H _ exts F init _ h1
    have hp := advance_extent_pos (load_chunk_hashes st)
    have hlt' : (advance_extent (load_chunk_hashes st)).pos
        < (advance_extent (load_chunk_hashes st)).fsize := by
      rw [hp.1, hp.2.1]
      have e1 : (load_chunk_hashes st).pos = st.pos :=
        congrArg HView.pos (load_chunk_hashes_hview st)
      have e2 : (load_chunk_hashes st).fsize = st.fsize :=
        congrArg HView.fsize (load_chunk_hashes_hview st)
      rw [e1, e2]; exact hlt
    exact (normal_chunk_HInv H _ exts F init fuel _ st' h2 hlt' hs).1

/-! ## Prologue and epilogue -/

theorem read_input_size_hview (st st' : State) (h : read_input_size st = Step.next st') :
    st'.hview = st.hview := by
  unfold read_input_size at h
  split at h
  · simp only [Step.next.injEq] at h
    rw [h]
  · simp only [IFile.Seek, IFile.Read] at h
    split at h
    · simp at h
    · simp only [Step.next.injEq] at h
      rw [← h]; rfl

theorem prologue_HInv (H : HashFns) (T : List Byte) (a : Args) (st0 : State)
    (hid : a.hashoutput.ideal) (h : prologue a = some (Step.next st0)) :
    HInv H T (a.extent_iterator.getD []) a.f.data a.hashoutput.data st0.hview := by
  unfold prologue at h
  simp only at h
  have hw := write_hashoutput_ideal (entry_state a) (i64_bytes (entry_state a).fsize) hid
    (by intro he; have := i64_bytes_length (entry_state a).fsize; rw [he] at this; simp at this)
    (by rw [i64_bytes_length]; decide)
  rw [hw] at h
  simp only at h
  split at h
  · simp at h
  · rename_i s1 hr
    simp only [Option.some.injEq, Step.next.injEq] at h
    have hv := read_input_size_hview _ _ hr
    have hit : s1.extent_iterator = a.extent_iterator := congrArg HView.extent_iterator hv
    have hce : s1.curr_extent = SSparseExtent.unset := congrArg HView.curr_extent hv
    have hf : s1.f = { a.f with cursor := 0 } := congrArg HView.f hv
    have hho : s1.hashoutput
        = ({ a.hashoutput with cursor := 0 } : IFile).put (i64_bytes a.f.data.length) :=
      congrArg HView.hashoutput hv
    have hfs : s1.fsize = a.f.data.length := congrArg HView.fsize hv
    have hpos : s1.pos = 0 := congrArg HView.pos hv
    have hhop : s1.hashoutputpos = 8 := congrArg HView.hashoutputpos hv
    rw [← h]
    constructor
    · show s1.f.data = a.f.data
      rw [hf]
    · exact hfs
    · show s1.f.cursor = min s1.pos a.f.data.length
      rw [hf, hpos]; simp
    · show s1.hashoutput.ideal
      rw [hho]; exact IFile.put_ideal _ _ hid
    · show s1.hashoutput.cursor = s1.hashoutputpos
      rw [hho, hhop]
      show 0 + (i64_bytes _).length = 8
      rw [i64_bytes_length]
    · show List.drop s1.hashoutputpos s1.hashoutput.data = List.drop s1.hashoutputpos _
      rw [hho, hhop]
      show List.drop 8 (write_at a.hashoutput.data 0 (i64_bytes _)) = _
      have := write_at_drop a.hashoutput.data 0 (i64_bytes a.f.data.length) (Nat.zero_le _)
      rw [i64_bytes_length] at this
      exact this
    · show (init_locals a s1).curr_extent.offset ≠ -1 → (init_locals a s1).curr_extent ∈ _
      unfold init_locals
      simp only [hit, hce]
      cases hx : a.extent_iterator with
      | none => intro hne; exact absurd rfl hne
      | some it =>
        cases it with
        | nil => intro hne; exact absurd rfl hne
        | cons e es => intro _; exact List.mem_cons_self _ _
    · show ∀ it, (init_locals a s1).extent_iterator = some it → _
      unfold init_locals
      simp only [hit]
      cases hx : a.extent_iterator with
      | none => intro it hit'; simp at hit'
      | some l =>
        intro it hit' e he
        simp only [Option.some.injEq] at hit'
        subst hit'
        cases l with
        | nil => simp [nextExtent] at he
        | cons x xs => exact List.mem_cons_of_mem _ he
    · refine ⟨[], 0, Recs.zero, ?_, ?_, ?_, ?_⟩
      · show List.take s1.hashoutputpos s1.hashoutput.data = _
        rw [hho, hhop, List.append_nil]
        show List.take 8 (write_at a.hashoutput.data 0 (i64_bytes _)) = _
        have := write_at_take a.hashoutput.data 0 (i64_bytes a.f.data.length) (Nat.zero_le _)
        rw [i64_bytes_length] at this
        rw [this]; rfl
      · exact hhop
      · intro _
        show s1.pos = 0 * c_checkpoint_dist
        rw [hpos]; simp
      · intro hge
        have hge' : a.f.data.length ≤ s1.pos := hge
        rw [hpos] at hge'
        unfold n_big
        rw [c_checkpoint_dist_eq]
        omega

theorem close_last_run_hview (st : State) : (close_last_run st).hview = st.hview := by
  unfold close_last_run
  split <;> rfl

theorem restore_copy_size_hview (st st' : State) (h : restore_copy_size st = Step.next st') :
    st'.hview = st.hview := by
  unfold restore_copy_size at h
  split at h
  · simp only [Step.next.injEq] at h
    rw [h]
  · simp only [IFile.Resize] at h
    split at h
    · simp only [Bool.not_true, if_false, not_true_eq_false] at h
      simp only [Step.next.injEq] at h
      rw [← h]; rfl
    · simp only [Step.next.injEq] at h
      rw [h]

theorem final_digest_hview (H : HashFns) (st : State) :
    (final_digest H st).2.hview = st.hview := by
  unfold final_digest
  split
  · split <;> rfl
  · rfl

/-- A run that returns a non-empty string went through the epilogue. -/
theorem build_chunk_hashs_next (H : HashFns) (g : Globals) (fuel : Nat) (a : Args)
    (ret : List Byte) (st : State)
    (hrun : build_chunk_hashs H g fuel a = some (ret, st)) (hret : ret ≠ []) :
    ∃ st0 st1 st2, prologue a = some (Step.next st0)
      ∧ main_loop H g fuel st0 = some (Step.next st1)
      ∧ restore_copy_size (close_last_run st1) = Step.next st2
      ∧ final_digest H st2 = (ret, st) := by
  unfold build_chunk_hashs at hrun
  split at hrun
  · simp at hrun
  · rename_i hp
    simp only [Option.some.injEq, Prod.mk.injEq] at hrun
    rw [← hrun.1] at hret
    exact absurd (prologue_exit _ _ _ hp) hret
  · rename_i st0 hp
    split at hrun
    · simp at hrun
    · rename_i hm
      simp only [Option.some.injEq, Prod.mk.injEq] at hrun
      rw [← hrun.1] at hret
      exact absurd (main_loop_exit _ _ _ _ _ _ hm) hret
    · rename_i st1 hm
      simp only [Option.some.injEq] at hrun
      unfold epilogue at hrun
      split at hrun
      · rename_i hr
        simp only [Prod.mk.injEq] at hrun
        rw [← hrun.1] at hret
        exact absurd (restore_copy_size_exit _ _ _ hr) hret
      · rename_i st2 hr
        exact ⟨st0, st1, st2, hp, hm, hr, hrun⟩

/-- The hashfile after a run on a sink without faults that returned a non-empty
string: the size field, then one record per big chunk, then what the hashfile held
behind these before the run.  The cursor is at the end of the last record. -/
theorem build_chunk_hashs_hashfile (H : HashFns) (g : Globals) (fuel : Nat) (a : Args)
    (ret : List Byte) (st : State) (hT : get_sparse_extent_content g ≠ [] ∧ (get_sparse_extent_content g).length < 2 ^ 31)
    (hid : a.hashoutput.ideal)
    (hrun : build_chunk_hashs H g fuel a = some (ret, st)) (hret : ret ≠ []) :
    ∃ E, Recs H (get_sparse_extent_content g) (a.extent_iterator.getD []) a.f.data
          (n_big a.f.data.length) E
      ∧ st.hashoutput.data
          = i64_bytes a.f.data.length ++ E ++ a.hashoutput.data.drop (8 + E.length)
      ∧ st.hashoutput.cursor = 8 + E.length := by
  obtain ⟨st0, st1, st2, hp, hm, hr, hf⟩ := build_chunk_hashs_next H g fuel a ret st hrun hret
  have h0 := prologue_HInv H (get_sparse_extent_content g) a st0 hid hp
  obtain ⟨h1, hx⟩ := main_loop_HInv H g _ _ _ hT fuel st0 st1 h0 hm
  have hv : st.hview = st1.hview := by
    have e1 : st = (final_digest H st2).2 := by rw [hf]
    rw [e1, final_digest_hview, restore_copy_size_hview _ _ hr, close_last_run_hview]
  have hho : st.hashoutput = st1.hashoutput := congrArg HView.hashoutput hv
  obtain ⟨E, j, hR, hc, hh, _, hp2⟩ := h1.recs
  have hge : a.f.data.length ≤ st1.pos := by
    have : st1.fsize = a.f.data.length := h1.fsize
    rw [← this]; omega
  have hj := hp2 hge
  refine ⟨E, ?_, ?_, ?_⟩
  · rw [← hj]; exact hR
  · rw [hho, ← List.take_append_drop st1.hashoutputpos st1.hashoutput.data]
    have e1 : List.take st1.hashoutputpos st1.hashoutput.data = i64_bytes a.f.data.length ++ E := hc
    have e2 : List.drop st1.hashoutputpos st1.hashoutput.data
        = List.drop st1.hashoutputpos a.hashoutput.data := h1.ho_rest
    have e3 : st1.hashoutputpos = 8 + E.length := hh
    rw [e1, e2, e3]
  · rw [hho]
    have e3 : st1.hashoutputpos = 8 + E.length := hh
    rw [← e3]
    exact h1.ho_cursor

/-! ## The records of the hashfile -/

theorem n_small_full (n j : Nat) (h : (j + 1) * c_checkpoint_dist ≤ n) : n_small n j = n_chunks := by
  unfold n_small
  rw [n_chunks_eq, c_small_hash_dist_eq, c_checkpoint_dist_eq] at *
  omega

theorem normal_record_length (H : HashFns) (F : List Byte) (j : Nat) :
    (normal_record H F j).length = big_hash_size + small_hash_size * n_small F.length j := by
  rw [normal_record, List.length_append, H.md5_size, small_hashes_length, small_hash_size_eq]

theorem Recs_length (H : HashFns) (T : List Byte) (exts : List SSparseExtent) (F : List Byte)
    (hT : T.length = chunkhash_single_size) (j : Nat) (E : List Byte)
    (h : Recs H T exts F j E) : E.length = recs_size F.length j := by
  induction h with
  | zero => rfl
  | normal j E _ ih =>
    rw [List.length_append, ih, normal_record_length, recs_size]
  | sparse j E _ hc ih =>
    obtain ⟨e, _, _, _, h3⟩ := hc
    rw [List.length_append, ih, hT, recs_size, n_small_full _ _ h3]
    rfl

theorem recs_size_full (n j : Nat) (h : j ≤ n / c_checkpoint_dist) :
    recs_size n j = j * chunkhash_single_size := by
  induction j with
  | zero => simp [recs_size]
  | succ j ih =>
    have h1 : (j + 1) * c_checkpoint_dist ≤ n := by
      have := Nat.mul_le_of_le_div _ _ _ h
      exact this
    rw [recs_size, ih (by omega), n_small_full n j h1, chunkhash_single_size_eq, n_chunks_eq,
      big_hash_size_eq, small_hash_size_eq]
    ring

theorem n_big_cases (n : Nat) :
    (n % c_checkpoint_dist = 0 ∧ n_big n = n / c_checkpoint_dist)
      ∨ (0 < n % c_checkpoint_dist ∧ n_big n = n / c_checkpoint_dist + 1) := by
  unfold n_big
  rw [c_checkpoint_dist_eq]
  omega

/-- Size of the records of all big chunks of a file of `n` bytes. -/
theorem recs_size_total (n : Nat) :
    recs_size n (n_big n)
      = (n / c_checkpoint_dist) * (16 + 4 * n_chunks)
        + (if 0 < n % c_checkpoint_dist then
            16 + 4 * ((n % c_checkpoint_dist + (c_small_hash_dist - 1)) / c_small_hash_dist)
           else 0) := by
  rcases n_big_cases n with ⟨h1, h2⟩ | ⟨h1, h2⟩
  · rw [h2, recs_size_full n _ (Nat.le_refl _), if_neg (by omega), chunkhash_single_size_eq,
      n_chunks_eq]
    omega
  · rw [h2, recs_size, recs_size_full n _ (Nat.le_refl _), if_pos h1, chunkhash_single_size_eq,
      n_chunks_eq, big_hash_size_eq, small_hash_size_eq]
    have : n_small n (n / c_checkpoint_dist)
        = (n % c_checkpoint_dist + (c_small_hash_dist - 1)) / c_small_hash_dist := by
      unfold n_small
      have e : n - n / c_checkpoint_dist * c_checkpoint_dist = n % c_checkpoint_dist := by
        have := Nat.div_add_mod n c_checkpoint_dist
        have e2 : n / c_checkpoint_dist * c_checkpoint_dist
            = c_checkpoint_dist * (n / c_checkpoint_dist) := Nat.mul_comm _ _
        omega
      rw [e]
      have : n % c_checkpoint_dist < c_checkpoint_dist :=
        Nat.mod_lt _ (by rw [c_checkpoint_dist_eq]; omega)
      rw [Nat.min_eq_right (by omega)]
    rw [this]

/-! ### Truthful extents -/

theorem slice_getElem (F : List Byte) (a m i : Nat) (h : i < (slice F a m).length) :
    (slice F a m)[i] = F.getD (a + i) 0 := by
  have h' := h
  rw [slice_length] at h'
  have hlt : a + i < F.length := by omega
  simp only [slice, List.getElem_take, List.getElem_drop]
  rw [List.getD_eq_getElem _ _ hlt]

theorem slice_zero_of_truthful (exts : List SSparseExtent) (F : List Byte)
    (ht : truthful exts F) (e : SSparseExtent) (he : e ∈ exts) (a m : Nat)
    (h1 : e.offset ≤ (a : Int)) (h2 : ((a + m : Nat) : Int) ≤ e.offset + e.size)
    (h3 : a + m ≤ F.length) : slice F a m = zeros m := by
  apply List.ext_getElem
  · rw [slice_length, zeros, List.length_replicate]; omega
  · intro i hi1 hi2
    rw [slice_getElem F a m i hi1]
    have hi : i < m := by rw [zeros, List.length_replicate] at hi2; exact hi2
    rw [ht e he (a + i) (by push_cast; omega) (by push_cast at h2 ⊢; omega) (by omega)]
    simp [zeros]

theorem repeat_bytes_snoc (k : Nat) (b : List Byte) :
    repeat_bytes k b ++ b = repeat_bytes (k + 1) b := by
  induction k with
  | zero => simp [repeat_bytes]
  | succ k ih => rw [repeat_bytes_succ, List.append_assoc, ih, ← repeat_bytes_succ]

theorem small_hashes_zero (H : HashFns) (F : List Byte) (p0 : Nat) (k : Nat)
    (hz : ∀ i < k, slice F (p0 + i * c_small_hash_dist) c_small_hash_dist = zeros c_small_hash_dist) :
    small_hashes H F p0 k = repeat_bytes k (le_bytes 4 (H.adler32 (zeros c_small_hash_dist))) := by
  induction k with
  | zero => simp [small_hashes, repeat_bytes]
  | succ k ih =>
    rw [small_hashes, ih (fun i hi => hz i (by omega)), hz k (by omega), repeat_bytes_snoc]

theorem normal_record_covered (H : HashFns) (exts : List SSparseExtent) (F : List Byte)
    (ht : truthful exts F) (j : Nat) (hc : covered exts F.length j) :
    normal_record H F j = sparse_template_spec H := by
  obtain ⟨e, he, h1, h2, h3⟩ := hc
  have e1 : (j + 1) * c_checkpoint_dist = j * c_checkpoint_dist + c_checkpoint_dist := by ring
  rw [normal_record, sparse_template_spec, n_small_full _ _ h3,
    slice_zero_of_truthful exts F ht e he _ _ h1 (by rw [← e1]; exact h2) (by rw [← e1]; exact h3)]
  rw [small_hashes_zero]
  intro i hi
  rw [n_chunks_eq] at hi
  have h1' : e.offset ≤ (j : Int) * 524288 := by
    rw [c_checkpoint_dist_eq] at h1; push_cast at h1; exact h1
  have h2' : ((j : Int) + 1) * 524288 ≤ e.offset + e.size := by
    rw [c_checkpoint_dist_eq] at h2; push_cast at h2; exact h2
  have h3' : (j + 1) * 524288 ≤ F.length := by
    rw [c_checkpoint_dist_eq] at h3; exact h3
  apply slice_zero_of_truthful exts F ht e he
  · rw [c_checkpoint_dist_eq, c_small_hash_dist_eq]; push_cast; omega
  · rw [c_checkpoint_dist_eq, c_small_hash_dist_eq]; push_cast; omega
  · rw [c_checkpoint_dist_eq, c_small_hash_dist_eq]; omega

theorem Recs_truthful (H : HashFns) (exts : List SSparseExtent) (F : List Byte)
    (ht : truthful exts F) (j : Nat) (E : List Byte)
    (h : Recs H (sparse_template_spec H) exts F j E) : E = all_records H F j := by
  induction h with
  | zero => rfl
  | normal j E _ ih => rw [all_records, ih]
  | sparse j E _ hc ih => rw [all_records, ih, normal_record_covered H exts F ht j hc]

/-! ## Termination of runs without faults -/

theorem write_copy_ideal (st : State) (c : IFile) (buf : List Byte) (hc : c.ideal)
    (hb : buf ≠ []) (hl : buf.length < 2 ^ 31) :
    write_copy st c buf = some (true, { st with copy := some (c.put buf) }) := by
  simp [write_copy, writeRepeatFreeSpace_ideal _ _ _ hc hb hl]

/-- A write to a replica without faults that reports success has stored the buffer,
whatever its size. -/
theorem write_copy_ok (st : State) (c : IFile) (buf : List Byte) (hc : c.ideal)
    (hb : buf ≠ []) (s : State) (h : write_copy st c buf = some (true, s)) :
    s = { st with copy := some (c.put buf) } := by
  unfold write_copy at h
  cases hw : writeRepeatFreeSpace c buf st.cb with
  | none => rw [hw] at h; simp at h
  | some r =>
    obtain ⟨ok, c2, cb2⟩ := r
    rw [hw] at h
    simp only [Option.some.injEq, Prod.mk.injEq] at h
    obtain ⟨h1, h2⟩ := h
    subst h1
    obtain ⟨e1, e2⟩ := writeRepeatFreeSpace_ideal_ok c buf st.cb hc hb c2 cb2 hw
    rw [← h2, e1, e2]

theorem add_inplace_written_copy (st : State) (r : Nat) :
    (add_inplace_written st r).copy = st.copy := by
  unfold add_inplace_written
  split <;> rfl

theorem mark_copy_read_eof_copy (st : State) (r : Nat) :
    (mark_copy_read_eof st r).copy = st.copy := by
  unfold mark_copy_read_eof
  split <;> rfl

theorem rewrite_copy_ideal (st : State) (c : IFile) (buf : List Byte) (hc : c.ideal)
    (hb : buf ≠ []) (hl : buf.length < 2 ^ 31) :
    rewrite_copy st c buf
      = some (Step.next (add_inplace_written
          { st with copy := some (({ c with cursor := st.copy_write_pos } : IFile).put buf) }
          buf.length)) := by
  unfold rewrite_copy
  simp only [IFile.Seek]
  rw [write_copy_ideal st { c with cursor := st.copy_write_pos } buf hc hb hl]

/-- The block that rewrites a small chunk in a replica without faults, when it does not
return: the buffer was stored at `copy_write_pos`, whatever its size. -/
theorem rewrite_copy_next (st : State) (c : IFile) (buf : List Byte) (hc : c.ideal)
    (hb : buf ≠ []) (st' : State) (h : rewrite_copy st c buf = some (Step.next st')) :
    rewrite_copy st c buf
      = some (Step.next (add_inplace_written
          { st with copy := some (({ c with cursor := st.copy_write_pos } : IFile).put buf) }
          buf.length)) := by
  have h0 := h
  unfold rewrite_copy at h
  simp only [IFile.Seek] at h
  split at h
  · simp at h
  · simp at h
  · rename_i s hw
    have e := write_copy_ok st { c with cursor := st.copy_write_pos } buf hc hb s hw
    rw [h0, ← h, e]

theorem rewrite_copy_bumped (st : State) (c : IFile) (buf : List Byte) (hc : c.ideal)
    (hb : buf ≠ []) (r : Nat) (st' : State)
    (h : bump_copy_write_pos (rewrite_copy st c buf) r = some (Step.next st')) :
    rewrite_copy st c buf
      = some (Step.next (add_inplace_written
          { st with copy := some (({ c with cursor := st.copy_write_pos } : IFile).put buf) }
          buf.length)) := by
  cases hx : rewrite_copy st c buf with
  | none => rw [hx] at h; simp [bump_copy_write_pos] at h
  | some x =>
    cases x with
    | exit ret s => rw [hx] at h; simp [bump_copy_write_pos] at h
    | next s => rw [← hx]; exact rewrite_copy_next st c buf hc hb s hx

theorem read_length_le (f : IFile) (n : Nat) : (f.Read n).1.length ≤ n := by
  show ((f.data.drop f.cursor).take n).length ≤ n
  rw [List.length_take]
  exact Nat.min_le_left _ _

theorem CopyOK_of_copy (_st st' : State) (c : IFile) (h : st'.copy = some c)
    (hc : c.ideal ∧ c.punch_ok = true) : CopyOK st' := by
  intro c' hc'
  rw [h] at hc'
  simp only [Option.some.injEq] at hc'
  rw [← hc']; exact hc

theorem CopyOK_of_eq (st st' : State) (h : st'.copy = st.copy) (hc : CopyOK st) : CopyOK st' := by
  intro c hc'
  rw [h] at hc'
  exact hc c hc'

theorem rewrite_copy_progress2 (st : State) (c : IFile) (buf : List Byte) (r : Nat)
    (hc : c.ideal ∧ c.punch_ok = true) (hb : buf ≠ []) (hl : buf.length < 2 ^ 31) :
    ∃ st', bump_copy_write_pos (rewrite_copy st c buf) r = some (Step.next st') ∧ CopyOK st'
      ∧ ∃ c', st'.copy = some c' := by
  rw [rewrite_copy_ideal st c buf hc.1 hb hl]
  have hcp : (add_inplace_written
      { st with copy := some (({ c with cursor := st.copy_write_pos } : IFile).put buf) }
      buf.length).copy = some (({ c with cursor := st.copy_write_pos } : IFile).put buf) := by
    rw [add_inplace_written_copy]
  refine ⟨_, rfl, ?_, _, hcp⟩
  refine CopyOK_of_copy st _ (({ c with cursor := st.copy_write_pos } : IFile).put buf) hcp ⟨?_, ?_⟩
  · intro k n; exact hc.1 k n
  · exact hc.2

theorem rewrite_copy_progress (st : State) (c : IFile) (buf : List Byte) (r : Nat)
    (hc : c.ideal ∧ c.punch_ok = true) (hb : buf ≠ []) (hl : buf.length < 2 ^ 31) :
    ∃ st', bump_copy_write_pos (rewrite_copy st c buf) r = some (Step.next st') ∧ CopyOK st' := by
  obtain ⟨s, h1, h2, _⟩ := rewrite_copy_progress2 st c buf r hc hb hl
  exact ⟨s, h1, h2⟩

/-- Progress of the replica reconciliation: with a replica without faults and a
non-empty buffer the block does not return. -/
theorem reconcile_copy_progress (st : State) (buf sh : List Byte) (hc : CopyOK st)
    (hb : buf ≠ []) (hl : buf.length < 2 ^ 31) :
    ∃ st', reconcile_copy st buf sh = some (Step.next st') ∧ CopyOK st' := by
  unfold reconcile_copy
  cases hcp : st.copy with
  | none => exact ⟨st, rfl, hc⟩
  | some c =>
    obtain ⟨hci, hcpu⟩ := hc c hcp
    simp only
    by_cases hm : st.modify_inplace = true
    · rw [if_pos hm]
      cases hch : st.chunk_hashes with
      | some ch =>
        simp only
        unfold reconcile_hashed
        simp only [IFile.Seek, IFile.Read]
        split
        · refine ⟨_, rfl, ?_⟩
          exact CopyOK_of_eq st _ rfl hc
        · exact rewrite_copy_progress _ _ _ _ ⟨fun k n => hci k n, hcpu⟩ hb hl
      | none =>
        simp only
        unfold reconcile_compare
        simp only [IFile.Seek, IFile.Read]
        split
        · exact rewrite_copy_progress _ _ _ _ ⟨fun k n => hci k n, hcpu⟩ hb hl
        · split
          · exact rewrite_copy_progress _ _ _ _ ⟨fun k n => hci k n, hcpu⟩ hb hl
          · refine ⟨_, rfl, ?_⟩
            refine CopyOK_of_copy st _
              { c with cursor := st.copy_write_pos
                  + (List.take c_small_hash_dist (List.drop st.copy_write_pos c.data)).length }
              ?_ ⟨?_, ?_⟩
            · show (mark_copy_read_eof _ _).copy = _
              rw [mark_copy_read_eof_copy]
            · intro k n; exact hci k n
            · exact hcpu
    · rw [if_neg hm]
      rw [write_copy_ideal _ _ _ hci hb hl]
      refine ⟨_, rfl, ?_⟩
      exact CopyOK_of_copy st _ _ rfl ⟨fun k n => hci k n, hcpu⟩

theorem close_sparse_run_copy (st : State) : (close_sparse_run st).copy = st.copy := by
  unfold close_sparse_run
  split <;> rfl

theorem open_sparse_run_copy (st : State) : (open_sparse_run st).copy = st.copy := by
  unfold open_sparse_run
  split <;> rfl

theorem sha_window_copy (st : State) (buf : List Byte) : (sha_window st buf).copy = st.copy := by
  unfold sha_window
  simp only
  split
  · split
    · split
      · rw [open_sparse_run_copy]
      · show (close_sparse_run _).copy = _
        rw [close_sparse_run_copy]
    · split
      · show (close_sparse_run _).copy = _
        rw [close_sparse_run_copy]
      · rfl
  · rfl

theorem read_ne_nil (f : IFile) (n : Nat) (hn : 0 < n) (hcur : f.cursor < f.data.length) :
    (f.Read n).1 ≠ [] := by
  intro h
  have h1 : ((f.data.drop f.cursor).take n).length = 0 := by
    have : (f.Read n).1 = (f.data.drop f.cursor).take n := rfl
    rw [← this, h]; rfl
  rw [List.length_take, List.length_drop] at h1
  omega

theorem small_chunk_body_progress (H : HashFns) (st : State) (hid : st.hashoutput.ideal)
    (hc : CopyOK st) (hcur : st.f.cursor < st.f.data.length) :
    ∃ st', small_chunk_body H st = some (Step.next st') ∧ CopyOK st' := by
  unfold small_chunk_body
  simp only
  have hw := write_hashoutput_ideal
    { st with f := (st.f.Read c_small_hash_dist).2,
              big_hash := st.big_hash ++ (st.f.Read c_small_hash_dist).1 }
    (le_bytes 4 (H.adler32 (st.f.Read c_small_hash_dist).1)) hid
    (le_bytes_ne_nil 4 _ (by decide)) (by rw [le_bytes_length]; decide)
  rw [hw]
  simp only
  apply reconcile_copy_progress
  · apply CopyOK_of_eq st
    · rw [sha_window_copy]
    · exact hc
  · exact read_ne_nil _ _ (by rw [c_small_hash_dist_eq]; omega) hcur
  · exact Nat.lt_of_le_of_lt (read_length_le _ _) (by rw [c_small_hash_dist_eq]; decide)

theorem small_chunk_body_copy_ok (H : HashFns) (st st' : State) (hid : st.hashoutput.ideal)
    (hc : CopyOK st) (hcur : st.f.cursor < st.f.data.length)
    (h : small_chunk_body H st = some (Step.next st')) : CopyOK st' := by
  obtain ⟨s, hs, hok⟩ := small_chunk_body_progress H st hid hc hcur
  rw [hs] at h
  simp only [Option.some.injEq, Step.next.injEq] at h
  rw [← h]; exact hok

/-- The small-chunk loop of a run without faults ends: it takes at most `N`
iterations. -/
theorem small_chunk_loop_terminates (H : HashFns) (F init P : List Byte) (p0 : Nat)
    (ce : SSparseExtent) (it : Option (List SSparseExtent)) :
    ∀ (fuel : Nat) (st : State),
      SInv H F init P p0 ce it st.hview → CopyOK st →
      n_chunks - st.chunkidx < fuel →
      ∃ st', small_chunk_loop H (p0 + c_checkpoint_dist) fuel st = some (Step.next st')
        ∧ CopyOK st' := by
  intro fuel
  induction fuel with
  | zero => intro st _ _ h; exact absurd h (Nat.not_lt_zero _)
  | succ fuel ih =>
    intro st hS hc hf
    rw [small_chunk_loop]
    by_cases hcond : st.pos < p0 + c_checkpoint_dist ∧ st.pos < st.fsize
    · rw [if_pos hcond]
      have hfs : st.fsize = F.length := hS.fsize
      have hfd : st.f.data = F := hS.f_data
      have hcur : st.f.cursor = min st.pos F.length := hS.f_cursor
      have hlt : st.f.cursor < st.f.data.length := by
        rw [hfd, hcur]; have := hcond.2; rw [hfs] at this; omega
      obtain ⟨s, hs, hok⟩ := small_chunk_body_progress H st hS.ho_ideal hc hlt
      rw [hs]
      simp only
      have hv := small_chunk_body_hview H st s hS.ho_ideal hs
      have hS' := SInv_step H F init P p0 ce it st.hview hS hcond.1 hcond.2
      rw [← hv] at hS'
      have hidx : st.chunkidx < n_chunks := by
        have hpe : st.pos = p0 + st.chunkidx * c_small_hash_dist := hS.pos_eq
        have := hcond.1
        rw [hpe, c_small_hash_dist_eq, c_checkpoint_dist_eq] at this
        rw [n_chunks_eq]; omega
      have hsi : s.chunkidx = st.chunkidx := by
        have := congrArg HView.chunkidx hv
        exact this
      exact ih { s with pos := s.pos + c_small_hash_dist, chunkidx := s.chunkidx + 1 }
        hS' (CopyOK_of_eq s _ rfl hok)
        (by show n_chunks - (s.chunkidx + 1) < fuel
            rw [hsi]; omega)
    · rw [if_neg hcond]
      exact ⟨st, rfl, hc⟩

theorem recopy_body_progress (st : State) (c : IFile) (hc : c.ideal ∧ c.punch_ok = true)
    (hcur : st.f.cursor < st.f.data.length) :
    ∃ st', recopy_body st c = some (Step.next st') ∧ CopyOK st' ∧ ∃ c', st'.copy = some c' := by
  unfold recopy_body
  simp only
  exact rewrite_copy_progress2 _ _ _ _ hc
    (read_ne_nil _ _ (by rw [c_small_hash_dist_eq]; omega) hcur)
    (Nat.lt_of_le_of_lt (read_length_le _ _) (by rw [c_small_hash_dist_eq]; decide))

/-- The re-copy loop of a run without faults ends. -/
theorem recopy_loop_terminates (epos : Nat) :
    ∀ (fuel : Nat) (st : State),
      CopyOK st → (∃ c, st.copy = some c) → st.fsize = st.f.data.length →
      st.f.cursor = min st.pos st.f.data.length →
      (epos - st.pos + (c_small_hash_dist - 1)) / c_small_hash_dist < fuel →
      ∃ st', recopy_loop epos fuel st = some (Step.next st') ∧ CopyOK st' := by
  intro fuel
  induction fuel with
  | zero => intro st _ _ _ _ h; exact absurd h (Nat.not_lt_zero _)
  | succ fuel ih =>
    intro st hc hsome hsz hcur hf
    rw [recopy_loop]
    by_cases hcond : st.pos < epos ∧ st.pos < st.fsize
    · rw [if_pos hcond]
      obtain ⟨c, hcp⟩ := hsome
      rw [hcp]
      simp only
      have hlt : st.f.cursor < st.f.data.length := by
        rw [hcur]; have := hcond.2; rw [hsz] at this; omega
      obtain ⟨s, hs, hok, hsome'⟩ := recopy_body_progress st c (hc c hcp) hlt
      rw [hs]
      simp only
      have hv := recopy_body_hview st s c hs
      have hsf : s.f = (st.f.Read c_small_hash_dist).2 := congrArg HView.f hv
      have hsp : s.pos = st.pos := congrArg HView.pos hv
      have hss : s.fsize = st.fsize := congrArg HView.fsize hv
      have hdat : (st.f.Read c_small_hash_dist).2.data = st.f.data := rfl
      apply ih { s with pos := s.pos + c_small_hash_dist } (CopyOK_of_eq s _ rfl hok) hsome'
      · show s.fsize = s.f.data.length
        rw [hss, hsf, hdat]; exact hsz
      · show s.f.cursor = min (s.pos + c_small_hash_dist) s.f.data.length
        rw [hsf, hsp, hdat]
        exact read_cursor st.f st.pos c_small_hash_dist hcur (by rw [← hsz]; exact hcond.2)
      · show (epos - (s.pos + c_small_hash_dist) + (c_small_hash_dist - 1)) / c_small_hash_dist < fuel
        rw [hsp]
        have := hcond.1
        rw [c_small_hash_dist_eq] at hf ⊢
        omega
    · rw [if_neg hcond]
      exact ⟨st, rfl, hc⟩

theorem collision_recovery_progress (H : HashFns) (fuel : Nat) (st : State) (epos q : Nat)
    (hc : CopyOK st) (hsz : st.fsize = st.f.data.length) (hq : q < st.fsize)
    (hep : epos = q + c_checkpoint_dist) (hf : n_chunks < fuel) :
    ∃ st', collision_recovery H fuel st epos = some (Step.next st') ∧ CopyOK st' := by
  have hq0 : epos - c_checkpoint_dist = q := by rw [hep]; omega
  unfold collision_recovery
  split
  · rename_i c ch hcp hch
    split
    · split
      · simp only [IFile.Seek]
        rw [hq0]
        refine recopy_loop_terminates epos fuel
          { st with copy_write_pos := st.copy_write_pos_start, pos := q,
                    f := { st.f with cursor := q } }
          (CopyOK_of_eq st _ rfl hc) ⟨c, hcp⟩ hsz ?_ ?_
        · show q = min q st.f.data.length
          rw [← hsz]; omega
        · show (epos - q + (c_small_hash_dist - 1)) / c_small_hash_dist < fuel
          rw [hep, c_small_hash_dist_eq, c_checkpoint_dist_eq]
          rw [n_chunks_eq] at hf
          omega
      · exact ⟨st, rfl, hc⟩
    · exact ⟨st, rfl, hc⟩
  · exact ⟨st, rfl, hc⟩

theorem open_known_sparse_run_copy (st : State) : (open_known_sparse_run st).copy = st.copy := by
  unfold open_known_sparse_run
  split <;> rfl

/-- With a replica that supports hole punching the hole is punched. -/
theorem punch_copy_progress (fuel : Nat) (st : State) (hc : CopyOK st) :
    ∃ st', punch_copy fuel st = some (Step.next st') ∧ CopyOK st' := by
  unfold punch_copy
  split
  · cases hcp : st.copy with
    | none =>
      simp only
      refine ⟨_, rfl, ?_⟩
      intro c' hc'
      simp at hc'
    | some c =>
      obtain ⟨hid, hp⟩ := hc c hcp
      simp only [IFile.PunchHole, hp, if_true, Bool.not_true, Bool.false_eq_true, if_false,
        not_true_eq_false]
      refine ⟨_, rfl, ?_⟩
      intro c' hc'
      simp only [Option.some.injEq] at hc'
      rw [← hc']
      exact ⟨fun k n => hid k n, rfl⟩
  · exact ⟨st, rfl, hc⟩

/-- The known-sparse fast path of a run without faults goes on to the next chunk. -/
theorem sparse_chunk_progress (g : Globals) (fuel : Nat) (st : State) (epos : Nat)
    (hid : st.hashoutput.ideal) (hT : get_sparse_extent_content g ≠ [] ∧ (get_sparse_extent_content g).length < 2 ^ 31) (hc : CopyOK st) :
    ∃ st', sparse_chunk g fuel st epos = some (Step.next st') ∧ CopyOK st' := by
  unfold sparse_chunk
  simp only
  rw [write_hashoutput_ideal st _ hid hT.1 hT.2]
  simp only
  have hc1 : CopyOK (open_known_sparse_run
      { ({ st with hashoutput := st.hashoutput.put (get_sparse_extent_content g) } : State) with
        hashoutputpos := st.hashoutputpos + (get_sparse_extent_content g).length }) := by
    apply CopyOK_of_eq st _ _ hc
    rw [open_known_sparse_run_copy]
  obtain ⟨s1, hs1, hok1⟩ := punch_copy_progress fuel _ hc1
  rw [hs1]
  simp only [IFile.Seek, Bool.not_true, Bool.false_eq_true, if_false, not_true_eq_false]
  exact ⟨_, rfl, CopyOK_of_eq s1 _ rfl hok1⟩

/-- The normal path of a run without faults goes on to the next chunk. -/
theorem normal_chunk_progress (H : HashFns) (T : List Byte) (exts : List SSparseExtent)
    (F init : List Byte) (fuel : Nat) (st : State)
    (h : HInv H T exts F init st.hview) (hc : CopyOK st)
    (hlt : st.pos < st.fsize) (hf : n_chunks < fuel) :
    ∃ st', normal_chunk H fuel st (st.pos + c_checkpoint_dist) = some (Step.next st')
      ∧ CopyOK st' := by
  have hB := c_checkpoint_dist_eq
  have hS := c_small_hash_dist_eq
  have hfs : st.fsize = F.length := h.fsize
  obtain ⟨E, j, hR, hcc, hh, hp1, hp2⟩ := h.recs
  have hpj : st.pos = j * c_checkpoint_dist := hp1 (by rw [← hfs]; exact hlt)
  have hj : j * c_checkpoint_dist < F.length := by rw [← hpj, ← hfs]; exact hlt
  have hS0 := HInv_begin_record H T exts F init st.hview h E j hcc hh hpj
  unfold normal_chunk
  simp only
  have hw := write_hashoutput_ideal
    { st with copy_sparse_extent_start := -1, big_hash := [],
              big_hash_copy_control := [], hashoutputpos_start := st.hashoutputpos }
    (List.replicate big_hash_size 0) h.ho_ideal (by simp [big_hash_size])
    (by simp [big_hash_size])
  rw [hw]
  simp only
  obtain ⟨s2, hloop, hok2⟩ := small_chunk_loop_terminates H F init (i64_bytes F.length ++ E)
    (j * c_checkpoint_dist) st.curr_extent st.extent_iterator fuel
    { st with copy_sparse_extent_start := -1, big_hash := [],
              big_hash_copy_control := [], hashoutputpos_start := st.hashoutputpos,
              hashoutput := st.hashoutput.put (List.replicate big_hash_size 0),
              hashoutputpos := st.hashoutputpos + big_hash_size,
              chunkidx := 0,
              copy_write_pos_start := st.copy_write_pos }
    hS0 (CopyOK_of_eq st _ rfl hc) (by show n_chunks - 0 < fuel; omega)
  have hI : SInv H F init (i64_bytes F.length ++ E) (j * c_checkpoint_dist)
        st.curr_extent st.extent_iterator s2.hview
      ∧ ¬ (s2.pos < j * c_checkpoint_dist + c_checkpoint_dist ∧ s2.pos < s2.fsize) := by
    refine small_chunk_loop_partial H (j * c_checkpoint_dist + c_checkpoint_dist)
      (fun s => SInv H F init (i64_bytes F.length ++ E) (j * c_checkpoint_dist)
        st.curr_extent st.extent_iterator s.hview)
      ?_ fuel _ s2 ?_ hloop
    · intro s s' hs1 hs2 hs3 hbody
      have hv := small_chunk_body_hview H s s' hs1.ho_ideal hbody
      show SInv H F init _ _ _ _ (s'.hview.incr)
      rw [hv]
      exact SInv_step H F init _ _ _ _ s.hview hs1 hs2 hs3
    · exact hS0
  obtain ⟨hS2, hx'⟩ := hI
  rw [← hpj] at hloop
  rw [hloop]
  simp only [IFile.Seek]
  have hw2 := write_hashoutput_ideal
    { s2 with hashoutput := { s2.hashoutput with cursor := s2.hashoutputpos_start } }
    ((H.md5 s2.big_hash).take big_hash_size) hS2.ho_ideal
    (by
      intro he
      have := congrArg List.length he
      rw [List.length_take, H.md5_size] at this
      simp [big_hash_size] at this)
    (by rw [List.length_take, H.md5_size]; simp [big_hash_size])
  rw [hw2]
  simp only
  have hfs2 : s2.fsize = F.length := hS2.fsize
  obtain ⟨s4, hrec, hok4⟩ := collision_recovery_progress H fuel
    { s2 with hashoutput := ({ s2.hashoutput with cursor := s2.hashoutputpos_start } : IFile).put
                ((H.md5 s2.big_hash).take big_hash_size) }
    (st.pos + c_checkpoint_dist) (j * c_checkpoint_dist)
    (CopyOK_of_eq s2 _ rfl hok2)
    (by show s2.fsize = s2.f.data.length
        rw [show s2.f.data = F from hS2.f_data]; exact hfs2)
    (by show j * c_checkpoint_dist < s2.fsize
        rw [hfs2]; exact hj)
    (by rw [hpj]) hf
  rw [hrec]
  exact ⟨_, rfl, CopyOK_of_eq s4 _ rfl hok4⟩

theorem load_chunk_hashes_copy (st : State) : (load_chunk_hashes st).copy = st.copy := by
  unfold load_chunk_hashes
  split
  · simp only [IFile.Seek, IFile.Read]
    split
    · split <;> rfl
    · rfl
  · rfl
  · rfl

theorem advance_extent_copy (st : State) : (advance_extent st).copy = st.copy := by
  unfold advance_extent
  split <;> rfl

/-- The main loop of a run without faults ends within `fsize - pos + N + 2` units of
fuel, with `Step.next`. -/
theorem main_loop_terminates (H : HashFns) (g : Globals) (exts : List SSparseExtent)
    (F init : List Byte) (hT : get_sparse_extent_content g ≠ [] ∧ (get_sparse_extent_content g).length < 2 ^ 31) :
    ∀ (fuel : Nat) (st : State),
      HInv H (get_sparse_extent_content g) exts F init st.hview → CopyOK st →
      (st.fsize - st.pos) + n_chunks + 1 < fuel →
      ∃ st', main_loop H g fuel st = some (Step.next st') ∧ CopyOK st' := by
  intro fuel
  induction fuel with
  | zero => intro st _ _ h; exact absurd h (Nat.not_lt_zero _)
  | succ fuel ih =>
    intro st hI hc hf
    rw [main_loop]
    by_cases hlt : st.pos < st.fsize
    · rw [if_pos hlt]
      simp only
      have h1 : HInv H (get_sparse_extent_content g) exts F init (load_chunk_hashes st).hview := by
        rw [load_chunk_hashes_hview]; exact hI
      have h2 := advance_extent_HInv H _ exts F init _ h1
      have hp := advance_extent_pos (load_chunk_hashes st)
      have e1 : (load_chunk_hashes st).pos = st.pos :=
        congrArg HView.pos (load_chunk_hashes_hview st)
      have e2 : (load_chunk_hashes st).fsize = st.fsize :=
        congrArg HView.fsize (load_chunk_hashes_hview st)
      have hpos : (advance_extent (load_chunk_hashes st)).pos = st.pos := by rw [hp.1, e1]
      have hfsz : (advance_extent (load_chunk_hashes st)).fsize = st.fsize := by rw [hp.2.1, e2]
      have hlt' : (advance_extent (load_chunk_hashes st)).pos
          < (advance_extent (load_chunk_hashes st)).fsize := by
        rw [hpos, hfsz]; exact hlt
      have hc2 : CopyOK (advance_extent (load_chunk_hashes st)) := by
        apply CopyOK_of_eq st _ _ hc
        rw [advance_extent_copy, load_chunk_hashes_copy]
      have hfsF : st.fsize = F.length := hI.fsize
      cases hk : known_sparse (advance_extent (load_chunk_hashes st))
          ((advance_extent (load_chunk_hashes st)).pos + c_checkpoint_dist) with
      | true =>
        simp only [if_true]
        obtain ⟨s, hs, hok⟩ := sparse_chunk_progress g fuel _
          ((advance_extent (load_chunk_hashes st)).pos + c_checkpoint_dist) h2.ho_ideal hT hc2
        rw [hs]
        simp only
        have hI' := sparse_chunk_HInv H g exts F init fuel _ s hT h2 hlt' hk hs
        have hv := sparse_chunk_hview g fuel _ s _ h2.ho_ideal hT hs
        have hsp : s.pos = (advance_extent (load_chunk_hashes st)).pos + c_checkpoint_dist :=
          congrArg HView.pos hv
        have hsf : s.fsize = F.length := hI'.fsize
        apply ih s hI' hok
        rw [hsf, hsp, hpos, c_checkpoint_dist_eq]
        rw [hfsF] at hf hlt
        omega
      | false =>
        simp only [Bool.false_eq_true, if_false]
        have hfi : n_chunks < fuel := by omega
        obtain ⟨s, hs, hok⟩ := normal_chunk_progress H _ exts F init fuel _ h2 hc2 hlt' hfi
        rw [hs]
        simp only
        obtain ⟨hI', hgt⟩ := normal_chunk_HInv H _ exts F init fuel _ s h2 hlt' hs
        have hsf : s.fsize = F.length := hI'.fsize
        apply ih s hI' hok
        rw [hpos] at hgt
        rw [hsf]
        rw [hfsF] at hf hlt
        omega
    · rw [if_neg hlt]
      exact ⟨st, rfl, hc⟩

theorem read_input_size_copy (st st' : State) (h : read_input_size st = Step.next st') :
    st'.copy = st.copy := by
  unfold read_input_size at h
  split at h
  · simp only [Step.next.injEq] at h
    rw [h]
  · simp only [IFile.Seek, IFile.Read] at h
    split at h
    · simp at h
    · simp only [Step.next.injEq] at h
      rw [← h]

theorem read_input_size_progress (st : State)
    (hh : ∀ hi, st.hashinput = some hi → 8 ≤ hi.data.length) :
    ∃ st', read_input_size st = Step.next st' := by
  unfold read_input_size
  split
  · exact ⟨_, rfl⟩
  · rename_i hi hhi
    have h8 := hh hi hhi
    simp only [IFile.Seek, IFile.Read]
    have hl : (List.take 8 (List.drop 0 hi.data)).length = 8 := by
      rw [List.length_take, List.drop_zero]; omega
    rw [if_neg (by rw [hl]; simp)]
    exact ⟨_, rfl⟩

theorem init_locals_copy (a : Args) (st : State) : (init_locals a st).copy = st.copy := rfl

/-- The statements in front of the main loop of a run without faults go on to the
main loop. -/
theorem prologue_progress (a : Args) (hff : a.fault_free) :
    ∃ st0, prologue a = some (Step.next st0) ∧ CopyOK st0 := by
  unfold prologue
  simp only
  have hw := write_hashoutput_ideal (entry_state a) (i64_bytes (entry_state a).fsize) hff.ho_ideal
    (by intro he; have := i64_bytes_length (entry_state a).fsize; rw [he] at this; simp at this)
    (by rw [i64_bytes_length]; decide)
  rw [hw]
  simp only
  obtain ⟨s1, hs1⟩ := read_input_size_progress
    { entry_state a with
      hashoutput := (entry_state a).hashoutput.put (i64_bytes (entry_state a).fsize) }
    hff.hashinput_ok
  rw [hs1]
  refine ⟨_, rfl, ?_⟩
  intro c hc
  rw [init_locals_copy, read_input_size_copy _ _ hs1] at hc
  exact hff.copy_ok c hc

theorem restore_copy_size_progress (st : State) : ∃ st', restore_copy_size st = Step.next st' := by
  unfold restore_copy_size
  split
  · exact ⟨_, rfl⟩
  · split
    · simp only [IFile.Resize, not_true_eq_false, if_false]
      exact ⟨_, rfl⟩
    · exact ⟨_, rfl⟩

theorem final_digest_ne_nil (H : HashFns) (st : State) : (final_digest H st).1 ≠ [] := by
  have hpos := H.sha_digest_size_pos
  unfold final_digest
  split
  · split
    · intro he
      have := H.sha_size (st.ctx ++ H.sha st.extent_ctx)
      rw [show H.sha (st.ctx ++ H.sha st.extent_ctx) = [] from he] at this
      simp at this; omega
    · intro he
      have := H.sha_size st.ctx
      rw [show H.sha st.ctx = [] from he] at this
      simp at this; omega
  · simp

/-- A run of `build_chunk_hashs` without I/O error returns, and returns a string
that is not empty, for every fuel above `fsize + N + 1`. -/
theorem build_chunk_hashs_terminates (H : HashFns) (g : Globals) (fuel : Nat) (a : Args)
    (hT : get_sparse_extent_content g ≠ [] ∧ (get_sparse_extent_content g).length < 2 ^ 31) (hff : a.fault_free)
    (hfuel : a.f.data.length + n_chunks + 1 < fuel) :
    ∃ ret st, build_chunk_hashs H g fuel a = some (ret, st) ∧ ret ≠ [] := by
  obtain ⟨st0, hp, hc0⟩ := prologue_progress a hff
  have h0 := prologue_HInv H (get_sparse_extent_content g) a st0 hff.ho_ideal hp
  have hfs : st0.fsize = a.f.data.length := h0.fsize
  obtain ⟨st1, hm, _⟩ := main_loop_terminates H g _ _ _ hT fuel st0 h0 hc0
    (by rw [hfs]; omega)
  obtain ⟨st2, hr⟩ := restore_copy_size_progress (close_last_run st1)
  unfold build_chunk_hashs
  rw [hp]
  simp only
  rw [hm]
  simp only
  unfold epilogue
  rw [hr]
  exact ⟨_, _, rfl, final_digest_ne_nil H st2⟩

/-! ## The hashfile after a run -/

theorem hashfile_after_some (H : HashFns) (g : Globals) (fuel : Nat) (a : Args)
    (d : List Byte) (c : Nat) (h : hashfile_after H g fuel a = some (d, c)) :
    ∃ ret st, build_chunk_hashs H g fuel a = some (ret, st) ∧ ret ≠ []
      ∧ st.hashoutput.data = d ∧ st.hashoutput.cursor = c := by
  unfold hashfile_after at h
  split at h
  · rename_i ret st hb
    split at h
    · simp at h
    · rename_i hne
      simp only [Option.some.injEq, Prod.mk.injEq] at h
      exact ⟨ret, st, hb, hne, h.1, h.2⟩
  · simp at h

theorem get_sparse_extent_content_mk (x : List Byte) :
    get_sparse_extent_content { sparse_extent_content := x } = x := rfl

theorem init_chunk_hasher_eq (H : HashFns) (g0 : Globals) :
    init_chunk_hasher H g0 = { sparse_extent_content := build_sparse_extent_content H } := rfl

theorem get_sparse_extent_content_init (H : HashFns) (g0 : Globals) :
    get_sparse_extent_content (init_chunk_hasher H g0) = sparse_template_spec H := by
  rw [init_chunk_hasher_eq, get_sparse_extent_content_mk]
  exact build_sparse_extent_content_eq H

theorem template_ne_nil (H : HashFns) (g0 : Globals) :
    get_sparse_extent_content (init_chunk_hasher H g0) ≠ [] := by
  intro h
  have h1 := get_sparse_extent_content_init H g0
  have h2 := sparse_template_spec_length H
  rw [← h1, h, chunkhash_single_size_eq] at h2
  simp at h2

/-- The template of the module is not empty, and it is shorter than `2^31` bytes. -/
theorem template_fits (H : HashFns) (g0 : Globals) :
    get_sparse_extent_content (init_chunk_hasher H g0) ≠ []
      ∧ (get_sparse_extent_content (init_chunk_hasher H g0)).length < 2 ^ 31 := by
  refine ⟨template_ne_nil H g0, ?_⟩
  rw [get_sparse_extent_content_init, sparse_template_spec_length, chunkhash_single_size_eq]
  decide

/-- A run without faults returns a non-empty string for every fuel above
`fsize + N + 1`, so that the hashfile after the run is defined. -/
theorem hashfile_after_total (H : HashFns) (g0 : Globals) (fuel : Nat) (a : Args)
    (hff : a.fault_free) (hfuel : a.f.data.length + n_chunks + 1 < fuel) :
    ∃ d c, hashfile_after H (init_chunk_hasher H g0) fuel a = some (d, c) := by
  obtain ⟨ret, st, hrun, hret⟩ := build_chunk_hashs_terminates H (init_chunk_hasher H g0) fuel a
    (template_fits H g0) hff hfuel
  refine ⟨st.hashoutput.data, st.hashoutput.cursor, ?_⟩
  unfold hashfile_after
  rw [hrun]
  simp only
  rw [if_neg hret]

/-- The hashfile after a run without I/O error: size field, records, rest of the old
content. -/
theorem hashfile_after_recs (H : HashFns) (g0 : Globals) (fuel : Nat) (a : Args)
    (d : List Byte) (c : Nat) (hid : a.hashoutput.ideal)
    (h : hashfile_after H (init_chunk_hasher H g0) fuel a = some (d, c)) :
    ∃ E, Recs H (sparse_template_spec H) (a.extent_iterator.getD []) a.f.data
          (n_big a.f.data.length) E
      ∧ d = i64_bytes a.f.data.length ++ E ++ a.hashoutput.data.drop (8 + E.length)
      ∧ c = 8 + E.length := by
  obtain ⟨ret, st, hrun, hret, hd, hc⟩ := hashfile_after_some H _ fuel a d c h
  obtain ⟨E, hR, h1, h2⟩ := build_chunk_hashs_hashfile H _ fuel a ret st
    (template_fits H g0) hid hrun hret
  have hT := get_sparse_extent_content_init H g0
  rw [hT] at hR
  exact ⟨E, hR, by rw [← hd, h1], by rw [← hc, h2]⟩

theorem Recs_list (H : HashFns) (T : List Byte) (exts : List SSparseExtent) (F : List Byte)
    (hT : T.length = chunkhash_single_size) (j : Nat) (E : List Byte)
    (h : Recs H T exts F j E) :
    ∃ rs : List (List Byte), E = rs.flatten ∧ rs.length = j
      ∧ ∀ i, i < j → (rs.getD i []).length = big_hash_size + small_hash_size * n_small F.length i := by
  induction h with
  | zero => exact ⟨[], rfl, rfl, fun i hi => absurd hi (Nat.not_lt_zero _)⟩
  | normal j E _ ih =>
    obtain ⟨rs, h1, h2, h3⟩ := ih
    refine ⟨rs ++ [normal_record H F j], by simp [h1], by simp [h2], ?_⟩
    intro i hi
    by_cases hij : i < j
    · rw [List.getD_append _ _ _ _ (by rw [h2]; exact hij)]
      exact h3 i hij
    · have : i = j := by omega
      subst this
      rw [List.getD_append_right _ _ _ _ (by rw [h2])]
      simp [h2, normal_record_length]
  | sparse j E _ hc ih =>
    obtain ⟨rs, h1, h2, h3⟩ := ih
    refine ⟨rs ++ [T], by simp [h1], by simp [h2], ?_⟩
    intro i hi
    by_cases hij : i < j
    · rw [List.getD_append _ _ _ _ (by rw [h2]; exact hij)]
      exact h3 i hij
    · have : i = j := by omega
      subst this
      obtain ⟨e, _, _, _, h4⟩ := hc
      rw [List.getD_append_right _ _ _ _ (by rw [h2])]
      simp only [h2, Nat.sub_self, List.getD_cons_zero]
      rw [hT, n_small_full _ _ h4]
      rfl

/-- C1: after a run of `build_chunk_hashs` without I/O error into an initially empty
hashfile, the hashfile of a source of `n` bytes has the length
`8 + floor(n/S_BIG)*(16+4*N) + (16 + 4*ceil(tail/S_SMALL) if tail = n mod S_BIG > 0)`;
it consists of the size field and `ceil(n/S_BIG)` records, all of them of the full
size `16+4*N` except possibly the last.  A run without faults returns for every fuel
above `fsize + N + 1`. -/
theorem C1_hashfile_length (H : HashFns) (g0 : Globals) (fuel : Nat) (a : Args)
    (hid : a.hashoutput.ideal) (hempty : a.hashoutput.data = []) :
    (a.fault_free → a.f.data.length + n_chunks + 1 < fuel →
        ∃ d c, hashfile_after H (init_chunk_hasher H g0) fuel a = some (d, c))
      ∧ ∀ (d : List Byte) (c : Nat),
          hashfile_after H (init_chunk_hasher H g0) fuel a = some (d, c) →
          d.length = 8 + (a.f.data.length / c_checkpoint_dist) * (16 + 4 * n_chunks)
              + (if 0 < a.f.data.length % c_checkpoint_dist then
                  16 + 4 * ((a.f.data.length % c_checkpoint_dist + (c_small_hash_dist - 1))
                              / c_small_hash_dist)
                 else 0)
            ∧ ∃ rs : List (List Byte), d = i64_bytes a.f.data.length ++ rs.flatten
                ∧ rs.length = (a.f.data.length + (c_checkpoint_dist - 1)) / c_checkpoint_dist
                ∧ ∀ i, i + 1 < rs.length → (rs.getD i []).length = 16 + 4 * n_chunks := by
  refine ⟨hashfile_after_total H g0 fuel a, ?_⟩
  intro d c hrun
  obtain ⟨E, hR, hd, _⟩ := hashfile_after_recs H g0 fuel a d c hid hrun
  have hd' : d = i64_bytes a.f.data.length ++ E := by
    rw [hd, hempty]; simp
  have hl := Recs_length H _ _ _ (sparse_template_spec_length H) _ _ hR
  constructor
  · rw [hd', List.length_append, i64_bytes_length, hl, recs_size_total]
    omega
  · obtain ⟨rs, h1, h2, h3⟩ := Recs_list H _ _ _ (sparse_template_spec_length H) _ _ hR
    refine ⟨rs, by rw [hd', h1], h2, ?_⟩
    intro i hi
    rw [h2] at hi
    rw [h3 i (by omega), n_small_full, big_hash_size_eq, small_hash_size_eq]
    unfold n_big at hi
    rw [c_checkpoint_dist_eq] at hi ⊢
    omega

/-- Witness of C1: the one-byte file `A` gives a hashfile of 28 bytes. -/
theorem C1_hashfile_length_witness :
    hashfile_after demo_digests (init_chunk_hasher demo_digests ⟨[]⟩) 3 (plain_args [65] false)
        = some (one_byte_hashfile, 28)
      ∧ one_byte_hashfile.length = 28 :=
  ⟨by decide,
   ((C1_hashfile_length demo_digests ⟨[]⟩ 3 (plain_args [65] false)
      (fun _ _ => rfl) rfl).2 one_byte_hashfile 28 (by decide)).1⟩

/-! ### The size field -/

theorem read_le_le_bytes (w m : Nat) : read_le (le_bytes w m) = m % 256 ^ w := by
  induction w generalizing m with
  | zero => simp [le_bytes, read_le, Nat.mod_one]
  | succ w ih =>
    rw [le_bytes, read_le, ih, pow_succ, Nat.mul_comm (256 ^ w) 256, Nat.mod_mul]

theorem i64_bytes_nat (n : Nat) : i64_bytes (n : Int) = le_bytes 8 (n % 2 ^ 64) := by
  have h : ((n : Int) % (2 ^ 64 : Int)).toNat = n % 2 ^ 64 := by omega
  rw [i64_bytes, h]

/-- C2: after a run of `build_chunk_hashs` without I/O error the first 8 bytes of the
hashfile, read as a little-endian integer, are the length of the source (which is a
value of the signed 64-bit type of `fsize`).  A run without faults returns for every
fuel above `fsize + N + 1`. -/
theorem C2_size_field (H : HashFns) (g0 : Globals) (fuel : Nat) (a : Args)
    (hid : a.hashoutput.ideal) (hn : a.f.data.length < 2 ^ 63) :
    (a.fault_free → a.f.data.length + n_chunks + 1 < fuel →
        ∃ d c, hashfile_after H (init_chunk_hasher H g0) fuel a = some (d, c))
      ∧ ∀ (d : List Byte) (c : Nat),
          hashfile_after H (init_chunk_hasher H g0) fuel a = some (d, c) →
          read_le (d.take 8) = a.f.data.length := by
  refine ⟨hashfile_after_total H g0 fuel a, ?_⟩
  intro d c hrun
  obtain ⟨E, _, hd, _⟩ := hashfile_after_recs H g0 fuel a d c hid hrun
  rw [hd, List.append_assoc, List.take_left' (i64_bytes_length _), i64_bytes_nat,
    read_le_le_bytes]
  have : a.f.data.length % 2 ^ 64 = a.f.data.length := Nat.mod_eq_of_lt (by omega)
  rw [this]
  exact Nat.mod_eq_of_lt (by omega)

/-- Witness of C2: the hashfile of the one-byte file `A` starts with the size 1. -/
theorem C2_size_field_witness :
    hashfile_after demo_digests (init_chunk_hasher demo_digests ⟨[]⟩) 3 (plain_args [65] false)
        = some (one_byte_hashfile, 28)
      ∧ read_le (one_byte_hashfile.take 8) = 1 :=
  ⟨by decide,
   (C2_size_field demo_digests ⟨[]⟩ 3 (plain_args [65] false)
      (fun _ _ => rfl) (by decide)).2 one_byte_hashfile 28 (by decide)⟩

/-! ### Fields of the records -/

theorem slice_mid (P Y R : List Byte) : slice (P ++ Y ++ R) P.length Y.length = Y := by
  unfold slice
  rw [List.append_assoc, List.drop_left' rfl, List.take_left' rfl]

theorem all_records_length (H : HashFns) (F : List Byte) (j : Nat)
    (hj : j ≤ F.length / c_checkpoint_dist) :
    (all_records H F j).length = j * chunkhash_single_size := by
  have : ∀ k, (all_records H F k).length = recs_size F.length k := by
    intro k
    induction k with
    | zero => rfl
    | succ k ih => rw [all_records, List.length_append, ih, normal_record_length, recs_size]
  rw [this, recs_size_full _ _ hj]

theorem all_records_split (H : HashFns) (F : List Byte) (J j : Nat) (hj : j < J) :
    ∃ R, all_records H F J = all_records H F j ++ normal_record H F j ++ R := by
  induction J with
  | zero => exact absurd hj (Nat.not_lt_zero _)
  | succ J ih =>
    by_cases h : j < J
    · obtain ⟨R, hR⟩ := ih h
      exact ⟨R ++ normal_record H F J, by rw [all_records, hR]; simp only [List.append_assoc]⟩
    · have : j = J := by omega
      subst this
      exact ⟨[], by rw [all_records, List.append_nil]⟩

theorem small_hashes_split (H : HashFns) (F : List Byte) (p0 m k : Nat) (hk : k < m) :
    ∃ R, small_hashes H F p0 m
      = small_hashes H F p0 k
        ++ le_bytes 4 (H.adler32 (slice F (p0 + k * c_small_hash_dist) c_small_hash_dist)) ++ R := by
  induction m with
  | zero => exact absurd hk (Nat.not_lt_zero _)
  | succ m ih =>
    by_cases h : k < m
    · obtain ⟨R, hR⟩ := ih h
      exact ⟨R ++ le_bytes 4 (H.adler32 (slice F (p0 + m * c_small_hash_dist) c_small_hash_dist)),
        by rw [small_hashes, hR]; simp only [List.append_assoc]⟩
    · have : k = m := by omega
      subst this
      exact ⟨[], by rw [small_hashes, List.append_nil]⟩

/-- The hashfile after a run without I/O error and with truthful extents: the size
field, the records of all big chunks, the rest of the old content. -/
theorem hashfile_after_truthful (H : HashFns) (g0 : Globals) (fuel : Nat) (a : Args)
    (d : List Byte) (c : Nat) (hid : a.hashoutput.ideal)
    (ht : truthful (a.extent_iterator.getD []) a.f.data)
    (h : hashfile_after H (init_chunk_hasher H g0) fuel a = some (d, c)) :
    ∃ R, d = i64_bytes a.f.data.length ++ all_records H a.f.data (n_big a.f.data.length) ++ R := by
  obtain ⟨E, hR, hd, _⟩ := hashfile_after_recs H g0 fuel a d c hid h
  rw [Recs_truthful H _ _ ht _ _ hR] at hd
  exact ⟨_, hd⟩

/-- C3: after a run of `build_chunk_hashs` without I/O error, with an extent iterator
that only reports ranges that are really all zero (or without one), for every
small-chunk index `i` with `i*S_SMALL < n` the 4-byte field at offset
`8 + (i div N)*(16+4*N) + 16 + (i mod N)*4` of the hashfile is the little-endian
adler-32 of the bytes `F[i*S_SMALL .. min((i+1)*S_SMALL, n))`.  A run without faults
returns for every fuel above `fsize + N + 1`. -/
theorem C3_adler_coverage (H : HashFns) (g0 : Globals) (fuel : Nat) (a : Args) (i : Nat)
    (hid : a.hashoutput.ideal)
    (ht : truthful (a.extent_iterator.getD []) a.f.data)
    (hi : i * c_small_hash_dist < a.f.data.length) :
    (a.fault_free → a.f.data.length + n_chunks + 1 < fuel →
        ∃ d c, hashfile_after H (init_chunk_hasher H g0) fuel a = some (d, c))
      ∧ ∀ (d : List Byte) (c : Nat),
          hashfile_after H (init_chunk_hasher H g0) fuel a = some (d, c) →
          slice d (8 + (i / n_chunks) * (16 + 4 * n_chunks) + 16 + (i % n_chunks) * 4) 4
            = le_bytes 4
                (H.adler32 (slice a.f.data (i * c_small_hash_dist) c_small_hash_dist)) := by
  refine ⟨hashfile_after_total H g0 fuel a, ?_⟩
  intro d c hrun
  have hB := c_checkpoint_dist_eq
  have hS := c_small_hash_dist_eq
  have hN := n_chunks_eq
  obtain ⟨R, hd⟩ := hashfile_after_truthful H g0 fuel a d c hid ht hrun
  have hi' : i * 512 < a.f.data.length := by rw [hS] at hi; exact hi
  have hjn : i / n_chunks < n_big a.f.data.length := by
    unfold n_big; rw [hN, hB]; omega
  have hjle : i / n_chunks ≤ a.f.data.length / c_checkpoint_dist := by
    rw [hN, hB]; omega
  have hk : i % n_chunks < n_small a.f.data.length (i / n_chunks) := by
    unfold n_small; rw [hN, hB, hS]; omega
  obtain ⟨R1, h1⟩ := all_records_split H a.f.data _ _ hjn
  obtain ⟨R2, h2⟩ := small_hashes_split H a.f.data (i / n_chunks * c_checkpoint_dist) _ _ hk
  have hoff : i / n_chunks * c_checkpoint_dist + i % n_chunks * c_small_hash_dist
      = i * c_small_hash_dist := by
    rw [hN, hB, hS]; omega
  rw [hoff] at h2
  have hd2 : d = (i64_bytes a.f.data.length ++ all_records H a.f.data (i / n_chunks)
        ++ H.md5 (slice a.f.data (i / n_chunks * c_checkpoint_dist) c_checkpoint_dist)
        ++ small_hashes H a.f.data (i / n_chunks * c_checkpoint_dist) (i % n_chunks))
      ++ le_bytes 4 (H.adler32 (slice a.f.data (i * c_small_hash_dist) c_small_hash_dist))
      ++ (R2 ++ R1 ++ R) := by
    rw [hd, h1, normal_record, h2]
    simp only [List.append_assoc]
  have hlen : (i64_bytes a.f.data.length ++ all_records H a.f.data (i / n_chunks)
        ++ H.md5 (slice a.f.data (i / n_chunks * c_checkpoint_dist) c_checkpoint_dist)
        ++ small_hashes H a.f.data (i / n_chunks * c_checkpoint_dist) (i % n_chunks)).length
      = 8 + (i / n_chunks) * (16 + 4 * n_chunks) + 16 + (i % n_chunks) * 4 := by
    rw [List.length_append, List.length_append, List.length_append, i64_bytes_length,
      all_records_length H _ _ hjle, H.md5_size, small_hashes_length, chunkhash_single_size_eq,
      big_hash_size_eq, hN]
    omega
  have hl4 : (le_bytes 4 (H.adler32 (slice a.f.data (i * c_small_hash_dist) c_small_hash_dist))).length
      = 4 := le_bytes_length _ _
  rw [← hlen]
  conv_lhs => rw [hd2]
  conv_lhs => rw [← hl4]
  exact slice_mid _ _ _

/-- Witness of C3: field 0 of the hashfile of the one-byte file `A`. -/
theorem C3_adler_coverage_witness :
    hashfile_after demo_digests (init_chunk_hasher demo_digests ⟨[]⟩) 3 (plain_args [65] false)
        = some (one_byte_hashfile, 28)
      ∧ slice one_byte_hashfile (8 + (0 / n_chunks) * (16 + 4 * n_chunks) + 16 + (0 % n_chunks) * 4) 4
          = le_bytes 4 (demo_digests.adler32 (slice [65] (0 * c_small_hash_dist) c_small_hash_dist)) :=
  ⟨by decide,
   (C3_adler_coverage demo_digests ⟨[]⟩ 3 (plain_args [65] false) 0
      (fun _ _ => rfl) (fun e he => absurd he (List.not_mem_nil e)) (by decide)).2
        one_byte_hashfile 28 (by decide)⟩

/-- C4: after a run of `build_chunk_hashs` without I/O error, with an extent iterator
that only reports ranges that are really all zero (or without one), for every big
chunk `j` with `j*S_BIG < n` the first 16 bytes of record `j` (offset
`8 + j*(16+4*N)`) are the MD5 of the bytes `F[j*S_BIG .. min((j+1)*S_BIG, n))`, and
the write cursor of the hashfile is at the end of the last record.  A run without
faults returns for every fuel above `fsize + N + 1`. -/
theorem C4_big_hash (H : HashFns) (g0 : Globals) (fuel : Nat) (a : Args) (j : Nat)
    (hid : a.hashoutput.ideal)
    (ht : truthful (a.extent_iterator.getD []) a.f.data)
    (hj : j * c_checkpoint_dist < a.f.data.length) :
    (a.fault_free → a.f.data.length + n_chunks + 1 < fuel →
        ∃ d c, hashfile_after H (init_chunk_hasher H g0) fuel a = some (d, c))
      ∧ ∀ (d : List Byte) (c : Nat),
          hashfile_after H (init_chunk_hasher H g0) fuel a = some (d, c) →
          slice d (8 + j * (16 + 4 * n_chunks)) 16
              = H.md5 (slice a.f.data (j * c_checkpoint_dist) c_checkpoint_dist)
            ∧ c = 8 + (a.f.data.length / c_checkpoint_dist) * (16 + 4 * n_chunks)
                + (if 0 < a.f.data.length % c_checkpoint_dist then
                    16 + 4 * ((a.f.data.length % c_checkpoint_dist + (c_small_hash_dist - 1))
                                / c_small_hash_dist)
                   else 0) := by
  refine ⟨hashfile_after_total H g0 fuel a, ?_⟩
  intro d c hrun
  have hB := c_checkpoint_dist_eq
  have hN := n_chunks_eq
  constructor
  · obtain ⟨R, hd⟩ := hashfile_after_truthful H g0 fuel a d c hid ht hrun
    have hj' : j * 524288 < a.f.data.length := by rw [hB] at hj; exact hj
    have hjn : j < n_big a.f.data.length := by
      unfold n_big; rw [hB]; omega
    have hjle : j ≤ a.f.data.length / c_checkpoint_dist := by
      rw [hB]; omega
    obtain ⟨R1, h1⟩ := all_records_split H a.f.data _ _ hjn
    have hd2 : d = (i64_bytes a.f.data.length ++ all_records H a.f.data j)
        ++ H.md5 (slice a.f.data (j * c_checkpoint_dist) c_checkpoint_dist)
        ++ (small_hashes H a.f.data (j * c_checkpoint_dist) (n_small a.f.data.length j)
            ++ R1 ++ R) := by
      rw [hd, h1, normal_record]
      simp only [List.append_assoc]
    have hlen : (i64_bytes a.f.data.length ++ all_records H a.f.data j).length
        = 8 + j * (16 + 4 * n_chunks) := by
      rw [List.length_append, i64_bytes_length, all_records_length H _ _ hjle,
        chunkhash_single_size_eq, hN]
    have hl16 : (H.md5 (slice a.f.data (j * c_checkpoint_dist) c_checkpoint_dist)).length = 16 :=
      H.md5_size _
    rw [← hlen]
    conv_lhs => rw [hd2]
    conv_lhs => rw [← hl16]
    exact slice_mid _ _ _
  · obtain ⟨E, hR, _, hc⟩ := hashfile_after_recs H g0 fuel a d c hid hrun
    have hl := Recs_length H _ _ _ (sparse_template_spec_length H) _ _ hR
    rw [hc, hl, recs_size_total]
    omega

/-- Witness of C4: record 0 of the hashfile of the one-byte file `A`. -/
theorem C4_big_hash_witness :
    hashfile_after demo_digests (init_chunk_hasher demo_digests ⟨[]⟩) 3 (plain_args [65] false)
        = some (one_byte_hashfile, 28)
      ∧ slice one_byte_hashfile (8 + 0 * (16 + 4 * n_chunks)) 16
          = demo_digests.md5 (slice [65] (0 * c_checkpoint_dist) c_checkpoint_dist) :=
  ⟨by decide,
   ((C4_big_hash demo_digests ⟨[]⟩ 3 (plain_args [65] false) 0
      (fun _ _ => rfl) (fun e he => absurd he (List.not_mem_nil e)) (by decide)).2
        one_byte_hashfile 28 (by decide)).1⟩

/-- C6: after `init_chunk_hasher` the function `get_sparse_extent_content` returns the
MD5 of `S_BIG` zero bytes followed by `N` copies of the little-endian adler-32 of
`S_SMALL` zero bytes, a string of `16 + 4*N = 4112` bytes.  The function only reads
the global that `init_chunk_hasher` has set, so every later call returns this value. -/
theorem C6_sparse_extent_content (H : HashFns) (g0 : Globals) :
    get_sparse_extent_content (init_chunk_hasher H g0)
        = H.md5 (List.replicate c_checkpoint_dist 0)
          ++ (List.replicate n_chunks
                (le_bytes 4 (H.adler32 (List.replicate c_small_hash_dist 0)))).flatten
      ∧ (get_sparse_extent_content (init_chunk_hasher H g0)).length = 16 + 4 * n_chunks
      ∧ (get_sparse_extent_content (init_chunk_hasher H g0)).length = 4112 := by
  have h := get_sparse_extent_content_init H g0
  have hl := sparse_template_spec_length H
  rw [← h, chunkhash_single_size_eq] at hl
  refine ⟨h, ?_, hl⟩
  rw [hl, n_chunks_eq]

/-! ## Files of zero bytes -/

theorem truthful_zero (exts : List SSparseExtent) (n : Nat) :
    truthful exts (List.replicate n 0) := by
  intro e _ k _ _ hk
  rw [List.length_replicate] at hk
  rw [List.getD_eq_getElem _ _ (by rw [List.length_replicate]; exact hk)]
  exact List.getElem_replicate _ _

/-- In a file of `k` big chunks of zero bytes the record of every big chunk is the
template. -/
theorem normal_record_zero (H : HashFns) (k j : Nat) (hj : j < k) :
    normal_record H (List.replicate (k * c_checkpoint_dist) 0) j = sparse_template_spec H := by
  apply normal_record_covered H [⟨0, ((k * c_checkpoint_dist : Nat) : Int)⟩] _ (truthful_zero _ _)
  refine ⟨_, List.mem_singleton.mpr rfl, ?_, ?_, ?_⟩
  · show (0 : Int) ≤ ((j * c_checkpoint_dist : Nat) : Int)
    exact Int.ofNat_nonneg _
  · show (((j + 1) * c_checkpoint_dist : Nat) : Int) ≤ 0 + ((k * c_checkpoint_dist : Nat) : Int)
    rw [Int.zero_add]
    exact Int.ofNat_le.mpr (Nat.mul_le_mul_right _ hj)
  · rw [List.length_replicate]
    exact Nat.mul_le_mul_right _ hj

theorem n_big_mul (k : Nat) : n_big (k * c_checkpoint_dist) = k := by
  unfold n_big
  rw [c_checkpoint_dist_eq]
  omega

/-- C5: for the file of `k*S_BIG` zero bytes (any `k`, so also `k >= 1`), whatever the extent iterator
reports and so whichever path handles a big chunk, a run of `build_chunk_hashs`
without I/O error leaves in every record slot `j < k` of the hashfile (offset
`8 + j*(16+4*N)`, `16+4*N` bytes) the value of `get_sparse_extent_content()`, and
an initially empty hashfile then has `8 + k*(16+4*N)` bytes; a run without faults
completes for every fuel above `fsize + N + 1`. -/
theorem C5_sparse_idempotence (H : HashFns) (g0 : Globals) (fuel : Nat) (a : Args) (k : Nat)
    (hid : a.hashoutput.ideal)
    (hF : a.f.data = List.replicate (k * c_checkpoint_dist) 0) :
    (a.fault_free → a.f.data.length + n_chunks + 1 < fuel →
        ∃ d c, hashfile_after H (init_chunk_hasher H g0) fuel a = some (d, c))
      ∧ ∀ (d : List Byte) (c : Nat),
          hashfile_after H (init_chunk_hasher H g0) fuel a = some (d, c) →
          (∀ j, j < k →
              slice d (8 + j * (16 + 4 * n_chunks)) (16 + 4 * n_chunks)
                = get_sparse_extent_content (init_chunk_hasher H g0))
            ∧ (a.hashoutput.data = [] → d.length = 8 + k * (16 + 4 * n_chunks)) := by
  refine ⟨hashfile_after_total H g0 fuel a, ?_⟩
  intro d c hrun
  have hN := n_chunks_eq
  have hB := c_checkpoint_dist_eq
  have hlenF : a.f.data.length = k * c_checkpoint_dist := by rw [hF, List.length_replicate]
  have ht : truthful (a.extent_iterator.getD []) a.f.data := by rw [hF]; exact truthful_zero _ _
  have hT := get_sparse_extent_content_init H g0
  have hTl := sparse_template_spec_length H
  constructor
  · intro j hj
    obtain ⟨R, hd⟩ := hashfile_after_truthful H g0 fuel a d c hid ht hrun
    have hjn : j < n_big a.f.data.length := by rw [hlenF, n_big_mul]; exact hj
    have hjle : j ≤ a.f.data.length / c_checkpoint_dist := by
      rw [hlenF, Nat.mul_div_cancel _ (by rw [hB]; omega)]; omega
    obtain ⟨R1, h1⟩ := all_records_split H a.f.data _ _ hjn
    have hrec : normal_record H a.f.data j = sparse_template_spec H := by
      rw [hF]; exact normal_record_zero H k j hj
    have hd2 : d = (i64_bytes a.f.data.length ++ all_records H a.f.data j)
        ++ sparse_template_spec H ++ (R1 ++ R) := by
      rw [hd, h1, hrec]
      simp only [List.append_assoc]
    have hlen : (i64_bytes a.f.data.length ++ all_records H a.f.data j).length
        = 8 + j * (16 + 4 * n_chunks) := by
      rw [List.length_append, i64_bytes_length, all_records_length H _ _ hjle,
        chunkhash_single_size_eq, hN]
    have hl : (sparse_template_spec H).length = 16 + 4 * n_chunks := by
      rw [hTl, chunkhash_single_size_eq, hN]
    rw [hT, ← hlen]
    conv_lhs => rw [hd2]
    conv_lhs => rw [← hl]
    exact slice_mid _ _ _
  · intro hempty
    obtain ⟨E, hR, hd, _⟩ := hashfile_after_recs H g0 fuel a d c hid hrun
    have hl := Recs_length H _ _ _ hTl _ _ hR
    rw [hd, hempty]
    simp only [List.drop_nil, List.append_nil]
    rw [List.length_append, i64_bytes_length, hl, hlenF, n_big_mul,
      recs_size_full _ _ (by rw [Nat.mul_div_cancel _ (by rw [hB]; omega)]),
      chunkhash_single_size_eq, hN]

theorem plain_args_fault_free (d : List Byte) (r : Bool) : (plain_args d r).fault_free :=
  ⟨fun _ _ => rfl, fun _ hc => Option.noConfusion hc, fun _ hc => Option.noConfusion hc⟩

/-- Witness of C5: the run on the file of 1 MiB of zero bytes completes, the hashfile
has 8232 bytes and both records are the template. -/
theorem C5_sparse_idempotence_witness :
    ∃ d c, hashfile_after demo_digests (init_chunk_hasher demo_digests ⟨[]⟩) 1049602
          (plain_args (List.replicate (2 * c_checkpoint_dist) 0) false) = some (d, c)
      ∧ d.length = 8232
      ∧ slice d 8 4112 = get_sparse_extent_content (init_chunk_hasher demo_digests ⟨[]⟩)
      ∧ slice d 4120 4112 = get_sparse_extent_content (init_chunk_hasher demo_digests ⟨[]⟩) := by
  have h := C5_sparse_idempotence demo_digests ⟨[]⟩ 1049602
    (plain_args (List.replicate (2 * c_checkpoint_dist) 0) false) 2 (fun _ _ => rfl) rfl
  have hlen : (plain_args (List.replicate (2 * c_checkpoint_dist) 0) false).f.data.length
      = 2 * c_checkpoint_dist := List.length_replicate _ _
  obtain ⟨d, c, hrun⟩ := h.1 (plain_args_fault_free _ _)
    (by rw [hlen, n_chunks_eq, c_checkpoint_dist_eq]; omega)
  obtain ⟨h1, h2⟩ := h.2 d c hrun
  have e0 := h1 0 (by omega)
  have e1 := h1 1 (by omega)
  have e2 := h2 rfl
  rw [n_chunks_eq] at e0 e1 e2
  exact ⟨d, c, hrun, e2, e0, e1⟩

/-! ## Frame of the pieces of the loop body for the whole-file digest -/

theorem load_chunk_hashes_sview (st : State) : (load_chunk_hashes st).sview = st.sview := by
  unfold load_chunk_hashes
  split
  · simp only [IFile.Seek, IFile.Read]
    split
    · split <;> rfl
    · rfl
  · rfl
  · rfl

theorem advance_extent_sview (st : State) : (advance_extent st).sview = st.sview := by
  unfold advance_extent
  split <;> rfl

theorem close_sparse_run_sview (st : State) :
    (close_sparse_run st).sview = st.sview.close_run st.pos := by
  unfold close_sparse_run SView.close_run
  by_cases h : st.sparse_extent_start ≠ -1
  · rw [if_pos h, if_pos (show st.sview.sparse_extent_start ≠ -1 from h)]
    rfl
  · rw [if_neg h, if_neg (show ¬ st.sview.sparse_extent_start ≠ -1 from h)]

theorem close_sparse_run_pos (st : State) :
    (close_sparse_run st).pos = st.pos ∧ (close_sparse_run st).fsize = st.fsize := by
  unfold close_sparse_run
  split
  · exact ⟨rfl, rfl⟩
  · exact ⟨rfl, rfl⟩

theorem open_sparse_run_sview (st : State) :
    (open_sparse_run st).sview = st.sview.open_run st.pos := by
  unfold open_sparse_run SView.open_run
  by_cases h : st.sparse_extent_start = -1
  · rw [if_pos h, if_pos (show st.sview.sparse_extent_start = -1 from h)]
    rfl
  · rw [if_neg h, if_neg (show ¬ st.sview.sparse_extent_start = -1 from h)]

theorem feed_window_sview (st : State) (n : Nat) :
    (feed_window st n).sview = st.sview.feed n := rfl

/-- The block `if(ret_sha2)` acts on the digest fields as `SView.window`. -/
theorem sha_window_sview (st : State) (buf : List Byte) :
    (sha_window st buf).sview = st.sview.window st.pos st.fsize buf := by
  unfold sha_window SView.window
  simp only
  by_cases hr : st.ret_sha2 = true
  · rw [if_pos hr, if_pos (show st.sview.ret_sha2 = true from hr)]
    by_cases h1 : (st.pos + buf.length) % st.sha_buf.length = 0
    · rw [if_pos h1, if_pos (show (st.pos + buf.length) % st.sview.sha_buf.length = 0 from h1)]
      by_cases h2 : buf_is_zero (memcpy_at st.sha_buf (st.pos % st.sha_buf.length) buf) = true
      · rw [if_pos h2, if_pos (show buf_is_zero
            (memcpy_at st.sview.sha_buf (st.pos % st.sview.sha_buf.length) buf) = true from h2)]
        rw [open_sparse_run_sview]
        rfl
      · rw [if_neg h2, if_neg (show ¬ buf_is_zero
            (memcpy_at st.sview.sha_buf (st.pos % st.sview.sha_buf.length) buf) = true from h2)]
        rw [feed_window_sview, close_sparse_run_sview]
        rfl
    · rw [if_neg h1, if_neg (show ¬ (st.pos + buf.length) % st.sview.sha_buf.length = 0 from h1)]
      by_cases h3 : buf.length < c_small_hash_dist ∨ st.pos + buf.length = st.fsize
      · rw [if_pos h3, if_pos h3]
        rw [feed_window_sview, close_sparse_run_sview]
        rfl
      · rw [if_neg h3, if_neg h3]
        rfl
  · rw [if_neg hr, if_neg (show ¬ st.sview.ret_sha2 = true from hr)]

theorem add_inplace_written_sview (st : State) (r : Nat) :
    (add_inplace_written st r).sview = st.sview := by
  unfold add_inplace_written
  split <;> rfl

theorem write_hashoutput_sview (st st' : State) (buf : List Byte) (ok : Bool)
    (h : write_hashoutput st buf = some (ok, st')) :
    st'.sview = st.sview ∧ st'.pos = st.pos ∧ st'.fsize = st.fsize ∧ st'.f = st.f := by
  unfold write_hashoutput at h
  split at h
  · simp at h
  · simp only [Option.some.injEq, Prod.mk.injEq] at h
    rw [← h.2]
    exact ⟨rfl, rfl, rfl, rfl⟩

theorem write_copy_sview (st st' : State) (c : IFile) (buf : List Byte) (ok : Bool)
    (h : write_copy st c buf = some (ok, st')) : st'.sview = st.sview := by
  unfold write_copy at h
  split at h
  · simp at h
  · simp only [Option.some.injEq, Prod.mk.injEq] at h
    rw [← h.2]
    rfl

theorem mark_copy_read_eof_sview (st : State) (r : Nat) :
    (mark_copy_read_eof st r).sview = st.sview := by
  unfold mark_copy_read_eof
  split <;> rfl

theorem rewrite_copy_sview (st st' : State) (c : IFile) (buf : List Byte)
    (h : rewrite_copy st c buf = some (Step.next st')) : st'.sview = st.sview := by
  unfold rewrite_copy at h
  simp only [IFile.Seek] at h
  split at h
  · simp at h
  · simp at h
  · rename_i s heq
    simp only [Option.some.injEq, Step.next.injEq] at h
    rw [← h, add_inplace_written_sview]
    exact write_copy_sview _ _ _ _ _ heq

theorem reconcile_hashed_sview (st st' : State) (c : IFile) (ch buf sh : List Byte)
    (h : reconcile_hashed st c ch buf sh = some (Step.next st')) : st'.sview = st.sview := by
  unfold reconcile_hashed at h
  simp only [IFile.Seek, IFile.Read] at h
  split at h
  · simp only [Option.some.injEq, Step.next.injEq] at h
    rw [← h]; rfl
  · obtain ⟨st1, h1, rfl⟩ := bump_copy_write_pos_next _ _ _ h
    have := rewrite_copy_sview _ _ _ _ h1
    show st1.sview = st.sview
    rw [this]
    show (mark_copy_read_eof st _).sview = st.sview
    exact mark_copy_read_eof_sview _ _

theorem reconcile_compare_sview (st st' : State) (c : IFile) (buf : List Byte)
    (h : reconcile_compare st c buf = some (Step.next st')) : st'.sview = st.sview := by
  unfold reconcile_compare at h
  simp only [IFile.Seek, IFile.Read] at h
  split at h
  · obtain ⟨st1, h1, rfl⟩ := bump_copy_write_pos_next _ _ _ h
    exact rewrite_copy_sview _ st1 _ _ h1
  · split at h
    · obtain ⟨st1, h1, rfl⟩ := bump_copy_write_pos_next _ _ _ h
      have := rewrite_copy_sview _ _ _ _ h1
      show st1.sview = st.sview
      rw [this, mark_copy_read_eof_sview]; rfl
    · simp only [Option.some.injEq, Step.next.injEq] at h
      rw [← h]
      show (mark_copy_read_eof _ _).sview = st.sview
      rw [mark_copy_read_eof_sview]; rfl

theorem reconcile_copy_sview (st st' : State) (buf sh : List Byte)
    (h : reconcile_copy st buf sh = some (Step.next st')) : st'.sview = st.sview := by
  unfold reconcile_copy at h
  split at h
  · simp only [Option.some.injEq, Step.next.injEq] at h
    rw [h]
  · split at h
    · split at h
      · exact reconcile_hashed_sview _ _ _ _ _ _ h
      · exact reconcile_compare_sview _ _ _ _ h
    · split at h
      · simp at h
      · simp at h
      · rename_i s heq
        simp only [Option.some.injEq, Step.next.injEq] at h
        rw [← h]
        exact write_copy_sview _ _ _ _ _ heq

/-- The body of the small-chunk loop acts on the digest fields as `SView.window` for
the bytes it has read. -/
theorem small_chunk_body_sview (H : HashFns) (st st' : State)
    (h : small_chunk_body H st = some (Step.next st')) :
    st'.sview = st.sview.window st.pos st.fsize (st.f.Read c_small_hash_dist).1 := by
  unfold small_chunk_body at h
  simp only at h
  split at h
  · simp at h
  · simp at h
  · rename_i s1 hw
    obtain ⟨e1, e2, e3, _⟩ := write_hashoutput_sview _ _ _ _ hw
    rw [reconcile_copy_sview _ _ _ _ h, sha_window_sview]
    show s1.sview.window s1.pos s1.fsize _ = _
    rw [e1, e2, e3]
    rfl

theorem recopy_body_sview (st st' : State) (c : IFile)
    (h : recopy_body st c = some (Step.next st')) : st'.sview = st.sview := by
  unfold recopy_body at h
  simp only at h
  obtain ⟨st1, h1, rfl⟩ := bump_copy_write_pos_next _ _ _ h
  have := rewrite_copy_sview _ st1 _ _ h1
  show st1.sview = st.sview
  rw [this]
  rfl

theorem recopy_loop_sview (epos : Nat) :
    ∀ (fuel : Nat) (st st' : State),
      recopy_loop epos fuel st = some (Step.next st') → st'.sview = st.sview := by
  intro fuel
  induction fuel with
  | zero => intro st st' h; simp [recopy_loop] at h
  | succ fuel ih =>
    intro st st' h
    rw [recopy_loop] at h
    split at h
    · split at h
      · simp at h
      · split at h
        · simp at h
        · simp at h
        · rename_i c _ s hb
          rw [ih _ _ h]
          show s.sview = st.sview
          exact recopy_body_sview st s _ hb
    · simp only [Option.some.injEq, Step.next.injEq] at h
      rw [h]

theorem recopy_from_start_sview (fuel : Nat) (st st' : State) (epos q : Nat)
    (h : recopy_loop epos fuel
          { st with copy_write_pos := st.copy_write_pos_start,
                    pos := q,
                    f := { st.f with cursor := q } } = some (Step.next st')) :
    st'.sview = st.sview := by
  have := recopy_loop_sview epos fuel _ _ h
  rw [this]
  rfl

theorem collision_recovery_sview (H : HashFns) (fuel : Nat) (st st' : State) (epos : Nat)
    (h : collision_recovery H fuel st epos = some (Step.next st')) : st'.sview = st.sview := by
  unfold collision_recovery at h
  split at h
  · split at h
    · split at h
      · simp only [IFile.Seek] at h
        exact recopy_from_start_sview fuel st st' epos (epos - c_checkpoint_dist) h
      · simp only [Option.some.injEq, Step.next.injEq] at h
        rw [h]
    · simp only [Option.some.injEq, Step.next.injEq] at h
      rw [h]
  · simp only [Option.some.injEq, Step.next.injEq] at h
    rw [h]

theorem open_known_sparse_run_sview (st : State) :
    (open_known_sparse_run st).sview = st.sview.known_sparse st.pos := by
  unfold open_known_sparse_run SView.known_sparse
  by_cases h : st.ret_sha2 = true ∧ st.sparse_extent_start = -1
  · rw [if_pos h, if_pos (show st.sview.ret_sha2 = true ∧ st.sview.sparse_extent_start = -1 from h)]
    rfl
  · rw [if_neg h, if_neg (show ¬ (st.sview.ret_sha2 = true ∧ st.sview.sparse_extent_start = -1) from h)]

theorem punch_copy_sview (fuel : Nat) (st st' : State)
    (h : punch_copy fuel st = some (Step.next st')) : st'.sview = st.sview := by
  unfold punch_copy at h
  split at h
  · split at h
    · simp only [Option.some.injEq, Step.next.injEq] at h
      rw [← h]; rfl
    · simp only [IFile.Seek] at h
      split at h
      · simp only [if_true] at h
        split at h
        · simp at h
        · simp at h
        · simp only [Option.some.injEq, Step.next.injEq] at h
          rw [← h]; rfl
      · simp only [Option.some.injEq, Step.next.injEq] at h
        rw [← h]; rfl
  · simp only [Option.some.injEq, Step.next.injEq] at h
    rw [← h]

/-- The known-sparse fast path acts on the digest fields as `SView.known_sparse`. -/
theorem sparse_chunk_sview (g : Globals) (fuel : Nat) (st st' : State) (epos : Nat)
    (h : sparse_chunk g fuel st epos = some (Step.next st')) :
    st'.sview = st.sview.known_sparse st.pos := by
  unfold sparse_chunk at h
  simp only at h
  split at h
  · simp at h
  · simp at h
  · rename_i s0 hw
    obtain ⟨e1, e2, _, _⟩ := write_hashoutput_sview _ _ _ _ hw
    split at h
    · simp at h
    · simp at h
    · rename_i s1 hp
      simp only [IFile.Seek, Bool.not_true, if_false] at h
      simp only [Bool.false_eq_true, not_false_eq_true, not_true_eq_false, if_false,
        Option.some.injEq, Step.next.injEq] at h
      have hv := punch_copy_sview _ _ _ hp
      rw [open_known_sparse_run_sview] at hv
      rw [← h]
      show s1.sview = _
      rw [hv]
      show s0.sview.known_sparse s0.pos = _
      rw [e1, e2]

/-! ## Invariant rules for the whole-file digest -/

theorem dvd_small_of_big (j k : Nat) :
    c_small_hash_dist ∣ j * c_checkpoint_dist + k * c_small_hash_dist := by
  refine ⟨j * 1024 + k, ?_⟩
  rw [c_small_hash_dist_eq, c_checkpoint_dist_eq]
  omega

/-- Rule for the normal path: a property `P` of the digest fields and the position
that every step of `SView.window` on a small chunk of `F` keeps, holds behind the
big chunk when it holds in front of it. -/
theorem normal_chunk_srule (H : HashFns) (T : List Byte) (exts : List SSparseExtent)
    (F init : List Byte) (P : SView → Nat → Prop)
    (hstep : ∀ v p, P v p → p < F.length → c_small_hash_dist ∣ p →
      P (v.window p F.length (slice F p c_small_hash_dist)) (p + c_small_hash_dist))
    (fuel : Nat) (st st' : State)
    (h : HInv H T exts F init st.hview)
    (hlt : st.pos < st.fsize)
    (hP : P st.sview st.pos)
    (hs : normal_chunk H fuel st (st.pos + c_checkpoint_dist) = some (Step.next st')) :
    P st'.sview st'.pos := by
  have hB := c_checkpoint_dist_eq
  have hS := c_small_hash_dist_eq
  have hfs : st.fsize = F.length := h.fsize
  obtain ⟨E, j, hR, hc, hh, hp1, hp2⟩ := h.recs
  have hpj : st.pos = j * c_checkpoint_dist := hp1 (by rw [← hfs]; exact hlt)
  have hj : j * c_checkpoint_dist < F.length := by rw [← hpj, ← hfs]; exact hlt
  have hS0 := HInv_begin_record H T exts F init st.hview h E j hc hh hpj
  unfold normal_chunk at hs
  simp only at hs
  have hw := write_hashoutput_ideal
    { st with copy_sparse_extent_start := -1, big_hash := [],
              big_hash_copy_control := [], hashoutputpos_start := st.hashoutputpos }
    (List.replicate big_hash_size 0) h.ho_ideal (by simp [big_hash_size])
    (by simp [big_hash_size])
  rw [hw] at hs
  simp only at hs
  split at hs
  · simp at hs
  · simp at hs
  · rename_i s2 hloop
    have hI : (SInv H F init (i64_bytes F.length ++ E) (j * c_checkpoint_dist)
          st.curr_extent st.extent_iterator s2.hview ∧ P s2.sview s2.pos)
        ∧ ¬ (s2.pos < st.pos + c_checkpoint_dist ∧ s2.pos < s2.fsize) := by
      refine small_chunk_loop_partial H (st.pos + c_checkpoint_dist)
        (fun s => SInv H F init (i64_bytes F.length ++ E) (j * c_checkpoint_dist)
          st.curr_extent st.extent_iterator s.hview ∧ P s.sview s.pos)
        ?_ fuel _ s2 ?_ hloop
      · intro s s' hs1 hs2 hs3 hbody
        obtain ⟨hs1, hPs⟩ := hs1
        have hv := small_chunk_body_hview H s s' hs1.ho_ideal hbody
        have hsv := small_chunk_body_sview H s s' hbody
        constructor
        · show SInv H F init _ _ _ _ (s'.hview.incr)
          rw [hv]
          exact SInv_step H F init _ _ _ _ s.hview hs1 (by rw [← hpj]; exact hs2) hs3
        · show P s'.sview (s'.pos + c_small_hash_dist)
          have hpos' : s'.pos = s.pos := congrArg HView.pos hv
          have hsf : s.fsize = F.length := hs1.fsize
          have hposF : s.pos < s.f.data.length := by
            rw [show s.f.data = F from hs1.f_data, ← hsf]; exact hs3
          have hbuf : (s.f.Read c_small_hash_dist).1 = slice F s.pos c_small_hash_dist := by
            rw [read_bytes s.f s.pos _
              (by rw [show s.f.data = F from hs1.f_data]; exact hs1.f_cursor) hposF,
              show s.f.data = F from hs1.f_data]
          rw [hsv, hpos', hbuf, hsf]
          apply hstep _ _ hPs (by rw [← hsf]; exact hs3)
          rw [show s.pos = j * c_checkpoint_dist + s.chunkidx * c_small_hash_dist from hs1.pos_eq]
          exact dvd_small_of_big _ _
      · exact ⟨hS0, hP⟩
    obtain ⟨⟨hS2, hP2⟩, hx⟩ := hI
    simp only [IFile.Seek] at hs
    have hw2 := write_hashoutput_ideal
      { s2 with hashoutput := { s2.hashoutput with cursor := s2.hashoutputpos_start } }
      ((H.md5 s2.big_hash).take big_hash_size) hS2.ho_ideal
      (by
        intro he
        have := congrArg List.length he
        rw [List.length_take, H.md5_size] at this
        simp [big_hash_size] at this)
      (by rw [List.length_take, H.md5_size]; simp [big_hash_size])
    rw [hw2] at hs
    simp only at hs
    split at hs
    · simp at hs
    · simp at hs
    · rename_i s4 hrec
      simp only [Option.some.injEq, Step.next.injEq] at hs
      have hx' : ¬ (s2.pos < j * c_checkpoint_dist + c_checkpoint_dist ∧ s2.pos < s2.fsize) := by
        rw [← hpj]; exact hx
      have hpe := hS2.pos_eq
      have hib := hS2.idx_bound
      have hfs2 : s2.fsize = F.length := hS2.fsize
      have hlo : min c_checkpoint_dist (F.length - j * c_checkpoint_dist)
          ≤ c_small_hash_dist * s2.chunkidx := by
        have hpe' : s2.pos = j * c_checkpoint_dist + s2.chunkidx * c_small_hash_dist := hpe
        rw [hfs2, hpe'] at hx'
        rw [hS] at hx' ⊢
        omega
      have hv4 := collision_recovery_hview H fuel _ s4 (st.pos + c_checkpoint_dist)
        (j * c_checkpoint_dist) s2.chunkidx hrec (by rw [hpj])
        (by show s2.f.cursor = min s2.pos s2.f.data.length
            rw [show s2.f.data = F from hS2.f_data]; exact hS2.f_cursor)
        (by show s2.fsize = s2.f.data.length
            rw [show s2.f.data = F from hS2.f_data]; exact hfs2)
        (by show j * c_checkpoint_dist < s2.fsize
            rw [hfs2]; exact hj)
        (by show s2.pos = _
            rw [show s2.pos = j * c_checkpoint_dist + s2.chunkidx * c_small_hash_dist from hpe]
            ring)
        (by show min c_checkpoint_dist (s2.fsize - j * c_checkpoint_dist) ≤ _
            rw [hfs2]; exact hlo)
        (by show _ < min c_checkpoint_dist (s2.fsize - j * c_checkpoint_dist) + _
            rw [hfs2]; exact hib)
      have hsv4 := collision_recovery_sview H fuel _ s4 _ hrec
      rw [← hs]
      show P s4.sview s4.pos
      have e4 : s4.pos = s2.pos := congrArg HView.pos hv4
      rw [hsv4, e4]
      exact hP2

/-- Rule for the main loop: a property `P` of the digest fields and the position
that every step of `SView.window` keeps, and every step of the known-sparse fast
path over a big chunk that an extent covers, holds behind the loop when it holds
in front of it. -/
theorem main_loop_srule (H : HashFns) (g : Globals) (exts : List SSparseExtent)
    (F init : List Byte) (hT : get_sparse_extent_content g ≠ [] ∧ (get_sparse_extent_content g).length < 2 ^ 31) (P : SView → Nat → Prop)
    (hstep : ∀ v p, P v p → p < F.length → c_small_hash_dist ∣ p →
      P (v.window p F.length (slice F p c_small_hash_dist)) (p + c_small_hash_dist))
    (hsparse : ∀ v p, P v p → p + c_checkpoint_dist ≤ F.length →
      (∃ e ∈ exts, e.offset ≤ (p : Int) ∧ ((p + c_checkpoint_dist : Nat) : Int) ≤ e.offset + e.size) →
      P (v.known_sparse p) (p + c_checkpoint_dist)) :
    ∀ (fuel : Nat) (st st' : State),
      HInv H (get_sparse_extent_content g) exts F init st.hview → P st.sview st.pos →
      main_loop H g fuel st = some (Step.next st') →
      P st'.sview st'.pos := by
  intro fuel st st' hI hP hm
  have key := main_loop_partial H g
    (fun s => HInv H (get_sparse_extent_content g) exts F init s.hview ∧ P s.sview s.pos)
    ?_ ?_ fuel st st' ⟨hI, hP⟩ hm
  · exact key.1.2
  · intro fuel st st' hI hlt hk hs
    obtain ⟨hI, hP⟩ := hI
    have h1 : HInv H (get_sparse_extent_content g) exts F init (load_chunk_hashes st).hview := by
      rw [load_chunk_hashes_hview]; exact hI
    have h2 := advance_extent_HInv H _ exts F init _ h1
    have hp := advance_extent_pos (load_chunk_hashes st)
    have e1 : (load_chunk_hashes st).pos = st.pos :=
      congrArg HView.pos (load_chunk_hashes_hview st)
    have e2 : (load_chunk_hashes st).fsize = st.fsize :=
      congrArg HView.fsize (load_chunk_hashes_hview st)
    have hpos : (advance_extent (load_chunk_hashes st)).pos = st.pos := by rw [hp.1, e1]
    have hfsz : (advance_extent (load_chunk_hashes st)).fsize = st.fsize := by rw [hp.2.1, e2]
    have hlt' : (advance_extent (load_chunk_hashes st)).pos
        < (advance_extent (load_chunk_hashes st)).fsize := by
      rw [hpos, hfsz]; exact hlt
    refine ⟨sparse_chunk_HInv H g exts F init fuel _ st' hT h2 hlt' hk hs, ?_⟩
    have hv := sparse_chunk_hview g fuel _ st' _ h2.ho_ideal hT hs
    have hsv := sparse_chunk_sview g fuel _ st' _ hs
    have hsp : st'.pos = (advance_extent (load_chunk_hashes st)).pos + c_checkpoint_dist :=
      congrArg HView.pos hv
    rw [hsv, hsp, advance_extent_sview, load_chunk_hashes_sview, hpos]
    unfold known_sparse at hk
    simp only [decide_eq_true_eq] at hk
    rw [hpos, hfsz] at hk
    have hfsF : st.fsize = F.length := hI.fsize
    apply hsparse _ _ hP (by rw [← hfsF]; exact hk.2.2.2)
    exact ⟨_, h2.cur_mem hk.1, hk.2.1, hk.2.2.1⟩
  · intro fuel st st' hI hlt _ hs
    obtain ⟨hI, hP⟩ := hI
    have h1 : HInv H (get_sparse_extent_content g) exts F init (load_chunk_hashes st).hview := by
      rw [load_chunk_hashes_hview]; exact hI
    have h2 := advance_extent_HInv H _ exts F init _ h1
    have hp := advance_extent_pos (load_chunk_hashes st)
    have e1 : (load_chunk_hashes st).pos = st.pos :=
      congrArg HView.pos (load_chunk_hashes_hview st)
    have e2 : (load_chunk_hashes st).fsize = st.fsize :=
      congrArg HView.fsize (load_chunk_hashes_hview st)
    have hpos : (advance_extent (load_chunk_hashes st)).pos = st.pos := by rw [hp.1, e1]
    have hfsz : (advance_extent (load_chunk_hashes st)).fsize = st.fsize := by rw [hp.2.1, e2]
    have hlt' : (advance_extent (load_chunk_hashes st)).pos
        < (advance_extent (load_chunk_hashes st)).fsize := by
      rw [hpos, hfsz]; exact hlt
    refine ⟨(normal_chunk_HInv H _ exts F init fuel _ st' h2 hlt' hs).1, ?_⟩
    apply normal_chunk_srule H _ exts F init P hstep fuel _ st' h2 hlt' _ hs
    rw [advance_extent_sview, load_chunk_hashes_sview, hpos]
    exact hP

theorem read_input_size_sview (st st' : State) (h : read_input_size st = Step.next st') :
    st'.sview = st.sview := by
  unfold read_input_size at h
  split at h
  · simp only [Step.next.injEq] at h
    rw [h]
  · simp only [IFile.Seek, IFile.Read] at h
    split at h
    · simp at h
    · simp only [Step.next.injEq] at h
      rw [← h]
      rfl

/-- The digest fields in front of the main loop. -/
theorem prologue_sview (a : Args) (st0 : State) (h : prologue a = some (Step.next st0)) :
    st0.sview = SView.start a.ret_sha2 := by
  unfold prologue at h
  simp only at h
  split at h
  · simp at h
  · simp at h
  · rename_i s0 hw
    obtain ⟨e1, _, _, _⟩ := write_hashoutput_sview _ _ _ _ hw
    split at h
    · simp at h
    · rename_i s1 hr
      simp only [Option.some.injEq, Step.next.injEq] at h
      have e2 := read_input_size_sview _ _ hr
      have e3 : s1.sview = (entry_state a).sview := by rw [e2, e1]
      rw [← h]
      have r1 : s1.ret_sha2 = a.ret_sha2 := congrArg SView.ret_sha2 e3
      have r2 : s1.ctx = [] := congrArg SView.ctx e3
      have r3 : s1.extent_ctx = [] := congrArg SView.extent_ctx e3
      have r4 : s1.sha_buf = [] := congrArg SView.sha_buf e3
      have r5 : s1.sparse_extent_start = -1 := congrArg SView.sparse_extent_start e3
      have r6 : s1.has_sparse_extent = false := congrArg SView.has_sparse_extent e3
      unfold init_locals State.sview SView.start
      simp only [r1, r2, r3, r4, r5, r6]

theorem close_last_run_sview (st : State) :
    (close_last_run st).sview = st.sview.close_last st.fsize := by
  unfold close_last_run SView.close_last
  by_cases h : st.sparse_extent_start ≠ -1
  · rw [if_pos h, if_pos (show st.sview.sparse_extent_start ≠ -1 from h)]
    rfl
  · rw [if_neg h, if_neg (show ¬ st.sview.sparse_extent_start ≠ -1 from h)]

theorem restore_copy_size_sview (st st' : State) (h : restore_copy_size st = Step.next st') :
    st'.sview = st.sview := by
  unfold restore_copy_size at h
  split at h
  · simp only [Step.next.injEq] at h
    rw [h]
  · split at h
    · simp only [IFile.Resize, not_true_eq_false, if_false, Step.next.injEq] at h
      rw [← h]
      rfl
    · simp only [Step.next.injEq] at h
      rw [h]

theorem final_digest_sview (H : HashFns) (st : State) :
    (final_digest H st).1 = st.sview.digest H := by
  unfold final_digest SView.digest
  by_cases h1 : st.ret_sha2 = true
  · rw [if_pos h1, if_pos (show st.sview.ret_sha2 = true from h1)]
    by_cases h2 : st.has_sparse_extent = true
    · rw [if_pos h2, if_pos (show st.sview.has_sparse_extent = true from h2)]
      rfl
    · rw [if_neg h2, if_neg (show ¬ st.sview.has_sparse_extent = true from h2)]
      rfl
  · rw [if_neg h1, if_neg (show ¬ st.sview.ret_sha2 = true from h1)]

theorem final_digest_state (H : HashFns) (st : State) :
    (final_digest H st).2.sview = st.sview.finish H := by
  unfold final_digest SView.finish
  by_cases h1 : st.ret_sha2 = true
  · rw [if_pos h1, if_pos (show st.sview.ret_sha2 = true from h1)]
    by_cases h2 : st.has_sparse_extent = true
    · rw [if_pos h2, if_pos (show st.sview.has_sparse_extent = true from h2)]
      rfl
    · rw [if_neg h2, if_neg (show ¬ st.sview.has_sparse_extent = true from h2)]
  · rw [if_neg h1, if_neg (show ¬ st.sview.ret_sha2 = true from h1)]

/-- The string that a run without I/O error returns, from a property `P` of the
digest fields that the steps of the loops keep: it is the digest of fields `v` that
have the property at a position behind the end of the file, after the last sparse
run was closed. -/
theorem build_chunk_hashs_digest (H : HashFns) (g : Globals) (fuel : Nat) (a : Args)
    (ret : List Byte) (st : State) (hT : get_sparse_extent_content g ≠ [] ∧ (get_sparse_extent_content g).length < 2 ^ 31)
    (hid : a.hashoutput.ideal) (P : SView → Nat → Prop)
    (hstep : ∀ v p, P v p → p < a.f.data.length → c_small_hash_dist ∣ p →
      P (v.window p a.f.data.length (slice a.f.data p c_small_hash_dist)) (p + c_small_hash_dist))
    (hsparse : ∀ v p, P v p → p + c_checkpoint_dist ≤ a.f.data.length →
      (∃ e ∈ a.extent_iterator.getD [],
          e.offset ≤ (p : Int) ∧ ((p + c_checkpoint_dist : Nat) : Int) ≤ e.offset + e.size) →
      P (v.known_sparse p) (p + c_checkpoint_dist))
    (hP0 : P (SView.start a.ret_sha2) 0)
    (hrun : build_chunk_hashs H g fuel a = some (ret, st)) (hret : ret ≠ []) :
    ∃ v p, P v p ∧ a.f.data.length ≤ p
      ∧ ret = (v.close_last a.f.data.length).digest H
      ∧ st.sview = (v.close_last a.f.data.length).finish H := by
  obtain ⟨st0, st1, st2, hp, hm, hr, hf⟩ := build_chunk_hashs_next H g fuel a ret st hrun hret
  have h0 := prologue_HInv H (get_sparse_extent_content g) a st0 hid hp
  have hs0 := prologue_sview a st0 hp
  have hpos0 : st0.pos = 0 := by
    obtain ⟨E, j, _, _, _, hp1, hp2⟩ := h0.recs
    have hfs : st0.fsize = a.f.data.length := h0.fsize
    have hcur : st0.f.cursor = min st0.pos a.f.data.length := h0.f_cursor
    unfold prologue at hp
    simp only at hp
    split at hp
    · simp at hp
    · simp at hp
    · rename_i s0 hw
      obtain ⟨_, e2, _, _⟩ := write_hashoutput_sview _ _ _ _ hw
      split at hp
      · simp at hp
      · rename_i s1 hr1
        simp only [Option.some.injEq, Step.next.injEq] at hp
        have := congrArg HView.pos (read_input_size_hview _ _ hr1)
        rw [← hp]
        show s1.pos = 0
        rw [show s1.pos = s0.pos from this, e2]
        rfl
  obtain ⟨h1, hx⟩ := main_loop_HInv H g _ _ _ hT fuel st0 st1 h0 hm
  have hP1 := main_loop_srule H g _ _ _ hT P hstep hsparse fuel st0 st1 h0
    (by rw [hs0, hpos0]; exact hP0) hm
  have hfs1 : st1.fsize = a.f.data.length := h1.fsize
  refine ⟨st1.sview, st1.pos, hP1, by rw [← hfs1]; omega, ?_, ?_⟩
  · have e1 : ret = (final_digest H st2).1 := by rw [hf]
    rw [e1, final_digest_sview, restore_copy_size_sview _ _ hr, close_last_run_sview, hfs1]
  · have e2 : st = (final_digest H st2).2 := by rw [hf]
    rw [e2, final_digest_state, restore_copy_size_sview _ _ hr, close_last_run_sview, hfs1]

/-! ## The digest of a file of zero bytes -/

theorem memcpy_zero (W off m : Nat) (h : off + m ≤ W) :
    memcpy_at (List.replicate W 0) off (List.replicate m 0) = List.replicate W 0 := by
  unfold memcpy_at
  rw [List.take_replicate, List.drop_replicate, List.length_replicate,
    List.append_replicate_replicate, List.append_replicate_replicate]
  have e : min off W + m + (W - (off + m)) = W := by omega
  rw [e]

theorem buf_is_zero_replicate (n : Nat) : buf_is_zero (List.replicate n 0) = true := by
  induction n with
  | zero => rfl
  | succ n ih =>
    rw [List.replicate_succ, buf_is_zero]
    simp only [ne_eq, not_true_eq_false, if_false]
    exact ih

theorem slice_replicate (n p m : Nat) (h : p + m ≤ n) :
    slice (List.replicate n (0 : Byte)) p m = List.replicate m 0 := by
  unfold slice
  rw [List.drop_replicate, List.take_replicate]
  have e : min m (n - p) = m := by omega
  rw [e]

/-- One small chunk of a file of zero bytes keeps `ZeroInv`. -/
theorem ZeroInv_step (k : Nat) (v : SView) (p : Nat) (hP : ZeroInv v p)
    (hlt : p < k * sha_buf_size) (hd : c_small_hash_dist ∣ p) :
    ZeroInv
      (v.window p (k * sha_buf_size)
        (slice (List.replicate (k * sha_buf_size) 0) p c_small_hash_dist))
      (p + c_small_hash_dist) := by
  obtain ⟨hr, hc, he, hh, hb, hs⟩ := hP
  obtain ⟨q, hq⟩ := hd
  have hS := c_small_hash_dist_eq
  have hW := sha_buf_size_eq
  have hq2 : p = 512 * q := by rw [hq, hS]
  have hlt2 : p < k * 32768 := by rw [hW] at hlt; exact hlt
  have hle : p + c_small_hash_dist ≤ k * sha_buf_size := by rw [hS, hW]; omega
  have hoff : p % sha_buf_size + c_small_hash_dist ≤ sha_buf_size := by rw [hS, hW]; omega
  rw [slice_replicate _ _ _ hle]
  unfold SView.window
  rw [if_pos hr, hb, List.length_replicate, List.length_replicate, memcpy_zero _ _ _ hoff,
    buf_is_zero_replicate]
  by_cases h1 : (p + c_small_hash_dist) % sha_buf_size = 0
  · rw [if_pos h1, if_pos rfl]
    have hge : ¬ (p + c_small_hash_dist < sha_buf_size) := by
      rw [hS, hW] at h1 ⊢; omega
    unfold SView.open_run
    by_cases h2 : v.sparse_extent_start = -1
    · rw [if_pos (show ({ v with sha_buf := List.replicate sha_buf_size 0 } : SView).sparse_extent_start
          = -1 from h2)]
      have hpl : p < sha_buf_size := by
        by_contra hcon
        rw [if_neg hcon] at hs
        rw [hs] at h2
        exact absurd h2 (by decide)
      refine ⟨hr, hc, he, hh, rfl, ?_⟩
      rw [if_neg hge]
      show (((p / (List.replicate sha_buf_size (0 : Byte)).length
              * (List.replicate sha_buf_size (0 : Byte)).length : Nat)) : Int) = 0
      rw [List.length_replicate, Nat.div_eq_of_lt hpl, Nat.zero_mul]
      rfl
    · rw [if_neg (show ¬ ({ v with sha_buf := List.replicate sha_buf_size 0 } : SView).sparse_extent_start
          = -1 from h2)]
      refine ⟨hr, hc, he, hh, rfl, ?_⟩
      rw [if_neg hge]
      show v.sparse_extent_start = 0
      by_cases hpl : p < sha_buf_size
      · rw [if_pos hpl] at hs
        exact absurd hs h2
      · rw [if_neg hpl] at hs
        exact hs
  · rw [if_neg h1]
    have h3 : ¬ (c_small_hash_dist < c_small_hash_dist
        ∨ p + c_small_hash_dist = k * sha_buf_size) := by
      rw [hS, hW] at h1 ⊢
      omega
    rw [if_neg h3]
    refine ⟨hr, hc, he, hh, rfl, ?_⟩
    show v.sparse_extent_start = _
    rw [hs]
    by_cases hpl : p < sha_buf_size
    · have : p + c_small_hash_dist < sha_buf_size := by
        rw [hS, hW] at h1 ⊢; rw [hW] at hpl; omega
      rw [if_pos hpl, if_pos this]
    · have : ¬ (p + c_small_hash_dist < sha_buf_size) := by omega
      rw [if_neg hpl, if_neg this]

theorem ZeroInv_start : ZeroInv (SView.start true) 0 := by
  refine ⟨rfl, rfl, rfl, rfl, rfl, ?_⟩
  rw [if_pos (by rw [sha_buf_size_eq]; omega)]
  rfl

/-- A run without I/O error on a file of `k >= 1` windows of zero bytes, with
`ret_sha2` and without extent iterator: the string returned, and the contexts at the
return. -/
theorem zero_file_run (H : HashFns) (g0 : Globals) (fuel : Nat) (a : Args) (k : Nat)
    (hk : 1 ≤ k) (hF : a.f.data = List.replicate (k * sha_buf_size) 0)
    (hr : a.ret_sha2 = true) (hno : a.extent_iterator = none)
    (hid : a.hashoutput.ideal) (ret : List Byte) (st : State)
    (hrun : build_chunk_hashs H (init_chunk_hasher H g0) fuel a = some (ret, st))
    (hret : ret ≠ []) :
    ret = H.sha (H.sha (i64_bytes 0 ++ i64_bytes ((k * sha_buf_size : Nat) : Int)))
      ∧ st.ctx = H.sha (i64_bytes 0 ++ i64_bytes ((k * sha_buf_size : Nat) : Int))
      ∧ st.extent_ctx = i64_bytes 0 ++ i64_bytes ((k * sha_buf_size : Nat) : Int)
      ∧ st.has_sparse_extent = true := by
  have hlen : a.f.data.length = k * sha_buf_size := by rw [hF, List.length_replicate]
  obtain ⟨v, p, hP, hge, hd, hsv⟩ := build_chunk_hashs_digest H _ fuel a ret st
    (template_fits H g0) hid ZeroInv
    (by
      intro v p hP hlt hdv
      rw [hlen] at hlt ⊢
      rw [hF]
      exact ZeroInv_step k v p hP hlt hdv)
    (by
      intro v p _ _ hex
      rw [hno] at hex
      obtain ⟨e, he, _⟩ := hex
      exact absurd he (List.not_mem_nil e))
    (by rw [hr]; exact ZeroInv_start) hrun hret
  obtain ⟨h1, h2, h3, h4, h5, h6⟩ := hP
  rw [hlen] at hge hd hsv
  have hpW : ¬ (p < sha_buf_size) := by
    rw [sha_buf_size_eq] at hge ⊢; omega
  rw [if_neg hpW] at h6
  have hcl : v.close_last (k * sha_buf_size)
      = { v with has_sparse_extent := true,
                 extent_ctx := add_extent v.extent_ctx v.sparse_extent_start
                                 (((k * sha_buf_size : Nat) : Int) - v.sparse_extent_start),
                 sparse_extent_start := -1 } := by
    unfold SView.close_last
    rw [if_pos (by rw [h6]; decide)]
  have hext : add_extent v.extent_ctx v.sparse_extent_start
      (((k * sha_buf_size : Nat) : Int) - v.sparse_extent_start)
      = i64_bytes 0 ++ i64_bytes ((k * sha_buf_size : Nat) : Int) := by
    rw [h3, h6, Int.sub_zero]
    rfl
  rw [hcl, hext] at hd hsv
  have hfin : SView.finish H
      { v with has_sparse_extent := true,
               extent_ctx := i64_bytes 0 ++ i64_bytes ((k * sha_buf_size : Nat) : Int),
               sparse_extent_start := -1 }
      = { v with has_sparse_extent := true,
                 extent_ctx := i64_bytes 0 ++ i64_bytes ((k * sha_buf_size : Nat) : Int),
                 sparse_extent_start := -1,
                 ctx := v.ctx ++ H.sha (i64_bytes 0 ++ i64_bytes ((k * sha_buf_size : Nat) : Int)) } := by
    unfold SView.finish
    rw [if_pos (show v.ret_sha2 = true from h1), if_pos rfl]
  rw [hfin] at hsv
  refine ⟨?_, ?_, ?_, ?_⟩
  · rw [hd]
    unfold SView.digest
    rw [if_pos (show v.ret_sha2 = true from h1), if_pos rfl]
    show H.sha (v.ctx ++ _) = _
    rw [h2, List.nil_append]
  · have := congrArg SView.ctx hsv
    rw [show st.ctx = st.sview.ctx from rfl, this]
    show v.ctx ++ _ = _
    rw [h2, List.nil_append]
  · have := congrArg SView.extent_ctx hsv
    exact this
  · have := congrArg SView.has_sparse_extent hsv
    exact this

/-! ## The digest of a file without an all-zero window -/

theorem take_append_slice (F : List Byte) (a m : Nat) : F.take a ++ slice F a m = F.take (a + m) := by
  unfold slice
  rw [List.take_add]

theorem memcpy_take (B : List Byte) (off : Nat) (buf : List Byte) (h : off ≤ B.length) :
    (memcpy_at B off buf).take (off + buf.length) = B.take off ++ buf := by
  unfold memcpy_at
  rw [List.take_left']
  rw [List.length_append, List.length_take]; omega

theorem memcpy_length (B : List Byte) (off : Nat) (buf : List Byte)
    (h : off + buf.length ≤ B.length) : (memcpy_at B off buf).length = B.length := by
  unfold memcpy_at
  rw [List.length_append, List.length_append, List.length_take, List.length_drop]
  omega

theorem buf_is_zero_eq (b : List Byte) (h : buf_is_zero b = true) :
    b = List.replicate b.length 0 := by
  induction b with
  | nil => rfl
  | cons x xs ih =>
    rw [buf_is_zero] at h
    by_cases hx : x ≠ 0
    · rw [if_pos hx] at h
      exact absurd h (by decide)
    · rw [if_neg hx] at h
      have hx0 : x = 0 := by
        by_contra hne
        exact hx hne
      rw [List.length_cons, List.replicate_succ, hx0, ← ih h]

theorem close_run_closed (v : SView) (p : Nat) (h : v.sparse_extent_start = -1) :
    v.close_run p = v := by
  unfold SView.close_run
  rw [if_neg (by rw [h]; decide)]

/-- One small chunk of a file without an all-zero window keeps `FedInv`. -/
theorem FedInv_step (F : List Byte)
    (hnz : ∀ w, (w + 1) * sha_buf_size ≤ F.length →
      slice F (w * sha_buf_size) sha_buf_size ≠ List.replicate sha_buf_size 0)
    (v : SView) (p : Nat) (hP : FedInv F v p)
    (hlt : p < F.length) (hd : c_small_hash_dist ∣ p) :
    FedInv F (v.window p F.length (slice F p c_small_hash_dist)) (p + c_small_hash_dist) := by
  obtain ⟨hr, he, hh, hs, hbl, h1, _⟩ := hP
  obtain ⟨hctx, hbuf⟩ := h1 hlt
  obtain ⟨q, hq⟩ := hd
  have hS := c_small_hash_dist_eq
  have hW := sha_buf_size_eq
  have hq2 : p = 512 * q := by rw [hq, hS]
  have hrl : (slice F p c_small_hash_dist).length = min 512 (F.length - p) := by
    rw [slice_length, hS]
  have hpw : p / sha_buf_size * sha_buf_size + p % sha_buf_size = p := Nat.div_add_mod' p _
  have hoff512 : p % sha_buf_size + 512 ≤ sha_buf_size := by rw [hW]; omega
  have hoffr : p % sha_buf_size + (slice F p c_small_hash_dist).length ≤ v.sha_buf.length := by
    rw [hrl, hbl]; omega
  have hofflt : p % sha_buf_size ≤ v.sha_buf.length := by omega
  have hBlen : (memcpy_at v.sha_buf (p % sha_buf_size) (slice F p c_small_hash_dist)).length
      = sha_buf_size := by
    rw [memcpy_length _ _ _ hoffr, hbl]
  have hBtake : (memcpy_at v.sha_buf (p % sha_buf_size) (slice F p c_small_hash_dist)).take
        (p % sha_buf_size + (slice F p c_small_hash_dist).length)
      = slice F (p / sha_buf_size * sha_buf_size) (p % sha_buf_size + c_small_hash_dist) := by
    rw [memcpy_take _ _ _ hofflt, hbuf, ← slice_append]
    rw [hpw]
  have hcr : SView.close_run
      { v with sha_buf := memcpy_at v.sha_buf (p % sha_buf_size) (slice F p c_small_hash_dist) } p
      = { v with sha_buf := memcpy_at v.sha_buf (p % sha_buf_size)
                              (slice F p c_small_hash_dist) } :=
    close_run_closed _ _ hs
  unfold SView.window
  rw [if_pos hr, hbl]
  by_cases hA : (p + (slice F p c_small_hash_dist).length) % sha_buf_size = 0
  · -- the window is complete
    rw [if_pos hA]
    have hr512 : (slice F p c_small_hash_dist).length = 512 := by
      rw [hrl] at hA ⊢; rw [hW] at hA; omega
    have hoffW : p % sha_buf_size + 512 = sha_buf_size := by
      rw [hr512, hW] at hA; rw [hW]; omega
    have hple : p + 512 ≤ F.length := by rw [hrl] at hr512; omega
    have hwin : memcpy_at v.sha_buf (p % sha_buf_size) (slice F p c_small_hash_dist)
        = slice F (p / sha_buf_size * sha_buf_size) sha_buf_size := by
      have e1 : p % sha_buf_size + (slice F p c_small_hash_dist).length = sha_buf_size := by
        rw [hr512]; exact hoffW
      have e2 : p % sha_buf_size + c_small_hash_dist = sha_buf_size := by
        rw [hS]; exact hoffW
      have := hBtake
      rw [e1, e2] at this
      rw [← this, List.take_of_length_le (by rw [hBlen])]
    have hnot : ¬ buf_is_zero
        (memcpy_at v.sha_buf (p % sha_buf_size) (slice F p c_small_hash_dist)) = true := by
      intro hz
      have hz2 := buf_is_zero_eq _ hz
      rw [hBlen, hwin] at hz2
      exact hnz (p / sha_buf_size) (by rw [Nat.add_mul, Nat.one_mul]; omega) hz2
    rw [if_neg hnot, hcr]
    have hnext : (p + c_small_hash_dist) / sha_buf_size * sha_buf_size = p + c_small_hash_dist
        ∧ (p + c_small_hash_dist) % sha_buf_size = 0 := by
      rw [hS, hW]; rw [hW] at hoffW; omega
    have hfed : v.ctx ++ (memcpy_at v.sha_buf (p % sha_buf_size)
          (slice F p c_small_hash_dist)).take sha_buf_size
        = F.take (p + c_small_hash_dist) := by
      rw [hwin, List.take_of_length_le (by rw [slice_length]; omega), hctx, take_append_slice]
      congr 1
      rw [hS]; omega
    refine ⟨hr, he, hh, hs, hBlen, ?_, ?_⟩
    · intro _
      rw [hnext.1, hnext.2]
      exact ⟨hfed, rfl⟩
    · intro hge
      show v.ctx ++ _ = F
      rw [hfed]
      exact List.take_of_length_le hge
  · rw [if_neg hA]
    by_cases hB : (slice F p c_small_hash_dist).length < c_small_hash_dist
        ∨ p + (slice F p c_small_hash_dist).length = F.length
    · -- the last small chunk of the file
      rw [if_pos hB, hcr]
      have hend : p + (slice F p c_small_hash_dist).length = F.length := by
        rw [hrl, hS] at hB; rw [hrl]; omega
      have hfed : v.ctx ++ (memcpy_at v.sha_buf (p % sha_buf_size)
            (slice F p c_small_hash_dist)).take
              (p % sha_buf_size + (slice F p c_small_hash_dist).length) = F := by
        rw [hBtake, hctx, take_append_slice]
        apply List.take_of_length_le
        rw [hrl] at hend
        rw [hS]; omega
      refine ⟨hr, he, hh, hs, hBlen, ?_, ?_⟩
      · intro hcon
        rw [hrl] at hend
        rw [hS] at hcon
        omega
      · intro _
        exact hfed
    · -- inside a window
      rw [if_neg hB]
      have hr512 : (slice F p c_small_hash_dist).length = 512 := by
        rw [hrl, hS] at hB; rw [hrl]; omega
      have hlt2 : p + 512 < F.length := by
        rw [hr512] at hB; rw [hrl] at hr512; omega
      have hnext : (p + c_small_hash_dist) / sha_buf_size * sha_buf_size
            = p / sha_buf_size * sha_buf_size
          ∧ (p + c_small_hash_dist) % sha_buf_size = p % sha_buf_size + c_small_hash_dist := by
        rw [hr512, hW] at hA
        rw [hS, hW]; rw [hW] at hoff512; omega
      refine ⟨hr, he, hh, hs, hBlen, ?_, ?_⟩
      · intro _
        rw [hnext.1, hnext.2]
        refine ⟨hctx, ?_⟩
        have e1 : p % sha_buf_size + (slice F p c_small_hash_dist).length
            = p % sha_buf_size + c_small_hash_dist := by
          rw [hr512, hS]
        have := hBtake
        rw [e1] at this
        exact this
      · intro hcon
        rw [hS] at hcon
        omega

theorem FedInv_start (F : List Byte) : FedInv F (SView.start true) 0 := by
  refine ⟨rfl, rfl, rfl, rfl, ?_, ?_, ?_⟩
  · show (List.replicate sha_buf_size (0 : Byte)).length = sha_buf_size
    exact List.length_replicate _ _
  · intro _
    rw [Nat.zero_div, Nat.zero_mul, Nat.zero_mod]
    exact ⟨rfl, rfl⟩
  · intro h
    have : F = [] := List.length_eq_zero.mp (Nat.le_zero.mp h)
    rw [this]
    rfl

/-- A run without I/O error on a file without an all-zero window, with `ret_sha2` and
without known-sparse extents: the string returned, and the contexts at the return. -/
theorem fed_file_run (H : HashFns) (g0 : Globals) (fuel : Nat) (a : Args)
    (hr : a.ret_sha2 = true) (hno : a.extent_iterator.getD [] = [])
    (hnz : ∀ w, (w + 1) * sha_buf_size ≤ a.f.data.length →
      slice a.f.data (w * sha_buf_size) sha_buf_size ≠ List.replicate sha_buf_size 0)
    (hid : a.hashoutput.ideal) (ret : List Byte) (st : State)
    (hrun : build_chunk_hashs H (init_chunk_hasher H g0) fuel a = some (ret, st))
    (hret : ret ≠ []) :
    ret = H.sha a.f.data ∧ st.ctx = a.f.data ∧ st.extent_ctx = []
      ∧ st.has_sparse_extent = false := by
  obtain ⟨v, p, hP, hge, hd, hsv⟩ := build_chunk_hashs_digest H _ fuel a ret st
    (template_fits H g0) hid (FedInv a.f.data)
    (FedInv_step a.f.data hnz)
    (by
      intro v p _ _ hex
      rw [hno] at hex
      obtain ⟨e, he, _⟩ := hex
      exact absurd he (List.not_mem_nil e))
    (by rw [hr]; exact FedInv_start _) hrun hret
  obtain ⟨h1, h2, h3, h4, _, _, h7⟩ := hP
  have hctx := h7 hge
  have hcl : v.close_last a.f.data.length = v := by
    unfold SView.close_last
    rw [if_neg (by rw [h4]; decide)]
  rw [hcl] at hd hsv
  have hfin : SView.finish H v = v := by
    unfold SView.finish
    rw [if_pos h1, if_neg (by rw [h3]; decide)]
  rw [hfin] at hsv
  refine ⟨?_, ?_, ?_, ?_⟩
  · rw [hd]
    unfold SView.digest
    rw [if_pos h1, if_neg (by rw [h3]; decide), hctx]
  · have := congrArg SView.ctx hsv
    rw [show st.ctx = st.sview.ctx from rfl, this, hctx]
  · have := congrArg SView.extent_ctx hsv
    rw [show st.extent_ctx = st.sview.extent_ctx from rfl, this, h2]
  · have := congrArg SView.has_sparse_extent hsv
    rw [show st.has_sparse_extent = st.sview.has_sparse_extent from rfl, this, h3]

/-! ## The whole-file digest of a run -/

theorem RunInv_window (v : SView) (p n : Nat) (buf : List Byte)
    (h : v.ret_sha2 = true ∧ RunInv v p) :
    (v.window p n buf).ret_sha2 = true ∧ RunInv (v.window p n buf) (p + c_small_hash_dist) := by
  obtain ⟨hr, hI⟩ := h
  have hcl : ∀ (w : SView) (hw : w.ret_sha2 = true) (hwI : w.has_sparse_extent = false → w.extent_ctx = [])
      (m : Nat),
      ((w.close_run p).feed m).ret_sha2 = true
        ∧ (((w.close_run p).feed m).has_sparse_extent = false
            → ((w.close_run p).feed m).extent_ctx = []) := by
    intro w hw hwI m
    unfold SView.close_run
    by_cases hs : w.sparse_extent_start ≠ -1
    · rw [if_pos hs]
      exact ⟨hw, fun hc => Bool.noConfusion (hc : true = false)⟩
    · rw [if_neg hs]
      exact ⟨hw, hwI⟩
  unfold SView.window
  rw [if_pos hr]
  split
  · split
    · unfold SView.open_run
      split
      · exact ⟨hr, hI⟩
      · exact ⟨hr, hI⟩
    · exact hcl { v with sha_buf := memcpy_at v.sha_buf (p % v.sha_buf.length) buf } hr hI _
  · split
    · exact hcl { v with sha_buf := memcpy_at v.sha_buf (p % v.sha_buf.length) buf } hr hI _
    · exact ⟨hr, hI⟩

theorem RunInv_known_sparse (v : SView) (p : Nat) (h : v.ret_sha2 = true ∧ RunInv v p) :
    (v.known_sparse p).ret_sha2 = true ∧ RunInv (v.known_sparse p) (p + c_checkpoint_dist) := by
  unfold SView.known_sparse
  split
  · exact ⟨h.1, h.2⟩
  · exact ⟨h.1, h.2⟩

/-- The string that a run with `ret_sha2` returns is the digest of the bytes fed to
`ctx`, and the extent context is empty unless a sparse run was recorded. -/
theorem run_digest_form (H : HashFns) (g0 : Globals) (fuel : Nat) (a : Args)
    (hr : a.ret_sha2 = true) (hid : a.hashoutput.ideal) (ret : List Byte) (st : State)
    (hrun : build_chunk_hashs H (init_chunk_hasher H g0) fuel a = some (ret, st))
    (hret : ret ≠ []) :
    ret = H.sha st.ctx ∧ (st.has_sparse_extent = false → st.extent_ctx = []) := by
  obtain ⟨v, p, hP, _, hd, hsv⟩ := build_chunk_hashs_digest H _ fuel a ret st
    (template_fits H g0) hid (fun v p => v.ret_sha2 = true ∧ RunInv v p)
    (fun v p hP _ _ => RunInv_window v p _ _ hP)
    (fun v p hP _ _ => RunInv_known_sparse v p hP)
    (by rw [hr]; exact ⟨rfl, fun _ => rfl⟩) hrun hret
  obtain ⟨h1, h2⟩ := hP
  have hc1 : (v.close_last a.f.data.length).ret_sha2 = true := by
    unfold SView.close_last
    split
    · exact h1
    · exact h1
  have hc2 : (v.close_last a.f.data.length).has_sparse_extent = false
      → (v.close_last a.f.data.length).extent_ctx = [] := by
    unfold SView.close_last
    split
    · intro hc; exact Bool.noConfusion (hc : true = false)
    · exact h2
  generalize v.close_last a.f.data.length = w at hd hsv hc1 hc2
  have e1 : st.ctx = (w.finish H).ctx := congrArg SView.ctx hsv
  have e2 : st.extent_ctx = (w.finish H).extent_ctx := congrArg SView.extent_ctx hsv
  have e3 : st.has_sparse_extent = (w.finish H).has_sparse_extent :=
    congrArg SView.has_sparse_extent hsv
  rw [e1, e2, e3, hd]
  unfold SView.digest SView.finish
  rw [if_pos hc1, if_pos hc1]
  by_cases hh : w.has_sparse_extent = true
  · rw [if_pos hh, if_pos hh]
    exact ⟨rfl, fun hc => absurd (hh.symm.trans hc) (by decide)⟩
  · rw [if_neg hh, if_neg hh]
    exact ⟨rfl, hc2⟩

/-- C7: for a file without known-sparse extents in which no aligned full 32 KiB
window is all zero, a run of `build_chunk_hashs` with `ret_sha2` and without I/O
error returns the digest of the whole content: `ctx` has then received exactly the
bytes of the file in order, no sparse run was recorded and no extent digest was
appended; a run without faults returns for every fuel above `fsize + N + 1`. -/
theorem C7_plain_digest (H : HashFns) (g0 : Globals) (fuel : Nat) (a : Args)
    (hr : a.ret_sha2 = true) (hno : a.extent_iterator.getD [] = [])
    (hnz : ∀ w, (w + 1) * sha_buf_size ≤ a.f.data.length →
      slice a.f.data (w * sha_buf_size) sha_buf_size ≠ List.replicate sha_buf_size 0)
    (hid : a.hashoutput.ideal) :
    (a.fault_free → a.f.data.length + n_chunks + 1 < fuel →
        ∃ st, build_chunk_hashs H (init_chunk_hasher H g0) fuel a = some (H.sha a.f.data, st))
      ∧ ∀ (ret : List Byte) (st : State),
          build_chunk_hashs H (init_chunk_hasher H g0) fuel a = some (ret, st) → ret ≠ [] →
          ret = H.sha a.f.data ∧ st.ctx = a.f.data ∧ st.extent_ctx = []
            ∧ st.has_sparse_extent = false := by
  have hpart := fed_file_run H g0 fuel a hr hno hnz hid
  refine ⟨?_, hpart⟩
  intro hff hfuel
  obtain ⟨ret, st, hrun, hret⟩ := build_chunk_hashs_terminates H _ fuel a
    (template_fits H g0) hff hfuel
  have h := (hpart ret st hrun hret).1
  rw [h] at hrun
  exact ⟨st, hrun⟩

/-- Witness of C7: the run on the one-byte file `A` returns the digest of `A`. -/
theorem C7_plain_digest_witness :
    ∃ st, build_chunk_hashs demo_digests (init_chunk_hasher demo_digests ⟨[]⟩) 1100
        (plain_args [65] true) = some (demo_digests.sha [65], st) :=
  (C7_plain_digest demo_digests ⟨[]⟩ 1100 (plain_args [65] true) rfl rfl
    (by
      intro w hw
      have h1 : (plain_args [65] true).f.data.length = 1 := rfl
      rw [h1, sha_buf_size_eq] at hw
      omega)
    (fun _ _ => rfl)).1 (plain_args_fault_free _ _)
    (by
      have h1 : (plain_args [65] true).f.data.length = 1 := rfl
      rw [h1, n_chunks_eq]; omega)

/-- C8: for a file of `n = k * 32 KiB` zero bytes (`k >= 1`), a run of
`build_chunk_hashs` with `ret_sha2`, without extent iterator and without I/O error
returns `SHA(SHA(E))` for the 16-byte extent record `E` of offset 0 and length `n`:
`ctx` has received nothing but the digest of `E`, and `E` is all that the extent
context received; a run without faults returns for every fuel above
`fsize + N + 1`. -/
theorem C8_zero_file_digest (H : HashFns) (g0 : Globals) (fuel : Nat) (a : Args) (k : Nat)
    (hk : 1 ≤ k) (hF : a.f.data = List.replicate (k * sha_buf_size) 0)
    (hr : a.ret_sha2 = true) (hno : a.extent_iterator = none)
    (hid : a.hashoutput.ideal) :
    (a.fault_free → a.f.data.length + n_chunks + 1 < fuel →
        ∃ st, build_chunk_hashs H (init_chunk_hasher H g0) fuel a
          = some (H.sha (H.sha (i64_bytes 0 ++ i64_bytes ((k * sha_buf_size : Nat) : Int))), st))
      ∧ (i64_bytes 0 ++ i64_bytes ((k * sha_buf_size : Nat) : Int)).length = 16
      ∧ ∀ (ret : List Byte) (st : State),
          build_chunk_hashs H (init_chunk_hasher H g0) fuel a = some (ret, st) → ret ≠ [] →
          ret = H.sha (H.sha (i64_bytes 0 ++ i64_bytes ((k * sha_buf_size : Nat) : Int)))
            ∧ st.ctx = H.sha (i64_bytes 0 ++ i64_bytes ((k * sha_buf_size : Nat) : Int))
            ∧ st.extent_ctx = i64_bytes 0 ++ i64_bytes ((k * sha_buf_size : Nat) : Int)
            ∧ st.has_sparse_extent = true := by
  have hpart := zero_file_run H g0 fuel a k hk hF hr hno hid
  refine ⟨?_, ?_, hpart⟩
  · intro hff hfuel
    obtain ⟨ret, st, hrun, hret⟩ := build_chunk_hashs_terminates H _ fuel a
      (template_fits H g0) hff hfuel
    have h := (hpart ret st hrun hret).1
    rw [h] at hrun
    exact ⟨st, hrun⟩
  · rw [List.length_append, i64_bytes_length, i64_bytes_length]

/-- Witness of C8: the run on the file of 1 MiB (32 windows) of zero bytes. -/
theorem C8_zero_file_digest_witness :
    ∃ st, build_chunk_hashs demo_digests (init_chunk_hasher demo_digests ⟨[]⟩) 1049602
        (plain_args (List.replicate (32 * sha_buf_size) 0) true)
      = some (demo_digests.sha (demo_digests.sha
          (i64_bytes 0 ++ i64_bytes ((32 * sha_buf_size : Nat) : Int))), st) :=
  (C8_zero_file_digest demo_digests ⟨[]⟩ 1049602
    (plain_args (List.replicate (32 * sha_buf_size) 0) true) 32 (by decide) rfl rfl rfl
    (fun _ _ => rfl)).1 (plain_args_fault_free _ _)
    (by
      have h1 : (plain_args (List.replicate (32 * sha_buf_size) 0) true).f.data.length
          = 32 * sha_buf_size := List.length_replicate _ _
      rw [h1, n_chunks_eq, sha_buf_size_eq]; omega)

/-! ## Bytes of the replica -/

theorem getD_append_lt (l1 l2 : List Byte) (o : Nat) (h : o < l1.length) :
    (l1 ++ l2).getD o 0 = l1.getD o 0 := by
  rw [List.getD_eq_getElem?_getD, List.getD_eq_getElem?_getD, List.getElem?_append_left h]

theorem getD_append_ge (l1 l2 : List Byte) (o : Nat) (h : l1.length ≤ o) :
    (l1 ++ l2).getD o 0 = l2.getD (o - l1.length) 0 := by
  rw [List.getD_eq_getElem?_getD, List.getD_eq_getElem?_getD, List.getElem?_append_right h]

theorem getD_take_lt (l : List Byte) (n o : Nat) (h : o < n) : (l.take n).getD o 0 = l.getD o 0 := by
  rw [List.getD_eq_getElem?_getD, List.getD_eq_getElem?_getD, List.getElem?_take_of_lt h]

theorem getD_drop (l : List Byte) (n o : Nat) : (l.drop n).getD o 0 = l.getD (n + o) 0 := by
  rw [List.getD_eq_getElem?_getD, List.getD_eq_getElem?_getD, List.getElem?_drop]

theorem getD_replicate_zero (n o : Nat) : (List.replicate n (0 : Byte)).getD o 0 = 0 := by
  rw [List.getD_eq_getElem?_getD, List.getElem?_replicate]
  split <;> rfl

theorem getD_ge (l : List Byte) (o : Nat) (h : l.length ≤ o) : l.getD o 0 = 0 := by
  rw [List.getD_eq_getElem?_getD, List.getElem?_eq_none h]
  rfl

/-- The bytes of a file after a write. -/
theorem write_at_getD (d : List Byte) (q : Nat) (b : List Byte) (o : Nat) :
    (write_at d q b).getD o 0
      = if o < q then d.getD o 0 else if o < q + b.length then b.getD (o - q) 0 else d.getD o 0 := by
  unfold write_at
  have hl1 : (d.take q ++ List.replicate (q - d.length) 0).length = q := by
    rw [List.length_append, List.length_take, List.length_replicate]; omega
  by_cases h1 : o < q
  · rw [if_pos h1, List.append_assoc, List.append_assoc]
    by_cases h2 : o < d.length
    · rw [getD_append_lt _ _ _ (by rw [List.length_take]; omega), getD_take_lt _ _ _ h1]
    · rw [getD_append_ge _ _ _ (by rw [List.length_take]; omega), List.length_take,
        getD_append_lt _ _ _ (by rw [List.length_replicate]; omega), getD_replicate_zero,
        getD_ge _ _ (by omega)]
  · rw [if_neg h1]
    by_cases h2 : o < q + b.length
    · rw [if_pos h2, getD_append_lt _ _ _ (by rw [List.length_append, hl1]; omega),
        getD_append_ge _ _ _ (by rw [hl1]; omega), hl1]
    · rw [if_neg h2, getD_append_ge _ _ _ (by rw [List.length_append, hl1]; omega),
        List.length_append, hl1, getD_drop]
      congr 1
      omega

theorem zero_range_length (d : List Byte) (off size : Nat) :
    (zero_range d off size).length = d.length := by
  unfold zero_range
  rw [List.length_append, List.length_append, List.length_take, List.length_replicate,
    List.length_drop]
  omega

theorem zero_range_getD (d : List Byte) (off size o : Nat) :
    (zero_range d off size).getD o 0
      = if off ≤ o ∧ o < off + size then 0 else d.getD o 0 := by
  unfold zero_range
  by_cases h0 : o < d.length
  · by_cases h1 : o < off
    · rw [if_neg (by omega), List.append_assoc,
        getD_append_lt _ _ _ (by rw [List.length_take]; omega), getD_take_lt _ _ _ h1]
    · by_cases h2 : o < off + size
      · rw [if_pos ⟨by omega, h2⟩,
          getD_append_lt _ _ _ (by
            rw [List.length_append, List.length_take, List.length_replicate]; omega),
          getD_append_ge _ _ _ (by rw [List.length_take]; omega), getD_replicate_zero]
      · rw [if_neg (by omega),
          getD_append_ge _ _ _ (by
            rw [List.length_append, List.length_take, List.length_replicate]; omega),
          getD_drop]
        congr 1
        rw [List.length_append, List.length_take, List.length_replicate]
        omega
  · have hz : (List.take off d ++ List.replicate (min size (d.length - off)) 0
        ++ List.drop (off + size) d).length = d.length := zero_range_length d off size
    rw [getD_ge _ _ (by rw [hz]; omega), getD_ge _ _ (by omega)]
    split <;> rfl

theorem slice_getD (F : List Byte) (a m k : Nat) (h : k < (slice F a m).length) :
    (slice F a m).getD k 0 = F.getD (a + k) 0 := by
  rw [List.getD_eq_getElem _ _ h]
  exact slice_getElem F a m k h

theorem Ext_refl (F : List Byte) (c : IFile) (wm : Int) : Ext F c wm c wm := fun _ h => h

theorem Ext_trans (F : List Byte) (c1 c2 c3 : IFile) (w1 w2 w3 : Int)
    (h1 : Ext F c1 w1 c2 w2) (h2 : Ext F c2 w2 c3 w3) : Ext F c1 w1 c3 w3 :=
  fun o h => h2 o (h1 o h)

theorem Agree_congr (F : List Byte) (c c2 : IFile) (wm : Int) (o : Nat)
    (hd : c2.data = c.data) (h : Agree F c wm o) : Agree F c2 wm o := by
  unfold Agree at h ⊢
  rw [hd]
  exact h

theorem Agree_mono (F : List Byte) (c : IFile) (wm wm2 : Int) (o : Nat) (hw : wm ≤ wm2)
    (h : Agree F c wm o) : Agree F c wm2 o := by
  rcases h with h | ⟨h1, h2, h3⟩
  · exact Or.inl h
  · exact Or.inr ⟨h1, by omega, h3⟩

/-- A write of bytes of `F` at their offset keeps every byte that the replica
holds. -/
theorem Agree_write (F : List Byte) (c c2 : IFile) (wm : Int) (q m : Nat)
    (hd : c2.data = write_at c.data q (slice F q m)) : Ext F c wm c2 wm := by
  intro o h
  unfold Agree at h ⊢
  rw [hd, write_at_length, write_at_getD]
  by_cases h1 : o < q
  · rw [if_pos h1]
    rcases h with ⟨ha, hb⟩ | ⟨ha, hb, hc⟩
    · exact Or.inl ⟨by omega, hb⟩
    · by_cases h2 : o < q + (slice F q m).length
      · exact Or.inl ⟨by omega, by rw [getD_ge _ _ ha, hc]⟩
      · by_cases h3 : (slice F q m).length = 0
        · exact Or.inr ⟨by omega, hb, hc⟩
        · exact Or.inl ⟨by omega, by rw [getD_ge _ _ ha, hc]⟩
  · rw [if_neg h1]
    by_cases h2 : o < q + (slice F q m).length
    · rw [if_pos h2]
      refine Or.inl ⟨by omega, ?_⟩
      rw [slice_getD _ _ _ _ (by omega)]
      congr 1
      omega
    · rw [if_neg h2]
      rcases h with ⟨ha, hb⟩ | ⟨ha, hb, hc⟩
      · exact Or.inl ⟨by omega, hb⟩
      · exact Or.inr ⟨by omega, hb, hc⟩

/-- The bytes of `F` that a write has stored are in the replica. -/
theorem Agree_written (F : List Byte) (c c2 : IFile) (wm : Int) (q m o : Nat)
    (hd : c2.data = write_at c.data q (slice F q m))
    (h1 : q ≤ o) (h2 : o < q + (slice F q m).length) : Agree F c2 wm o := by
  unfold Agree
  rw [hd, write_at_length, write_at_getD, if_neg (by omega), if_pos h2]
  refine Or.inl ⟨by omega, ?_⟩
  rw [slice_getD _ _ _ _ (by omega)]
  congr 1
  omega

/-- The bytes of `F` that the replica was found to hold already. -/
theorem Agree_equal (F : List Byte) (c : IFile) (wm : Int) (q m o : Nat)
    (hd : slice c.data q m = slice F q m)
    (h1 : q ≤ o) (h2 : o < q + (slice F q m).length) : Agree F c wm o := by
  have hl : (slice c.data q m).length = (slice F q m).length := by rw [hd]
  have hk : o - q < (slice c.data q m).length := by omega
  have e1 := slice_getD c.data q m (o - q) hk
  have e2 := slice_getD F q m (o - q) (by omega)
  rw [hd, e2] at e1
  have e3 : q + (o - q) = o := by omega
  rw [e3] at e1
  rw [slice_length] at hk
  exact Or.inl ⟨by omega, e1.symm⟩

/-- A hole punched over a range in which `F` is zero keeps every byte that the
replica holds. -/
theorem Agree_punch (F : List Byte) (c c2 : IFile) (wm : Int) (off size : Nat)
    (hd : c2.data = zero_range c.data off size)
    (hz : ∀ o, off ≤ o → o < off + size → F.getD o 0 = 0) : Ext F c wm c2 wm := by
  intro o h
  unfold Agree at h ⊢
  rw [hd, zero_range_length, zero_range_getD]
  by_cases hr : off ≤ o ∧ o < off + size
  · rw [if_pos hr]
    rcases h with ⟨ha, _⟩ | ⟨ha, hb, hc⟩
    · exact Or.inl ⟨ha, (hz o hr.1 hr.2).symm⟩
    · exact Or.inr ⟨ha, hb, hc⟩
  · rw [if_neg hr]
    exact h

/-- The range of a punched hole agrees with `F` where `F` is zero, up to the
watermark. -/
theorem Agree_punched (F : List Byte) (c c2 : IFile) (wm : Int) (off size o : Nat)
    (hd : c2.data = zero_range c.data off size)
    (hz : ∀ o, off ≤ o → o < off + size → F.getD o 0 = 0)
    (h1 : off ≤ o) (h2 : o < off + size) (hw : ((off + size : Nat) : Int) ≤ wm) :
    Agree F c2 wm o := by
  unfold Agree
  rw [hd, zero_range_length, zero_range_getD, if_pos ⟨h1, h2⟩]
  by_cases hl : o < c.data.length
  · exact Or.inl ⟨hl, (hz o h1 h2).symm⟩
  · exact Or.inr ⟨by omega, by omega, hz o h1 h2⟩

/-- At the end of the run the replica is extended to the watermark: every byte that
the replica held in the sense of `Agree` is then in the file. -/
theorem Agree_resized (F : List Byte) (c : IFile) (wm : Int) (o : Nat)
    (h : Agree F c wm o) (hw : wm ≠ -1 ∧ wm > (c.data.length : Int)) :
    o < (c.Resize wm).2.data.length ∧ (c.Resize wm).2.data.getD o 0 = F.getD o 0 := by
  have hlen : (c.Resize wm).2.data.length = wm.toNat := by
    show (c.data.take wm.toNat ++ List.replicate (wm.toNat - c.data.length) 0).length = _
    rw [List.length_append, List.length_take, List.length_replicate]
    omega
  have hdat : (c.Resize wm).2.data
      = c.data.take wm.toNat ++ List.replicate (wm.toNat - c.data.length) 0 := rfl
  rw [hlen, hdat]
  rcases h with ⟨ha, hb⟩ | ⟨ha, hb, hc⟩
  · refine ⟨by omega, ?_⟩
    rw [getD_append_lt _ _ _ (by rw [List.length_take]; omega),
      getD_take_lt _ _ _ (by omega), hb]
  · refine ⟨by omega, ?_⟩
    rw [getD_append_ge _ _ _ (by rw [List.length_take]; omega), getD_replicate_zero, hc]

theorem Agree_unresized (F : List Byte) (c : IFile) (wm : Int) (o : Nat)
    (h : Agree F c wm o) (hw : ¬ (wm ≠ -1 ∧ wm > (c.data.length : Int))) :
    o < c.data.length ∧ c.data.getD o 0 = F.getD o 0 := by
  rcases h with h | ⟨ha, hb, _⟩
  · exact h
  · exfalso
    apply hw
    constructor
    · omega
    · omega

/-! ## Effect of the pieces of the loop body on the replica -/

theorem close_sparse_run_rview (st : State) : (close_sparse_run st).rview = st.rview := by
  unfold close_sparse_run
  split <;> rfl

theorem open_sparse_run_rview (st : State) : (open_sparse_run st).rview = st.rview := by
  unfold open_sparse_run
  split <;> rfl

theorem sha_window_rview (st : State) (buf : List Byte) :
    (sha_window st buf).rview = st.rview := by
  unfold sha_window
  simp only
  split
  · split
    · split
      · rw [open_sparse_run_rview]; rfl
      · show (close_sparse_run _).rview = _
        rw [close_sparse_run_rview]; rfl
    · split
      · show (close_sparse_run _).rview = _
        rw [close_sparse_run_rview]; rfl
      · rfl
  · rfl

theorem write_hashoutput_rview (st st' : State) (buf : List Byte) (ok : Bool)
    (h : write_hashoutput st buf = some (ok, st')) :
    st'.rview = st.rview ∧ st'.chunkidx = st.chunkidx := by
  unfold write_hashoutput at h
  split at h
  · simp at h
  · simp only [Option.some.injEq, Prod.mk.injEq] at h
    rw [← h.2]
    exact ⟨rfl, rfl⟩

theorem mark_copy_read_eof_rview (st : State) (r : Nat) :
    (mark_copy_read_eof st r).rview = st.rview := by
  unfold mark_copy_read_eof
  split <;> rfl

theorem add_inplace_written_rview (st : State) (r : Nat) :
    (add_inplace_written st r).rview = st.rview := by
  unfold add_inplace_written
  split <;> rfl

/-- The result of `rewrite_copy` with a replica without faults, as fields. -/
theorem rewrite_copy_effect (st st' : State) (c : IFile) (buf : List Byte) (r : Nat)
    (hc : c.ideal) (hb : buf ≠ [])
    (h : bump_copy_write_pos (rewrite_copy st c buf) r = some (Step.next st')) :
    st'.rstat = st.rstat ∧ st'.copy_write_pos = st.copy_write_pos + r
      ∧ st'.copy = some (({ c with cursor := st.copy_write_pos } : IFile).put buf) := by
  rw [rewrite_copy_bumped st c buf hc hb r st' h] at h
  simp only [bump_copy_write_pos, Option.some.injEq, Step.next.injEq] at h
  rw [← h]
  have hv := add_inplace_written_rview
    { st with copy := some (({ c with cursor := st.copy_write_pos } : IFile).put buf) } buf.length
  refine ⟨?_, ?_, ?_⟩
  · exact congrArg RView.stat hv
  · show (add_inplace_written _ _).copy_write_pos + r = _
    rw [show (add_inplace_written
      { st with copy := some (({ c with cursor := st.copy_write_pos } : IFile).put buf) }
      buf.length).copy_write_pos = st.copy_write_pos from congrArg RView.copy_write_pos hv]
  · exact congrArg RView.copy hv

/-- The result of the replica reconciliation in `modify_inplace` mode with a replica
without faults: the replica is left alone because the recorded small hash matched or
because it held the bytes already, or the bytes were written at `copy_write_pos`. -/
theorem reconcile_copy_effect (st st' : State) (buf sh : List Byte) (c : IFile)
    (hc : st.copy = some c) (hid : c.ideal) (hm : st.modify_inplace = true) (hb : buf ≠ [])
    (h : reconcile_copy st buf sh = some (Step.next st')) :
    st'.rstat = st.rstat ∧ st'.copy_write_pos = st.copy_write_pos + buf.length
      ∧ ∃ c2, st'.copy = some c2 ∧ c2.accept = c.accept ∧ c2.punch_ok = c.punch_ok
        ∧ ((c2.data = c.data
              ∧ ((∃ ch, st.chunk_hashes = some ch
                    ∧ sh = (ch.drop (big_hash_size + st.chunkidx * small_hash_size)).take 4)
                  ∨ slice c.data st.copy_write_pos c_small_hash_dist = buf))
            ∨ c2.data = write_at c.data st.copy_write_pos buf) := by
  unfold reconcile_copy at h
  rw [hc] at h
  simp only at h
  rw [if_pos hm] at h
  cases hch : st.chunk_hashes with
  | some ch =>
    rw [hch] at h
    simp only at h
    unfold reconcile_hashed at h
    simp only [IFile.Seek, IFile.Read] at h
    by_cases he : sh = (ch.drop (big_hash_size + st.chunkidx * small_hash_size)).take 4
    · rw [if_pos he] at h
      simp only [Option.some.injEq, Step.next.injEq] at h
      rw [← h]
      exact ⟨rfl, rfl, c, hc, rfl, rfl, Or.inl ⟨rfl, Or.inl ⟨ch, rfl, he⟩⟩⟩
    · rw [if_neg he] at h
      obtain ⟨e1, e2, e3⟩ := rewrite_copy_effect _ st' _ buf buf.length hid hb h
      have hv := mark_copy_read_eof_rview st
        (List.take c_small_hash_dist (List.drop st.copy_write_pos c.data)).length
      refine ⟨?_, ?_, _, e3, rfl, rfl, Or.inr ?_⟩
      · rw [e1]
        exact congrArg RView.stat hv
      · rw [e2]
        show (mark_copy_read_eof st _).copy_write_pos + _ = _
        rw [show (mark_copy_read_eof st _).copy_write_pos = st.copy_write_pos from
          congrArg RView.copy_write_pos hv]
      · show write_at c.data (mark_copy_read_eof st _).copy_write_pos buf = _
        rw [show (mark_copy_read_eof st _).copy_write_pos = st.copy_write_pos from
          congrArg RView.copy_write_pos hv]
  | none =>
    rw [hch] at h
    simp only at h
    unfold reconcile_compare at h
    simp only [IFile.Seek, IFile.Read] at h
    by_cases heof : st.copy_read_eof = true
    · rw [if_pos heof] at h
      obtain ⟨e1, e2, e3⟩ := rewrite_copy_effect _ st' _ buf buf.length hid hb h
      exact ⟨e1, e2, _, e3, rfl, rfl, Or.inr rfl⟩
    · rw [if_neg heof] at h
      split at h
      · obtain ⟨e1, e2, e3⟩ := rewrite_copy_effect _ st' _ buf buf.length hid hb h
        have hv := mark_copy_read_eof_rview
          { st with copy := some { c with cursor := st.copy_write_pos
              + (List.take c_small_hash_dist (List.drop st.copy_write_pos c.data)).length } }
          (List.take c_small_hash_dist (List.drop st.copy_write_pos c.data)).length
        refine ⟨?_, ?_, _, e3, rfl, rfl, Or.inr ?_⟩
        · rw [e1]
          exact congrArg RView.stat hv
        · rw [e2]
          show (mark_copy_read_eof _ _).copy_write_pos + _ = _
          rw [show (mark_copy_read_eof _ _).copy_write_pos = st.copy_write_pos from
            congrArg RView.copy_write_pos hv]
        · show write_at c.data (mark_copy_read_eof _ _).copy_write_pos buf = _
          rw [show (mark_copy_read_eof _ _).copy_write_pos = st.copy_write_pos from
            congrArg RView.copy_write_pos hv]
      · rename_i hcond
        simp only [Option.some.injEq, Step.next.injEq] at h
        have hv := mark_copy_read_eof_rview
          { st with copy := some { c with cursor := st.copy_write_pos
              + (List.take c_small_hash_dist (List.drop st.copy_write_pos c.data)).length } }
          (List.take c_small_hash_dist (List.drop st.copy_write_pos c.data)).length
        have heq : List.take c_small_hash_dist (List.drop st.copy_write_pos c.data) = buf := by
          by_contra hne
          exact hcond (Or.inr (Or.inr hne))
        rw [← h]
        refine ⟨congrArg RView.stat hv, ?_, _, congrArg RView.copy hv, rfl, rfl,
          Or.inl ⟨rfl, Or.inr heq⟩⟩
        show (mark_copy_read_eof _ _).copy_write_pos + _ = _
        rw [show (mark_copy_read_eof _ _).copy_write_pos = st.copy_write_pos from
          congrArg RView.copy_write_pos hv]

/-- The effect of the body of the small-chunk loop on the replica in `modify_inplace`
mode, for the bytes `buf` that the body has read. -/
theorem small_chunk_body_replica (H : HashFns) (st st' : State) (c : IFile)
    (hc : st.copy = some c) (hid : c.ideal) (hm : st.modify_inplace = true)
    (hcur : st.f.cursor < st.f.data.length)
    (h : small_chunk_body H st = some (Step.next st')) :
    st'.rstat = st.rstat
      ∧ st'.copy_write_pos = st.copy_write_pos + (st.f.Read c_small_hash_dist).1.length
      ∧ ∃ c2, st'.copy = some c2 ∧ c2.accept = c.accept ∧ c2.punch_ok = c.punch_ok
        ∧ ((c2.data = c.data
              ∧ ((∃ ch, st.chunk_hashes = some ch
                    ∧ le_bytes 4 (H.adler32 (st.f.Read c_small_hash_dist).1)
                        = (ch.drop (big_hash_size + st.chunkidx * small_hash_size)).take 4)
                  ∨ slice c.data st.copy_write_pos c_small_hash_dist
                      = (st.f.Read c_small_hash_dist).1))
            ∨ c2.data = write_at c.data st.copy_write_pos (st.f.Read c_small_hash_dist).1) := by
  have hb : (st.f.Read c_small_hash_dist).1 ≠ [] :=
    read_ne_nil _ _ (by rw [c_small_hash_dist_eq]; omega) hcur
  unfold small_chunk_body at h
  simp only at h
  split at h
  · simp at h
  · simp at h
  · rename_i s1 hw
    obtain ⟨e1, e2⟩ := write_hashoutput_rview _ _ _ _ hw
    have hv2 := sha_window_rview { s1 with hashoutputpos := s1.hashoutputpos + small_hash_size }
      (st.f.Read c_small_hash_dist).1
    have hh2 := sha_window_hview { s1 with hashoutputpos := s1.hashoutputpos + small_hash_size }
      (st.f.Read c_small_hash_dist).1
    have r1 : (sha_window { s1 with hashoutputpos := s1.hashoutputpos + small_hash_size }
        (st.f.Read c_small_hash_dist).1).rview = st.rview := by
      rw [hv2]
      show s1.rview = st.rview
      rw [e1]
      rfl
    have r2 : (sha_window { s1 with hashoutputpos := s1.hashoutputpos + small_hash_size }
        (st.f.Read c_small_hash_dist).1).chunkidx = st.chunkidx := by
      have := congrArg HView.chunkidx hh2
      rw [show (sha_window { s1 with hashoutputpos := s1.hashoutputpos + small_hash_size }
        (st.f.Read c_small_hash_dist).1).chunkidx = s1.chunkidx from this, e2]
    have q1 := congrArg RView.copy r1
    have q2 := congrArg RView.copy_write_pos r1
    have q3 := congrArg RView.stat r1
    have q4 : (sha_window { s1 with hashoutputpos := s1.hashoutputpos + small_hash_size }
        (st.f.Read c_small_hash_dist).1).chunk_hashes = st.chunk_hashes :=
      congrArg RStat.chunk_hashes q3
    have q5 : (sha_window { s1 with hashoutputpos := s1.hashoutputpos + small_hash_size }
        (st.f.Read c_small_hash_dist).1).modify_inplace = st.modify_inplace :=
      congrArg RStat.modify_inplace q3
    obtain ⟨a1, a2, c2, a3, a4, a5, a6⟩ := reconcile_copy_effect _ st' _ _ c
      (by rw [show (sha_window _ _).copy = (sha_window _ _).rview.copy from rfl, q1]; exact hc)
      hid (by rw [q5]; exact hm) hb h
    rw [show (sha_window { s1 with hashoutputpos := s1.hashoutputpos + small_hash_size }
        (st.f.Read c_small_hash_dist).1).copy_write_pos = st.copy_write_pos from q2] at a2 a6
    rw [q4, r2] at a6
    refine ⟨?_, a2, c2, a3, a4, a5, a6⟩
    rw [a1]
    exact q3

/-- The re-copy loop stores the bytes of `F` from the position of the loop up to
`epos` in the replica. -/
theorem recopy_loop_replica (F : List Byte) (wm : Int) (epos : Nat) :
    ∀ (fuel : Nat) (st st' : State) (c : IFile),
      st.f.data = F → st.fsize = F.length → st.f.cursor = min st.pos F.length →
      st.copy = some c → c.ideal →
      (st.pos < st.fsize → st.copy_write_pos = st.pos) →
      recopy_loop epos fuel st = some (Step.next st') →
      st'.rstat = st.rstat
        ∧ ∃ c2, st'.copy = some c2 ∧ c2.accept = c.accept ∧ c2.punch_ok = c.punch_ok
          ∧ Ext F c wm c2 wm
          ∧ (∀ o, st.pos ≤ o → o < epos → o < F.length → Agree F c2 wm o)
          ∧ (st'.pos < st'.fsize → st'.copy_write_pos = st'.pos) := by
  intro fuel
  induction fuel with
  | zero => intro st st' c _ _ _ _ _ _ h; simp [recopy_loop] at h
  | succ fuel ih =>
    intro st st' c hfd hfs hcur hc hid hcwp h
    rw [recopy_loop] at h
    by_cases hcond : st.pos < epos ∧ st.pos < st.fsize
    · rw [if_pos hcond, hc] at h
      simp only at h
      split at h
      · simp at h
      · simp at h
      · rename_i s hb
        have hposF : st.pos < st.f.data.length := by rw [hfd, ← hfs]; exact hcond.2
        have hbuf : (st.f.Read c_small_hash_dist).1 = slice F st.pos c_small_hash_dist := by
          rw [read_bytes st.f st.pos _ (by rw [hfd]; exact hcur) hposF, hfd]
        have hne : (st.f.Read c_small_hash_dist).1 ≠ [] :=
          read_ne_nil _ _ (by rw [c_small_hash_dist_eq]; omega)
            (by rw [hcur, hfd]; rw [hfd] at hposF; omega)
        have hv := recopy_body_hview st s c hb
        have hsf : s.f = (st.f.Read c_small_hash_dist).2 := congrArg HView.f hv
        have hsp : s.pos = st.pos := congrArg HView.pos hv
        have hss : s.fsize = st.fsize := congrArg HView.fsize hv
        unfold recopy_body at hb
        simp only at hb
        obtain ⟨e1, e2, e3⟩ := rewrite_copy_effect _ s c _ _ hid hne hb
        have e2' : s.copy_write_pos = st.copy_write_pos + (st.f.Read c_small_hash_dist).1.length :=
          e2
        have e3' : s.copy
            = some (({ c with cursor := st.copy_write_pos } : IFile).put
                (st.f.Read c_small_hash_dist).1) := e3
        have hl : (st.f.Read c_small_hash_dist).1.length = min 512 (F.length - st.pos) := by
          rw [hbuf, slice_length, c_small_hash_dist_eq]
        have hdat : (({ c with cursor := st.copy_write_pos } : IFile).put
              (st.f.Read c_small_hash_dist).1).data
            = write_at c.data st.pos (slice F st.pos c_small_hash_dist) := by
          show write_at c.data st.copy_write_pos _ = _
          rw [hcwp hcond.2, hbuf]
        obtain ⟨i1, c2, i2, i3, i4, i5, i6, i7⟩ := ih
          { s with pos := s.pos + c_small_hash_dist } st'
          (({ c with cursor := st.copy_write_pos } : IFile).put (st.f.Read c_small_hash_dist).1)
          (by show s.f.data = F
              rw [hsf]; exact hfd)
          (by show s.fsize = F.length
              rw [hss]; exact hfs)
          (by show s.f.cursor = min (s.pos + c_small_hash_dist) F.length
              rw [hsf, hsp]
              have := read_cursor st.f st.pos c_small_hash_dist (by rw [hfd]; exact hcur) hposF
              rw [hfd] at this
              exact this)
          e3' (fun k n => hid k n)
          (by show s.pos + c_small_hash_dist < s.fsize → s.copy_write_pos = s.pos + c_small_hash_dist
              intro hlt
              rw [e2', hcwp hcond.2, hsp, hl, c_small_hash_dist_eq]
              rw [hsp, hss, hfs, c_small_hash_dist_eq] at hlt
              omega)
          h
        refine ⟨?_, c2, i2, i3, i4, ?_, ?_, i7⟩
        · rw [i1]
          exact e1
        · exact Ext_trans F _ _ _ _ _ _ (Agree_write F c _ wm st.pos c_small_hash_dist hdat) i5
        · intro o h1 h2 h3
          by_cases ho : o < st.pos + c_small_hash_dist
          · apply i5
            apply Agree_written F c _ wm st.pos c_small_hash_dist o hdat h1
            rw [slice_length]
            rw [c_small_hash_dist_eq] at ho ⊢
            omega
          · apply i6 o _ h2 h3
            show s.pos + c_small_hash_dist ≤ o
            rw [hsp]; omega
    · rw [if_neg hcond] at h
      simp only [Option.some.injEq, Step.next.injEq] at h
      rw [← h]
      refine ⟨rfl, c, hc, rfl, rfl, Ext_refl F c wm, ?_, hcwp⟩
      intro o h1 h2 h3
      exfalso
      apply hcond
      rw [hfs]
      exact ⟨by omega, by omega⟩

theorem recopy_from_start_replica (F : List Byte) (wm : Int) (fuel : Nat) (st st' : State)
    (epos q : Nat) (c : IFile)
    (hfd : st.f.data = F) (hfs : st.fsize = F.length) (hq : q < st.fsize)
    (hc : st.copy = some c) (hid : c.ideal) (hstart : st.copy_write_pos_start = q)
    (h : recopy_loop epos fuel
          { st with copy_write_pos := st.copy_write_pos_start,
                    pos := q,
                    f := { st.f with cursor := q } } = some (Step.next st')) :
    st'.rstat = st.rstat
      ∧ ∃ c2, st'.copy = some c2 ∧ c2.accept = c.accept ∧ c2.punch_ok = c.punch_ok
        ∧ Ext F c wm c2 wm
        ∧ (∀ o, q ≤ o → o < epos → o < F.length → Agree F c2 wm o)
        ∧ (st'.pos < st'.fsize → st'.copy_write_pos = st'.pos) := by
  exact recopy_loop_replica F wm epos fuel
    { st with copy_write_pos := st.copy_write_pos_start,
              pos := q,
              f := { st.f with cursor := q } } st' c hfd hfs
    (by show q = min q F.length
        rw [← hfs]; omega)
    hc hid (fun _ => hstart) h

theorem recovery_fires_iff (H : HashFns) (st : State) :
    recovery_fires H st = true ↔
      ∃ c ch, st.copy = some c ∧ st.chunk_hashes = some ch ∧ st.modify_inplace = true
        ∧ H.md5 st.big_hash_copy_control ≠ ch.take big_hash_size := by
  unfold recovery_fires
  cases hc : st.copy with
  | none =>
    simp only
    constructor
    · intro h; exact absurd h (by decide)
    · rintro ⟨c, ch, e1, _⟩; exact absurd e1 (by simp)
  | some c =>
    cases hch : st.chunk_hashes with
    | none =>
      simp only
      constructor
      · intro h; exact absurd h (by decide)
      · rintro ⟨c, ch, _, e2, _⟩; exact absurd e2 (by simp)
    | some ch =>
      simp only [Bool.and_eq_true, decide_eq_true_eq]
      constructor
      · intro h; exact ⟨c, ch, rfl, rfl, h.1, h.2⟩
      · rintro ⟨c2, ch2, _, e2, e3, e4⟩
        simp only [Option.some.injEq] at e2
        rw [← e2] at e4
        exact ⟨e3, e4⟩

/-- The effect of the collision recovery on the replica: when it fires, the big chunk
that starts at `q` is in the replica afterwards. -/
theorem collision_recovery_replica (H : HashFns) (F : List Byte) (wm : Int) (fuel : Nat)
    (st st' : State) (epos q : Nat) (c : IFile)
    (hfd : st.f.data = F) (hfs : st.fsize = F.length) (hq : q < st.fsize)
    (hep : epos = q + c_checkpoint_dist)
    (hc : st.copy = some c) (hid : c.ideal) (hstart : st.copy_write_pos_start = q)
    (hcwp : st.pos < st.fsize → st.copy_write_pos = st.pos)
    (h : collision_recovery H fuel st epos = some (Step.next st')) :
    st'.rstat = st.rstat
      ∧ ∃ c2, st'.copy = some c2 ∧ c2.accept = c.accept ∧ c2.punch_ok = c.punch_ok
        ∧ Ext F c wm c2 wm
        ∧ (recovery_fires H st = true →
            ∀ o, q ≤ o → o < epos → o < F.length → Agree F c2 wm o)
        ∧ (st'.pos < st'.fsize → st'.copy_write_pos = st'.pos) := by
  have hq0 : epos - c_checkpoint_dist = q := by rw [hep]; omega
  have hstay : st = st' → ¬ recovery_fires H st = true → st'.rstat = st.rstat
      ∧ ∃ c2, st'.copy = some c2 ∧ c2.accept = c.accept ∧ c2.punch_ok = c.punch_ok
        ∧ Ext F c wm c2 wm
        ∧ (recovery_fires H st = true →
            ∀ o, q ≤ o → o < epos → o < F.length → Agree F c2 wm o)
        ∧ (st'.pos < st'.fsize → st'.copy_write_pos = st'.pos) := by
    intro e hnf
    rw [← e]
    exact ⟨rfl, c, hc, rfl, rfl, Ext_refl F c wm, fun hf => absurd hf hnf, hcwp⟩
  unfold collision_recovery at h
  split at h
  · rename_i c1 ch hc1 hch
    by_cases hm : st.modify_inplace = true
    · rw [if_pos hm] at h
      by_cases hd : H.md5 st.big_hash_copy_control ≠ ch.take big_hash_size
      · rw [if_pos hd] at h
        simp only [IFile.Seek] at h
        rw [hq0] at h
        obtain ⟨a1, c2, a2, a3, a4, a5, a6, a7⟩ :=
          recopy_from_start_replica F wm fuel st st' epos q c hfd hfs hq hc hid hstart h
        exact ⟨a1, c2, a2, a3, a4, a5, fun _ => a6, a7⟩
      · rw [if_neg hd] at h
        simp only [Option.some.injEq, Step.next.injEq] at h
        apply hstay h
        intro hf
        obtain ⟨_, ch2, _, e2, _, e4⟩ := (recovery_fires_iff H st).mp hf
        rw [hch] at e2
        simp only [Option.some.injEq] at e2
        rw [← e2] at e4
        exact hd e4
    · rw [if_neg hm] at h
      simp only [Option.some.injEq, Step.next.injEq] at h
      apply hstay h
      intro hf
      obtain ⟨_, _, _, _, e3, _⟩ := (recovery_fires_iff H st).mp hf
      exact hm e3
  · rename_i hno
    simp only [Option.some.injEq, Step.next.injEq] at h
    apply hstay h
    intro hf
    obtain ⟨c1, ch, e1, e2, _, _⟩ := (recovery_fires_iff H st).mp hf
    exact hno c1 ch e1 e2

theorem write_hashoutput_form (st st' : State) (buf : List Byte) (ok : Bool)
    (h : write_hashoutput st buf = some (ok, st')) :
    ∃ ho cb, st' = { st with hashoutput := ho, cb := cb } := by
  unfold write_hashoutput at h
  split at h
  · simp at h
  · rename_i ok2 ho cb _
    simp only [Option.some.injEq, Prod.mk.injEq] at h
    exact ⟨ho, cb, h.2.symm⟩

theorem open_known_sparse_run_form (st : State) :
    ∃ s, open_known_sparse_run st = { st with sparse_extent_start := s } := by
  unfold open_known_sparse_run
  split
  · exact ⟨_, rfl⟩
  · exact ⟨st.sparse_extent_start, rfl⟩

/-- The effect of the block `if (copy_sparse_extent_start == -1)` on a replica that
supports hole punching. -/
theorem punch_copy_effect (fuel : Nat) (st st' : State) (c : IFile)
    (hc : st.copy = some c) (hp : c.punch_ok = true)
    (h : punch_copy fuel st = some (Step.next st')) :
    st'.modify_inplace = st.modify_inplace ∧ st'.chunk_hashes = st.chunk_hashes
      ∧ st'.hashinput = st.hashinput ∧ st'.copy_write_pos = st.copy_write_pos
      ∧ (st.copy_sparse_extent_start = -1 →
          st'.copy = some { c with data := zero_range c.data st.curr_extent.offset.toNat
                                            st.curr_extent.size.toNat }
            ∧ st'.copy_max_sparse = st.curr_extent.offset + st.curr_extent.size
            ∧ st'.copy_sparse_extent_start = (st.pos : Int))
      ∧ (st.copy_sparse_extent_start ≠ -1 →
          st'.copy = st.copy ∧ st'.copy_max_sparse = st.copy_max_sparse
            ∧ st'.copy_sparse_extent_start = st.copy_sparse_extent_start) := by
  unfold punch_copy at h
  by_cases hs : st.copy_sparse_extent_start = -1
  · rw [if_pos hs, hc] at h
    simp only [IFile.PunchHole, hp, if_true, Bool.not_true, Bool.false_eq_true, if_false,
      not_true_eq_false, Option.some.injEq, Step.next.injEq] at h
    rw [← h]
    refine ⟨rfl, rfl, rfl, rfl, fun _ => ⟨?_, rfl, rfl⟩, fun hne => absurd hs hne⟩
    show some ({ c with data := _, punch_ok := true } : IFile) = some { c with data := _ }
    rw [← hp]
  · rw [if_neg hs] at h
    simp only [Option.some.injEq, Step.next.injEq] at h
    rw [← h]
    exact ⟨rfl, rfl, rfl, rfl, fun he => absurd he hs, fun _ => ⟨rfl, rfl, rfl⟩⟩

/-- The effect of the known-sparse fast path on a replica that supports hole
punching. -/
theorem sparse_chunk_replica (g : Globals) (fuel : Nat) (st st' : State) (epos : Nat)
    (c : IFile) (hc : st.copy = some c) (hp : c.punch_ok = true)
    (h : sparse_chunk g fuel st epos = some (Step.next st')) :
    st'.modify_inplace = st.modify_inplace ∧ st'.chunk_hashes = st.chunk_hashes
      ∧ st'.hashinput = st.hashinput
      ∧ st'.copy_write_pos = st.copy_write_pos + c_checkpoint_dist
      ∧ (st.copy_sparse_extent_start = -1 →
          st'.copy = some { c with data := zero_range c.data st.curr_extent.offset.toNat
                                            st.curr_extent.size.toNat }
            ∧ st'.copy_max_sparse = st.curr_extent.offset + st.curr_extent.size
            ∧ st'.copy_sparse_extent_start = (st.pos : Int))
      ∧ (st.copy_sparse_extent_start ≠ -1 →
          st'.copy = st.copy ∧ st'.copy_max_sparse = st.copy_max_sparse
            ∧ st'.copy_sparse_extent_start = st.copy_sparse_extent_start) := by
  unfold sparse_chunk at h
  simp only at h
  split at h
  · simp at h
  · simp at h
  · rename_i s0 hw
    obtain ⟨ho, cb, rfl⟩ := write_hashoutput_form _ _ _ _ hw
    split at h
    · simp at h
    · simp at h
    · rename_i s1 hpc
      simp only [IFile.Seek, Bool.not_true, if_false] at h
      simp only [Bool.false_eq_true, not_false_eq_true, not_true_eq_false, if_false,
        Option.some.injEq, Step.next.injEq] at h
      obtain ⟨s, hs⟩ := open_known_sparse_run_form
        { ({ st with hashoutput := ho, cb := cb } : State) with
          hashoutputpos := st.hashoutputpos + (get_sparse_extent_content g).length }
      rw [hs] at hpc
      obtain ⟨a1, a2, a3, a4, a5, a6⟩ := punch_copy_effect fuel
        { st with hashoutput := ho, cb := cb,
                  hashoutputpos := st.hashoutputpos + (get_sparse_extent_content g).length,
                  sparse_extent_start := s } s1 c hc hp hpc
      rw [← h]
      refine ⟨a1, a2, a3, ?_, a5, a6⟩
      show s1.copy_write_pos + c_checkpoint_dist = _
      rw [a4]

/-- The block that fetches the record of the previous hashfile: the buffer holds the
record at `hashoutputpos` of the previous hashfile afterwards (as far as the
previous hashfile holds it); the replica is not touched. -/
theorem load_chunk_hashes_replica (Hp : List Byte) (st : State)
    (hin : ∀ hi, st.hashinput = some hi → hi.data = Hp)
    (hnone : st.hashinput = none → st.chunk_hashes = none) :
    (∀ hi, (load_chunk_hashes st).hashinput = some hi → hi.data = Hp)
      ∧ ((load_chunk_hashes st).hashinput = none → (load_chunk_hashes st).chunk_hashes = none)
      ∧ BufRel Hp st.hashoutputpos (load_chunk_hashes st).chunk_hashes
      ∧ (load_chunk_hashes st).copy = st.copy
      ∧ (load_chunk_hashes st).copy_write_pos = st.copy_write_pos
      ∧ (load_chunk_hashes st).modify_inplace = st.modify_inplace
      ∧ (load_chunk_hashes st).copy_max_sparse = st.copy_max_sparse
      ∧ (load_chunk_hashes st).copy_sparse_extent_start = st.copy_sparse_extent_start := by
  have hvac : BufRel Hp st.hashoutputpos none := by
    intro b hb
    exact absurd hb (by simp)
  unfold load_chunk_hashes
  split
  · rename_i ch hi hch hhi
    have hd := hin hi hhi
    simp only [IFile.Seek, IFile.Read]
    split
    · split
      · refine ⟨?_, ?_, hvac, rfl, rfl, rfl, rfl, rfl⟩
        · intro hi2 h2
          simp only [Option.some.injEq] at h2
          rw [← h2]; exact hd
        · intro h2; exact absurd h2 (by simp)
      · rename_i hrd
        refine ⟨?_, ?_, ?_, rfl, rfl, rfl, rfl, rfl⟩
        · intro hi2 h2
          simp only [Option.some.injEq] at h2
          rw [← h2]; exact hd
        · intro h2; exact absurd h2 (by simp)
        · intro b hb k hk hlen
          simp only [Option.some.injEq] at hb
          rw [← hb, hd]
          have hB := big_hash_size_eq
          have hS := small_hash_size_eq
          have hC := chunkhash_single_size_eq
          have hN := n_chunks_eq
          have hrl : (List.take chunkhash_single_size (List.drop st.hashoutputpos Hp)).length
              = min 4112 (Hp.length - st.hashoutputpos) := by
            rw [List.length_take, List.length_drop, hC]
          unfold memcpy_at
          rw [List.take_zero, List.nil_append, Nat.zero_add]
          rw [List.drop_append_of_le_length (by rw [hrl, hB, hS]; rw [hB, hS] at hlen; omega)]
          rw [List.take_append_of_le_length (by
            rw [List.length_drop, hrl, hB, hS]; rw [hB, hS] at hlen; omega)]
          unfold slice
          rw [List.drop_take, List.take_take, List.drop_drop, hS]
          have e1 : min 4 (chunkhash_single_size - (big_hash_size + k * 4)) = 4 := by
            rw [hC, hB]; omega
          have e2 : st.hashoutputpos + (big_hash_size + k * 4)
              = st.hashoutputpos + big_hash_size + k * 4 := by omega
          rw [e2, e1]
    · refine ⟨hin, ?_, hvac, rfl, rfl, rfl, rfl, rfl⟩
      intro _; rfl
  · refine ⟨hin, ?_, hvac, rfl, rfl, rfl, rfl, rfl⟩
    intro _; rfl
  · rename_i hch
    refine ⟨hin, hnone, ?_, rfl, rfl, rfl, rfl, rfl⟩
    rw [hch]
    exact hvac

theorem advance_extent_rview (st : State) : (advance_extent st).rview = st.rview := by
  unfold advance_extent
  split <;> rfl

/-! ## The replica over a big chunk -/

theorem div_small_of_big (j k : Nat) (hk : k < n_chunks) :
    (j * c_checkpoint_dist + k * c_small_hash_dist) / c_small_hash_dist / n_chunks = j
      ∧ (j * c_checkpoint_dist + k * c_small_hash_dist) / c_small_hash_dist % n_chunks = k
      ∧ (j * c_checkpoint_dist + k * c_small_hash_dist) / c_small_hash_dist * c_small_hash_dist
          = j * c_checkpoint_dist + k * c_small_hash_dist := by
  rw [n_chunks_eq] at hk
  rw [c_checkpoint_dist_eq, c_small_hash_dist_eq, n_chunks_eq]
  have e : (j * 524288 + k * 512) / 512 = j * 1024 + k := by omega
  rw [e]
  refine ⟨by omega, by omega, by omega⟩

/-- The normal path up to the collision recovery, for the replica in `modify_inplace`
mode: every small chunk of the big chunk whose recorded small hash differs is in the
replica afterwards. -/
theorem hash_big_chunk_replica (H : HashFns) (T : List Byte) (exts : List SSparseExtent)
    (F init Hp : List Byte) (fuel : Nat) (st s3 : State) (c : IFile)
    (hT : T.length = chunkhash_single_size)
    (h : HInv H T exts F init st.hview)
    (hlt : st.pos < st.fsize)
    (hbuf : BufRel Hp st.hashoutputpos st.chunk_hashes)
    (hm : st.modify_inplace = true) (hc : st.copy = some c)
    (hid : c.ideal) (hp : c.punch_ok = true)
    (hcwp : st.copy_write_pos = st.pos)
    (hs : hash_big_chunk H fuel st (st.pos + c_checkpoint_dist) = some (Step.next s3)) :
    s3.modify_inplace = true ∧ s3.chunk_hashes = st.chunk_hashes
      ∧ s3.hashinput = st.hashinput ∧ s3.copy_max_sparse = st.copy_max_sparse
      ∧ s3.copy_sparse_extent_start = -1 ∧ s3.copy_write_pos_start = st.pos
      ∧ s3.f.data = F ∧ s3.fsize = F.length ∧ s3.f.cursor = min s3.pos F.length
      ∧ s3.curr_extent = st.curr_extent
      ∧ (∃ k, s3.pos = st.pos + c_small_hash_dist * k
          ∧ min c_checkpoint_dist (F.length - st.pos) ≤ c_small_hash_dist * k
          ∧ c_small_hash_dist * k < min c_checkpoint_dist (F.length - st.pos) + c_small_hash_dist)
      ∧ ∃ c2, s3.copy = some c2 ∧ c2.ideal ∧ c2.punch_ok = true
        ∧ Ext F c st.copy_max_sparse c2 st.copy_max_sparse
        ∧ (∀ o, st.pos ≤ o → o < s3.pos → o < F.length →
            Differs H F Hp (o / c_small_hash_dist) → Agree F c2 st.copy_max_sparse o)
        ∧ (s3.pos < s3.fsize → s3.copy_write_pos = s3.pos) := by
  have hB := c_checkpoint_dist_eq
  have hS := c_small_hash_dist_eq
  have hfs : st.fsize = F.length := h.fsize
  obtain ⟨E, j, hR, hcc, hh, hp1, hp2⟩ := h.recs
  have hpj : st.pos = j * c_checkpoint_dist := hp1 (by rw [← hfs]; exact hlt)
  have hj : j * c_checkpoint_dist < F.length := by rw [← hpj, ← hfs]; exact hlt
  have hS0 := HInv_begin_record H T exts F init st.hview h E j hcc hh hpj
  have hrec : st.hashoutputpos = 8 + j * chunkhash_single_size := by
    have hl := Recs_length H T exts F hT j E hR
    rw [recs_size_full _ _ (by rw [hB]; rw [hB] at hj; omega)] at hl
    have : st.hashoutputpos = 8 + E.length := hh
    rw [this, hl]
  -- the invariant of the small-chunk loop for the replica
  let RS : State → Prop := fun s =>
    s.rstat = { modify_inplace := true, chunk_hashes := st.chunk_hashes,
                hashinput := st.hashinput, copy_max_sparse := st.copy_max_sparse,
                copy_sparse_extent_start := -1, copy_write_pos_start := st.pos }
      ∧ ∃ c2, s.copy = some c2 ∧ c2.ideal ∧ c2.punch_ok = true
        ∧ Ext F c st.copy_max_sparse c2 st.copy_max_sparse
        ∧ (∀ o, st.pos ≤ o → o < s.pos → o < F.length →
            Differs H F Hp (o / c_small_hash_dist) → Agree F c2 st.copy_max_sparse o)
        ∧ (s.pos < s.fsize → s.copy_write_pos = s.pos)
  unfold hash_big_chunk at hs
  simp only at hs
  have hw := write_hashoutput_ideal
    { st with copy_sparse_extent_start := -1, big_hash := [],
              big_hash_copy_control := [], hashoutputpos_start := st.hashoutputpos }
    (List.replicate big_hash_size 0) h.ho_ideal (by simp [big_hash_size])
    (by simp [big_hash_size])
  rw [hw] at hs
  simp only at hs
  split at hs
  · simp at hs
  · simp at hs
  · rename_i s2 hloop
    have hI : (SInv H F init (i64_bytes F.length ++ E) (j * c_checkpoint_dist)
          st.curr_extent st.extent_iterator s2.hview ∧ RS s2)
        ∧ ¬ (s2.pos < st.pos + c_checkpoint_dist ∧ s2.pos < s2.fsize) := by
      refine small_chunk_loop_partial H (st.pos + c_checkpoint_dist)
        (fun s => SInv H F init (i64_bytes F.length ++ E) (j * c_checkpoint_dist)
          st.curr_extent st.extent_iterator s.hview ∧ RS s)
        ?_ fuel _ s2 ?_ hloop
      · intro s s' hs1 hs2 hs3 hbody
        obtain ⟨hs1, hr1, c1, hc1, hid1, hp1', hext1, hcov1, hcw1⟩ := hs1
        have hv := small_chunk_body_hview H s s' hs1.ho_ideal hbody
        have hsf : s.fsize = F.length := hs1.fsize
        have hfd : s.f.data = F := hs1.f_data
        have hposF : s.pos < s.f.data.length := by rw [hfd, ← hsf]; exact hs3
        have hcurlt : s.f.cursor < s.f.data.length := by
          rw [show s.f.cursor = min s.pos F.length from hs1.f_cursor, hfd]
          rw [hfd] at hposF; omega
        have hbufs : (s.f.Read c_small_hash_dist).1 = slice F s.pos c_small_hash_dist := by
          rw [read_bytes s.f s.pos _ (by rw [hfd]; exact hs1.f_cursor) hposF, hfd]
        have hpe : s.pos = j * c_checkpoint_dist + s.chunkidx * c_small_hash_dist := hs1.pos_eq
        have hidx : s.chunkidx < n_chunks := by
          have := hs2
          rw [hpj, hpe, hB, hS] at this
          rw [n_chunks_eq]; omega
        have hsm : s.modify_inplace = true := congrArg RStat.modify_inplace hr1
        have hsch : s.chunk_hashes = st.chunk_hashes := congrArg RStat.chunk_hashes hr1
        obtain ⟨b1, b2, c2, b3, b4, b5, b6⟩ :=
          small_chunk_body_replica H s s' c1 hc1 hid1 hsm hcurlt hbody
        rw [hbufs] at b2 b6
        have hcw : s.copy_write_pos = s.pos := hcw1 hs3
        rw [hcw] at b6
        have hsl : (slice F s.pos c_small_hash_dist).length = min 512 (F.length - s.pos) := by
          rw [slice_length, hS]
        have hpos' : s'.pos = s.pos := congrArg HView.pos hv
        have hfs' : s'.fsize = s.fsize := congrArg HView.fsize hv
        have hextstep : Ext F c1 st.copy_max_sparse c2 st.copy_max_sparse := by
          rcases b6 with ⟨hd, _⟩ | hd
          · exact fun o ho => Agree_congr F c1 c2 _ o hd ho
          · exact Agree_write F c1 c2 _ s.pos c_small_hash_dist hd
        constructor
        · show SInv H F init _ _ _ _ (s'.hview.incr)
          rw [hv]
          exact SInv_step H F init _ _ _ _ s.hview hs1 (by rw [← hpj]; exact hs2) hs3
        · refine ⟨?_, c2, b3, ?_, ?_, ?_, ?_, ?_⟩
          · show s'.rstat = _
            rw [b1]; exact hr1
          · intro k n
            rw [b4]; exact hid1 k n
          · rw [b5]; exact hp1'
          · exact Ext_trans F _ _ _ _ _ _ hext1 hextstep
          · intro o ho1 ho2 ho3 hdf
            have ho2' : o < s.pos + c_small_hash_dist := by
              have : o < s'.pos + c_small_hash_dist := ho2
              rw [hpos'] at this; exact this
            by_cases hlo : o < s.pos
            · exact hextstep o (hcov1 o ho1 hlo ho3 hdf)
            · have hin : o < s.pos + (slice F s.pos c_small_hash_dist).length := by
                rw [hsl]; rw [hS] at ho2'; omega
              rcases b6 with ⟨hd, hcase⟩ | hd
              · rcases hcase with ⟨ch, hch, hsh⟩ | heq
                · exfalso
                  obtain ⟨d1, d2, d3⟩ := div_small_of_big j s.chunkidx hidx
                  have hoi : o / c_small_hash_dist = s.pos / c_small_hash_dist := by
                    rw [hpe]
                    rw [hpe] at hlo ho2'
                    rw [hS, hB] at hlo ho2' ⊢
                    omega
                  rw [hoi, hpe] at hdf
                  obtain ⟨hd1, hd2⟩ := hdf
                  rw [d1, d2] at hd1 hd2
                  rw [d3, ← hpe] at hd2
                  have hrel := hbuf ch (by rw [← hsch]; exact hch) s.chunkidx hidx
                    (by rw [hrec]; exact hd1)
                  rw [hrec] at hrel
                  apply hd2
                  rw [← hrel, ← hsh]
                · apply Agree_congr F c1 c2 _ o hd
                  exact Agree_equal F c1 _ s.pos c_small_hash_dist o heq (by omega) hin
              · exact Agree_written F c1 c2 _ s.pos c_small_hash_dist o hd (by omega) hin
          · intro hlt2
            show s'.copy_write_pos = s'.pos + c_small_hash_dist
            have hlt3 : s.pos + c_small_hash_dist < F.length := by
              have : s'.pos + c_small_hash_dist < s'.fsize := hlt2
              rw [hpos', hfs', hsf] at this; exact this
            rw [b2, hcw, hpos', hsl, hS]
            rw [hS] at hlt3
            omega
      · refine ⟨hS0, ?_, c, hc, hid, hp, Ext_refl F c _, ?_, ?_⟩
        · show ({ modify_inplace := st.modify_inplace, chunk_hashes := st.chunk_hashes,
                  hashinput := st.hashinput, copy_max_sparse := st.copy_max_sparse,
                  copy_sparse_extent_start := -1,
                  copy_write_pos_start := st.copy_write_pos } : RStat) = _
          rw [hm, hcwp]
        · intro o ho1 ho2
          have : o < st.pos := ho2
          omega
        · intro _
          exact hcwp
    obtain ⟨⟨hS2, hr2, c2, hc2, hid2, hp2', hext2, hcov2, hcw2⟩, hx⟩ := hI
    simp only [IFile.Seek] at hs
    have hw2 := write_hashoutput_ideal
      { s2 with hashoutput := { s2.hashoutput with cursor := s2.hashoutputpos_start } }
      ((H.md5 s2.big_hash).take big_hash_size) hS2.ho_ideal
      (by
        intro he
        have := congrArg List.length he
        rw [List.length_take, H.md5_size] at this
        simp [big_hash_size] at this)
      (by rw [List.length_take, H.md5_size]; simp [big_hash_size])
    rw [hw2] at hs
    simp only [Option.some.injEq, Step.next.injEq] at hs
    rw [← hs]
    have hpe : s2.pos = j * c_checkpoint_dist + s2.chunkidx * c_small_hash_dist := hS2.pos_eq
    have hib := hS2.idx_bound
    have hfs2 : s2.fsize = F.length := hS2.fsize
    refine ⟨congrArg RStat.modify_inplace hr2, congrArg RStat.chunk_hashes hr2,
      congrArg RStat.hashinput hr2, congrArg RStat.copy_max_sparse hr2,
      congrArg RStat.copy_sparse_extent_start hr2, congrArg RStat.copy_write_pos_start hr2,
      hS2.f_data, hfs2, hS2.f_cursor, hS2.cur_eq, ⟨s2.chunkidx, ?_, ?_, ?_⟩,
      c2, hc2, hid2, hp2', hext2, hcov2, hcw2⟩
    · show s2.pos = _
      rw [hpe, hpj]; ring
    · rw [hfs2, hpe] at hx
      rw [hpj]
      rw [hpj, hS, hB] at hx
      rw [hS, hB]
      omega
    · rw [hpj]; exact hib

/-- The normal path is `hash_big_chunk` followed by the collision recovery. -/
theorem normal_chunk_eq (H : HashFns) (fuel : Nat) (st : State) (epos : Nat) :
    normal_chunk H fuel st epos
      = match hash_big_chunk H fuel st epos with
        | none => none
        | some (Step.exit ret s) => some (Step.exit ret s)
        | some (Step.next s3) =>
          match collision_recovery H fuel s3 epos with
          | none => none
          | some (Step.exit ret s) => some (Step.exit ret s)
          | some (Step.next s4) =>
            some (Step.next
              { s4 with hashoutput := { s4.hashoutput with cursor := s4.hashoutputpos } }) := by
  unfold normal_chunk hash_big_chunk
  simp only [IFile.Seek]
  cases write_hashoutput
      { st with copy_sparse_extent_start := -1, big_hash := [],
                big_hash_copy_control := [], hashoutputpos_start := st.hashoutputpos }
      (List.replicate big_hash_size 0) with
  | none => rfl
  | some p =>
    obtain ⟨ok, s0⟩ := p
    simp only
    cases small_chunk_loop H epos fuel
        { s0 with hashoutputpos := s0.hashoutputpos + big_hash_size,
                  chunkidx := 0,
                  copy_write_pos_start := s0.copy_write_pos } with
    | none => rfl
    | some r =>
      cases r with
      | exit ret s => rfl
      | next s2 =>
        simp only
        cases write_hashoutput
            { s2 with hashoutput := { s2.hashoutput with cursor := s2.hashoutputpos_start } }
            ((H.md5 s2.big_hash).take big_hash_size) with
        | none => rfl
        | some p2 =>
          obtain ⟨ok2, s3⟩ := p2
          cases ok2 with
          | false => rfl
          | true => rfl

theorem normal_chunk_split (H : HashFns) (fuel : Nat) (st st' : State) (epos : Nat)
    (h : normal_chunk H fuel st epos = some (Step.next st')) :
    ∃ s3 s4, hash_big_chunk H fuel st epos = some (Step.next s3)
      ∧ collision_recovery H fuel s3 epos = some (Step.next s4)
      ∧ st' = { s4 with hashoutput := { s4.hashoutput with cursor := s4.hashoutputpos } } := by
  rw [normal_chunk_eq] at h
  split at h
  · simp at h
  · simp at h
  · rename_i s3 h3
    split at h
    · simp at h
    · simp at h
    · rename_i s4 h4
      simp only [Option.some.injEq, Step.next.injEq] at h
      exact ⟨s3, s4, h3, h4, h.symm⟩

/-- The normal path for the replica in `modify_inplace` mode: behind the big chunk
every small chunk of it whose recorded small hash differs is in the replica, and the
whole big chunk when the collision recovery has fired. -/
theorem normal_chunk_replica (H : HashFns) (T : List Byte) (exts : List SSparseExtent)
    (F init Hp : List Byte) (fuel : Nat) (st st' : State) (c : IFile)
    (hT : T.length = chunkhash_single_size)
    (h : HInv H T exts F init st.hview)
    (hlt : st.pos < st.fsize)
    (hbuf : BufRel Hp st.hashoutputpos st.chunk_hashes)
    (hm : st.modify_inplace = true) (hc : st.copy = some c)
    (hid : c.ideal) (hp : c.punch_ok = true)
    (hcwp : st.copy_write_pos = st.pos)
    (hs : normal_chunk H fuel st (st.pos + c_checkpoint_dist) = some (Step.next st')) :
    st'.modify_inplace = true ∧ st'.chunk_hashes = st.chunk_hashes
      ∧ st'.hashinput = st.hashinput ∧ st'.copy_max_sparse = st.copy_max_sparse
      ∧ st'.copy_sparse_extent_start = -1 ∧ st'.curr_extent = st.curr_extent
      ∧ ∃ c2, st'.copy = some c2 ∧ c2.ideal ∧ c2.punch_ok = true
        ∧ Ext F c st.copy_max_sparse c2 st.copy_max_sparse
        ∧ (∀ o, st.pos ≤ o → o < st'.pos → o < F.length →
            Differs H F Hp (o / c_small_hash_dist) → Agree F c2 st.copy_max_sparse o)
        ∧ (st'.pos < st'.fsize → st'.copy_write_pos = st'.pos)
        ∧ (∀ s3, hash_big_chunk H fuel st (st.pos + c_checkpoint_dist) = some (Step.next s3) →
            recovery_fires H s3 = true →
            ∀ o, st.pos ≤ o → o < st.pos + c_checkpoint_dist → o < F.length →
              Agree F c2 st.copy_max_sparse o) := by
  obtain ⟨s3, s4, h3, h4, hst⟩ := normal_chunk_split H fuel st st' _ hs
  obtain ⟨a1, a2, a3, a4, a5, a6, a7, a8, a9, a10, ⟨k, k1, k2, k3⟩, c2, b1, b2, b3, b4, b5, b6⟩ :=
    hash_big_chunk_replica H T exts F init Hp fuel st s3 c hT h hlt hbuf hm hc hid hp hcwp h3
  have hfs : st.fsize = F.length := h.fsize
  have hv4 := collision_recovery_hview H fuel s3 s4 (st.pos + c_checkpoint_dist) st.pos k h4 rfl
    (by rw [a7]; exact a9) (by rw [a7]; exact a8) (by rw [a8, ← hfs]; exact hlt) k1
    (by rw [a8]; exact k2) (by rw [a8]; exact k3)
  obtain ⟨d1, c3, d2, d3, d4, d5, d6, d7⟩ := collision_recovery_replica H F st.copy_max_sparse
    fuel s3 s4 (st.pos + c_checkpoint_dist) st.pos c2 a7 a8 (by rw [a8, ← hfs]; exact hlt) rfl
    b1 b2 a6 b6 h4
  have e4pos : s4.pos = s3.pos := congrArg HView.pos hv4
  have e4cur : s4.curr_extent = s3.curr_extent := congrArg HView.curr_extent hv4
  rw [hst]
  refine ⟨?_, ?_, ?_, ?_, ?_, ?_, c3, d2, ?_, ?_, ?_, ?_, d7, ?_⟩
  · show s4.modify_inplace = true
    rw [show s4.modify_inplace = s3.modify_inplace from congrArg RStat.modify_inplace d1, a1]
  · show s4.chunk_hashes = _
    rw [show s4.chunk_hashes = s3.chunk_hashes from congrArg RStat.chunk_hashes d1, a2]
  · show s4.hashinput = _
    rw [show s4.hashinput = s3.hashinput from congrArg RStat.hashinput d1, a3]
  · show s4.copy_max_sparse = _
    rw [show s4.copy_max_sparse = s3.copy_max_sparse from congrArg RStat.copy_max_sparse d1, a4]
  · show s4.copy_sparse_extent_start = _
    rw [show s4.copy_sparse_extent_start = s3.copy_sparse_extent_start from
      congrArg RStat.copy_sparse_extent_start d1, a5]
  · show s4.curr_extent = _
    rw [e4cur, a10]
  · intro k n
    rw [d3]; exact b2 k n
  · rw [d4]; exact b3
  · exact Ext_trans F _ _ _ _ _ _ b4 d5
  · intro o o1 o2 o3 o4
    have : o < s4.pos := o2
    rw [e4pos] at this
    exact d5 o (b5 o o1 this o3 o4)
  · intro s3' h3' hf o o1 o2 o3
    rw [h3] at h3'
    simp only [Option.some.injEq, Step.next.injEq] at h3'
    rw [← h3'] at hf
    exact d6 hf o o1 o2 o3

/-! ## The replica over the main loop -/

theorem skip_extents_cur (pos : Nat) (cur : SSparseExtent) (it : List SSparseExtent) :
    (skip_extents pos cur it).1 = cur
      ∨ (cur.offset ≠ -1 ∧ cur.offset + cur.size < (pos : Int)) := by
  cases it with
  | nil =>
    rw [skip_extents]
    split
    · rename_i h; exact Or.inr h
    · exact Or.inl rfl
  | cons e es =>
    rw [skip_extents]
    split
    · rename_i h; exact Or.inr h
    · exact Or.inl rfl

theorem advance_extent_cur (st : State) :
    (advance_extent st).curr_extent = st.curr_extent
      ∨ (st.curr_extent.offset ≠ -1
          ∧ st.curr_extent.offset + st.curr_extent.size < (st.pos : Int)) := by
  unfold advance_extent
  split
  · exact Or.inl rfl
  · rename_i it _
    exact skip_extents_cur st.pos st.curr_extent it

theorem advance_extent_hop (st : State) :
    (advance_extent st).hashoutputpos = st.hashoutputpos := by
  unfold advance_extent
  split <;> rfl

/-- The state at the top of the main loop behind the fetch of the record and the
extent loop: what the invariant of the replica gives for it. -/
theorem head_state_facts (H : HashFns) (F Hp : List Byte) (c0 : IFile) (wm0 : Int) (st : State)
    (hR : RInv H F Hp c0 wm0 st) :
    (advance_extent (load_chunk_hashes st)).copy = st.copy
      ∧ (advance_extent (load_chunk_hashes st)).copy_write_pos = st.copy_write_pos
      ∧ (advance_extent (load_chunk_hashes st)).modify_inplace = true
      ∧ (advance_extent (load_chunk_hashes st)).copy_max_sparse = st.copy_max_sparse
      ∧ (advance_extent (load_chunk_hashes st)).copy_sparse_extent_start
          = st.copy_sparse_extent_start
      ∧ (∀ hi, (advance_extent (load_chunk_hashes st)).hashinput = some hi → hi.data = Hp)
      ∧ ((advance_extent (load_chunk_hashes st)).hashinput = none →
          (advance_extent (load_chunk_hashes st)).chunk_hashes = none)
      ∧ BufRel Hp (advance_extent (load_chunk_hashes st)).hashoutputpos
          (advance_extent (load_chunk_hashes st)).chunk_hashes
      ∧ (advance_extent (load_chunk_hashes st)).pos = st.pos
      ∧ (advance_extent (load_chunk_hashes st)).fsize = st.fsize
      ∧ ((advance_extent (load_chunk_hashes st)).curr_extent = st.curr_extent
          ∨ (st.curr_extent.offset ≠ -1
              ∧ st.curr_extent.offset + st.curr_extent.size < (st.pos : Int))) := by
  obtain ⟨l1, l2, l3, l4, l5, l6, l7, l8⟩ :=
    load_chunk_hashes_replica Hp st hR.hin hR.hin_none
  have hv := advance_extent_rview (load_chunk_hashes st)
  have hh := load_chunk_hashes_hview st
  have hp := advance_extent_pos (load_chunk_hashes st)
  have e1 : (load_chunk_hashes st).pos = st.pos := congrArg HView.pos hh
  have e2 : (load_chunk_hashes st).fsize = st.fsize := congrArg HView.fsize hh
  have e3 : (load_chunk_hashes st).curr_extent = st.curr_extent := congrArg HView.curr_extent hh
  have e4 : (load_chunk_hashes st).hashoutputpos = st.hashoutputpos :=
    congrArg HView.hashoutputpos hh
  have q1 : (advance_extent (load_chunk_hashes st)).copy = (load_chunk_hashes st).copy :=
    congrArg RView.copy hv
  have q2 : (advance_extent (load_chunk_hashes st)).copy_write_pos
      = (load_chunk_hashes st).copy_write_pos := congrArg RView.copy_write_pos hv
  have q3 : (advance_extent (load_chunk_hashes st)).rstat = (load_chunk_hashes st).rstat :=
    congrArg RView.stat hv
  have q4 : (advance_extent (load_chunk_hashes st)).hashinput = (load_chunk_hashes st).hashinput :=
    congrArg RStat.hashinput q3
  have q5 : (advance_extent (load_chunk_hashes st)).chunk_hashes
      = (load_chunk_hashes st).chunk_hashes := congrArg RStat.chunk_hashes q3
  refine ⟨by rw [q1, l4], by rw [q2, l5], ?_, ?_, ?_, ?_, ?_, ?_, by rw [hp.1, e1],
    by rw [hp.2.1, e2], ?_⟩
  · rw [show (advance_extent (load_chunk_hashes st)).modify_inplace
      = (load_chunk_hashes st).modify_inplace from congrArg RStat.modify_inplace q3, l6]
    exact hR.inplace
  · rw [show (advance_extent (load_chunk_hashes st)).copy_max_sparse
      = (load_chunk_hashes st).copy_max_sparse from congrArg RStat.copy_max_sparse q3, l7]
  · rw [show (advance_extent (load_chunk_hashes st)).copy_sparse_extent_start
      = (load_chunk_hashes st).copy_sparse_extent_start from
        congrArg RStat.copy_sparse_extent_start q3, l8]
  · rw [q4]; exact l1
  · rw [q4, q5]; exact l2
  · rw [q5, advance_extent_hop, e4]; exact l3
  · have := advance_extent_cur (load_chunk_hashes st)
    rw [e3, e1] at this
    exact this

theorem truthful_getD (exts : List SSparseExtent) (F : List Byte) (ht : truthful exts F)
    (e : SSparseExtent) (he : e ∈ exts) (o : Nat) (h1 : e.offset ≤ (o : Int))
    (h2 : (o : Int) < e.offset + e.size) : F.getD o 0 = 0 := by
  by_cases ho : o < F.length
  · exact ht e he o h1 h2 ho
  · exact getD_ge F o (by omega)

/-- The known-sparse fast path keeps the invariant of the replica. -/
theorem RInv_sparse_step (H : HashFns) (g : Globals) (exts : List SSparseExtent)
    (F init Hp : List Byte) (c0 : IFile) (wm0 : Int)
    (hT : get_sparse_extent_content g ≠ [] ∧ (get_sparse_extent_content g).length < 2 ^ 31)
    (htr : truthful exts F) (hnn : ∀ e ∈ exts, 0 ≤ e.offset)
    (fuel : Nat) (st st' : State)
    (hI : HInv H (get_sparse_extent_content g) exts F init st.hview)
    (hok : CopyOK st) (hR : RInv H F Hp c0 wm0 st)
    (hlt : st.pos < st.fsize)
    (hk : known_sparse (advance_extent (load_chunk_hashes st))
        ((advance_extent (load_chunk_hashes st)).pos + c_checkpoint_dist) = true)
    (hs : sparse_chunk g fuel (advance_extent (load_chunk_hashes st))
        ((advance_extent (load_chunk_hashes st)).pos + c_checkpoint_dist) = some (Step.next st')) :
    CopyOK st' ∧ RInv H F Hp c0 wm0 st' := by
  obtain ⟨f1, f2, f3, f4, f5, f6, f7, _, f9, f10, f11⟩ := head_state_facts H F Hp c0 wm0 st hR
  have h1 : HInv H (get_sparse_extent_content g) exts F init (load_chunk_hashes st).hview := by
    rw [load_chunk_hashes_hview]; exact hI
  have h2 := advance_extent_HInv H _ exts F init _ h1
  generalize advance_extent (load_chunk_hashes st) = s at *
  obtain ⟨c, hc⟩ := hR.has_copy
  obtain ⟨hid, hp⟩ := hok c hc
  have hsc : s.copy = some c := by rw [f1]; exact hc
  unfold known_sparse at hk
  simp only [decide_eq_true_eq] at hk
  obtain ⟨k1, k2, k3, k4⟩ := hk
  rw [f9] at k2 k3 k4
  rw [f10] at k4
  have hmem : s.curr_extent ∈ exts := h2.cur_mem k1
  have hoff := hnn _ hmem
  have hB := c_checkpoint_dist_eq
  have hv := sparse_chunk_hview g fuel s st' _ h2.ho_ideal hT hs
  have hpos' : st'.pos = st.pos + c_checkpoint_dist := by
    have : st'.pos = s.pos + c_checkpoint_dist := congrArg HView.pos hv
    rw [this, f9]
  have hcur' : st'.curr_extent = s.curr_extent := congrArg HView.curr_extent hv
  have hfs' : st'.fsize = st.fsize := by
    have : st'.fsize = s.fsize := congrArg HView.fsize hv
    rw [this, f10]
  obtain ⟨r1, r2, r3, r4, r5, r6⟩ := sparse_chunk_replica g fuel s st' _ c hsc hp hs
  have hwm : s.copy_max_sparse ≤ s.curr_extent.offset + s.curr_extent.size := by
    rw [f4]
    rcases hR.wm_inv with w | w | ⟨w1, w2⟩
    · rw [w]; omega
    · omega
    · rcases f11 with e | ⟨_, e2⟩
      · rw [w2, e]
      · rw [w2]; omega
  have hcwp' : st'.pos < st'.fsize → st'.copy_write_pos = st'.pos := by
    intro _
    rw [r4, f2, hR.cwp hlt, hpos']
  have hz : ∀ o : Nat, s.curr_extent.offset.toNat ≤ o →
      o < s.curr_extent.offset.toNat + s.curr_extent.size.toNat → F.getD o 0 = 0 := by
    intro o o1 o2
    exact truthful_getD exts F htr _ hmem o (by omega) (by omega)
  have hend : ((s.curr_extent.offset.toNat + s.curr_extent.size.toNat : Nat) : Int)
      = s.curr_extent.offset + s.curr_extent.size := by omega
  by_cases hcs : s.copy_sparse_extent_start = -1
  · -- the hole is punched
    obtain ⟨p1, p2, p3⟩ := r5 hcs
    have hpunch : Ext F c s.copy_max_sparse
        { c with data := zero_range c.data s.curr_extent.offset.toNat s.curr_extent.size.toNat }
        (s.curr_extent.offset + s.curr_extent.size) := by
      intro o ho
      exact Agree_mono F _ _ _ o hwm
        (Agree_punch F c _ s.copy_max_sparse _ _ rfl hz o ho)
    have hrange : ∀ o : Nat, s.curr_extent.offset ≤ (o : Int) →
        (o : Int) < s.curr_extent.offset + s.curr_extent.size →
        Agree F
          { c with data := zero_range c.data s.curr_extent.offset.toNat s.curr_extent.size.toNat }
          (s.curr_extent.offset + s.curr_extent.size) o := by
      intro o o1 o2
      exact Agree_punched F c _ _ _ _ o rfl hz (by omega) (by omega) (by rw [hend])
    constructor
    · intro c' hc'
      rw [p1] at hc'
      simp only [Option.some.injEq] at hc'
      rw [← hc']
      exact ⟨fun k n => hid k n, hp⟩
    · constructor
      · rw [r1]; exact f3
      · exact ⟨_, p1⟩
      · exact hcwp'
      · intro hi hhi
        rw [r3] at hhi
        exact f6 hi hhi
      · intro hn
        rw [r3] at hn
        rw [r2]
        exact f7 hn
      · right; right
        rw [hcur', p2]
        exact ⟨k1, rfl⟩
      · intro _
        rw [hcur', p2, hpos']
        refine ⟨k1, by push_cast; push_cast at k3; omega, rfl, ?_⟩
        intro c' hc' o o1 o2
        rw [p1] at hc'
        simp only [Option.some.injEq] at hc'
        rw [← hc']
        exact hrange o o1 o2
      · intro c' hc'
        rw [p1] at hc'
        simp only [Option.some.injEq] at hc'
        rw [← hc', p2]
        have := hR.ext c hc
        rw [← f4] at this
        exact Ext_trans F _ _ _ _ _ _ this hpunch
      · intro c' hc' o o1 o2 o3
        rw [p1] at hc'
        simp only [Option.some.injEq] at hc'
        rw [← hc', p2]
        rw [hpos'] at o1
        by_cases ho : o < st.pos
        · have := hR.cov c hc o ho o2 o3
          rw [← f4] at this
          exact hpunch o this
        · exact hrange o (by omega) (by push_cast at k3; omega)
  · -- the hole was punched by an earlier chunk of the run
    obtain ⟨p1, p2, p3⟩ := r6 hcs
    have hcs0 : st.copy_sparse_extent_start ≠ -1 := by rw [← f5]; exact hcs
    obtain ⟨u1, u2, u3, u4⟩ := hR.run_inv hcs0
    have hcure : s.curr_extent = st.curr_extent := by
      rcases f11 with e | ⟨_, e2⟩
      · exact e
      · omega
    constructor
    · exact CopyOK_of_eq s st' p1 (CopyOK_of_eq st s f1 hok)
    · constructor
      · rw [r1]; exact f3
      · exact ⟨c, by rw [p1]; exact hsc⟩
      · exact hcwp'
      · intro hi hhi
        rw [r3] at hhi
        exact f6 hi hhi
      · intro hn
        rw [r3] at hn
        rw [r2]
        exact f7 hn
      · right; right
        rw [hcur', p2, f4, hcure]
        exact ⟨u1, u3⟩
      · intro _
        rw [hcur', p2, f4, hcure, hpos']
        rw [hcure] at k3
        refine ⟨u1, by push_cast; push_cast at k3; omega, u3, ?_⟩
        intro c' hc' o o1 o2
        rw [p1, f1] at hc'
        exact u4 c' hc' o o1 o2
      · intro c' hc'
        rw [p1, f1] at hc'
        rw [p2, f4]
        exact hR.ext c' hc'
      · intro c' hc' o o1 o2 o3
        rw [p1, f1] at hc'
        rw [p2, f4]
        rw [hpos'] at o1
        by_cases ho : o < st.pos
        · exact hR.cov c' hc' o ho o2 o3
        · rw [hcure] at k2 k3
          exact u4 c' hc' o (by omega) (by push_cast at k3; omega)

/-- The normal path keeps the invariant of the replica; when the collision recovery
has fired, the whole big chunk is in the replica afterwards. -/
theorem RInv_normal_step (H : HashFns) (g : Globals) (exts : List SSparseExtent)
    (F init Hp : List Byte) (c0 : IFile) (wm0 : Int)
    (hTl : (get_sparse_extent_content g).length = chunkhash_single_size)
    (fuel : Nat) (st st' : State)
    (hI : HInv H (get_sparse_extent_content g) exts F init st.hview)
    (hok : CopyOK st) (hR : RInv H F Hp c0 wm0 st)
    (hlt : st.pos < st.fsize)
    (hs : normal_chunk H fuel (advance_extent (load_chunk_hashes st))
        ((advance_extent (load_chunk_hashes st)).pos + c_checkpoint_dist) = some (Step.next st')) :
    CopyOK st' ∧ RInv H F Hp c0 wm0 st'
      ∧ (∀ s3, hash_big_chunk H fuel (advance_extent (load_chunk_hashes st))
            ((advance_extent (load_chunk_hashes st)).pos + c_checkpoint_dist) = some (Step.next s3) →
          recovery_fires H s3 = true →
          ∀ c2, st'.copy = some c2 →
          ∀ o, st.pos ≤ o → o < st.pos + c_checkpoint_dist → o < F.length →
            Agree F c2 st'.copy_max_sparse o) := by
  obtain ⟨f1, f2, f3, f4, f5, f6, f7, f8, f9, f10, f11⟩ := head_state_facts H F Hp c0 wm0 st hR
  have h1 : HInv H (get_sparse_extent_content g) exts F init (load_chunk_hashes st).hview := by
    rw [load_chunk_hashes_hview]; exact hI
  have h2 := advance_extent_HInv H _ exts F init _ h1
  generalize advance_extent (load_chunk_hashes st) = s at *
  obtain ⟨c, hc⟩ := hR.has_copy
  obtain ⟨hid, hp⟩ := hok c hc
  have hsc : s.copy = some c := by rw [f1]; exact hc
  have hlt' : s.pos < s.fsize := by rw [f9, f10]; exact hlt
  have hcwp : s.copy_write_pos = s.pos := by rw [f2, f9]; exact hR.cwp hlt
  obtain ⟨_, hgt⟩ := normal_chunk_HInv H _ exts F init fuel s st' h2 hlt' hs
  obtain ⟨n1, n2, n3, n4, n5, n6, c2, m1, m2, m3, m4, m5, m6, m7⟩ :=
    normal_chunk_replica H _ exts F init Hp fuel s st' c hTl h2 hlt' f8 f3 hsc hid hp hcwp hs
  rw [f9] at hgt m5 m7
  rw [f4] at m4 m5 m7
  refine ⟨?_, ?_, ?_⟩
  · intro c' hc'
    rw [m1] at hc'
    simp only [Option.some.injEq] at hc'
    rw [← hc']
    exact ⟨m2, m3⟩
  · constructor
    · exact n1
    · exact ⟨c2, m1⟩
    · exact m6
    · intro hi hhi
      rw [n3] at hhi
      exact f6 hi hhi
    · intro hn
      rw [n3] at hn
      rw [n2]
      exact f7 hn
    · rw [n4, f4, n6]
      rcases hR.wm_inv with w | w | ⟨w1, w2⟩
      · exact Or.inl w
      · right; left; omega
      · rcases f11 with e | ⟨_, e2⟩
        · right; right
          rw [e]
          exact ⟨w1, w2⟩
        · right; left
          rw [w2]; omega
    · intro hne
      exact absurd n5 hne
    · intro c' hc'
      rw [m1] at hc'
      simp only [Option.some.injEq] at hc'
      rw [← hc', n4, f4]
      exact Ext_trans F _ _ _ _ _ _ (hR.ext c hc) m4
    · intro c' hc' o o1 o2 o3
      rw [m1] at hc'
      simp only [Option.some.injEq] at hc'
      rw [← hc', n4, f4]
      by_cases ho : o < st.pos
      · exact m4 o (hR.cov c hc o ho o2 o3)
      · exact m5 o (by omega) o1 o2 o3
  · intro s3 hs3 hf c' hc' o o1 o2 o3
    rw [m1] at hc'
    simp only [Option.some.injEq] at hc'
    rw [← hc', n4, f4]
    rw [f9] at hs3
    exact m7 s3 hs3 hf o o1 o2 o3

/-- The invariant of the replica holds behind the main loop. -/
theorem main_loop_RInv (H : HashFns) (g : Globals) (exts : List SSparseExtent)
    (F init Hp : List Byte) (c0 : IFile) (wm0 : Int)
    (hTl : (get_sparse_extent_content g).length = chunkhash_single_size)
    (htr : truthful exts F) (hnn : ∀ e ∈ exts, 0 ≤ e.offset) :
    ∀ (fuel : Nat) (st st' : State),
      HInv H (get_sparse_extent_content g) exts F init st.hview → CopyOK st →
      RInv H F Hp c0 wm0 st →
      main_loop H g fuel st = some (Step.next st') →
      HInv H (get_sparse_extent_content g) exts F init st'.hview ∧ CopyOK st'
        ∧ RInv H F Hp c0 wm0 st' ∧ ¬ (st'.pos < st'.fsize) := by
  have hT : get_sparse_extent_content g ≠ []
      ∧ (get_sparse_extent_content g).length < 2 ^ 31 := by
    refine ⟨?_, by rw [hTl, chunkhash_single_size_eq]; decide⟩
    intro he
    rw [he, chunkhash_single_size_eq] at hTl
    simp at hTl
  intro fuel st st' hI hok hR hm
  have key := main_loop_partial H g
    (fun s => HInv H (get_sparse_extent_content g) exts F init s.hview ∧ CopyOK s
      ∧ RInv H F Hp c0 wm0 s)
    ?_ ?_ fuel st st' ⟨hI, hok, hR⟩ hm
  · exact ⟨key.1.1, key.1.2.1, key.1.2.2, key.2⟩
  · intro fuel st st' hI hlt hk hs
    obtain ⟨hI, hok, hR⟩ := hI
    have h1 : HInv H (get_sparse_extent_content g) exts F init (load_chunk_hashes st).hview := by
      rw [load_chunk_hashes_hview]; exact hI
    have h2 := advance_extent_HInv H _ exts F init _ h1
    have hp := advance_extent_pos (load_chunk_hashes st)
    have hlt' : (advance_extent (load_chunk_hashes st)).pos
        < (advance_extent (load_chunk_hashes st)).fsize := by
      rw [hp.1, hp.2.1]
      have e1 : (load_chunk_hashes st).pos = st.pos :=
        congrArg HView.pos (load_chunk_hashes_hview st)
      have e2 : (load_chunk_hashes st).fsize = st.fsize :=
        congrArg HView.fsize (load_chunk_hashes_hview st)
      rw [e1, e2]; exact hlt
    have hH := sparse_chunk_HInv H g exts F init fuel _ st' hT h2 hlt' hk hs
    obtain ⟨a1, a2⟩ := RInv_sparse_step H g exts F init Hp c0 wm0 hT htr hnn fuel st st'
      hI hok hR hlt hk hs
    exact ⟨hH, a1, a2⟩
  · intro fuel st st' hI hlt _ hs
    obtain ⟨hI, hok, hR⟩ := hI
    have h1 : HInv H (get_sparse_extent_content g) exts F init (load_chunk_hashes st).hview := by
      rw [load_chunk_hashes_hview]; exact hI
    have h2 := advance_extent_HInv H _ exts F init _ h1
    have hp := advance_extent_pos (load_chunk_hashes st)
    have hlt' : (advance_extent (load_chunk_hashes st)).pos
        < (advance_extent (load_chunk_hashes st)).fsize := by
      rw [hp.1, hp.2.1]
      have e1 : (load_chunk_hashes st).pos = st.pos :=
        congrArg HView.pos (load_chunk_hashes_hview st)
      have e2 : (load_chunk_hashes st).fsize = st.fsize :=
        congrArg HView.fsize (load_chunk_hashes_hview st)
      rw [e1, e2]; exact hlt
    have hH := (normal_chunk_HInv H _ exts F init fuel _ st' h2 hlt' hs).1
    obtain ⟨a1, a2, _⟩ := RInv_normal_step H g exts F init Hp c0 wm0 hTl fuel st st'
      hI hok hR hlt hs
    exact ⟨hH, a1, a2⟩

/-- From an iteration of the main loop on, the loop runs as before. -/
theorem main_loop_heads_run (H : HashFns) (g : Globals) :
    ∀ (fuel : Nat) (st : State) (k : Nat) (sh : State),
      (k, sh) ∈ main_loop_heads H g fuel st →
      main_loop H g fuel st = main_loop H g (k + 1) sh := by
  intro fuel
  induction fuel with
  | zero => intro st k sh h; simp [main_loop_heads] at h
  | succ fuel ih =>
    intro st k sh h
    rw [main_loop_heads] at h
    by_cases hlt : st.pos < st.fsize
    · rw [if_pos hlt] at h
      simp only [List.mem_cons, Prod.mk.injEq] at h
      rcases h with ⟨e1, e2⟩ | h
      · rw [e1, e2]
      · rw [main_loop, if_pos hlt]
        simp only
        cases hk : known_sparse (advance_extent (load_chunk_hashes st))
            ((advance_extent (load_chunk_hashes st)).pos + c_checkpoint_dist) with
        | true =>
          rw [hk] at h
          simp only [if_true] at h ⊢
          split at h
          · rename_i s hs
            rw [hs]
            exact ih _ _ _ h
          · simp at h
        | false =>
          rw [hk] at h
          simp only [Bool.false_eq_true, if_false] at h ⊢
          split at h
          · rename_i s hs
            rw [hs]
            exact ih _ _ _ h
          · simp at h
    · rw [if_neg hlt] at h
      simp at h

/-- The invariant of the replica holds at the top of every iteration of the main
loop. -/
theorem main_loop_heads_inv (H : HashFns) (g : Globals) (exts : List SSparseExtent)
    (F init Hp : List Byte) (c0 : IFile) (wm0 : Int)
    (hTl : (get_sparse_extent_content g).length = chunkhash_single_size)
    (htr : truthful exts F) (hnn : ∀ e ∈ exts, 0 ≤ e.offset) :
    ∀ (fuel : Nat) (st : State) (k : Nat) (sh : State),
      HInv H (get_sparse_extent_content g) exts F init st.hview → CopyOK st →
      RInv H F Hp c0 wm0 st →
      (k, sh) ∈ main_loop_heads H g fuel st →
      HInv H (get_sparse_extent_content g) exts F init sh.hview ∧ CopyOK sh
        ∧ RInv H F Hp c0 wm0 sh ∧ sh.pos < sh.fsize := by
  have hT : get_sparse_extent_content g ≠ []
      ∧ (get_sparse_extent_content g).length < 2 ^ 31 := by
    refine ⟨?_, by rw [hTl, chunkhash_single_size_eq]; decide⟩
    intro he
    rw [he, chunkhash_single_size_eq] at hTl
    simp at hTl
  intro fuel
  induction fuel with
  | zero => intro st k sh _ _ _ h; simp [main_loop_heads] at h
  | succ fuel ih =>
    intro st k sh hI hok hR h
    rw [main_loop_heads] at h
    by_cases hlt : st.pos < st.fsize
    · rw [if_pos hlt] at h
      simp only [List.mem_cons, Prod.mk.injEq] at h
      rcases h with ⟨_, e2⟩ | h
      · rw [e2]
        exact ⟨hI, hok, hR, hlt⟩
      · have h1 : HInv H (get_sparse_extent_content g) exts F init
            (load_chunk_hashes st).hview := by
          rw [load_chunk_hashes_hview]; exact hI
        have h2 := advance_extent_HInv H _ exts F init _ h1
        have hp := advance_extent_pos (load_chunk_hashes st)
        have hlt' : (advance_extent (load_chunk_hashes st)).pos
            < (advance_extent (load_chunk_hashes st)).fsize := by
          rw [hp.1, hp.2.1]
          have e1 : (load_chunk_hashes st).pos = st.pos :=
            congrArg HView.pos (load_chunk_hashes_hview st)
          have e2 : (load_chunk_hashes st).fsize = st.fsize :=
            congrArg HView.fsize (load_chunk_hashes_hview st)
          rw [e1, e2]; exact hlt
        cases hk : known_sparse (advance_extent (load_chunk_hashes st))
            ((advance_extent (load_chunk_hashes st)).pos + c_checkpoint_dist) with
        | true =>
          rw [hk] at h
          simp only [if_true] at h
          split at h
          · rename_i s hs
            have hH := sparse_chunk_HInv H g exts F init fuel _ s hT h2 hlt' hk hs
            obtain ⟨a1, a2⟩ := RInv_sparse_step H g exts F init Hp c0 wm0 hT htr hnn fuel st s
              hI hok hR hlt hk hs
            exact ih _ _ _ hH a1 a2 h
          · simp at h
        | false =>
          rw [hk] at h
          simp only [Bool.false_eq_true, if_false] at h
          split at h
          · rename_i s hs
            have hH := (normal_chunk_HInv H _ exts F init fuel _ s h2 hlt' hs).1
            obtain ⟨a1, a2, _⟩ := RInv_normal_step H g exts F init Hp c0 wm0 hTl fuel st s
              hI hok hR hlt hs
            exact ih _ _ _ hH a1 a2 h
          · simp at h
    · rw [if_neg hlt] at h
      simp at h

/-- The invariant of the replica with the current replica as the reference. -/
theorem RInv_rebase (H : HashFns) (F Hp : List Byte) (c0 : IFile) (wm0 : Int) (st : State)
    (c : IFile) (hc : st.copy = some c) (hR : RInv H F Hp c0 wm0 st) :
    RInv H F Hp c st.copy_max_sparse st := by
  refine { hR with ext := ?_ }
  intro c' hc'
  rw [hc] at hc'
  simp only [Option.some.injEq] at hc'
  rw [← hc']
  exact Ext_refl F c _

/-- A big chunk for which the collision recovery has fired is in the replica behind
the main loop. -/
theorem fired_chunk_final (H : HashFns) (g : Globals) (exts : List SSparseExtent)
    (F init Hp : List Byte) (c0 : IFile) (wm0 : Int)
    (hTl : (get_sparse_extent_content g).length = chunkhash_single_size)
    (htr : truthful exts F) (hnn : ∀ e ∈ exts, 0 ≤ e.offset)
    (k : Nat) (sh s3 st1 : State)
    (hI : HInv H (get_sparse_extent_content g) exts F init sh.hview) (hok : CopyOK sh)
    (hR : RInv H F Hp c0 wm0 sh) (hlt : sh.pos < sh.fsize)
    (hk : known_sparse (advance_extent (load_chunk_hashes sh))
        ((advance_extent (load_chunk_hashes sh)).pos + c_checkpoint_dist) = false)
    (h3 : hash_big_chunk H k (advance_extent (load_chunk_hashes sh))
        ((advance_extent (load_chunk_hashes sh)).pos + c_checkpoint_dist) = some (Step.next s3))
    (hf : recovery_fires H s3 = true)
    (hm : main_loop H g (k + 1) sh = some (Step.next st1)) :
    ∀ c1, st1.copy = some c1 →
      ∀ o, sh.pos ≤ o → o < sh.pos + c_checkpoint_dist → o < F.length →
        Agree F c1 st1.copy_max_sparse o := by
  rw [main_loop, if_pos hlt] at hm
  simp only at hm
  rw [hk] at hm
  simp only [Bool.false_eq_true, if_false] at hm
  split at hm
  · simp at hm
  · simp at hm
  · rename_i s hs
    have h1 : HInv H (get_sparse_extent_content g) exts F init (load_chunk_hashes sh).hview := by
      rw [load_chunk_hashes_hview]; exact hI
    have h2 := advance_extent_HInv H _ exts F init _ h1
    have hp := advance_extent_pos (load_chunk_hashes sh)
    have hlt' : (advance_extent (load_chunk_hashes sh)).pos
        < (advance_extent (load_chunk_hashes sh)).fsize := by
      rw [hp.1, hp.2.1]
      have e1 : (load_chunk_hashes sh).pos = sh.pos :=
        congrArg HView.pos (load_chunk_hashes_hview sh)
      have e2 : (load_chunk_hashes sh).fsize = sh.fsize :=
        congrArg HView.fsize (load_chunk_hashes_hview sh)
      rw [e1, e2]; exact hlt
    have hH := (normal_chunk_HInv H _ exts F init k _ s h2 hlt' hs).1
    obtain ⟨a1, a2, a3⟩ := RInv_normal_step H g exts F init Hp c0 wm0 hTl k sh s
      hI hok hR hlt hs
    obtain ⟨c2, hc2⟩ := a2.has_copy
    have hfresh := a3 s3 h3 hf c2 hc2
    have hR2 := RInv_rebase H F Hp c0 wm0 s c2 hc2 a2
    obtain ⟨_, _, b3, _⟩ := main_loop_RInv H g exts F init Hp c2 s.copy_max_sparse hTl htr hnn
      k s st1 hH a1 hR2 hm
    intro c1 hc1 o o1 o2 o3
    exact b3.ext c1 hc1 o (hfresh o o1 o2 o3)

theorem read_input_size_rfields (st st' : State) (h : read_input_size st = Step.next st') :
    st'.modify_inplace = st.modify_inplace ∧ st'.copy = st.copy
      ∧ st'.copy_write_pos = st.copy_write_pos ∧ st'.copy_max_sparse = st.copy_max_sparse
      ∧ st'.copy_sparse_extent_start = st.copy_sparse_extent_start ∧ st'.pos = st.pos
      ∧ st'.chunk_hashes = st.chunk_hashes
      ∧ (∀ hi2, st'.hashinput = some hi2 → ∃ hi, st.hashinput = some hi ∧ hi2.data = hi.data)
      ∧ (st'.hashinput = none → st.hashinput = none) := by
  unfold read_input_size at h
  split at h
  · rename_i hn
    simp only [Step.next.injEq] at h
    rw [← h]
    refine ⟨rfl, rfl, rfl, rfl, rfl, rfl, rfl, ?_, fun _ => hn⟩
    intro hi2 hx
    rw [hn] at hx
    exact absurd hx (by simp)
  · rename_i hi hs
    simp only [IFile.Seek, IFile.Read] at h
    split at h
    · simp at h
    · simp only [Step.next.injEq] at h
      rw [← h]
      refine ⟨rfl, rfl, rfl, rfl, rfl, rfl, rfl, ?_, ?_⟩
      · intro hi2 hx
        simp only [Option.some.injEq] at hx
        rw [← hx]
        exact ⟨hi, hs, rfl⟩
      · intro hx
        simp at hx

/-- The fields of the state in front of the main loop that the replica depends
on. -/
theorem prologue_rfields (a : Args) (st0 : State) (h : prologue a = some (Step.next st0)) :
    st0.modify_inplace = a.modify_inplace ∧ st0.copy = a.copy ∧ st0.copy_write_pos = 0
      ∧ st0.copy_max_sparse = -1 ∧ st0.copy_sparse_extent_start = -1 ∧ st0.pos = 0
      ∧ (∀ hi, st0.hashinput = some hi → hi.data = prev_hashfile a)
      ∧ (st0.hashinput = none → st0.chunk_hashes = none) := by
  unfold prologue at h
  simp only at h
  split at h
  · simp at h
  · simp at h
  · rename_i s0 hw
    obtain ⟨ho, cb, rfl⟩ := write_hashoutput_form _ _ _ _ hw
    split at h
    · simp at h
    · rename_i s1 hr
      simp only [Option.some.injEq, Step.next.injEq] at h
      obtain ⟨r1, r2, r3, r4, r5, r6, r7, r8, r9⟩ := read_input_size_rfields _ _ hr
      rw [← h]
      refine ⟨r1, r2, r3, r4, r5, r6, ?_, ?_⟩
      · intro hi hx
        obtain ⟨hi0, e1, e2⟩ := r8 hi hx
        have e3 : a.hashinput = some hi0 := e1
        unfold prev_hashfile
        rw [e3]
        exact e2
      · intro hx
        have hx1 : s1.hashinput = none := hx
        show (match s1.hashinput with
              | none => s1.chunk_hashes
              | some _ => some a.uninit) = none
        rw [hx1]
        exact r7

/-- The invariant of the replica holds in front of the main loop. -/
theorem prologue_RInv (H : HashFns) (a : Args) (st0 : State) (R0 : IFile)
    (hm : a.modify_inplace = true) (hc : a.copy = some R0)
    (h : prologue a = some (Step.next st0)) :
    RInv H a.f.data (prev_hashfile a) R0 (-1) st0 := by
  obtain ⟨p1, p2, p3, p4, p5, p6, p7, p8⟩ := prologue_rfields a st0 h
  constructor
  · rw [p1]; exact hm
  · exact ⟨R0, by rw [p2]; exact hc⟩
  · intro _; rw [p3, p6]
  · exact p7
  · exact p8
  · exact Or.inl p4
  · intro hne; exact absurd p5 hne
  · intro c hc'
    rw [p2, hc] at hc'
    simp only [Option.some.injEq] at hc'
    rw [← hc', p4]
    exact Ext_refl _ _ _
  · intro c _ o ho
    rw [p6] at ho
    exact absurd ho (Nat.not_lt_zero o)

/-- The replica at the return: every byte that the replica holds behind the main
loop in the sense of `Agree` is in the file. -/
theorem epilogue_replica (H : HashFns) (F : List Byte) (st1 st2 st : State) (ret : List Byte)
    (c1 : IFile) (hc : st1.copy = some c1)
    (hr : restore_copy_size (close_last_run st1) = Step.next st2)
    (hf : final_digest H st2 = (ret, st)) :
    ∃ R, st.copy = some R
      ∧ ∀ o, Agree F c1 st1.copy_max_sparse o →
          o < R.data.length ∧ R.data.getD o 0 = F.getD o 0 := by
  have hcl : (close_last_run st1).copy = st1.copy
      ∧ (close_last_run st1).copy_max_sparse = st1.copy_max_sparse := by
    unfold close_last_run
    split
    · exact ⟨rfl, rfl⟩
    · exact ⟨rfl, rfl⟩
  have hfin : st.copy = st2.copy := by
    have e : st = (final_digest H st2).2 := by rw [hf]
    rw [e]
    unfold final_digest
    split
    · split <;> rfl
    · rfl
  unfold restore_copy_size at hr
  rw [hcl.1, hc] at hr
  simp only at hr
  rw [hcl.2] at hr
  by_cases hw : st1.copy_max_sparse ≠ -1 ∧ st1.copy_max_sparse > (c1.Size : Int)
  · rw [if_pos hw] at hr
    simp only [IFile.Resize, not_true_eq_false, if_false, Step.next.injEq] at hr
    refine ⟨(c1.Resize st1.copy_max_sparse).2, ?_, ?_⟩
    · rw [hfin, ← hr]
      rfl
    · intro o ho
      exact Agree_resized F c1 _ o ho hw
  · rw [if_neg hw] at hr
    simp only [Step.next.injEq] at hr
    refine ⟨c1, ?_, ?_⟩
    · rw [hfin, ← hr, hcl.1, hc]
    · intro o ho
      exact Agree_unresized F c1 _ o ho hw

/-! ## The replica after a run in `modify_inplace` mode -/

theorem template_length (H : HashFns) (g0 : Globals) :
    (get_sparse_extent_content (init_chunk_hasher H g0)).length = chunkhash_single_size := by
  rw [get_sparse_extent_content_init]
  exact sparse_template_spec_length H

/-- C10: after a run of `build_chunk_hashs` with `modify_inplace` and a replica,
without I/O error and with an extent iterator that only reports ranges of the source
that are all zero, the replica holds the byte of the source at every offset that lies
in a small chunk whose small hash recorded in the previous hashfile differs from the
new one (whichever path has handled its big chunk), and at every offset of a big
chunk for which the collision recovery has fired (the big chunk of an iteration
`(k, sh)` of the main loop whose control MD5 differs from the recorded one); a run
without faults returns for every fuel above `fsize + N + 1`. -/
theorem C10_replica_fidelity (H : HashFns) (g0 : Globals) (fuel : Nat) (a : Args) (R0 : IFile)
    (hm : a.modify_inplace = true) (hc : a.copy = some R0) (hff : a.fault_free)
    (htr : truthful (a.extent_iterator.getD []) a.f.data)
    (hnn : ∀ e ∈ a.extent_iterator.getD [], 0 ≤ e.offset) :
    (a.f.data.length + n_chunks + 1 < fuel →
        ∃ ret st, build_chunk_hashs H (init_chunk_hasher H g0) fuel a = some (ret, st) ∧ ret ≠ [])
      ∧ ∀ (ret : List Byte) (st : State),
          build_chunk_hashs H (init_chunk_hasher H g0) fuel a = some (ret, st) → ret ≠ [] →
          ∃ R, st.copy = some R
            ∧ (∀ o, o < a.f.data.length →
                Differs H a.f.data (prev_hashfile a) (o / c_small_hash_dist) →
                o < R.data.length ∧ R.data.getD o 0 = a.f.data.getD o 0)
            ∧ (∀ (st0 : State) (k : Nat) (sh s3 : State),
                prologue a = some (Step.next st0) →
                (k, sh) ∈ main_loop_heads H (init_chunk_hasher H g0) fuel st0 →
                known_sparse (advance_extent (load_chunk_hashes sh))
                  ((advance_extent (load_chunk_hashes sh)).pos + c_checkpoint_dist) = false →
                hash_big_chunk H k (advance_extent (load_chunk_hashes sh))
                  ((advance_extent (load_chunk_hashes sh)).pos + c_checkpoint_dist)
                    = some (Step.next s3) →
                recovery_fires H s3 = true →
                ∀ o, sh.pos ≤ o → o < sh.pos + c_checkpoint_dist → o < a.f.data.length →
                  o < R.data.length ∧ R.data.getD o 0 = a.f.data.getD o 0) := by
  have hTl := template_length H g0
  have hT := template_fits H g0
  constructor
  · intro hfuel
    exact build_chunk_hashs_terminates H _ fuel a hT hff hfuel
  · intro ret st hrun hret
    obtain ⟨st0, st1, st2, hp, hmn, hr, hf⟩ :=
      build_chunk_hashs_next H _ fuel a ret st hrun hret
    have h0 := prologue_HInv H (get_sparse_extent_content (init_chunk_hasher H g0)) a st0
      hff.ho_ideal hp
    have hok0 : CopyOK st0 := by
      obtain ⟨s, hs, hk⟩ := prologue_progress a hff
      rw [hp] at hs
      simp only [Option.some.injEq, Step.next.injEq] at hs
      rw [hs]; exact hk
    have hR0 := prologue_RInv H a st0 R0 hm hc hp
    obtain ⟨h1, _, hR1, hx⟩ := main_loop_RInv H _ _ _ _ (prev_hashfile a) R0 (-1) hTl htr hnn
      fuel st0 st1 h0 hok0 hR0 hmn
    obtain ⟨c1, hc1⟩ := hR1.has_copy
    obtain ⟨R, hR, hfin⟩ := epilogue_replica H a.f.data st1 st2 st ret c1 hc1 hr hf
    have hfs1 : st1.fsize = a.f.data.length := h1.fsize
    refine ⟨R, hR, ?_, ?_⟩
    · intro o ho hd
      exact hfin o (hR1.cov c1 hc1 o (by omega) ho hd)
    · intro st0' k sh s3 hp' hmem hk h3 hfire o o1 o2 o3
      rw [hp] at hp'
      simp only [Option.some.injEq, Step.next.injEq] at hp'
      rw [← hp'] at hmem
      obtain ⟨i1, i2, i3, i4⟩ := main_loop_heads_inv H _ _ _ _ (prev_hashfile a) R0 (-1)
        hTl htr hnn fuel st0 k sh h0 hok0 hR0 hmem
      have hrun2 := main_loop_heads_run H _ fuel st0 k sh hmem
      rw [hrun2] at hmn
      exact hfin o (fired_chunk_final H _ _ _ _ (prev_hashfile a) R0 (-1) hTl htr hnn
        k sh s3 st1 i1 i2 i3 i4 hk h3 hfire hmn c1 hc1 o o1 o2 o3)

theorem inplace_args_fault_free : inplace_args.fault_free := by
  refine ⟨fun _ _ => rfl, ?_, ?_⟩
  · intro c hc
    have e : some (mem_file [66]) = some c := hc
    simp only [Option.some.injEq] at e
    rw [← e]
    exact ⟨fun _ _ => rfl, rfl⟩
  · intro hi hh
    have e : some (mem_file one_byte_prev) = some hi := hh
    simp only [Option.some.injEq] at e
    rw [← e]
    decide

theorem collision_args_fault_free : collision_args.fault_free := by
  refine ⟨fun _ _ => rfl, ?_, ?_⟩
  · intro c hc
    have e : some (mem_file [66]) = some c := hc
    simp only [Option.some.injEq] at e
    rw [← e]
    exact ⟨fun _ _ => rfl, rfl⟩
  · intro hi hh
    have e : some (mem_file one_byte_collision) = some hi := hh
    simp only [Option.some.injEq] at e
    rw [← e]
    decide

/-- Witness of C10, on two runs. The source `A`, the replica `B` and the hashfile of
`B`: the adler-32 differs, the run returns and the replica then holds the byte of `A`.
The source `A`, the replica `B` and a hashfile with the adler-32 of `A` and another
big-chunk digest: the adler-32 agrees, collision recovery fires, the run returns and
the replica then holds the byte of `A`. -/
theorem C10_replica_fidelity_witness :
    (∃ ret st R,
      build_chunk_hashs demo_digests (init_chunk_hasher demo_digests ⟨[]⟩) 1100 inplace_args
          = some (ret, st)
        ∧ Differs demo_digests inplace_args.f.data (prev_hashfile inplace_args) 0
        ∧ st.copy = some R ∧ 0 < R.data.length ∧ R.data.getD 0 0 = 65)
      ∧ ∃ ret st R,
        build_chunk_hashs demo_digests (init_chunk_hasher demo_digests ⟨[]⟩) 1100
            collision_args = some (ret, st)
          ∧ ¬ Differs demo_digests collision_args.f.data (prev_hashfile collision_args) 0
          ∧ recovery_fires demo_digests collision_hashed = true
          ∧ st.copy = some R ∧ 0 < R.data.length ∧ R.data.getD 0 0 = 65 := by
  constructor
  · have T := C10_replica_fidelity demo_digests ⟨[]⟩ 1100 inplace_args (mem_file [66]) rfl rfl
      inplace_args_fault_free (fun e he => absurd he (List.not_mem_nil e))
      (fun e he => absurd he (List.not_mem_nil e))
    have hl : inplace_args.f.data.length = 1 := rfl
    obtain ⟨ret, st, hrun, hret⟩ := T.1 (by rw [hl, n_chunks_eq]; omega)
    obtain ⟨R, hR, h1, _⟩ := T.2 ret st hrun hret
    have hd : Differs demo_digests inplace_args.f.data (prev_hashfile inplace_args) 0 := by
      unfold Differs; decide
    have h := h1 0 (by rw [hl]; omega) hd
    exact ⟨ret, st, R, hrun, hd, hR, h.1, h.2⟩
  · have T := C10_replica_fidelity demo_digests ⟨[]⟩ 1100 collision_args (mem_file [66])
      rfl rfl collision_args_fault_free (fun e he => absurd he (List.not_mem_nil e))
      (fun e he => absurd he (List.not_mem_nil e))
    have hl : collision_args.f.data.length = 1 := rfl
    obtain ⟨ret, st, hrun, hret⟩ := T.1 (by rw [hl, n_chunks_eq]; omega)
    obtain ⟨R, hR, _, h2⟩ := T.2 ret st hrun hret
    have hmem : (1099, collision_head)
        ∈ main_loop_heads demo_digests (init_chunk_hasher demo_digests ⟨[]⟩) 1100
            collision_head := by
      rw [main_loop_heads, if_pos (by decide)]
      exact List.mem_cons_self _ _
    have h := h2 collision_head 1099 collision_head collision_hashed rfl hmem rfl rfl rfl 0
      (Nat.le_of_eq rfl)
      (by rw [c_checkpoint_dist_eq]; exact Nat.lt_of_lt_of_le (by decide) (Nat.le_add_left _ _))
      (by rw [hl]; omega)
    exact ⟨ret, st, R, hrun, by unfold Differs; decide, rfl, hR, h.1, h.2⟩

/-! ## The resilient writer for every sink -/

theorem IFile.Write_spec (f : IFile) (buf : List Byte) (rc : Nat) (f1 : IFile)
    (h : f.Write buf = (rc, f1)) :
    rc ≤ buf.length ∧ f1.cursor = f.cursor + rc ∧ f1.nwrites = f.nwrites + 1
      ∧ f1.data = (if rc = 0 then f.data else write_at f.data f.cursor (buf.take rc))
      ∧ f1.accept = f.accept ∧ f1.punch_ok = f.punch_ok := by
  simp only [IFile.Write, Prod.mk.injEq] at h
  obtain ⟨h1, h2⟩ := h
  subst h2
  subst h1
  exact ⟨Nat.min_le_right _ _, rfl, rfl, rfl, rfl, rfl⟩

theorem getD_eq_of_lt (l : List Byte) (i : Nat) (h : i < l.length) : l.getD i 0 = l[i] := by
  simp [List.getD, List.getElem?_eq_getElem h]

theorem list_eq_of_getD (l1 l2 : List Byte) (hl : l1.length = l2.length)
    (h : ∀ i, i < l1.length → l1.getD i 0 = l2.getD i 0) : l1 = l2 := by
  apply List.ext_getElem hl
  intro i h1 h2
  have e := h i h1
  rw [getD_eq_of_lt l1 i h1, getD_eq_of_lt l2 i h2] at e
  exact e

theorem write_at_write_at (d : List Byte) (c : Nat) (a b : List Byte) :
    write_at (write_at d c a) (c + a.length) b = write_at d c (a ++ b) := by
  apply list_eq_of_getD
  · simp only [write_at_length, List.length_append]; omega
  · intro i _
    simp only [write_at_getD, List.length_append]
    by_cases h1 : i < c
    · rw [if_pos (by omega), if_pos h1, if_pos h1]
    · by_cases h2 : i < c + a.length
      · rw [if_pos h2, if_neg h1, if_pos h2, if_neg h1, if_pos (by omega),
          getD_append_lt _ _ _ (by omega)]
      · by_cases h3 : i < c + a.length + b.length
        · rw [if_neg h2, if_pos h3, if_neg h1, if_pos (by omega),
            getD_append_ge _ _ _ (by omega)]
          congr 1; omega
        · rw [if_neg h2, if_neg h3, if_neg h1, if_neg h2, if_neg h1, if_neg (by omega)]

theorem getLast?_cons_of_some (a x : Nat) (l : List Nat) (h : l.getLast? = some x) :
    (a :: l).getLast? = some x := by
  cases l with
  | nil => simp at h
  | cons b l => rw [List.getLast?_cons_cons]; exact h

theorem take_take_drop (l : List Byte) (w a b : Nat) :
    (l.drop w).take a ++ ((l.drop (w + a)).take b) = (l.drop w).take (a + b) := by
  rw [List.take_add, List.drop_drop]

theorem count_zero_cons (rc : Nat) (l : List Nat) :
    (rc :: l).count 0 = l.count 0 + (if rc = 0 then 1 else 0) := by
  rw [List.count_cons]
  by_cases h : rc = 0
  · subst h; simp
  · have : (rc == 0) = false := by simpa using h
    rw [this, if_neg h]; simp

/-- The loop of `writeFileRepeatTries` ends within `(|buf| - written) + tries`
iterations, for every behaviour of the sink. -/
theorem writeFileRepeatTries_loop_spec (buf : List Byte) :
    ∀ (fuel : Nat) (f : IFile) (written : Nat) (tries : Int),
      1 ≤ tries → written ≤ buf.length → (buf.length - written) + tries.toNat ≤ fuel →
      ∃ rc f', writeFileRepeatTries_loop buf fuel f written tries = some (rc, f')
        ∧ (writeFileRepeatTries_rcs buf fuel f written tries).getLast? = some rc
        ∧ f'.nwrites = f.nwrites + (writeFileRepeatTries_rcs buf fuel f written tries).length
        ∧ f'.cursor = f.cursor + (writeFileRepeatTries_rcs buf fuel f written tries).sum
        ∧ written + (writeFileRepeatTries_rcs buf fuel f written tries).sum ≤ buf.length
        ∧ (writeFileRepeatTries_rcs buf fuel f written tries).length
            ≤ (buf.length - written) + tries.toNat
        ∧ ((writeFileRepeatTries_rcs buf fuel f written tries).count 0 : Int) ≤ tries
        ∧ (rc ≠ 0 → written + (writeFileRepeatTries_rcs buf fuel f written tries).sum = buf.length)
        ∧ (rc = 0 → written < buf.length →
            ((writeFileRepeatTries_rcs buf fuel f written tries).count 0 : Int) = tries
              ∧ written + (writeFileRepeatTries_rcs buf fuel f written tries).sum < buf.length)
        ∧ (rc ≠ 0 → ((writeFileRepeatTries_rcs buf fuel f written tries).count 0 : Int) < tries)
        ∧ f'.data = (if (writeFileRepeatTries_rcs buf fuel f written tries).sum = 0 then f.data
            else write_at f.data f.cursor
              ((buf.drop written).take (writeFileRepeatTries_rcs buf fuel f written tries).sum)) := by
  intro fuel
  induction fuel with
  | zero => intro f written tries ht _ hb; omega
  | succ fuel ih =>
    intro f written tries ht hw hb
    rcases hW : f.Write (buf.drop written) with ⟨rc, f1⟩
    obtain ⟨hrc, hcur, hnw, hdat, _, _⟩ := IFile.Write_spec f _ rc f1 hW
    rw [List.length_drop] at hrc
    simp only [writeFileRepeatTries_loop, writeFileRepeatTries_rcs, hW]
    generalize ht' : (if rc = 0 then tries - 1 else tries) = t'
    have ht1 : rc = 0 → t' = tries - 1 := fun h => by rw [← ht', if_pos h]
    have ht2 : rc ≠ 0 → t' = tries := fun h => by rw [← ht', if_neg h]
    by_cases hc : written + rc < buf.length ∧ (rc > 0 ∨ t' > 0)
    · rw [if_pos hc, if_pos hc]
      have ht3 : 1 ≤ t' := by
        by_cases h0 : rc = 0
        · have := ht1 h0; omega
        · have := ht2 h0; omega
      have hb2 : (buf.length - (written + rc)) + t'.toNat ≤ fuel := by
        by_cases h0 : rc = 0
        · have := ht1 h0; omega
        · have := ht2 h0; omega
      obtain ⟨rc2, f2, e1, e2, e3, e4, e5, e6, e7, e8, e9, e11, e10⟩ :=
        ih f1 (written + rc) t' ht3 (by omega) hb2
      generalize writeFileRepeatTries_rcs buf fuel f1 (written + rc) t' = rcs at *
      refine ⟨rc2, f2, e1, getLast?_cons_of_some _ _ _ e2, ?_, ?_, ?_, ?_, ?_, ?_, ?_, ?_, ?_⟩
      · rw [e3, hnw, List.length_cons]; omega
      · rw [e4, hcur, List.sum_cons]; omega
      · rw [List.sum_cons]; omega
      · rw [List.length_cons]
        by_cases h0 : rc = 0
        · have := ht1 h0; omega
        · have := ht2 h0; omega
      · rw [count_zero_cons]
        by_cases h0 : rc = 0
        · have := ht1 h0; rw [if_pos h0]; omega
        · have := ht2 h0; rw [if_neg h0]; omega
      · intro h; rw [List.sum_cons]; have := e8 h; omega
      · intro h hl
        rw [count_zero_cons, List.sum_cons]
        have e := e9 h (by omega)
        by_cases h0 : rc = 0
        · have := ht1 h0; rw [if_pos h0]; omega
        · have := ht2 h0; rw [if_neg h0]; omega
      · intro h
        rw [count_zero_cons]
        have e := e11 h
        by_cases h0 : rc = 0
        · have := ht1 h0; rw [if_pos h0]; omega
        · have := ht2 h0; rw [if_neg h0]; omega
      · rw [e10, hdat, hcur, List.sum_cons]
        by_cases h0 : rc = 0
        · subst h0
          simp only [if_true, Nat.add_zero, Nat.zero_add]
        · rw [if_neg h0]
          by_cases hs : rcs.sum = 0
          · rw [if_pos hs, hs, if_neg (by omega), Nat.add_zero]
          · rw [if_neg hs, if_neg (by omega)]
            have hl : ((buf.drop written).take rc).length = rc := by
              rw [List.length_take, List.length_drop]; omega
            have := write_at_write_at f.data f.cursor ((buf.drop written).take rc)
              ((buf.drop (written + rc)).take rcs.sum)
            rw [hl] at this
            rw [this, take_take_drop]
    · rw [if_neg hc, if_neg hc]
      refine ⟨rc, f1, rfl, rfl, ?_, ?_, ?_, ?_, ?_, ?_, ?_, ?_, ?_⟩
      · rw [hnw]; rfl
      · rw [hcur]; simp
      · simp; omega
      · simp only [List.length_singleton]
        have : 1 ≤ tries.toNat := by omega
        omega
      · rw [count_zero_cons]
        by_cases h0 : rc = 0
        · rw [if_pos h0]; simp; omega
        · rw [if_neg h0]; simp; omega
      · intro h
        simp only [List.sum_cons, List.sum_nil, Nat.add_zero]
        have : ¬ written + rc < buf.length := by
          intro hl; exact hc ⟨hl, Or.inl (Nat.pos_of_ne_zero h)⟩
        omega
      · intro h hl
        rw [count_zero_cons, if_pos h]
        have h1 := ht1 h
        have : ¬ t' > 0 := by
          intro hp; exact hc ⟨by omega, Or.inr hp⟩
        simp
        omega
      · intro h
        rw [count_zero_cons, if_neg h]
        simp
        omega
      · simp only [List.sum_cons, List.sum_nil, Nat.add_zero]
        rw [hdat]

/-- The function `writeFileRepeatTries` for every sink: it returns, and the values
returned by its calls of `Write` decide the result. -/
theorem writeFileRepeatTries_spec (f : IFile) (buf : List Byte) :
    ∃ ok f', writeFileRepeatTries f buf = some (ok, f')
      ∧ f'.nwrites = f.nwrites + (writeRepeatFreeSpace_rcs f buf none).length
      ∧ f'.cursor = f.cursor + (writeRepeatFreeSpace_rcs f buf none).sum
      ∧ (writeRepeatFreeSpace_rcs f buf none).sum ≤ buf.length
      ∧ (writeRepeatFreeSpace_rcs f buf none).length ≤ buf.length + 50
      ∧ (writeRepeatFreeSpace_rcs f buf none).count 0 ≤ 50
      ∧ (ok = true → (writeRepeatFreeSpace_rcs f buf none).sum = buf.length)
      ∧ (buf ≠ [] → ((ok = false ↔ (writeRepeatFreeSpace_rcs f buf none).count 0 = 50)
          ∧ (ok = true ↔ (writeRepeatFreeSpace_rcs f buf none).sum = buf.length)))
      ∧ (ok = true → buf ≠ [] → f'.data = write_at f.data f.cursor buf) := by
  obtain ⟨rc, f', e1, _, e3, e4, e5, e6, e7, e8, e9, e11, e10⟩ :=
    writeFileRepeatTries_loop_spec buf (buf.length + 51) f 0 50 (by omega) (by omega) (by omega)
  have hr : writeRepeatFreeSpace_rcs f buf none
      = writeFileRepeatTries_rcs buf (buf.length + 51) f 0 50 := rfl
  rw [hr]
  generalize writeFileRepeatTries_rcs buf (buf.length + 51) f 0 50 = rcs at *
  have hlen : buf ≠ [] → 0 < buf.length := fun h => List.length_pos.mpr h
  by_cases h0 : rc = 0
  · refine ⟨false, f', by simp [writeFileRepeatTries, e1, h0], e3, e4, by omega, by omega,
      by omega, (by intro h; cases h), ?_, (by intro h; cases h)⟩
    intro hb
    have := e9 h0 (hlen hb)
    constructor
    · constructor
      · intro _; omega
      · intro _; rfl
    · constructor
      · intro h; cases h
      · intro h; omega
  · refine ⟨true, f', by simp [writeFileRepeatTries, e1, h0], e3, e4, by omega, by omega,
      by omega, (by intro _; have := e8 h0; omega), ?_, ?_⟩
    · intro hb
      have := e11 h0
      constructor
      · constructor
        · intro h; cases h
        · intro h; omega
      · constructor
        · intro _; have := e8 h0; omega
        · intro _; rfl
    · intro _ hb
      have hs := e8 h0
      have := hlen hb
      rw [e10, if_neg (by omega), List.drop_zero]
      have : rcs.sum = buf.length := by omega
      rw [this, List.take_length]

/-- C15: without a callback `writeRepeatFreeSpace` (through `writeFileRepeatTries`)
returns for every sink, after at most `|buf| + 50` calls of `Write` of which at most 50
return zero.  For a non-empty buffer it goes on with the remainder after short writes:
it reports failure exactly when `Write` has returned zero 50 times, and success exactly
when the returned counts sum to `|buf|`, and `buf` is then stored at the old cursor. -/
theorem C15_bounded_retries (f : IFile) (buf : List Byte) :
    ∃ ok f', writeRepeatFreeSpace f buf none = some (ok, f', none)
      ∧ f'.nwrites = f.nwrites + (writeRepeatFreeSpace_rcs f buf none).length
      ∧ f'.cursor = f.cursor + (writeRepeatFreeSpace_rcs f buf none).sum
      ∧ (writeRepeatFreeSpace_rcs f buf none).length ≤ buf.length + 50
      ∧ (writeRepeatFreeSpace_rcs f buf none).count 0 ≤ 50
      ∧ (buf ≠ [] → ((ok = false ↔ (writeRepeatFreeSpace_rcs f buf none).count 0 = 50)
          ∧ (ok = true ↔ (writeRepeatFreeSpace_rcs f buf none).sum = buf.length)))
      ∧ (ok = true → buf ≠ [] → f'.data = write_at f.data f.cursor buf) := by
  obtain ⟨ok, f2, e1, e2, e3, _, e5, e6, _, e8, e9⟩ := writeFileRepeatTries_spec f buf
  exact ⟨ok, f2, by simp [writeRepeatFreeSpace, e1], e2, e3, e5, e6, e8, e9⟩

/-- Witness of C15: a sink that never takes a byte is tried 50 times, a sink that
takes nothing at the first call gets the whole buffer at the second. -/
theorem C15_bounded_retries_witness :
    (∃ f', writeRepeatFreeSpace full_sink [7, 8] none = some (false, f', none)
        ∧ f'.nwrites = 50)
      ∧ ∃ f', writeRepeatFreeSpace stall_sink [7, 8] none = some (true, f', none)
        ∧ f'.nwrites = 2 ∧ f'.data = [7, 8] := by
  constructor
  · obtain ⟨ok, f', e1, e2, _, _, _, e6, _⟩ := C15_bounded_retries full_sink [7, 8]
    have hok : ok = false := (e6 (by decide)).1.mpr (by decide)
    subst hok
    refine ⟨f', e1, ?_⟩
    rw [e2]; decide
  · obtain ⟨ok, f', e1, e2, _, _, _, e6, e7⟩ := C15_bounded_retries stall_sink [7, 8]
    have hok : ok = true := (e6 (by decide)).2.mpr (by decide)
    subst hok
    refine ⟨f', e1, ?_, e7 rfl (by decide)⟩
    rw [e2]; decide

/-- C12, on a run where it fails: the sink of the hashfile takes nothing when the 16
bytes that reserve the MD5 slot are written and the callback does not answer "retry",
so that `writeRepeatFreeSpace` returns `false` for the placeholder.  The result of that
call is not looked at: the run goes on and returns `"k"`, and the hashfile it leaves
has 24 bytes, the size field and the MD5, without the adler-32 of the small chunk. -/
theorem C12_placeholder_write_ignored :
    prologue placeholder_fault_args = some (Step.next placeholder_fault_head)
      ∧ (∃ ho cb, writeRepeatFreeSpace placeholder_fault_head.hashoutput
            (List.replicate big_hash_size 0) placeholder_fault_head.cb = some (false, ho, cb))
      ∧ ∃ st, build_chunk_hashs demo_digests (init_chunk_hasher demo_digests ⟨[]⟩) 3
            placeholder_fault_args = some ([107], st)
          ∧ st.hashoutput.data
              = [1, 0, 0, 0, 0, 0, 0, 0, 65, 1, 0, 0, 0, 0, 0, 0, 0, 0, 0, 0, 0, 0, 0, 0] := by
  exact ⟨rfl, ⟨_, _, rfl⟩, ⟨_, rfl, rfl⟩⟩

end ChunkHasher

namespace IncrFileBackup
/-! ## The sparse re-adder -/

theorem to_int32_of_small (n : Nat) (h : n < 2 ^ 31) : to_int32 (n : Int) = n := by
  unfold to_int32
  omega

/-- C18, as the code has it: `addSparseFileEntry` leaves the bookkeeping as it is for
every file smaller than 100 KiB (102400 bytes); when it re-registers a file (directly
or through the hash-existing queue) the size of the file is at least 102400 bytes, the
adler-32 of `curr_path + "/" + name`, converted to `int`, has the remainder
`incremental_num` modulo `K`, the client hash is trusted and present or the
hash-existing worker exists, and `num_readded_entries` was incremented. -/
theorem C18_readd_threshold (E : ReaddEnv) (curr_path : String) (cf : SFile)
    (K incremental_num : Int) (trust_client_hashes : Bool) (curr_sha2 local_curr_os_path : String)
    (curr_has_hash server_hash_existing : Bool) (st st2 : ReaddState)
    (h : addSparseFileEntry E curr_path cf K incremental_num trust_client_hashes curr_sha2
          local_curr_os_path curr_has_hash server_hash_existing st = some st2) :
    (cf.size < 102400 → st2 = st)
      ∧ (st2 ≠ st →
          102400 ≤ cf.size
            ∧ c_rem (to_int32 (E.urb_adler32 (curr_path ++ "/" ++ cf.name))) K
                = some incremental_num
            ∧ ((trust_client_hashes = true ∧ curr_sha2 ≠ "") ∨ server_hash_existing = true)
            ∧ st2.num_readded_entries = (st.num_readded_entries + 1) % 2 ^ 64) := by
  unfold addSparseFileEntry at h
  have hlim : c_readd_size_limit = 102400 := by decide
  rw [hlim] at h
  by_cases hs : cf.size < 102400
  · rw [if_pos hs] at h
    simp only [Option.some.injEq] at h
    exact ⟨fun _ => h.symm, fun hne => absurd h.symm hne⟩
  · rw [if_neg hs] at h
    refine ⟨fun h2 => absurd h2 hs, ?_⟩
    intro hne
    cases hr : c_rem (to_int32 (E.urb_adler32 (curr_path ++ "/" ++ cf.name))) K with
    | none => simp [hr] at h
    | some r =>
      simp only [hr] at h
      by_cases he : r = incremental_num
      · rw [if_pos he] at h
        by_cases ht : trust_client_hashes = true ∧ curr_sha2 ≠ ""
        · rw [if_pos ht] at h
          simp only [Option.some.injEq] at h
          subst h
          exact ⟨by omega, by rw [he], Or.inl ht, rfl⟩
        · rw [if_neg ht] at h
          by_cases hh : server_hash_existing = true
          · rw [if_pos hh] at h
            simp only [Option.some.injEq] at h
            subst h
            exact ⟨by omega, by rw [he], Or.inr hh, rfl⟩
          · rw [if_neg hh] at h
            simp only [Option.some.injEq] at h
            exact absurd h.symm hne
      · rw [if_neg he] at h
        simp only [Option.some.injEq] at h
        exact absurd h.symm hne

/-- Witness of C18: a file of 200000 bytes with a trusted client hash is re-registered
when `K = 1` and `incremental_num = 0`. -/
theorem C18_readd_threshold_witness :
    ∃ st2, addSparseFileEntry demo_readd_env "/d"
          { name := "f", size := 200000, last_modified := 0, isdir := false } 1 0 true "x" "/d/f"
          true false ReaddState.empty = some st2
      ∧ st2 ≠ ReaddState.empty ∧ st2.num_readded_entries = 1 := by
  obtain ⟨st2, h⟩ : ∃ st2, addSparseFileEntry demo_readd_env "/d"
      { name := "f", size := 200000, last_modified := 0, isdir := false } 1 0 true "x" "/d/f"
      true false ReaddState.empty = some st2 := ⟨_, rfl⟩
  have hne : st2 ≠ ReaddState.empty := by
    intro e
    rw [e] at h
    revert h
    decide
  exact ⟨st2, h, hne, ((C18_readd_threshold _ _ _ _ _ _ _ _ _ _ _ _ h).2 hne).2.2.2⟩

/-- Counterexample to C18 as stated: a file of exactly 102400 bytes, which is not
larger than 100 KiB, is re-registered and counted. -/
theorem C18_counterexample :
    ∃ st2, addSparseFileEntry demo_readd_env "/d"
          { name := "f", size := 102400, last_modified := 0, isdir := false } 1 0 true "x" "/d/f"
          true false ReaddState.empty = some st2
      ∧ st2.num_readded_entries = 1 ∧ st2.sql_calls.length = 1 := by
  exact ⟨_, rfl, rfl, rfl⟩

theorem c_rem_of_nonneg (a K : Int) (ha : 0 ≤ a) (hK : 0 < K) : c_rem a K = some (a % K) := by
  unfold c_rem
  rw [if_neg (by omega), Int.tmod_eq_emod ha (by omega)]

/-- C19, as the code has it: for every `K > 0` and every path whose adler-32 is below
`2^31` (so that the conversion to `int` keeps it), the condition of re-registration
holds for exactly one value of `incremental_num`, the remainder of the adler-32 modulo
`K`, which is one of `0, …, K-1`. -/
theorem C19_readd_residue (E : ReaddEnv) (path : String) (K : Int) (hK : 0 < K)
    (hpos : E.urb_adler32 path < 2 ^ 31) :
    0 ≤ (E.urb_adler32 path : Int) % K ∧ (E.urb_adler32 path : Int) % K < K
      ∧ ∀ n : Int, readd_due E path K n = some (decide (n = (E.urb_adler32 path : Int) % K)) := by
  refine ⟨Int.emod_nonneg _ (by omega), Int.emod_lt_of_pos _ hK, ?_⟩
  intro n
  unfold readd_due
  rw [to_int32_of_small _ hpos, c_rem_of_nonneg _ K (by omega) hK]
  simp only [Option.some.injEq, decide_eq_decide]
  constructor
  · intro h; exact h.symm
  · intro h; exact h.symm

/-- Witness of C19: the path `/d/f` with `K = 3` is due in the run with
`incremental_num = 2` and in no other. -/
theorem C19_readd_residue_witness :
    readd_due demo_readd_env "/d/f" 3 2 = some true
      ∧ ∀ n : Int, n ≠ 2 → readd_due demo_readd_env "/d/f" 3 n = some false := by
  have T := C19_readd_residue demo_readd_env "/d/f" 3 (by decide) (by decide)
  have e : ((demo_readd_env.urb_adler32 "/d/f" : Nat) : Int) % 3 = 2 := by decide
  rw [e] at T
  refine ⟨by rw [T.2.2 2]; rfl, ?_⟩
  intro n hn
  rw [T.2.2 n]
  simp [hn]

/-- Counterexample to C19 as stated, for `K = 2`.  The two consecutive values 2 and 3
of `incremental_num`: the condition holds for neither, for no remainder modulo 2 is 2
or 3.  The two consecutive values 0 and 1 and a path whose adler-32 is `2^31` or
more: the conversion to `int` makes it negative, the remainder is -1 and the condition
holds for neither. -/
theorem C19_counterexample :
    (readd_due demo_readd_env "/d/f" 2 2 = some false
        ∧ readd_due demo_readd_env "/d/f" 2 3 = some false)
      ∧ (2 ^ 31 ≤ demo_readd_env.urb_adler32 "/home/user/documents/report-2015.txt"
        ∧ readd_due demo_readd_env "/home/user/documents/report-2015.txt" 2 0 = some false
        ∧ readd_due demo_readd_env "/home/user/documents/report-2015.txt" 2 1 = some false) := by
  decide

/-! ## The new client list -/

theorem rewrite_entry_line (E : RewriteEnv) (st : RewriteState) (cf : SFile) :
    (rewrite_entry E st cf).line = st.line + 1 := by
  unfold rewrite_entry
  split_ifs <;> rfl

theorem rewrite_clientlist_line (E : RewriteEnv) (es : List SFile) :
    ∀ st, (rewrite_clientlist E es st).line = st.line + es.length := by
  induction es with
  | nil => intro st; rfl
  | cons cf rest ih =>
    intro st
    rw [rewrite_clientlist, ih, rewrite_entry_line, List.length_cons]
    omega

/-- What `rewrite_entry` appends for the entry `cf`: nothing, `cf`, or `cf` with a
randomized time. -/
theorem rewrite_entry_written (E : RewriteEnv) (st : RewriteState) (cf : SFile) :
    (rewrite_entry E st cf).written = st.written
      ∨ (rewrite_entry E st cf).written = st.written ++ [cf]
      ∨ ∃ k, (rewrite_entry E st cf).written = st.written ++ [randomize E k cf] := by
  unfold rewrite_entry
  split_ifs
  · exact Or.inr (Or.inr ⟨_, rfl⟩)
  · exact Or.inr (Or.inl rfl)
  · exact Or.inr (Or.inr ⟨_, rfl⟩)
  · exact Or.inr (Or.inl rfl)
  · exact Or.inl rfl

theorem rewrite_clientlist_written (E : RewriteEnv) (es : List SFile) :
    ∀ st w, w ∈ (rewrite_clientlist E es st).written →
      w ∈ st.written ∨ ∃ s ∈ es, w = s ∨ ∃ k, w = randomize E k s := by
  induction es with
  | nil => intro st w h; exact Or.inl h
  | cons cf rest ih =>
    intro st w h
    rw [rewrite_clientlist] at h
    rcases ih _ w h with h1 | ⟨s, hs, h2⟩
    · rcases rewrite_entry_written E st cf with e | e | ⟨k, e⟩
      · rw [e] at h1; exact Or.inl h1
      · rw [e, List.mem_append, List.mem_singleton] at h1
        rcases h1 with h1 | h1
        · exact Or.inl h1
        · exact Or.inr ⟨cf, List.mem_cons_self _ _, Or.inl h1⟩
      · rw [e, List.mem_append, List.mem_singleton] at h1
        rcases h1 with h1 | h1
        · exact Or.inl h1
        · exact Or.inr ⟨cf, List.mem_cons_self _ _, Or.inr ⟨k, h1⟩⟩
    · exact Or.inr ⟨s, List.mem_cons_of_mem _ hs, h2⟩

theorem randomize_greater (E : RewriteEnv) (k : Nat) (s : SFile)
    (hr : 2 ≤ E.getRandomNumber k % 2 ^ 32) (h0 : 0 < s.last_modified)
    (h1 : s.last_modified < 2 ^ 31) :
    s.last_modified < (randomize E k s).last_modified := by
  unfold randomize to_int64
  simp only
  have hlt : E.getRandomNumber k % 2 ^ 32 < 2 ^ 32 := Nat.mod_lt _ (by decide)
  generalize E.getRandomNumber k % 2 ^ 32 = r at hr hlt
  have hr2 : (2 : Int) ≤ (r : Int) := by exact_mod_cast hr
  have hr3 : (r : Int) < 2 ^ 32 := by exact_mod_cast hlt
  have hp1 : s.last_modified * 2 ≤ s.last_modified * (r : Int) :=
    Int.mul_le_mul_of_nonneg_left hr2 (by omega)
  have hp2 : s.last_modified * (r : Int) ≤ 2 ^ 31 * (r : Int) :=
    Int.mul_le_mul_of_nonneg_right (by omega) (by omega)
  have hp3 : (2 : Int) ^ 31 * (r : Int) ≤ 2 ^ 31 * 2 ^ 32 :=
    Int.mul_le_mul_of_nonneg_left (by omega) (by norm_num)
  generalize s.last_modified * (r : Int) = p at hp1 hp2 hp3
  have e31 : (2 : Int) ^ 31 * 2 ^ 32 = 2 ^ 63 := by norm_num
  rw [e31] at hp3
  omega

/-- C20, as the code has it: every entry written to the new client list is an entry of
the listing, unchanged or with its `modified_time` multiplied by a value that the
random-number source returned (an `unsigned int`, the product wrapped to 64 bits).
When those values are 2 or more and the times of the listing lie between 1 and
`2^31 - 1`, each written `modified_time` equals the one of the listing or is
strictly greater. -/
theorem C20_clientlist_times (E : RewriteEnv) (es : List SFile) (w : SFile)
    (hw : w ∈ (rewrite_clientlist E es RewriteState.start).written) :
    (∃ s ∈ es, w = s ∨ ∃ k, w = randomize E k s)
      ∧ ((∀ k, 2 ≤ E.getRandomNumber k % 2 ^ 32) →
          (∀ s ∈ es, 0 < s.last_modified ∧ s.last_modified < 2 ^ 31) →
          ∃ s ∈ es, w.name = s.name ∧ w.size = s.size ∧ w.isdir = s.isdir
            ∧ (w.last_modified = s.last_modified ∨ s.last_modified < w.last_modified)) := by
  have h := rewrite_clientlist_written E es RewriteState.start w hw
  rcases h with h | ⟨s, hs, h⟩
  · exact absurd h (List.not_mem_nil w)
  · refine ⟨⟨s, hs, h⟩, ?_⟩
    intro hr ht
    refine ⟨s, hs, ?_⟩
    rcases h with h | ⟨k, h⟩
    · subst h; exact ⟨rfl, rfl, rfl, Or.inl rfl⟩
    · subst h
      exact ⟨rfl, rfl, rfl, Or.inr (randomize_greater E k s (hr k) (ht s hs).1 (ht s hs).2)⟩

/-- Witness of C20: a partially downloaded file with the time 1000 and the random
value 3 is written with the time 3000. -/
theorem C20_clientlist_times_witness :
    ∃ s ∈ [({ name := "f", size := 1, last_modified := 1000, isdir := false } : SFile)],
      (3000 : Int) = s.last_modified ∨ s.last_modified < 3000 := by
  have T := (C20_clientlist_times partial_env3
    [{ name := "f", size := 1, last_modified := 1000, isdir := false }]
    { name := "f", size := 1, last_modified := 3000, isdir := false } (by decide)).2
    (fun _ => (by decide : 2 ≤ 3 % 2 ^ 32)) (by decide)
  obtain ⟨s, hs, _, _, _, h⟩ := T
  exact ⟨s, hs, h⟩

/-- Counterexample to C20 as stated: the random-number source returns 0 for a
partially downloaded file with the time 1000; the entry is written with the time 0,
which is neither the time of the listing nor greater. -/
theorem C20_counterexample :
    (rewrite_clientlist partial_env
        [{ name := "f", size := 1, last_modified := 1000, isdir := false }]
        RewriteState.start).written
      = [{ name := "f", size := 1, last_modified := 0, isdir := false }] := by
  decide

/-! ## The line index of the walk -/

theorem skip_block_line (E : WalkEnv) (st st1 : WalkState) (cf : SFile) (extra : ExtraParams)
    (os : String) (h : skip_block E st cf extra os = some st1) : st1.line = st.line := by
  simp only [skip_block] at h
  split_ifs at h
  all_goals first | (cases h; rfl) | (split at h; cases h; cases h; rfl)

theorem entry_preamble_line (E : WalkEnv) (st : WalkState) (extra : ExtraParams) :
    (entry_preamble E st extra).1.line = st.line := by
  unfold entry_preamble
  simp only
  split_ifs <;> rfl

theorem update_indirchange_line (E : WalkEnv) (st : WalkState) (cf : SFile) :
    (update_indirchange E st cf).line = st.line := by
  unfold update_indirchange
  split_ifs <;> rfl

theorem copy_dir_entries_line (E : WalkEnv) (l s sh : String) (b : Bool) (fes : List SFileEntry) :
    ∀ st, (copy_dir_entries E l s sh b fes st).line = st.line := by
  induction fes with
  | nil => intro st; rfl
  | cons fe rest ih =>
    intro st
    by_cases h : fe.fullpath.length > s.length
    · rw [copy_dir_entries, if_pos h]; exact ih _
    · rw [copy_dir_entries, if_neg h]; exact ih _

theorem link_large_subtree_line (E : WalkEnv) (st : WalkState) (l : String) :
    (link_large_subtree E st l).1.line = st.line := by
  simp only [link_large_subtree]
  split_ifs <;> simp [copy_dir_entries_line]

theorem dir_up_line (E : WalkEnv) (st : WalkState) (md : FileMetadata) :
    (dir_up E st md).line = st.line + 1 := by
  have e1 : (dir_up_record E st md).line = st.line := by
    simp only [dir_up_record]; split_ifs <;> rfl
  have e2 : ∀ s : WalkState, (dir_up_pop s).line = s.line := by
    intro s; simp only [dir_up_pop]; split_ifs <;> rfl
  have e3 : ∀ s : WalkState, (dir_up_shadowcopy s).line = s.line := by
    intro s; simp only [dir_up_shadowcopy]; split_ifs <;> rfl
  have e4 : ∀ (s : WalkState) (b : Bool), (dir_up_paths E s b).line = s.line + 1 := by
    intro s b; simp only [dir_up_paths]; split_ifs <;> rfl
  rw [dir_up, e4, e3, e2, e1]

theorem dir_enter_begin_line (E : WalkEnv) (st : WalkState) (cf : SFile) (os : String) (b : Bool) :
    (dir_enter_begin E st cf os b).line = st.line := by
  simp only [dir_enter_begin, bump_folder_items]
  split_ifs <;> rfl

theorem dir_enter_finish_line (st : WalkState) : (dir_enter_finish st).line = st.line + 1 := by
  simp only [dir_enter_finish]
  split_ifs <;> rfl

theorem dir_enter_finish_error (st : WalkState) :
    (dir_enter_finish st).c_has_error = st.c_has_error := by
  simp only [dir_enter_finish]
  split_ifs <;> rfl

theorem dir_enter_line (E : WalkEnv) (st : WalkState) (cf : SFile) (extra : ExtraParams)
    (os : String) (md : FileMetadata)
    (h : (dir_enter E st cf extra os md).c_has_error = false) :
    (dir_enter E st cf extra os md).line = st.line + 1 := by
  simp only [dir_enter] at h ⊢
  split_ifs at h ⊢
  all_goals rw [dir_enter_finish_line, link_large_subtree_line, dir_enter_begin_line]

theorem enqueue_download_line (E : WalkEnv) (st : WalkState) (cf : SFile) (os : String)
    (md : FileMetadata) : (enqueue_download E st cf os md).line = st.line := by
  simp only [enqueue_download, bump_folder_items]

theorem classify_file_line (E : WalkEnv) (st st1 : WalkState) (cf : SFile) (extra : ExtraParams)
    (os l s sha : String) (md : FileMetadata) (f : Bool × Bool × Bool × Bool)
    (h : classify_file E st cf extra os l s sha md = some (st1, f)) : st1.line = st.line := by
  simp only [classify_file] at h
  split at h
  · split_ifs at h
    all_goals (cases h; rfl)
  · split_ifs at h
    all_goals (cases h; rfl)

theorem walk_file_line (E : WalkEnv) (st st1 : WalkState) (cf : SFile) (extra : ExtraParams)
    (os : String) (md : FileMetadata) (h : walk_file E st cf extra os md = some st1)
    (he : st1.c_has_error = false) : st1.line = st.line + 1 := by
  simp only [walk_file] at h
  split at h
  · cases h; cases he
  · rename_i st2 f1 f2 f3 f4 hc
    have hl := classify_file_line _ _ _ _ _ _ _ _ _ _ _ hc
    split at h
    · cases h
    · rename_i rd hrd
      simp only [Option.some.injEq] at h
      rw [← h, ← hl]
      simp only [bump_folder_items]
      split_ifs <;> first | rfl | (split <;> rfl)

theorem fix_name_line (E : WalkEnv) (st : WalkState) (cf : SFile) :
    (fix_name E st cf).2.line = st.line := by
  simp only [fix_name]
  split_ifs <;> rfl

theorem entry_body_line (E : WalkEnv) (st st1 : WalkState) (cf : SFile)
    (extra : ExtraParams) (os : String) (h : entry_body E st cf extra os = some st1)
    (he : st1.c_has_error = false) : st1.line = st.line + 1 := by
  simp only [entry_body] at h
  split_ifs at h
  · cases h
    rw [dir_enter_line _ _ _ _ _ _ he, update_indirchange_line, entry_preamble_line]
  · cases h
    rw [dir_up_line, update_indirchange_line, entry_preamble_line]
  · rw [walk_file_line _ _ _ _ _ _ _ h he, entry_preamble_line]

/-- Every entry that does not end the loop increments `line` by one, the
directory-up entries included. -/
theorem doFileBackup_entry_line (E : WalkEnv) (st st1 : WalkState) (cf : SFile)
    (extra : ExtraParams) (h : doFileBackup_entry E st cf extra = some st1)
    (he : st1.c_has_error = false) : st1.line = st.line + 1 := by
  simp only [doFileBackup_entry] at h
  have hf := fix_name_line E st cf
  generalize fix_name E st cf = fx at h hf
  split_ifs at h
  · split at h
    · cases h
    · rename_i s1 hs
      have hl := skip_block_line _ _ _ _ _ _ hs
      split_ifs at h
      · cases h; simp only; omega
      · rw [entry_body_line _ _ _ _ _ _ h he, hl, hf]
  · rw [entry_body_line _ _ _ _ _ _ h he, hf]

theorem doFileBackup_walk_line (E : WalkEnv) (es : List (SFile × ExtraParams)) :
    ∀ st st2, doFileBackup_walk E es st = some st2 → st2.c_has_error = false →
      st2.line = st.line + es.length := by
  induction es with
  | nil =>
    intro st st2 h _
    simp only [doFileBackup_walk, Option.some.injEq] at h
    rw [← h]; rfl
  | cons e rest ih =>
    intro st st2 h he
    obtain ⟨cf, extra⟩ := e
    simp only [doFileBackup_walk] at h
    split at h
    · cases h
    · rename_i s1 hs
      split_ifs at h with hc
      · simp only [Option.some.injEq] at h
        rw [← h] at he
        simp only at he
        rw [hc] at he; cases he
      · have hl := doFileBackup_entry_line E st s1 cf extra hs (by simpa using hc)
        rw [ih _ _ h he, List.length_cons]
        simp only
        omega

theorem deleteFilesInSnapshot_entry_line (E : DeleteEnv) (st st1 : DeleteState) (cf : SFile)
    (h : deleteFilesInSnapshot_entry E st cf = some st1) : st1.line = st.line + 1 := by
  simp only [deleteFilesInSnapshot_entry] at h
  split_ifs at h
  all_goals (cases h; rfl)

theorem deleteFilesInSnapshot_loop_line (E : DeleteEnv) (es : List SFile) :
    ∀ st st2, deleteFilesInSnapshot_loop E es st = some st2 → st2.line = st.line + es.length := by
  induction es with
  | nil =>
    intro st st2 h
    simp only [deleteFilesInSnapshot_loop, Option.some.injEq] at h
    rw [← h]; rfl
  | cons cf rest ih =>
    intro st st2 h
    simp only [deleteFilesInSnapshot_loop] at h
    split at h
    · cases h
    · rename_i s1 hs
      rw [ih _ _ h, deleteFilesInSnapshot_entry_line E st s1 cf hs, List.length_cons]
      omega

/-! ## The control variables of the walk -/

theorem fix_name_ctl (E : WalkEnv) (st : WalkState) (cf : SFile) :
    (fix_name E st cf).2.ctl = st.ctl := by
  simp only [fix_name]
  split_ifs <;> rfl

theorem entry_preamble_ctl (E : WalkEnv) (st : WalkState) (extra : ExtraParams) :
    (entry_preamble E st extra).1.ctl = st.ctl := by
  simp only [entry_preamble]
  split_ifs <;> rfl

theorem entry_preamble_meta (E : WalkEnv) (st : WalkState) (extra : ExtraParams) :
    (entry_preamble E st extra).2 = E.read_metadata extra := rfl

theorem entry_preamble_items (E : WalkEnv) (st : WalkState) (extra : ExtraParams) :
    (entry_preamble E st extra).1.folder_items = st.folder_items
      ∧ (entry_preamble E st extra).1.curr_path = st.curr_path
      ∧ (entry_preamble E st extra).1.curr_os_path = st.curr_os_path := by
  simp only [entry_preamble]
  split_ifs <;> exact ⟨rfl, rfl, rfl⟩

theorem link_large_subtree_off (E : WalkEnv) (st : WalkState) (l : String)
    (h : E.use_directory_links = false) : link_large_subtree E st l = (st, false) := by
  simp [link_large_subtree, h]

theorem dir_enter_begin_ctl (E : WalkEnv) (st : WalkState) (cf : SFile) (os : String) (b : Bool) :
    (dir_enter_begin E st cf os b).ctl
      = { st.ctl with dir_diff_stack := dir_diff_of E st :: st.dir_diff_stack } := by
  simp only [dir_enter_begin, bump_folder_items]
  split_ifs <;> rfl

theorem dir_enter_finish_ctl (st : WalkState) :
    (dir_enter_finish st).ctl = { st.ctl with depth := st.depth + 1, line := st.line + 1 } := by
  simp only [dir_enter_finish]
  split_ifs <;> rfl

theorem classify_file_ctl (E : WalkEnv) (st st1 : WalkState) (cf : SFile) (extra : ExtraParams)
    (os l s sha : String) (md : FileMetadata) (f : Bool × Bool × Bool × Bool)
    (h : classify_file E st cf extra os l s sha md = some (st1, f)) : st1.ctl = st.ctl := by
  simp only [classify_file] at h
  split at h
  · split_ifs at h
    all_goals (cases h; rfl)
  · split_ifs at h
    all_goals (cases h; rfl)

theorem walk_file_ctl (E : WalkEnv) (st st1 : WalkState) (cf : SFile) (extra : ExtraParams)
    (os : String) (md : FileMetadata) (h : walk_file E st cf extra os md = some st1)
    (he : st1.c_has_error = false) : st1.ctl = { st.ctl with line := st.line + 1 } := by
  simp only [walk_file] at h
  split at h
  · cases h; cases he
  · rename_i st2 f1 f2 f3 f4 hc
    have hl := classify_file_ctl _ _ _ _ _ _ _ _ _ _ _ hc
    split at h
    · cases h
    · rename_i rd hrd
      simp only [Option.some.injEq] at h
      rw [← h]
      simp only [bump_folder_items]
      have e : st.line = st.ctl.line := rfl
      rw [e, ← hl]
      split_ifs <;> first | rfl | (split <;> rfl)

theorem update_indirchange_ctl (E : WalkEnv) (st : WalkState) (cf : SFile) :
    (update_indirchange E st cf).ctl
      = { st.ctl with
          indirchange := st.indirchange || hasChange st.line E.diffs,
          changelevel := if st.indirchange then st.changelevel
            else if hasChange st.line E.diffs then
              (if cf.name ≠ ".." then st.depth else st.depth - 1)
            else st.changelevel } := by
  simp only [update_indirchange, WalkState.ctl]
  cases h1 : st.indirchange <;> cases h2 : hasChange st.line E.diffs <;>
    by_cases h3 : cf.name = ".." <;> simp [h1, h2, h3]

theorem update_indirchange_other (E : WalkEnv) (st : WalkState) (cf : SFile) :
    (update_indirchange E st cf).folder_items = st.folder_items
      ∧ (update_indirchange E st cf).queue = st.queue
      ∧ (update_indirchange E st cf).curr_path = st.curr_path
      ∧ (update_indirchange E st cf).curr_os_path = st.curr_os_path := by
  simp only [update_indirchange]
  split_ifs <;> exact ⟨rfl, rfl, rfl, rfl⟩

theorem dir_enter_ctl (E : WalkEnv) (st : WalkState) (cf : SFile) (extra : ExtraParams)
    (os : String) (md : FileMetadata) (hl : E.use_directory_links = false)
    (h : (dir_enter E st cf extra os md).c_has_error = false) :
    (dir_enter E st cf extra os md).ctl
      = { st.ctl with depth := st.depth + 1,
                      dir_diff_stack := dir_diff_of E st :: st.dir_diff_stack,
                      line := st.line + 1 } := by
  simp only [dir_enter, link_large_subtree_off _ _ _ hl] at h ⊢
  split_ifs at h ⊢
  all_goals
    rw [dir_enter_finish_ctl, dir_enter_begin_ctl]
    have e1 := dir_enter_begin_ctl E st cf os md.has_orig_path
    have e2 : (dir_enter_begin E st cf os md.has_orig_path).depth = st.depth :=
      congrArg WalkCtl.depth e1
    have e3 : (dir_enter_begin E st cf os md.has_orig_path).line = st.line :=
      congrArg WalkCtl.line e1
    rw [e2, e3]

theorem dir_up_record_ctl (E : WalkEnv) (st : WalkState) (md : FileMetadata) :
    (dir_up_record E st md).ctl = st.ctl := by
  simp only [dir_up_record]; split_ifs <;> rfl

theorem dir_up_pop_ctl (st : WalkState) :
    (dir_up_pop st).ctl
      = { st.ctl with depth := st.depth - 1,
                      dir_diff_stack := st.dir_diff_stack.tail,
                      indirchange := st.indirchange && !decide (st.depth - 1 = st.changelevel) } := by
  simp only [dir_up_pop, WalkState.ctl]
  by_cases h2 : st.depth - 1 = st.changelevel
  · cases h1 : st.indirchange <;> simp [h2]
  · cases h1 : st.indirchange <;> simp [h2]

theorem dir_up_shadowcopy_ctl (st : WalkState) : (dir_up_shadowcopy st).ctl = st.ctl := by
  simp only [dir_up_shadowcopy]; split_ifs <;> rfl

theorem dir_up_paths_ctl (E : WalkEnv) (st : WalkState) (b : Bool) :
    (dir_up_paths E st b).ctl = { st.ctl with line := st.line + 1 } := by
  simp only [dir_up_paths]; split_ifs <;> rfl

theorem dir_up_ctl (E : WalkEnv) (st : WalkState) (md : FileMetadata) :
    (dir_up E st md).ctl
      = { st.ctl with depth := st.depth - 1,
                      dir_diff_stack := st.dir_diff_stack.tail,
                      indirchange := st.indirchange && !decide (st.depth - 1 = st.changelevel),
                      line := st.line + 1 } := by
  have e1 := dir_up_record_ctl E st md
  have e2 := dir_up_pop_ctl (dir_up_record E st md)
  have e3 := dir_up_shadowcopy_ctl (dir_up_pop (dir_up_record E st md))
  have e4 := dir_up_paths_ctl E (dir_up_shadowcopy (dir_up_pop (dir_up_record E st md)))
    md.has_orig_path
  have f1 : (dir_up_record E st md).depth = st.depth := congrArg WalkCtl.depth e1
  have f2 : (dir_up_record E st md).dir_diff_stack = st.dir_diff_stack :=
    congrArg WalkCtl.dir_diff_stack e1
  have f3 : (dir_up_record E st md).indirchange = st.indirchange :=
    congrArg WalkCtl.indirchange e1
  have f4 : (dir_up_record E st md).changelevel = st.changelevel :=
    congrArg WalkCtl.changelevel e1
  have f5 : (dir_up_shadowcopy (dir_up_pop (dir_up_record E st md))).line = st.line := by
    have := congrArg WalkCtl.line e3
    have g := congrArg WalkCtl.line e2
    have g1 := congrArg WalkCtl.line e1
    simp only [WalkState.ctl] at this g g1
    rw [this, g, g1]
  rw [dir_up, e4, e3, e2, e1, f1, f2, f3, f4, f5]

/-- Outside of a linked directory an entry that does not end the loop changes the
control variables as `ctl_step` says. -/
theorem doFileBackup_entry_ctl (E : WalkEnv) (st st1 : WalkState) (cf : SFile)
    (extra : ExtraParams) (hl : E.use_directory_links = false)
    (hs : st.skip_dir_completely = 0)
    (h : doFileBackup_entry E st cf extra = some st1) (he : st1.c_has_error = false) :
    st1.ctl = ctl_step E st.ctl cf := by
  simp only [doFileBackup_entry] at h
  have hf := fix_name_ctl E st cf
  generalize fix_name E st cf = fx at h hf
  have hs2 : fx.2.skip_dir_completely = 0 := by
    have := congrArg WalkCtl.skip_dir_completely hf
    simp only [WalkState.ctl] at this
    rw [this, hs]
  rw [if_neg (by omega)] at h
  simp only [entry_body] at h
  have hp := entry_preamble_ctl E fx.2 extra
  generalize entry_preamble E fx.2 extra = pre at h hp
  rw [hf] at hp
  have hu := update_indirchange_ctl E pre.1 cf
  have hpd : pre.1.depth = st.depth := congrArg WalkCtl.depth hp
  have hpl : pre.1.line = st.line := congrArg WalkCtl.line hp
  have hpi : pre.1.indirchange = st.indirchange := congrArg WalkCtl.indirchange hp
  have hpc : pre.1.changelevel = st.changelevel := congrArg WalkCtl.changelevel hp
  have hpk : pre.1.dir_diff_stack = st.dir_diff_stack := congrArg WalkCtl.dir_diff_stack hp
  rw [hp, hpd, hpl, hpi, hpc] at hu
  generalize update_indirchange E pre.1 cf = st2 at h hu
  have hud : st2.depth = st.depth := congrArg WalkCtl.depth hu
  have hul : st2.line = st.line := congrArg WalkCtl.line hu
  have hui : st2.indirchange = (st.indirchange || hasChange st.line E.diffs) :=
    congrArg WalkCtl.indirchange hu
  have huk : st2.dir_diff_stack = st.dir_diff_stack := congrArg WalkCtl.dir_diff_stack hu
  have huc := congrArg WalkCtl.changelevel hu
  simp only [WalkState.ctl] at huc
  split_ifs at h with h1 h2
  · -- directory
    simp only [Option.some.injEq] at h
    subst h
    rw [dir_enter_ctl _ _ _ _ _ _ hl he, hu, hud, hul, huk]
    simp only [ctl_step, h1, if_true, WalkState.ctl, dir_diff_of, hui, hul]
    rw [if_pos h2, if_pos h2]
    cases st.indirchange <;> cases hasChange st.line E.diffs <;> simp
  · -- directory-up
    simp only [Option.some.injEq] at h
    subst h
    rw [dir_up_ctl, hu, hud, hul, huk, hui, huc]
    simp only [ctl_step, h1, if_true, WalkState.ctl]
    rw [if_neg h2, if_neg h2]
  · -- file
    rw [walk_file_ctl _ _ _ _ _ _ _ h he, hp, hpl]
    simp only [ctl_step, h1]
    rfl

theorem ctl_step_skip (E : WalkEnv) (c : WalkCtl) (cf : SFile) :
    (ctl_step E c cf).skip_dir_completely = c.skip_dir_completely := by
  simp only [ctl_step]
  split_ifs <;> rfl

theorem doFileBackup_walk_ctl (E : WalkEnv) (hl : E.use_directory_links = false)
    (es : List (SFile × ExtraParams)) :
    ∀ st st2, st.skip_dir_completely = 0 → doFileBackup_walk E es st = some st2 →
      st2.c_has_error = false → st2.ctl = ctl_run E es st.ctl := by
  induction es with
  | nil =>
    intro st st2 _ h _
    simp only [doFileBackup_walk, Option.some.injEq] at h
    rw [← h]; rfl
  | cons e rest ih =>
    intro st st2 hs h he
    obtain ⟨cf, extra⟩ := e
    simp only [doFileBackup_walk] at h
    split at h
    · cases h
    · rename_i s1 hs1
      split_ifs at h with hc
      · simp only [Option.some.injEq] at h
        rw [← h] at he
        simp only at he
        rw [hc] at he; cases he
      · have hc2 : s1.c_has_error = false := by simpa using hc
        have e1 := doFileBackup_entry_ctl E st s1 cf extra hl hs hs1 hc2
        have hs2 : s1.skip_dir_completely = 0 := by
          have := congrArg WalkCtl.skip_dir_completely e1
          rw [ctl_step_skip] at this
          exact this.trans hs
        have := ih { s1 with entries_seen := s1.entries_seen + 1 } st2 hs2 h he
        rw [this, ctl_run]
        have e2 : ({ s1 with entries_seen := s1.entries_seen + 1 } : WalkState).ctl = s1.ctl := rfl
        rw [e2, e1]

/-- Entries that close `d` open directories and their own: the depth falls by `d`,
the stack of `dir_diff` flags loses `d` flags, a change mark that was set below the
range stays, and no change mark that was set inside the range is left. -/
theorem ctl_run_closes (E : WalkEnv) (es : List (SFile × ExtraParams)) :
    ∀ (d : Nat) (c : WalkCtl), closes_dirs es d = true →
      (ctl_run E es c).depth = c.depth - d
        ∧ (ctl_run E es c).dir_diff_stack = c.dir_diff_stack.drop d
        ∧ (ctl_run E es c).line = c.line + es.length
        ∧ (c.indirchange = true → c.changelevel < c.depth - d →
            (ctl_run E es c).indirchange = true ∧ (ctl_run E es c).changelevel = c.changelevel)
        ∧ ((c.indirchange = true → c.depth - d ≤ c.changelevel ∧ c.changelevel < c.depth) →
            (ctl_run E es c).indirchange = false) := by
  induction es with
  | nil =>
    intro d c h
    simp only [closes_dirs, decide_eq_true_eq] at h
    subst h
    refine ⟨by simp [ctl_run], by simp [ctl_run], by simp [ctl_run], fun h _ => ⟨h, rfl⟩, ?_⟩
    intro h
    show c.indirchange = false
    cases hi : c.indirchange
    · rfl
    · have := h hi
      simp only [Nat.cast_zero, sub_zero] at this
      omega
  | cons e rest ih =>
    intro d c h
    simp only [closes_dirs] at h
    rw [ctl_run, List.length_cons]
    by_cases h1 : e.1.isdir = true
    · rw [if_pos h1] at h
      by_cases h2 : e.1.name = ".."
      · -- directory-up
        rw [if_neg (by simpa using h2)] at h
        simp only [Bool.and_eq_true, decide_eq_true_eq] at h
        obtain ⟨hd, hr⟩ := h
        obtain ⟨i1, i2, i3, i4, i5⟩ := ih (d - 1) (ctl_step E c e.1) hr
        have hd1 : ((d - 1 : Nat) : Int) = (d : Int) - 1 := by omega
        have s1 : (ctl_step E c e.1).depth = c.depth - 1 := by simp [ctl_step, h1, h2]
        have s2 : (ctl_step E c e.1).dir_diff_stack = c.dir_diff_stack.tail := by
          simp [ctl_step, h1, h2]
        have s3 : (ctl_step E c e.1).line = c.line + 1 := by simp [ctl_step, h1, h2]
        have s4 : (ctl_step E c e.1).changelevel
            = (if c.indirchange then c.changelevel
                else if hasChange c.line E.diffs then c.depth - 1 else c.changelevel) := by
          simp [ctl_step, h1, h2]
        have s5 : (ctl_step E c e.1).indirchange
            = ((c.indirchange || hasChange c.line E.diffs)
                && !decide (c.depth - 1 = (ctl_step E c e.1).changelevel)) := by
          simp [ctl_step, h1, h2]
        refine ⟨by rw [i1, s1, hd1]; omega, ?_, by rw [i3, s3]; omega, ?_, ?_⟩
        · rw [i2, s2, List.drop_tail]
          congr 1; omega
        · intro hi hc
          have hcl : (ctl_step E c e.1).changelevel = c.changelevel := by rw [s4, if_pos hi]
          have hin : (ctl_step E c e.1).indirchange = true := by
            rw [s5, hcl, hi]
            simp only [Bool.true_or, Bool.true_and, Bool.not_eq_true', decide_eq_false_iff_not]
            omega
          have := i4 hin (by rw [hcl, s1, hd1]; omega)
          rw [hcl] at this
          exact this
        · intro hJ
          apply i5
          intro hin
          rw [s5] at hin
          simp only [Bool.and_eq_true, Bool.or_eq_true, Bool.not_eq_true',
            decide_eq_false_iff_not] at hin
          obtain ⟨hch, hne⟩ := hin
          rw [s1, hd1]
          cases hi : c.indirchange
          · rw [s4, hi] at hne ⊢
            simp only [Bool.false_eq_true, if_false] at hne ⊢
            rw [hi] at hch
            simp only [Bool.false_eq_true, false_or] at hch
            rw [if_pos hch] at hne
            exact absurd rfl hne
          · have := hJ hi
            rw [s4, if_pos hi] at hne ⊢
            omega
      · -- directory
        rw [if_pos (by simpa using h2)] at h
        obtain ⟨i1, i2, i3, i4, i5⟩ := ih (d + 1) (ctl_step E c e.1) h
        have hd1 : ((d + 1 : Nat) : Int) = (d : Int) + 1 := by omega
        have s1 : (ctl_step E c e.1).depth = c.depth + 1 := by simp [ctl_step, h1, h2]
        have s2 : ∃ x, (ctl_step E c e.1).dir_diff_stack = x :: c.dir_diff_stack := by
          simp [ctl_step, h1, h2]
        have s3 : (ctl_step E c e.1).line = c.line + 1 := by simp [ctl_step, h1, h2]
        have s4 : (ctl_step E c e.1).changelevel
            = (if c.indirchange then c.changelevel
                else if hasChange c.line E.diffs then c.depth else c.changelevel) := by
          simp [ctl_step, h1, h2]
        have s5 : (ctl_step E c e.1).indirchange = (c.indirchange || hasChange c.line E.diffs) := by
          simp [ctl_step, h1, h2]
        refine ⟨by rw [i1, s1, hd1]; omega, ?_, by rw [i3, s3]; omega, ?_, ?_⟩
        · obtain ⟨x, hx⟩ := s2
          rw [i2, hx, List.drop_succ_cons]
        · intro hi hc
          have hcl : (ctl_step E c e.1).changelevel = c.changelevel := by rw [s4, if_pos hi]
          have hin : (ctl_step E c e.1).indirchange = true := by rw [s5, hi]; rfl
          have := i4 hin (by rw [hcl, s1, hd1]; omega)
          rw [hcl] at this
          exact this
        · intro hJ
          apply i5
          intro hin
          rw [s5] at hin
          rw [s1, hd1]
          cases hi : c.indirchange
          · rw [hi] at hin
            simp only [Bool.false_or] at hin
            rw [s4, hi]
            simp only [Bool.false_eq_true, if_false]
            rw [if_pos hin]
            omega
          · have := hJ hi
            rw [s4, if_pos hi]
            omega
    · -- file
      rw [if_neg h1] at h
      have hs : ctl_step E c e.1 = { c with line := c.line + 1 } := by simp [ctl_step, h1]
      obtain ⟨i1, i2, i3, i4, i5⟩ := ih d (ctl_step E c e.1) h
      rw [hs] at i1 i2 i3 i4 i5 ⊢
      exact ⟨i1, i2, by rw [i3]; simp only; omega, i4, i5⟩

theorem ctl_run_skip (E : WalkEnv) (es : List (SFile × ExtraParams)) :
    ∀ c, (ctl_run E es c).skip_dir_completely = c.skip_dir_completely := by
  induction es with
  | nil => intro c; rfl
  | cons e rest ih => intro c; rw [ctl_run, ih, ctl_step_skip]

theorem ctl_step_mark (E : WalkEnv) (c : WalkCtl) (cf : SFile)
    (h : c.indirchange = true → c.changelevel < c.depth) :
    (ctl_step E c cf).indirchange = true → (ctl_step E c cf).changelevel < (ctl_step E c cf).depth := by
  by_cases h1 : cf.isdir = true
  · by_cases h2 : cf.name = ".."
    · simp only [ctl_step, h1, h2, if_true, ne_eq, not_true_eq_false, if_false]
      cases hi : c.indirchange <;> cases hc : hasChange c.line E.diffs <;>
        simp [hi, hc] <;> have := h <;> simp [hi] at this <;> omega
    · simp only [ctl_step, h1, h2, if_true, ne_eq, not_false_eq_true]
      cases hi : c.indirchange <;> cases hc : hasChange c.line E.diffs <;>
        simp [hi, hc] <;> have := h <;> simp [hi] at this <;> omega
  · simp only [ctl_step, h1]
    exact h

theorem ctl_run_mark (E : WalkEnv) (es : List (SFile × ExtraParams)) :
    ∀ c, (c.indirchange = true → c.changelevel < c.depth) →
      (ctl_run E es c).indirchange = true →
        (ctl_run E es c).changelevel < (ctl_run E es c).depth := by
  induction es with
  | nil => intro c h; exact h
  | cons e rest ih => intro c h; rw [ctl_run]; exact ih _ (ctl_step_mark E c e.1 h)

/-- What a directory-up entry outside of a linked directory puts on the queue: the
directory-metadata record when `indirchange` (with the line of the entry itself taken
into account) or the flag on top of `dir_diff_stack` is set and the client has file
metadata, then at most the end of a shadow copy. -/
theorem dir_up_entry_queue (E : WalkEnv) (st st1 : WalkState) (cf : SFile) (extra : ExtraParams)
    (hs : st.skip_dir_completely = 0) (h1 : cf.isdir = true) (h2 : cf.name = "..")
    (h : doFileBackup_entry E st cf extra = some st1) :
    ∃ tail, (∀ q ∈ tail, ∃ t, q = QueueItem.stop_shadowcopy t)
      ∧ st1.queue = (entry_preamble E st extra).1.queue
          ++ (if ((st.indirchange || hasChange st.line E.diffs)
                  || st.dir_diff_stack.headD false) && decide (E.file_meta > 0) then
                [QueueItem.full st.line (E.ExtractFileName st.curr_path "/")
                  (E.ExtractFileName st.curr_os_path "/") (E.ExtractFilePath st.curr_path "/")
                  (E.ExtractFilePath st.curr_os_path "/") (if E.queue_downloads then 0 else -1)
                  (E.read_metadata extra) false true (st.folder_items.getLastD 0)]
              else [])
          ++ tail := by
  have hfx : fix_name E st cf = ("", st) := by simp [fix_name, h1, h2]
  simp only [doFileBackup_entry, hfx] at h
  rw [if_neg (by omega)] at h
  simp only [entry_body, h1, h2, if_true, ne_eq, not_true_eq_false, if_false,
    Option.some.injEq] at h
  subst h
  have hp := entry_preamble_ctl E st extra
  obtain ⟨p1, p2, p3⟩ := entry_preamble_items E st extra
  have pm := entry_preamble_meta E st extra
  generalize entry_preamble E st extra = pre at hp p1 p2 p3 pm ⊢
  have hu := update_indirchange_ctl E pre.1 cf
  obtain ⟨u1, u2, u3, u4⟩ := update_indirchange_other E pre.1 cf
  have hpl : pre.1.line = st.line := congrArg WalkCtl.line hp
  have hpi : pre.1.indirchange = st.indirchange := congrArg WalkCtl.indirchange hp
  have hpk : pre.1.dir_diff_stack = st.dir_diff_stack := congrArg WalkCtl.dir_diff_stack hp
  rw [hp, hpl, hpi] at hu
  generalize update_indirchange E pre.1 cf = st2 at hu u1 u2 u3 u4 ⊢
  have hul : st2.line = st.line := congrArg WalkCtl.line hu
  have hui : st2.indirchange = (st.indirchange || hasChange st.line E.diffs) :=
    congrArg WalkCtl.indirchange hu
  have huk : st2.dir_diff_stack = st.dir_diff_stack := congrArg WalkCtl.dir_diff_stack hu
  have e4 : ∀ (s : WalkState) (b : Bool), (dir_up_paths E s b).queue = s.queue := by
    intro s b; simp only [dir_up_paths]; split_ifs <;> rfl
  have e3 : ∀ s : WalkState, ∃ tail, (∀ q ∈ tail, ∃ t, q = QueueItem.stop_shadowcopy t)
      ∧ (dir_up_shadowcopy s).queue = s.queue ++ tail := by
    intro s
    simp only [dir_up_shadowcopy]
    split_ifs
    · exact ⟨[], fun q hq => absurd hq (List.not_mem_nil q), by simp⟩
    · exact ⟨[_], fun q hq => ⟨_, List.mem_singleton.mp hq⟩, rfl⟩
    · exact ⟨[], fun q hq => absurd hq (List.not_mem_nil q), by simp⟩
  have e2 : ∀ s : WalkState, (dir_up_pop s).queue = s.queue := by
    intro s; simp only [dir_up_pop]; split_ifs <;> rfl
  obtain ⟨tail, ht, hq⟩ := e3 (dir_up_pop (dir_up_record E st2 pre.2))
  refine ⟨tail, ht, ?_⟩
  rw [dir_up, e4, hq, e2]
  congr 1
  simp only [dir_up_record, hui, huk, hul, u1, u2, u3, u4, p1, p2, p3, pm]
  split_ifs <;> simp [u2]

/-! ## Claims on the line index -/

/-- C16, as the code has it: in the tree walk of `doFileBackup`, in the loop of
`deleteFilesInSnapshot` and in the loop that writes the new client list, `line` is
incremented once for every entry that the parser delivers, the directory-up entries
included: behind `n` entries (that did not end the loop) `line` has grown by `n`, so
that the line index of an entry is its position among all entries of the listing. -/
theorem C16_line_counts_every_entry :
    (∀ (E : WalkEnv) (es : List (SFile × ExtraParams)) (st st2 : WalkState),
        doFileBackup_walk E es st = some st2 → st2.c_has_error = false →
        st2.line = st.line + es.length)
      ∧ (∀ (E : DeleteEnv) (es : List SFile) (st st2 : DeleteState),
        deleteFilesInSnapshot_loop E es st = some st2 → st2.line = st.line + es.length)
      ∧ (∀ (E : RewriteEnv) (es : List SFile) (st : RewriteState),
        (rewrite_clientlist E es st).line = st.line + es.length) :=
  ⟨fun E es => doFileBackup_walk_line E es, fun E es => deleteFilesInSnapshot_loop_line E es,
    fun E es => rewrite_clientlist_line E es⟩

/-- Witness of C16: behind the seven entries of the listing
`[Dir A, File a, Dir B, File b, .., File c, ..]` the walk has `line = 7`. -/
theorem C16_line_counts_every_entry_witness :
    ∃ st2, doFileBackup_walk (demo_walk_env [3] []) scenario_listing WalkState.start = some st2
      ∧ st2.line = 7 := by
  obtain ⟨st2, h, he⟩ : ∃ st2,
      doFileBackup_walk (demo_walk_env [3] []) scenario_listing WalkState.start = some st2
        ∧ st2.c_has_error = false := ⟨_, rfl, rfl⟩
  exact ⟨st2, h, C16_line_counts_every_entry.1 _ _ _ _ h he⟩

/-- Counterexample to C16 as stated: in the listing `[Dir A, .., File f]` one entry
in front of `File f` is not a directory-up entry, and the walk, the loop of
`deleteFilesInSnapshot` and the loop that writes the client list all reach `File f`
with `line = 2`: the directory-up entry was counted. -/
theorem C16_counterexample :
    (([dir_entry "A", up_entry].filter (fun e => !(e.1.isdir && e.1.name = ".."))).length = 1)
      ∧ (∃ st2, doFileBackup_walk (demo_walk_env [] []) [dir_entry "A", up_entry] WalkState.start
            = some st2 ∧ st2.c_has_error = false ∧ st2.line = 2)
      ∧ (∃ st2, deleteFilesInSnapshot_loop demo_delete_env [(dir_entry "A").1, up_entry.1]
            (DeleteState.start "/s") = some st2 ∧ st2.line = 2)
      ∧ (rewrite_clientlist partial_env [(dir_entry "A").1, up_entry.1] RewriteState.start).line
          = 2 := by
  exact ⟨by decide, ⟨_, rfl, rfl, rfl⟩, ⟨_, rfl, rfl⟩, rfl⟩

/-! ## Claims on the directory-metadata record -/

/-- C17, as the code has it.  The walk, without directory links, has handled the
entries `pre` without error and reaches the directory `d` in the state `s_d`; the
entries `inner` of the directory are well nested, and the walk reaches the
directory-up entry `up` of `d` in the state `s_up`.  Then `up` puts the
directory-metadata record of `d` on the queue, with the item count on top of
`folder_items`, exactly when the client has file metadata and one of these holds:
`indirchange` was set when the walk reached `d`, the line of `d` is in `diffs` or in
`dir_diffs`, or the line of `up` is in `diffs`.  A changed file below `d` does not
enter the condition. -/
theorem C17_dir_metadata_record (E : WalkEnv) (pre inner : List (SFile × ExtraParams))
    (d up : SFile × ExtraParams) (s_d s_up s_end : WalkState)
    (hl : E.use_directory_links = false)
    (hd1 : d.1.isdir = true) (hd2 : d.1.name ≠ "..")
    (hu1 : up.1.isdir = true) (hu2 : up.1.name = "..")
    (hn : well_nested inner = true)
    (h1 : doFileBackup_walk E pre WalkState.start = some s_d) (h1e : s_d.c_has_error = false)
    (h2 : doFileBackup_walk E (d :: inner) s_d = some s_up) (h2e : s_up.c_has_error = false)
    (h3 : doFileBackup_entry E s_up up.1 up.2 = some s_end) :
    s_d.line = pre.length ∧ s_up.line = pre.length + 1 + inner.length
      ∧ ∃ tail, (∀ q ∈ tail, ∃ t, q = QueueItem.stop_shadowcopy t)
        ∧ s_end.queue = (entry_preamble E s_up up.2).1.queue
            ++ (if (s_d.indirchange = true ∨ hasChange s_d.line E.diffs = true
                    ∨ hasChange s_d.line E.dir_diffs = true
                    ∨ hasChange s_up.line E.diffs = true) ∧ 0 < E.file_meta then
                  [QueueItem.full s_up.line (E.ExtractFileName s_up.curr_path "/")
                    (E.ExtractFileName s_up.curr_os_path "/")
                    (E.ExtractFilePath s_up.curr_path "/")
                    (E.ExtractFilePath s_up.curr_os_path "/")
                    (if E.queue_downloads then 0 else -1) (E.read_metadata up.2) false true
                    (s_up.folder_items.getLastD 0)]
                else [])
            ++ tail := by
  -- the state at `d`
  have c1 := doFileBackup_walk_ctl E hl pre WalkState.start s_d rfl h1 h1e
  have hsk : s_d.skip_dir_completely = 0 := by
    have := congrArg WalkCtl.skip_dir_completely c1
    rw [ctl_run_skip] at this
    exact this
  have hmark : s_d.indirchange = true → s_d.changelevel < s_d.depth := by
    have := ctl_run_mark E pre WalkState.start.ctl (by intro h; cases h)
    rw [← c1] at this
    exact this
  have hline : s_d.line = pre.length := by
    have := doFileBackup_walk_line E pre _ _ h1 h1e
    rw [this]; simp [WalkState.start]
  -- the state at `up`
  have c2 := doFileBackup_walk_ctl E hl (d :: inner) s_d s_up hsk h2 h2e
  rw [ctl_run] at c2
  have s1 : (ctl_step E s_d.ctl d.1).depth = s_d.depth + 1 := by
    simp [ctl_step, hd1, hd2, WalkState.ctl]
  have s2 : (ctl_step E s_d.ctl d.1).dir_diff_stack
      = (!(s_d.indirchange || hasChange s_d.line E.diffs) && hasChange s_d.line E.dir_diffs)
          :: s_d.dir_diff_stack := by
    simp [ctl_step, hd1, hd2, WalkState.ctl]
  have s3 : (ctl_step E s_d.ctl d.1).line = s_d.line + 1 := by
    simp [ctl_step, hd1, hd2, WalkState.ctl]
  have s4 : (ctl_step E s_d.ctl d.1).changelevel
      = (if s_d.indirchange then s_d.changelevel
          else if hasChange s_d.line E.diffs then s_d.depth else s_d.changelevel) := by
    simp [ctl_step, hd1, hd2, WalkState.ctl]
  have s5 : (ctl_step E s_d.ctl d.1).indirchange
      = (s_d.indirchange || hasChange s_d.line E.diffs) := by
    simp [ctl_step, hd1, hd2, WalkState.ctl]
  obtain ⟨_, i2, i3, i4, i5⟩ := ctl_run_closes E inner 0 (ctl_step E s_d.ctl d.1) hn
  rw [← c2] at i2 i3 i4 i5
  have hstack : s_up.dir_diff_stack.headD false
      = (!(s_d.indirchange || hasChange s_d.line E.diffs) && hasChange s_d.line E.dir_diffs) := by
    have : s_up.dir_diff_stack = (ctl_step E s_d.ctl d.1).dir_diff_stack := by
      rw [List.drop_zero] at i2; exact i2
    rw [this, s2]; rfl
  have hind : s_up.indirchange = (s_d.indirchange || hasChange s_d.line E.diffs) := by
    cases hc : (s_d.indirchange || hasChange s_d.line E.diffs)
    · apply i5
      intro h
      rw [s5, hc] at h; cases h
    · have hlt : (ctl_step E s_d.ctl d.1).changelevel
          < (ctl_step E s_d.ctl d.1).depth - ((0 : Nat) : Int) := by
        rw [s4, s1]
        simp only [Nat.cast_zero, sub_zero]
        cases hi : s_d.indirchange
        · rw [hi] at hc
          simp only [Bool.false_or] at hc
          simp only [Bool.false_eq_true, if_false, hc, if_true]
          omega
        · have := hmark hi
          simp only [if_true]
          omega
      exact (i4 (by rw [s5, hc]) hlt).1
  have hline2 : s_up.line = pre.length + 1 + inner.length := by
    have : s_up.line = (ctl_step E s_d.ctl d.1).line + inner.length := i3
    rw [this, s3, hline]
  have hsk2 : s_up.skip_dir_completely = 0 := by
    have := congrArg WalkCtl.skip_dir_completely c2
    rw [ctl_run_skip, ctl_step_skip] at this
    exact this.trans hsk
  -- the entry `up`
  obtain ⟨tail, ht, hq⟩ := dir_up_entry_queue E s_up s_end up.1 up.2 hsk2 hu1 hu2 h3
  refine ⟨hline, hline2, tail, ht, ?_⟩
  rw [hq, hind, hstack]
  congr 2
  cases s_d.indirchange <;> cases hasChange s_d.line E.diffs <;>
    cases hasChange s_d.line E.dir_diffs <;> cases hasChange s_up.line E.diffs <;>
    by_cases hm : 0 < E.file_meta <;> simp [hm]

/-- Witness of C17: in the listing `[Dir A, File a, Dir B, File b, .., File c, ..]`
with `diffs = {3}` (the line of `File b`) and `dir_diffs = {0}` (the line of `Dir A`)
the directory-up entry of `A` puts the directory-metadata record of `A` on the queue,
with the item count 1. -/
theorem C17_dir_metadata_record_witness :
    ∃ s_end, doFileBackup_walk (demo_walk_env [3] [0]) scenario_listing WalkState.start
        = some s_end
      ∧ QueueItem.full 6 "A" "A" "" "" 0 { exist := false, has_orig_path := false, orig_path := "" }
          false true 1 ∈ s_end.queue := by
  obtain ⟨s_up, h2, h2e⟩ : ∃ s_up, doFileBackup_walk (demo_walk_env [3] [0])
      (dir_entry "A" :: [file_entry "a", dir_entry "B", file_entry "b", up_entry, file_entry "c"])
      WalkState.start = some s_up ∧ s_up.c_has_error = false := ⟨_, rfl, rfl⟩
  obtain ⟨s_end, h3, h4⟩ : ∃ s_end, doFileBackup_entry (demo_walk_env [3] [0]) s_up up_entry.1
      up_entry.2 = some s_end
      ∧ doFileBackup_walk (demo_walk_env [3] [0]) scenario_listing WalkState.start
        = some { s_end with entries_seen := s_end.entries_seen + 1 } := by
    cases h2
    exact ⟨_, rfl, rfl⟩
  have T := C17_dir_metadata_record (demo_walk_env [3] [0]) []
    [file_entry "a", dir_entry "B", file_entry "b", up_entry, file_entry "c"]
    (dir_entry "A") up_entry WalkState.start s_up s_end rfl rfl (by decide) rfl rfl (by decide)
    rfl rfl h2 h2e h3
  obtain ⟨_, hl2, tail, _, hq⟩ := T
  refine ⟨_, h4, ?_⟩
  show _ ∈ s_end.queue
  rw [hq, if_pos ⟨Or.inr (Or.inr (Or.inl rfl)), by decide⟩]
  cases h2
  simp only [List.mem_append, List.mem_singleton]
  exact Or.inl (Or.inr rfl)

/-- Counterexample to C17 as stated: the listing
`[Dir A, File a, Dir B, File b, .., File c, ..]` with `diffs = {3}`, the line of
`File b`, and no directory in `dir_diffs`.  `File b` is put on the queue for
download, and neither `A` nor `B` gets a directory-metadata record: the queue holds
the start of the shadow copy, the download of `b` and the end of the shadow copy. -/
theorem C17_counterexample :
    ∃ s_end md, doFileBackup_walk (demo_walk_env [3] []) scenario_listing WalkState.start
        = some s_end
      ∧ s_end.c_has_error = false
      ∧ s_end.queue = [QueueItem.start_shadowcopy "A",
          QueueItem.full 3 "b" "b" "/A/B" "/A/B" 10 md false false 0,
          QueueItem.stop_shadowcopy "A"] := by
  exact ⟨_, _, rfl, rfl, rfl⟩

end IncrFileBackup

namespace ChunkHasher
/-! ## Frame of the pieces of the loop body for the control MD5 -/

theorem write_hashoutput_kview (st st' : State) (buf : List Byte) (ok : Bool)
    (h : write_hashoutput st buf = some (ok, st')) : st'.kview = st.kview := by
  obtain ⟨ho, cb, rfl⟩ := write_hashoutput_form _ _ _ _ h
  rfl

theorem write_copy_kview (st st' : State) (c : IFile) (buf : List Byte) (ok : Bool)
    (h : write_copy st c buf = some (ok, st')) : st'.kview = st.kview := by
  unfold write_copy at h
  split at h
  · simp at h
  · simp only [Option.some.injEq, Prod.mk.injEq] at h
    rw [← h.2]
    rfl

theorem add_inplace_written_kview (st : State) (r : Nat) :
    (add_inplace_written st r).kview = st.kview := by
  unfold add_inplace_written
  split <;> rfl

theorem mark_copy_read_eof_kview (st : State) (r : Nat) :
    (mark_copy_read_eof st r).kview = st.kview := by
  unfold mark_copy_read_eof
  split <;> rfl

theorem close_sparse_run_kview (st : State) : (close_sparse_run st).kview = st.kview := by
  unfold close_sparse_run
  split <;> rfl

theorem open_sparse_run_kview (st : State) : (open_sparse_run st).kview = st.kview := by
  unfold open_sparse_run
  split <;> rfl

theorem sha_window_kview (st : State) (buf : List Byte) :
    (sha_window st buf).kview = st.kview := by
  unfold sha_window
  simp only
  split
  · split
    · split
      · rw [open_sparse_run_kview]; rfl
      · show (close_sparse_run _).kview = _
        rw [close_sparse_run_kview]; rfl
    · split
      · show (close_sparse_run _).kview = _
        rw [close_sparse_run_kview]; rfl
      · rfl
  · rfl

theorem rewrite_copy_kview (st st' : State) (c : IFile) (buf : List Byte)
    (h : rewrite_copy st c buf = some (Step.next st')) : st'.kview = st.kview := by
  unfold rewrite_copy at h
  simp only [IFile.Seek] at h
  split at h
  · simp at h
  · simp at h
  · rename_i s heq
    simp only [Option.some.injEq, Step.next.injEq] at h
    rw [← h, add_inplace_written_kview]
    exact write_copy_kview _ _ _ _ _ heq

theorem reconcile_compare_kview (st st' : State) (c : IFile) (buf : List Byte)
    (h : reconcile_compare st c buf = some (Step.next st')) : st'.kview = st.kview := by
  unfold reconcile_compare at h
  simp only [IFile.Seek, IFile.Read] at h
  split at h
  · obtain ⟨st1, h1, rfl⟩ := bump_copy_write_pos_next _ _ _ h
    exact rewrite_copy_kview _ st1 _ _ h1
  · split at h
    · obtain ⟨st1, h1, rfl⟩ := bump_copy_write_pos_next _ _ _ h
      have := rewrite_copy_kview _ _ _ _ h1
      show st1.kview = st.kview
      rw [this, mark_copy_read_eof_kview]; rfl
    · simp only [Option.some.injEq, Step.next.injEq] at h
      rw [← h]
      show (mark_copy_read_eof _ _).kview = st.kview
      rw [mark_copy_read_eof_kview]; rfl

/-- The reconciliation with a record of the previous hashfile: the small hash is the
recorded one, the bytes of the source go into the control MD5 and the replica is left
alone; or it is not, the bytes of the replica at `copy_write_pos` go into the control
MD5 and the bytes of the source are written there. -/
theorem reconcile_hashed_control (st st' : State) (c : IFile) (ch buf sh : List Byte)
    (hc : st.copy = some c) (hid : c.ideal) (hb : buf ≠ [])
    (h : reconcile_hashed st c ch buf sh = some (Step.next st')) :
    st'.input_size = st.input_size
      ∧ ((sh = (ch.drop (big_hash_size + st.chunkidx * small_hash_size)).take 4
            ∧ st'.big_hash_copy_control = st.big_hash_copy_control ++ buf
            ∧ st'.copy = some c)
          ∨ (sh ≠ (ch.drop (big_hash_size + st.chunkidx * small_hash_size)).take 4
            ∧ st'.big_hash_copy_control
                = st.big_hash_copy_control ++ slice c.data st.copy_write_pos c_small_hash_dist
            ∧ ∃ c2, st'.copy = some c2
                ∧ c2.data = write_at c.data st.copy_write_pos buf)) := by
  unfold reconcile_hashed at h
  simp only [IFile.Seek, IFile.Read] at h
  by_cases he : sh = (ch.drop (big_hash_size + st.chunkidx * small_hash_size)).take 4
  · rw [if_pos he] at h
    simp only [Option.some.injEq, Step.next.injEq] at h
    rw [← h]
    exact ⟨rfl, Or.inl ⟨he, rfl, hc⟩⟩
  · rw [if_neg he] at h
    obtain ⟨_, _, e3⟩ := rewrite_copy_effect _ st' _ buf buf.length hid hb h
    obtain ⟨st1, h1, rfl⟩ := bump_copy_write_pos_next _ _ _ h
    have hk := rewrite_copy_kview _ st1 _ _ h1
    have hm := mark_copy_read_eof_kview st
      (List.take c_small_hash_dist (List.drop st.copy_write_pos c.data)).length
    have hv := mark_copy_read_eof_rview st
      (List.take c_small_hash_dist (List.drop st.copy_write_pos c.data)).length
    have hcw : (mark_copy_read_eof st
        (List.take c_small_hash_dist (List.drop st.copy_write_pos c.data)).length).copy_write_pos
          = st.copy_write_pos := congrArg RView.copy_write_pos hv
    refine ⟨?_, Or.inr ⟨he, ?_, _, e3, ?_⟩⟩
    · show st1.input_size = _
      rw [show st1.input_size = _ from congrArg KView.input_size hk]
      exact congrArg KView.input_size hm
    · show st1.big_hash_copy_control = _
      rw [show st1.big_hash_copy_control = _ from congrArg KView.big_hash_copy_control hk]
      show (mark_copy_read_eof st _).big_hash_copy_control ++ _ = _
      rw [show (mark_copy_read_eof st _).big_hash_copy_control = st.big_hash_copy_control from
        congrArg KView.big_hash_copy_control hm]
      rfl
    · show write_at c.data (mark_copy_read_eof st _).copy_write_pos buf = _
      rw [hcw]

/-! ## Effect of the pieces of the loop body on the control MD5 -/

theorem reconcile_copy_isz (st st' : State) (buf sh : List Byte) (c : IFile)
    (hc : st.copy = some c) (hid : c.ideal) (hb : buf ≠ [])
    (h : reconcile_copy st buf sh = some (Step.next st')) :
    st'.input_size = st.input_size := by
  unfold reconcile_copy at h
  rw [hc] at h
  simp only at h
  split at h
  · split at h
    · exact (reconcile_hashed_control _ _ _ _ _ _ hc hid hb h).1
    · exact congrArg KView.input_size (reconcile_compare_kview _ _ _ _ h)
  · split at h
    · simp at h
    · simp at h
    · rename_i s heq
      simp only [Option.some.injEq, Step.next.injEq] at h
      rw [← h]
      exact congrArg KView.input_size (write_copy_kview _ _ _ _ _ heq)

/-- The body of the small-chunk loop leaves the size field of the previous hashfile
alone. -/
theorem small_chunk_body_isz (H : HashFns) (st st' : State) (c : IFile)
    (hc : st.copy = some c) (hid : c.ideal)
    (hcur : st.f.cursor < st.f.data.length)
    (h : small_chunk_body H st = some (Step.next st')) :
    st'.input_size = st.input_size := by
  have hb : (st.f.Read c_small_hash_dist).1 ≠ [] :=
    read_ne_nil _ _ (by rw [c_small_hash_dist_eq]; omega) hcur
  unfold small_chunk_body at h
  simp only at h
  split at h
  · simp at h
  · simp at h
  · rename_i s1 hw
    have k1 := write_hashoutput_kview _ _ _ _ hw
    obtain ⟨e1, _⟩ := write_hashoutput_rview _ _ _ _ hw
    have k2 := sha_window_kview { s1 with hashoutputpos := s1.hashoutputpos + small_hash_size }
      (st.f.Read c_small_hash_dist).1
    have r2 := sha_window_rview { s1 with hashoutputpos := s1.hashoutputpos + small_hash_size }
      (st.f.Read c_small_hash_dist).1
    have hc2 : (sha_window { s1 with hashoutputpos := s1.hashoutputpos + small_hash_size }
        (st.f.Read c_small_hash_dist).1).copy = some c := by
      have q := congrArg RView.copy r2
      rw [show (sha_window _ _).copy = (sha_window _ _).rview.copy from rfl, q]
      show s1.rview.copy = _
      rw [e1]
      exact hc
    rw [reconcile_copy_isz _ st' _ _ c hc2 hid hb h]
    rw [show (sha_window _ _).input_size = _ from congrArg KView.input_size k2]
    exact congrArg KView.input_size k1

/-- The body of the small-chunk loop with a record `ch` of the previous hashfile in
`modify_inplace` mode, for the bytes `buf` that the body has read: the small hash of
`buf` is the recorded one, `buf` goes into the control MD5 and the replica is left
alone; or it is not, the bytes of the replica at `copy_write_pos` go into the control
MD5 and `buf` is written there. -/
theorem small_chunk_body_control (H : HashFns) (st st' : State) (c : IFile) (ch : List Byte)
    (hc : st.copy = some c) (hid : c.ideal) (hm : st.modify_inplace = true)
    (hch : st.chunk_hashes = some ch)
    (hcur : st.f.cursor < st.f.data.length)
    (h : small_chunk_body H st = some (Step.next st')) :
    (le_bytes 4 (H.adler32 (st.f.Read c_small_hash_dist).1)
          = (ch.drop (big_hash_size + st.chunkidx * small_hash_size)).take 4
        ∧ st'.big_hash_copy_control
            = st.big_hash_copy_control ++ (st.f.Read c_small_hash_dist).1
        ∧ st'.copy = some c)
      ∨ (le_bytes 4 (H.adler32 (st.f.Read c_small_hash_dist).1)
          ≠ (ch.drop (big_hash_size + st.chunkidx * small_hash_size)).take 4
        ∧ st'.big_hash_copy_control
            = st.big_hash_copy_control ++ slice c.data st.copy_write_pos c_small_hash_dist
        ∧ ∃ c2, st'.copy = some c2
            ∧ c2.data = write_at c.data st.copy_write_pos (st.f.Read c_small_hash_dist).1) := by
  have hb : (st.f.Read c_small_hash_dist).1 ≠ [] :=
    read_ne_nil _ _ (by rw [c_small_hash_dist_eq]; omega) hcur
  unfold small_chunk_body at h
  simp only at h
  split at h
  · simp at h
  · simp at h
  · rename_i s1 hw
    have k1 := write_hashoutput_kview _ _ _ _ hw
    obtain ⟨e1, e2⟩ := write_hashoutput_rview _ _ _ _ hw
    have k2 := sha_window_kview { s1 with hashoutputpos := s1.hashoutputpos + small_hash_size }
      (st.f.Read c_small_hash_dist).1
    have r2 := sha_window_rview { s1 with hashoutputpos := s1.hashoutputpos + small_hash_size }
      (st.f.Read c_small_hash_dist).1
    have hh2 := sha_window_hview { s1 with hashoutputpos := s1.hashoutputpos + small_hash_size }
      (st.f.Read c_small_hash_dist).1
    have r1 : (sha_window { s1 with hashoutputpos := s1.hashoutputpos + small_hash_size }
        (st.f.Read c_small_hash_dist).1).rview = st.rview := by
      rw [r2]
      show s1.rview = st.rview
      rw [e1]
      rfl
    have q1 : (sha_window { s1 with hashoutputpos := s1.hashoutputpos + small_hash_size }
        (st.f.Read c_small_hash_dist).1).copy = some c := by
      rw [show (sha_window _ _).copy = (sha_window _ _).rview.copy from rfl, r1]
      exact hc
    have q2 : (sha_window { s1 with hashoutputpos := s1.hashoutputpos + small_hash_size }
        (st.f.Read c_small_hash_dist).1).copy_write_pos = st.copy_write_pos :=
      congrArg RView.copy_write_pos r1
    have q3 := congrArg RView.stat r1
    have q4 : (sha_window { s1 with hashoutputpos := s1.hashoutputpos + small_hash_size }
        (st.f.Read c_small_hash_dist).1).chunk_hashes = some ch := by
      rw [show (sha_window _ _).chunk_hashes = st.chunk_hashes from
        congrArg RStat.chunk_hashes q3]
      exact hch
    have q5 : (sha_window { s1 with hashoutputpos := s1.hashoutputpos + small_hash_size }
        (st.f.Read c_small_hash_dist).1).modify_inplace = true := by
      rw [show (sha_window _ _).modify_inplace = st.modify_inplace from
        congrArg RStat.modify_inplace q3]
      exact hm
    have q6 : (sha_window { s1 with hashoutputpos := s1.hashoutputpos + small_hash_size }
        (st.f.Read c_small_hash_dist).1).chunkidx = st.chunkidx := by
      have := congrArg HView.chunkidx hh2
      rw [show (sha_window { s1 with hashoutputpos := s1.hashoutputpos + small_hash_size }
        (st.f.Read c_small_hash_dist).1).chunkidx = s1.chunkidx from this, e2]
    have q7 : (sha_window { s1 with hashoutputpos := s1.hashoutputpos + small_hash_size }
        (st.f.Read c_small_hash_dist).1).big_hash_copy_control = st.big_hash_copy_control := by
      rw [show (sha_window _ _).big_hash_copy_control = _ from
        congrArg KView.big_hash_copy_control k2]
      exact congrArg KView.big_hash_copy_control k1
    unfold reconcile_copy at h
    rw [q1] at h
    simp only at h
    rw [if_pos q5, q4] at h
    simp only at h
    have key := (reconcile_hashed_control _ st' c ch _ _ q1 hid hb h).2
    rw [q6, q7, q2] at key
    exact key

/-- The small-chunk loop leaves the size field of the previous hashfile alone. -/
theorem recopy_body_isz (st st' : State) (c : IFile)
    (h : recopy_body st c = some (Step.next st')) : st'.input_size = st.input_size := by
  unfold recopy_body at h
  simp only at h
  obtain ⟨st1, h1, rfl⟩ := bump_copy_write_pos_next _ _ _ h
  exact congrArg KView.input_size (rewrite_copy_kview _ st1 _ _ h1)

theorem recopy_loop_isz (epos : Nat) :
    ∀ (fuel : Nat) (st st' : State),
      recopy_loop epos fuel st = some (Step.next st') → st'.input_size = st.input_size := by
  intro fuel
  induction fuel with
  | zero => intro st st' h; simp [recopy_loop] at h
  | succ fuel ih =>
    intro st st' h
    rw [recopy_loop] at h
    by_cases hc : st.pos < epos ∧ st.pos < st.fsize
    · rw [if_pos hc] at h
      cases hcp : st.copy with
      | none => rw [hcp] at h; simp at h
      | some c =>
        rw [hcp] at h
        simp only at h
        cases hb : recopy_body st c with
        | none => rw [hb] at h; simp at h
        | some r =>
          cases r with
          | exit ret s => rw [hb] at h; simp at h
          | next s =>
            rw [hb] at h
            simp only at h
            rw [ih _ st' h]
            exact recopy_body_isz st s c hb
    · rw [if_neg hc] at h
      simp only [Option.some.injEq, Step.next.injEq] at h
      rw [h]

theorem collision_recovery_isz (H : HashFns) (fuel : Nat) (st st' : State) (epos : Nat)
    (h : collision_recovery H fuel st epos = some (Step.next st')) :
    st'.input_size = st.input_size := by
  unfold collision_recovery at h
  split at h
  · split at h
    · split at h
      · simp only [IFile.Seek] at h
        generalize epos - c_checkpoint_dist = q at h
        exact recopy_loop_isz epos fuel
          { st with copy_write_pos := st.copy_write_pos_start, pos := q,
                    f := { st.f with cursor := q } } st' h
      · simp only [Option.some.injEq, Step.next.injEq] at h
        rw [h]
    · simp only [Option.some.injEq, Step.next.injEq] at h
      rw [h]
  · simp only [Option.some.injEq, Step.next.injEq] at h
    rw [h]

theorem punch_copy_isz (fuel : Nat) (st st' : State)
    (h : punch_copy fuel st = some (Step.next st')) : st'.input_size = st.input_size := by
  unfold punch_copy at h
  split at h
  · split at h
    · simp only [Option.some.injEq, Step.next.injEq] at h
      rw [← h]
    · simp only [IFile.Seek] at h
      split at h
      · simp only [if_true] at h
        split at h
        · simp at h
        · simp at h
        · simp only [Option.some.injEq, Step.next.injEq] at h
          rw [← h]
      · simp only [Option.some.injEq, Step.next.injEq] at h
        rw [← h]
  · simp only [Option.some.injEq, Step.next.injEq] at h
    rw [← h]

theorem open_known_sparse_run_kview (st : State) :
    (open_known_sparse_run st).kview = st.kview := by
  unfold open_known_sparse_run
  split <;> rfl

theorem sparse_chunk_isz (g : Globals) (fuel : Nat) (st st' : State) (epos : Nat)
    (h : sparse_chunk g fuel st epos = some (Step.next st')) :
    st'.input_size = st.input_size := by
  unfold sparse_chunk at h
  simp only at h
  split at h
  · simp at h
  · simp at h
  · rename_i s0 hw
    have k1 := write_hashoutput_kview _ _ _ _ hw
    split at h
    · simp at h
    · simp at h
    · rename_i s1 hp
      simp only [IFile.Seek, Bool.not_true, if_false] at h
      simp only [Bool.false_eq_true, not_false_eq_true, not_true_eq_false, if_false,
        Option.some.injEq, Step.next.injEq] at h
      have k2 := punch_copy_isz _ _ _ hp
      rw [← h]
      show s1.input_size = _
      rw [k2]
      rw [show (open_known_sparse_run _).input_size = _ from
        congrArg KView.input_size (open_known_sparse_run_kview _)]
      exact congrArg KView.input_size k1

theorem load_chunk_hashes_isz (st : State) :
    (load_chunk_hashes st).input_size = st.input_size := by
  unfold load_chunk_hashes
  split
  · simp only [IFile.Seek, IFile.Read]
    split
    · split <;> rfl
    · rfl
  · rfl
  · rfl

theorem advance_extent_isz (st : State) : (advance_extent st).input_size = st.input_size := by
  unfold advance_extent
  split <;> rfl

/-! ## Prefixes and slices -/

theorem slice_append_stable (l x : List Byte) (a m : Nat) (h : (slice l a m).length = m) :
    slice (l ++ x) a m = slice l a m := by
  rw [slice_length] at h
  by_cases hm : m = 0
  · subst hm
    simp [slice]
  · have ha : a + m ≤ l.length := by omega
    unfold slice
    rw [List.drop_append_of_le_length (by omega),
      List.take_append_of_le_length (by rw [List.length_drop]; omega)]

theorem slice_append_end (l x : List Byte) (m : Nat) (h : x.length ≤ m) :
    slice (l ++ x) l.length m = x := by
  unfold slice
  rw [List.drop_left, List.take_of_length_le h]

theorem slice_slice (R : List Byte) (a M b m : Nat) (h : b + m ≤ M) :
    slice (slice R a M) b m = slice R (a + b) m := by
  unfold slice
  rw [List.drop_take, List.take_take, List.drop_drop, Nat.min_eq_left (by omega)]

theorem prefix_getD (p B : List Byte) (h : p <+: B) (i : Nat) (hi : i < p.length) :
    B.getD i 0 = p.getD i 0 := by
  obtain ⟨t, rfl⟩ := h
  exact getD_append_lt p t i hi

/-- A piece `b` of a prefix `p ++ b` of the slice `R[a .. a+M)` is a piece of `R`: its
bytes are the bytes of `R` behind offset `a + |p|`. -/
theorem prefix_piece (R p b : List Byte) (a M : Nat) (h : p ++ b <+: slice R a M)
    (i : Nat) (hi : i < b.length) :
    a + p.length + i < R.length ∧ R.getD (a + p.length + i) 0 = b.getD i 0 := by
  have hl := h.length_le
  rw [List.length_append, slice_length] at hl
  have h1 := prefix_getD _ _ h (p.length + i) (by rw [List.length_append]; omega)
  rw [getD_append_ge p b _ (by omega), slice_getD R a M _ (by rw [slice_length]; omega)] at h1
  have e : p.length + i - p.length = i := by omega
  rw [e] at h1
  have e2 : a + (p.length + i) = a + p.length + i := by omega
  rw [e2] at h1
  exact ⟨by omega, h1⟩

/-! ## The control MD5 over a big chunk -/

/-- The normal path up to the collision recovery in `modify_inplace` mode, for a
replica that holds at least the bytes of `R` wherever `R` agrees with the source.
Without a record of the previous hashfile every small chunk of the big chunk is in
the replica afterwards.  With a record `ch`: when the input of the control MD5 is the
big chunk of `R`, every small chunk of the big chunk is in the replica afterwards, and
every small chunk of the source whose small hash is the recorded one is the small
chunk of `R`. -/
theorem hash_big_chunk_control (H : HashFns) (T : List Byte) (exts : List SSparseExtent)
    (F init R : List Byte) (fuel : Nat) (st s3 : State) (c : IFile)
    (h : HInv H T exts F init st.hview)
    (hlt : st.pos < st.fsize)
    (hm : st.modify_inplace = true) (hc : st.copy = some c)
    (hid : c.ideal) (hp : c.punch_ok = true)
    (hcwp : st.copy_write_pos = st.pos)
    (hagr : ∀ o, o < R.length → R.getD o 0 = F.getD o 0 → Agree F c st.copy_max_sparse o)
    (hlen : R.length ≤ c.data.length)
    (hs : hash_big_chunk H fuel st (st.pos + c_checkpoint_dist) = some (Step.next s3)) :
    ∃ c2, s3.copy = some c2 ∧ R.length ≤ c2.data.length
      ∧ s3.input_size = st.input_size
      ∧ (st.chunk_hashes = none →
          ∀ o, st.pos ≤ o → o < s3.pos → o < F.length → Agree F c2 st.copy_max_sparse o)
      ∧ (∀ ch, st.chunk_hashes = some ch →
          s3.big_hash_copy_control = slice R st.pos c_checkpoint_dist →
          (∀ o, st.pos ≤ o → o < s3.pos → o < F.length → Agree F c2 st.copy_max_sparse o)
            ∧ ∀ k, k < n_chunks → st.pos + k * c_small_hash_dist < F.length →
                le_bytes 4 (H.adler32
                    (slice F (st.pos + k * c_small_hash_dist) c_small_hash_dist))
                  = (ch.drop (big_hash_size + k * small_hash_size)).take 4 →
                slice F (st.pos + k * c_small_hash_dist) c_small_hash_dist
                  = slice R (st.pos + k * c_small_hash_dist) c_small_hash_dist) := by
  have hB := c_checkpoint_dist_eq
  have hS := c_small_hash_dist_eq
  have hfs : st.fsize = F.length := h.fsize
  obtain ⟨E, j, hR, hcc, hh, hp1, hp2⟩ := h.recs
  have hpj : st.pos = j * c_checkpoint_dist := hp1 (by rw [← hfs]; exact hlt)
  have hS0 := HInv_begin_record H T exts F init st.hview h E j hcc hh hpj
  generalize hBd : slice R st.pos c_checkpoint_dist = B
  have hBl : B.length = min c_checkpoint_dist (R.length - st.pos) := by
    rw [← hBd, slice_length]
  -- the invariant of the small-chunk loop for the control MD5
  let CS : State → Prop := fun s =>
    s.rstat = { modify_inplace := true, chunk_hashes := st.chunk_hashes,
                hashinput := st.hashinput, copy_max_sparse := st.copy_max_sparse,
                copy_sparse_extent_start := -1, copy_write_pos_start := st.pos }
      ∧ s.input_size = st.input_size
      ∧ ∃ c2, s.copy = some c2 ∧ c2.ideal ∧ c2.punch_ok = true
        ∧ Ext F c st.copy_max_sparse c2 st.copy_max_sparse
        ∧ R.length ≤ c2.data.length
        ∧ (s.pos < s.fsize → s.copy_write_pos = s.pos)
        ∧ (st.chunk_hashes = none →
            ∀ o, st.pos ≤ o → o < s.pos → o < F.length → Agree F c2 st.copy_max_sparse o)
        ∧ (∀ ch, st.chunk_hashes = some ch → s.big_hash_copy_control <+: B →
            (∀ o, st.pos ≤ o → o < s.pos → o < F.length → Agree F c2 st.copy_max_sparse o)
              ∧ (s.pos < F.length →
                  s.big_hash_copy_control.length = s.pos - st.pos
                    ∨ B.length ≤ s.big_hash_copy_control.length)
              ∧ ∀ k, k < s.chunkidx →
                  le_bytes 4 (H.adler32
                      (slice F (st.pos + k * c_small_hash_dist) c_small_hash_dist))
                    = (ch.drop (big_hash_size + k * small_hash_size)).take 4 →
                  slice s.big_hash_copy_control (k * c_small_hash_dist) c_small_hash_dist
                    = slice F (st.pos + k * c_small_hash_dist) c_small_hash_dist)
  unfold hash_big_chunk at hs
  simp only at hs
  have hw := write_hashoutput_ideal
    { st with copy_sparse_extent_start := -1, big_hash := [],
              big_hash_copy_control := [], hashoutputpos_start := st.hashoutputpos }
    (List.replicate big_hash_size 0) h.ho_ideal (by simp [big_hash_size])
    (by simp [big_hash_size])
  rw [hw] at hs
  simp only at hs
  split at hs
  · simp at hs
  · simp at hs
  · rename_i s2 hloop
    have hI : (SInv H F init (i64_bytes F.length ++ E) (j * c_checkpoint_dist)
          st.curr_extent st.extent_iterator s2.hview ∧ CS s2)
        ∧ ¬ (s2.pos < st.pos + c_checkpoint_dist ∧ s2.pos < s2.fsize) := by
      refine small_chunk_loop_partial H (st.pos + c_checkpoint_dist)
        (fun s => SInv H F init (i64_bytes F.length ++ E) (j * c_checkpoint_dist)
          st.curr_extent st.extent_iterator s.hview ∧ CS s)
        ?_ fuel _ s2 ?_ hloop
      · intro s s' hs1 hs2 hs3 hbody
        obtain ⟨hs1, hr1, hz1, c1, hc1, hid1, hp1', hext1, hlen1, hcw1, hnone1, hsome1⟩ := hs1
        have hv := small_chunk_body_hview H s s' hs1.ho_ideal hbody
        have hsf : s.fsize = F.length := hs1.fsize
        have hfd : s.f.data = F := hs1.f_data
        have hposF : s.pos < s.f.data.length := by rw [hfd, ← hsf]; exact hs3
        have hposF' : s.pos < F.length := by rw [← hsf]; exact hs3
        have hcurlt : s.f.cursor < s.f.data.length := by
          rw [show s.f.cursor = min s.pos F.length from hs1.f_cursor, hfd]
          rw [hfd] at hposF; omega
        have hbufs : (s.f.Read c_small_hash_dist).1 = slice F s.pos c_small_hash_dist := by
          rw [read_bytes s.f s.pos _ (by rw [hfd]; exact hs1.f_cursor) hposF, hfd]
        have hpe : s.pos = j * c_checkpoint_dist + s.chunkidx * c_small_hash_dist := hs1.pos_eq
        have hpe' : s.pos = st.pos + s.chunkidx * c_small_hash_dist := by rw [hpj]; exact hpe
        have hsm : s.modify_inplace = true := congrArg RStat.modify_inplace hr1
        have hsch : s.chunk_hashes = st.chunk_hashes := congrArg RStat.chunk_hashes hr1
        obtain ⟨b1, b2, c2, b3, b4, b5, b6⟩ :=
          small_chunk_body_replica H s s' c1 hc1 hid1 hsm hcurlt hbody
        have bz := small_chunk_body_isz H s s' c1 hc1 hid1 hcurlt hbody
        rw [hbufs] at b2 b6
        have hcw : s.copy_write_pos = s.pos := hcw1 hs3
        rw [hcw] at b6
        have hsl : (slice F s.pos c_small_hash_dist).length = min 512 (F.length - s.pos) := by
          rw [slice_length, hS]
        have hpos' : s'.pos = s.pos := congrArg HView.pos hv
        have hfs' : s'.fsize = s.fsize := congrArg HView.fsize hv
        have hidx' : s'.chunkidx = s.chunkidx := congrArg HView.chunkidx hv
        have hextstep : Ext F c1 st.copy_max_sparse c2 st.copy_max_sparse := by
          rcases b6 with ⟨hd, _⟩ | hd
          · exact fun o ho => Agree_congr F c1 c2 _ o hd ho
          · exact Agree_write F c1 c2 _ s.pos c_small_hash_dist hd
        have hlen2 : R.length ≤ c2.data.length := by
          rcases b6 with ⟨hd, _⟩ | hd
          · rw [hd]; exact hlen1
          · rw [hd, write_at_length]; omega
        constructor
        · show SInv H F init _ _ _ _ (s'.hview.incr)
          rw [hv]
          exact SInv_step H F init _ _ _ _ s.hview hs1 (by rw [← hpj]; exact hs2) hs3
        · refine ⟨?_, ?_, c2, b3, ?_, ?_, ?_, hlen2, ?_, ?_, ?_⟩
          · show s'.rstat = _
            rw [b1]; exact hr1
          · show s'.input_size = _
            rw [bz]; exact hz1
          · intro k n
            rw [b4]; exact hid1 k n
          · rw [b5]; exact hp1'
          · exact Ext_trans F _ _ _ _ _ _ hext1 hextstep
          · intro hlt2
            show s'.copy_write_pos = s'.pos + c_small_hash_dist
            have hlt3 : s.pos + c_small_hash_dist < F.length := by
              have : s'.pos + c_small_hash_dist < s'.fsize := hlt2
              rw [hpos', hfs', hsf] at this; exact this
            rw [b2, hcw, hpos', hsl, hS]
            rw [hS] at hlt3
            omega
          · -- without a record the bytes are compared
            intro hn o ho1 ho2 ho3
            have ho2' : o < s.pos + c_small_hash_dist := by
              have : o < s'.pos + c_small_hash_dist := ho2
              rw [hpos'] at this; exact this
            by_cases hlo : o < s.pos
            · exact hextstep o (hnone1 hn o ho1 hlo ho3)
            · have hin : o < s.pos + (slice F s.pos c_small_hash_dist).length := by
                rw [hsl]; rw [hS] at ho2'; omega
              rcases b6 with ⟨hd, hcase⟩ | hd
              · rcases hcase with ⟨ch, hch, _⟩ | heq
                · rw [hsch, hn] at hch
                  exact absurd hch (by simp)
                · apply Agree_congr F c1 c2 _ o hd
                  exact Agree_equal F c1 _ s.pos c_small_hash_dist o heq (by omega) hin
              · exact Agree_written F c1 c2 _ s.pos c_small_hash_dist o hd (by omega) hin
          · -- with a record
            intro ch hch hpre
            have hpre' : s'.big_hash_copy_control <+: B := hpre
            have hctl := small_chunk_body_control H s s' c1 ch hc1 hid1 hsm
              (by rw [hsch]; exact hch) hcurlt hbody
            rw [hbufs, hcw] at hctl
            rcases hctl with ⟨m1, m2, m3⟩ | ⟨m1, m2, c2', m3, m4⟩
            · -- the small hash is the recorded one
              rw [m2] at hpre'
              have hpre0 : s.big_hash_copy_control <+: B :=
                List.IsPrefix.trans (List.prefix_append _ _) hpre'
              obtain ⟨A, L, D⟩ := hsome1 ch hch hpre0
              have hll := hpre'.length_le
              rw [List.length_append, hsl] at hll
              have hal : s.big_hash_copy_control.length = s.pos - st.pos := by
                rcases L hposF' with e | e
                · exact e
                · omega
              have hc21 : c2 = c1 := by
                rw [b3] at m3
                simp only [Option.some.injEq] at m3
                exact m3
              refine ⟨?_, ?_, ?_⟩
              · intro o ho1 ho2 ho3
                have ho2' : o < s.pos + c_small_hash_dist := by
                  have : o < s'.pos + c_small_hash_dist := ho2
                  rw [hpos'] at this; exact this
                by_cases hlo : o < s.pos
                · exact hextstep o (A o ho1 hlo ho3)
                · have hi : o - s.pos < (slice F s.pos c_small_hash_dist).length := by
                    rw [hsl]; rw [hS] at ho2'; omega
                  rw [← hBd] at hpre'
                  obtain ⟨q1, q2⟩ := prefix_piece R _ _ st.pos c_checkpoint_dist hpre'
                    (o - s.pos) hi
                  rw [hal] at q1 q2
                  have eo : st.pos + (s.pos - st.pos) + (o - s.pos) = o := by
                    rw [hpe']; rw [hpe'] at hlo; omega
                  rw [eo] at q1 q2
                  rw [slice_getD F s.pos _ _ hi] at q2
                  have eo2 : s.pos + (o - s.pos) = o := by omega
                  rw [eo2] at q2
                  exact hextstep o (hext1 o (hagr o q1 q2))
              · intro hlt2
                left
                have hlt3 : s.pos + c_small_hash_dist < F.length := by
                  have : s'.pos + c_small_hash_dist < F.length := hlt2
                  rw [hpos'] at this; exact this
                show s'.big_hash_copy_control.length = s'.pos + c_small_hash_dist - st.pos
                rw [m2, List.length_append, hsl, hal, hpos', hS]
                rw [hS] at hlt3
                rw [hpe']
                omega
              · intro k hk hmk
                have hk' : k < s.chunkidx + 1 := by
                  have : k < s'.chunkidx + 1 := hk
                  rw [hidx'] at this; exact this
                show slice s'.big_hash_copy_control _ _ = _
                rw [m2]
                by_cases hko : k < s.chunkidx
                · have hD := D k hko hmk
                  have hfull : (slice F (st.pos + k * c_small_hash_dist)
                      c_small_hash_dist).length = c_small_hash_dist := by
                    rw [slice_length, hS]
                    rw [hpe', hS] at hposF'
                    have : k * 512 + 512 ≤ s.chunkidx * 512 := by omega
                    omega
                  rw [slice_append_stable _ _ _ _ (by rw [hD]; exact hfull)]
                  exact hD
                · have hke : k = s.chunkidx := by omega
                  subst hke
                  have e1 : s.chunkidx * c_small_hash_dist
                      = s.big_hash_copy_control.length := by
                    rw [hal, hpe']; omega
                  rw [← hpe', e1, slice_append_end _ _ _ (by rw [hsl, hS]; omega)]
            · -- the small hash is not the recorded one
              rw [m2] at hpre'
              have hpre0 : s.big_hash_copy_control <+: B :=
                List.IsPrefix.trans (List.prefix_append _ _) hpre'
              obtain ⟨A, L, D⟩ := hsome1 ch hch hpre0
              have hc22 : c2.data = write_at c1.data s.pos (slice F s.pos c_small_hash_dist) := by
                rw [b3] at m3
                simp only [Option.some.injEq] at m3
                rw [m3]; exact m4
              refine ⟨?_, ?_, ?_⟩
              · intro o ho1 ho2 ho3
                have ho2' : o < s.pos + c_small_hash_dist := by
                  have : o < s'.pos + c_small_hash_dist := ho2
                  rw [hpos'] at this; exact this
                by_cases hlo : o < s.pos
                · exact hextstep o (A o ho1 hlo ho3)
                · have hin : o < s.pos + (slice F s.pos c_small_hash_dist).length := by
                    rw [hsl]; rw [hS] at ho2'; omega
                  exact Agree_written F c1 c2 _ s.pos c_small_hash_dist o hc22 (by omega) hin
              · intro hlt2
                have hlt3 : s.pos + c_small_hash_dist < F.length := by
                  have : s'.pos + c_small_hash_dist < F.length := hlt2
                  rw [hpos'] at this; exact this
                show s'.big_hash_copy_control.length = s'.pos + c_small_hash_dist - st.pos
                  ∨ B.length ≤ s'.big_hash_copy_control.length
                rw [m2, List.length_append, slice_length, hpos', hS]
                rw [hS] at hlt3
                rcases L hposF' with e | e
                · rw [e, hBl]
                  rw [hpe']
                  omega
                · right; omega
              · intro k hk hmk
                have hk' : k < s.chunkidx + 1 := by
                  have : k < s'.chunkidx + 1 := hk
                  rw [hidx'] at this; exact this
                show slice s'.big_hash_copy_control _ _ = _
                rw [m2]
                by_cases hko : k < s.chunkidx
                · have hD := D k hko hmk
                  have hfull : (slice F (st.pos + k * c_small_hash_dist)
                      c_small_hash_dist).length = c_small_hash_dist := by
                    rw [slice_length, hS]
                    rw [hpe', hS] at hposF'
                    have : k * 512 + 512 ≤ s.chunkidx * 512 := by omega
                    omega
                  rw [slice_append_stable _ _ _ _ (by rw [hD]; exact hfull)]
                  exact hD
                · exfalso
                  have hke : k = s.chunkidx := by omega
                  rw [hke, ← hpe'] at hmk
                  exact m1 hmk
      · refine ⟨hS0, ?_, rfl, c, hc, hid, hp, Ext_refl F c _, hlen, ?_, ?_, ?_⟩
        · show ({ modify_inplace := st.modify_inplace, chunk_hashes := st.chunk_hashes,
                  hashinput := st.hashinput, copy_max_sparse := st.copy_max_sparse,
                  copy_sparse_extent_start := -1,
                  copy_write_pos_start := st.copy_write_pos } : RStat) = _
          rw [hm, hcwp]
        · intro _
          exact hcwp
        · intro _ o ho1 ho2
          have : o < st.pos := ho2
          omega
        · intro ch _ _
          refine ⟨?_, ?_, ?_⟩
          · intro o ho1 ho2
            have : o < st.pos := ho2
            omega
          · intro _
            left
            show ([] : List Byte).length = st.pos - st.pos
            simp
          · intro k hk
            exact absurd hk (Nat.not_lt_zero k)
    obtain ⟨⟨hS2, hr2, hz2, c2, hc2, hid2, hp2', hext2, hlen2, hcw2, hnone2, hsome2⟩, hx⟩ := hI
    simp only [IFile.Seek] at hs
    have hw2 := write_hashoutput_ideal
      { s2 with hashoutput := { s2.hashoutput with cursor := s2.hashoutputpos_start } }
      ((H.md5 s2.big_hash).take big_hash_size) hS2.ho_ideal
      (by
        intro he
        have := congrArg List.length he
        rw [List.length_take, H.md5_size] at this
        simp [big_hash_size] at this)
      (by rw [List.length_take, H.md5_size]; simp [big_hash_size])
    rw [hw2] at hs
    simp only [Option.some.injEq, Step.next.injEq] at hs
    rw [← hs]
    have hpe : s2.pos = j * c_checkpoint_dist + s2.chunkidx * c_small_hash_dist := hS2.pos_eq
    have hfs2 : s2.fsize = F.length := hS2.fsize
    refine ⟨c2, hc2, hlen2, hz2, hnone2, ?_⟩
    intro ch hch hctl
    have hctl' : s2.big_hash_copy_control = B := hctl
    obtain ⟨A, _, D⟩ := hsome2 ch hch (by rw [hctl'])
    refine ⟨A, ?_⟩
    intro k hk hkF hmk
    have hkc : k < s2.chunkidx := by
      rw [hfs2, hpe] at hx
      rw [hpj, hS, hB] at hx hkF
      rw [n_chunks_eq] at hk
      omega
    have hD := D k hkc hmk
    rw [hctl', ← hBd, slice_slice R st.pos c_checkpoint_dist _ _ (by
      rw [hS, hB]; rw [n_chunks_eq] at hk; omega)] at hD
    exact hD.symm

/-! ## The hashfile of the previous content of the replica -/

theorem all_records_size (H : HashFns) (R : List Byte) (j : Nat) :
    (all_records H R j).length = recs_size R.length j := by
  induction j with
  | zero => rfl
  | succ j ih => rw [all_records, List.length_append, ih, normal_record_length, recs_size]

theorem n_small_le (n j : Nat) : n_small n j ≤ n_chunks := by
  unfold n_small
  rw [n_chunks_eq, c_small_hash_dist_eq, c_checkpoint_dist_eq]
  omega

theorem n_small_pos (n j : Nat) (h : j * c_checkpoint_dist < n) : 0 < n_small n j := by
  unfold n_small
  rw [c_small_hash_dist_eq, c_checkpoint_dist_eq] at *
  omega

theorem recs_size_le (n m : Nat) : recs_size n m ≤ m * chunkhash_single_size := by
  induction m with
  | zero => simp [recs_size]
  | succ m ih =>
    have := n_small_le n m
    rw [recs_size, chunkhash_single_size_eq, big_hash_size_eq, small_hash_size_eq]
    rw [chunkhash_single_size_eq] at ih
    rw [n_chunks_eq] at this
    omega

theorem n_big_lt_iff (n j : Nat) : j < n_big n ↔ j * c_checkpoint_dist < n := by
  unfold n_big
  rw [c_checkpoint_dist_eq]
  omega

theorem hashfile_of_length (H : HashFns) (R : List Byte) :
    (hashfile_of H R).length = 8 + recs_size R.length (n_big R.length) := by
  rw [hashfile_of, List.length_append, i64_bytes_length, all_records_size]

/-- The record of big chunk `j` of `R` lies at offset `8 + j * 4112` of the hashfile
of `R` and starts with the MD5 of the big chunk. -/
theorem hashfile_of_big_hash (H : HashFns) (R : List Byte) (j : Nat)
    (hj : j * c_checkpoint_dist < R.length) :
    8 + j * chunkhash_single_size + big_hash_size + small_hash_size ≤ (hashfile_of H R).length
      ∧ slice (hashfile_of H R) (8 + j * chunkhash_single_size) big_hash_size
          = H.md5 (slice R (j * c_checkpoint_dist) c_checkpoint_dist) := by
  have hjn : j < n_big R.length := (n_big_lt_iff _ _).mpr hj
  obtain ⟨rest, hr⟩ := all_records_split H R _ j hjn
  have hl : (all_records H R j).length = j * chunkhash_single_size := by
    apply all_records_length
    rw [c_checkpoint_dist_eq] at hj ⊢
    omega
  have hnp := n_small_pos R.length j hj
  constructor
  · rw [hashfile_of, hr]
    simp only [List.length_append, i64_bytes_length, hl, normal_record_length]
    rw [small_hash_size_eq, big_hash_size_eq]
    omega
  · unfold slice
    rw [hashfile_of, hr, normal_record]
    have e : i64_bytes (R.length : Int) ++ (all_records H R j
          ++ (H.md5 (slice R (j * c_checkpoint_dist) c_checkpoint_dist)
            ++ small_hashes H R (j * c_checkpoint_dist) (n_small R.length j)) ++ rest)
        = (i64_bytes (R.length : Int) ++ all_records H R j)
          ++ (H.md5 (slice R (j * c_checkpoint_dist) c_checkpoint_dist)
            ++ (small_hashes H R (j * c_checkpoint_dist) (n_small R.length j) ++ rest)) := by
      simp only [List.append_assoc]
    rw [e]
    have hl2 : (i64_bytes (R.length : Int) ++ all_records H R j).length
        = 8 + j * chunkhash_single_size := by
      rw [List.length_append, i64_bytes_length, hl]
    rw [← hl2, List.drop_left, ← H.md5_size (slice R (j * c_checkpoint_dist) c_checkpoint_dist),
      List.take_left]
    rfl

/-- A position of the hashfile of `R` at which a record starts belongs to a big chunk
of `R`. -/
theorem hashfile_of_record (H : HashFns) (R : List Byte) (j : Nat)
    (h : 8 + j * chunkhash_single_size < (hashfile_of H R).length) :
    j * c_checkpoint_dist < R.length := by
  rw [hashfile_of_length] at h
  have := recs_size_le R.length (n_big R.length)
  have hjn : j < n_big R.length := by
    by_contra hn
    have : n_big R.length * chunkhash_single_size ≤ j * chunkhash_single_size :=
      Nat.mul_le_mul_right _ (by omega)
    omega
  exact (n_big_lt_iff _ _).mp hjn

theorem i64_of_nat_bytes (n : Nat) (h : n < 2 ^ 63) :
    i64_of_nat (read_le (i64_bytes (n : Int))) = (n : Int) := by
  have e : ((n : Int) % (2 ^ 64 : Int)).toNat = n := by omega
  rw [i64_bytes, e, read_le_le_bytes]
  unfold i64_of_nat
  have e2 : n % 256 ^ 8 % 2 ^ 64 = n := by omega
  rw [e2, if_pos h]

theorem hashfile_of_take (H : HashFns) (R : List Byte) :
    (hashfile_of H R).take 8 = i64_bytes (R.length : Int) := by
  rw [hashfile_of, ← i64_bytes_length (R.length : Int), List.take_left]

/-! ## The record buffer at the top of the main loop -/

/-- The fetch of the record at the top of the main loop when the previous hashfile is
the hashfile of `R`: behind it a record buffer is there exactly as long as the loop is
inside `R`, and it starts with the MD5 of the big chunk of `R`. -/
theorem load_chunk_hashes_record (H : HashFns) (R : List Byte) (st : State) (j : Nat)
    (hin : ∃ hi, st.hashinput = some hi ∧ hi.data = hashfile_of H R)
    (hisz : st.input_size = (R.length : Int))
    (hpos : st.pos = j * c_checkpoint_dist)
    (hhop : st.hashoutputpos = 8 + j * chunkhash_single_size)
    (hbuf : st.chunk_hashes = none → R.length ≤ st.pos) :
    (∃ hi, (load_chunk_hashes st).hashinput = some hi ∧ hi.data = hashfile_of H R)
      ∧ (∀ ch, (load_chunk_hashes st).chunk_hashes = some ch →
          st.pos < R.length
            ∧ ch.take big_hash_size
                = H.md5 (slice R (j * c_checkpoint_dist) c_checkpoint_dist))
      ∧ ((load_chunk_hashes st).chunk_hashes = none → R.length ≤ st.pos) := by
  obtain ⟨hi, hhi, hd⟩ := hin
  have hB := big_hash_size_eq
  have hS := small_hash_size_eq
  have hC := chunkhash_single_size_eq
  unfold load_chunk_hashes
  rw [hhi]
  cases hch : st.chunk_hashes with
  | none =>
    simp only
    refine ⟨⟨hi, hhi, hd⟩, ?_, fun _ => hbuf hch⟩
    intro ch h
    rw [hch] at h
    exact absurd h (by simp)
  | some ch0 =>
    simp only [IFile.Seek, IFile.Read]
    by_cases hlt : (st.pos : Int) < st.input_size
    · rw [if_pos hlt]
      have hltR : st.pos < R.length := by rw [hisz] at hlt; omega
      obtain ⟨q1, q2⟩ := hashfile_of_big_hash H R j (by rw [← hpos]; exact hltR)
      rw [← hhop] at q1 q2
      have hrl : (List.take chunkhash_single_size (List.drop st.hashoutputpos hi.data)).length
          = min 4112 ((hashfile_of H R).length - st.hashoutputpos) := by
        rw [List.length_take, List.length_drop, hC, hd]
      have hne : ¬ (List.take chunkhash_single_size
          (List.drop st.hashoutputpos hi.data)).length = 0 := by
        rw [hrl]; rw [hB, hS] at q1; omega
      rw [if_neg hne]
      refine ⟨⟨_, rfl, hd⟩, ?_, fun h => absurd h (by simp)⟩
      intro ch hc
      simp only [Option.some.injEq] at hc
      refine ⟨hltR, ?_⟩
      rw [← hc, ← q2]
      unfold memcpy_at slice
      rw [List.take_zero, List.nil_append, Nat.zero_add,
        List.take_append_of_le_length (by rw [hrl, hB]; rw [hB, hS] at q1; omega),
        List.take_take, hd, Nat.min_eq_left (by rw [hB, hC]; omega)]
    · rw [if_neg hlt]
      refine ⟨⟨hi, rfl, hd⟩, fun ch h => absurd h (by simp), fun _ => ?_⟩
      rw [hisz] at hlt
      omega

/-- The re-copy loop does not make the replica shorter. -/
theorem recopy_loop_len (epos : Nat) :
    ∀ (fuel : Nat) (st st' : State) (c : IFile),
      st.f.cursor = min st.pos st.f.data.length → st.fsize = st.f.data.length →
      st.copy = some c → c.ideal →
      recopy_loop epos fuel st = some (Step.next st') →
      ∃ c2, st'.copy = some c2 ∧ c.data.length ≤ c2.data.length := by
  intro fuel
  induction fuel with
  | zero => intro st st' c _ _ _ _ h; simp [recopy_loop] at h
  | succ fuel ih =>
    intro st st' c hcur hfs hc hid h
    rw [recopy_loop] at h
    by_cases hcond : st.pos < epos ∧ st.pos < st.fsize
    · rw [if_pos hcond, hc] at h
      simp only at h
      split at h
      · simp at h
      · simp at h
      · rename_i s hb
        have hposF : st.pos < st.f.data.length := by rw [← hfs]; exact hcond.2
        have hne : (st.f.Read c_small_hash_dist).1 ≠ [] :=
          read_ne_nil _ _ (by rw [c_small_hash_dist_eq]; omega) (by rw [hcur]; omega)
        have hv := recopy_body_hview st s c hb
        have hsf : s.f = (st.f.Read c_small_hash_dist).2 := congrArg HView.f hv
        have hsp : s.pos = st.pos := congrArg HView.pos hv
        have hss : s.fsize = st.fsize := congrArg HView.fsize hv
        have hdat : (st.f.Read c_small_hash_dist).2.data = st.f.data := rfl
        unfold recopy_body at hb
        simp only at hb
        obtain ⟨_, _, e3⟩ := rewrite_copy_effect _ s c _ _ hid hne hb
        have e3' : s.copy
            = some (({ c with cursor := st.copy_write_pos } : IFile).put
                (st.f.Read c_small_hash_dist).1) := e3
        obtain ⟨c2, i1, i2⟩ := ih
          { s with pos := s.pos + c_small_hash_dist } st'
          (({ c with cursor := st.copy_write_pos } : IFile).put (st.f.Read c_small_hash_dist).1)
          (by show s.f.cursor = min (s.pos + c_small_hash_dist) s.f.data.length
              rw [hsf, hsp, hdat]
              exact read_cursor st.f st.pos c_small_hash_dist hcur hposF)
          (by show s.fsize = s.f.data.length
              rw [hss, hsf, hdat]; exact hfs)
          e3' (fun k n => hid k n) h
        refine ⟨c2, i1, Nat.le_trans ?_ i2⟩
        show c.data.length ≤ (write_at c.data st.copy_write_pos _).length
        rw [write_at_length]
        omega
    · rw [if_neg hcond] at h
      simp only [Option.some.injEq, Step.next.injEq] at h
      rw [← h]
      exact ⟨c, hc, Nat.le_refl _⟩

theorem recopy_from_start_len (fuel : Nat) (st st' : State) (epos q : Nat) (c : IFile)
    (hfs : st.fsize = st.f.data.length) (hq : q < st.fsize)
    (hc : st.copy = some c) (hid : c.ideal)
    (h : recopy_loop epos fuel
          { st with copy_write_pos := st.copy_write_pos_start,
                    pos := q,
                    f := { st.f with cursor := q } } = some (Step.next st')) :
    ∃ c2, st'.copy = some c2 ∧ c.data.length ≤ c2.data.length := by
  exact recopy_loop_len epos fuel
    { st with copy_write_pos := st.copy_write_pos_start,
              pos := q,
              f := { st.f with cursor := q } } st' c
    (by show q = min q st.f.data.length
        rw [← hfs]; omega)
    hfs hc hid h

/-- The collision recovery does not make the replica shorter. -/
theorem collision_recovery_len (H : HashFns) (fuel : Nat) (st st' : State) (epos q : Nat)
    (c : IFile)
    (hfs : st.fsize = st.f.data.length) (hq : q < st.fsize)
    (hep : epos = q + c_checkpoint_dist)
    (hc : st.copy = some c) (hid : c.ideal)
    (h : collision_recovery H fuel st epos = some (Step.next st')) :
    ∃ c2, st'.copy = some c2 ∧ c.data.length ≤ c2.data.length := by
  have hq0 : epos - c_checkpoint_dist = q := by rw [hep]; omega
  unfold collision_recovery at h
  split at h
  · split at h
    · split at h
      · simp only [IFile.Seek] at h
        rw [hq0] at h
        exact recopy_from_start_len fuel st st' epos q c hfs hq hc hid h
      · simp only [Option.some.injEq, Step.next.injEq] at h
        rw [← h]
        exact ⟨c, hc, Nat.le_refl _⟩
    · simp only [Option.some.injEq, Step.next.injEq] at h
      rw [← h]
      exact ⟨c, hc, Nat.le_refl _⟩
  · simp only [Option.some.injEq, Step.next.injEq] at h
    rw [← h]
    exact ⟨c, hc, Nat.le_refl _⟩

/-! ## The invariant of the replica under a hashfile of its previous content -/

/-- The normal path keeps the invariant `KInv` when MD5 tells the big chunks of `R0`
from every other input; a small-hash collision in the big chunk makes the collision
recovery fire. -/
theorem KInv_normal_step (H : HashFns) (g : Globals) (exts : List SSparseExtent)
    (F init : List Byte) (R0 : IFile)
    (hTl : (get_sparse_extent_content g).length = chunkhash_single_size)
    (hmd5 : ∀ j X, j * c_checkpoint_dist < R0.data.length →
        H.md5 X = H.md5 (slice R0.data (j * c_checkpoint_dist) c_checkpoint_dist) →
        X = slice R0.data (j * c_checkpoint_dist) c_checkpoint_dist)
    (fuel : Nat) (st st' : State)
    (hI : HInv H (get_sparse_extent_content g) exts F init st.hview)
    (hok : CopyOK st) (hR : RInv H F (hashfile_of H R0.data) R0 (-1) st)
    (hK : KInv H F R0.data st)
    (hlt : st.pos < st.fsize)
    (hs : normal_chunk H fuel (advance_extent (load_chunk_hashes st))
        ((advance_extent (load_chunk_hashes st)).pos + c_checkpoint_dist) = some (Step.next st')) :
    KInv H F R0.data st'
      ∧ (∀ s3, hash_big_chunk H fuel (advance_extent (load_chunk_hashes st))
            ((advance_extent (load_chunk_hashes st)).pos + c_checkpoint_dist)
              = some (Step.next s3) →
          ∀ i, st.pos ≤ i * c_small_hash_dist →
            i * c_small_hash_dist < st.pos + c_checkpoint_dist →
            i * c_small_hash_dist < F.length →
            Collides H F R0.data (hashfile_of H R0.data) i →
            recovery_fires H s3 = true) := by
  have hB := c_checkpoint_dist_eq
  have hS := c_small_hash_dist_eq
  obtain ⟨f1, f2, f3, f4, f5, f6, f7, f8, f9, f10, f11⟩ :=
    head_state_facts H F (hashfile_of H R0.data) R0 (-1) st hR
  have h1 : HInv H (get_sparse_extent_content g) exts F init (load_chunk_hashes st).hview := by
    rw [load_chunk_hashes_hview]; exact hI
  have h2 := advance_extent_HInv H _ exts F init _ h1
  have hfsF : st.fsize = F.length := hI.fsize
  obtain ⟨E, j, hRec, hcc, hh, hp1, hp2⟩ := hI.recs
  have hpj : st.pos = j * c_checkpoint_dist := hp1 (by rw [← hfsF]; exact hlt)
  have hjF : j * c_checkpoint_dist < F.length := by rw [← hpj, ← hfsF]; exact hlt
  have hrec : st.hashoutputpos = 8 + j * chunkhash_single_size := by
    have hl := Recs_length H _ exts F hTl j E hRec
    rw [recs_size_full _ _ (by rw [hB]; rw [hB] at hjF; omega)] at hl
    have : st.hashoutputpos = 8 + E.length := hh
    rw [this, hl]
  obtain ⟨L1, L2, L3⟩ := load_chunk_hashes_record H R0.data st j hK.hin hK.isz hpj hrec hK.buf
  have hrv := advance_extent_rview (load_chunk_hashes st)
  have ech : (advance_extent (load_chunk_hashes st)).chunk_hashes
      = (load_chunk_hashes st).chunk_hashes := congrArg RStat.chunk_hashes (congrArg RView.stat hrv)
  have ehi : (advance_extent (load_chunk_hashes st)).hashinput
      = (load_chunk_hashes st).hashinput := congrArg RStat.hashinput (congrArg RView.stat hrv)
  have eisz : (advance_extent (load_chunk_hashes st)).input_size = st.input_size := by
    rw [advance_extent_isz, load_chunk_hashes_isz]
  have ehop : (advance_extent (load_chunk_hashes st)).hashoutputpos
      = 8 + j * chunkhash_single_size := by
    rw [advance_extent_hop,
      show (load_chunk_hashes st).hashoutputpos = st.hashoutputpos from
        congrArg HView.hashoutputpos (load_chunk_hashes_hview st)]
    exact hrec
  rw [← ech] at L2 L3
  rw [← ehi] at L1
  generalize advance_extent (load_chunk_hashes st) = s at *
  obtain ⟨c, hc⟩ := hR.has_copy
  obtain ⟨hid, hp⟩ := hok c hc
  have hsc : s.copy = some c := by rw [f1]; exact hc
  have hlt' : s.pos < s.fsize := by rw [f9, f10]; exact hlt
  have hcwp : s.copy_write_pos = s.pos := by rw [f2, f9]; exact hR.cwp hlt
  have hsfs : s.fsize = F.length := h2.fsize
  obtain ⟨s3, s4, h3, h4, hst⟩ := normal_chunk_split H fuel s st' _ hs
  obtain ⟨a1, a2, a3, a4, a5, a6, a7, a8, a9, a10, ⟨k, k1, k2, k3⟩, c2, b1, b2, b3, b4, b5, b6⟩ :=
    hash_big_chunk_replica H _ exts F init (hashfile_of H R0.data) fuel s s3 c hTl h2 hlt' f8
      f3 hsc hid hp hcwp h3
  have hagr : ∀ o, o < R0.data.length → R0.data.getD o 0 = F.getD o 0 →
      Agree F c s.copy_max_sparse o := by
    intro o o1 o2
    rw [f4]
    exact hR.ext c hc o (Or.inl ⟨o1, o2⟩)
  obtain ⟨c2', g1, g2, g3, g4, g5⟩ :=
    hash_big_chunk_control H _ exts F init R0.data fuel s s3 c h2 hlt' f3 hsc hid hp hcwp
      hagr (hK.len c hc) h3
  have hcc : c2' = c2 := by
    rw [b1] at g1
    simp only [Option.some.injEq] at g1
    exact g1.symm
  rw [hcc] at g2 g4 g5
  have hv4 := collision_recovery_hview H fuel s3 s4 (s.pos + c_checkpoint_dist) s.pos k h4 rfl
    (by rw [a7]; exact a9) (by rw [a7]; exact a8) (by rw [a8, ← hsfs]; exact hlt') k1
    (by rw [a8]; exact k2) (by rw [a8]; exact k3)
  obtain ⟨d1, c3, d2, d3, d4, d5, d6, d7⟩ := collision_recovery_replica H F s.copy_max_sparse
    fuel s3 s4 (s.pos + c_checkpoint_dist) s.pos c2 a7 a8 (by rw [a8, ← hsfs]; exact hlt') rfl
    b1 b2 a6 b6 h4
  obtain ⟨c3', l1, l2⟩ := collision_recovery_len H fuel s3 s4 (s.pos + c_checkpoint_dist) s.pos
    c2 (by rw [a8, a7]) (by rw [a8, ← hsfs]; exact hlt') rfl b1 b2 h4
  have hcc3 : c3' = c3 := by
    rw [d2] at l1
    simp only [Option.some.injEq] at l1
    exact l1.symm
  rw [hcc3] at l2
  have z4 := collision_recovery_isz H fuel s3 s4 _ h4
  have e4pos : s4.pos = s3.pos := congrArg HView.pos hv4
  have e4ch : s4.chunk_hashes = s.chunk_hashes := by
    rw [show s4.chunk_hashes = s3.chunk_hashes from congrArg RStat.chunk_hashes d1, a2]
  have e4hi : s4.hashinput = s.hashinput := by
    rw [show s4.hashinput = s3.hashinput from congrArg RStat.hashinput d1, a3]
  have e4wm : s4.copy_max_sparse = st.copy_max_sparse := by
    rw [show s4.copy_max_sparse = s3.copy_max_sparse from congrArg RStat.copy_max_sparse d1,
      a4, f4]
  have hspj : s.pos = j * c_checkpoint_dist := by rw [f9]; exact hpj
  -- without the collision recovery the input of the control MD5 is the big chunk of `R0`
  have hctl : ∀ ch, s.chunk_hashes = some ch → ¬ recovery_fires H s3 = true →
      s3.big_hash_copy_control = slice R0.data s.pos c_checkpoint_dist := by
    intro ch hch hnf
    obtain ⟨q1, q2⟩ := L2 ch hch
    have hmd : H.md5 s3.big_hash_copy_control = ch.take big_hash_size := by
      by_contra hne
      exact hnf ((recovery_fires_iff H s3).mpr ⟨c2, ch, b1, by rw [a2]; exact hch, a1, hne⟩)
    rw [hspj]
    exact hmd5 j _ (by rw [← hpj]; exact q1) (by rw [hmd, q2])
  have hchunk : ∀ o, s.pos ≤ o → o < s3.pos → o < F.length →
      Agree F c3 s.copy_max_sparse o := by
    intro o o1 o2 o3
    cases hch : s.chunk_hashes with
    | none => exact d5 o (g4 hch o o1 o2 o3)
    | some ch =>
      by_cases hf : recovery_fires H s3 = true
      · refine d6 hf o o1 ?_ o3
        rw [k1] at o2
        rw [hB, hS] at k3
        rw [hB]
        rw [hS] at o2
        omega
      · exact d5 o ((g5 ch hch (hctl ch hch hf)).1 o o1 o2 o3)
  have hpos' : st'.pos = s3.pos := by
    rw [hst]
    exact e4pos
  have hcopy' : st'.copy = some c3 := by
    rw [hst]
    exact d2
  have hwm' : st'.copy_max_sparse = st.copy_max_sparse := by
    rw [hst]
    exact e4wm
  refine ⟨?_, ?_⟩
  · constructor
    · rw [hst]
      show s4.input_size = _
      rw [z4, g3, eisz]
      exact hK.isz
    · rw [hst]
      show ∃ hi, s4.hashinput = some hi ∧ _
      rw [e4hi]
      exact L1
    · intro hn
      rw [hst] at hn
      have hn' : s4.chunk_hashes = none := hn
      rw [e4ch] at hn'
      have := L3 hn'
      rw [hpos', k1, f9]
      omega
    · intro c' hc'
      rw [hcopy'] at hc'
      simp only [Option.some.injEq] at hc'
      rw [← hc']
      omega
    · intro c' hc' o o1 o2
      rw [hcopy'] at hc'
      simp only [Option.some.injEq] at hc'
      rw [← hc', hwm', ← f4]
      by_cases ho : o < st.pos
      · have := hK.full c hc o ho o2
        rw [← f4] at this
        exact d5 o (b4 o this)
      · rw [hpos'] at o1
        exact hchunk o (by rw [f9]; omega) o1 o2
  · intro s3' h3' i i1 i2 i3 hcol
    rw [h3] at h3'
    simp only [Option.some.injEq, Step.next.injEq] at h3'
    rw [← h3']
    obtain ⟨x1, x2, x3⟩ := hcol
    have hN := n_chunks_eq
    have hC := chunkhash_single_size_eq
    have hb16 := big_hash_size_eq
    have hs4 := small_hash_size_eq
    -- the small chunk `i` is small chunk `i % N` of big chunk `j`
    have hij : i / n_chunks = j ∧ i * c_small_hash_dist = s.pos + (i % n_chunks) * c_small_hash_dist
        ∧ i % n_chunks < n_chunks := by
      rw [hpj, hB, hS] at i1 i2
      rw [hspj, hN, hB, hS]
      omega
    obtain ⟨y1, y2, y3⟩ := hij
    rw [y1] at x1 x2
    have hjR : j * c_checkpoint_dist < R0.data.length :=
      hashfile_of_record H R0.data j (by rw [hC, hb16, hs4] at x1; rw [hC]; omega)
    cases hch : s.chunk_hashes with
    | none =>
      have := L3 hch
      omega
    | some ch =>
      by_contra hnf
      have hrel := f8 ch hch (i % n_chunks) y3 (by rw [ehop]; exact x1)
      rw [ehop, x2, y2] at hrel
      have := (g5 ch hch (hctl ch hch hnf)).2 (i % n_chunks) y3 (by rw [← y2]; exact i3)
        hrel.symm
      rw [← y2] at this
      exact x3 this

/-- The known-sparse fast path keeps the invariant `KInv`. -/
theorem KInv_sparse_step (H : HashFns) (g : Globals) (exts : List SSparseExtent)
    (F init : List Byte) (R0 : IFile)
    (hTl : (get_sparse_extent_content g).length = chunkhash_single_size)
    (htr : truthful exts F) (hnn : ∀ e ∈ exts, 0 ≤ e.offset)
    (fuel : Nat) (st st' : State)
    (hI : HInv H (get_sparse_extent_content g) exts F init st.hview)
    (hok : CopyOK st) (hR : RInv H F (hashfile_of H R0.data) R0 (-1) st)
    (hK : KInv H F R0.data st)
    (hlt : st.pos < st.fsize)
    (hk : known_sparse (advance_extent (load_chunk_hashes st))
        ((advance_extent (load_chunk_hashes st)).pos + c_checkpoint_dist) = true)
    (hs : sparse_chunk g fuel (advance_extent (load_chunk_hashes st))
        ((advance_extent (load_chunk_hashes st)).pos + c_checkpoint_dist) = some (Step.next st')) :
    KInv H F R0.data st' := by
  have hB := c_checkpoint_dist_eq
  have hT : get_sparse_extent_content g ≠ []
      ∧ (get_sparse_extent_content g).length < 2 ^ 31 := by
    refine ⟨?_, by rw [hTl, chunkhash_single_size_eq]; decide⟩
    intro he
    rw [he, chunkhash_single_size_eq] at hTl
    simp at hTl
  obtain ⟨c, hc⟩ := hR.has_copy
  obtain ⟨hid, hp⟩ := hok c hc
  have hRb := RInv_rebase H F (hashfile_of H R0.data) R0 (-1) st c hc hR
  obtain ⟨_, hR'⟩ := RInv_sparse_step H g exts F init (hashfile_of H R0.data) c
    st.copy_max_sparse hT htr hnn fuel st st' hI hok hRb hlt hk hs
  obtain ⟨f1, f2, f3, f4, f5, f6, f7, f8, f9, f10, f11⟩ :=
    head_state_facts H F (hashfile_of H R0.data) R0 (-1) st hR
  have h1 : HInv H (get_sparse_extent_content g) exts F init (load_chunk_hashes st).hview := by
    rw [load_chunk_hashes_hview]; exact hI
  have h2 := advance_extent_HInv H _ exts F init _ h1
  have hfsF : st.fsize = F.length := hI.fsize
  obtain ⟨E, j, hRec, hcc, hh, hp1, hp2⟩ := hI.recs
  have hpj : st.pos = j * c_checkpoint_dist := hp1 (by rw [← hfsF]; exact hlt)
  have hjF : j * c_checkpoint_dist < F.length := by rw [← hpj, ← hfsF]; exact hlt
  have hrec : st.hashoutputpos = 8 + j * chunkhash_single_size := by
    have hl := Recs_length H _ exts F hTl j E hRec
    rw [recs_size_full _ _ (by rw [hB]; rw [hB] at hjF; omega)] at hl
    have : st.hashoutputpos = 8 + E.length := hh
    rw [this, hl]
  obtain ⟨L1, L2, L3⟩ := load_chunk_hashes_record H R0.data st j hK.hin hK.isz hpj hrec hK.buf
  have hrv := advance_extent_rview (load_chunk_hashes st)
  have ech : (advance_extent (load_chunk_hashes st)).chunk_hashes
      = (load_chunk_hashes st).chunk_hashes := congrArg RStat.chunk_hashes (congrArg RView.stat hrv)
  have ehi : (advance_extent (load_chunk_hashes st)).hashinput
      = (load_chunk_hashes st).hashinput := congrArg RStat.hashinput (congrArg RView.stat hrv)
  have eisz : (advance_extent (load_chunk_hashes st)).input_size = st.input_size := by
    rw [advance_extent_isz, load_chunk_hashes_isz]
  rw [← ech] at L3
  rw [← ehi] at L1
  generalize advance_extent (load_chunk_hashes st) = s at *
  have hsc : s.copy = some c := by rw [f1]; exact hc
  unfold known_sparse at hk
  simp only [decide_eq_true_eq] at hk
  obtain ⟨k1, k2, k3, k4⟩ := hk
  rw [f9] at k2 k3 k4
  have hv := sparse_chunk_hview g fuel s st' _ h2.ho_ideal hT hs
  have hpos' : st'.pos = st.pos + c_checkpoint_dist := by
    have : st'.pos = s.pos + c_checkpoint_dist := congrArg HView.pos hv
    rw [this, f9]
  have hcur' : st'.curr_extent = s.curr_extent := congrArg HView.curr_extent hv
  obtain ⟨r1, r2, r3, r4, r5, r6⟩ := sparse_chunk_replica g fuel s st' _ c hsc hp hs
  have z := sparse_chunk_isz g fuel s st' _ hs
  have hstart : st'.copy_sparse_extent_start ≠ -1 := by
    by_cases hcs : s.copy_sparse_extent_start = -1
    · rw [(r5 hcs).2.2]
      omega
    · rw [(r6 hcs).2.2]
      exact hcs
  obtain ⟨u1, u2, u3, u4⟩ := hR'.run_inv hstart
  constructor
  · rw [z, eisz]
    exact hK.isz
  · rw [r3]
    exact L1
  · intro hn
    rw [r2] at hn
    have := L3 hn
    rw [hpos']
    omega
  · intro c' hc'
    by_cases hcs : s.copy_sparse_extent_start = -1
    · rw [(r5 hcs).1] at hc'
      simp only [Option.some.injEq] at hc'
      rw [← hc']
      show R0.data.length ≤ (zero_range c.data _ _).length
      rw [zero_range_length]
      exact hK.len c hc
    · rw [(r6 hcs).1, hsc] at hc'
      simp only [Option.some.injEq] at hc'
      rw [← hc']
      exact hK.len c hc
  · intro c' hc' o o1 o2
    by_cases ho : o < st.pos
    · exact hR'.ext c' hc' o (hK.full c hc o ho o2)
    · rw [hpos'] at o1
      apply u4 c' hc' o
      · rw [hcur']
        omega
      · rw [hcur']
        push_cast at k3
        omega

/-! ## The main loop under a hashfile of the previous content of the replica -/

/-- Invariant rule for the iterations of the main loop: an invariant of the two paths
holds at the top of every iteration. -/
theorem main_loop_heads_partial (H : HashFns) (g : Globals) (I : State → Prop)
    (hsparse : ∀ fuel st st', I st → st.pos < st.fsize →
      known_sparse (advance_extent (load_chunk_hashes st))
        ((advance_extent (load_chunk_hashes st)).pos + c_checkpoint_dist) = true →
      sparse_chunk g fuel (advance_extent (load_chunk_hashes st))
        ((advance_extent (load_chunk_hashes st)).pos + c_checkpoint_dist) = some (Step.next st') →
      I st')
    (hnormal : ∀ fuel st st', I st → st.pos < st.fsize →
      known_sparse (advance_extent (load_chunk_hashes st))
        ((advance_extent (load_chunk_hashes st)).pos + c_checkpoint_dist) = false →
      normal_chunk H fuel (advance_extent (load_chunk_hashes st))
        ((advance_extent (load_chunk_hashes st)).pos + c_checkpoint_dist) = some (Step.next st') →
      I st') :
    ∀ (fuel : Nat) (st : State) (k : Nat) (sh : State), I st →
      (k, sh) ∈ main_loop_heads H g fuel st → I sh ∧ sh.pos < sh.fsize := by
  intro fuel
  induction fuel with
  | zero => intro st k sh _ h; simp [main_loop_heads] at h
  | succ fuel ih =>
    intro st k sh hI h
    rw [main_loop_heads] at h
    by_cases hlt : st.pos < st.fsize
    · rw [if_pos hlt] at h
      simp only [List.mem_cons, Prod.mk.injEq] at h
      rcases h with ⟨_, e2⟩ | h
      · rw [e2]
        exact ⟨hI, hlt⟩
      · cases hk : known_sparse (advance_extent (load_chunk_hashes st))
            ((advance_extent (load_chunk_hashes st)).pos + c_checkpoint_dist) with
        | true =>
          rw [hk] at h
          simp only [if_true] at h
          split at h
          · rename_i s hs
            exact ih _ _ _ (hsparse fuel st s hI hlt hk hs) h
          · simp at h
        | false =>
          rw [hk] at h
          simp only [Bool.false_eq_true, if_false] at h
          split at h
          · rename_i s hs
            exact ih _ _ _ (hnormal fuel st s hI hlt hk hs) h
          · simp at h
    · rw [if_neg hlt] at h
      simp at h

/-- The known-sparse fast path keeps the invariants of a run in `modify_inplace` mode
whose previous hashfile is the hashfile of the replica. -/
theorem KAll_sparse_step (H : HashFns) (g : Globals) (exts : List SSparseExtent)
    (F init : List Byte) (R0 : IFile)
    (hTl : (get_sparse_extent_content g).length = chunkhash_single_size)
    (htr : truthful exts F) (hnn : ∀ e ∈ exts, 0 ≤ e.offset)
    (fuel : Nat) (st st' : State)
    (hI : HInv H (get_sparse_extent_content g) exts F init st.hview ∧ CopyOK st
      ∧ RInv H F (hashfile_of H R0.data) R0 (-1) st ∧ KInv H F R0.data st)
    (hlt : st.pos < st.fsize)
    (hk : known_sparse (advance_extent (load_chunk_hashes st))
        ((advance_extent (load_chunk_hashes st)).pos + c_checkpoint_dist) = true)
    (hs : sparse_chunk g fuel (advance_extent (load_chunk_hashes st))
        ((advance_extent (load_chunk_hashes st)).pos + c_checkpoint_dist) = some (Step.next st')) :
    HInv H (get_sparse_extent_content g) exts F init st'.hview ∧ CopyOK st'
      ∧ RInv H F (hashfile_of H R0.data) R0 (-1) st' ∧ KInv H F R0.data st' := by
  have hT : get_sparse_extent_content g ≠ []
      ∧ (get_sparse_extent_content g).length < 2 ^ 31 := by
    refine ⟨?_, by rw [hTl, chunkhash_single_size_eq]; decide⟩
    intro he
    rw [he, chunkhash_single_size_eq] at hTl
    simp at hTl
  obtain ⟨hI, hok, hR, hK⟩ := hI
  have h1 : HInv H (get_sparse_extent_content g) exts F init (load_chunk_hashes st).hview := by
    rw [load_chunk_hashes_hview]; exact hI
  have h2 := advance_extent_HInv H _ exts F init _ h1
  have hp := advance_extent_pos (load_chunk_hashes st)
  have hlt' : (advance_extent (load_chunk_hashes st)).pos
      < (advance_extent (load_chunk_hashes st)).fsize := by
    rw [hp.1, hp.2.1]
    have e1 : (load_chunk_hashes st).pos = st.pos :=
      congrArg HView.pos (load_chunk_hashes_hview st)
    have e2 : (load_chunk_hashes st).fsize = st.fsize :=
      congrArg HView.fsize (load_chunk_hashes_hview st)
    rw [e1, e2]; exact hlt
  have hH := sparse_chunk_HInv H g exts F init fuel _ st' hT h2 hlt' hk hs
  obtain ⟨a1, a2⟩ := RInv_sparse_step H g exts F init _ R0 (-1) hT htr hnn fuel st st'
    hI hok hR hlt hk hs
  exact ⟨hH, a1, a2,
    KInv_sparse_step H g exts F init R0 hTl htr hnn fuel st st' hI hok hR hK hlt hk hs⟩

/-- The normal path keeps the invariants of a run in `modify_inplace` mode whose
previous hashfile is the hashfile of the replica. -/
theorem KAll_normal_step (H : HashFns) (g : Globals) (exts : List SSparseExtent)
    (F init : List Byte) (R0 : IFile)
    (hTl : (get_sparse_extent_content g).length = chunkhash_single_size)
    (hmd5 : ∀ j X, j * c_checkpoint_dist < R0.data.length →
        H.md5 X = H.md5 (slice R0.data (j * c_checkpoint_dist) c_checkpoint_dist) →
        X = slice R0.data (j * c_checkpoint_dist) c_checkpoint_dist)
    (fuel : Nat) (st st' : State)
    (hI : HInv H (get_sparse_extent_content g) exts F init st.hview ∧ CopyOK st
      ∧ RInv H F (hashfile_of H R0.data) R0 (-1) st ∧ KInv H F R0.data st)
    (hlt : st.pos < st.fsize)
    (hs : normal_chunk H fuel (advance_extent (load_chunk_hashes st))
        ((advance_extent (load_chunk_hashes st)).pos + c_checkpoint_dist) = some (Step.next st')) :
    HInv H (get_sparse_extent_content g) exts F init st'.hview ∧ CopyOK st'
      ∧ RInv H F (hashfile_of H R0.data) R0 (-1) st' ∧ KInv H F R0.data st' := by
  obtain ⟨hI, hok, hR, hK⟩ := hI
  have h1 : HInv H (get_sparse_extent_content g) exts F init (load_chunk_hashes st).hview := by
    rw [load_chunk_hashes_hview]; exact hI
  have h2 := advance_extent_HInv H _ exts F init _ h1
  have hp := advance_extent_pos (load_chunk_hashes st)
  have hlt' : (advance_extent (load_chunk_hashes st)).pos
      < (advance_extent (load_chunk_hashes st)).fsize := by
    rw [hp.1, hp.2.1]
    have e1 : (load_chunk_hashes st).pos = st.pos :=
      congrArg HView.pos (load_chunk_hashes_hview st)
    have e2 : (load_chunk_hashes st).fsize = st.fsize :=
      congrArg HView.fsize (load_chunk_hashes_hview st)
    rw [e1, e2]; exact hlt
  have hH := (normal_chunk_HInv H _ exts F init fuel _ st' h2 hlt' hs).1
  obtain ⟨a1, a2, _⟩ := RInv_normal_step H g exts F init _ R0 (-1) hTl fuel st st'
    hI hok hR hlt hs
  exact ⟨hH, a1, a2,
    (KInv_normal_step H g exts F init R0 hTl hmd5 fuel st st' hI hok hR hK hlt hs).1⟩

theorem read_input_size_kfields (H : HashFns) (st st' : State) (hi : IFile) (R : List Byte)
    (hin : st.hashinput = some hi) (hd : hi.data = hashfile_of H R) (hsz : R.length < 2 ^ 63)
    (h : read_input_size st = Step.next st') :
    st'.input_size = (R.length : Int)
      ∧ ∃ hi2, st'.hashinput = some hi2 ∧ hi2.data = hashfile_of H R := by
  unfold read_input_size at h
  rw [hin] at h
  simp only [IFile.Seek, IFile.Read, List.drop_zero] at h
  split at h
  · simp at h
  · simp only [Step.next.injEq] at h
    rw [← h]
    refine ⟨?_, _, rfl, hd⟩
    show i64_of_nat (read_le (List.take 8 hi.data)) = _
    rw [hd, hashfile_of_take]
    exact i64_of_nat_bytes R.length hsz

/-- The fields of the state in front of the main loop that the comparison with the
recorded big hash depends on, when the previous hashfile is the hashfile of `R`. -/
theorem prologue_kfields (H : HashFns) (a : Args) (st0 : State) (hi : IFile) (R : List Byte)
    (hhi : a.hashinput = some hi) (hd : hi.data = hashfile_of H R) (hsz : R.length < 2 ^ 63)
    (h : prologue a = some (Step.next st0)) :
    st0.input_size = (R.length : Int)
      ∧ (∃ hi2, st0.hashinput = some hi2 ∧ hi2.data = hashfile_of H R)
      ∧ st0.chunk_hashes ≠ none := by
  unfold prologue at h
  simp only at h
  split at h
  · simp at h
  · simp at h
  · rename_i s0 hw
    obtain ⟨ho, cb, rfl⟩ := write_hashoutput_form _ _ _ _ hw
    split at h
    · simp at h
    · rename_i s1 hr
      simp only [Option.some.injEq, Step.next.injEq] at h
      obtain ⟨k1, hi2, k2, k3⟩ := read_input_size_kfields H _ s1 hi R hhi hd hsz hr
      rw [← h]
      refine ⟨k1, ⟨hi2, k2, k3⟩, ?_⟩
      show (match s1.hashinput with
            | none => s1.chunk_hashes
            | some _ => some a.uninit) ≠ none
      rw [k2]
      simp

/-- The invariant `KInv` holds in front of the main loop. -/
theorem prologue_KInv (H : HashFns) (a : Args) (st0 : State) (R0 hi : IFile)
    (hc : a.copy = some R0)
    (hhi : a.hashinput = some hi) (hd : hi.data = hashfile_of H R0.data)
    (hsz : R0.data.length < 2 ^ 63)
    (h : prologue a = some (Step.next st0)) :
    KInv H a.f.data R0.data st0 := by
  obtain ⟨p1, p2, p3, p4, p5, p6, p7, p8⟩ := prologue_rfields a st0 h
  obtain ⟨q1, q2, q3⟩ := prologue_kfields H a st0 hi R0.data hhi hd hsz h
  constructor
  · exact q1
  · exact q2
  · intro hn
    exact absurd hn q3
  · intro c hc'
    rw [p2, hc] at hc'
    simp only [Option.some.injEq] at hc'
    rw [← hc']
  · intro c _ o ho
    rw [p6] at ho
    exact absurd ho (Nat.not_lt_zero o)

/-- A replica that holds every byte of `F` starts with `F`. -/
theorem take_eq_of_getD (R F : List Byte)
    (h : ∀ o, o < F.length → o < R.length ∧ R.getD o 0 = F.getD o 0) :
    R.take F.length = F := by
  have hl : F.length ≤ R.length := by
    by_cases h0 : F.length = 0
    · omega
    · have := (h (F.length - 1) (by omega)).1
      omega
  apply list_eq_of_getD
  · rw [List.length_take]
    omega
  · intro i hi
    rw [List.length_take] at hi
    have hiF : i < F.length := by omega
    rw [getD_take_lt R _ i hiF]
    exact (h i hiF).2

/-! ## Small-hash collisions in `modify_inplace` mode -/

/-- C11, with the assumption on MD5 that the code needs: a run of `build_chunk_hashs`
with `modify_inplace`, a replica `R0` and the hashfile of `R0` as the previous hashfile,
without I/O error, with an extent iterator that only reports ranges of the source that
are all zero, and with an MD5 that tells every big chunk of `R0` from every other
input (the control MD5 is computed over a mix of bytes of the source and old bytes of
the replica, not over a big chunk of the source).  The run returns for every fuel above
`fsize + N + 1`.  After it the replica starts with the bytes of the source: it equals
the source over the length of the source.  And for every big chunk on the normal path
that has a small-hash collision (a small chunk of the source whose Adler-32 is the
one recorded in the previous hashfile and whose bytes are not those of `R0`) the
control MD5 differs from the recorded big MD5, so that the collision recovery fires
and re-copies the big chunk from its start. -/
theorem C11_collision_recopy (H : HashFns) (g0 : Globals) (fuel : Nat) (a : Args)
    (R0 hi : IFile)
    (hm : a.modify_inplace = true) (hc : a.copy = some R0) (hff : a.fault_free)
    (htr : truthful (a.extent_iterator.getD []) a.f.data)
    (hnn : ∀ e ∈ a.extent_iterator.getD [], 0 ≤ e.offset)
    (hhi : a.hashinput = some hi) (hprev : hi.data = hashfile_of H R0.data)
    (hsz : R0.data.length < 2 ^ 63)
    (hmd5 : ∀ j X, j * c_checkpoint_dist < R0.data.length →
        H.md5 X = H.md5 (slice R0.data (j * c_checkpoint_dist) c_checkpoint_dist) →
        X = slice R0.data (j * c_checkpoint_dist) c_checkpoint_dist) :
    (a.f.data.length + n_chunks + 1 < fuel →
        ∃ ret st, build_chunk_hashs H (init_chunk_hasher H g0) fuel a = some (ret, st) ∧ ret ≠ [])
      ∧ ∀ (ret : List Byte) (st : State),
          build_chunk_hashs H (init_chunk_hasher H g0) fuel a = some (ret, st) → ret ≠ [] →
          ∃ R, st.copy = some R
            ∧ R.data.take a.f.data.length = a.f.data
            ∧ (∀ (st0 : State) (k : Nat) (sh s3 : State),
                prologue a = some (Step.next st0) →
                (k, sh) ∈ main_loop_heads H (init_chunk_hasher H g0) fuel st0 →
                known_sparse (advance_extent (load_chunk_hashes sh))
                  ((advance_extent (load_chunk_hashes sh)).pos + c_checkpoint_dist) = false →
                hash_big_chunk H k (advance_extent (load_chunk_hashes sh))
                  ((advance_extent (load_chunk_hashes sh)).pos + c_checkpoint_dist)
                    = some (Step.next s3) →
                ∀ i, sh.pos ≤ i * c_small_hash_dist →
                  i * c_small_hash_dist < sh.pos + c_checkpoint_dist →
                  i * c_small_hash_dist < a.f.data.length →
                  Collides H a.f.data R0.data hi.data i →
                  recovery_fires H s3 = true) := by
  have hTl := template_length H g0
  have hT := template_fits H g0
  have hpv : prev_hashfile a = hashfile_of H R0.data := by
    unfold prev_hashfile
    rw [hhi]
    exact hprev
  constructor
  · intro hfuel
    exact build_chunk_hashs_terminates H _ fuel a hT hff hfuel
  · intro ret st hrun hret
    obtain ⟨st0, st1, st2, hp, hmn, hr, hf⟩ :=
      build_chunk_hashs_next H _ fuel a ret st hrun hret
    have h0 := prologue_HInv H (get_sparse_extent_content (init_chunk_hasher H g0)) a st0
      hff.ho_ideal hp
    have hok0 : CopyOK st0 := by
      obtain ⟨s, hs, hk⟩ := prologue_progress a hff
      rw [hp] at hs
      simp only [Option.some.injEq, Step.next.injEq] at hs
      rw [hs]; exact hk
    have hR0 := prologue_RInv H a st0 R0 hm hc hp
    rw [hpv] at hR0
    have hK0 := prologue_KInv H a st0 R0 hi hc hhi hprev hsz hp
    have hsp := KAll_sparse_step H (init_chunk_hasher H g0) (a.extent_iterator.getD [])
      a.f.data a.hashoutput.data R0 hTl htr hnn
    have hno := KAll_normal_step H (init_chunk_hasher H g0) (a.extent_iterator.getD [])
      a.f.data a.hashoutput.data R0 hTl hmd5
    obtain ⟨⟨h1, _, hR1, hK1⟩, hx⟩ := main_loop_partial H (init_chunk_hasher H g0)
      (fun s => HInv H (get_sparse_extent_content (init_chunk_hasher H g0))
          (a.extent_iterator.getD []) a.f.data a.hashoutput.data s.hview ∧ CopyOK s
        ∧ RInv H a.f.data (hashfile_of H R0.data) R0 (-1) s ∧ KInv H a.f.data R0.data s)
      (fun fuel st st' hI hlt hk hs => hsp fuel st st' hI hlt hk hs)
      (fun fuel st st' hI hlt _ hs => hno fuel st st' hI hlt hs)
      fuel st0 st1 ⟨h0, hok0, hR0, hK0⟩ hmn
    obtain ⟨c1, hc1⟩ := hR1.has_copy
    obtain ⟨R, hR, hfin⟩ := epilogue_replica H a.f.data st1 st2 st ret c1 hc1 hr hf
    have hfs1 : st1.fsize = a.f.data.length := h1.fsize
    refine ⟨R, hR, ?_, ?_⟩
    · apply take_eq_of_getD
      intro o ho
      exact hfin o (hK1.full c1 hc1 o (by omega) ho)
    · intro st0' k sh s3 hp' hmem hk h3 i i1 i2 i3 hcol
      rw [hp] at hp'
      simp only [Option.some.injEq, Step.next.injEq] at hp'
      rw [← hp'] at hmem
      obtain ⟨⟨j1, j2, j3, j4⟩, hlt⟩ := main_loop_heads_partial H (init_chunk_hasher H g0)
        (fun s => HInv H (get_sparse_extent_content (init_chunk_hasher H g0))
            (a.extent_iterator.getD []) a.f.data a.hashoutput.data s.hview ∧ CopyOK s
          ∧ RInv H a.f.data (hashfile_of H R0.data) R0 (-1) s ∧ KInv H a.f.data R0.data s)
        (fun fuel st st' hI hlt hk hs => hsp fuel st st' hI hlt hk hs)
        (fun fuel st st' hI hlt _ hs => hno fuel st st' hI hlt hs)
        fuel st0 k sh ⟨h0, hok0, hR0, hK0⟩ hmem
      have hrun2 := main_loop_heads_run H _ fuel st0 k sh hmem
      rw [hrun2] at hmn
      rw [main_loop, if_pos hlt] at hmn
      simp only at hmn
      rw [hk] at hmn
      simp only [Bool.false_eq_true, if_false] at hmn
      split at hmn
      · simp at hmn
      · simp at hmn
      · rename_i s hs
        rw [hprev] at hcol
        exact (KInv_normal_step H (init_chunk_hasher H g0) (a.extent_iterator.getD [])
          a.f.data a.hashoutput.data R0 hTl hmd5 k sh s j1 j2 j3 j4 hlt hs).2 s3 h3 i i1 i2 i3
          hcol

theorem adler_collision_args_fault_free : adler_collision_args.fault_free := by
  refine ⟨fun _ _ => rfl, ?_, ?_⟩
  · intro c hc
    have e : some (mem_file [0, 2, 0]) = some c := hc
    simp only [Option.some.injEq] at e
    rw [← e]
    exact ⟨fun _ _ => rfl, rfl⟩
  · intro hi hh
    have e : some (mem_file (hashfile_of split_digests [0, 2, 0])) = some hi := hh
    simp only [Option.some.injEq] at e
    rw [← e]
    decide

/-- The digest `split_digests` tells the only big chunk of `[0, 2, 0]` from every other
input. -/
theorem split_digests_md5 (j : Nat) (X : List Byte)
    (hj : j * c_checkpoint_dist < ([0, 2, 0] : List Byte).length)
    (h : split_digests.md5 X
      = split_digests.md5 (slice [0, 2, 0] (j * c_checkpoint_dist) c_checkpoint_dist)) :
    X = slice [0, 2, 0] (j * c_checkpoint_dist) c_checkpoint_dist := by
  have hj0 : j = 0 := by
    rw [c_checkpoint_dist_eq] at hj
    simp only [List.length_cons, List.length_nil] at hj
    omega
  subst hj0
  have e : slice ([0, 2, 0] : List Byte) (0 * c_checkpoint_dist) c_checkpoint_dist
      = [0, 2, 0] := by decide
  rw [e] at h ⊢
  by_contra hne
  have h1 : split_digests.md5 X = List.replicate 16 1 := if_neg hne
  have h2 : split_digests.md5 [0, 2, 0] = List.replicate 16 0 := by decide
  rw [h1, h2] at h
  exact absurd h (by decide)

/-- Witness of C11: the source `[1, 0, 1]`, the replica `[0, 2, 0]` with the same
Adler-32 and the hashfile of the replica.  The run returns, small chunk 0 is a
small-hash collision, the collision recovery fires for the big chunk, and the replica
then starts with the three bytes of the source. -/
theorem C11_collision_recopy_witness :
    ∃ ret st R,
      build_chunk_hashs split_digests (init_chunk_hasher split_digests ⟨[]⟩) 1100
          adler_collision_args = some (ret, st)
        ∧ Collides split_digests [1, 0, 1] [0, 2, 0] (hashfile_of split_digests [0, 2, 0]) 0
        ∧ recovery_fires split_digests adler_collision_hashed = true
        ∧ st.copy = some R ∧ R.data.take 3 = [1, 0, 1] := by
  have T := C11_collision_recopy split_digests ⟨[]⟩ 1100 adler_collision_args
    (mem_file [0, 2, 0]) (mem_file (hashfile_of split_digests [0, 2, 0])) rfl rfl
    adler_collision_args_fault_free (fun e he => absurd he (List.not_mem_nil e))
    (fun e he => absurd he (List.not_mem_nil e)) rfl rfl (by decide) split_digests_md5
  have hl : adler_collision_args.f.data.length = 3 := rfl
  obtain ⟨ret, st, hrun, hret⟩ := T.1 (by rw [hl, n_chunks_eq]; omega)
  obtain ⟨R, hR, h1, h2⟩ := T.2 ret st hrun hret
  have hcol : Collides split_digests [1, 0, 1] [0, 2, 0]
      (hashfile_of split_digests [0, 2, 0]) 0 := by
    unfold Collides
    decide
  have hmem : (1099, adler_collision_head)
      ∈ main_loop_heads split_digests (init_chunk_hasher split_digests ⟨[]⟩) 1100
          adler_collision_head := by
    rw [main_loop_heads, if_pos (by decide)]
    exact List.mem_cons_self _ _
  have h := h2 adler_collision_head 1099 adler_collision_head adler_collision_hashed rfl hmem
    rfl rfl 0 (Nat.le_of_eq rfl)
    (by rw [c_checkpoint_dist_eq]; exact Nat.lt_of_lt_of_le (by decide) (Nat.le_add_left _ _))
    (by rw [hl]; omega) hcol
  exact ⟨ret, st, R, hrun, hcol, h, hR, h1⟩

set_option maxRecDepth 100000 in
/-- Counterexample to C11 as stated: the source is `mixed_chunk_f ++ [5]`, the replica
`mixed_chunk_r ++ [6]`, the previous hashfile the hashfile of the replica.  Small chunk
0 is a small-hash collision, and the MD5 tells the big chunk of the source from the big
chunk of the replica.  The control MD5 is computed over the bytes of the source for
small chunk 0 and over the old bytes of the replica for small chunk 1; it is the
recorded big MD5, so the collision recovery does not fire: the run returns `"k"`, and
the replica keeps its old first small chunk and differs from the source. -/
theorem C11_counterexample :
    Collides tail_digests (mixed_chunk_f ++ [5]) (mixed_chunk_r ++ [6])
        (hashfile_of tail_digests (mixed_chunk_r ++ [6])) 0
      ∧ tail_digests.md5 (slice (mixed_chunk_f ++ [5]) 0 c_checkpoint_dist)
          ≠ tail_digests.md5 (slice (mixed_chunk_r ++ [6]) 0 c_checkpoint_dist)
      ∧ hash_big_chunk tail_digests 1099
            (advance_extent (load_chunk_hashes mixed_collision_head))
            ((advance_extent (load_chunk_hashes mixed_collision_head)).pos + c_checkpoint_dist)
          = some (Step.next mixed_collision_hashed)
      ∧ mixed_collision_hashed.big_hash_copy_control = mixed_chunk_f ++ [6]
      ∧ recovery_fires tail_digests mixed_collision_hashed = false
      ∧ ∃ st R, build_chunk_hashs tail_digests (init_chunk_hasher tail_digests ⟨[]⟩) 1100
            mixed_collision_args = some ([107], st)
          ∧ st.copy = some R ∧ R.data = mixed_chunk_r ++ [5]
          ∧ R.data.take mixed_collision_args.f.data.length ≠ mixed_collision_args.f.data := by
  refine ⟨?_, ?_, rfl, rfl, rfl, _, _, rfl, rfl, rfl, ?_⟩
  · unfold Collides
    decide
  · decide
  · decide

end ChunkHasher

namespace IncrFileBackup
/-! ## The new client list is the filtered listing -/

theorem doFileBackup_walk_append (E : WalkEnv) (pre es : List (SFile × ExtraParams)) :
    ∀ st s, doFileBackup_walk E pre st = some s → s.c_has_error = false →
      doFileBackup_walk E (pre ++ es) st = doFileBackup_walk E es s := by
  induction pre with
  | nil =>
    intro st s h _
    simp only [doFileBackup_walk, Option.some.injEq] at h
    subst h; rfl
  | cons e r ih =>
    intro st s h he
    obtain ⟨cf, extra⟩ := e
    rw [List.cons_append]
    simp only [doFileBackup_walk] at h ⊢
    cases h1 : doFileBackup_entry E st cf extra with
    | none => rw [h1] at h; exact absurd h (by simp)
    | some st1 =>
      rw [h1] at h
      simp only at h ⊢
      by_cases hc : st1.c_has_error = true
      · rw [if_pos hc, Option.some.injEq] at h
        subst h
        exact absurd hc (by simpa using he)
      · rw [if_neg hc] at h ⊢
        exact ih _ _ h he

theorem fix_name_seen (E : WalkEnv) (st : WalkState) (cf : SFile) :
    (fix_name E st cf).2.entries_seen = st.entries_seen
      ∧ (fix_name E st cf).2.skip_dir_completely = st.skip_dir_completely := by
  unfold fix_name
  split_ifs <;> exact ⟨rfl, rfl⟩

theorem entry_preamble_seen (E : WalkEnv) (st : WalkState) (extra : ExtraParams) :
    (entry_preamble E st extra).1.entries_seen = st.entries_seen := by
  unfold entry_preamble
  simp only
  split_ifs <;> rfl

theorem update_indirchange_seen (E : WalkEnv) (st : WalkState) (cf : SFile) :
    (update_indirchange E st cf).entries_seen = st.entries_seen := by
  unfold update_indirchange
  split_ifs <;> rfl

theorem dir_enter_begin_seen (E : WalkEnv) (st : WalkState) (cf : SFile) (os : String)
    (b : Bool) : (dir_enter_begin E st cf os b).entries_seen = st.entries_seen := by
  unfold dir_enter_begin bump_folder_items
  simp only
  split_ifs <;> rfl

/-- A file entry outside of a linked directory whose classification fails ends with
`c_has_error` set and `line` not incremented. -/
theorem walk_file_error (E : WalkEnv) (st : WalkState) (cf : SFile) (extra : ExtraParams)
    (os : String) (md : FileMetadata)
    (h : ∀ l s sha m, classify_file E st cf extra os l s sha m = none) :
    walk_file E st cf extra os md = some { st with c_has_error := true } := by
  unfold walk_file
  simp only [h]

theorem classify_file_symlink_fails (E : WalkEnv) (st : WalkState) (cf : SFile)
    (extra : ExtraParams) (os l s sha t : String) (md : FileMetadata)
    (ht : extra.find "sym_target" = some t)
    (hf : ∀ p d t o, E.createSymlink st.entries_seen p d t o = false) :
    classify_file E st cf extra os l s sha md = none := by
  unfold classify_file
  simp only [ht, hf, Bool.not_false, if_true]

theorem classify_file_touch_fails (E : WalkEnv) (st : WalkState) (cf : SFile)
    (extra : ExtraParams) (os l s sha : String) (md : FileMetadata)
    (ht : extra.find "sym_target" = none) (hsp : (extra.find "special").isSome = true)
    (hf : ∀ p, E.touch_file st.entries_seen p = false) :
    classify_file E st cf extra os l s sha md = none := by
  unfold classify_file
  simp only [ht, hsp, hf, Bool.not_false, if_true]

theorem link_large_subtree_not_linked (E : WalkEnv) (st : WalkState) (l : String)
    (h : (link_large_subtree E st l).2 = false) : (link_large_subtree E st l).1 = st := by
  unfold link_large_subtree at h ⊢
  by_cases h1 : (E.use_directory_links && hasChange st.line E.large_unchanged_subtrees) = true
  · rw [if_pos h1] at h ⊢
    simp only at h ⊢
    by_cases h2 : E.link_directory_pool st.entries_seen (E.backuppath ++ l)
        (E.last_backuppath ++ l) = true
    · rw [if_pos h2] at h
      by_cases h3 : E.copy_last_file_entries = true
      · rw [if_pos h3] at h; cases h
      · rw [if_neg h3] at h; cases h
    · rw [if_neg h2]
  · rw [if_neg h1]

theorem dir_materialize_remove_fails (E : WalkEnv) (st : WalkState) (cf : SFile)
    (extra : ExtraParams) (md : FileMetadata) (l o t : String)
    (ht : extra.find "sym_target" = some t) (hsn : E.use_snapshots = true)
    (hr : ∀ p, E.os_remove_symlink_dir st.entries_seen p = false) :
    dir_materialize E st cf extra md true l o = false := by
  unfold dir_materialize
  simp [ht, hsn, hr]

theorem dir_materialize_symlink_fails (E : WalkEnv) (st : WalkState) (cf : SFile)
    (extra : ExtraParams) (md : FileMetadata) (dd : Bool) (l o t : String)
    (ht : extra.find "sym_target" = some t)
    (hs : ∀ p d t o, E.createSymlink st.entries_seen p d t o = false) :
    dir_materialize E st cf extra md dd l o = false := by
  unfold dir_materialize
  by_cases h1 : (dd && E.use_snapshots && !E.os_remove_symlink_dir st.entries_seen
      (E.backuppath ++ l)) = true
  · simp [ht, h1]
  · simp [ht, h1, hs]

theorem dir_materialize_mkdir_fails (E : WalkEnv) (st : WalkState) (cf : SFile)
    (extra : ExtraParams) (md : FileMetadata) (dd : Bool) (l o : String)
    (ht : extra.find "sym_target" = none)
    (hc : ∀ p, E.os_create_dir st.entries_seen p = false)
    (hx : ∀ p, E.os_directory_exists st.entries_seen p = false) :
    dir_materialize E st cf extra md dd l o = false := by
  unfold dir_materialize
  simp [ht, hc, hx]

theorem dir_materialize_delete_fails (E : WalkEnv) (st : WalkState) (cf : SFile)
    (extra : ExtraParams) (md : FileMetadata) (l o : String)
    (hsn : E.use_snapshots = true)
    (hd : ∀ p, E.deleteFile st.entries_seen p = false) :
    dir_materialize E st cf extra md true l o = false := by
  unfold dir_materialize
  simp only [hd, hsn, Bool.not_false, Bool.and_true]
  split
  · rfl
  · split_ifs <;> simp_all

theorem dir_materialize_write_fails (E : WalkEnv) (st : WalkState) (cf : SFile)
    (extra : ExtraParams) (md : FileMetadata) (dd : Bool) (l o : String)
    (hch : (st.indirchange || dd) = true ∨ st.curr_path = "/urbackup_backup_scripts")
    (hw : ∀ p m, E.write_file_metadata st.entries_seen p m = false) :
    dir_materialize E st cf extra md dd l o = false := by
  unfold dir_materialize
  simp only [hw]
  have hch2 : ¬ ((!st.indirchange && !dd) = true ∧ st.curr_path ≠ "/urbackup_backup_scripts") := by
    intro h
    cases hch with
    | inl h1 => cases h2 : st.indirchange <;> cases h3 : dd <;> simp_all
    | inr h1 => exact h.2 h1
  split
  · rfl
  · split_ifs <;> simp_all

/-- A directory entry for which the block that creates the directory is entered and
`dir_materialize` fails ends with `c_has_error` set. -/
theorem dir_entry_error (E : WalkEnv) (s : WalkState) (cf : SFile) (extra : ExtraParams)
    (hskip : s.skip_dir_completely = 0) (hd : cf.isdir = true) (hn : cf.name ≠ "..")
    (hent : dir_block_entered E s cf extra = true)
    (h : ∀ m l o, dir_materialize E (dir_entry_linked E s cf extra).1 cf extra m
        (dir_entry_diff E s cf extra) l o = false) :
    ∃ s1, doFileBackup_entry E s cf extra = some s1 ∧ s1.c_has_error = true := by
  have hfs := fix_name_seen E s cf
  have hskip2 : ¬ (fix_name E s cf).2.skip_dir_completely > 0 := by rw [hfs.2, hskip]; decide
  have hdir : doFileBackup_entry E s cf extra
      = some (dir_enter E (update_indirchange E (entry_preamble E (fix_name E s cf).2 extra).1 cf)
          cf extra (fix_name E s cf).1 (entry_preamble E (fix_name E s cf).2 extra).2) := by
    unfold doFileBackup_entry
    simp only [if_neg hskip2]
    unfold entry_body
    simp only [hd, if_true, hn, ne_eq, not_false_eq_true]
  refine ⟨_, hdir, ?_⟩
  unfold dir_block_entered dir_entry_linked dir_entry_diff at hent
  unfold dir_entry_linked dir_entry_diff at h
  unfold dir_enter
  simp only [hent, h, Bool.not_false, Bool.and_true, if_true]

theorem dir_entry_linked_seen (E : WalkEnv) (s : WalkState) (cf : SFile) (extra : ExtraParams)
    (hent : dir_block_entered E s cf extra = true) :
    (dir_entry_linked E s cf extra).1.entries_seen = s.entries_seen := by
  have h2 : (dir_entry_linked E s cf extra).2 = false := by
    unfold dir_block_entered at hent
    cases h : (dir_entry_linked E s cf extra).2
    · rfl
    · rw [h] at hent; simp at hent
  unfold dir_entry_linked at h2 ⊢
  simp only at h2 ⊢
  rw [link_large_subtree_not_linked E _ _ h2, dir_enter_begin_seen, update_indirchange_seen,
    entry_preamble_seen, (fix_name_seen E s cf).1]

/-- C22, as the code has it.  The walk has handled the entries `pre` without error
and reaches the entry `cf` outside of a skipped directory.  When a component-level
operation on `cf` fails, the entry sets `c_has_error`: for a file entry, when its
symbolic link cannot be created or the file cannot be created; for a directory entry
that is not linked to the last backup and whose directory is to be created (the test
`!dir_linked && (!use_snapshots || indirchange || dir_diff)` holds), when the old
symbolic link cannot be removed, when the symbolic link cannot be created, when the
directory cannot be created and does not exist, when the old metadata cannot be
deleted, and when the metadata cannot be written.  An entry that sets `c_has_error`
ends the walk: whatever entries `rest` follow, the walk returns the state of the
failing entry, so none of them is processed. -/
theorem C22_error_ends_walk (E : WalkEnv) (pre rest : List (SFile × ExtraParams))
    (cf : SFile) (extra : ExtraParams) (s : WalkState)
    (hpre : doFileBackup_walk E pre WalkState.start = some s)
    (hs : s.c_has_error = false) (hskip : s.skip_dir_completely = 0) :
    (cf.isdir = false → (extra.find "sym_target").isSome = true →
        (∀ p d t o, E.createSymlink s.entries_seen p d t o = false) →
        ∃ s1, doFileBackup_entry E s cf extra = some s1 ∧ s1.c_has_error = true)
      ∧ (cf.isdir = false → extra.find "sym_target" = none →
        (extra.find "special").isSome = true →
        (∀ p, E.touch_file s.entries_seen p = false) →
        ∃ s1, doFileBackup_entry E s cf extra = some s1 ∧ s1.c_has_error = true)
      ∧ (cf.isdir = true → cf.name ≠ ".." → dir_block_entered E s cf extra = true →
        (extra.find "sym_target").isSome = true →
        dir_entry_diff E s cf extra = true → E.use_snapshots = true →
        (∀ p, E.os_remove_symlink_dir s.entries_seen p = false) →
        ∃ s1, doFileBackup_entry E s cf extra = some s1 ∧ s1.c_has_error = true)
      ∧ (cf.isdir = true → cf.name ≠ ".." → dir_block_entered E s cf extra = true →
        (extra.find "sym_target").isSome = true →
        (∀ p d t o, E.createSymlink s.entries_seen p d t o = false) →
        ∃ s1, doFileBackup_entry E s cf extra = some s1 ∧ s1.c_has_error = true)
      ∧ (cf.isdir = true → cf.name ≠ ".." → dir_block_entered E s cf extra = true →
        extra.find "sym_target" = none →
        (∀ p, E.os_create_dir s.entries_seen p = false) →
        (∀ p, E.os_directory_exists s.entries_seen p = false) →
        ∃ s1, doFileBackup_entry E s cf extra = some s1 ∧ s1.c_has_error = true)
      ∧ (cf.isdir = true → cf.name ≠ ".." → dir_block_entered E s cf extra = true →
        dir_entry_diff E s cf extra = true → E.use_snapshots = true →
        (∀ p, E.deleteFile s.entries_seen p = false) →
        ∃ s1, doFileBackup_entry E s cf extra = some s1 ∧ s1.c_has_error = true)
      ∧ (cf.isdir = true → cf.name ≠ ".." → dir_block_entered E s cf extra = true →
        (((dir_entry_linked E s cf extra).1.indirchange || dir_entry_diff E s cf extra) = true
          ∨ (dir_entry_linked E s cf extra).1.curr_path = "/urbackup_backup_scripts") →
        (∀ p m, E.write_file_metadata s.entries_seen p m = false) →
        ∃ s1, doFileBackup_entry E s cf extra = some s1 ∧ s1.c_has_error = true)
      ∧ (∀ s1, doFileBackup_entry E s cf extra = some s1 → s1.c_has_error = true →
        doFileBackup_walk E (pre ++ (cf, extra) :: rest) WalkState.start
          = some { s1 with entries_seen := s1.entries_seen + 1 }) := by
  have hfs := fix_name_seen E s cf
  have hskip2 : ¬ (fix_name E s cf).2.skip_dir_completely > 0 := by rw [hfs.2, hskip]; decide
  have hseen : (entry_preamble E (fix_name E s cf).2 extra).1.entries_seen = s.entries_seen := by
    rw [entry_preamble_seen, hfs.1]
  have hfile : cf.isdir = false → doFileBackup_entry E s cf extra
      = walk_file E (entry_preamble E (fix_name E s cf).2 extra).1 cf extra (fix_name E s cf).1
          (entry_preamble E (fix_name E s cf).2 extra).2 := by
    intro hd
    unfold doFileBackup_entry
    simp only [if_neg hskip2]
    unfold entry_body
    simp only [hd, Bool.false_eq_true, if_false]
  refine ⟨?_, ?_, ?_, ?_, ?_, ?_, ?_, ?_⟩
  · intro hd ht hf
    obtain ⟨t, ht⟩ := Option.isSome_iff_exists.mp ht
    rw [hfile hd, walk_file_error E _ cf extra _ _ (fun l x sha m =>
        classify_file_symlink_fails E _ cf extra _ l x sha t m ht (by rw [hseen]; exact hf))]
    exact ⟨_, rfl, rfl⟩
  · intro hd ht hsp hf
    rw [hfile hd, walk_file_error E _ cf extra _ _ (fun l x sha m =>
        classify_file_touch_fails E _ cf extra _ l x sha m ht hsp (by rw [hseen]; exact hf))]
    exact ⟨_, rfl, rfl⟩
  · intro hd hn hent ht hdd hsn hf
    obtain ⟨t, ht⟩ := Option.isSome_iff_exists.mp ht
    apply dir_entry_error E s cf extra hskip hd hn hent
    intro m l o
    rw [hdd]
    exact dir_materialize_remove_fails E _ cf extra m l o t ht hsn
      (by rw [dir_entry_linked_seen E s cf extra hent]; exact hf)
  · intro hd hn hent ht hf
    obtain ⟨t, ht⟩ := Option.isSome_iff_exists.mp ht
    apply dir_entry_error E s cf extra hskip hd hn hent
    intro m l o
    exact dir_materialize_symlink_fails E _ cf extra m _ l o t ht
      (by rw [dir_entry_linked_seen E s cf extra hent]; exact hf)
  · intro hd hn hent ht hc hx
    apply dir_entry_error E s cf extra hskip hd hn hent
    intro m l o
    exact dir_materialize_mkdir_fails E _ cf extra m _ l o ht
      (by rw [dir_entry_linked_seen E s cf extra hent]; exact hc)
      (by rw [dir_entry_linked_seen E s cf extra hent]; exact hx)
  · intro hd hn hent hdd hsn hf
    apply dir_entry_error E s cf extra hskip hd hn hent
    intro m l o
    rw [hdd]
    exact dir_materialize_delete_fails E _ cf extra m l o hsn
      (by rw [dir_entry_linked_seen E s cf extra hent]; exact hf)
  · intro hd hn hent hch hf
    apply dir_entry_error E s cf extra hskip hd hn hent
    intro m l o
    exact dir_materialize_write_fails E _ cf extra m _ l o hch
      (by rw [dir_entry_linked_seen E s cf extra hent]; exact hf)
  · intro s1 h1 he
    rw [doFileBackup_walk_append E pre _ _ s hpre hs]
    simp only [doFileBackup_walk, h1, he, if_true]

/-- Witness of C22: on a file system that refuses to create files, the walk over a
special file and a changed file ends with the error of the first entry; on a file
system on which the metadata of a directory cannot be written, the walk over a changed
directory and a file ends with the error of the directory. -/
theorem C22_error_ends_walk_witness :
    (∃ s1, doFileBackup_entry touch_fail_env WalkState.start (special_entry "a").1
        (special_entry "a").2 = some s1
      ∧ s1.c_has_error = true
      ∧ doFileBackup_walk touch_fail_env ([] ++ special_entry "a" :: [file_entry "b"])
          WalkState.start = some { s1 with entries_seen := s1.entries_seen + 1 })
    ∧ ∃ s1, doFileBackup_entry metadata_fail_env WalkState.start (dir_entry "A").1
        (dir_entry "A").2 = some s1
      ∧ s1.c_has_error = true
      ∧ doFileBackup_walk metadata_fail_env ([] ++ dir_entry "A" :: [file_entry "b"])
          WalkState.start = some { s1 with entries_seen := s1.entries_seen + 1 } := by
  constructor
  · have T := C22_error_ends_walk touch_fail_env [] [file_entry "b"] (special_entry "a").1
      (special_entry "a").2 WalkState.start rfl rfl rfl
    obtain ⟨s1, h1, he⟩ := T.2.1 rfl rfl rfl (fun _ => rfl)
    exact ⟨s1, h1, he, T.2.2.2.2.2.2.2 s1 h1 he⟩
  · have T := C22_error_ends_walk metadata_fail_env [] [file_entry "b"] (dir_entry "A").1
      (dir_entry "A").2 WalkState.start rfl rfl rfl
    obtain ⟨s1, h1, he⟩ := T.2.2.2.2.2.2.1 rfl (by decide) (by decide) (Or.inl (by decide))
      (fun _ _ => rfl)
    exact ⟨s1, h1, he, T.2.2.2.2.2.2.2 s1 h1 he⟩

/-- Counterexample to C22 as stated: the file at line 0 cannot be created, the file
at line 1 is in `diffs`.  The walk ends behind the first entry: it has seen one
entry, `line` is still 0 and the changed file was not put on the queue, while the
walk over the changed file alone puts it on the queue. -/
theorem C22_counterexample :
    (∃ s, doFileBackup_walk touch_fail_env [special_entry "a", file_entry "b"] WalkState.start
        = some s
      ∧ s.c_has_error = true ∧ s.entries_seen = 1 ∧ s.line = 0 ∧ s.queue = [])
    ∧ (∃ s, doFileBackup_walk { touch_fail_env with diffs := [0] } [file_entry "b"]
        WalkState.start = some s
      ∧ s.c_has_error = false ∧ s.queue.length = 1) := by
  refine ⟨⟨_, rfl, ?_⟩, ⟨_, rfl, ?_⟩⟩ <;> decide

/-! ## The stacks of the walk and the open directories -/

theorem copy_dir_entries_frame (E : WalkEnv) (l s sh : String) (b : Bool)
    (fes : List SFileEntry) :
    ∀ st, { copy_dir_entries E l s sh b fes st with
            readd := st.readd, num_copied_file_entries := st.num_copied_file_entries } = st := by
  induction fes with
  | nil => intro st; rfl
  | cons fe rest ih =>
    intro st
    rw [copy_dir_entries]
    by_cases hlen : fe.fullpath.length > s.length
    · rw [if_pos hlen]
      have h := ih { st with
        readd := { st.readd with
          sql_calls := st.readd.sql_calls ++
            [({ fullpath := E.backuppath ++ l ++ fe.fullpath.drop s.length,
                hashpath := if b && sh.isPrefixOf fe.hashpath then
                    E.backuppath_hashes ++ l ++ fe.hashpath.drop sh.length
                  else "",
                shahash := fe.shahash, filesize := fe.filesize, rsize := 0 },
              E.incremental_num)] },
        num_copied_file_entries := st.num_copied_file_entries + 1 }
      have h2 := congrArg (fun x : WalkState => { x with
        readd := st.readd, num_copied_file_entries := st.num_copied_file_entries }) h
      exact h2
    · rw [if_neg hlen]
      exact ih st

/-- What the link block changes: the skip counter and the sparse flag when the
directory was linked, and the bookkeeping of the re-registration. -/
theorem link_large_subtree_frame (E : WalkEnv) (st : WalkState) (l : String) :
    { (link_large_subtree E st l).1 with
        skip_dir_completely := st.skip_dir_completely,
        skip_dir_copy_sparse := st.skip_dir_copy_sparse,
        readd := st.readd, num_copied_file_entries := st.num_copied_file_entries } = st
      ∧ (link_large_subtree E st l).1.skip_dir_completely
          = (if (link_large_subtree E st l).2 then 1 else st.skip_dir_completely)
      ∧ (link_large_subtree E st l).1.skip_dir_copy_sparse
          = (if (link_large_subtree E st l).2 then
              (!E.copy_last_file_entries && E.readd_file_entries_sparse)
            else st.skip_dir_copy_sparse) := by
  unfold link_large_subtree
  by_cases h1 : (E.use_directory_links && hasChange st.line E.large_unchanged_subtrees) = true
  · rw [if_pos h1]
    by_cases h2 : E.link_directory_pool st.entries_seen (E.backuppath ++ l)
        (E.last_backuppath ++ l) = true
    · simp only [h2, if_true]
      by_cases h3 : E.copy_last_file_entries = true
      · simp only [h3, if_true, Bool.not_true, Bool.false_and]
        have h := copy_dir_entries_frame E l (E.last_backuppath ++ l)
          (E.last_backuppath_hashes ++ l)
          (E.link_directory_pool st.entries_seen (E.backuppath_hashes ++ l)
            (E.last_backuppath_hashes ++ l))
          (E.getFileEntriesFromTemporaryTableGlob st.entries_seen
            (E.escape_glob_sql (E.last_backuppath ++ l) ++ E.os_file_sep ++ "*"))
          { st with skip_dir_completely := 1 }
        refine ⟨?_, ?_, trivial⟩
        · exact congrArg (fun x : WalkState => { x with
            skip_dir_completely := st.skip_dir_completely,
            skip_dir_copy_sparse := st.skip_dir_copy_sparse }) h
        · exact congrArg WalkState.skip_dir_completely h
      · have h3f : E.copy_last_file_entries = false := by simpa using h3
        simp [h3f]
    · simp [h2]
  · rw [if_neg h1]
    exact ⟨rfl, rfl, rfl⟩

/-- A directory entry that does not end the loop runs the link block and the last
statements of the branch. -/
theorem dir_enter_ok (E : WalkEnv) (st : WalkState) (cf : SFile) (extra : ExtraParams)
    (os : String) (md : FileMetadata)
    (h : (dir_enter E st cf extra os md).c_has_error = false) :
    dir_enter E st cf extra os md
      = dir_enter_finish (link_large_subtree E (dir_enter_begin E st cf os md.has_orig_path)
          (E.convertToOSPathFromFileClient
            (dir_enter_begin E st cf os md.has_orig_path).curr_os_path)).1 := by
  unfold dir_enter at h ⊢
  simp only at h ⊢
  split_ifs at h ⊢ <;> rfl

theorem dir_enter_begin_lens (E : WalkEnv) (st : WalkState) (cf : SFile) (os : String)
    (b : Bool) :
    (dir_enter_begin E st cf os b).folder_items.length = st.folder_items.length
      ∧ (dir_enter_begin E st cf os b).folder_files = st.folder_files
      ∧ (dir_enter_begin E st cf os b).skip_dir_completely = st.skip_dir_completely := by
  unfold dir_enter_begin bump_folder_items
  simp only
  split_ifs <;> first | exact ⟨rfl, rfl, rfl⟩ | simp

theorem dir_enter_finish_lens (st : WalkState) :
    (dir_enter_finish st).folder_items.length = st.folder_items.length + 1
      ∧ (dir_enter_finish st).folder_files.length = st.folder_files.length + 1
      ∧ (dir_enter_finish st).skip_dir_completely = st.skip_dir_completely
      ∧ (dir_enter_finish st).skip_dir_copy_sparse = st.skip_dir_copy_sparse := by
  unfold dir_enter_finish
  simp only
  split_ifs <;> simp

/-- A directory entry that does not end the loop, with directory links: the control
variables change as without links, and `skip_dir_completely` becomes 1 when the
directory was linked. -/
theorem dir_enter_nest (E : WalkEnv) (st : WalkState) (cf : SFile) (extra : ExtraParams)
    (os : String) (md : FileMetadata)
    (h : (dir_enter E st cf extra os md).c_has_error = false) :
    ∃ linked : Bool,
      (dir_enter E st cf extra os md).ctl
        = { st.ctl with depth := st.depth + 1,
                        dir_diff_stack := dir_diff_of E st :: st.dir_diff_stack,
                        line := st.line + 1,
                        skip_dir_completely := if linked then 1 else st.skip_dir_completely }
      ∧ (dir_enter E st cf extra os md).folder_items.length = st.folder_items.length + 1
      ∧ (dir_enter E st cf extra os md).folder_files.length = st.folder_files.length + 1 := by
  rw [dir_enter_ok E st cf extra os md h]
  generalize hb : dir_enter_begin E st cf os md.has_orig_path = sb
  have e1 := dir_enter_begin_ctl E st cf os md.has_orig_path
  have e2 := dir_enter_begin_lens E st cf os md.has_orig_path
  rw [hb] at e1 e2
  obtain ⟨hl, hk, _⟩ := link_large_subtree_frame E sb (E.convertToOSPathFromFileClient sb.curr_os_path)
  generalize (link_large_subtree E sb (E.convertToOSPathFromFileClient sb.curr_os_path)) = lk
    at hl hk
  have d1 : sb.depth = st.depth := congrArg WalkCtl.depth e1
  have d2 : sb.line = st.line := congrArg WalkCtl.line e1
  have d3 : sb.dir_diff_stack = dir_diff_of E st :: st.dir_diff_stack :=
    congrArg WalkCtl.dir_diff_stack e1
  have d4 : sb.indirchange = st.indirchange := congrArg WalkCtl.indirchange e1
  have d5 : sb.changelevel = st.changelevel := congrArg WalkCtl.changelevel e1
  have k1 : lk.1.depth = sb.depth := by
    have h := congrArg WalkState.depth hl; exact h
  have k2 : lk.1.line = sb.line := by
    have h := congrArg WalkState.line hl; exact h
  have k3 : lk.1.dir_diff_stack = sb.dir_diff_stack := by
    have h := congrArg WalkState.dir_diff_stack hl; exact h
  have k4 : lk.1.indirchange = sb.indirchange := by
    have h := congrArg WalkState.indirchange hl; exact h
  have k5 : lk.1.changelevel = sb.changelevel := by
    have h := congrArg WalkState.changelevel hl; exact h
  have k6 : lk.1.folder_items = sb.folder_items := by
    have h := congrArg WalkState.folder_items hl; exact h
  have k7 : lk.1.folder_files = sb.folder_files := by
    have h := congrArg WalkState.folder_files hl; exact h
  refine ⟨lk.2, ?_, ?_, ?_⟩
  · rw [dir_enter_finish_ctl]
    simp only [WalkState.ctl, k1, k2, k3, k4, k5, hk, d1, d2, d3, d4, d5, e2.2.2]
  · rw [(dir_enter_finish_lens lk.1).1, k6, e2.1]
  · rw [(dir_enter_finish_lens lk.1).2.1, k7, e2.2.1]

theorem dir_up_lens (E : WalkEnv) (st : WalkState) (md : FileMetadata) :
    (dir_up E st md).folder_items.length = st.folder_items.length - 1
      ∧ (dir_up E st md).folder_files.length = st.folder_files.length - 1 := by
  unfold dir_up dir_up_paths dir_up_shadowcopy dir_up_pop dir_up_record
  simp only
  split_ifs <;> simp

theorem classify_file_lens (E : WalkEnv) (st st1 : WalkState) (cf : SFile)
    (extra : ExtraParams) (os l s sha : String) (md : FileMetadata)
    (f : Bool × Bool × Bool × Bool)
    (h : classify_file E st cf extra os l s sha md = some (st1, f)) :
    st1.folder_items.length = st.folder_items.length
      ∧ st1.folder_files = st.folder_files := by
  simp only [classify_file, enqueue_download, bump_folder_items] at h
  split at h
  · split_ifs at h
    all_goals (cases h; simp)
  · split_ifs at h
    all_goals (cases h; simp)

theorem walk_file_lens (E : WalkEnv) (st st1 : WalkState) (cf : SFile) (extra : ExtraParams)
    (os : String) (md : FileMetadata) (h : walk_file E st cf extra os md = some st1)
    (he : st1.c_has_error = false) :
    st1.folder_items.length = st.folder_items.length
      ∧ st1.folder_files = st.folder_files := by
  simp only [walk_file] at h
  split at h
  · cases h; cases he
  · rename_i st2 f1 f2 f3 f4 hc
    have hl := classify_file_lens _ _ _ _ _ _ _ _ _ _ _ hc
    split at h
    · cases h
    · rename_i rd hrd
      simp only [Option.some.injEq] at h
      rw [← h, ← hl.1, ← hl.2]
      simp only [bump_folder_items]
      split_ifs <;> first | (split <;> simp) | simp

theorem fix_name_lens (E : WalkEnv) (st : WalkState) (cf : SFile)
    (h : 0 < st.folder_files.length) :
    (fix_name E st cf).2.folder_items = st.folder_items
      ∧ (fix_name E st cf).2.folder_files.length = st.folder_files.length
      ∧ (fix_name E st cf).2.c_has_error = st.c_has_error := by
  unfold fix_name
  split_ifs
  · refine ⟨rfl, ?_, rfl⟩
    simp only [List.length_cons, List.length_tail]
    omega
  · exact ⟨rfl, rfl, rfl⟩

theorem entry_preamble_files (E : WalkEnv) (st : WalkState) (extra : ExtraParams) :
    (entry_preamble E st extra).1.folder_files = st.folder_files := by
  simp only [entry_preamble]
  split_ifs <;> rfl

theorem update_indirchange_files (E : WalkEnv) (st : WalkState) (cf : SFile) :
    (update_indirchange E st cf).folder_files = st.folder_files := by
  simp only [update_indirchange]
  split_ifs <;> rfl

/-! ## One entry of the walk and the open directories -/

/-- An entry outside of a linked directory that does not end the loop: the control
variables change as `ctl_step` says, up to `skip_dir_completely`, which a linked
directory sets to 1; a directory entry pushes `folder_items` and `folder_files`, a
directory-up entry pops them. -/
theorem entry_body_nest (E : WalkEnv) (st st1 : WalkState) (cf : SFile)
    (extra : ExtraParams) (os : String) (hs : st.skip_dir_completely = 0)
    (h : entry_body E st cf extra os = some st1) (he : st1.c_has_error = false) :
    ∃ k : Nat, st1.ctl = { ctl_step E st.ctl cf with skip_dir_completely := k }
      ∧ (k = 0 ∨ (k = 1 ∧ cf.isdir = true ∧ cf.name ≠ ".."))
      ∧ st1.folder_items.length
          = (if cf.isdir then
              if cf.name ≠ ".." then st.folder_items.length + 1 else st.folder_items.length - 1
            else st.folder_items.length)
      ∧ st1.folder_files.length
          = (if cf.isdir then
              if cf.name ≠ ".." then st.folder_files.length + 1 else st.folder_files.length - 1
            else st.folder_files.length) := by
  simp only [entry_body] at h
  have hp := entry_preamble_ctl E st extra
  have hpi := (entry_preamble_items E st extra).1
  have hpf := entry_preamble_files E st extra
  generalize entry_preamble E st extra = pre at h hp hpi hpf
  have hu := update_indirchange_ctl E pre.1 cf
  have hui := (update_indirchange_other E pre.1 cf).1
  have huf := update_indirchange_files E pre.1 cf
  have hpd : pre.1.depth = st.depth := congrArg WalkCtl.depth hp
  have hpl : pre.1.line = st.line := congrArg WalkCtl.line hp
  have hpin : pre.1.indirchange = st.indirchange := congrArg WalkCtl.indirchange hp
  have hpc : pre.1.changelevel = st.changelevel := congrArg WalkCtl.changelevel hp
  have hpk : pre.1.dir_diff_stack = st.dir_diff_stack := congrArg WalkCtl.dir_diff_stack hp
  have hps : pre.1.skip_dir_completely = st.skip_dir_completely :=
    congrArg WalkCtl.skip_dir_completely hp
  rw [hp, hpd, hpl, hpin, hpc] at hu
  generalize update_indirchange E pre.1 cf = st2 at h hu hui huf
  have hud : st2.depth = st.depth := congrArg WalkCtl.depth hu
  have hul : st2.line = st.line := congrArg WalkCtl.line hu
  have huin : st2.indirchange = (st.indirchange || hasChange st.line E.diffs) :=
    congrArg WalkCtl.indirchange hu
  have huk : st2.dir_diff_stack = st.dir_diff_stack := congrArg WalkCtl.dir_diff_stack hu
  have hus : st2.skip_dir_completely = st.skip_dir_completely :=
    congrArg WalkCtl.skip_dir_completely hu
  have huc := congrArg WalkCtl.changelevel hu
  simp only [WalkState.ctl] at huc
  split_ifs at h with h1 h2
  · -- directory
    simp only [Option.some.injEq] at h
    subst h
    obtain ⟨linked, e1, e2, e3⟩ := dir_enter_nest E st2 cf extra os pre.2 he
    refine ⟨if linked then 1 else 0, ?_, ?_, ?_, ?_⟩
    · rw [e1, hu, hud, hul, huk, hus, hs]
      simp only [ctl_step, h1, if_true, WalkState.ctl, dir_diff_of, huin, hul]
      rw [if_pos h2, if_pos h2]
      cases st.indirchange <;> cases hasChange st.line E.diffs <;> simp
    · cases linked
      · exact Or.inl rfl
      · exact Or.inr ⟨rfl, h1, h2⟩
    · rw [e2, hui, hpi, if_pos h1, if_pos h2]
    · rw [e3, huf, hpf, if_pos h1, if_pos h2]
  · -- directory-up
    simp only [Option.some.injEq] at h
    subst h
    refine ⟨0, ?_, Or.inl rfl, ?_, ?_⟩
    · rw [dir_up_ctl, hu, hud, hul, huk, huin, huc]
      simp only [ctl_step, h1, if_true, WalkState.ctl]
      rw [if_neg h2, if_neg h2]
      simp only [hs]
    · rw [(dir_up_lens E st2 pre.2).1, hui, hpi, if_pos h1, if_neg h2]
    · rw [(dir_up_lens E st2 pre.2).2, huf, hpf, if_pos h1, if_neg h2]
  · -- file
    have hw := walk_file_lens _ _ _ _ _ _ _ h he
    refine ⟨0, ?_, Or.inl rfl, ?_, ?_⟩
    · rw [walk_file_ctl _ _ _ _ _ _ _ h he, hp, hpl]
      simp only [ctl_step, h1, WalkState.ctl, hs]
      rfl
    · rw [hw.1, hpi, if_neg h1]
    · rw [hw.2, hpf, if_neg h1]

/-- What the skip block leaves alone, and what it does to the skip counter and to
`folder_files`. -/
theorem skip_block_nest (E : WalkEnv) (st st1 : WalkState) (cf : SFile)
    (extra : ExtraParams) (os : String) (h : skip_block E st cf extra os = some st1) :
    { st1 with skip_dir_completely := st.skip_dir_completely, curr_path := st.curr_path,
               curr_os_path := st.curr_os_path, folder_files := st.folder_files,
               readd := st.readd } = st
      ∧ st1.skip_dir_completely
          = (if cf.isdir then
              if cf.name = ".." then st.skip_dir_completely - 1 else st.skip_dir_completely + 1
            else st.skip_dir_completely)
      ∧ st1.folder_files.length
          = (if cf.isdir then
              if cf.name = ".." then
                (if st.skip_dir_completely - 1 > 0 then st.folder_files.length - 1
                 else st.folder_files.length)
              else st.folder_files.length + 1
            else st.folder_files.length)
      ∧ (cf.isdir = true → st1.readd = st.readd)
      ∧ (cf.isdir = false → st.skip_dir_copy_sparse = false → st1.readd = st.readd)
      ∧ (cf.isdir = false → st.skip_dir_copy_sparse = true →
          addSparseFileEntry E.readd_env st.curr_path cf E.copy_file_entries_sparse_modulo
            E.incremental_num E.trust_client_hashes (client_sha E extra "sha512")
            (E.convertToOSPathFromFileClient (st.curr_os_path ++ "/" ++ os)) E.with_hashes
            E.server_hash_existing st.readd = some st1.readd) := by
  unfold skip_block at h
  by_cases h1 : cf.isdir = true
  · rw [if_pos h1] at h
    by_cases h2 : cf.name = ".."
    · rw [if_pos h2] at h
      simp only at h
      by_cases h3 : st.skip_dir_completely - 1 > 0
      · rw [if_pos h3, Option.some.injEq] at h
        subst h
        simp [h1, h2, h3]
      · rw [if_neg h3, Option.some.injEq] at h
        subst h
        simp [h1, h2, h3]
    · rw [if_neg h2, Option.some.injEq] at h
      subst h
      simp [h1, h2]
  · have h1f : cf.isdir = false := by simpa using h1
    rw [if_neg h1] at h
    by_cases h4 : st.skip_dir_copy_sparse = true
    · rw [if_pos h4] at h
      simp only at h
      split at h
      · cases h
      · rename_i rd hrd
        rw [Option.some.injEq] at h
        subst h
        refine ⟨rfl, ?_⟩
        simp [h1f, h4, hrd]
    · rw [if_neg h4, Option.some.injEq] at h
      subst h
      refine ⟨rfl, ?_⟩
      simp [h1f, h4]

/-- The invariant `NestInv` reads the control variables and the sizes of
`folder_items` and `folder_files` only. -/
theorem NestInv_congr (E : WalkEnv) (stack : List Nat) (s s1 : WalkState)
    (h : NestInv E stack s) (hc : s1.ctl = s.ctl)
    (hi : s1.folder_items.length = s.folder_items.length)
    (hf : s1.folder_files.length = s.folder_files.length) : NestInv E stack s1 := by
  obtain ⟨skipped, own, a1, a2, a3, a4, a5, a6, a7, a8, a9⟩ := h
  have c1 : s1.depth = s.depth := congrArg WalkCtl.depth hc
  have c2 : s1.dir_diff_stack = s.dir_diff_stack := congrArg WalkCtl.dir_diff_stack hc
  have c3 : s1.indirchange = s.indirchange := congrArg WalkCtl.indirchange hc
  have c4 : s1.changelevel = s.changelevel := congrArg WalkCtl.changelevel hc
  have c5 : s1.skip_dir_completely = s.skip_dir_completely :=
    congrArg WalkCtl.skip_dir_completely hc
  refine ⟨skipped, own, a1, ?_, ?_, ?_, ?_, ?_, ?_, ?_, ?_⟩
  · rw [c5]; exact a2
  · rw [c5]; exact a3
  · rw [c1]; exact a4
  · rw [hi]; exact a5
  · rw [c2]; exact a6
  · rw [hf]; exact a7
  · rw [c3, c4]; exact a8
  · rw [c3]; exact a9

/-! ## The invariant of the stacks -/

/-- An entry that is handled outside of a linked directory keeps `NestInv`. -/
theorem nest_normal_step (E : WalkEnv) (stack stack1 : List Nat) (st0 st1 : WalkState)
    (cf : SFile) (k : Nat) (hinv : NestInv E stack st0) (hs : st0.skip_dir_completely = 0)
    (hc : st1.ctl = { ctl_step E st0.ctl cf with skip_dir_completely := k })
    (hk : k = 0 ∨ (k = 1 ∧ cf.isdir = true ∧ cf.name ≠ ".."))
    (hi : st1.folder_items.length
      = (if cf.isdir then
          if cf.name ≠ ".." then st0.folder_items.length + 1 else st0.folder_items.length - 1
        else st0.folder_items.length))
    (hf : st1.folder_files.length
      = (if cf.isdir then
          if cf.name ≠ ".." then st0.folder_files.length + 1 else st0.folder_files.length - 1
        else st0.folder_files.length))
    (ho : open_dirs_step cf st0.line stack = some stack1) : NestInv E stack1 st1 := by
  obtain ⟨skipped, own, a1, a2, _, a4, a5, a6, a7, a8, a9⟩ := hinv
  rw [hs] at a2
  have hsk : skipped = [] := List.length_eq_zero.mp (by omega)
  subst hsk
  rw [List.nil_append] at a1
  subst a1
  have c1 : st1.depth = (ctl_step E st0.ctl cf).depth := congrArg WalkCtl.depth hc
  have c2 : st1.dir_diff_stack = (ctl_step E st0.ctl cf).dir_diff_stack :=
    congrArg WalkCtl.dir_diff_stack hc
  have c3 : st1.indirchange = (ctl_step E st0.ctl cf).indirchange :=
    congrArg WalkCtl.indirchange hc
  have c4 : st1.changelevel = (ctl_step E st0.ctl cf).changelevel :=
    congrArg WalkCtl.changelevel hc
  have c5 : st1.skip_dir_completely = k := congrArg WalkCtl.skip_dir_completely hc
  have l0 : st0.ctl.line = st0.line := rfl
  have d0 : st0.ctl.depth = st0.depth := rfl
  have i0 : st0.ctl.indirchange = st0.indirchange := rfl
  have g0 : st0.ctl.changelevel = st0.changelevel := rfl
  have k0 : st0.ctl.dir_diff_stack = st0.dir_diff_stack := rfl
  by_cases h1 : cf.isdir = true
  · by_cases h2 : cf.name = ".."
    · -- directory-up
      have hk0 : k = 0 := by
        rcases hk with hk | ⟨_, _, hk⟩
        · exact hk
        · exact absurd h2 hk
      simp only [open_dirs_step, h1, h2, if_true, ne_eq, not_true_eq_false, if_false] at ho
      cases stack with
      | nil => simp at ho
      | cons t below =>
        simp only [Option.some.injEq] at ho
        subst ho
        simp only [ctl_step, h1, h2, if_true, ne_eq, not_true_eq_false, if_false, l0, d0, i0, g0,
          k0] at c1 c2 c3 c4
        rw [if_pos h1, if_neg (by simpa using h2)] at hi hf
        simp only [List.length_cons] at a4 a5 a6 a7
        refine ⟨[], below, rfl, by rw [c5, hk0]; rfl, by rw [c5, hk0]; intro h; omega,
          by rw [c1, a4]; omega, by rw [hi, a5]; omega,
          by rw [c2, List.length_tail, a6]; omega, by rw [hf, a7]; omega, ?_, ?_⟩
        · intro hin
          rw [c3] at hin
          simp only [Bool.and_eq_true, Bool.or_eq_true, Bool.not_eq_true',
            decide_eq_false_iff_not] at hin
          obtain ⟨hch, hne⟩ := hin
          cases hi0 : st0.indirchange
          · rw [hi0] at hch hne
            simp only [Bool.false_eq_true, false_or, if_false] at hch hne
            rw [if_pos hch] at hne
            exact absurd rfl hne
          · obtain ⟨above, l, bel, e1, e2, e3, e4⟩ := a8 hi0
            rw [hi0] at hne
            simp only [if_true] at hne
            cases above with
            | nil =>
              simp only [List.nil_append, List.cons.injEq] at e1
              obtain ⟨_, e1⟩ := e1
              subst e1
              exact absurd (by rw [a4, e2]; omega) hne
            | cons a above1 =>
              simp only [List.cons_append, List.cons.injEq] at e1
              obtain ⟨_, e1⟩ := e1
              refine ⟨above1, l, bel, e1, ?_, e3, e4⟩
              rw [c4, hi0]
              simp only [if_true]
              exact e2
        · intro hin l hl
          cases hi0 : st0.indirchange
          · exact a9 hi0 l (List.mem_cons_of_mem _ hl)
          · obtain ⟨above, x, bel, e1, e2, e3, e4⟩ := a8 hi0
            rw [c3, hi0] at hin
            simp only [Bool.true_or, Bool.true_and, Bool.not_eq_false', decide_eq_true_eq,
              if_true] at hin
            cases above with
            | nil =>
              simp only [List.nil_append, List.cons.injEq] at e1
              obtain ⟨_, e1⟩ := e1
              subst e1
              exact e4 l hl
            | cons a above1 =>
              simp only [List.cons_append, List.cons.injEq] at e1
              obtain ⟨_, e1⟩ := e1
              have hlen := congrArg List.length e1
              simp only [List.length_append, List.length_cons] at hlen
              rw [a4, e2] at hin
              omega
    · -- directory
      simp only [open_dirs_step, h1, h2, if_true, ne_eq, not_false_eq_true,
        Option.some.injEq] at ho
      subst ho
      simp only [ctl_step, h1, h2, if_true, ne_eq, not_false_eq_true, l0, d0, i0, g0, k0]
        at c1 c2 c3 c4
      rw [if_pos h1, if_pos (by simpa using h2)] at hi hf
      refine ⟨[], st0.line :: stack, rfl, ?_, fun _ => List.cons_ne_nil _ _,
        by rw [c1, a4, List.length_cons]; omega, by rw [hi, a5, List.length_cons],
        by rw [c2, List.length_cons, a6, List.length_cons],
        by rw [hf, a7, List.length_cons], ?_, ?_⟩
      · rw [c5]
        rcases hk with hk | ⟨hk, _⟩ <;> rw [hk] <;> rfl
      · intro hin
        cases hi0 : st0.indirchange
        · rw [c3, hi0] at hin
          simp only [Bool.false_or] at hin
          refine ⟨[], st0.line, stack, rfl, ?_, hin, a9 hi0⟩
          rw [c4, hi0]
          simp only [Bool.false_eq_true, if_false]
          rw [if_pos hin]
          exact a4
        · obtain ⟨above, x, bel, e1, e2, e3, e4⟩ := a8 hi0
          refine ⟨st0.line :: above, x, bel, by rw [e1]; rfl, ?_, e3, e4⟩
          rw [c4, hi0]
          simp only [if_true]
          exact e2
      · intro hin l hl
        rw [c3] at hin
        simp only [Bool.or_eq_false_iff] at hin
        rcases List.mem_cons.mp hl with hl | hl
        · rw [hl]; exact hin.2
        · exact a9 hin.1 l hl
  · -- file
    have hk0 : k = 0 := by
      rcases hk with hk | ⟨_, hk, _⟩
      · exact hk
      · exact absurd hk h1
    simp only [open_dirs_step, h1, Bool.false_eq_true, if_false, Option.some.injEq] at ho
    subst ho
    simp only [ctl_step, h1, Bool.false_eq_true, if_false, l0, d0, i0, g0, k0] at c1 c2 c3 c4
    rw [if_neg h1] at hi hf
    refine ⟨[], stack, rfl, by rw [c5, hk0]; rfl, by rw [c5, hk0]; intro h; omega,
      by rw [c1, a4], by rw [hi, a5], by rw [c2, a6], by rw [hf, a7], ?_, ?_⟩
    · rw [c3, c4]; exact a8
    · rw [c3]; exact a9

/-- An entry below a linked directory that does not end the skipping keeps `NestInv`. -/
theorem nest_skip_step (E : WalkEnv) (stack stack1 : List Nat) (st0 st1 : WalkState)
    (cf : SFile) (hinv : NestInv E stack st0) (hs : 0 < st0.skip_dir_completely)
    (hk : st1.skip_dir_completely
      = (if cf.isdir then
          if cf.name = ".." then st0.skip_dir_completely - 1 else st0.skip_dir_completely + 1
        else st0.skip_dir_completely))
    (hpos : 0 < st1.skip_dir_completely)
    (c1 : st1.depth = st0.depth) (c2 : st1.dir_diff_stack = st0.dir_diff_stack)
    (c3 : st1.indirchange = st0.indirchange) (c4 : st1.changelevel = st0.changelevel)
    (hi : st1.folder_items.length = st0.folder_items.length)
    (hf : st1.folder_files.length
      = (if cf.isdir then
          if cf.name = ".." then st0.folder_files.length - 1 else st0.folder_files.length + 1
        else st0.folder_files.length))
    (ho : open_dirs_step cf st0.line stack = some stack1) : NestInv E stack1 st1 := by
  obtain ⟨skipped, own, a1, a2, a3, a4, a5, a6, a7, a8, a9⟩ := hinv
  have hown := a3 hs
  by_cases h1 : cf.isdir = true
  · by_cases h2 : cf.name = ".."
    · rw [if_pos h1, if_pos h2] at hk hf
      simp only [open_dirs_step, h1, h2, if_true, ne_eq, not_true_eq_false, if_false] at ho
      cases skipped with
      | nil =>
        simp only [List.length_nil] at a2
        omega
      | cons t sk =>
        subst a1
        simp only [List.cons_append, Option.some.injEq] at ho
        subst ho
        simp only [List.length_cons, List.length_append] at a2 a7
        refine ⟨sk, own, rfl, by rw [hk]; omega, fun _ => hown, by rw [c1]; exact a4,
          by rw [hi]; exact a5, by rw [c2]; exact a6, ?_, by rw [c3, c4]; exact a8,
          by rw [c3]; exact a9⟩
        rw [hf, a7, List.length_append]
        omega
    · rw [if_pos h1, if_neg h2] at hk hf
      simp only [open_dirs_step, h1, h2, if_true, ne_eq, not_false_eq_true,
        Option.some.injEq] at ho
      subst ho
      subst a1
      refine ⟨st0.line :: skipped, own, rfl, by rw [hk, List.length_cons, a2]; omega,
        fun _ => hown, by rw [c1]; exact a4, by rw [hi]; exact a5, by rw [c2]; exact a6, ?_,
        by rw [c3, c4]; exact a8, by rw [c3]; exact a9⟩
      rw [hf, a7]
      simp only [List.length_cons, List.length_append]
  · rw [if_neg h1] at hk hf
    simp only [open_dirs_step, h1, Bool.false_eq_true, if_false, Option.some.injEq] at ho
    subst ho
    exact ⟨skipped, own, a1, by rw [hk]; exact a2, fun _ => hown, by rw [c1]; exact a4,
      by rw [hi]; exact a5, by rw [c2]; exact a6, by rw [hf]; exact a7,
      by rw [c3, c4]; exact a8, by rw [c3]; exact a9⟩

/-- Every entry that does not end the loop keeps `NestInv`, with the open directories
of the listing moved on by the entry. -/
theorem NestInv_entry (E : WalkEnv) (stack stack1 : List Nat) (st st1 : WalkState)
    (cf : SFile) (extra : ExtraParams) (hinv : NestInv E stack st)
    (h : doFileBackup_entry E st cf extra = some st1) (he : st1.c_has_error = false)
    (ho : open_dirs_step cf st.line stack = some stack1) : NestInv E stack1 st1 := by
  have hfpos : 0 < st.folder_files.length := by
    obtain ⟨_, _, _, _, _, _, _, _, a7, _, _⟩ := hinv
    omega
  have f1 := fix_name_ctl E st cf
  have f2 := fix_name_lens E st cf hfpos
  have f3 := fix_name_line E st cf
  have hinv0 : NestInv E stack (fix_name E st cf).2 :=
    NestInv_congr E stack st _ hinv f1 (by rw [f2.1]) f2.2.1
  unfold doFileBackup_entry at h
  simp only at h
  rw [← f3] at ho
  generalize fix_name E st cf = fx at h hinv0 ho
  by_cases hsk : fx.2.skip_dir_completely > 0
  · rw [if_pos hsk] at h
    cases hb : skip_block E fx.2 cf extra fx.1 with
    | none => rw [hb] at h; exact absurd h (by simp)
    | some sb =>
      rw [hb] at h
      simp only at h
      obtain ⟨m1, m2, m3, _, _, _⟩ := skip_block_nest E fx.2 sb cf extra fx.1 hb
      have b1 : sb.depth = fx.2.depth := by have := congrArg WalkState.depth m1; exact this
      have b2 : sb.dir_diff_stack = fx.2.dir_diff_stack := by
        have := congrArg WalkState.dir_diff_stack m1; exact this
      have b3 : sb.indirchange = fx.2.indirchange := by
        have := congrArg WalkState.indirchange m1; exact this
      have b4 : sb.changelevel = fx.2.changelevel := by
        have := congrArg WalkState.changelevel m1; exact this
      have b5 : sb.folder_items = fx.2.folder_items := by
        have := congrArg WalkState.folder_items m1; exact this
      have b6 : sb.line = fx.2.line := by have := congrArg WalkState.line m1; exact this
      by_cases hsk1 : sb.skip_dir_completely > 0
      · rw [if_pos hsk1, Option.some.injEq] at h
        subst h
        refine nest_skip_step E stack stack1 fx.2 _ cf hinv0 hsk m2 hsk1 b1 b2 b3 b4
          (by rw [b5]) ?_ ho
        show sb.folder_files.length = _
        rw [m3]
        by_cases h1 : cf.isdir = true
        · by_cases h2 : cf.name = ".."
          · rw [if_pos h1, if_pos h2] at m2
            rw [if_pos h1, if_pos h2, if_pos h1, if_pos h2, if_pos (by omega)]
          · rw [if_pos h1, if_neg h2, if_pos h1, if_neg h2]
        · rw [if_neg h1, if_neg h1]
      · rw [if_neg hsk1] at h
        have hz : sb.skip_dir_completely = 0 := by omega
        have hup : cf.isdir = true ∧ cf.name = ".." ∧ fx.2.skip_dir_completely = 1 := by
          by_cases h1 : cf.isdir = true
          · by_cases h2 : cf.name = ".."
            · rw [if_pos h1, if_pos h2] at m2
              exact ⟨h1, h2, by omega⟩
            · rw [if_pos h1, if_neg h2] at m2
              omega
          · rw [if_neg h1] at m2
            omega
        obtain ⟨h1, h2, hone⟩ := hup
        rw [if_pos h1, if_pos h2, hone] at m3
        simp only [Nat.sub_self, gt_iff_lt, Nat.lt_irrefl, if_false] at m3
        have hinvb : NestInv E stack sb := by
          obtain ⟨skipped, own, a1, a2, a3, a4, a5, a6, a7, a8, a9⟩ := hinv0
          refine ⟨skipped, own, a1, by rw [hz]; rw [hone] at a2; exact a2,
            fun hh => absurd hh (by omega), by rw [b1]; exact a4, by rw [b5]; exact a5,
            by rw [b2]; exact a6, by rw [m3]; exact a7, by rw [b3, b4]; exact a8,
            by rw [b3]; exact a9⟩
        obtain ⟨k, e1, e2, e3, e4⟩ := entry_body_nest E sb st1 cf extra fx.1 hz h he
        rw [← b6] at ho
        exact nest_normal_step E stack stack1 sb st1 cf k hinvb hz e1 e2 e3 e4 ho
  · rw [if_neg hsk] at h
    have hz : fx.2.skip_dir_completely = 0 := by omega
    obtain ⟨k, e1, e2, e3, e4⟩ := entry_body_nest E fx.2 st1 cf extra fx.1 hz h he
    exact nest_normal_step E stack stack1 fx.2 st1 cf k hinv0 hz e1 e2 e3 e4 ho

theorem NestInv_start (E : WalkEnv) : NestInv E [] WalkState.start :=
  ⟨[], [], rfl, rfl, fun h => absurd h (by decide), rfl, rfl, rfl, rfl,
    fun h => absurd h (by decide), fun _ l hl => absurd hl (List.not_mem_nil l)⟩

/-- A walk that does not end with an error keeps `NestInv` and counts its entries. -/
theorem NestInv_walk (E : WalkEnv) (es : List (SFile × ExtraParams)) :
    ∀ (stack stack1 : List Nat) (st s : WalkState), NestInv E stack st →
      open_dirs_of es st.line stack = some stack1 →
      doFileBackup_walk E es st = some s → s.c_has_error = false → NestInv E stack1 s := by
  induction es with
  | nil =>
    intro stack stack1 st s hinv ho h _
    simp only [open_dirs_of, Option.some.injEq] at ho
    simp only [doFileBackup_walk, Option.some.injEq] at h
    subst ho; subst h
    exact hinv
  | cons e rest ih =>
    intro stack stack1 st s hinv ho h he
    obtain ⟨cf, extra⟩ := e
    simp only [open_dirs_of] at ho
    simp only [doFileBackup_walk] at h
    cases hs1 : doFileBackup_entry E st cf extra with
    | none => rw [hs1] at h; exact absurd h (by simp)
    | some s1 =>
      rw [hs1] at h
      simp only at h
      by_cases hc : s1.c_has_error = true
      · rw [if_pos hc, Option.some.injEq] at h
        subst h
        exact absurd hc (by simpa using he)
      · rw [if_neg hc] at h
        have hc2 : s1.c_has_error = false := by simpa using hc
        cases hst : open_dirs_step cf st.line stack with
        | none => rw [hst] at ho; exact absurd ho (by simp)
        | some stack2 =>
          rw [hst] at ho
          simp only at ho
          have hinv1 := NestInv_entry E stack stack2 st s1 cf extra hinv hs1 hc2 hst
          have hl := doFileBackup_entry_line E st s1 cf extra hs1 hc2
          have hinv2 : NestInv E stack2 { s1 with entries_seen := s1.entries_seen + 1 } :=
            NestInv_congr E stack2 s1 _ hinv1 rfl rfl rfl
          exact ih stack2 stack1 _ s hinv2 (by rw [← hl] at ho; exact ho) h he

/-! ## Below a linked directory -/

theorem fix_name_frame (E : WalkEnv) (st : WalkState) (cf : SFile) :
    { (fix_name E st cf).2 with folder_files := st.folder_files } = st := by
  unfold fix_name
  split_ifs <;> rfl

theorem fix_name_up (E : WalkEnv) (st : WalkState) (cf : SFile) (h1 : cf.isdir = true)
    (h2 : cf.name = "..") : fix_name E st cf = ("", st) := by
  unfold fix_name
  simp [h1, h2]

theorem fix_name_os (E : WalkEnv) (st : WalkState) (cf : SFile)
    (h : cf.isdir = false ∨ cf.name ≠ "..") :
    (fix_name E st cf).1 = (E.fixFilenameForOS cf.name (st.folder_files.headD []) st.curr_path).1 := by
  unfold fix_name
  rcases h with h | h
  · simp [h]
  · simp [h]

/-- An entry below a linked directory that does not close the linked directory:
the skip counter follows the nesting, a file is handed to `addSparseFileEntry` when
`skip_dir_copy_sparse` is set, and apart from the paths, `folder_files`, `line` and
the bookkeeping of the re-registration nothing changes. -/
theorem skip_entry_frame (E : WalkEnv) (s s1 : WalkState) (cf : SFile) (extra : ExtraParams)
    (hs : 0 < s.skip_dir_completely)
    (hstay : ¬ (cf.isdir = true ∧ cf.name = ".." ∧ s.skip_dir_completely = 1))
    (h : doFileBackup_entry E s cf extra = some s1) :
    { s1 with skip_dir_completely := s.skip_dir_completely, curr_path := s.curr_path,
              curr_os_path := s.curr_os_path, folder_files := s.folder_files,
              readd := s.readd, line := s.line } = s
      ∧ s1.line = s.line + 1
      ∧ s1.skip_dir_completely
          = (if cf.isdir then
              if cf.name = ".." then s.skip_dir_completely - 1 else s.skip_dir_completely + 1
            else s.skip_dir_completely)
      ∧ (cf.isdir = true → s1.readd = s.readd)
      ∧ (cf.isdir = false → s.skip_dir_copy_sparse = false → s1.readd = s.readd)
      ∧ (cf.isdir = false → s.skip_dir_copy_sparse = true →
          addSparseFileEntry E.readd_env s.curr_path cf E.copy_file_entries_sparse_modulo
            E.incremental_num E.trust_client_hashes (client_sha E extra "sha512")
            (E.convertToOSPathFromFileClient (s.curr_os_path ++ "/"
              ++ (E.fixFilenameForOS cf.name (s.folder_files.headD []) s.curr_path).1))
            E.with_hashes E.server_hash_existing s.readd = some s1.readd) := by
  have ff := fix_name_frame E s cf
  have fo := fix_name_os E s cf
  unfold doFileBackup_entry at h
  simp only at h
  generalize fix_name E s cf = fx at h ff fo
  have g1 : fx.2.skip_dir_completely = s.skip_dir_completely := by
    have := congrArg WalkState.skip_dir_completely ff; exact this
  have g2 : fx.2.curr_path = s.curr_path := by
    have := congrArg WalkState.curr_path ff; exact this
  have g3 : fx.2.curr_os_path = s.curr_os_path := by
    have := congrArg WalkState.curr_os_path ff; exact this
  have g4 : fx.2.readd = s.readd := by have := congrArg WalkState.readd ff; exact this
  have g5 : fx.2.line = s.line := by have := congrArg WalkState.line ff; exact this
  have g6 : fx.2.skip_dir_copy_sparse = s.skip_dir_copy_sparse := by
    have := congrArg WalkState.skip_dir_copy_sparse ff; exact this
  rw [if_pos (by rw [g1]; exact hs)] at h
  cases hb : skip_block E fx.2 cf extra fx.1 with
  | none => rw [hb] at h; exact absurd h (by simp)
  | some sb =>
    rw [hb] at h
    simp only at h
    obtain ⟨m1, m2, _, m4, m5, m6⟩ := skip_block_nest E fx.2 sb cf extra fx.1 hb
    rw [g1] at m2
    have hpos : sb.skip_dir_completely > 0 := by
      rw [m2]
      by_cases h1 : cf.isdir = true
      · by_cases h2 : cf.name = ".."
        · rw [if_pos h1, if_pos h2]
          have : s.skip_dir_completely ≠ 1 := fun h3 => hstay ⟨h1, h2, h3⟩
          omega
        · rw [if_pos h1, if_neg h2]; omega
      · rw [if_neg h1]; exact hs
    rw [if_pos hpos, Option.some.injEq] at h
    subst h
    refine ⟨?_, ?_, m2, ?_, ?_, ?_⟩
    · have e1 := congrArg (fun x : WalkState => { x with folder_files := s.folder_files }) m1
      simp only at e1
      rw [ff] at e1
      rw [← e1]
    · show sb.line + 1 = s.line + 1
      have : sb.line = fx.2.line := by have := congrArg WalkState.line m1; exact this
      rw [this, g5]
    · intro h1; show sb.readd = s.readd; rw [m4 h1, g4]
    · intro h1 h2; show sb.readd = s.readd; rw [m5 h1 (by rw [g6]; exact h2), g4]
    · intro h1 h2
      have := m6 h1 (by rw [g6]; exact h2)
      rw [g2, g3, g4, fo (Or.inl h1)] at this
      exact this

/-- The entries inside a linked directory: the skip counter is one more than the
number of directories that are open below the linked directory, and apart from the
paths, `folder_files`, `line`, `entries_seen` and the bookkeeping of the
re-registration nothing changes. -/
theorem skip_walk_frame (E : WalkEnv) (es : List (SFile × ExtraParams)) :
    ∀ (stack stack1 : List Nat) (s s2 : WalkState),
      s.skip_dir_completely = stack.length + 1 → s.c_has_error = false →
      open_dirs_of es s.line stack = some stack1 →
      doFileBackup_walk E es s = some s2 →
      { s2 with skip_dir_completely := s.skip_dir_completely, curr_path := s.curr_path,
                curr_os_path := s.curr_os_path, folder_files := s.folder_files,
                readd := s.readd, line := s.line, entries_seen := s.entries_seen } = s
        ∧ s2.skip_dir_completely = stack1.length + 1
        ∧ s2.line = s.line + es.length := by
  induction es with
  | nil =>
    intro stack stack1 s s2 hk _ ho h
    simp only [open_dirs_of, Option.some.injEq] at ho
    simp only [doFileBackup_walk, Option.some.injEq] at h
    subst ho; subst h
    exact ⟨rfl, hk, rfl⟩
  | cons e rest ih =>
    intro stack stack1 s s2 hk he ho h
    obtain ⟨cf, extra⟩ := e
    simp only [open_dirs_of] at ho
    simp only [doFileBackup_walk] at h
    cases hst : open_dirs_step cf s.line stack with
    | none => rw [hst] at ho; exact absurd ho (by simp)
    | some stackm =>
      rw [hst] at ho
      simp only at ho
      cases hs1 : doFileBackup_entry E s cf extra with
      | none => rw [hs1] at h; exact absurd h (by simp)
      | some s1 =>
        rw [hs1] at h
        simp only at h
        have hstay : ¬ (cf.isdir = true ∧ cf.name = ".." ∧ s.skip_dir_completely = 1) := by
          rintro ⟨h1, h2, h3⟩
          have : stack = [] := List.length_eq_zero.mp (by omega)
          subst this
          simp [open_dirs_step, h1, h2] at hst
        obtain ⟨m1, m2, m3, _, _, _⟩ := skip_entry_frame E s s1 cf extra (by omega) hstay hs1
        have hce : s1.c_has_error = false := by
          have := congrArg WalkState.c_has_error m1
          exact this.trans he
        rw [if_neg (by rw [hce]; decide)] at h
        have hk1 : s1.skip_dir_completely = stackm.length + 1 := by
          rw [m3, hk]
          by_cases h1 : cf.isdir = true
          · by_cases h2 : cf.name = ".."
            · simp only [open_dirs_step, h1, h2, if_true, ne_eq, not_true_eq_false,
                if_false] at hst
              cases stack with
              | nil => simp at hst
              | cons t below =>
                simp only [Option.some.injEq] at hst
                subst hst
                rw [if_pos h1, if_pos h2, List.length_cons]
                omega
            · simp only [open_dirs_step, h1, h2, if_true, ne_eq, not_false_eq_true,
                Option.some.injEq] at hst
              subst hst
              rw [if_pos h1, if_neg h2, List.length_cons]
          · simp only [open_dirs_step, h1, Bool.false_eq_true, if_false,
              Option.some.injEq] at hst
            subst hst
            rw [if_neg h1]
        obtain ⟨i1, i2, i3⟩ := ih stackm stack1 { s1 with entries_seen := s1.entries_seen + 1 }
          s2 hk1 hce (by rw [← m2] at ho; exact ho) h
        refine ⟨?_, i2, ?_⟩
        · have e1 := congrArg (fun x : WalkState => { x with
            skip_dir_completely := s.skip_dir_completely, curr_path := s.curr_path,
            curr_os_path := s.curr_os_path, folder_files := s.folder_files,
            readd := s.readd, line := s.line, entries_seen := s.entries_seen }) i1
          simp only at e1
          rw [e1]
          have e2 := congrArg (fun x : WalkState => { x with entries_seen := s.entries_seen }) m1
          exact e2
        · rw [i3, List.length_cons]
          show s1.line + rest.length = _
          rw [m2]; omega

/-! ## A linked directory -/

theorem entry_preamble_error (E : WalkEnv) (st : WalkState) (extra : ExtraParams) :
    (entry_preamble E st extra).1.c_has_error = st.c_has_error := by
  simp only [entry_preamble]
  split_ifs <;> rfl

theorem update_indirchange_error (E : WalkEnv) (st : WalkState) (cf : SFile) :
    (update_indirchange E st cf).c_has_error = st.c_has_error := by
  simp only [update_indirchange]
  split_ifs <;> rfl

theorem dir_enter_begin_paths (E : WalkEnv) (st : WalkState) (cf : SFile) (os : String)
    (b : Bool) :
    (dir_enter_begin E st cf os b).c_has_error = st.c_has_error
      ∧ (dir_enter_begin E st cf os b).curr_os_path = st.curr_os_path ++ "/" ++ os := by
  unfold dir_enter_begin bump_folder_items
  simp only
  split_ifs <;> exact ⟨rfl, rfl⟩

theorem link_large_subtree_linked (E : WalkEnv) (st : WalkState) (l : String)
    (hl : E.use_directory_links = true)
    (hc : hasChange st.line E.large_unchanged_subtrees = true)
    (hp : E.link_directory_pool st.entries_seen (E.backuppath ++ l) (E.last_backuppath ++ l)
      = true) :
    (link_large_subtree E st l).2 = true := by
  unfold link_large_subtree
  simp only [hl, hc, Bool.and_self, if_true, hp]
  split_ifs <;> rfl

/-- A directory of `large_unchanged_subtrees` that `link_directory_pool` links:
the entry does not touch `c_has_error`, sets `skip_dir_completely` to 1 and
`skip_dir_copy_sparse` to `readd_file_entries_sparse` unless the file entries of the
last backup are copied (`copy_last_file_entries`). -/
theorem linked_dir_entry (E : WalkEnv) (s : WalkState) (cf : SFile) (extra : ExtraParams)
    (hs : s.skip_dir_completely = 0) (h1 : cf.isdir = true) (h2 : cf.name ≠ "..")
    (hl : E.use_directory_links = true)
    (hc : hasChange s.line E.large_unchanged_subtrees = true)
    (hp : E.link_directory_pool s.entries_seen
        (E.backuppath ++ E.convertToOSPathFromFileClient (s.curr_os_path ++ "/"
          ++ (E.fixFilenameForOS cf.name (s.folder_files.headD []) s.curr_path).1))
        (E.last_backuppath ++ E.convertToOSPathFromFileClient (s.curr_os_path ++ "/"
          ++ (E.fixFilenameForOS cf.name (s.folder_files.headD []) s.curr_path).1)) = true) :
    ∃ s1, doFileBackup_entry E s cf extra = some s1
      ∧ s1.c_has_error = s.c_has_error ∧ s1.skip_dir_completely = 1
      ∧ s1.depth = s.depth + 1 ∧ s1.line = s.line + 1
      ∧ s1.skip_dir_copy_sparse = (!E.copy_last_file_entries && E.readd_file_entries_sparse) := by
  have ff := fix_name_frame E s cf
  have fo := fix_name_os E s cf (Or.inr h2)
  have fs := fix_name_seen E s cf
  unfold doFileBackup_entry
  simp only
  generalize fix_name E s cf = fx at ff fo fs
  have g0 : fx.2.curr_os_path = s.curr_os_path := by
    have := congrArg WalkState.curr_os_path ff; exact this
  have g1 : fx.2.line = s.line := by have := congrArg WalkState.line ff; exact this
  have g2 : fx.2.c_has_error = s.c_has_error := by
    have := congrArg WalkState.c_has_error ff; exact this
  have g3 : fx.2.depth = s.depth := by have := congrArg WalkState.depth ff; exact this
  rw [if_neg (by rw [fs.2, hs]; decide)]
  unfold entry_body
  simp only [h1, if_true, h2, ne_eq, not_false_eq_true]
  have p1 := entry_preamble_seen E fx.2 extra
  have p2 := entry_preamble_line E fx.2 extra
  have p3 := (entry_preamble_items E fx.2 extra).2.2
  have p4 := entry_preamble_error E fx.2 extra
  have p5 := entry_preamble_ctl E fx.2 extra
  generalize entry_preamble E fx.2 extra = pre at p1 p2 p3 p4 p5
  have u1 := update_indirchange_seen E pre.1 cf
  have u2 := update_indirchange_line E pre.1 cf
  have u3 := (update_indirchange_other E pre.1 cf).2.2.2
  have u4 := update_indirchange_error E pre.1 cf
  have u5 := update_indirchange_ctl E pre.1 cf
  generalize update_indirchange E pre.1 cf = st2 at u1 u2 u3 u4 u5
  have b1 := dir_enter_begin_seen E st2 cf fx.1 pre.2.has_orig_path
  have b2 := dir_enter_begin_line E st2 cf fx.1 pre.2.has_orig_path
  have b3 := dir_enter_begin_paths E st2 cf fx.1 pre.2.has_orig_path
  have b4 := dir_enter_begin_ctl E st2 cf fx.1 pre.2.has_orig_path
  have hlk : (link_large_subtree E (dir_enter_begin E st2 cf fx.1 pre.2.has_orig_path)
      (E.convertToOSPathFromFileClient
        (dir_enter_begin E st2 cf fx.1 pre.2.has_orig_path).curr_os_path)).2 = true := by
    apply link_large_subtree_linked E _ _ hl
    · rw [b2, u2, p2, g1]; exact hc
    · rw [b1, u1, p1, fs.1, b3.2, u3, p3, g0, fo]; exact hp
  have hde : dir_enter E st2 cf extra fx.1 pre.2
      = dir_enter_finish (link_large_subtree E (dir_enter_begin E st2 cf fx.1 pre.2.has_orig_path)
          (E.convertToOSPathFromFileClient
            (dir_enter_begin E st2 cf fx.1 pre.2.has_orig_path).curr_os_path)).1 := by
    unfold dir_enter
    simp only [hlk, Bool.not_true, Bool.false_and, Bool.false_eq_true, if_false]
  obtain ⟨m1, m2, m3⟩ := link_large_subtree_frame E
    (dir_enter_begin E st2 cf fx.1 pre.2.has_orig_path)
    (E.convertToOSPathFromFileClient
      (dir_enter_begin E st2 cf fx.1 pre.2.has_orig_path).curr_os_path)
  rw [hlk] at m2 m3
  simp only [if_true] at m2 m3
  generalize dir_enter_begin E st2 cf fx.1 pre.2.has_orig_path = sb at *
  generalize link_large_subtree E sb (E.convertToOSPathFromFileClient sb.curr_os_path) = lk at *
  have k1 : lk.1.c_has_error = sb.c_has_error := by
    have := congrArg WalkState.c_has_error m1; exact this
  have k2 : lk.1.depth = sb.depth := by have := congrArg WalkState.depth m1; exact this
  have k3 : lk.1.line = sb.line := by have := congrArg WalkState.line m1; exact this
  have d1 : sb.depth = st2.depth := congrArg WalkCtl.depth b4
  have d2 : st2.depth = pre.1.depth := congrArg WalkCtl.depth u5
  have d3 : pre.1.depth = fx.2.depth := congrArg WalkCtl.depth p5
  refine ⟨_, congrArg some hde, ?_, ?_, ?_, ?_, ?_⟩
  · rw [dir_enter_finish_error, k1, b3.1, u4, p4, g2]
  · rw [(dir_enter_finish_lens lk.1).2.2.1, m2]
  · have := congrArg WalkCtl.depth (dir_enter_finish_ctl lk.1)
    simp only [WalkState.ctl] at this
    rw [this, k2, d1, d2, d3, g3]
  · rw [dir_enter_finish_line, k3, b2, u2, p2, g1]
  · rw [(dir_enter_finish_lens lk.1).2.2.2, m3]

/-- The directory-up entry that closes a linked directory is handled by the
statements behind the skip block, with the skip counter back at 0. -/
theorem skip_end_entry (E : WalkEnv) (s : WalkState) (cf : SFile) (extra : ExtraParams)
    (hs : s.skip_dir_completely = 1) (h1 : cf.isdir = true) (h2 : cf.name = "..") :
    doFileBackup_entry E s cf extra
        = entry_body E { s with skip_dir_completely := 0 } cf extra ""
      ∧ ∀ s3, doFileBackup_entry E s cf extra = some s3 →
          s3.skip_dir_completely = 0 ∧ s3.depth = s.depth - 1 := by
  have e : doFileBackup_entry E s cf extra
      = entry_body E { s with skip_dir_completely := 0 } cf extra "" := by
    unfold doFileBackup_entry
    simp only [fix_name_up E s cf h1 h2]
    rw [if_pos (by rw [hs]; decide)]
    unfold skip_block
    simp only [h1, h2, if_true, hs, Nat.sub_self, gt_iff_lt, Nat.lt_irrefl, if_false]
  refine ⟨e, ?_⟩
  intro s3 h3
  rw [e] at h3
  unfold entry_body at h3
  simp only [h1, if_true, h2, ne_eq, not_true_eq_false, if_false, Option.some.injEq] at h3
  subst h3
  have c := dir_up_ctl E (update_indirchange E
    (entry_preamble E { s with skip_dir_completely := 0 } extra).1 cf)
    (entry_preamble E { s with skip_dir_completely := 0 } extra).2
  have u := update_indirchange_ctl E
    (entry_preamble E { s with skip_dir_completely := 0 } extra).1 cf
  have p := entry_preamble_ctl E { s with skip_dir_completely := 0 } extra
  generalize entry_preamble E { s with skip_dir_completely := 0 } extra = pre at c u p
  generalize update_indirchange E pre.1 cf = st2 at c u
  have c1 := congrArg WalkCtl.skip_dir_completely c
  have c2 := congrArg WalkCtl.depth c
  have u1 : st2.skip_dir_completely = pre.1.skip_dir_completely :=
    congrArg WalkCtl.skip_dir_completely u
  have u2 : st2.depth = pre.1.depth := congrArg WalkCtl.depth u
  have p1 : pre.1.skip_dir_completely = 0 := congrArg WalkCtl.skip_dir_completely p
  have p2 : pre.1.depth = s.depth := congrArg WalkCtl.depth p
  simp only [WalkState.ctl] at c1 c2
  exact ⟨by rw [c1, u1, p1], by rw [c2, u2, p2]⟩

/-! ## Claims on the stacks, the change mark and linked directories -/

/-- The beginning of a well-nested listing has open directories, and the rest of
the listing closes them. -/
theorem open_dirs_of_prefix (pre rest : List (SFile × ExtraParams)) :
    ∀ (line : Nat) (stack : List Nat), closes_dirs (pre ++ rest) stack.length = true →
      ∃ stack1, open_dirs_of pre line stack = some stack1
        ∧ closes_dirs rest stack1.length = true := by
  induction pre with
  | nil => intro line stack h; exact ⟨stack, rfl, h⟩
  | cons e r ih =>
    intro line stack h
    rw [List.cons_append] at h
    simp only [closes_dirs] at h
    simp only [open_dirs_of, open_dirs_step]
    by_cases h1 : e.1.isdir = true
    · by_cases h2 : e.1.name = ".."
      · rw [if_pos h1, if_neg (by simpa using h2)] at h
        simp only [Bool.and_eq_true, decide_eq_true_eq] at h
        cases stack with
        | nil => simp at h
        | cons t below =>
          simp only [h1, h2, if_true, ne_eq, not_true_eq_false, if_false]
          exact ih (line + 1) below (by simpa using h.2)
      · rw [if_pos h1, if_pos (by simpa using h2)] at h
        simp only [h1, h2, if_true, ne_eq, not_false_eq_true]
        exact ih (line + 1) (line :: stack) (by simpa using h)
    · rw [if_neg h1] at h
      simp only [h1, Bool.false_eq_true, if_false]
      exact ih (line + 1) stack h

/-- C30: for a well-nested listing `pre ++ rest`, behind the entries `pre` (handled
without error) the stacks of the walk are consistent with `depth`:
`folder_items.size() == depth + 1` and `dir_diff_stack.size() == depth` always,
`folder_files.size() == depth + 1` outside of a linked directory (inside, it has one
more set for every directory that is open below the linked one), and `depth` is the
number of open directories whenever the next entry is handled by the statements
behind the skip block (`skip_dir_completely <= 1`).  So when the next entry is a
directory-up entry, the stacks that it reads and pops are not empty; and behind the
last entry `depth` is 0 and the stacks have their initial sizes. -/
theorem C30_stacks_follow_depth (E : WalkEnv) (pre rest : List (SFile × ExtraParams))
    (s : WalkState) (hn : well_nested (pre ++ rest) = true)
    (hw : doFileBackup_walk E pre WalkState.start = some s) (he : s.c_has_error = false) :
    ∃ stack, open_dirs_of pre 0 [] = some stack
      ∧ (s.folder_items.length : Int) = s.depth + 1
      ∧ (s.dir_diff_stack.length : Int) = s.depth
      ∧ (s.folder_files.length : Int) = s.depth + 1 + ((s.skip_dir_completely - 1 : Nat) : Int)
      ∧ s.folder_files.length = stack.length + 1
      ∧ (s.skip_dir_completely ≤ 1 → s.depth = (stack.length : Int))
      ∧ (∀ up rest1, rest = up :: rest1 → up.1.isdir = true → up.1.name = ".." →
          2 ≤ s.folder_files.length
            ∧ (s.skip_dir_completely ≤ 1 →
                1 ≤ s.depth ∧ 2 ≤ s.folder_items.length ∧ 1 ≤ s.dir_diff_stack.length))
      ∧ (rest = [] → s.depth = 0 ∧ s.skip_dir_completely = 0 ∧ s.folder_items.length = 1
          ∧ s.folder_files.length = 1 ∧ s.dir_diff_stack = []) := by
  obtain ⟨stack, ho, hr⟩ := open_dirs_of_prefix pre rest 0 [] hn
  have hinv := NestInv_walk E pre [] stack WalkState.start s (NestInv_start E) ho hw he
  obtain ⟨skipped, own, a1, a2, a3, a4, a5, a6, a7, _, _⟩ := hinv
  have hlen : stack.length = skipped.length + own.length := by rw [a1, List.length_append]
  have hsk : s.skip_dir_completely ≤ 1 → skipped = [] := fun h =>
    List.length_eq_zero.mp (by omega)
  refine ⟨stack, ho, by rw [a5, a4]; push_cast; ring, by rw [a6, a4], ?_, a7, ?_, ?_, ?_⟩
  · rw [a7, a4, hlen, ← a2]; push_cast; ring
  · intro h
    rw [a4, hlen, hsk h]
    simp
  · intro up rest1 hrest h1 h2
    rw [hrest] at hr
    simp only [closes_dirs, h1, h2, if_true, ne_eq, not_true_eq_false, if_false,
      Bool.and_eq_true, decide_eq_true_eq] at hr
    refine ⟨by omega, ?_⟩
    intro h
    have := hsk h
    rw [this, List.length_nil] at hlen
    refine ⟨by rw [a4]; omega, by omega, by omega⟩
  · intro hrest
    rw [hrest] at hr
    simp only [closes_dirs, decide_eq_true_eq] at hr
    have h0 : own.length = 0 := by omega
    have hown : own = [] := List.length_eq_zero.mp h0
    have hskip : s.skip_dir_completely = 0 := by
      by_contra hne
      exact a3 (by omega) hown
    refine ⟨by rw [a4, h0]; rfl, hskip, by omega, by omega, List.length_eq_zero.mp (by omega)⟩

/-- Witness of C30: behind `[Dir D, File f]`, with `D` linked, the next entry is the
directory-up entry of `D`; behind `[Dir D, File f, ..]` the walk is back at depth 0. -/
theorem C30_stacks_follow_depth_witness :
    (∃ s, doFileBackup_walk link_walk_env [dir_entry "D", big_file_entry "f"] WalkState.start
        = some s ∧ 2 ≤ s.folder_files.length ∧ 2 ≤ s.folder_items.length)
      ∧ (∃ s, doFileBackup_walk link_walk_env [dir_entry "D", big_file_entry "f", up_entry]
          WalkState.start = some s ∧ s.depth = 0 ∧ s.folder_items.length = 1) := by
  constructor
  · obtain ⟨s, hw, he, hk⟩ : ∃ s, doFileBackup_walk link_walk_env
        [dir_entry "D", big_file_entry "f"] WalkState.start = some s
        ∧ s.c_has_error = false ∧ s.skip_dir_completely ≤ 1 := ⟨_, rfl, rfl, by decide⟩
    obtain ⟨_, _, _, _, _, _, _, h, _⟩ := C30_stacks_follow_depth link_walk_env
      [dir_entry "D", big_file_entry "f"] [up_entry] s (by decide) hw he
    obtain ⟨h1, h2⟩ := h up_entry [] rfl rfl rfl
    exact ⟨s, hw, h1, (h2 hk).2.1⟩
  · obtain ⟨s, hw, he⟩ : ∃ s, doFileBackup_walk link_walk_env
        [dir_entry "D", big_file_entry "f", up_entry] WalkState.start = some s
        ∧ s.c_has_error = false := ⟨_, rfl, rfl⟩
    obtain ⟨_, _, _, _, _, _, _, _, h⟩ := C30_stacks_follow_depth link_walk_env
      [dir_entry "D", big_file_entry "f", up_entry] [] s (by decide) hw he
    exact ⟨s, hw, (h rfl).1, (h rfl).2.2.1⟩

/-- C27: for a well-nested listing `pre ++ rest`, when the walk has handled the
entries `pre` without error and is outside of a linked directory, `indirchange` is
set exactly when the line of one of the directories that are open behind `pre` is in
`diffs`; so the mark is gone once the walk has left the marked directory.  A file
entry that follows is classified with this value of the flag: it is the value that
`classify_file` reads. -/
theorem C27_indirchange_open_dirs (E : WalkEnv) (pre rest : List (SFile × ExtraParams))
    (s : WalkState) (hn : well_nested (pre ++ rest) = true)
    (hw : doFileBackup_walk E pre WalkState.start = some s) (he : s.c_has_error = false)
    (hs : s.skip_dir_completely = 0) :
    ∃ stack, open_dirs_of pre 0 [] = some stack
      ∧ (s.indirchange = true ↔ ∃ l ∈ stack, hasChange l E.diffs = true)
      ∧ ∀ (cf : SFile) (extra : ExtraParams), cf.isdir = false →
          doFileBackup_entry E s cf extra
              = walk_file E (entry_preamble E (fix_name E s cf).2 extra).1 cf extra
                  (fix_name E s cf).1 (entry_preamble E (fix_name E s cf).2 extra).2
            ∧ (entry_preamble E (fix_name E s cf).2 extra).1.indirchange = s.indirchange
            ∧ (entry_preamble E (fix_name E s cf).2 extra).1.line = pre.length := by
  obtain ⟨stack, ho, _⟩ := open_dirs_of_prefix pre rest 0 [] hn
  have hinv := NestInv_walk E pre [] stack WalkState.start s (NestInv_start E) ho hw he
  have hline := doFileBackup_walk_line E pre WalkState.start s hw he
  obtain ⟨skipped, own, a1, a2, _, _, _, _, _, a8, a9⟩ := hinv
  have hsk : skipped = [] := List.length_eq_zero.mp (by omega)
  subst hsk
  rw [List.nil_append] at a1
  subst a1
  refine ⟨stack, ho, ⟨?_, ?_⟩, ?_⟩
  · intro hi
    obtain ⟨above, l, below, e1, _, e3, _⟩ := a8 hi
    exact ⟨l, by rw [e1]; simp, e3⟩
  · rintro ⟨l, hl, hc⟩
    cases hi : s.indirchange
    · rw [a9 hi l hl] at hc
      exact absurd hc (by decide)
    · rfl
  · intro cf extra hd
    have f1 := fix_name_ctl E s cf
    have p1 := entry_preamble_ctl E (fix_name E s cf).2 extra
    refine ⟨?_, ?_, ?_⟩
    · unfold doFileBackup_entry
      simp only
      rw [if_neg (by rw [(fix_name_seen E s cf).2, hs]; decide)]
      unfold entry_body
      simp only [hd, Bool.false_eq_true, if_false]
    · exact (congrArg WalkCtl.indirchange p1).trans (congrArg WalkCtl.indirchange f1)
    · have := (congrArg WalkCtl.line p1).trans (congrArg WalkCtl.line f1)
      simp only [WalkState.ctl] at this
      rw [this, hline]
      exact Nat.zero_add _

/-- Witness of C27: in the listing `[Dir A, File a, .., File c]` with the line of `A`
in `diffs`, the flag is set in front of `File a` and not set in front of `File c`. -/
theorem C27_indirchange_open_dirs_witness :
    (∃ s, doFileBackup_walk (demo_walk_env [0] []) [dir_entry "A"] WalkState.start = some s
        ∧ s.indirchange = true)
      ∧ (∃ s, doFileBackup_walk (demo_walk_env [0] []) [dir_entry "A", file_entry "a", up_entry]
          WalkState.start = some s ∧ s.indirchange = false) := by
  constructor
  · obtain ⟨s, hw, he, hs⟩ : ∃ s, doFileBackup_walk (demo_walk_env [0] []) [dir_entry "A"]
        WalkState.start = some s ∧ s.c_has_error = false ∧ s.skip_dir_completely = 0 :=
      ⟨_, rfl, rfl, rfl⟩
    obtain ⟨stack, ho, h, _⟩ := C27_indirchange_open_dirs (demo_walk_env [0] [])
      [dir_entry "A"] [file_entry "a", up_entry, file_entry "c"] s (by decide) hw he hs
    have e : stack = [0] := by
      have : open_dirs_of [dir_entry "A"] 0 [] = some [0] := rfl
      rw [this] at ho
      exact (Option.some.inj ho).symm
    exact ⟨s, hw, h.mpr ⟨0, by rw [e]; simp, by decide⟩⟩
  · obtain ⟨s, hw, he, hs⟩ : ∃ s, doFileBackup_walk (demo_walk_env [0] [])
        [dir_entry "A", file_entry "a", up_entry] WalkState.start = some s
        ∧ s.c_has_error = false ∧ s.skip_dir_completely = 0 := ⟨_, rfl, rfl, rfl⟩
    obtain ⟨stack, ho, h, _⟩ := C27_indirchange_open_dirs (demo_walk_env [0] [])
      [dir_entry "A", file_entry "a", up_entry] [file_entry "c"] s (by decide) hw he hs
    have e : stack = [] := by
      have : open_dirs_of [dir_entry "A", file_entry "a", up_entry] 0 [] = some [] := rfl
      rw [this] at ho
      exact (Option.some.inj ho).symm
    refine ⟨s, hw, ?_⟩
    cases hi : s.indirchange
    · rfl
    · obtain ⟨l, hl, _⟩ := h.mp hi
      rw [e] at hl
      exact absurd hl (List.not_mem_nil l)

/-! ## The entries of a linked directory -/

/-- C23, as the code has it.  The walk reaches the directory `d`, whose line is in
`large_unchanged_subtrees`, outside of a linked directory and without error, and
`link_directory_pool` links it.  Then behind `d` and any entries `inner` that lie
inside `d` (`stack` holds the lines of the directories that are open below `d`):
nothing was put on the download queue or on the hash pipe and no line was marked
download-not-ok for the entries of `inner`; `skip_dir_completely` is one more than
the number of directories open below `d`; a file entry that follows puts nothing on
the queue and is handed to `addSparseFileEntry` exactly when
`readd_file_entries_sparse` is set and `copy_last_file_entries` is not; a
directory-up entry that follows brings the counter to 0 exactly when no directory is
open below `d`, and it is then handled by the statements behind the skip block,
which lead back to the depth of `d`. -/
theorem C23_linked_subtree (E : WalkEnv) (inner : List (SFile × ExtraParams))
    (d : SFile × ExtraParams) (stack : List Nat) (s_d s2 : WalkState)
    (hl : E.use_directory_links = true)
    (hd1 : d.1.isdir = true) (hd2 : d.1.name ≠ "..")
    (h1e : s_d.c_has_error = false) (h1s : s_d.skip_dir_completely = 0)
    (hc : hasChange s_d.line E.large_unchanged_subtrees = true)
    (hp : E.link_directory_pool s_d.entries_seen
        (E.backuppath ++ E.convertToOSPathFromFileClient (s_d.curr_os_path ++ "/"
          ++ (E.fixFilenameForOS d.1.name (s_d.folder_files.headD []) s_d.curr_path).1))
        (E.last_backuppath ++ E.convertToOSPathFromFileClient (s_d.curr_os_path ++ "/"
          ++ (E.fixFilenameForOS d.1.name (s_d.folder_files.headD []) s_d.curr_path).1)) = true)
    (hin : open_dirs_of inner (s_d.line + 1) [] = some stack)
    (h2 : doFileBackup_walk E (d :: inner) s_d = some s2) :
    ∃ s1, doFileBackup_entry E s_d d.1 d.2 = some s1
      ∧ s1.skip_dir_completely = 1 ∧ s1.depth = s_d.depth + 1
      ∧ s2.c_has_error = false ∧ s2.skip_dir_completely = stack.length + 1
      ∧ s2.queue = s1.queue ∧ s2.hashpipe = s1.hashpipe
      ∧ s2.download_nok_ids = s1.download_nok_ids ∧ s2.depth = s1.depth
      ∧ (∀ (f : SFile) (extra : ExtraParams) (s3 : WalkState), f.isdir = false →
          doFileBackup_entry E s2 f extra = some s3 →
          s3.queue = s2.queue ∧ s3.skip_dir_completely = s2.skip_dir_completely
            ∧ (if (!E.copy_last_file_entries && E.readd_file_entries_sparse) = true then
                addSparseFileEntry E.readd_env s2.curr_path f E.copy_file_entries_sparse_modulo
                  E.incremental_num E.trust_client_hashes (client_sha E extra "sha512")
                  (E.convertToOSPathFromFileClient (s2.curr_os_path ++ "/"
                    ++ (E.fixFilenameForOS f.name (s2.folder_files.headD []) s2.curr_path).1))
                  E.with_hashes E.server_hash_existing s2.readd = some s3.readd
              else s3.readd = s2.readd))
      ∧ (∀ (up : SFile) (extra : ExtraParams) (s3 : WalkState), up.isdir = true →
          up.name = ".." → doFileBackup_entry E s2 up extra = some s3 →
          (stack ≠ [] → s3.skip_dir_completely = stack.length ∧ s3.queue = s2.queue)
            ∧ (stack = [] →
                doFileBackup_entry E s2 up extra
                    = entry_body E { s2 with skip_dir_completely := 0 } up extra ""
                  ∧ s3.skip_dir_completely = 0 ∧ s3.depth = s_d.depth)) := by
  obtain ⟨s1, e1, e2, e3, e4, e5, e6⟩ := linked_dir_entry E s_d d.1 d.2 h1s hd1 hd2 hl hc hp
  rw [h1e] at e2
  rw [show d :: inner = (d.1, d.2) :: inner from rfl] at h2
  simp only [doFileBackup_walk, e1] at h2
  rw [if_neg (by rw [e2]; decide)] at h2
  obtain ⟨m1, m2, _⟩ := skip_walk_frame E inner [] stack
    { s1 with entries_seen := s1.entries_seen + 1 } s2 (by rw [List.length_nil]; exact e3) e2
    (by rw [show ({ s1 with entries_seen := s1.entries_seen + 1 } : WalkState).line = s1.line
          from rfl, e5]; exact hin) h2
  have q1 : s2.queue = s1.queue := by have := congrArg WalkState.queue m1; exact this
  have q2 : s2.hashpipe = s1.hashpipe := by have := congrArg WalkState.hashpipe m1; exact this
  have q3 : s2.download_nok_ids = s1.download_nok_ids := by
    have := congrArg WalkState.download_nok_ids m1; exact this
  have q4 : s2.depth = s1.depth := by have := congrArg WalkState.depth m1; exact this
  have q5 : s2.c_has_error = false := by
    have := congrArg WalkState.c_has_error m1; exact this.trans e2
  have q6 : s2.skip_dir_copy_sparse
      = (!E.copy_last_file_entries && E.readd_file_entries_sparse) := by
    have := congrArg WalkState.skip_dir_copy_sparse m1; exact this.trans e6
  refine ⟨s1, e1, e3, e4, q5, m2, q1, q2, q3, q4, ?_, ?_⟩
  · intro f extra s3 hf h3
    obtain ⟨n1, _, n3, _, n5, n6⟩ := skip_entry_frame E s2 s3 f extra (by omega)
      (fun h => absurd h.1 (by rw [hf]; decide)) h3
    refine ⟨by have := congrArg WalkState.queue n1; exact this, ?_, ?_⟩
    · rw [n3, if_neg (by rw [hf]; decide)]
    · by_cases hsp : (!E.copy_last_file_entries && E.readd_file_entries_sparse) = true
      · rw [if_pos hsp]
        exact n6 hf (by rw [q6]; exact hsp)
      · rw [if_neg hsp]
        exact n5 hf (by rw [q6]; simpa using hsp)
  · intro up extra s3 hu1 hu2 h3
    constructor
    · intro hne
      have hlen : 0 < stack.length := List.length_pos.mpr hne
      obtain ⟨n1, _, n3, _, _, _⟩ := skip_entry_frame E s2 s3 up extra (by omega)
        (fun h => by omega) h3
      refine ⟨?_, by have := congrArg WalkState.queue n1; exact this⟩
      rw [n3, if_pos hu1, if_pos hu2, m2]
      omega
    · intro hnil
      rw [hnil, List.length_nil] at m2
      obtain ⟨k1, k2⟩ := skip_end_entry E s2 up extra m2 hu1 hu2
      obtain ⟨k3, k4⟩ := k2 s3 h3
      refine ⟨k1, k3, ?_⟩
      rw [k4, q4, e4]
      omega

/-- Witness of C23: a backup that is not a resumed one, with the sparse
re-registration switched on; the file inside the linked directory `D` is handed to
`addSparseFileEntry`, and nothing is put on the download queue for it. -/
theorem C23_linked_subtree_witness :
    ∃ s1 s2, doFileBackup_entry { link_walk_env with copy_last_file_entries := false }
        WalkState.start (dir_entry "D").1 (dir_entry "D").2 = some s1
      ∧ doFileBackup_walk { link_walk_env with copy_last_file_entries := false }
          [dir_entry "D", big_file_entry "f"] WalkState.start = some s2
      ∧ s2.skip_dir_completely = 1 ∧ s2.queue = s1.queue := by
  obtain ⟨s2, h2⟩ : ∃ s2, doFileBackup_walk { link_walk_env with copy_last_file_entries := false }
      (dir_entry "D" :: [big_file_entry "f"]) WalkState.start = some s2 := ⟨_, rfl⟩
  obtain ⟨s1, e1, _, _, _, e5, e6, _⟩ := C23_linked_subtree
    { link_walk_env with copy_last_file_entries := false } [big_file_entry "f"] (dir_entry "D")
    [] WalkState.start s2 rfl rfl (by decide) rfl rfl (by decide) rfl rfl h2
  exact ⟨s1, s2, e1, h2, e5, e6⟩

/-- Counterexample to C23 as stated: a resumed backup (`copy_last_file_entries`)
with the sparse re-registration switched on.  The file `/D/f` of 200000 bytes lies
in the linked directory `D`, and `adler32(path) mod K` equals `incremental_num`; the
walk ends without error and has not re-registered the file, while the same walk of
a backup that is not resumed hands it to the hash-existing worker. -/
theorem C23_counterexample :
    readd_due link_walk_env.readd_env "/D/f" link_walk_env.copy_file_entries_sparse_modulo
        link_walk_env.incremental_num = some true
      ∧ (∃ s, doFileBackup_walk link_walk_env [dir_entry "D", big_file_entry "f", up_entry]
          WalkState.start = some s
        ∧ s.c_has_error = false ∧ s.readd = ReaddState.empty)
      ∧ (∃ s, doFileBackup_walk { link_walk_env with copy_last_file_entries := false }
          [dir_entry "D", big_file_entry "f", up_entry] WalkState.start = some s
        ∧ s.readd.num_readded_entries = 1
        ∧ s.readd.hash_queue = [HashQueueItem.file "/b/D/f" "/b/.hashes/D/f"]) := by
  refine ⟨by decide, ⟨_, rfl, ?_⟩, ⟨_, rfl, ?_⟩⟩ <;> decide

end IncrFileBackup

namespace ChunkHasher
/-! ## The zero-fill loop of the known-sparse path -/

/-- The zero-fill loop on a sink without faults runs out of every fuel: each
iteration writes a buffer of zero bytes and leaves `written` at 0. -/
theorem zero_fill_loop_none (size : Int) (hs : 0 < size) :
    ∀ (fuel : Nat) (c : IFile) (cb : Option INotEnoughSpaceCallback), c.ideal →
      zero_fill_loop size fuel c cb 0 = none := by
  intro fuel
  induction fuel with
  | zero => intro c cb _; rfl
  | succ fuel ih =>
    intro c cb hc
    have hS := sha_buf_size_eq
    have h1 : 1 ≤ (min (size - 0) (sha_buf_size : Int)).toNat := by
      rw [hS]; omega
    have h2 : (min (size - 0) (sha_buf_size : Int)).toNat ≤ 32768 := by
      rw [hS]; omega
    have hlt : (List.replicate ((min (size - 0) (sha_buf_size : Int)).toNat % 2 ^ 32)
        (0 : Byte)).length < 2 ^ 31 := by
      rw [List.length_replicate]
      omega
    have hne : List.replicate ((min (size - 0) (sha_buf_size : Int)).toNat % 2 ^ 32) (0 : Byte)
        ≠ [] := by
      intro he
      have := congrArg List.length he
      rw [List.length_replicate, List.length_nil] at this
      omega
    rw [zero_fill_loop, if_pos hs]
    simp only
    rw [writeRepeatFreeSpace_ideal c _ cb hc hne hlt]
    exact ih _ cb (IFile.put_ideal c _ hc)

/-- With a replica that does not support hole punching, the block that punches the
hole does not come to an end. -/
theorem punch_copy_never_ends (fuel : Nat) (st : State) (c : IFile)
    (hc : st.copy = some c) (hid : c.ideal) (hp : c.punch_ok = false)
    (hs : st.copy_sparse_extent_start = -1) (hsz : 0 < st.curr_extent.size) :
    punch_copy fuel st = none := by
  unfold punch_copy
  rw [if_pos hs, hc]
  simp only [IFile.PunchHole, hp, Bool.false_eq_true, if_false, not_false_eq_true, if_true,
    IFile.Seek]
  rw [zero_fill_loop_none _ hsz fuel
    { data := c.data, cursor := st.curr_extent.offset.toNat, accept := c.accept,
      nwrites := c.nwrites, punch_ok := false } st.cb (fun k n => hid k n)]

theorem sparse_chunk_never_ends (g : Globals) (fuel : Nat) (st : State) (epos : Nat)
    (c : IFile) (hT : get_sparse_extent_content g ≠ [] ∧ (get_sparse_extent_content g).length < 2 ^ 31) (hho : st.hashoutput.ideal)
    (hc : st.copy = some c) (hid : c.ideal) (hp : c.punch_ok = false)
    (hs : st.copy_sparse_extent_start = -1) (hsz : 0 < st.curr_extent.size) :
    sparse_chunk g fuel st epos = none := by
  unfold sparse_chunk
  simp only
  rw [write_hashoutput_ideal st _ hho hT.1 hT.2]
  simp only
  rw [punch_copy_never_ends fuel _ c (by rw [open_known_sparse_run_copy]; exact hc) hid hp
    (by unfold open_known_sparse_run; split_ifs <;> exact hs)
    (by unfold open_known_sparse_run; split_ifs <;> exact hsz)]

/-- The statements in front of the main loop of a run without a previous hashfile,
on a hashfile sink without faults. -/
theorem prologue_no_input (a : Args) (hid : a.hashoutput.ideal) (hin : a.hashinput = none) :
    prologue a = some (Step.next (init_locals a
      { entry_state a with
        hashoutput := (entry_state a).hashoutput.put (i64_bytes (entry_state a).fsize) })) := by
  unfold prologue
  simp only
  rw [write_hashoutput_ideal (entry_state a) _ (fun k n => hid k n)
    (by intro h; have := congrArg List.length h; rw [i64_bytes_length] at this; cases this)
    (by rw [i64_bytes_length]; decide)]
  simp only
  have hr : read_input_size { entry_state a with
      hashoutput := (entry_state a).hashoutput.put (i64_bytes (entry_state a).fsize) }
      = Step.next { entry_state a with
          hashoutput := (entry_state a).hashoutput.put (i64_bytes (entry_state a).fsize) } := by
    unfold read_input_size
    have : ({ entry_state a with
      hashoutput := (entry_state a).hashoutput.put (i64_bytes (entry_state a).fsize) }
        : State).hashinput = none := hin
    rw [this]
  rw [hr]

/-- A run whose first big chunk takes the known-sparse path, with a replica that
does not support hole punching, does not return, whatever the fuel. -/
theorem zero_fill_never_ends (H : HashFns) (g : Globals) (a : Args) (c : IFile)
    (e : SSparseExtent) (rest : List SSparseExtent)
    (hT : get_sparse_extent_content g ≠ [] ∧ (get_sparse_extent_content g).length < 2 ^ 31)
    (hid : a.hashoutput.ideal) (hin : a.hashinput = none)
    (hc : a.copy = some c) (hcid : c.ideal) (hp : c.punch_ok = false)
    (hit : a.extent_iterator = some (e :: rest)) (he0 : e.offset = 0)
    (hes : (c_checkpoint_dist : Int) ≤ e.size)
    (hF : c_checkpoint_dist ≤ a.f.data.length) (fuel : Nat) :
    build_chunk_hashs H g fuel a = none := by
  have hB := c_checkpoint_dist_eq
  unfold build_chunk_hashs
  rw [prologue_no_input a hid hin]
  simp only
  generalize hst : init_locals a { entry_state a with
      hashoutput := (entry_state a).hashoutput.put (i64_bytes (entry_state a).fsize) } = st0
  have p1 : st0.pos = 0 := by rw [← hst]; rfl
  have p2 : st0.fsize = a.f.data.length := by rw [← hst]; rfl
  have p3 : st0.copy = some c := by rw [← hst]; exact hc
  have p4 : st0.copy_sparse_extent_start = -1 := by rw [← hst]; rfl
  have p5 : st0.chunk_hashes = none := by
    rw [← hst]
    show (match a.hashinput with
          | none => (none : Option (List Byte))
          | some _ => some a.uninit) = none
    rw [hin]
  have p6 : st0.curr_extent = e ∧ st0.extent_iterator = some rest := by
    rw [← hst]
    show (match a.extent_iterator with
          | none => SSparseExtent.unset
          | some it => (nextExtent it).1) = e
        ∧ (match a.extent_iterator with
          | none => none
          | some it => some (nextExtent it).2) = some rest
    rw [hit]
    exact ⟨rfl, rfl⟩
  have p7 : st0.hashoutput.ideal := by
    rw [← hst]
    exact fun k n => hid k n
  cases fuel with
  | zero => rfl
  | succ fuel =>
    rw [main_loop, if_pos (by rw [p1, p2]; omega)]
    simp only
    have l1 : load_chunk_hashes st0 = st0 := by
      unfold load_chunk_hashes
      rw [p5]
    have l2 : advance_extent st0 = st0 := by
      unfold advance_extent
      rw [p6.2]
      simp only
      have : skip_extents st0.pos st0.curr_extent rest = (st0.curr_extent, rest) := by
        cases rest with
        | nil =>
          rw [skip_extents, if_neg]
          rw [p6.1, p1]
          intro h
          have := h.2
          rw [he0] at this
          simp only [Nat.cast_zero] at this
          omega
        | cons x xs =>
          rw [skip_extents, if_neg]
          rw [p6.1, p1]
          intro h
          have := h.2
          rw [he0] at this
          simp only [Nat.cast_zero] at this
          omega
      rw [this]
      simp only
      rw [← p6.2]
    rw [l1, l2]
    have hk : known_sparse st0 (st0.pos + c_checkpoint_dist) = true := by
      unfold known_sparse
      rw [p6.1, p1, p2, he0]
      simp only [decide_eq_true_eq, Nat.zero_add, Nat.cast_zero]
      refine ⟨by decide, le_refl _, ?_, hF⟩
      omega
    rw [if_pos hk]
    rw [sparse_chunk_never_ends g fuel st0 _ c hT p7 p3 hcid hp p4
      (by rw [p6.1]; omega)]

/-- C24, a run that does not terminate: a file of one big chunk of zero bytes which
the extent iterator reports as sparse, and a replica on a file system without hole
punching.  The zero-fill loop that stands in for the hole writes buffers of zero
bytes and never counts them, so the run does not return within any number of
iterations. -/
theorem C24_zero_fill_diverges (fuel : Nat) :
    build_chunk_hashs demo_digests (init_chunk_hasher demo_digests ⟨[]⟩) fuel zero_fill_args
      = none :=
  zero_fill_never_ends demo_digests _ zero_fill_args (no_punch_file []) first_chunk_extent []
    (template_fits demo_digests ⟨[]⟩) (fun _ _ => rfl) rfl rfl (fun _ _ => rfl) rfl rfl rfl
    (by decide) (by simp [zero_fill_args, mem_file]) fuel

/-! ## Frame of the pieces of the loop body for the writes to the replica -/

theorem write_hashoutput_wview (st st' : State) (buf : List Byte) (ok : Bool)
    (h : write_hashoutput st buf = some (ok, st')) : st'.wview = st.wview := by
  obtain ⟨ho, cb, rfl⟩ := write_hashoutput_form _ _ _ _ h
  rfl

theorem close_sparse_run_wview (st : State) : (close_sparse_run st).wview = st.wview := by
  unfold close_sparse_run
  split <;> rfl

theorem open_sparse_run_wview (st : State) : (open_sparse_run st).wview = st.wview := by
  unfold open_sparse_run
  split <;> rfl

theorem sha_window_wview (st : State) (buf : List Byte) :
    (sha_window st buf).wview = st.wview := by
  unfold sha_window
  simp only
  split_ifs
  · rw [open_sparse_run_wview]; rfl
  · show (close_sparse_run _).wview = _
    rw [close_sparse_run_wview]; rfl
  · show (close_sparse_run _).wview = _
    rw [close_sparse_run_wview]; rfl
  · rfl
  · rfl

theorem load_chunk_hashes_wview (st : State) (h : st.chunk_hashes = none) :
    load_chunk_hashes st = st := by
  unfold load_chunk_hashes
  rw [h]

theorem advance_extent_wview (st : State) : (advance_extent st).wview = st.wview := by
  unfold advance_extent
  split <;> rfl

theorem collision_recovery_none (H : HashFns) (fuel : Nat) (st : State) (epos : Nat)
    (h : st.chunk_hashes = none) : collision_recovery H fuel st epos = some (Step.next st) := by
  unfold collision_recovery
  rw [h]
  split
  · rename_i heq; cases heq
  · rfl

/-- The statements `rewrite_copy` and `copy_write_pos+=r` on a replica without
faults act on the fields as `WView.rewrite`. -/
theorem rewrite_copy_wview (st st' : State) (c : IFile) (buf : List Byte)
    (hc : c.ideal) (hb : buf ≠ [])
    (h : bump_copy_write_pos (rewrite_copy st c buf) buf.length = some (Step.next st')) :
    st'.wview = st.wview.rewrite c buf := by
  rw [rewrite_copy_bumped st c buf hc hb buf.length st' h] at h
  simp only [bump_copy_write_pos, Option.some.injEq, Step.next.injEq] at h
  rw [← h]
  unfold add_inplace_written WView.rewrite State.wview
  simp only
  cases hw : st.inplace_written <;> rfl

/-- The block `if(copy!=NULL)` of the small-chunk loop acts on the fields as
`WView.reconcile`, for a replica without faults and without a record of the
previous hashfile. -/
theorem reconcile_copy_wview (st st' : State) (buf sh : List Byte)
    (hch : st.chunk_hashes = none) (hid : ∀ c, st.copy = some c → c.ideal) (hb : buf ≠ [])
    (h : reconcile_copy st buf sh = some (Step.next st')) :
    st'.wview = st.wview.reconcile buf := by
  unfold reconcile_copy at h
  unfold WView.reconcile
  cases hc : st.copy with
  | none =>
    rw [hc] at h
    simp only [Option.some.injEq, Step.next.injEq] at h
    rw [← h]
    show st.wview = match st.wview.copy with
      | none => st.wview
      | some c => _
    rw [show st.wview.copy = none from hc]
  | some c =>
    have hcid := hid c hc
    rw [hc] at h
    simp only at h
    rw [show st.wview.copy = some c from hc]
    simp only
    by_cases hm : st.modify_inplace = true
    · rw [if_pos hm, hch] at h
      simp only at h
      rw [if_pos (show st.wview.modify_inplace = true from hm)]
      unfold reconcile_compare at h
      simp only [IFile.Seek, IFile.Read] at h
      by_cases he : st.copy_read_eof = true
      · rw [if_pos he] at h
        rw [if_pos (show st.wview.copy_read_eof = true from he)]
        exact rewrite_copy_wview st st' c buf hcid hb h
      · rw [if_neg he] at h
        rw [if_neg (show ¬ st.wview.copy_read_eof = true from he)]
        have he0 : st.copy_read_eof = false := by simpa using he
        show st'.wview
          = if decide (((c.data.drop st.copy_write_pos).take c_small_hash_dist).length
                < c_small_hash_dist) = true
              ∨ ((c.data.drop st.copy_write_pos).take c_small_hash_dist).length ≠ buf.length
              ∨ (c.data.drop st.copy_write_pos).take c_small_hash_dist ≠ buf then _ else _
        by_cases hl : ((c.data.drop st.copy_write_pos).take c_small_hash_dist).length
            < c_small_hash_dist
        · have hmk : (mark_copy_read_eof
              { st with copy := some { c with cursor := st.copy_write_pos
                + ((c.data.drop st.copy_write_pos).take c_small_hash_dist).length } }
              ((c.data.drop st.copy_write_pos).take c_small_hash_dist).length)
              = { st with copy := some { c with cursor := st.copy_write_pos
                + ((c.data.drop st.copy_write_pos).take c_small_hash_dist).length },
                          copy_read_eof := true } := by
            unfold mark_copy_read_eof
            rw [if_pos hl]
          rw [hmk] at h
          simp only [true_or, if_true] at h
          rw [if_pos (Or.inl (by simpa using hl))]
          have := rewrite_copy_wview _ st' _ buf (fun k n => hcid k n) hb h
          rw [this]
          simp only [State.wview, decide_eq_true hl]
          rfl
        · have hmk : (mark_copy_read_eof
              { st with copy := some { c with cursor := st.copy_write_pos
                + ((c.data.drop st.copy_write_pos).take c_small_hash_dist).length } }
              ((c.data.drop st.copy_write_pos).take c_small_hash_dist).length)
              = { st with copy := some { c with cursor := st.copy_write_pos
                + ((c.data.drop st.copy_write_pos).take c_small_hash_dist).length } } := by
            unfold mark_copy_read_eof
            rw [if_neg hl]
          rw [hmk] at h
          simp only [he0, Bool.false_eq_true, false_or] at h
          by_cases hne : ((c.data.drop st.copy_write_pos).take c_small_hash_dist).length
              ≠ buf.length ∨ (c.data.drop st.copy_write_pos).take c_small_hash_dist ≠ buf
          · rw [if_pos hne] at h
            rw [if_pos (Or.inr hne)]
            have := rewrite_copy_wview _ st' _ buf (fun k n => hcid k n) hb h
            rw [this]
            simp only [State.wview, decide_eq_false hl, he0]
            rfl
          · rw [if_neg hne] at h
            rw [if_neg (by
              rintro (h1 | h2)
              · exact hl (by simpa using h1)
              · exact hne h2)]
            simp only [Option.some.injEq, Step.next.injEq] at h
            rw [← h]
            simp only [State.wview, he0]
    · rw [if_neg hm] at h
      rw [if_neg (show ¬ st.wview.modify_inplace = true from hm)]
      have hwc : write_copy st c buf = some (true, { st with copy := some (c.put buf) }) := by
        split at h
        · simp at h
        · simp at h
        · rename_i s hw
          rw [hw, write_copy_ok st c buf hcid hb s hw]
      rw [hwc] at h
      simp only [Option.some.injEq, Step.next.injEq] at h
      rw [← h]
      rfl

/-- The body of the small-chunk loop acts on the fields as `WView.reconcile` for the
bytes it has read. -/
theorem small_chunk_body_wview (H : HashFns) (st st' : State)
    (hch : st.chunk_hashes = none) (hid : ∀ c, st.copy = some c → c.ideal)
    (hcur : st.f.cursor < st.f.data.length)
    (h : small_chunk_body H st = some (Step.next st')) :
    st'.wview = st.wview.reconcile (st.f.Read c_small_hash_dist).1 := by
  have hb := read_ne_nil st.f c_small_hash_dist (by decide) hcur
  unfold small_chunk_body at h
  simp only at h
  split at h
  · simp at h
  · simp at h
  · rename_i s1 hw
    have e1 := write_hashoutput_wview _ _ _ _ hw
    have e2 : (sha_window { s1 with hashoutputpos := s1.hashoutputpos + small_hash_size }
        (st.f.Read c_small_hash_dist).1).wview = st.wview := by
      rw [sha_window_wview]
      exact e1
    have hch2 : (sha_window { s1 with hashoutputpos := s1.hashoutputpos + small_hash_size }
        (st.f.Read c_small_hash_dist).1).chunk_hashes = none :=
      (congrArg WView.chunk_hashes e2).trans hch
    have hid2 : ∀ c, (sha_window { s1 with hashoutputpos := s1.hashoutputpos + small_hash_size }
        (st.f.Read c_small_hash_dist).1).copy = some c → c.ideal := by
      intro c hc
      exact hid c ((congrArg WView.copy e2).symm.trans hc)
    rw [reconcile_copy_wview _ _ _ _ hch2 hid2 hb h, e2]

/-! ## Invariant rule of the normal path for the writes to the replica -/

theorem collision_recovery_same (H : HashFns) (fuel : Nat) (st st' : State) (epos : Nat)
    (h : collision_recovery H fuel st epos = some (Step.next st'))
    (hch : st.chunk_hashes = none) : st' = st := by
  rw [collision_recovery_none H fuel st epos hch] at h
  simp only [Option.some.injEq, Step.next.injEq] at h
  exact h.symm

/-- Rule for the normal path without a record of the previous hashfile: a property
`P` of the replica fields and the position that every step of `WView.reconcile` on a
small chunk of `F` keeps, holds behind the big chunk when it holds in front of it
(with `copy_sparse_extent_start` reset, as the path does first). -/
theorem normal_chunk_wrule (H : HashFns) (T : List Byte) (exts : List SSparseExtent)
    (F init : List Byte) (P : WView → Nat → Prop)
    (hgood : ∀ v p, P v p → v.chunk_hashes = none ∧ ∀ c, v.copy = some c → c.ideal)
    (hstep : ∀ v p, P v p → p < F.length → c_small_hash_dist ∣ p →
      P (v.reconcile (slice F p c_small_hash_dist)) (p + c_small_hash_dist))
    (fuel : Nat) (st st' : State)
    (h : HInv H T exts F init st.hview)
    (hlt : st.pos < st.fsize)
    (hP : P { st.wview with copy_sparse_extent_start := -1 } st.pos)
    (hs : normal_chunk H fuel st (st.pos + c_checkpoint_dist) = some (Step.next st')) :
    P st'.wview st'.pos := by
  have hB := c_checkpoint_dist_eq
  have hS := c_small_hash_dist_eq
  have hfs : st.fsize = F.length := h.fsize
  obtain ⟨E, j, hR, hc, hh, hp1, hp2⟩ := h.recs
  have hpj : st.pos = j * c_checkpoint_dist := hp1 (by rw [← hfs]; exact hlt)
  have hS0 := HInv_begin_record H T exts F init st.hview h E j hc hh hpj
  unfold normal_chunk at hs
  simp only at hs
  have hw := write_hashoutput_ideal
    { st with copy_sparse_extent_start := -1, big_hash := [],
              big_hash_copy_control := [], hashoutputpos_start := st.hashoutputpos }
    (List.replicate big_hash_size 0) h.ho_ideal (by simp [big_hash_size])
    (by simp [big_hash_size])
  rw [hw] at hs
  simp only at hs
  split at hs
  · simp at hs
  · simp at hs
  · rename_i s2 hloop
    have hI : (SInv H F init (i64_bytes F.length ++ E) (j * c_checkpoint_dist)
          st.curr_extent st.extent_iterator s2.hview ∧ P s2.wview s2.pos)
        ∧ ¬ (s2.pos < st.pos + c_checkpoint_dist ∧ s2.pos < s2.fsize) := by
      refine small_chunk_loop_partial H (st.pos + c_checkpoint_dist)
        (fun s => SInv H F init (i64_bytes F.length ++ E) (j * c_checkpoint_dist)
          st.curr_extent st.extent_iterator s.hview ∧ P s.wview s.pos)
        ?_ fuel _ s2 ?_ hloop
      · intro s s' hs1 hs2 hs3 hbody
        obtain ⟨hs1, hPs⟩ := hs1
        have hv := small_chunk_body_hview H s s' hs1.ho_ideal hbody
        have hsf : s.fsize = F.length := hs1.fsize
        have hfd : s.f.data = F := hs1.f_data
        have hposF : s.pos < s.f.data.length := by rw [hfd, ← hsf]; exact hs3
        have hcurlt : s.f.cursor < s.f.data.length := by
          rw [show s.f.cursor = min s.pos F.length from hs1.f_cursor, hfd]
          rw [hfd] at hposF; omega
        obtain ⟨g1, g2⟩ := hgood _ _ hPs
        have hwv := small_chunk_body_wview H s s' g1 g2 hcurlt hbody
        constructor
        · show SInv H F init _ _ _ _ (s'.hview.incr)
          rw [hv]
          exact SInv_step H F init _ _ _ _ s.hview hs1 (by rw [← hpj]; exact hs2) hs3
        · show P s'.wview (s'.pos + c_small_hash_dist)
          have hpos' : s'.pos = s.pos := congrArg HView.pos hv
          have hbuf : (s.f.Read c_small_hash_dist).1 = slice F s.pos c_small_hash_dist := by
            rw [read_bytes s.f s.pos _ (by rw [hfd]; exact hs1.f_cursor) hposF, hfd]
          rw [hwv, hpos', hbuf]
          apply hstep _ _ hPs (by rw [← hsf]; exact hs3)
          rw [show s.pos = j * c_checkpoint_dist + s.chunkidx * c_small_hash_dist from hs1.pos_eq]
          exact dvd_small_of_big _ _
      · exact ⟨hS0, hP⟩
    obtain ⟨⟨hS2, hP2⟩, hx⟩ := hI
    simp only [IFile.Seek] at hs
    have hw2 := write_hashoutput_ideal
      { s2 with hashoutput := { s2.hashoutput with cursor := s2.hashoutputpos_start } }
      ((H.md5 s2.big_hash).take big_hash_size) hS2.ho_ideal
      (by
        intro he
        have := congrArg List.length he
        rw [List.length_take, H.md5_size] at this
        simp [big_hash_size] at this)
      (by rw [List.length_take, H.md5_size]; simp [big_hash_size])
    rw [hw2] at hs
    simp only at hs
    have hch2 : s2.chunk_hashes = none := (hgood _ _ hP2).1
    split at hs
    · simp at hs
    · simp at hs
    · rename_i s4 hrec
      simp only [Option.some.injEq, Step.next.injEq] at hs
      have e4 := collision_recovery_same H fuel _ s4 _ hrec hch2
      rw [← hs, e4]
      exact hP2

/-! ## The replica that already holds the source -/

theorem write_at_self (F : List Byte) (p m : Nat) (hp : p ≤ F.length) :
    write_at F p (slice F p m) = F := by
  apply list_eq_of_getD
  · rw [write_at_length, slice_length]; omega
  · intro i hi
    rw [write_at_length, slice_length] at hi
    rw [write_at_getD]
    by_cases h1 : i < p
    · rw [if_pos h1]
    · rw [if_neg h1]
      by_cases h2 : i < p + (slice F p m).length
      · rw [if_pos h2, slice_getD F p m (i - p) (by omega)]
        congr 1; omega
      · rw [if_neg h2]

theorem SameInv_good (F : List Byte) (n0 : Nat) (w0 : Int) (v : WView) (p : Nat)
    (h : SameInv F n0 w0 v p) : v.chunk_hashes = none ∧ ∀ c, v.copy = some c → c.ideal := by
  obtain ⟨_, h2, _, _, c, hc, hid, _⟩ := h
  refine ⟨h2, ?_⟩
  intro c' hc'
  rw [hc] at hc'
  cases hc'
  exact hid

/-- One small chunk keeps `SameInv`: a small chunk of full size is found in the
replica and not written, a shorter one is written again. -/
theorem SameInv_step (F : List Byte) (n0 : Nat) (w0 : Int) (v : WView) (p : Nat)
    (h : SameInv F n0 w0 v p) (hlt : p < F.length) (_hd : c_small_hash_dist ∣ p) :
    SameInv F n0 w0 (v.reconcile (slice F p c_small_hash_dist)) (p + c_small_hash_dist) := by
  have hS := c_small_hash_dist_eq
  obtain ⟨h1, h2, h3, h4, c, hc, hid, hdat, hA, _⟩ := h
  obtain ⟨a1, a2, a3, a4⟩ := hA hlt
  have hd2 : c_small_hash_dist ∣ p + c_small_hash_dist := Dvd.dvd.add h3 (dvd_refl _)
  have hsl : (slice F p c_small_hash_dist).length = min 512 (F.length - p) := by
    rw [slice_length, hS]
  have hcb : (c.data.drop v.copy_write_pos).take c_small_hash_dist
      = slice F p c_small_hash_dist := by
    rw [hdat, a1]; rfl
  unfold WView.reconcile
  rw [hc]
  simp only [h1, if_true, a2, Bool.false_eq_true, if_false, hcb]
  by_cases hshort : F.length - p < 512
  · -- the last small chunk is shorter than `c_small_hash_dist`
    have hl : (slice F p c_small_hash_dist).length < c_small_hash_dist := by
      rw [hsl, hS]; omega
    rw [if_pos (Or.inl (by simpa using hl))]
    obtain ⟨k, hk⟩ := h3
    rw [hS] at hk
    have hmod : F.length % 512 = F.length - p := by
      have : F.length = 512 * k + (F.length - p) := by omega
      rw [this, Nat.mul_add_mod]
      have : (512 * k + (F.length - p) - p) = F.length - p := by omega
      rw [Nat.mod_eq_of_lt (by omega)]
      omega
    refine ⟨rfl, h2, hd2, h4, _, rfl, ?_, ?_, ?_, ?_⟩
    · intro x y; exact hid x y
    · show write_at c.data v.copy_write_pos (slice F p c_small_hash_dist) = F
      rw [hdat, a1]
      exact write_at_self F p _ (by omega)
    · intro hlt2
      rw [hS] at hlt2
      omega
    · intro _
      constructor
      · show c.nwrites + 1 = _
        rw [a3, hS, hmod, if_neg (by omega)]
      · show (match v.inplace_written with
            | none => none
            | some w => some (w + ((slice F p c_small_hash_dist).length : Int))) = _
        rw [a4]
        simp only
        rw [hsl, hS, hmod]
        have : min 512 (F.length - p) = F.length - p := by omega
        rw [this]
  · -- a small chunk of full size
    have hl : ¬ (slice F p c_small_hash_dist).length < c_small_hash_dist := by
      rw [hsl, hS]; omega
    rw [if_neg (by
      rintro (h | h | h)
      · exact hl (by simpa using h)
      · exact h rfl
      · exact h rfl)]
    refine ⟨rfl, h2, hd2, h4, _, rfl, fun x y => hid x y, hdat, ?_, ?_⟩
    · intro _
      refine ⟨?_, rfl, a3, a4⟩
      show v.copy_write_pos + (slice F p c_small_hash_dist).length = _
      rw [a1, hsl, hS]
      omega
    · intro hge
      rw [hS] at hge
      have hF : F.length = p + 512 := by omega
      obtain ⟨k, hk⟩ := h3
      rw [hS] at hk
      have hmod : F.length % 512 = 0 := by
        rw [hF, hk]
        omega
      rw [hS, hmod]
      exact ⟨by simpa using a3, by simpa using a4⟩

theorem close_last_run_wview (st : State) : (close_last_run st).wview = st.wview := by
  unfold close_last_run
  split <;> rfl

theorem restore_copy_size_same (st : State) (h : st.copy_max_sparse = -1) :
    restore_copy_size st = Step.next st := by
  unfold restore_copy_size
  split
  · rfl
  · rw [if_neg (by rw [h]; intro hh; exact hh.1 rfl)]

theorem final_digest_wview (H : HashFns) (st : State) :
    (final_digest H st).2.wview = st.wview := by
  unfold final_digest
  split_ifs <;> rfl

/-- The fields of the replica in front of the main loop, for a run without a
previous hashfile. -/
theorem prologue_wview (a : Args) (st0 : State) (hid : a.hashoutput.ideal)
    (hin : a.hashinput = none) (h : prologue a = some (Step.next st0)) :
    st0.pos = 0
      ∧ st0.wview = { copy := a.copy, modify_inplace := a.modify_inplace, chunk_hashes := none,
                      copy_write_pos := 0, copy_read_eof := false,
                      inplace_written := a.inplace_written, copy_sparse_extent_start := -1,
                      copy_max_sparse := -1 } := by
  rw [prologue_no_input a hid hin] at h
  simp only [Option.some.injEq, Step.next.injEq] at h
  rw [← h]
  refine ⟨rfl, ?_⟩
  have hin2 : (entry_state a).hashinput = none := hin
  unfold State.wview init_locals
  simp only [hin2]
  rfl

/-- Without known-sparse extents the main loop keeps `SameInv`. -/
theorem main_loop_same (H : HashFns) (g : Globals) (F init : List Byte) (n0 : Nat) (w0 : Int) :
    ∀ (fuel : Nat) (st st' : State),
      HInv H (get_sparse_extent_content g) [] F init st.hview ∧ SameInv F n0 w0 st.wview st.pos →
      main_loop H g fuel st = some (Step.next st') →
      (HInv H (get_sparse_extent_content g) [] F init st'.hview
          ∧ SameInv F n0 w0 st'.wview st'.pos) ∧ ¬ (st'.pos < st'.fsize) := by
  apply main_loop_partial H g
    (fun s => HInv H (get_sparse_extent_content g) [] F init s.hview
      ∧ SameInv F n0 w0 s.wview s.pos)
  · intro fuel st st' hI hlt hk hs
    obtain ⟨hI, _⟩ := hI
    have h1 : HInv H (get_sparse_extent_content g) [] F init (load_chunk_hashes st).hview := by
      rw [load_chunk_hashes_hview]; exact hI
    have h2 := advance_extent_HInv H _ [] F init _ h1
    unfold known_sparse at hk
    simp only [decide_eq_true_eq] at hk
    exact absurd (h2.cur_mem hk.1) (List.not_mem_nil _)
  · intro fuel st st' hI hlt _ hs
    obtain ⟨hI, hP⟩ := hI
    have hch : st.chunk_hashes = none := hP.2.1
    have hl : load_chunk_hashes st = st := load_chunk_hashes_wview st hch
    rw [hl] at hs
    have h2 := advance_extent_HInv H _ [] F init _ hI
    have hp := advance_extent_pos st
    have hlt' : (advance_extent st).pos < (advance_extent st).fsize := by
      rw [hp.1, hp.2.1]; exact hlt
    refine ⟨(normal_chunk_HInv H _ [] F init fuel _ st' h2 hlt' hs).1, ?_⟩
    apply normal_chunk_wrule H _ [] F init (SameInv F n0 w0) (SameInv_good F n0 w0)
      (SameInv_step F n0 w0) fuel _ st' h2 hlt' _ hs
    rw [advance_extent_wview, hp.1]
    exact hP

/-- C26, as the code has it.  In `modify_inplace` mode without a record of the
previous hashfile, the small chunk `buf` is written to the replica at
`copy_write_pos`, and counted in `inplace_written`, exactly when `copy_read_eof` is
set, or the read of the replica at `copy_write_pos` returns fewer than
`c_small_hash_dist` bytes (which sets `copy_read_eof`), or the bytes read differ
from `buf`; otherwise the replica is left alone.  So for a replica that holds the
bytes of the source already (no previous hashfile, no known-sparse extents) the
small chunks of full size are not written, and a last small chunk that is shorter
than `c_small_hash_dist` is written again: the replica holds the source afterwards,
`Write` was called once if the length of the source is not a multiple of
`c_small_hash_dist` and not at all if it is, and `inplace_written` has grown by the
length of the source modulo `c_small_hash_dist`.  A run without faults returns for
every fuel above `fsize + N + 1`. -/
theorem C26_inplace_compare (H : HashFns) (g0 : Globals) (fuel : Nat) (a : Args)
    (c0 : IFile) (w0 : Int)
    (hid : a.hashoutput.ideal) (hm : a.modify_inplace = true) (hin : a.hashinput = none)
    (hno : a.extent_iterator.getD [] = [])
    (hc : a.copy = some c0) (hcid : c0.ideal) (hR : c0.data = a.f.data)
    (hw : a.inplace_written = some w0) :
    (∀ (st st' : State) (c : IFile) (buf sh : List Byte),
        st.copy = some c → c.ideal → st.modify_inplace = true → st.chunk_hashes = none →
        buf ≠ [] → reconcile_copy st buf sh = some (Step.next st') →
        ((st.copy_read_eof = true
              ∨ (slice c.data st.copy_write_pos c_small_hash_dist).length < c_small_hash_dist
              ∨ slice c.data st.copy_write_pos c_small_hash_dist ≠ buf) →
            st'.inplace_written
                = (match st.inplace_written with
                  | none => none
                  | some w => some (w + buf.length))
              ∧ ∃ c2, st'.copy = some c2 ∧ c2.data = write_at c.data st.copy_write_pos buf
                  ∧ c2.nwrites = c.nwrites + 1)
          ∧ (¬ (st.copy_read_eof = true
              ∨ (slice c.data st.copy_write_pos c_small_hash_dist).length < c_small_hash_dist
              ∨ slice c.data st.copy_write_pos c_small_hash_dist ≠ buf) →
            st'.inplace_written = st.inplace_written
              ∧ ∃ c2, st'.copy = some c2 ∧ c2.data = c.data ∧ c2.nwrites = c.nwrites))
      ∧ (a.fault_free → a.f.data.length + n_chunks + 1 < fuel →
          ∃ ret st, build_chunk_hashs H (init_chunk_hasher H g0) fuel a = some (ret, st)
            ∧ ret ≠ [])
      ∧ ∀ (ret : List Byte) (st : State),
          build_chunk_hashs H (init_chunk_hasher H g0) fuel a = some (ret, st) → ret ≠ [] →
          ∃ c, st.copy = some c ∧ c.data = a.f.data
            ∧ c.nwrites
                = c0.nwrites + (if a.f.data.length % c_small_hash_dist = 0 then 0 else 1)
            ∧ st.inplace_written
                = some (w0 + ((a.f.data.length % c_small_hash_dist : Nat) : Int)) := by
  refine ⟨?_, ?_, ?_⟩
  · intro st st' c buf sh hsc hci hsm hch hb hrec
    have hv := reconcile_copy_wview st st' buf sh hch
      (fun c' hc' => by rw [hsc] at hc'; cases hc'; exact hci) hb hrec
    have e1 : st'.inplace_written = (st.wview.reconcile buf).inplace_written :=
      congrArg WView.inplace_written hv
    have e2 : st'.copy = (st.wview.reconcile buf).copy := congrArg WView.copy hv
    unfold WView.reconcile at e1 e2
    rw [show st.wview.copy = some c from hsc] at e1 e2
    simp only [show st.wview.modify_inplace = true from hsm, if_true] at e1 e2
    constructor
    · intro hcond
      by_cases he : st.copy_read_eof = true
      · rw [if_pos (show st.wview.copy_read_eof = true from he)] at e1 e2
        exact ⟨e1, _, e2, rfl, rfl⟩
      · rw [if_neg (show ¬ st.wview.copy_read_eof = true from he)] at e1 e2
        have hcond2 : decide (((c.data.drop st.wview.copy_write_pos).take
              c_small_hash_dist).length < c_small_hash_dist) = true
            ∨ ((c.data.drop st.wview.copy_write_pos).take c_small_hash_dist).length ≠ buf.length
            ∨ (c.data.drop st.wview.copy_write_pos).take c_small_hash_dist ≠ buf := by
          rcases hcond with h | h | h
          · exact absurd h he
          · exact Or.inl (decide_eq_true h)
          · exact Or.inr (Or.inr h)
        rw [if_pos hcond2] at e1 e2
        exact ⟨e1, _, e2, rfl, rfl⟩
    · intro hcond
      have he : ¬ st.copy_read_eof = true := fun h => hcond (Or.inl h)
      rw [if_neg (show ¬ st.wview.copy_read_eof = true from he)] at e1 e2
      have hcond2 : ¬ (decide (((c.data.drop st.wview.copy_write_pos).take
            c_small_hash_dist).length < c_small_hash_dist) = true
          ∨ ((c.data.drop st.wview.copy_write_pos).take c_small_hash_dist).length ≠ buf.length
          ∨ (c.data.drop st.wview.copy_write_pos).take c_small_hash_dist ≠ buf) := by
        rintro (h | h | h)
        · exact hcond (Or.inr (Or.inl (of_decide_eq_true h)))
        · exact hcond (Or.inr (Or.inr (fun hh => h (congrArg List.length hh))))
        · exact hcond (Or.inr (Or.inr h))
      rw [if_neg hcond2] at e1 e2
      exact ⟨e1, _, e2, rfl, rfl⟩
  · intro hff hfuel
    exact build_chunk_hashs_terminates H _ fuel a (template_fits H g0) hff hfuel
  · intro ret st hrun hret
    obtain ⟨st0, st1, st2, hp, hml, hr, hf⟩ :=
      build_chunk_hashs_next H _ fuel a ret st hrun hret
    have h0 := prologue_HInv H (get_sparse_extent_content (init_chunk_hasher H g0)) a st0 hid hp
    rw [hno] at h0
    obtain ⟨p0, v0⟩ := prologue_wview a st0 hid hin hp
    have hS0 : SameInv a.f.data c0.nwrites w0 st0.wview st0.pos := by
      rw [v0, p0]
      refine ⟨hm, rfl, dvd_zero _, rfl, c0, hc, hcid, hR, ?_, ?_⟩
      · intro _
        exact ⟨rfl, rfl, rfl, hw⟩
      · intro hle
        have hz : a.f.data.length = 0 := by omega
        rw [hz]
        exact ⟨by simp, by simpa using hw⟩
    obtain ⟨⟨h1, hS1⟩, hx⟩ := main_loop_same H _ a.f.data _ c0.nwrites w0 fuel st0 st1
      ⟨h0, hS0⟩ hml
    obtain ⟨_, _, _, s4, c, sc, _, sdat, _, sB⟩ := hS1
    have hfs1 : st1.fsize = a.f.data.length := h1.fsize
    obtain ⟨b1, b2⟩ := sB (by rw [← hfs1]; omega)
    have hcl : (close_last_run st1).copy_max_sparse = -1 :=
      (congrArg WView.copy_max_sparse (close_last_run_wview st1)).trans s4
    rw [restore_copy_size_same _ hcl] at hr
    simp only [Step.next.injEq] at hr
    have hst : st = (final_digest H st2).2 := by rw [hf]
    have hwv : st.wview = st1.wview := by
      rw [hst, final_digest_wview, ← hr, close_last_run_wview]
    refine ⟨c, (congrArg WView.copy hwv).trans sc, sdat, b1, ?_⟩
    exact (congrArg WView.inplace_written hwv).trans b2

theorem same_replica_args_fault_free : same_replica_args.fault_free :=
  ⟨fun _ _ => rfl, fun c hc => by cases hc; exact ⟨fun _ _ => rfl, rfl⟩,
    fun hi hh => by cases hh⟩

/-- Witness of C26: the source and the replica are the one-byte file `A`; the run
returns, the replica holds `A`, and `inplace_written` has grown by 1. -/
theorem C26_inplace_compare_witness :
    ∃ ret st c, build_chunk_hashs demo_digests (init_chunk_hasher demo_digests ⟨[]⟩) 1100
        same_replica_args = some (ret, st)
      ∧ st.copy = some c ∧ c.data = [65] ∧ st.inplace_written = some (0 + ((1 : Nat) : Int)) := by
  have T := C26_inplace_compare demo_digests ⟨[]⟩ 1100 same_replica_args (mem_file [65]) 0
    (fun _ _ => rfl) rfl rfl rfl rfl (fun _ _ => rfl) rfl rfl
  obtain ⟨ret, st, hrun, hret⟩ := T.2.1 same_replica_args_fault_free (by decide)
  obtain ⟨c, h1, h2, _, h4⟩ := T.2.2 ret st hrun hret
  exact ⟨ret, st, c, hrun, h1, h2, h4⟩

/-- Counterexample to C26 as stated: the replica equals the source, the one-byte
file `A`.  The read of the replica returns one byte, fewer than `c_small_hash_dist`,
so the byte is written again: `Write` was called once on the replica and
`inplace_written` is 1 after the run. -/
theorem C26_counterexample :
    same_replica_args.copy = some (mem_file same_replica_args.f.data)
      ∧ ∃ st c, build_chunk_hashs demo_digests (init_chunk_hasher demo_digests ⟨[]⟩) 1100
          same_replica_args = some ([107], st)
        ∧ st.copy = some c ∧ c.data = [65] ∧ c.nwrites = 1
        ∧ st.inplace_written = some 1 :=
  ⟨rfl, _, _, rfl, rfl, rfl, rfl, rfl⟩

/-! ## The replica behind a known-sparse first big chunk -/

theorem TailInv_good (F : List Byte) (v : WView) (p : Nat) (h : TailInv F v p) :
    v.chunk_hashes = none ∧ ∀ c, v.copy = some c → c.ideal := by
  obtain ⟨_, h2, _, _, c, hc, hid, _⟩ := h
  refine ⟨h2, ?_⟩
  intro c' hc'
  rw [hc] at hc'
  cases hc'
  exact hid

/-- One small chunk keeps `TailInv`: the bytes are written at the cursor of the
replica, which is not moved to `copy_write_pos`. -/
theorem TailInv_step (F : List Byte) (v : WView) (p : Nat)
    (h : TailInv F v p) (_hlt : p < F.length) (_hd : c_small_hash_dist ∣ p) :
    TailInv F (v.reconcile (slice F p c_small_hash_dist)) (p + c_small_hash_dist) := by
  obtain ⟨h1, h2, h3, h4, c, hc, hid, hp, hcur, hdat⟩ := h
  unfold WView.reconcile
  rw [hc]
  simp only [h1, Bool.false_eq_true, if_false]
  refine ⟨rfl, h2, h3, by omega, _, rfl, IFile.put_ideal c _ hid, hp, ?_, ?_⟩
  · show c.cursor + (slice F p c_small_hash_dist).length
      = (write_at c.data c.cursor (slice F p c_small_hash_dist)).length
    rw [hcur, write_at_end, List.length_append]
  · show write_at c.data c.cursor (slice F p c_small_hash_dist) = _
    rw [hcur, write_at_end, hdat]
    have e : p = c_checkpoint_dist + (p - c_checkpoint_dist) := by omega
    have e2 : p + c_small_hash_dist - c_checkpoint_dist
        = (p - c_checkpoint_dist) + c_small_hash_dist := by omega
    rw [e2, ← slice_append, ← e]

theorem tail_slice_length (F : List Byte) (hF : c_checkpoint_dist < F.length)
    (hF2 : F.length < 2 * c_checkpoint_dist) :
    (slice F c_checkpoint_dist c_checkpoint_dist).length = F.length - c_checkpoint_dist := by
  rw [slice_length]
  omega

/-- The block behind the main loop extends a replica that is shorter than the sparse
watermark `n` with zero bytes. -/
theorem restore_copy_size_grow (st : State) (c : IFile) (n : Nat) (hc : st.copy = some c)
    (hm : st.copy_max_sparse = (n : Int)) (hlt : c.data.length < n) :
    restore_copy_size st = Step.next { st with
      copy := some { c with data := c.data ++ List.replicate (n - c.data.length) 0 } } := by
  unfold restore_copy_size
  rw [hc]
  simp only
  rw [if_pos (by
    rw [hm]
    refine ⟨by omega, ?_⟩
    show ((c.data.length : Nat) : Int) < _
    omega)]
  simp only [IFile.Resize, not_true_eq_false, if_false, hm, Int.toNat_ofNat]
  rw [List.take_of_length_le (by omega)]

/-- A run in non-inplace mode on a file of more than one and fewer than two big
chunks whose first big chunk is reported as sparse, with an empty replica: the
bytes behind the first big chunk end up at offset 0 of the replica. -/
theorem sparse_head_replica (H : HashFns) (g : Globals) (a : Args) (c0 : IFile)
    (hT : get_sparse_extent_content g ≠ [] ∧ (get_sparse_extent_content g).length < 2 ^ 31)
    (hid : a.hashoutput.ideal) (hin : a.hashinput = none) (hm : a.modify_inplace = false)
    (hc : a.copy = some c0) (hcid : c0.ideal) (hp : c0.punch_ok = true)
    (hd : c0.data = []) (hcur : c0.cursor = 0)
    (hit : a.extent_iterator = some [first_chunk_extent])
    (hF : c_checkpoint_dist < a.f.data.length)
    (hF2 : a.f.data.length < 2 * c_checkpoint_dist)
    (fuel : Nat) (ret : List Byte) (st : State)
    (hrun : build_chunk_hashs H g fuel a = some (ret, st)) (hret : ret ≠ []) :
    ∃ R, st.copy = some R
      ∧ R.data = slice a.f.data c_checkpoint_dist c_checkpoint_dist
          ++ List.replicate (2 * c_checkpoint_dist - a.f.data.length) 0 := by
  have hB := c_checkpoint_dist_eq
  obtain ⟨st0, st1, st2, hpro, hml, hr, hf⟩ := build_chunk_hashs_next H g fuel a ret st hrun hret
  have h0 := prologue_HInv H (get_sparse_extent_content g) a st0 hid hpro
  rw [hit] at h0
  simp only [Option.getD_some] at h0
  obtain ⟨p0, v0⟩ := prologue_wview a st0 hid hin hpro
  rw [prologue_no_input a hid hin] at hpro
  simp only [Option.some.injEq, Step.next.injEq] at hpro
  have p6 : st0.curr_extent = first_chunk_extent ∧ st0.extent_iterator = some [] := by
    rw [← hpro]
    show (match a.extent_iterator with
          | none => SSparseExtent.unset
          | some it => (nextExtent it).1) = first_chunk_extent
        ∧ (match a.extent_iterator with
          | none => none
          | some it => some (nextExtent it).2) = some []
    rw [hit]
    exact ⟨rfl, rfl⟩
  have key := main_loop_partial H g
    (fun s => HInv H (get_sparse_extent_content g) [first_chunk_extent] a.f.data
        a.hashoutput.data s.hview
      ∧ ((s.pos = 0 ∧ s.curr_extent = first_chunk_extent ∧ s.extent_iterator = some []
            ∧ s.chunk_hashes = none ∧ s.modify_inplace = false
            ∧ s.copy = some c0 ∧ s.copy_sparse_extent_start = -1)
          ∨ TailInv a.f.data s.wview s.pos))
    (by
      intro fuel st st' hI hlt hk hs
      obtain ⟨hI, hA | hA⟩ := hI
      · obtain ⟨a1, a2, a3, a4, a5, a6, a7⟩ := hA
        have hl : load_chunk_hashes st = st := load_chunk_hashes_wview st a4
        have l2 : advance_extent st = st := by
          unfold advance_extent
          rw [a3]
          simp only
          have : skip_extents st.pos st.curr_extent [] = (st.curr_extent, []) := by
            rw [skip_extents, if_neg]
            rw [a2, a1]
            intro h
            have := h.2
            simp only [first_chunk_extent, Nat.cast_zero] at this
            omega
          rw [this]
          simp only
          rw [← a3]
        rw [hl, l2] at hs hk
        have hI' := sparse_chunk_HInv H g _ _ _ fuel st st' hT hI hlt hk hs
        refine ⟨hI', Or.inr ?_⟩
        have hv := sparse_chunk_hview g fuel st st' _ hI.ho_ideal hT hs
        have hpos : st'.pos = st.pos + c_checkpoint_dist := congrArg HView.pos hv
        obtain ⟨b1, b2, _, _, b5, _⟩ := sparse_chunk_replica g fuel st st' _ c0 a6 hp hs
        obtain ⟨d1, d2, _⟩ := b5 a7
        refine ⟨b1.trans a5, b2.trans a4, ?_, ?_, _, d1, fun k n => hcid k n, hp, ?_, ?_⟩
        · show st'.copy_max_sparse = _
          rw [d2, a2, hB]
          simp only [first_chunk_extent]
          norm_num
        · rw [hpos]; omega
        · show c0.cursor = (zero_range c0.data _ _).length
          rw [hcur, hd]
          simp [zero_range]
        · show zero_range c0.data _ _ = _
          rw [hd, hpos, a1, Nat.zero_add, Nat.sub_self]
          simp [zero_range, slice]
      · exfalso
        obtain ⟨_, _, _, a4, _⟩ := hA
        unfold known_sparse at hk
        simp only [decide_eq_true_eq] at hk
        have h4 := hk.2.2.2
        rw [(advance_extent_pos _).1, (advance_extent_pos _).2.1] at h4
        have e1 : (load_chunk_hashes st).pos = st.pos :=
          congrArg HView.pos (load_chunk_hashes_hview st)
        have e2 : (load_chunk_hashes st).fsize = st.fsize :=
          congrArg HView.fsize (load_chunk_hashes_hview st)
        rw [e1, e2] at h4
        have hfs : st.fsize = a.f.data.length := hI.fsize
        omega)
    (by
      intro fuel st st' hI hlt hk hs
      obtain ⟨hI, hA | hA⟩ := hI
      · exfalso
        obtain ⟨a1, a2, a3, a4, a5, a6, a7⟩ := hA
        have hl : load_chunk_hashes st = st := load_chunk_hashes_wview st a4
        have l2 : advance_extent st = st := by
          unfold advance_extent
          rw [a3]
          simp only
          have : skip_extents st.pos st.curr_extent [] = (st.curr_extent, []) := by
            rw [skip_extents, if_neg]
            rw [a2, a1]
            intro h
            have := h.2
            simp only [first_chunk_extent, Nat.cast_zero] at this
            omega
          rw [this]
          simp only
          rw [← a3]
        rw [hl, l2] at hk
        have hfs : st.fsize = a.f.data.length := hI.fsize
        have : known_sparse st (st.pos + c_checkpoint_dist) = true := by
          unfold known_sparse
          rw [a2, a1, hfs]
          simp only [decide_eq_true_eq, Nat.zero_add, Nat.cast_zero, first_chunk_extent]
          refine ⟨by decide, le_refl _, ?_, by omega⟩
          omega
        rw [this] at hk
        cases hk
      · have hch : st.chunk_hashes = none := hA.2.1
        have hl : load_chunk_hashes st = st := load_chunk_hashes_wview st hch
        rw [hl] at hs
        have h2 := advance_extent_HInv H _ [first_chunk_extent] a.f.data a.hashoutput.data _ hI
        have hpp := advance_extent_pos st
        have hlt' : (advance_extent st).pos < (advance_extent st).fsize := by
          rw [hpp.1, hpp.2.1]; exact hlt
        refine ⟨(normal_chunk_HInv H _ _ _ _ fuel _ st' h2 hlt' hs).1, Or.inr ?_⟩
        apply normal_chunk_wrule H _ [first_chunk_extent] a.f.data a.hashoutput.data
          (TailInv a.f.data) (TailInv_good a.f.data)
          (TailInv_step a.f.data) fuel _ st' h2 hlt' _ hs
        rw [advance_extent_wview, hpp.1]
        exact hA)
    fuel st0 st1
    ⟨h0, Or.inl ⟨p0, p6.1, p6.2, (congrArg WView.chunk_hashes v0),
      (congrArg WView.modify_inplace v0).trans hm, (congrArg WView.copy v0).trans hc,
      congrArg WView.copy_sparse_extent_start v0⟩⟩ hml
  obtain ⟨⟨h1, hA | hA⟩, hx⟩ := key
  · exfalso
    have hfs : st1.fsize = a.f.data.length := h1.fsize
    rw [hA.1, hfs] at hx
    omega
  · clear hB
    obtain ⟨_, _, t3, t4, c, tc, _, _, _, tdat⟩ := hA
    have hfs : st1.fsize = a.f.data.length := h1.fsize
    have hge : a.f.data.length ≤ st1.pos := by rw [← hfs]; omega
    have hdat : c.data = slice a.f.data c_checkpoint_dist c_checkpoint_dist := by
      rw [tdat]
      exact slice_eq_of_le _ _ _ _ (by omega) (by omega)
    have hlen : c.data.length = a.f.data.length - c_checkpoint_dist := by
      rw [hdat]
      exact tail_slice_length a.f.data hF hF2
    have hcc : (close_last_run st1).copy = some c :=
      (congrArg WView.copy (close_last_run_wview st1)).trans tc
    have hcm : (close_last_run st1).copy_max_sparse = (c_checkpoint_dist : Int) :=
      (congrArg WView.copy_max_sparse (close_last_run_wview st1)).trans t3
    rw [restore_copy_size_grow _ c c_checkpoint_dist hcc hcm (by rw [hlen]; omega)] at hr
    simp only [Step.next.injEq] at hr
    have hst : st = (final_digest H st2).2 := by rw [hf]
    have hwv : st.copy = st2.copy := by
      rw [hst]
      exact congrArg WView.copy (final_digest_wview H st2)
    rw [← hr] at hwv
    refine ⟨_, hwv, ?_⟩
    show c.data ++ List.replicate (c_checkpoint_dist - c.data.length) 0 = _
    have e : c_checkpoint_dist - (a.f.data.length - c_checkpoint_dist)
        = 2 * c_checkpoint_dist - a.f.data.length := by omega
    rw [hlen, e, ← hdat]

theorem sparse_then_data_args_fault_free : sparse_then_data_args.fault_free :=
  ⟨fun _ _ => rfl, fun c hc => by cases hc; exact ⟨fun _ _ => rfl, rfl⟩,
    fun hi hh => by cases hh⟩

/-- C25, a run in non-inplace mode that leaves a replica different from the source.
The source is one big chunk of zero bytes, which the extent list truthfully reports
as sparse, followed by the byte `A`; the replica is a new, empty file.  The run
returns successfully.  The known-sparse path punches the hole and adds
`c_checkpoint_dist` to `copy_write_pos`, but the cursor of the replica stays at 0,
and the write of the non-inplace path does not seek: the byte `A`, at offset
`c_checkpoint_dist` of the source, is written at offset 0 of the replica, which is
then resized to `c_checkpoint_dist` bytes. -/
theorem C25_replica_not_seeked :
    sparse_then_data_args.f.data = List.replicate 524288 0 ++ [65]
      ∧ ∃ ret st R,
        build_chunk_hashs demo_digests (init_chunk_hasher demo_digests ⟨[]⟩) 1000000
            sparse_then_data_args = some (ret, st)
          ∧ ret ≠ [] ∧ st.copy = some R ∧ R.data = 65 :: List.replicate 524287 0 := by
  have hB := c_checkpoint_dist_eq
  have hdata : sparse_then_data_args.f.data = List.replicate c_checkpoint_dist 0 ++ [65] := rfl
  have hlen : sparse_then_data_args.f.data.length = 524289 := by
    rw [hdata, List.length_append, List.length_replicate, hB]
    rfl
  refine ⟨by rw [hdata, hB], ?_⟩
  obtain ⟨ret, st, hrun, hret⟩ := build_chunk_hashs_terminates demo_digests
    (init_chunk_hasher demo_digests ⟨[]⟩) 1000000 sparse_then_data_args
    (template_fits demo_digests ⟨[]⟩) sparse_then_data_args_fault_free
    (by rw [hlen]; decide)
  obtain ⟨R, hR, hRd⟩ := sparse_head_replica demo_digests _ sparse_then_data_args (mem_file [])
    (template_fits demo_digests ⟨[]⟩) (fun _ _ => rfl) rfl rfl rfl (fun _ _ => rfl) rfl rfl rfl
    rfl (by rw [hlen, hB]; decide) (by rw [hlen, hB]; decide) 1000000 ret st hrun hret
  refine ⟨ret, st, R, hrun, hret, hR, ?_⟩
  rw [hRd, hlen, hdata]
  have e : slice (List.replicate c_checkpoint_dist (0 : Byte) ++ [65]) c_checkpoint_dist
      c_checkpoint_dist = [65] := by
    have := slice_append_end (List.replicate c_checkpoint_dist (0 : Byte)) [65]
      c_checkpoint_dist (by rw [hB]; decide)
    rw [List.length_replicate] at this
    exact this
  rw [e, hB]
  have e3 : 2 * 524288 - 524289 = 524287 := by decide
  rw [e3]
  simp only [List.cons_append, List.nil_append]

/-! ## Rules for the digest fields with the alignment of the known-sparse path -/

/-- The position in front of the main loop. -/
theorem prologue_pos (a : Args) (st0 : State) (h : prologue a = some (Step.next st0)) :
    st0.pos = 0 := by
  unfold prologue at h
  simp only at h
  split at h
  · simp at h
  · simp at h
  · rename_i s0 hw
    obtain ⟨_, e2, _, _⟩ := write_hashoutput_sview _ _ _ _ hw
    split at h
    · simp at h
    · rename_i s1 hr1
      simp only [Option.some.injEq, Step.next.injEq] at h
      have := congrArg HView.pos (read_input_size_hview _ _ hr1)
      rw [← h]
      show s1.pos = 0
      rw [show s1.pos = s0.pos from this, e2]
      rfl

/-- Rule for the main loop, as `main_loop_srule`: the known-sparse fast path is only
taken at a position that is a multiple of `c_checkpoint_dist`. -/
theorem main_loop_srule_aligned (H : HashFns) (g : Globals) (exts : List SSparseExtent)
    (F init : List Byte) (hT : get_sparse_extent_content g ≠ [] ∧ (get_sparse_extent_content g).length < 2 ^ 31) (P : SView → Nat → Prop)
    (hstep : ∀ v p, P v p → p < F.length → c_small_hash_dist ∣ p →
      P (v.window p F.length (slice F p c_small_hash_dist)) (p + c_small_hash_dist))
    (hsparse : ∀ v p, P v p → p + c_checkpoint_dist ≤ F.length → c_checkpoint_dist ∣ p →
      (∃ e ∈ exts, e.offset ≤ (p : Int) ∧ ((p + c_checkpoint_dist : Nat) : Int) ≤ e.offset + e.size) →
      P (v.known_sparse p) (p + c_checkpoint_dist)) :
    ∀ (fuel : Nat) (st st' : State),
      HInv H (get_sparse_extent_content g) exts F init st.hview → P st.sview st.pos →
      main_loop H g fuel st = some (Step.next st') →
      P st'.sview st'.pos := by
  intro fuel st st' hI hP hm
  have key := main_loop_partial H g
    (fun s => HInv H (get_sparse_extent_content g) exts F init s.hview ∧ P s.sview s.pos)
    ?_ ?_ fuel st st' ⟨hI, hP⟩ hm
  · exact key.1.2
  · intro fuel st st' hI hlt hk hs
    obtain ⟨hI, hP⟩ := hI
    have h1 : HInv H (get_sparse_extent_content g) exts F init (load_chunk_hashes st).hview := by
      rw [load_chunk_hashes_hview]; exact hI
    have h2 := advance_extent_HInv H _ exts F init _ h1
    have hp := advance_extent_pos (load_chunk_hashes st)
    have e1 : (load_chunk_hashes st).pos = st.pos :=
      congrArg HView.pos (load_chunk_hashes_hview st)
    have e2 : (load_chunk_hashes st).fsize = st.fsize :=
      congrArg HView.fsize (load_chunk_hashes_hview st)
    have hpos : (advance_extent (load_chunk_hashes st)).pos = st.pos := by rw [hp.1, e1]
    have hfsz : (advance_extent (load_chunk_hashes st)).fsize = st.fsize := by rw [hp.2.1, e2]
    have hlt' : (advance_extent (load_chunk_hashes st)).pos
        < (advance_extent (load_chunk_hashes st)).fsize := by
      rw [hpos, hfsz]; exact hlt
    refine ⟨sparse_chunk_HInv H g exts F init fuel _ st' hT h2 hlt' hk hs, ?_⟩
    have hv := sparse_chunk_hview g fuel _ st' _ h2.ho_ideal hT hs
    have hsv := sparse_chunk_sview g fuel _ st' _ hs
    have hsp : st'.pos = (advance_extent (load_chunk_hashes st)).pos + c_checkpoint_dist :=
      congrArg HView.pos hv
    rw [hsv, hsp, advance_extent_sview, load_chunk_hashes_sview, hpos]
    unfold known_sparse at hk
    simp only [decide_eq_true_eq] at hk
    rw [hpos, hfsz] at hk
    have hfsF : st.fsize = F.length := hI.fsize
    obtain ⟨E, j, _, _, _, hp1, _⟩ := hI.recs
    have hpj : st.pos = j * c_checkpoint_dist := hp1 (by rw [← hfsF]; exact hlt)
    apply hsparse _ _ hP (by rw [← hfsF]; exact hk.2.2.2) ⟨j, by rw [hpj, Nat.mul_comm]⟩
    exact ⟨_, h2.cur_mem hk.1, hk.2.1, hk.2.2.1⟩
  · intro fuel st st' hI hlt _ hs
    obtain ⟨hI, hP⟩ := hI
    have h1 : HInv H (get_sparse_extent_content g) exts F init (load_chunk_hashes st).hview := by
      rw [load_chunk_hashes_hview]; exact hI
    have h2 := advance_extent_HInv H _ exts F init _ h1
    have hp := advance_extent_pos (load_chunk_hashes st)
    have e1 : (load_chunk_hashes st).pos = st.pos :=
      congrArg HView.pos (load_chunk_hashes_hview st)
    have e2 : (load_chunk_hashes st).fsize = st.fsize :=
      congrArg HView.fsize (load_chunk_hashes_hview st)
    have hpos : (advance_extent (load_chunk_hashes st)).pos = st.pos := by rw [hp.1, e1]
    have hfsz : (advance_extent (load_chunk_hashes st)).fsize = st.fsize := by rw [hp.2.1, e2]
    have hlt' : (advance_extent (load_chunk_hashes st)).pos
        < (advance_extent (load_chunk_hashes st)).fsize := by
      rw [hpos, hfsz]; exact hlt
    refine ⟨(normal_chunk_HInv H _ exts F init fuel _ st' h2 hlt' hs).1, ?_⟩
    apply normal_chunk_srule H _ exts F init P hstep fuel _ st' h2 hlt' _ hs
    rw [advance_extent_sview, load_chunk_hashes_sview, hpos]
    exact hP

/-- The digest fields behind the main loop, from a property `P` that the steps of
the loops keep. -/
theorem main_loop_digest_fields (H : HashFns) (g : Globals) (fuel : Nat) (a : Args)
    (st0 st1 : State) (hT : get_sparse_extent_content g ≠ [] ∧ (get_sparse_extent_content g).length < 2 ^ 31)
    (hid : a.hashoutput.ideal) (P : SView → Nat → Prop)
    (hstep : ∀ v p, P v p → p < a.f.data.length → c_small_hash_dist ∣ p →
      P (v.window p a.f.data.length (slice a.f.data p c_small_hash_dist)) (p + c_small_hash_dist))
    (hsparse : ∀ v p, P v p → p + c_checkpoint_dist ≤ a.f.data.length → c_checkpoint_dist ∣ p →
      (∃ e ∈ a.extent_iterator.getD [],
          e.offset ≤ (p : Int) ∧ ((p + c_checkpoint_dist : Nat) : Int) ≤ e.offset + e.size) →
      P (v.known_sparse p) (p + c_checkpoint_dist))
    (hP0 : P (SView.start a.ret_sha2) 0)
    (hp : prologue a = some (Step.next st0))
    (hm : main_loop H g fuel st0 = some (Step.next st1)) :
    P st1.sview st1.pos ∧ a.f.data.length ≤ st1.pos ∧ st1.fsize = a.f.data.length := by
  have h0 := prologue_HInv H (get_sparse_extent_content g) a st0 hid hp
  have hs0 := prologue_sview a st0 hp
  have hpos0 := prologue_pos a st0 hp
  obtain ⟨h1, hx⟩ := main_loop_HInv H g _ _ _ hT fuel st0 st1 h0 hm
  have hP1 := main_loop_srule_aligned H g _ _ _ hT P hstep hsparse fuel st0 st1 h0
    (by rw [hs0, hpos0]; exact hP0) hm
  have hfs1 : st1.fsize = a.f.data.length := h1.fsize
  exact ⟨hP1, by rw [← hfs1]; omega, hfs1⟩

/-! ## The alignment of the sparse runs -/

theorem extents_ctx_snoc (rs : List (Int × Int)) (r : Int × Int) :
    extents_ctx (rs ++ [r]) = add_extent (extents_ctx rs) r.1 r.2 := by
  unfold extents_ctx
  rw [List.foldl_append]
  rfl

theorem AlignInv_start (F : List Byte) (r : Bool) : AlignInv F (SView.start r) 0 := by
  refine ⟨?_, fun h => absurd rfl h, [], rfl, fun r hr => absurd hr (List.not_mem_nil _)⟩
  intro hr
  show (if r = true then List.replicate sha_buf_size (0 : Byte) else []).length = sha_buf_size
  have hr' : r = true := hr
  rw [if_pos hr', List.length_replicate]

/-- The block that opens a sparse run keeps `AlignInv`. -/
theorem open_run_align (F : List Byte) (w : SView) (p q : Nat) (hret : w.ret_sha2 = true)
    (hlen : w.sha_buf.length = sha_buf_size)
    (hst : w.sparse_extent_start ≠ -1 →
      ∃ k : Nat, w.sparse_extent_start = ((k * sha_buf_size : Nat) : Int))
    (hrs : ∃ rs : List (Int × Int), w.extent_ctx = extents_ctx rs
        ∧ ∀ r ∈ rs, ((sha_buf_size : Nat) : Int) ∣ r.1 ∧ ((sha_buf_size : Nat) : Int) ∣ r.2)
    (hF : F.length ≤ q → sha_buf_size ∣ F.length) :
    AlignInv F (w.open_run p) q := by
  unfold SView.open_run
  by_cases s : w.sparse_extent_start = -1
  · rw [if_pos s]
    refine ⟨fun _ => hlen, fun _ => ⟨hret, ⟨p / w.sha_buf.length, ?_⟩, hF⟩, hrs⟩
    show ((p / w.sha_buf.length * w.sha_buf.length : Nat) : Int) = _
    rw [hlen]
  · rw [if_neg s]
    exact ⟨fun _ => hlen, fun _ => ⟨hret, hst s, hF⟩, hrs⟩

/-- The block that closes a sparse run, and the update of `ctx` behind it, keep
`AlignInv`: the run that is recorded starts and ends at multiples of
`sha_buf_size`. -/
theorem close_feed_align (F : List Byte) (w : SView) (p n q : Nat)
    (hlen : w.sha_buf.length = sha_buf_size)
    (hst : w.sparse_extent_start ≠ -1 →
      ∃ k : Nat, w.sparse_extent_start = ((k * sha_buf_size : Nat) : Int))
    (hrs : ∃ rs : List (Int × Int), w.extent_ctx = extents_ctx rs
        ∧ ∀ r ∈ rs, ((sha_buf_size : Nat) : Int) ∣ r.1 ∧ ((sha_buf_size : Nat) : Int) ∣ r.2) :
    AlignInv F ((w.close_run p).feed n) q := by
  unfold SView.close_run SView.feed
  by_cases s : w.sparse_extent_start ≠ -1
  · rw [if_pos s]
    obtain ⟨k, hk⟩ := hst s
    obtain ⟨rs, hrs1, hrs2⟩ := hrs
    refine ⟨fun _ => hlen, fun h => absurd rfl h,
      rs ++ [(w.sparse_extent_start,
        (((p / w.sha_buf.length) * w.sha_buf.length : Nat) : Int) - w.sparse_extent_start)],
      ?_, ?_⟩
    · rw [extents_ctx_snoc, ← hrs1]
    · intro r hr
      rw [List.mem_append, List.mem_singleton] at hr
      rcases hr with hr | hr
      · exact hrs2 r hr
      · rw [hr]
        show ((sha_buf_size : Nat) : Int) ∣ w.sparse_extent_start
          ∧ ((sha_buf_size : Nat) : Int)
              ∣ (((p / w.sha_buf.length) * w.sha_buf.length : Nat) : Int) - w.sparse_extent_start
        rw [hk, hlen]
        constructor
        · exact ⟨(k : Int), by push_cast; ring⟩
        · exact ⟨((p / sha_buf_size : Nat) : Int) - (k : Int), by push_cast; ring⟩
  · rw [if_neg s]
    have s' : w.sparse_extent_start = -1 := by
      by_contra h
      exact s h
    exact ⟨fun _ => hlen, fun h => absurd s' h, hrs⟩

theorem last_chunk_arith (n p : Nat) (hlt : p < n) (hle : n ≤ p + 512) :
    min 512 (n - p) < 512 ∨ p + min 512 (n - p) = n := by
  omega

theorem window_end_arith (n p k0 : Nat) (hp : p = 512 * k0)
    (c1 : (p + min 512 (n - p)) % 32768 = 0) (hle : n ≤ p + 512) (hlt : p < n) :
    32768 ∣ n := by
  omega

theorem window_fit_arith (n p k0 : Nat) (hp : p = 512 * k0) :
    p % 32768 + min 512 (n - p) ≤ 32768 := by
  omega

/-- One small chunk keeps `AlignInv`. -/
theorem AlignInv_step (F : List Byte) (v : SView) (p : Nat) (hP : AlignInv F v p)
    (hlt : p < F.length) (hd : c_small_hash_dist ∣ p) :
    AlignInv F (v.window p F.length (slice F p c_small_hash_dist)) (p + c_small_hash_dist) := by
  have hS := c_small_hash_dist_eq
  have hL := sha_buf_size_eq
  obtain ⟨h1, h2, h3⟩ := hP
  have hr : (slice F p c_small_hash_dist).length = min 512 (F.length - p) := by
    rw [slice_length, hS]
  unfold SView.window
  by_cases hret : v.ret_sha2 = true
  swap
  · rw [if_neg hret]
    exact ⟨h1, fun hs => absurd (h2 hs).1 hret, h3⟩
  rw [if_pos hret]
  have hlen := h1 hret
  obtain ⟨k0, hk0⟩ := hd
  rw [hS] at hk0
  have hB : (memcpy_at v.sha_buf (p % v.sha_buf.length) (slice F p c_small_hash_dist)).length
      = sha_buf_size := by
    rw [memcpy_length _ _ _ (by rw [hr, hlen, hL]; exact window_fit_arith _ p k0 hk0), hlen]
  have hst : v.sparse_extent_start ≠ -1 →
      ∃ k : Nat, v.sparse_extent_start = ((k * sha_buf_size : Nat) : Int) :=
    fun s => (h2 s).2.1
  by_cases c1 : (p + (slice F p c_small_hash_dist).length) % v.sha_buf.length = 0
  · rw [if_pos c1]
    have hF : F.length ≤ p + c_small_hash_dist → sha_buf_size ∣ F.length := by
      intro hle
      rw [hr, hlen, hL] at c1
      rw [hS] at hle
      rw [hL]
      exact window_end_arith _ p k0 hk0 c1 hle hlt
    by_cases z : buf_is_zero
        (memcpy_at v.sha_buf (p % v.sha_buf.length) (slice F p c_small_hash_dist)) = true
    · rw [if_pos z]
      exact open_run_align F _ p _ hret hB hst h3 hF
    · rw [if_neg z]
      exact close_feed_align F _ p _ _ hB hst h3
  · rw [if_neg c1]
    by_cases c2 : (slice F p c_small_hash_dist).length < c_small_hash_dist
        ∨ p + (slice F p c_small_hash_dist).length = F.length
    · rw [if_pos c2]
      exact close_feed_align F _ p _ _ hB hst h3
    · rw [if_neg c2]
      refine ⟨fun _ => hB, fun s => ⟨hret, hst s, ?_⟩, h3⟩
      intro hle
      exfalso
      rw [hr, hS] at c2
      rw [hS] at hle
      exact c2 (last_chunk_arith _ p hlt hle)

/-- The known-sparse fast path over a big chunk keeps `AlignInv`. -/
theorem AlignInv_sparse (F : List Byte) (v : SView) (p : Nat) (hP : AlignInv F v p)
    (hle : p + c_checkpoint_dist ≤ F.length) (hd : c_checkpoint_dist ∣ p) :
    AlignInv F (v.known_sparse p) (p + c_checkpoint_dist) := by
  have hB := c_checkpoint_dist_eq
  have hL := sha_buf_size_eq
  obtain ⟨h1, h2, h3⟩ := hP
  obtain ⟨j, hj⟩ := hd
  rw [hB] at hj hle
  have hF : F.length ≤ p + c_checkpoint_dist → sha_buf_size ∣ F.length := by
    intro h
    rw [hB] at h
    rw [hL]
    omega
  unfold SView.known_sparse
  by_cases c : v.ret_sha2 = true ∧ v.sparse_extent_start = -1
  · rw [if_pos c]
    refine ⟨h1, fun _ => ⟨c.1, ⟨16 * j, ?_⟩, hF⟩, h3⟩
    show ((p : Nat) : Int) = _
    have e : p = 16 * j * sha_buf_size := by rw [hL]; omega
    rw [← e]
  · rw [if_neg c]
    exact ⟨h1, fun s => ⟨(h2 s).1, (h2 s).2.1, hF⟩, h3⟩

/-- C29: in a run with a hashfile sink without faults, whenever a sparse run is still
open behind the main loop of `build_chunk_hashs` (`sparse_extent_start != -1`),
`ret_sha2` is set, the window buffer has `sha_buf_size` = 32768 bytes (it is not
empty), and the size of the file is a multiple of it: `fsize % sha_buf.size()` is 0
and the modulo is not taken by zero.  The open run starts at a multiple of
`sha_buf_size`, and the extent context, after the last run was added to it, is made
of sparse runs whose offsets and lengths are multiples of `sha_buf_size`. -/
theorem C29_open_run_aligned (H : HashFns) (g0 : Globals) (fuel : Nat) (a : Args)
    (st0 st1 : State) (hid : a.hashoutput.ideal)
    (hp : prologue a = some (Step.next st0))
    (hm : main_loop H (init_chunk_hasher H g0) fuel st0 = some (Step.next st1)) :
    (st1.sparse_extent_start ≠ -1 →
        st1.ret_sha2 = true ∧ st1.sha_buf.length = sha_buf_size ∧ 0 < st1.sha_buf.length
          ∧ st1.fsize = a.f.data.length ∧ st1.fsize % st1.sha_buf.length = 0
          ∧ ∃ k : Nat, st1.sparse_extent_start = ((k * sha_buf_size : Nat) : Int))
      ∧ ∃ rs : List (Int × Int), (close_last_run st1).extent_ctx = extents_ctx rs
          ∧ ∀ r ∈ rs, ((sha_buf_size : Nat) : Int) ∣ r.1 ∧ ((sha_buf_size : Nat) : Int) ∣ r.2 := by
  have hL := sha_buf_size_eq
  obtain ⟨hP, hge, hfs⟩ := main_loop_digest_fields H _ fuel a st0 st1 (template_fits H g0) hid
    (AlignInv a.f.data) (AlignInv_step a.f.data)
    (fun v p hP hle hd _ => AlignInv_sparse a.f.data v p hP hle hd)
    (AlignInv_start a.f.data a.ret_sha2) hp hm
  obtain ⟨h1, h2, h3⟩ := hP
  have hopen : st1.sparse_extent_start ≠ -1 →
      st1.ret_sha2 = true ∧ st1.sha_buf.length = sha_buf_size
        ∧ sha_buf_size ∣ a.f.data.length
        ∧ ∃ k : Nat, st1.sparse_extent_start = ((k * sha_buf_size : Nat) : Int) := by
    intro s
    obtain ⟨a1, a2, a3⟩ := h2 s
    exact ⟨a1, h1 a1, a3 hge, a2⟩
  constructor
  · intro s
    obtain ⟨a1, a2, a3, a4⟩ := hopen s
    refine ⟨a1, a2, by rw [a2, hL]; decide, hfs, ?_, a4⟩
    rw [hfs, a2]
    exact Nat.mod_eq_zero_of_dvd a3
  · have hc : (close_last_run st1).extent_ctx = (st1.sview.close_last st1.fsize).extent_ctx :=
      congrArg SView.extent_ctx (close_last_run_sview st1)
    rw [hc]
    unfold SView.close_last
    obtain ⟨rs, hrs1, hrs2⟩ := h3
    by_cases s : st1.sview.sparse_extent_start ≠ -1
    · rw [if_pos s]
      obtain ⟨_, _, a3, k, a4⟩ := hopen s
      obtain ⟨m, hm⟩ := a3
      refine ⟨rs ++ [(st1.sparse_extent_start, (st1.fsize : Int) - st1.sparse_extent_start)],
        ?_, ?_⟩
      · rw [extents_ctx_snoc, ← hrs1]
        rfl
      · intro r hr
        rw [List.mem_append, List.mem_singleton] at hr
        rcases hr with hr | hr
        · exact hrs2 r hr
        · rw [hr]
          show ((sha_buf_size : Nat) : Int) ∣ st1.sparse_extent_start
            ∧ ((sha_buf_size : Nat) : Int) ∣ (st1.fsize : Int) - st1.sparse_extent_start
          rw [a4, hfs, hm]
          constructor
          · exact ⟨(k : Int), by push_cast; ring⟩
          · exact ⟨(m : Int) - (k : Int), by push_cast; ring⟩
    · rw [if_neg s]
      exact ⟨rs, hrs1, hrs2⟩

/-- Witness of C29: the file of `sha_buf_size` zero bytes, with `ret_sha2`.  The run
comes to the end of the main loop, and the extent context is made of aligned
runs. -/
theorem C29_open_run_aligned_witness :
    ∃ st0 st1 : State,
      prologue (plain_args (List.replicate (1 * sha_buf_size) 0) true) = some (Step.next st0)
        ∧ main_loop demo_digests (init_chunk_hasher demo_digests ⟨[]⟩) 70000 st0
            = some (Step.next st1)
        ∧ (st1.sparse_extent_start ≠ -1 → st1.fsize % st1.sha_buf.length = 0)
        ∧ ∃ rs : List (Int × Int), (close_last_run st1).extent_ctx = extents_ctx rs
            ∧ ∀ r ∈ rs, ((sha_buf_size : Nat) : Int) ∣ r.1
                ∧ ((sha_buf_size : Nat) : Int) ∣ r.2 := by
  have hl : (plain_args (List.replicate (1 * sha_buf_size) 0) true).f.data.length
      = 1 * sha_buf_size := List.length_replicate _ _
  obtain ⟨ret, st, hrun, hret⟩ := build_chunk_hashs_terminates demo_digests
    (init_chunk_hasher demo_digests ⟨[]⟩) 70000
    (plain_args (List.replicate (1 * sha_buf_size) 0) true)
    (template_fits demo_digests ⟨[]⟩) (plain_args_fault_free _ _)
    (by rw [hl, n_chunks_eq, sha_buf_size_eq]; omega)
  obtain ⟨st0, st1, _, hp, hm, _, _⟩ := build_chunk_hashs_next demo_digests _ 70000 _ ret st
    hrun hret
  have T := C29_open_run_aligned demo_digests ⟨[]⟩ 70000
    (plain_args (List.replicate (1 * sha_buf_size) 0) true) st0 st1 (fun _ _ => rfl) hp hm
  exact ⟨st0, st1, hp, hm, fun s => (T.1 s).2.2.2.2.1, T.2⟩

/-! ## Runs with and without the known-sparse fast path -/

theorem SView_eq_of_fields (v w : SView) (h : SameFields v w) (hb : v.sha_buf = w.sha_buf) :
    v = w := by
  obtain ⟨h1, h2, h3, h4, h5, _⟩ := h
  cases v
  cases w
  simp only at h1 h2 h3 h4 h5 hb
  subst h1 h2 h3 h4 h5 hb
  rfl

theorem SameFields_refl (v : SView) : SameFields v v := ⟨rfl, rfl, rfl, rfl, rfl, rfl⟩

theorem close_last_same (v w : SView) (n : Nat) (h : SameFields v w) :
    SameFields (v.close_last n) (w.close_last n) := by
  obtain ⟨h1, h2, h3, h4, h5, h6⟩ := h
  unfold SView.close_last
  by_cases s : v.sparse_extent_start ≠ -1
  · rw [if_pos s, if_pos (by rw [← h4]; exact s)]
    refine ⟨h1, h2, ?_, rfl, rfl, h6⟩
    show add_extent v.extent_ctx v.sparse_extent_start _
      = add_extent w.extent_ctx w.sparse_extent_start _
    rw [h3, h4]
  · rw [if_neg s, if_neg (by rw [← h4]; exact s)]
    exact ⟨h1, h2, h3, h4, h5, h6⟩

/-- The string returned only depends on the fields that `SameFields` compares. -/
theorem digest_same (H : HashFns) (v w : SView) (n : Nat) (h : SameFields v w) :
    (v.close_last n).digest H = (w.close_last n).digest H := by
  obtain ⟨h1, h2, h3, _, h5, _⟩ := close_last_same v w n h
  unfold SView.digest
  rw [h1, h2, h3, h5]

/-- The block that closes a sparse run and the update of `ctx` behind it keep
`SameFields`, when the bytes that are fed agree. -/
theorem close_feed_same (v w : SView) (p m : Nat) (h : SameFields v w)
    (hb : v.sha_buf.take m = w.sha_buf.take m) :
    SameFields ((v.close_run p).feed m) ((w.close_run p).feed m) := by
  obtain ⟨h1, h2, h3, h4, h5, h6⟩ := h
  unfold SView.close_run SView.feed
  by_cases s : v.sparse_extent_start ≠ -1
  · rw [if_pos s, if_pos (by rw [← h4]; exact s)]
    refine ⟨h1, ?_, ?_, rfl, rfl, h6⟩
    · show v.ctx ++ v.sha_buf.take m = w.ctx ++ w.sha_buf.take m
      rw [h2, hb]
    · show add_extent v.extent_ctx v.sparse_extent_start _
        = add_extent w.extent_ctx w.sparse_extent_start _
      rw [h3, h4, h6]
  · rw [if_neg s, if_neg (by rw [← h4]; exact s)]
    refine ⟨h1, ?_, h3, h4, h5, h6⟩
    show v.ctx ++ v.sha_buf.take m = w.ctx ++ w.sha_buf.take m
    rw [h2, hb]

theorem window_full_arith (p r : Nat) (k0 : Nat) (hp : p = 512 * k0) (hr : r ≤ 512)
    (hr0 : 0 < r) (c1 : (p + r) % 32768 = 0) : p % 32768 + r = 32768 := by
  omega

theorem window_next_arith (p n : Nat) (k0 : Nat) (hp : p = 512 * k0) (hlt : p + 512 < n)
    (c1 : ¬ (p + min 512 (n - p)) % 32768 = 0) :
    (p + 512) % 32768 = p % 32768 + min 512 (n - p) := by
  omega

/-- One small chunk keeps the agreement of the digest fields of two scans: the bytes
of the window buffer that are looked at were copied to it in the current window. -/
theorem window_same (v w : SView) (p n : Nat) (buf : List Byte) (hs : SameFields v w)
    (hlen : v.ret_sha2 = true → v.sha_buf.length = sha_buf_size)
    (htk : v.ret_sha2 = true →
      v.sha_buf.take (p % sha_buf_size) = w.sha_buf.take (p % sha_buf_size))
    (hd : c_small_hash_dist ∣ p) (hb : buf.length = min 512 (n - p)) (hlt : p < n) :
    SameFields (v.window p n buf) (w.window p n buf)
      ∧ ((v.window p n buf).ret_sha2 = true → (v.window p n buf).sha_buf.length = sha_buf_size)
      ∧ ((v.window p n buf).ret_sha2 = true → p + c_small_hash_dist < n →
          (v.window p n buf).sha_buf.take ((p + c_small_hash_dist) % sha_buf_size)
            = (w.window p n buf).sha_buf.take ((p + c_small_hash_dist) % sha_buf_size)) := by
  have hS := c_small_hash_dist_eq
  have hL := sha_buf_size_eq
  obtain ⟨k0, hk0⟩ := hd
  rw [hS] at hk0
  have hs' := hs
  obtain ⟨h1, h2, h3, h4, h5, h6⟩ := hs
  by_cases hret : v.ret_sha2 = true
  swap
  · have hv : v.window p n buf = v := by
      unfold SView.window
      rw [if_neg hret]
    have hw : w.window p n buf = w := by
      unfold SView.window
      rw [if_neg (by rw [← h1]; exact hret)]
    rw [hv, hw]
    exact ⟨hs', hlen, fun h => absurd h hret⟩
  have hretw : w.ret_sha2 = true := by rw [← h1]; exact hret
  have hlv := hlen hret
  have hlw : w.sha_buf.length = sha_buf_size := by rw [← h6]; exact hlv
  have hfit : p % sha_buf_size + buf.length ≤ sha_buf_size := by
    rw [hb, hL]; exact window_fit_arith n p k0 hk0
  have hBv : (memcpy_at v.sha_buf (p % sha_buf_size) buf).length = sha_buf_size := by
    rw [memcpy_length _ _ _ (by rw [hlv]; exact hfit), hlv]
  have hBw : (memcpy_at w.sha_buf (p % sha_buf_size) buf).length = sha_buf_size := by
    rw [memcpy_length _ _ _ (by rw [hlw]; exact hfit), hlw]
  have htake : (memcpy_at v.sha_buf (p % sha_buf_size) buf).take (p % sha_buf_size + buf.length)
      = (memcpy_at w.sha_buf (p % sha_buf_size) buf).take (p % sha_buf_size + buf.length) := by
    rw [memcpy_take _ _ _ (by rw [hlv]; omega), memcpy_take _ _ _ (by rw [hlw]; omega), htk hret]
  have hfields : SameFields
      { v with sha_buf := memcpy_at v.sha_buf (p % sha_buf_size) buf }
      { w with sha_buf := memcpy_at w.sha_buf (p % sha_buf_size) buf } :=
    ⟨h1, h2, h3, h4, h5, by
      show (memcpy_at v.sha_buf (p % sha_buf_size) buf).length
        = (memcpy_at w.sha_buf (p % sha_buf_size) buf).length
      rw [hBv, hBw]⟩
  unfold SView.window
  rw [if_pos hret, if_pos hretw, hlv, hlw]
  by_cases c1 : (p + buf.length) % sha_buf_size = 0
  · rw [if_pos c1, if_pos c1]
    have hfull : p % sha_buf_size + buf.length = sha_buf_size := by
      rw [hb, hL] at c1 ⊢
      exact window_full_arith p _ k0 hk0 (by omega) (by omega) c1
    have hBeq : memcpy_at v.sha_buf (p % sha_buf_size) buf
        = memcpy_at w.sha_buf (p % sha_buf_size) buf := by
      have := htake
      rw [hfull, List.take_of_length_le (by rw [hBv]), List.take_of_length_le (by rw [hBw])]
        at this
      exact this
    have heq : ({ v with sha_buf := memcpy_at v.sha_buf (p % sha_buf_size) buf } : SView)
        = { w with sha_buf := memcpy_at w.sha_buf (p % sha_buf_size) buf } :=
      SView_eq_of_fields _ _ hfields hBeq
    rw [heq, hBeq]
    refine ⟨SameFields_refl _, ?_, fun _ _ => rfl⟩
    intro _
    by_cases z : buf_is_zero (memcpy_at w.sha_buf (p % sha_buf_size) buf) = true
    · rw [if_pos z]
      unfold SView.open_run
      split <;> exact hBw
    · rw [if_neg z]
      unfold SView.feed SView.close_run
      split <;> exact hBw
  · rw [if_neg c1, if_neg c1]
    by_cases c2 : buf.length < c_small_hash_dist ∨ p + buf.length = n
    · rw [if_pos c2, if_pos c2]
      refine ⟨close_feed_same _ _ p _ hfields htake, ?_, ?_⟩
      · intro _
        unfold SView.feed SView.close_run
        split <;> exact hBv
      · intro _ hlt2
        exfalso
        rw [hb, hS] at c2
        rw [hS] at hlt2
        omega
    · rw [if_neg c2, if_neg c2]
      refine ⟨hfields, fun _ => hBv, ?_⟩
      intro _ hlt2
      show (memcpy_at v.sha_buf (p % sha_buf_size) buf).take _
        = (memcpy_at w.sha_buf (p % sha_buf_size) buf).take _
      rw [hS] at hlt2
      have e : (p + c_small_hash_dist) % sha_buf_size = p % sha_buf_size + buf.length := by
        rw [hb, hL] at c1
        rw [hS, hL, hb]
        exact window_next_arith p n k0 hk0 hlt2 c1
      rw [e]
      exact htake

/-! ## A big chunk of zero bytes on the normal path -/

theorem zero_off_arith (m k : Nat) : (32768 * m + k * 512) % 32768 = (k * 512) % 32768 := by
  omega

theorem zero_fit_arith (k : Nat) : (k * 512) % 32768 + 512 ≤ 32768 := by
  omega

theorem zero_first_arith (m k : Nat) (h : k * 512 < 32768) :
    (32768 * m + k * 512) / 32768 * 32768 = 32768 * m := by
  omega

theorem zero_full_arith (k : Nat) (c1 : (k * 512 + 512) % 32768 = 0) :
    (k * 512) % 32768 + 512 = 32768 ∧ ((k + 1) * 512) % 32768 = 0
      ∧ 32768 ≤ (k + 1) * 512 := by
  omega

theorem zero_part_arith (k : Nat) (c1 : ¬ (k * 512 + 512) % 32768 = 0) :
    ((k + 1) * 512) % 32768 = (k * 512) % 32768 + 512
      ∧ (32768 ≤ (k + 1) * 512 ↔ 32768 ≤ k * 512) ∧ k ≠ 1023 := by
  omega

/-- One small chunk of zero bytes in a big chunk of zero bytes keeps `ZeroRun`. -/
theorem ZeroRun_step (w0 : SView) (p : Nat) (u : SView) (k n : Nat)
    (hLp : sha_buf_size ∣ p) (hk : k < 1024) (hn : p + c_checkpoint_dist ≤ n)
    (hw0 : w0.ret_sha2 = true → w0.sha_buf.length = sha_buf_size)
    (hZ : ZeroRun w0 p u k) :
    ZeroRun w0 p
      (u.window (p + k * c_small_hash_dist) n (List.replicate c_small_hash_dist 0)) (k + 1) := by
  have hS := c_small_hash_dist_eq
  have hL := sha_buf_size_eq
  have hB := c_checkpoint_dist_eq
  obtain ⟨z1, z2, z3, z4, z5, z6, z7⟩ := hZ
  obtain ⟨m, hm⟩ := hLp
  rw [hL] at hm
  by_cases hret : u.ret_sha2 = true
  swap
  · have hu : u.window (p + k * c_small_hash_dist) n (List.replicate c_small_hash_dist 0) = u := by
      unfold SView.window
      rw [if_neg hret]
    rw [hu]
    have hw : ¬ w0.ret_sha2 = true := by rw [← z1]; exact hret
    refine ⟨z1, z2, z3, z4, z5, ?_, fun h => absurd h hret⟩
    rw [z6, if_neg (fun h => hw h.1), if_neg (fun h => hw h.1)]
  have hretw : w0.ret_sha2 = true := by rw [← z1]; exact hret
  have hlu : u.sha_buf.length = sha_buf_size := by rw [z5]; exact hw0 hretw
  have hoff : (p + k * c_small_hash_dist) % sha_buf_size
      = (k * c_small_hash_dist) % sha_buf_size := by
    rw [hm, hS, hL]; exact zero_off_arith m k
  have hfit : (k * c_small_hash_dist) % sha_buf_size + c_small_hash_dist ≤ sha_buf_size := by
    rw [hS, hL]; exact zero_fit_arith k
  have hBlen : (memcpy_at u.sha_buf ((k * c_small_hash_dist) % sha_buf_size)
      (List.replicate c_small_hash_dist 0)).length = sha_buf_size := by
    rw [memcpy_length _ _ _ (by rw [List.length_replicate, hlu]; exact hfit), hlu]
  have hBtake : (memcpy_at u.sha_buf ((k * c_small_hash_dist) % sha_buf_size)
        (List.replicate c_small_hash_dist 0)).take
          ((k * c_small_hash_dist) % sha_buf_size + c_small_hash_dist)
      = List.replicate ((k * c_small_hash_dist) % sha_buf_size + c_small_hash_dist) 0 := by
    have := memcpy_take u.sha_buf ((k * c_small_hash_dist) % sha_buf_size)
      (List.replicate c_small_hash_dist 0) (by rw [hlu]; omega)
    rw [List.length_replicate] at this
    rw [this, z7 hret, List.append_replicate_replicate]
  unfold SView.window
  rw [if_pos hret, hlu, hoff, List.length_replicate]
  by_cases c1 : (p + k * c_small_hash_dist + c_small_hash_dist) % sha_buf_size = 0
  · rw [if_pos c1]
    have c1' : (k * 512 + 512) % 32768 = 0 := by
      rw [hm, hS, hL] at c1
      omega
    obtain ⟨a1, a2, a3⟩ := zero_full_arith k c1'
    have hfull : (k * c_small_hash_dist) % sha_buf_size + c_small_hash_dist = sha_buf_size := by
      rw [hS, hL]; exact a1
    have hBz : memcpy_at u.sha_buf ((k * c_small_hash_dist) % sha_buf_size)
        (List.replicate c_small_hash_dist 0) = List.replicate sha_buf_size 0 := by
      have := hBtake
      rw [hfull, List.take_of_length_le (by rw [hBlen])] at this
      exact this
    rw [hBz, buf_is_zero_replicate, if_pos rfl]
    unfold SView.open_run
    have hnext : ((k + 1) * c_small_hash_dist) % sha_buf_size = 0 := by
      rw [hS, hL]; exact a2
    have hcond : sha_buf_size ≤ (k + 1) * c_small_hash_dist := by
      rw [hS, hL]; exact a3
    by_cases s : u.sparse_extent_start = -1
    · rw [if_pos (show ({ u with sha_buf := List.replicate sha_buf_size 0 } : SView).sparse_extent_start
          = -1 from s)]
      have hw0s : w0.sparse_extent_start = -1 ∧ ¬ sha_buf_size ≤ k * c_small_hash_dist := by
        by_cases hc : w0.ret_sha2 = true ∧ w0.sparse_extent_start = -1
            ∧ sha_buf_size ≤ k * c_small_hash_dist
        · rw [z6, if_pos hc] at s
          exfalso
          omega
        · rw [z6, if_neg hc] at s
          exact ⟨s, fun h => hc ⟨hretw, s, h⟩⟩
      refine ⟨z1, z2, z3, z4, ?_, ?_, ?_⟩
      · show (List.replicate sha_buf_size (0 : Byte)).length = _
        rw [List.length_replicate, ← z5, hlu]
      · show (((p + k * c_small_hash_dist) / (List.replicate sha_buf_size (0 : Byte)).length
            * (List.replicate sha_buf_size (0 : Byte)).length : Nat) : Int) = _
        rw [if_pos ⟨hretw, hw0s.1, hcond⟩, List.length_replicate]
        have hlt : k * 512 < 32768 := by
          have := hw0s.2
          rw [hS, hL] at this
          omega
        have : (p + k * c_small_hash_dist) / sha_buf_size * sha_buf_size = p := by
          rw [hm, hS, hL]; exact zero_first_arith m k hlt
        rw [this]
      · intro _
        rw [hnext]
        rfl
    · rw [if_neg (show ¬ ({ u with sha_buf := List.replicate sha_buf_size 0 } : SView).sparse_extent_start
          = -1 from s)]
      refine ⟨z1, z2, z3, z4, ?_, ?_, ?_⟩
      · show (List.replicate sha_buf_size (0 : Byte)).length = _
        rw [List.length_replicate, ← z5, hlu]
      · show u.sparse_extent_start = _
        by_cases hws : w0.sparse_extent_start = -1
        · have hck : sha_buf_size ≤ k * c_small_hash_dist := by
            by_contra hc
            rw [z6, if_neg (fun h => hc h.2.2)] at s
            exact s hws
          rw [z6, if_pos ⟨hretw, hws, hck⟩, if_pos ⟨hretw, hws, hcond⟩]
        · rw [z6, if_neg (fun h => hws h.2.1), if_neg (fun h => hws h.2.1)]
      · intro _
        rw [hnext]
        rfl
  · rw [if_neg c1]
    have c1' : ¬ (k * 512 + 512) % 32768 = 0 := by
      rw [hm, hS, hL] at c1
      omega
    obtain ⟨a1, a2, a3⟩ := zero_part_arith k c1'
    have c2 : ¬ (c_small_hash_dist < c_small_hash_dist
        ∨ p + k * c_small_hash_dist + c_small_hash_dist = n) := by
      rw [hS]
      rw [hB] at hn
      rintro (h | h)
      · omega
      · omega
    rw [if_neg c2]
    have hnext : ((k + 1) * c_small_hash_dist) % sha_buf_size
        = (k * c_small_hash_dist) % sha_buf_size + c_small_hash_dist := by
      rw [hS, hL]; exact a1
    refine ⟨z1, z2, z3, z4, ?_, ?_, ?_⟩
    · show (memcpy_at u.sha_buf _ _).length = _
      rw [hBlen, ← z5, hlu]
    · show u.sparse_extent_start = _
      rw [z6]
      by_cases hc : w0.ret_sha2 = true ∧ w0.sparse_extent_start = -1
          ∧ sha_buf_size ≤ k * c_small_hash_dist
      · rw [if_pos hc, if_pos ⟨hc.1, hc.2.1, by
          have := hc.2.2
          rw [hS, hL] at this ⊢
          exact a2.mpr this⟩]
      · rw [if_neg hc, if_neg (fun h => hc ⟨h.1, h.2.1, by
          have := h.2.2
          rw [hS, hL] at this ⊢
          exact a2.mp this⟩)]
    · intro _
      show (memcpy_at u.sha_buf _ _).take _ = _
      rw [hnext]
      exact hBtake

/-- The scan on the normal path of a big chunk of zero bytes of `F`, from its start
at `p`. -/
theorem scan_zero_chunk (F : List Byte) (r : Bool) (i p : Nat)
    (hp : p = i * c_small_hash_dist) (hLp : sha_buf_size ∣ p)
    (hn : p + c_checkpoint_dist ≤ F.length)
    (hz : slice F p c_checkpoint_dist = List.replicate c_checkpoint_dist 0)
    (hw0 : (scan F r i).ret_sha2 = true → (scan F r i).sha_buf.length = sha_buf_size) :
    ∀ k, k ≤ 1024 → ZeroRun (scan F r i) p (scan F r (i + k)) k := by
  have hS := c_small_hash_dist_eq
  have hL := sha_buf_size_eq
  have hB := c_checkpoint_dist_eq
  intro k
  induction k with
  | zero =>
    intro _
    refine ⟨rfl, rfl, rfl, rfl, rfl, ?_, ?_⟩
    · rw [if_neg]
      · rfl
      · intro h
        have := h.2.2
        rw [hL] at this
        omega
    · intro _
      rw [Nat.zero_mul, Nat.zero_mod]
      rfl
  | succ k ih =>
    intro hk
    have hZ := ih (by omega)
    have e1 : scan F r (i + (k + 1))
        = (scan F r (i + k)).window ((i + k) * c_small_hash_dist) F.length
            (slice F ((i + k) * c_small_hash_dist) c_small_hash_dist) := rfl
    have e2 : (i + k) * c_small_hash_dist = p + k * c_small_hash_dist := by
      rw [hp, Nat.add_mul]
    have e3 : slice F (p + k * c_small_hash_dist) c_small_hash_dist
        = List.replicate c_small_hash_dist 0 := by
      rw [← slice_slice F p c_checkpoint_dist (k * c_small_hash_dist) c_small_hash_dist
        (by rw [hS, hB]; omega), hz]
      exact slice_replicate _ _ _ (by rw [hS, hB]; omega)
    rw [e1, e2, e3]
    exact ZeroRun_step _ p _ k F.length hLp (by omega) hn hw0 hZ

/-! ## The digest of a run is that of the scan on the normal path -/

theorem ScanInv_start (F : List Byte) (r : Bool) : ScanInv F r (SView.start r) 0 := by
  refine ⟨0, by rw [Nat.zero_mul], ?_, SameFields_refl _, ?_, fun _ _ => rfl⟩
  · rw [c_small_hash_dist_eq]; omega
  · intro hr
    show (if r = true then List.replicate sha_buf_size (0 : Byte) else []).length = sha_buf_size
    have hr' : r = true := hr
    rw [if_pos hr', List.length_replicate]

/-- One small chunk keeps `ScanInv`. -/
theorem ScanInv_step (F : List Byte) (r : Bool) (v : SView) (p : Nat) (hP : ScanInv F r v p)
    (hlt : p < F.length) (hd : c_small_hash_dist ∣ p) :
    ScanInv F r (v.window p F.length (slice F p c_small_hash_dist)) (p + c_small_hash_dist) := by
  have hS := c_small_hash_dist_eq
  obtain ⟨i, hp, _, hs, hl, ht⟩ := hP
  have W := window_same v (scan F r i) p F.length (slice F p c_small_hash_dist) hs hl
    (fun h => ht h hlt) hd (by rw [slice_length, hS]) hlt
  refine ⟨i + 1, by rw [hp, Nat.add_mul, Nat.one_mul], by omega, ?_⟩
  have e : scan F r (i + 1)
      = (scan F r i).window p F.length (slice F p c_small_hash_dist) := by
    rw [hp]
    rfl
  rw [e]
  exact ⟨W.1, W.2.1, fun h1 h2 => W.2.2 h1 h2⟩

theorem chunk_arith (p j i : Nat) (hj : p = 524288 * j) (hi : p = i * 512) :
    p + 524288 = (i + 1024) * 512 ∧ (p + 524288) % 32768 = 0 ∧ p = 32768 * (16 * j)
      ∧ 32768 ≤ 1024 * 512 := by
  omega

/-- The known-sparse fast path over a big chunk of zero bytes keeps `ScanInv`. -/
theorem ScanInv_sparse (F : List Byte) (r : Bool) (v : SView) (p : Nat) (hP : ScanInv F r v p)
    (hle : p + c_checkpoint_dist ≤ F.length) (hd : c_checkpoint_dist ∣ p)
    (hz : slice F p c_checkpoint_dist = List.replicate c_checkpoint_dist 0) :
    ScanInv F r (v.known_sparse p) (p + c_checkpoint_dist) := by
  have hS := c_small_hash_dist_eq
  have hL := sha_buf_size_eq
  have hB := c_checkpoint_dist_eq
  obtain ⟨i, hp, _, hs, hl, _⟩ := hP
  obtain ⟨h1, h2, h3, h4, h5, h6⟩ := hs
  obtain ⟨j, hj⟩ := hd
  rw [hB] at hj
  have hp' : p = i * 512 := by rw [hp, hS]
  obtain ⟨a1, a2, a3, a4⟩ := chunk_arith p j i hj hp'
  have hw0 : (scan F r i).ret_sha2 = true → (scan F r i).sha_buf.length = sha_buf_size := by
    intro h
    rw [← h6]
    exact hl (by rw [h1]; exact h)
  obtain ⟨z1, z2, z3, z4, z5, z6, _⟩ := scan_zero_chunk F r i p hp ⟨16 * j, by rw [hL]; exact a3⟩
    hle hz hw0 1024 (le_refl _)
  have hc1024 : sha_buf_size ≤ 1024 * c_small_hash_dist := by rw [hS, hL]; exact a4
  refine ⟨i + 1024, by rw [hS, hB]; exact a1, by omega, ?_, ?_, ?_⟩
  · unfold SView.known_sparse
    by_cases c : v.ret_sha2 = true ∧ v.sparse_extent_start = -1
    · rw [if_pos c]
      refine ⟨h1.trans z1.symm, h2.trans z2.symm, h3.trans z3.symm, ?_, h5.trans z4.symm,
        h6.trans z5.symm⟩
      show (p : Int) = _
      rw [z6, if_pos ⟨by rw [← h1]; exact c.1, by rw [← h4]; exact c.2, hc1024⟩]
    · rw [if_neg c]
      refine ⟨h1.trans z1.symm, h2.trans z2.symm, h3.trans z3.symm, ?_, h5.trans z4.symm,
        h6.trans z5.symm⟩
      rw [z6, if_neg (fun h => c ⟨by rw [h1]; exact h.1, by rw [h4]; exact h.2.1⟩)]
      exact h4
  · intro hr
    have e : (v.known_sparse p).sha_buf = v.sha_buf := by
      unfold SView.known_sparse
      split <;> rfl
    have e2 : (v.known_sparse p).ret_sha2 = v.ret_sha2 := by
      unfold SView.known_sparse
      split <;> rfl
    rw [e]
    exact hl (by rw [← e2]; exact hr)
  · intro _ _
    have e : (p + c_checkpoint_dist) % sha_buf_size = 0 := by rw [hB, hL]; exact a2
    rw [e, List.take_zero, List.take_zero]

theorem last_index_arith (n i : Nat) (h1 : n ≤ i * 512) (h2 : i * 512 < n + 512) :
    i = (n + 511) / 512 := by
  omega

/-- The string returned by a run without I/O error, with an extent iterator that only
reports ranges that are really all zero: it is the digest of the scan of the file on
the normal path. -/
theorem digest_by_scan (H : HashFns) (g0 : Globals) (fuel : Nat) (a : Args)
    (ret : List Byte) (st : State) (hid : a.hashoutput.ideal)
    (ht : truthful (a.extent_iterator.getD []) a.f.data)
    (hrun : build_chunk_hashs H (init_chunk_hasher H g0) fuel a = some (ret, st))
    (hret : ret ≠ []) :
    ret = ((scan a.f.data a.ret_sha2 ((a.f.data.length + 511) / 512)).close_last
            a.f.data.length).digest H := by
  have hS := c_small_hash_dist_eq
  obtain ⟨st0, st1, st2, hp, hm, hr, hf⟩ := build_chunk_hashs_next H _ fuel a ret st hrun hret
  obtain ⟨hP, hge, hfs⟩ := main_loop_digest_fields H _ fuel a st0 st1 (template_fits H g0) hid
    (ScanInv a.f.data a.ret_sha2) (ScanInv_step a.f.data a.ret_sha2)
    (by
      intro v p hP hle hd hex
      obtain ⟨e, he, he1, he2⟩ := hex
      apply ScanInv_sparse a.f.data a.ret_sha2 v p hP hle hd
      exact slice_zero_of_truthful _ _ ht e he p c_checkpoint_dist he1 he2 hle)
    (ScanInv_start a.f.data a.ret_sha2) hp hm
  obtain ⟨i, hpi, hlt, hs, _, _⟩ := hP
  rw [hS] at hpi hlt
  have hi : i = (a.f.data.length + 511) / 512 :=
    last_index_arith _ i (by rw [← hpi]; exact hge) (by rw [← hpi]; exact hlt)
  have e1 : ret = (final_digest H st2).1 := by rw [hf]
  rw [e1, final_digest_sview, restore_copy_size_sview _ _ hr, close_last_run_sview, hfs, ← hi]
  exact digest_same H _ _ _ hs

theorem truthful_nil (F : List Byte) : truthful [] F := by
  intro e he
  exact absurd he (List.not_mem_nil e)

/-- C28: for every file and every extent list that only reports ranges of the file
that are really all zero, a run of `build_chunk_hashs` with the extent iterator and a
run on the same arguments without an extent iterator, both without I/O error, leave
the same bytes in the hashfile and return the same string (with `ret_sha2` the
digest).  With sinks without faults both runs return for every fuel above
`fsize + N + 1`. -/
theorem C28_extents_refine (H : HashFns) (g0 : Globals) (fuel1 fuel2 : Nat) (a : Args)
    (hid : a.hashoutput.ideal)
    (ht : truthful (a.extent_iterator.getD []) a.f.data) :
    (a.fault_free → a.f.data.length + n_chunks + 1 < fuel1 →
        a.f.data.length + n_chunks + 1 < fuel2 →
        ∃ ret1 st1 ret2 st2,
          build_chunk_hashs H (init_chunk_hasher H g0) fuel1 a = some (ret1, st1) ∧ ret1 ≠ []
            ∧ build_chunk_hashs H (init_chunk_hasher H g0) fuel2
                { a with extent_iterator := none } = some (ret2, st2)
            ∧ ret2 ≠ [])
      ∧ ∀ (ret1 ret2 : List Byte) (st1 st2 : State),
          build_chunk_hashs H (init_chunk_hasher H g0) fuel1 a = some (ret1, st1) → ret1 ≠ [] →
          build_chunk_hashs H (init_chunk_hasher H g0) fuel2
              { a with extent_iterator := none } = some (ret2, st2) → ret2 ≠ [] →
          st1.hashoutput.data = st2.hashoutput.data ∧ ret1 = ret2 := by
  constructor
  · intro hff hf1 hf2
    obtain ⟨ret1, st1, h1, h1'⟩ := build_chunk_hashs_terminates H _ fuel1 a
      (template_fits H g0) hff hf1
    obtain ⟨ret2, st2, h2, h2'⟩ := build_chunk_hashs_terminates H _ fuel2
      { a with extent_iterator := none } (template_fits H g0)
      ⟨hff.ho_ideal, hff.copy_ok, hff.hashinput_ok⟩ hf2
    exact ⟨ret1, st1, ret2, st2, h1, h1', h2, h2'⟩
  · intro ret1 ret2 st1 st2 h1 h1' h2 h2'
    constructor
    · obtain ⟨E1, hR1, hd1, _⟩ := build_chunk_hashs_hashfile H _ fuel1 a ret1 st1
        (template_fits H g0) hid h1 h1'
      obtain ⟨E2, hR2, hd2, _⟩ := build_chunk_hashs_hashfile H _ fuel2
        { a with extent_iterator := none } ret2 st2 (template_fits H g0) hid h2 h2'
      have hT := get_sparse_extent_content_init H g0
      rw [hT] at hR1 hR2
      have e1 := Recs_truthful H _ _ ht _ _ hR1
      have e2 := Recs_truthful H _ _ (truthful_nil a.f.data) _ _ hR2
      rw [hd1, hd2, e1, e2]
    · rw [digest_by_scan H g0 fuel1 a ret1 st1 hid ht h1 h1',
        digest_by_scan H g0 fuel2 { a with extent_iterator := none } ret2 st2 hid
          (truthful_nil a.f.data) h2 h2']

theorem sparse_digest_args_truthful :
    truthful (sparse_digest_args.extent_iterator.getD []) sparse_digest_args.f.data := by
  intro e he k h1 h2 _
  have he' : e = first_chunk_extent := by
    have : e ∈ [first_chunk_extent] := he
    rw [List.mem_singleton] at this
    exact this
  rw [he'] at h2
  have hk : k < c_checkpoint_dist := by
    rw [c_checkpoint_dist_eq]
    have : ((k : Nat) : Int) < 0 + 524288 := h2
    omega
  show (List.replicate c_checkpoint_dist (0 : Byte) ++ [65]).getD k 0 = 0
  rw [List.getD_append _ _ _ _ (by rw [List.length_replicate]; exact hk),
    List.getD_eq_getElem _ _ (by rw [List.length_replicate]; exact hk), List.getElem_replicate]

/-- Witness of C28: a big chunk of zero bytes, reported as sparse, followed by the
byte `A`, with `ret_sha2`.  The run with the extent iterator and the run without it
return, with the same hashfile and the same digest. -/
theorem C28_extents_refine_witness :
    ∃ ret1 st1 ret2 st2,
      build_chunk_hashs demo_digests (init_chunk_hasher demo_digests ⟨[]⟩) 1000000
          sparse_digest_args = some (ret1, st1)
        ∧ build_chunk_hashs demo_digests (init_chunk_hasher demo_digests ⟨[]⟩) 1000000
            { sparse_digest_args with extent_iterator := none } = some (ret2, st2)
        ∧ st1.hashoutput.data = st2.hashoutput.data ∧ ret1 = ret2 := by
  have T := C28_extents_refine demo_digests ⟨[]⟩ 1000000 1000000 sparse_digest_args
    (fun _ _ => rfl) sparse_digest_args_truthful
  have hlen : sparse_digest_args.f.data.length = 524289 := by
    show (List.replicate c_checkpoint_dist (0 : Byte) ++ [65]).length = 524289
    rw [List.length_append, List.length_replicate, c_checkpoint_dist_eq]
    rfl
  have hfuel : sparse_digest_args.f.data.length + n_chunks + 1 < 1000000 := by
    rw [hlen, n_chunks_eq]
    decide
  obtain ⟨ret1, st1, ret2, st2, h1, h1', h2, h2'⟩ := T.1
    ⟨fun _ _ => rfl, fun _ hc => Option.noConfusion hc, fun _ hh => Option.noConfusion hh⟩
    hfuel hfuel
  obtain ⟨e1, e2⟩ := T.2 ret1 ret2 st1 st2 h1 h1' h2 h2'
  exact ⟨ret1, st1, ret2, st2, h1, h2, e1, e2⟩

/-! ## The digest fields of a scan, from the layout of the file -/

theorem open_start_some_ne (s : Nat) : open_start (some s) ≠ -1 := by
  intro h
  have h1 : (0 : Int) ≤ ((s * sha_buf_size : Nat) : Int) := Int.ofNat_nonneg _
  have h2 : open_start (some s) = ((s * sha_buf_size : Nat) : Int) := rfl
  rw [h2] at h
  omega

theorem close_run_layout (w : SView) (p : Nat) (rs : List (Int × Int)) (o : Option Nat)
    (hbl : w.sha_buf.length = sha_buf_size)
    (hext : w.extent_ctx = extents_ctx rs) (hst : w.sparse_extent_start = open_start o)
    (hhs : w.has_sparse_extent = !rs.isEmpty) :
    (w.close_run p).ret_sha2 = w.ret_sha2 ∧ (w.close_run p).ctx = w.ctx
      ∧ (w.close_run p).sha_buf = w.sha_buf
      ∧ (w.close_run p).extent_ctx
          = extents_ctx (close_runs rs o ((p / sha_buf_size * sha_buf_size : Nat) : Int))
      ∧ (w.close_run p).sparse_extent_start = -1
      ∧ (w.close_run p).has_sparse_extent
          = !(close_runs rs o ((p / sha_buf_size * sha_buf_size : Nat) : Int)).isEmpty := by
  cases o with
  | none =>
    rw [close_run_closed w p hst]
    exact ⟨rfl, rfl, rfl, hext, hst, hhs⟩
  | some s =>
    have hne : w.sparse_extent_start ≠ -1 := by rw [hst]; exact open_start_some_ne s
    unfold SView.close_run
    rw [if_pos hne]
    refine ⟨rfl, rfl, rfl, ?_, rfl, ?_⟩
    · show add_extent w.extent_ctx w.sparse_extent_start _ = _
      unfold close_runs
      rw [extents_ctx_snoc, hext, hst, hbl]
      rfl
    · show true = _
      unfold close_runs
      simp

theorem open_run_layout (w : SView) (p : Nat) (o : Option Nat)
    (hbl : w.sha_buf.length = sha_buf_size) (hst : w.sparse_extent_start = open_start o) :
    (w.open_run p).ret_sha2 = w.ret_sha2 ∧ (w.open_run p).ctx = w.ctx
      ∧ (w.open_run p).sha_buf = w.sha_buf
      ∧ (w.open_run p).extent_ctx = w.extent_ctx
      ∧ (w.open_run p).sparse_extent_start = open_start (some (o.getD (p / sha_buf_size)))
      ∧ (w.open_run p).has_sparse_extent = w.has_sparse_extent := by
  cases o with
  | none =>
    have he : w.sparse_extent_start = -1 := hst
    unfold SView.open_run
    rw [if_pos he]
    refine ⟨rfl, rfl, rfl, rfl, ?_, rfl⟩
    show ((p / w.sha_buf.length * w.sha_buf.length : Nat) : Int) = _
    rw [hbl]
    rfl
  | some s =>
    have hne : ¬ w.sparse_extent_start = -1 := by rw [hst]; exact open_start_some_ne s
    unfold SView.open_run
    rw [if_neg hne]
    exact ⟨rfl, rfl, rfl, rfl, hst, rfl⟩

theorem layout_full_arith (n p q r : Nat) (hp : p = 512 * q) (hlt : p < n)
    (hr : r = min 512 (n - p)) (hA : (p + r) % 32768 = 0) :
    r = 512 ∧ p % 32768 + 512 = 32768 ∧ p + 512 ≤ n ∧ (p + 512) / 32768 = p / 32768 + 1
      ∧ (p + 512) % 32768 = 0 ∧ (p / 32768 + 1) * 32768 = p + 512
      ∧ p / 32768 * 32768 + 32768 ≤ n := by
  omega

theorem layout_last_arith (n p q r : Nat) (hp : p = 512 * q) (hlt : p < n)
    (hr : r = min 512 (n - p)) (hA : ¬ (p + r) % 32768 = 0)
    (hB : r < 512 ∨ p + r = n) :
    p + r = n ∧ n ≤ p + 512 ∧ (n + 32768 - 1) / 32768 = p / 32768 + 1
      ∧ ¬ (p / 32768 + 1) * 32768 ≤ n ∧ n - p / 32768 * 32768 = p % 32768 + r
      ∧ p % 32768 + r ≤ 32768 := by
  omega

theorem layout_mid_arith (n p q r : Nat) (hp : p = 512 * q) (hlt : p < n)
    (hr : r = min 512 (n - p)) (hA : ¬ (p + r) % 32768 = 0)
    (hB : ¬ (r < 512 ∨ p + r = n)) :
    r = 512 ∧ p + 512 < n ∧ (p + 512) / 32768 = p / 32768
      ∧ (p + 512) % 32768 = p % 32768 + 512 := by
  omega

theorem layout_windows_arith (n k : Nat) (h : n = (k + 1) * 32768) :
    (n + 32768 - 1) / 32768 = k + 1 := by
  omega

theorem windows_done_lt (F : List Byte) (p : Nat) (h : p < F.length) :
    windows_done F p = p / sha_buf_size := by
  unfold windows_done
  rw [if_neg (by omega)]

theorem runs_upto_succ (F : List Byte) (k : Nat) :
    runs_upto F (k + 1)
      = (if sparse_window F k then ((runs_upto F k).1, some ((runs_upto F k).2.getD k))
         else (close_runs (runs_upto F k).1 (runs_upto F k).2 ((k * sha_buf_size : Nat) : Int),
                none)) := rfl

theorem dense_upto_succ (F : List Byte) (k : Nat) :
    dense_upto F (k + 1)
      = dense_upto F k ++ (if sparse_window F k then [] else file_window F k) := rfl

/-- One small chunk on the normal path keeps `LayoutInv`. -/
theorem LayoutInv_step (F : List Byte) (v : SView) (p : Nat) (hP : LayoutInv F v p)
    (hlt : p < F.length) (hd : c_small_hash_dist ∣ p) :
    LayoutInv F (v.window p F.length (slice F p c_small_hash_dist)) (p + c_small_hash_dist) := by
  obtain ⟨hr, hbl, hctx, hext, hst, hhs, hbuf0⟩ := hP
  have hbuf := hbuf0 hlt
  rw [windows_done_lt F p hlt] at hctx hext hst hhs
  obtain ⟨q, hq⟩ := hd
  have hS := c_small_hash_dist_eq
  have hW := sha_buf_size_eq
  have hq2 : p = 512 * q := by rw [hq, hS]
  have hrl : (slice F p c_small_hash_dist).length = min 512 (F.length - p) := by
    rw [slice_length, hS]
  have hpw : p / sha_buf_size * sha_buf_size + p % sha_buf_size = p := Nat.div_add_mod' p _
  have hoff512 : p % sha_buf_size + 512 ≤ sha_buf_size := by rw [hW]; omega
  have hoffr : p % sha_buf_size + (slice F p c_small_hash_dist).length ≤ v.sha_buf.length := by
    rw [hrl, hbl]; omega
  have hofflt : p % sha_buf_size ≤ v.sha_buf.length := by omega
  have hBlen : (memcpy_at v.sha_buf (p % sha_buf_size) (slice F p c_small_hash_dist)).length
      = sha_buf_size := by
    rw [memcpy_length _ _ _ hoffr, hbl]
  have hBtake : (memcpy_at v.sha_buf (p % sha_buf_size) (slice F p c_small_hash_dist)).take
        (p % sha_buf_size + (slice F p c_small_hash_dist).length)
      = slice F (p / sha_buf_size * sha_buf_size) (p % sha_buf_size + c_small_hash_dist) := by
    rw [memcpy_take _ _ _ hofflt, hbuf, ← slice_append]
    rw [hpw]
  unfold SView.window
  rw [if_pos hr, hbl]
  by_cases hA : (p + (slice F p c_small_hash_dist).length) % sha_buf_size = 0
  · -- the window is complete
    rw [if_pos hA]
    obtain ⟨a1, a2, a3, a4, a5, a6, a7⟩ := layout_full_arith F.length p q _ hq2 hlt hrl
      (by rw [← hW]; exact hA)
    rw [← hW] at a2 a4 a5 a6 a7
    have hwin : memcpy_at v.sha_buf (p % sha_buf_size) (slice F p c_small_hash_dist)
        = file_window F (p / sha_buf_size) := by
      have e1 : p % sha_buf_size + (slice F p c_small_hash_dist).length = sha_buf_size := by
        rw [a1]; exact a2
      have e2 : p % sha_buf_size + c_small_hash_dist = sha_buf_size := by
        rw [hS]; exact a2
      have := hBtake
      rw [e1, e2] at this
      unfold file_window
      rw [← this, List.take_of_length_le (by rw [hBlen])]
    have hsw : sparse_window F (p / sha_buf_size)
        = buf_is_zero (file_window F (p / sha_buf_size)) := by
      unfold sparse_window
      have : (p / sha_buf_size + 1) * sha_buf_size ≤ F.length := by rw [a6]; exact a3
      simp [this]
    have hwd : windows_done F (p + c_small_hash_dist) = p / sha_buf_size + 1 := by
      unfold windows_done
      by_cases hc : F.length ≤ p + c_small_hash_dist
      · rw [if_pos hc]
        unfold n_windows
        have hn : F.length = (p / sha_buf_size + 1) * sha_buf_size := by
          rw [a6]; rw [hS] at hc; omega
        rw [hW] at hn ⊢
        exact layout_windows_arith _ _ hn
      · rw [if_neg hc, hS]; exact a4
    have hnb : ¬ p + c_small_hash_dist < F.length
        ∨ (p + c_small_hash_dist) % sha_buf_size = 0 := Or.inr (by rw [hS]; exact a5)
    unfold LayoutInv
    rw [hwd, runs_upto_succ, dense_upto_succ, hsw]
    by_cases hz : buf_is_zero (memcpy_at v.sha_buf (p % sha_buf_size)
        (slice F p c_small_hash_dist)) = true
    · rw [if_pos hz]
      rw [hwin] at hz
      rw [if_pos hz, if_pos hz]
      obtain ⟨b1, b2, b3, b4, b5, b6⟩ := open_run_layout
        { v with sha_buf := memcpy_at v.sha_buf (p % sha_buf_size) (slice F p c_small_hash_dist) }
        p (runs_upto F (p / sha_buf_size)).2 hBlen hst
      refine ⟨b1.trans hr, by rw [b3]; exact hBlen, ?_, by rw [b4]; exact hext, b5,
        by rw [b6]; exact hhs, ?_⟩
      · rw [b2, List.append_nil]; exact hctx
      · intro _
        rw [hS, a5, List.take_zero]
        rfl
    · rw [if_neg hz]
      rw [hwin] at hz
      rw [if_neg hz, if_neg hz]
      obtain ⟨b1, b2, b3, b4, b5, b6⟩ := close_run_layout
        { v with sha_buf := memcpy_at v.sha_buf (p % sha_buf_size) (slice F p c_small_hash_dist) }
        p (runs_upto F (p / sha_buf_size)).1 (runs_upto F (p / sha_buf_size)).2 hBlen hext hst hhs
      refine ⟨b1.trans hr, ?_, ?_, b4, b5, b6, ?_⟩
      · show (SView.close_run _ p).sha_buf.length = _
        rw [b3]; exact hBlen
      · show (SView.close_run _ p).ctx ++ (SView.close_run _ p).sha_buf.take sha_buf_size = _
        rw [b2, b3]
        show v.ctx ++ (memcpy_at v.sha_buf (p % sha_buf_size)
          (slice F p c_small_hash_dist)).take sha_buf_size = _
        rw [List.take_of_length_le (by rw [hBlen]), hwin, hctx]
      · intro _
        rw [hS, a5, List.take_zero]
        rfl
  · rw [if_neg hA]
    by_cases hB : (slice F p c_small_hash_dist).length < c_small_hash_dist
        ∨ p + (slice F p c_small_hash_dist).length = F.length
    · -- the last small chunk of the file
      rw [if_pos hB]
      obtain ⟨a1, a2, a3, a4, a5, a6⟩ := layout_last_arith F.length p q _ hq2 hlt hrl
        (by rw [← hW]; exact hA) (by rw [← hS]; exact hB)
      rw [← hW] at a3 a4 a5 a6
      have hwd : windows_done F (p + c_small_hash_dist) = p / sha_buf_size + 1 := by
        unfold windows_done
        rw [if_pos (by rw [hS]; exact a2)]
        exact a3
      have hsw : sparse_window F (p / sha_buf_size) = false := by
        unfold sparse_window
        simp [a4]
      have hfeed : (memcpy_at v.sha_buf (p % sha_buf_size) (slice F p c_small_hash_dist)).take
            (p % sha_buf_size + (slice F p c_small_hash_dist).length)
          = file_window F (p / sha_buf_size) := by
        rw [hBtake]
        unfold file_window
        apply slice_eq_of_le
        · rw [a5, hrl, hS]; omega
        · rw [a5]; exact a6
      obtain ⟨b1, b2, b3, b4, b5, b6⟩ := close_run_layout
        { v with sha_buf := memcpy_at v.sha_buf (p % sha_buf_size) (slice F p c_small_hash_dist) }
        p (runs_upto F (p / sha_buf_size)).1 (runs_upto F (p / sha_buf_size)).2 hBlen hext hst hhs
      unfold LayoutInv
      rw [hwd, runs_upto_succ, dense_upto_succ, hsw]
      simp only [Bool.false_eq_true, if_false]
      refine ⟨b1.trans hr, ?_, ?_, b4, b5, b6, ?_⟩
      · show (SView.close_run _ p).sha_buf.length = _
        rw [b3]; exact hBlen
      · show (SView.close_run _ p).ctx ++ (SView.close_run _ p).sha_buf.take _ = _
        rw [b2, b3]
        show v.ctx ++ (memcpy_at v.sha_buf (p % sha_buf_size)
          (slice F p c_small_hash_dist)).take _ = _
        rw [hfeed, hctx]
      · intro hcon
        rw [hS] at hcon
        omega
    · -- inside a window
      rw [if_neg hB]
      obtain ⟨a1, a2, a3, a4⟩ := layout_mid_arith F.length p q _ hq2 hlt hrl
        (by rw [← hW]; exact hA) (by rw [← hS]; exact hB)
      rw [← hW] at a3 a4
      have hwd : windows_done F (p + c_small_hash_dist) = p / sha_buf_size := by
        rw [windows_done_lt F _ (by rw [hS]; exact a2), hS]
        exact a3
      unfold LayoutInv
      rw [hwd]
      refine ⟨hr, hBlen, hctx, hext, hst, hhs, ?_⟩
      intro _
      show (memcpy_at v.sha_buf (p % sha_buf_size) (slice F p c_small_hash_dist)).take _ = _
      rw [hS, a3, a4]
      have e1 : p % sha_buf_size + (slice F p c_small_hash_dist).length
          = p % sha_buf_size + 512 := by rw [a1]
      have := hBtake
      rw [e1, hS] at this
      exact this

theorem LayoutInv_start (F : List Byte) : LayoutInv F (SView.start true) 0 := by
  have hw : windows_done F 0 = 0 := by
    unfold windows_done
    by_cases h : F.length ≤ 0
    · rw [if_pos h]
      unfold n_windows
      have : F.length = 0 := by omega
      rw [this, sha_buf_size_eq]
    · rw [if_neg h, Nat.zero_div]
  unfold LayoutInv
  rw [hw]
  refine ⟨rfl, ?_, rfl, rfl, rfl, rfl, ?_⟩
  · show (List.replicate sha_buf_size (0 : Byte)).length = sha_buf_size
    exact List.length_replicate _ _
  · intro _
    rw [Nat.zero_mod, List.take_zero]
    rfl

/-- The digest fields of the scan of `F` on the normal path, from the layout of `F`. -/
theorem scan_layout (F : List Byte) :
    ∀ i, i * c_small_hash_dist < F.length + c_small_hash_dist →
      LayoutInv F (scan F true i) (i * c_small_hash_dist)
  | 0, _ => by
    rw [Nat.zero_mul]
    exact LayoutInv_start F
  | i + 1, h => by
    have hlt : i * c_small_hash_dist < F.length := by
      rw [Nat.add_mul, Nat.one_mul] at h
      omega
    have ih := scan_layout F i (by omega)
    have key := LayoutInv_step F _ _ ih hlt (Dvd.intro_left i rfl)
    rw [Nat.add_mul, Nat.one_mul]
    exact key

theorem isEmpty_snoc (rs : List (Int × Int)) (x : Int × Int) : (rs ++ [x]).isEmpty = false := by
  cases rs <;> rfl

/-- The string that is returned for digest fields that satisfy `LayoutInv` at the end
of the file: the digest of `digest_input`. -/
theorem digest_layout (H : HashFns) (F : List Byte) (v : SView) (p : Nat)
    (hP : LayoutInv F v p) (hge : F.length ≤ p) :
    (v.close_last F.length).digest H = H.sha (digest_input H F) := by
  obtain ⟨hr, _, hctx, hext, hst, hhs, _⟩ := hP
  have hw : windows_done F p = n_windows F := if_pos hge
  rw [hw] at hctx hext hst hhs
  unfold digest_input sparse_runs dense_content
  cases ho : (runs_upto F (n_windows F)).2 with
  | none =>
    rw [ho] at hst
    have hcl : v.close_last F.length = v := by
      unfold SView.close_last
      rw [if_neg (by rw [hst]; exact fun h => h rfl)]
    rw [hcl]
    unfold SView.digest close_runs
    rw [if_pos hr, hhs, hctx, hext]
    cases (runs_upto F (n_windows F)).1.isEmpty
    · simp
    · simp
  | some s =>
    rw [ho] at hst
    have hne : v.sparse_extent_start ≠ -1 := by rw [hst]; exact open_start_some_ne s
    unfold SView.close_last
    rw [if_pos hne]
    unfold SView.digest
    simp only [hr, if_true]
    unfold close_runs
    simp only
    rw [isEmpty_snoc, extents_ctx_snoc, hctx, hext, hst]
    rfl

theorem extents_foldl (rs : List (Int × Int)) :
    ∀ c : List Byte, rs.foldl (fun c r => add_extent c r.1 r.2) c = c ++ extents_ctx rs := by
  induction rs with
  | nil => intro c; simp [extents_ctx]
  | cons r rs ih =>
    intro c
    unfold extents_ctx
    rw [List.foldl_cons, List.foldl_cons, ih, ih (add_extent [] r.1 r.2)]
    unfold add_extent
    simp [List.append_assoc]

theorem extents_ctx_cons (r : Int × Int) (rs : List (Int × Int)) :
    extents_ctx (r :: rs) = (i64_bytes r.1 ++ i64_bytes r.2) ++ extents_ctx rs := by
  have h := extents_foldl rs (add_extent [] r.1 r.2)
  unfold extents_ctx at h ⊢
  rw [List.foldl_cons, h]
  unfold add_extent
  simp

theorem i64_bytes_inj (x y : Int) (hx : 0 ≤ x) (hx2 : x < 2 ^ 64) (hy : 0 ≤ y)
    (hy2 : y < 2 ^ 64) (h : i64_bytes x = i64_bytes y) : x = y := by
  unfold i64_bytes at h
  have h2 := congrArg read_le h
  rw [read_le_le_bytes, read_le_le_bytes] at h2
  have e1 : x % 2 ^ 64 = x := Int.emod_eq_of_lt hx hx2
  have e2 : y % 2 ^ 64 = y := Int.emod_eq_of_lt hy hy2
  rw [e1, e2] at h2
  have e3 : (256 : Nat) ^ 8 = 18446744073709551616 := by decide
  rw [e3] at h2
  omega

/-- The extent context tells the lists of sparse runs apart whose offsets and lengths
are 64-bit values. -/
theorem extents_ctx_inj :
    ∀ (rs1 rs2 : List (Int × Int)),
      (∀ r ∈ rs1, 0 ≤ r.1 ∧ r.1 < 2 ^ 64 ∧ 0 ≤ r.2 ∧ r.2 < 2 ^ 64) →
      (∀ r ∈ rs2, 0 ≤ r.1 ∧ r.1 < 2 ^ 64 ∧ 0 ≤ r.2 ∧ r.2 < 2 ^ 64) →
      extents_ctx rs1 = extents_ctx rs2 → rs1 = rs2
  | [], [], _, _, _ => rfl
  | [], r :: rs, _, _, h => by
    rw [extents_ctx_cons] at h
    have e0 : (extents_ctx ([] : List (Int × Int))).length = 0 := rfl
    have := congrArg List.length h
    rw [List.length_append, List.length_append, i64_bytes_length, i64_bytes_length, e0] at this
    omega
  | r :: rs, [], _, _, h => by
    rw [extents_ctx_cons] at h
    have e0 : (extents_ctx ([] : List (Int × Int))).length = 0 := rfl
    have := congrArg List.length h
    rw [List.length_append, List.length_append, i64_bytes_length, i64_bytes_length, e0] at this
    omega
  | r1 :: t1, r2 :: t2, h1, h2, h => by
    rw [extents_ctx_cons, extents_ctx_cons] at h
    have hl : (i64_bytes r1.1 ++ i64_bytes r1.2).length
        = (i64_bytes r2.1 ++ i64_bytes r2.2).length := by
      simp [i64_bytes_length]
    obtain ⟨ha, hb⟩ := List.append_inj h hl
    obtain ⟨hc, hd⟩ := List.append_inj ha (by simp [i64_bytes_length])
    obtain ⟨p1, p2, p3, p4⟩ := h1 r1 (List.mem_cons_self _ _)
    obtain ⟨q1, q2, q3, q4⟩ := h2 r2 (List.mem_cons_self _ _)
    have e1 := i64_bytes_inj _ _ p1 p2 q1 q2 hc
    have e2 := i64_bytes_inj _ _ p3 p4 q3 q4 hd
    have et := extents_ctx_inj t1 t2 (fun r hr => h1 r (List.mem_cons_of_mem _ hr))
      (fun r hr => h2 r (List.mem_cons_of_mem _ hr)) hb
    rw [et, Prod.ext e1 e2]

theorem runs_range_arith (k s : Nat) (h : s ≤ k) :
    (0 : Int) ≤ ((s * 32768 : Nat) : Int)
      ∧ (0 : Int) ≤ ((k * 32768 : Nat) : Int) - ((s * 32768 : Nat) : Int)
      ∧ ((s * 32768 : Nat) : Int) + (((k * 32768 : Nat) : Int) - ((s * 32768 : Nat) : Int))
          = ((k * 32768 : Nat) : Int) := by
  omega

/-- The sparse runs among the first `k` windows lie in front of the end of window
`k - 1`, and so does the start of the open run. -/
theorem runs_upto_range (F : List Byte) :
    ∀ k, (∀ r ∈ (runs_upto F k).1,
            0 ≤ r.1 ∧ 0 ≤ r.2 ∧ r.1 + r.2 ≤ ((k * sha_buf_size : Nat) : Int))
          ∧ ∀ s, (runs_upto F k).2 = some s → s < k
  | 0 => by
    refine ⟨fun r hr => absurd hr (List.not_mem_nil _), fun s hs => ?_⟩
    cases hs
  | k + 1 => by
    obtain ⟨ih1, ih2⟩ := runs_upto_range F k
    have hmono : ((k * sha_buf_size : Nat) : Int) ≤ (((k + 1) * sha_buf_size : Nat) : Int) := by
      rw [sha_buf_size_eq]; omega
    rw [runs_upto_succ]
    by_cases hz : sparse_window F k = true
    · rw [if_pos hz]
      refine ⟨fun r hr => ?_, fun s hs => ?_⟩
      · obtain ⟨a, b, c⟩ := ih1 r hr
        exact ⟨a, b, le_trans c hmono⟩
      · simp only [Option.some.injEq] at hs
        cases ho : (runs_upto F k).2 with
        | none => rw [ho] at hs; simp at hs; omega
        | some t =>
          rw [ho] at hs
          simp at hs
          have := ih2 t ho
          omega
    · rw [if_neg hz]
      refine ⟨fun r hr => ?_, fun s hs => by cases hs⟩
      cases ho : (runs_upto F k).2 with
      | none =>
        rw [ho] at hr
        obtain ⟨a, b, c⟩ := ih1 r hr
        exact ⟨a, b, le_trans c hmono⟩
      | some t =>
        rw [ho] at hr
        unfold close_runs at hr
        rw [List.mem_append, List.mem_singleton] at hr
        cases hr with
        | inl hr =>
          obtain ⟨a, b, c⟩ := ih1 r hr
          exact ⟨a, b, le_trans c hmono⟩
        | inr hr =>
          have hle := Nat.le_of_lt (ih2 t ho)
          obtain ⟨a, b, c⟩ := runs_range_arith k t hle
          rw [← sha_buf_size_eq] at a b c
          rw [hr]
          exact ⟨a, b, by rw [c]; exact hmono⟩

theorem sparse_runs_arith (n k s : Nat) (hk : k = (n + 32768 - 1) / 32768) (hs : s < k)
    (hn : n < 2 ^ 63) :
    (0 : Int) ≤ ((s * 32768 : Nat) : Int) ∧ ((s * 32768 : Nat) : Int) < 2 ^ 64
      ∧ (0 : Int) ≤ (n : Int) - ((s * 32768 : Nat) : Int)
      ∧ (n : Int) - ((s * 32768 : Nat) : Int) < 2 ^ 64 := by
  omega

theorem windows_bound_arith (n k : Nat) (hk : k = (n + 32768 - 1) / 32768) (hn : n < 2 ^ 63) :
    ((k * 32768 : Nat) : Int) < 2 ^ 64 := by
  omega

/-- The offsets and the lengths of the sparse runs of a file of fewer than `2^63`
bytes are 64-bit values. -/
theorem sparse_runs_range (F : List Byte) (hn : F.length < 2 ^ 63) :
    ∀ r ∈ sparse_runs F, 0 ≤ r.1 ∧ r.1 < 2 ^ 64 ∧ 0 ≤ r.2 ∧ r.2 < 2 ^ 64 := by
  obtain ⟨h1, h2⟩ := runs_upto_range F (n_windows F)
  have hk : n_windows F = (F.length + 32768 - 1) / 32768 := by
    unfold n_windows
    rw [sha_buf_size_eq]
  have hb := windows_bound_arith F.length (n_windows F) hk hn
  rw [← sha_buf_size_eq] at hb
  have hold : ∀ r ∈ (runs_upto F (n_windows F)).1,
      0 ≤ r.1 ∧ r.1 < 2 ^ 64 ∧ 0 ≤ r.2 ∧ r.2 < 2 ^ 64 := by
    intro r hr
    obtain ⟨a, b, c⟩ := h1 r hr
    exact ⟨a, by omega, b, by omega⟩
  intro r hr
  unfold sparse_runs at hr
  cases ho : (runs_upto F (n_windows F)).2 with
  | none =>
    rw [ho] at hr
    exact hold r hr
  | some s =>
    rw [ho] at hr
    unfold close_runs at hr
    rw [List.mem_append, List.mem_singleton] at hr
    cases hr with
    | inl hr => exact hold r hr
    | inr hr =>
      obtain ⟨a, b, c, d⟩ := sparse_runs_arith F.length (n_windows F) s hk (h2 s ho) hn
      rw [← sha_buf_size_eq] at a b c d
      rw [hr]
      exact ⟨a, b, c, d⟩

/-! ## The digest depends on the layout of the sparse runs -/

/-- The string returned by a run with `ret_sha2` and without I/O error, with an extent
iterator that only reports ranges that are really all zero: the digest of the
non-sparse content of the file, followed by the digest of its sparse runs when there
is one. -/
theorem digest_by_layout (H : HashFns) (g0 : Globals) (fuel : Nat) (a : Args)
    (ret : List Byte) (st : State) (hr : a.ret_sha2 = true) (hid : a.hashoutput.ideal)
    (ht : truthful (a.extent_iterator.getD []) a.f.data)
    (hrun : build_chunk_hashs H (init_chunk_hasher H g0) fuel a = some (ret, st))
    (hret : ret ≠ []) :
    ret = H.sha (digest_input H a.f.data) := by
  rw [digest_by_scan H g0 fuel a ret st hid ht hrun hret, hr]
  apply digest_layout H _ _ (((a.f.data.length + 511) / 512) * c_small_hash_dist)
  · exact scan_layout _ _ (by rw [c_small_hash_dist_eq]; omega)
  · rw [c_small_hash_dist_eq]; omega

/-- The digest inputs of two files with the same non-sparse content and different
sparse runs differ, when the digest function has no collision on the two extent
contexts. -/
theorem digest_input_ne (H : HashFns) (F1 F2 : List Byte)
    (hn1 : F1.length < 2 ^ 63) (hn2 : F2.length < 2 ^ 63)
    (hC : dense_content F1 = dense_content F2)
    (hR : sparse_runs F1 ≠ sparse_runs F2)
    (hcolE : H.sha (extents_ctx (sparse_runs F1)) = H.sha (extents_ctx (sparse_runs F2)) →
      extents_ctx (sparse_runs F1) = extents_ctx (sparse_runs F2)) :
    digest_input H F1 ≠ digest_input H F2 := by
  intro h
  unfold digest_input at h
  rw [hC] at h
  have hsuf := List.append_cancel_left h
  have hnil : ∀ e, H.sha e ≠ [] := by
    intro e he
    have h1 := H.sha_size e
    have h2 := H.sha_digest_size_pos
    rw [he] at h1
    simp at h1
    omega
  cases h1 : (sparse_runs F1).isEmpty with
  | true =>
    cases h2 : (sparse_runs F2).isEmpty with
    | true =>
      rw [List.isEmpty_iff] at h1 h2
      exact hR (h1.trans h2.symm)
    | false =>
      rw [h1, h2] at hsuf
      simp only [if_true, Bool.false_eq_true, if_false] at hsuf
      exact hnil _ hsuf.symm
  | false =>
    cases h2 : (sparse_runs F2).isEmpty with
    | true =>
      rw [h1, h2] at hsuf
      simp only [if_true, Bool.false_eq_true, if_false] at hsuf
      exact hnil _ hsuf
    | false =>
      rw [h1, h2] at hsuf
      simp only [Bool.false_eq_true, if_false] at hsuf
      exact hR (extents_ctx_inj _ _ (sparse_runs_range F1 hn1) (sparse_runs_range F2 hn2)
        (hcolE hsuf))

/-- C9: two files of fewer than `2^63` bytes with the same non-sparse content
(`dense_content`: the windows of 32 KiB that are not both complete and all zero, one
after the other) and different lists of sparse runs (`sparse_runs`: offset and length
of every maximal run of complete all-zero windows).  Runs of `build_chunk_hashs` on
them with `ret_sha2`, without I/O error and with extent iterators that only report
ranges that are really all zero, return the digests of the two digest inputs
(`digest_input`: the non-sparse content, followed by the digest of the sparse runs when
there is one), and these are different strings when the digest function has no
collision on the two extent contexts and on the two digest inputs.  Runs without
faults return for every fuel above `fsize + N + 1`. -/
theorem C9_layout_dependence (H : HashFns) (g0 : Globals) (fuel1 fuel2 : Nat) (a1 a2 : Args)
    (hr1 : a1.ret_sha2 = true) (hr2 : a2.ret_sha2 = true)
    (hid1 : a1.hashoutput.ideal) (hid2 : a2.hashoutput.ideal)
    (ht1 : truthful (a1.extent_iterator.getD []) a1.f.data)
    (ht2 : truthful (a2.extent_iterator.getD []) a2.f.data)
    (hn1 : a1.f.data.length < 2 ^ 63) (hn2 : a2.f.data.length < 2 ^ 63)
    (hC : dense_content a1.f.data = dense_content a2.f.data)
    (hR : sparse_runs a1.f.data ≠ sparse_runs a2.f.data)
    (hcolE : H.sha (extents_ctx (sparse_runs a1.f.data))
        = H.sha (extents_ctx (sparse_runs a2.f.data)) →
      extents_ctx (sparse_runs a1.f.data) = extents_ctx (sparse_runs a2.f.data))
    (hcolC : H.sha (digest_input H a1.f.data) = H.sha (digest_input H a2.f.data) →
      digest_input H a1.f.data = digest_input H a2.f.data) :
    (a1.fault_free → a2.fault_free →
        a1.f.data.length + n_chunks + 1 < fuel1 → a2.f.data.length + n_chunks + 1 < fuel2 →
        ∃ ret1 st1 ret2 st2,
          build_chunk_hashs H (init_chunk_hasher H g0) fuel1 a1 = some (ret1, st1) ∧ ret1 ≠ []
            ∧ build_chunk_hashs H (init_chunk_hasher H g0) fuel2 a2 = some (ret2, st2)
            ∧ ret2 ≠ [])
      ∧ ∀ (ret1 ret2 : List Byte) (st1 st2 : State),
          build_chunk_hashs H (init_chunk_hasher H g0) fuel1 a1 = some (ret1, st1) → ret1 ≠ [] →
          build_chunk_hashs H (init_chunk_hasher H g0) fuel2 a2 = some (ret2, st2) → ret2 ≠ [] →
          ret1 = H.sha (digest_input H a1.f.data) ∧ ret2 = H.sha (digest_input H a2.f.data)
            ∧ ret1 ≠ ret2 := by
  constructor
  · intro hff1 hff2 hf1 hf2
    obtain ⟨ret1, st1, h1, n1⟩ := build_chunk_hashs_terminates H _ fuel1 a1
      (template_fits H g0) hff1 hf1
    obtain ⟨ret2, st2, h2, n2⟩ := build_chunk_hashs_terminates H _ fuel2 a2
      (template_fits H g0) hff2 hf2
    exact ⟨ret1, st1, ret2, st2, h1, n1, h2, n2⟩
  · intro ret1 ret2 st1 st2 hrun1 hne1 hrun2 hne2
    have d1 := digest_by_layout H g0 fuel1 a1 ret1 st1 hr1 hid1 ht1 hrun1 hne1
    have d2 := digest_by_layout H g0 fuel2 a2 ret2 st2 hr2 hid2 ht2 hrun2 hne2
    refine ⟨d1, d2, ?_⟩
    intro heq
    rw [d1, d2] at heq
    exact digest_input_ne H _ _ hn1 hn2 hC hR hcolE (hcolC heq)

/-! ### The layout of `layout_file` -/

theorem layout_file_length (k : Nat) : (layout_file k).length = k * sha_buf_size + 1 := by
  unfold layout_file
  rw [List.length_append, List.length_replicate]
  rfl

theorem layout_windows_count (k : Nat) : (k * 32768 + 1 + 32768 - 1) / 32768 = k + 1 := by
  omega

theorem layout_file_windows (k : Nat) : n_windows (layout_file k) = k + 1 := by
  unfold n_windows
  rw [layout_file_length, sha_buf_size_eq]
  exact layout_windows_count k

theorem layout_in_arith (k j : Nat) (h : j < k) :
    j * 32768 + 32768 ≤ k * 32768 ∧ (j + 1) * 32768 ≤ k * 32768 + 1 := by
  omega

theorem layout_file_sparse (k j : Nat) (h : j < k) : sparse_window (layout_file k) j = true := by
  obtain ⟨a1, a2⟩ := layout_in_arith k j h
  rw [← sha_buf_size_eq] at a1 a2
  have hw : file_window (layout_file k) j = List.replicate sha_buf_size 0 := by
    unfold file_window layout_file
    rw [slice_append_stable _ _ _ _ (by rw [slice_length, List.length_replicate]; omega),
      slice_replicate _ _ _ a1]
  unfold sparse_window
  rw [hw, buf_is_zero_replicate, layout_file_length]
  simp [a2]

theorem layout_file_last (k : Nat) :
    file_window (layout_file k) k = [65] ∧ sparse_window (layout_file k) k = false := by
  constructor
  · unfold file_window layout_file
    have e : k * sha_buf_size = (List.replicate (k * sha_buf_size) (0 : Byte)).length :=
      (List.length_replicate _ _).symm
    rw [e, List.length_replicate]
    nth_rewrite 2 [e]
    exact slice_append_end _ _ _ (by rw [sha_buf_size_eq]; decide)
  · unfold sparse_window
    rw [layout_file_length]
    have : ¬ (k + 1) * sha_buf_size ≤ k * sha_buf_size + 1 := by
      rw [sha_buf_size_eq]; omega
    simp [this]

theorem layout_file_head (k : Nat) :
    ∀ j, j ≤ k → dense_upto (layout_file k) j = []
      ∧ runs_upto (layout_file k) j = ([], if j = 0 then none else some 0)
  | 0, _ => ⟨rfl, rfl⟩
  | j + 1, h => by
    obtain ⟨ih1, ih2⟩ := layout_file_head k j (by omega)
    have hs := layout_file_sparse k j (by omega)
    rw [dense_upto_succ, runs_upto_succ, hs, ih1, ih2]
    simp only [if_true, List.append_nil, true_and]
    by_cases hj : j = 0
    · subst hj; rfl
    · rw [if_neg hj, if_neg (by omega)]
      rfl

theorem layout_file_dense (k : Nat) : dense_content (layout_file k) = [65] := by
  unfold dense_content
  rw [layout_file_windows, dense_upto_succ, (layout_file_head k k (Nat.le_refl k)).1,
    (layout_file_last k).2, (layout_file_last k).1]
  rfl

theorem layout_file_runs (k : Nat) (hk : 0 < k) :
    sparse_runs (layout_file k)
      = [(((0 * sha_buf_size : Nat) : Int),
          ((k * sha_buf_size : Nat) : Int) - ((0 * sha_buf_size : Nat) : Int))] := by
  unfold sparse_runs
  rw [layout_file_windows, runs_upto_succ, (layout_file_head k k (Nat.le_refl k)).2,
    (layout_file_last k).2]
  simp only [Bool.false_eq_true, if_false]
  rw [if_neg (show ¬ k = 0 by omega)]
  rfl

theorem layout_file_input (H : HashFns) (k : Nat) (hk : 0 < k) :
    digest_input H (layout_file k)
      = [65] ++ H.sha (extents_ctx [(((0 * sha_buf_size : Nat) : Int),
          ((k * sha_buf_size : Nat) : Int) - ((0 * sha_buf_size : Nat) : Int))]) := by
  unfold digest_input
  rw [layout_file_dense, layout_file_runs k hk]
  rfl

/-- Witness of C9: one window of zero bytes followed by the byte `A`, and two windows
of zero bytes followed by the byte `A`.  The non-sparse content is the byte `A` for
both, the sparse runs are `(0, 32768)` and `(0, 65536)`, and both runs close their
sparse run inside the loop; they return different strings. -/
theorem C9_layout_dependence_witness :
    ∃ ret1 st1 ret2 st2,
      build_chunk_hashs demo_digests (init_chunk_hasher demo_digests ⟨[]⟩) 70000
          (plain_args (layout_file 1) true) = some (ret1, st1)
        ∧ build_chunk_hashs demo_digests (init_chunk_hasher demo_digests ⟨[]⟩) 70000
            (plain_args (layout_file 2) true) = some (ret2, st2)
        ∧ dense_content (layout_file 1) = dense_content (layout_file 2)
        ∧ sparse_runs (layout_file 1) ≠ sparse_runs (layout_file 2)
        ∧ ret1 ≠ ret2 := by
  have hd1 := layout_file_dense 1
  have hd2 := layout_file_dense 2
  have hs1 := layout_file_runs 1 (by decide)
  have hs2 := layout_file_runs 2 (by decide)
  have hl1 := layout_file_length 1
  have hl2 := layout_file_length 2
  have hC : dense_content (layout_file 1) = dense_content (layout_file 2) := by rw [hd1, hd2]
  have hR : sparse_runs (layout_file 1) ≠ sparse_runs (layout_file 2) := by
    rw [hs1, hs2]; decide
  have hE : demo_digests.sha (extents_ctx (sparse_runs (layout_file 1)))
      ≠ demo_digests.sha (extents_ctx (sparse_runs (layout_file 2))) := by
    rw [hs1, hs2]; decide
  have hI : demo_digests.sha (digest_input demo_digests (layout_file 1))
      ≠ demo_digests.sha (digest_input demo_digests (layout_file 2)) := by
    rw [layout_file_input _ 1 (by decide), layout_file_input _ 2 (by decide)]
    decide
  have key : ∀ F1 F2 : List Byte, F1.length < 2 ^ 63 → F2.length < 2 ^ 63 →
      dense_content F1 = dense_content F2 → sparse_runs F1 ≠ sparse_runs F2 →
      demo_digests.sha (extents_ctx (sparse_runs F1))
        ≠ demo_digests.sha (extents_ctx (sparse_runs F2)) →
      demo_digests.sha (digest_input demo_digests F1)
        ≠ demo_digests.sha (digest_input demo_digests F2) →
      F1.length + n_chunks + 1 < 70000 → F2.length + n_chunks + 1 < 70000 →
      ∃ ret1 st1 ret2 st2,
        build_chunk_hashs demo_digests (init_chunk_hasher demo_digests ⟨[]⟩) 70000
            (plain_args F1 true) = some (ret1, st1)
          ∧ build_chunk_hashs demo_digests (init_chunk_hasher demo_digests ⟨[]⟩) 70000
              (plain_args F2 true) = some (ret2, st2)
          ∧ ret1 ≠ ret2 := by
    intro F1 F2 hn1 hn2 hC hR hE hI hf1 hf2
    have T := C9_layout_dependence demo_digests ⟨[]⟩ 70000 70000 (plain_args F1 true) (plain_args F2 true)
      rfl rfl (fun _ _ => rfl) (fun _ _ => rfl) (truthful_nil _) (truthful_nil _) hn1 hn2
      hC hR (fun h => absurd h hE) (fun h => absurd h hI)
    obtain ⟨ret1, st1, ret2, st2, h1, n1, h2, n2⟩ :=
      T.1 (plain_args_fault_free _ _) (plain_args_fault_free _ _) hf1 hf2
    exact ⟨ret1, st1, ret2, st2, h1, h2, (T.2 ret1 ret2 st1 st2 h1 n1 h2 n2).2.2⟩
  obtain ⟨ret1, st1, ret2, st2, h1, h2, hne⟩ := key (layout_file 1) (layout_file 2)
    (by rw [hl1, sha_buf_size_eq]; decide) (by rw [hl2, sha_buf_size_eq]; decide)
    hC hR hE hI
    (by rw [hl1, n_chunks_eq, sha_buf_size_eq]; decide)
    (by rw [hl2, n_chunks_eq, sha_buf_size_eq]; decide)
  exact ⟨ret1, st1, ret2, st2, h1, h2, hC, hR, hne⟩

end ChunkHasher
